import Mathlib

/-!
ZZGLIB `zHash`: a shallow embedding and its verification

The development follows `src/ZZG_Hash.h` (the hash table `zHash`, its bucket chains and
the per-bucket B-tree `zBTree`) and `src/ZZG_Sync.cpp` (the bucket read/write lock).

Conventions of the embedding.

* A pointer to a data node is the node itself; the slab slot it occupies is kept in the
  field `slot`, so that `LockFree` receives the slot the source frees.
* The arrays `Key[0 .. KeyNum)` and `pChild[0 .. KeyNum]` of a tree node are lists; a leaf
  (`pChild[0] == 0` in the source) has the empty child list.  Parent pointers are carried by
  the recursion: the caller of a recursive call is the parent.
* The slab heap `zMemHeap<T>` is a parameter (`zMemHeap H`): every statement holds for every
  behaviour of `LockAlloc`/`LockFree`.
* The process heap (`malloc`, `operator new`) is the script `sysHeap` of the table state: the
  head of the script is the outcome of the next request that the source checks.
* Execution is sequential (one thread).  The bucket lock words are modelled because a
  single thread can block on them; the visitor counter, `FlagResize` and `ResizeLock` are
  balanced by every operation and are left out.
* `size_t` quantities that count buckets or records are natural numbers: a bucket array of
  `Buckets` entries is resident in memory, so `Buckets << 1` stays far below `2^64`.  The
  counters that the source decrements (`DataCount`, the lock word) wrap as in the source.
-/

namespace ZZG

/-! ## Constants of `ZZG_Hash.h` -/

/-- Maximum length of a bucket's linked list (`MAX_LINKEDLIST_SIZE`). -/
def MAX_LINKEDLIST_SIZE : Nat := 6
/-- Minimum size of a bucket's B-tree (`MIN_BTREE_SIZE`). -/
def MIN_BTREE_SIZE : Nat := 5
/-- Minimum degree of the B-tree. -/
def M : Nat := 3
/-- Most keys a tree node holds. -/
def KEY_MAX : Nat := 2 * M - 1
/-- Fewest keys a non-root tree node holds. -/
def KEY_MIN : Nat := M - 1
/-- Most children of a tree node. -/
def CHILD_MAX : Nat := KEY_MAX + 1
/-- Fewest children of an internal non-root tree node. -/
def CHILD_MIN : Nat := KEY_MIN + 1

/-- Return codes of `zHash` (`enum RETURN_CODE`): `1`, `-1` and `0` in the source. -/
inductive RETURN_CODE where
  | HASH_KEY_EXIST
  | ERR_MEMORY
  | SUCCESS
  deriving DecidableEq

/-- Ways in which a run of the source fails to return a result.  `illFormed` stands for a
call that does not type-check: the member function that contains it cannot be instantiated,
a program that uses it does not compile, and the call has no run.  `badAlloc` stands for an
exception `std::bad_alloc` that leaves the public member uncaught. -/
inductive Fault where
  | hang
  | undefinedBehaviour
  | outOfFuel
  | outOfModel
  | illFormed
  | badAlloc
  deriving DecidableEq

/-- Interface of the slab heap `zMemHeap<T>` over a state `H`: the constructor
`zMemHeap(MaxMum)`, `LockAlloc` (the slot, or `none` for a null result) and `LockFree`. -/
structure zMemHeap (H : Type) where
  create : Nat → H
  LockAlloc : H → Option Nat × H
  LockFree : H → Nat → H

/-- Data node (`DATA_NODE<TK,TV>`): cached hash, key and value; `slot` is its cell in the
data-node heap.  The link `pNext` is the tail of the list the node stands in. -/
structure DATA_NODE (K V : Type) where
  slot : Nat
  h : Nat
  key : K
  value : V
  deriving DecidableEq

/-- Tree node (`zBTreeNode<TK,TV>`): `slot` is its cell in the tree-node heap. -/
inductive zBTreeNode (K V : Type) where
  | mk (slot : Nat) (Key : List (DATA_NODE K V)) (pChild : List (zBTreeNode K V))

namespace zBTreeNode

variable {K V : Type}

/-- Slot of the node in the tree-node heap. -/
def slot : zBTreeNode K V → Nat
  | mk s _ _ => s

/-- Keys `Key[0 .. KeyNum)`. -/
def Key : zBTreeNode K V → List (DATA_NODE K V)
  | mk _ ks _ => ks

/-- Children `pChild[0 .. KeyNum]`, empty for a leaf. -/
def pChild : zBTreeNode K V → List (zBTreeNode K V)
  | mk _ _ cs => cs

/-- Number of keys of the node. -/
def KeyNum (p : zBTreeNode K V) : Nat := p.Key.length

/-- Number of loop iterations a descent from the node needs (levels on the leftmost path). -/
def depth : zBTreeNode K V → Nat
  | mk _ _ [] => 1
  | mk _ _ (c :: _) => depth c + 1

/-- Member `insertKey(pos, key)`: shift the keys from `pos` up and store at `pos`. -/
def insertKey (Key : List (DATA_NODE K V)) (pos : Nat) (key : DATA_NODE K V) :
    List (DATA_NODE K V) :=
  Key.take pos ++ key :: Key.drop pos

/-- Member `insertChild(pos, pN)`. -/
def insertChild (pChild : List (zBTreeNode K V)) (pos : Nat) (pN : zBTreeNode K V) :
    List (zBTreeNode K V) :=
  pChild.take pos ++ pN :: pChild.drop pos

/-- Member `removeKey(pos)` followed by the decrement of `KeyNum`. -/
def removeKey (Key : List (DATA_NODE K V)) (pos : Nat) : List (DATA_NODE K V) :=
  Key.take pos ++ Key.drop (pos + 1)

/-- Member `removeChild(pos)` followed by the decrement of `KeyNum`. -/
def removeChild (pChild : List (zBTreeNode K V)) (pos : Nat) : List (zBTreeNode K V) :=
  pChild.take pos ++ pChild.drop (pos + 1)

/-- Store `c` in `pChild[pos]`. -/
def setChild (pChild : List (zBTreeNode K V)) (pos : Nat) (c : zBTreeNode K V) :
    List (zBTreeNode K V) :=
  pChild.take pos ++ c :: pChild.drop (pos + 1)

/-- Store `d` in `Key[pos]`. -/
def setKey (Key : List (DATA_NODE K V)) (pos : Nat) (d : DATA_NODE K V) :
    List (DATA_NODE K V) :=
  Key.take pos ++ d :: Key.drop (pos + 1)

end zBTreeNode

/-! ## The B-tree `zBTree` -/

namespace zBTreeNode

variable {K V H : Type} [LinearOrder K]

/-- Member `searchKey(key, h)`: index of the first key that is greater than `(h, key)`,
`KeyNum` if there is none. -/
def searchKey (key : K) (h : Nat) : List (DATA_NODE K V) → Nat
  | [] => 0
  | d :: ds => if h < d.h ∨ (h = d.h ∧ key < d.key) then 0 else searchKey key h ds + 1

/-- The key `Key[index]` for `index = index1 - 1`, when `index >= 0`. -/
def keyBefore (Key : List (DATA_NODE K V)) (index1 : Nat) : Option (DATA_NODE K V) :=
  if index1 = 0 then none else Key[index1 - 1]?

/-- Whether `Key[index]` for `index = index1 - 1 >= 0` carries exactly `(h, key)`; the node
is returned when it does. -/
def foundAt (Key : List (DATA_NODE K V)) (index1 : Nat) (key : K) (h : Nat) :
    Option (DATA_NODE K V) :=
  match keyBefore Key index1 with
  | some e => if h = e.h ∧ key = e.key then some e else none
  | none => none

mutual
/-- The loop of `zBTree::Search` from node `p`, with `FindData` reading the key found:
`index = searchKey(key, h) - 1`; a hit at `Key[index]` ends the search, otherwise descend
to `pChild[index + 1]`. -/
def Search (key : K) (h : Nat) : zBTreeNode K V → Option (DATA_NODE K V)
  | mk _ Key pChild =>
    match foundAt Key (searchKey key h Key) key h with
    | some e => some e
    | none => SearchAt key h pChild (searchKey key h Key)
/-- The search continued in the child `pChild[i]`; a null child ends it. -/
def SearchAt (key : K) (h : Nat) : List (zBTreeNode K V) → Nat → Option (DATA_NODE K V)
  | [], _ => none
  | c :: _, 0 => Search key h c
  | _ :: cs, i + 1 => SearchAt key h cs i
end

mutual
/-- Member `recursive_getData`: the data of all subtrees first, then the node's own keys. -/
def recursive_getData : zBTreeNode K V → List (DATA_NODE K V)
  | mk _ Key pChild => getDataList pChild ++ Key
/-- The data of the subtrees `pChild[0]`, `pChild[1]`, ... in this order. -/
def getDataList : List (zBTreeNode K V) → List (DATA_NODE K V)
  | [] => []
  | c :: cs => recursive_getData c ++ getDataList cs
end

mutual
/-- Member `recursive_clear`: free the subtrees, then the node itself. -/
def recursive_clear (Hp : zMemHeap H) : zBTreeNode K V → H → H
  | mk slot _ pChild, hp => Hp.LockFree (clearList Hp pChild hp) slot
/-- Clearing of the subtrees `pChild[0]`, `pChild[1]`, ... in this order. -/
def clearList (Hp : zMemHeap H) : List (zBTreeNode K V) → H → H
  | [], hp => hp
  | c :: cs, hp => clearList Hp cs (recursive_clear Hp c hp)
end

end zBTreeNode

/-- Outcome of `zBTree::Insert`: `0` (stored), `1` with the node already there, `-1`;
`noFuel` marks a descent that was cut off by the model's iteration bound. -/
inductive InsertStatus (K V : Type) where
  | inserted
  | found (e : DATA_NODE K V)
  | memError
  | noFuel

/-- The tree object `zBTree<TK,TV>`: record count `Size` and root pointer `m_pRoot`.  Its
node heap `pNodeHeap` is the table's `pBTNodeHeap`. -/
structure zBTree (K V : Type) where
  Size : Nat
  m_pRoot : Option (zBTreeNode K V)

namespace zBTreeNode

variable {K V H : Type} [LinearOrder K]

/-- The two halves `splitChild` makes of a full node `pNode` (left: the node itself with
`KeyNum = KEY_MIN`; right: the new node in slot `r`). -/
def splitLeft (pNode : zBTreeNode K V) : zBTreeNode K V :=
  mk pNode.slot (pNode.Key.take KEY_MIN) (pNode.pChild.take CHILD_MIN)

/-- Right half of a split: keys `Key[CHILD_MIN ..]` and children `pChild[CHILD_MIN ..]`. -/
def splitRight (r : Nat) (pNode : zBTreeNode K V) : zBTreeNode K V :=
  mk r ((pNode.Key.drop CHILD_MIN).take KEY_MIN) ((pNode.pChild.drop CHILD_MIN).take CHILD_MIN)

/-- The loop of `searchForInsert` from the node `p` (`hot` after the iteration), with the
store that `Insert` makes at the leaf where the loop ends.  `d` is the data node the caller
writes into the returned slot; its `(h, key)` is the pair searched for.  A full child met on
the way down is split first (`splitChild`), which takes one node from the heap. -/
def searchForInsert (Hp : zMemHeap H) :
    Nat → zBTreeNode K V → DATA_NODE K V → H → InsertStatus K V × zBTreeNode K V × H
  | 0, p, _, hp => (.noFuel, p, hp)
  | fuel + 1, p, d, hp =>
    let index1 := searchKey d.key d.h p.Key
    match foundAt p.Key index1 d.key d.h with
    | some e => (.found e, p, hp)
    | none =>
      match p.pChild[index1]? with
      | none => (.inserted, mk p.slot (insertKey p.Key index1 d) p.pChild, hp)
      | some c =>
        if KEY_MAX ≤ c.KeyNum then
          match Hp.LockAlloc hp with
          | (none, hp1) => (.memError, p, hp1)
          | (some r, hp1) =>
            match c.Key[KEY_MIN]? with
            | none => (.noFuel, p, hp1) -- not reached: a full node has `Key[KEY_MIN]`
            | some med =>
              if med.h < d.h ∨ (d.h = med.h ∧ med.key < d.key) then
                match searchForInsert Hp fuel (splitRight r c) d hp1 with
                | (st, cR, hp2) =>
                  (st, mk p.slot (insertKey p.Key index1 med)
                    (insertChild (setChild p.pChild index1 (splitLeft c)) (index1 + 1) cR), hp2)
              else if d.h = med.h ∧ d.key = med.key then
                (.found med, mk p.slot (insertKey p.Key index1 med)
                  (insertChild (setChild p.pChild index1 (splitLeft c)) (index1 + 1)
                    (splitRight r c)), hp1)
              else
                match searchForInsert Hp fuel (splitLeft c) d hp1 with
                | (st, cL, hp2) =>
                  (st, mk p.slot (insertKey p.Key index1 med)
                    (insertChild (setChild p.pChild index1 cL) (index1 + 1) (splitRight r c)),
                    hp2)
        else
          match searchForInsert Hp fuel c d hp with
          | (st, c1, hp1) => (st, mk p.slot p.Key (setChild p.pChild index1 c1), hp1)

/-- Borrowing from the left sibling `lc = pChild[n-1]` in `solveUnderflow`: the parent key
`Key[n-1]` moves down to the front of `q`, the last child of `lc` moves over when `q` is
internal, and the last key of `lc` moves up. -/
def borrowLeft (p : zBTreeNode K V) (n : Nat) (q lc : zBTreeNode K V) : zBTreeNode K V :=
  match p.Key[n - 1]?, lc.Key[lc.KeyNum - 1]? with
  | some sep, some up =>
    let qChild :=
      match q.pChild, lc.pChild[lc.KeyNum]? with
      | [], _ => []
      | c :: cs, some moved => insertChild (c :: cs) 0 moved
      | c :: cs, none => c :: cs
    let q1 := mk q.slot (insertKey q.Key 0 sep) qChild
    let lc1 := mk lc.slot (lc.Key.take (lc.KeyNum - 1)) (lc.pChild.take lc.KeyNum)
    mk p.slot (setKey p.Key (n - 1) up) (setChild (setChild p.pChild n q1) (n - 1) lc1)
  | _, _ => p

/-- Borrowing from the right sibling `rc = pChild[n+1]` in `solveUnderflow`: the parent key
`Key[n]` moves down to the end of `q`, the first child of `rc` moves over when `rc` is
internal, and the first key of `rc` moves up. -/
def borrowRight (p : zBTreeNode K V) (n : Nat) (q rc : zBTreeNode K V) : zBTreeNode K V :=
  match p.Key[n]?, rc.Key with
  | some sep, up :: _ =>
    let qChild :=
      match rc.pChild with
      | [] => q.pChild
      | moved :: _ => q.pChild ++ [moved]
    let q1 := mk q.slot (q.Key ++ [sep]) qChild
    let rc1 := mk rc.slot (removeKey rc.Key 0) (removeChild rc.pChild 0)
    mk p.slot (setKey p.Key n up) (setChild (setChild p.pChild n q1) (n + 1) rc1)
  | _, _ => p

/-- Merging `q = pChild[n]` into its left sibling `lc` (which holds `KEY_MIN` keys): the
parent key `Key[n-1]` moves down behind the keys of `lc`, the keys and children of `q` follow,
and the parent loses the key and the child `q`. -/
def mergeLeft (p : zBTreeNode K V) (n : Nat) (q lc : zBTreeNode K V) : zBTreeNode K V :=
  match p.Key[n - 1]? with
  | some sep =>
    let lc1 := mk lc.slot (lc.Key ++ sep :: q.Key) (lc.pChild ++ q.pChild)
    mk p.slot (removeKey p.Key (n - 1)) (removeChild (setChild p.pChild (n - 1) lc1) n)
  | none => p

/-- Merging the right sibling `rc` into `q = pChild[n]` (which holds `KEY_MIN - 1` keys): the
parent key `Key[n]` moves down behind the keys of `q`, the keys and children of `rc` follow,
and the parent loses the key and the child `rc`. -/
def mergeRight (p : zBTreeNode K V) (n : Nat) (q rc : zBTreeNode K V) : zBTreeNode K V :=
  match p.Key[n]? with
  | some sep =>
    let q1 := mk q.slot (q.Key ++ sep :: rc.Key) (q.pChild ++ rc.pChild)
    mk p.slot (removeKey p.Key n) (removeChild (setChild p.pChild n q1) (n + 1))
  | none => p

/-- One call `solveUnderflow(q)` for the non-root node `q = p->pChild[n]`, seen from its
parent `p`.  The Boolean tells whether the source goes on with `solveUnderflow(p)` (it does
after a merge only). -/
def solveUnderflow (Hp : zMemHeap H) (hp : H) (p : zBTreeNode K V) (n : Nat) :
    zBTreeNode K V × Bool × H :=
  match p.pChild[n]? with
  | none => (p, false, hp)
  | some q =>
    if KEY_MIN ≤ q.KeyNum then (p, false, hp)
    else
      match (if 0 < n then p.pChild[n - 1]? else none),
            (if n < p.KeyNum then p.pChild[n + 1]? else none) with
      | some lc, some rc =>
        if KEY_MIN < lc.KeyNum then (borrowLeft p n q lc, false, hp)
        else if KEY_MIN < rc.KeyNum then (borrowRight p n q rc, false, hp)
        else (mergeLeft p n q lc, true, Hp.LockFree hp q.slot)
      | some lc, none =>
        if KEY_MIN < lc.KeyNum then (borrowLeft p n q lc, false, hp)
        else (mergeLeft p n q lc, true, Hp.LockFree hp q.slot)
      | none, some rc =>
        if KEY_MIN < rc.KeyNum then (borrowRight p n q rc, false, hp)
        else (mergeRight p n q rc, true, Hp.LockFree hp rc.slot)
      | none, none => (p, false, hp)

/-- The parent `p` after its child `pChild[n]` came back from a removal below: when the
source has called `solveUnderflow` on that child (`called`), the call is made here. -/
def afterChild (Hp : zMemHeap H) (hp : H) (p : zBTreeNode K V) (n : Nat) (called : Bool) :
    zBTreeNode K V × Bool × H :=
  if called then solveUnderflow Hp hp p n else (p, false, hp)

mutual
/-- Removal of the in-order successor below `q`: the walk `while (q->pChild[0]) q = q->pChild[0]`,
the removal of `Key[0]` of the leaf reached, and the `solveUnderflow` calls on the way back
up to `q`.  The result is the key removed, the subtree, and whether `solveUnderflow(q)` is
called next. -/
def removeMin (Hp : zMemHeap H) (hp : H) :
    zBTreeNode K V → Option (DATA_NODE K V × zBTreeNode K V × Bool × H)
  | mk slot Key [] =>
    match Key with
    | [] => none
    | k :: rest => some (k, mk slot rest [], true, hp)
  | mk slot Key (c :: cs) =>
    match removeMin Hp hp c with
    | none => none
    | some (k, c1, called, hp1) =>
      match afterChild Hp hp1 (mk slot Key (c1 :: cs)) 0 called with
      | (p1, called1, hp2) => some (k, p1, called1, hp2)
/-- The successor removal applied to the child `pChild[i]`. -/
def removeMinAt (Hp : zMemHeap H) (hp : H) :
    List (zBTreeNode K V) → Nat → Option (DATA_NODE K V × zBTreeNode K V × Bool × H)
  | [], _ => none
  | c :: _, 0 => removeMin Hp hp c
  | _ :: cs, i + 1 => removeMinAt Hp hp cs i
end

mutual
/-- The body of `zBTree::Remove` below node `p`: `Search` down to the key, the swap with the
in-order successor when the key sits in an internal node, the removal at the leaf and the
`solveUnderflow` calls on the way back up to `p`.  The result is the data node removed (`none`
when `(h, key)` is not in the subtree), the subtree, and whether `solveUnderflow(p)` is called
next. -/
def removeRec (Hp : zMemHeap H) (key : K) (h : Nat) (hp : H) :
    zBTreeNode K V → Option (DATA_NODE K V) × zBTreeNode K V × Bool × H
  | mk slot Key pChild =>
    let index1 := searchKey key h Key
    match foundAt Key index1 key h with
    | some e =>
      match pChild with
      | [] => (some e, mk slot (removeKey Key (index1 - 1)) [], true, hp)
      | c :: cs =>
        match removeMinAt Hp hp (c :: cs) index1 with
        | none => (none, mk slot Key pChild, false, hp)
        | some (succ, c1, called, hp1) =>
          match afterChild Hp hp1
              (mk slot (setKey Key (index1 - 1) succ) (setChild (c :: cs) index1 c1))
              index1 called with
          | (p1, called1, hp2) => (some e, p1, called1, hp2)
    | none =>
      match removeAt Hp key h hp pChild index1 with
      | none => (none, mk slot Key pChild, false, hp)
      | some (e, c1, called, hp1) =>
        match afterChild Hp hp1 (mk slot Key (setChild pChild index1 c1)) index1 called with
        | (p1, called1, hp2) => (some e, p1, called1, hp2)
/-- The removal continued in the child `pChild[i]`; `none` when the key is not found there. -/
def removeAt (Hp : zMemHeap H) (key : K) (h : Nat) (hp : H) :
    List (zBTreeNode K V) → Nat → Option (DATA_NODE K V × zBTreeNode K V × Bool × H)
  | [], _ => none
  | c :: _, 0 =>
    match removeRec Hp key h hp c with
    | (some e, c1, called, hp1) => some (e, c1, called, hp1)
    | (none, _, _, _) => none
  | _ :: cs, i + 1 => removeAt Hp key h hp cs i
end

end zBTreeNode

namespace zBTreeNode

variable {K V : Type} [LinearOrder K]

mutual
/-- The store `pD->value = v` through the pointer that `Search` returns for `(h, key)`: the
walk of `Search` is repeated and the value of the key it stops at is replaced. -/
def storeValue (key : K) (h : Nat) (v : V) : zBTreeNode K V → zBTreeNode K V
  | mk slot Key pChild =>
    match foundAt Key (searchKey key h Key) key h with
    | some e => mk slot (setKey Key (searchKey key h Key - 1) { e with value := v }) pChild
    | none => mk slot Key (storeValueAt key h v pChild (searchKey key h Key))
/-- The store continued in the child `pChild[i]`. -/
def storeValueAt (key : K) (h : Nat) (v : V) :
    List (zBTreeNode K V) → Nat → List (zBTreeNode K V)
  | [], _ => []
  | c :: cs, 0 => storeValue key h v c :: cs
  | c :: cs, i + 1 => c :: storeValueAt key h v cs i
end

end zBTreeNode

namespace zBTree

variable {K V H : Type} [LinearOrder K]

/-- Member `Count()`. -/
def Count (t : zBTree K V) : Nat := t.Size

/-- Member `FindData(key, h)`: the data node of `(key, h)`, `none` for the null result. -/
def FindData (t : zBTree K V) (key : K) (h : Nat) : Option (DATA_NODE K V) :=
  match t.m_pRoot with
  | none => none
  | some root => root.Search key h

/-- Member `FindAllData(pBuf)`: the buffer contents, in the order they are written. -/
def FindAllData (t : zBTree K V) : List (DATA_NODE K V) :=
  match t.m_pRoot with
  | none => []
  | some root => root.recursive_getData

/-- Member `Clear()`: all tree nodes go back to the node heap and the root becomes null. -/
def Clear (Hp : zMemHeap H) (t : zBTree K V) (hp : H) : zBTree K V × H :=
  match t.m_pRoot with
  | none => (t, hp)
  | some root => ({ t with m_pRoot := none }, root.recursive_clear Hp hp)

/-- The part of `Insert` after the root check: `searchForInsert` from the root and the store
at the leaf; `Size` grows when a key was stored. -/
def insertFrom (Hp : zMemHeap H) (t : zBTree K V) (root : zBTreeNode K V)
    (d : DATA_NODE K V) (hp : H) : InsertStatus K V × zBTree K V × H :=
  match zBTreeNode.searchForInsert Hp root.depth root d hp with
  | (.inserted, r, hp1) => (.inserted, { Size := t.Size + 1, m_pRoot := some r }, hp1)
  | (st, r, hp1) => (st, { Size := t.Size, m_pRoot := some r }, hp1)

/-- Member `Insert(key, h, pD)` together with the caller's store `*pD = d`, where
`(d.key, d.h) = (key, h)`.  A full root is split first, which takes two nodes from the heap
(the first is given back when the second cannot be had); an empty tree gets a root. -/
def Insert (Hp : zMemHeap H) (t : zBTree K V) (d : DATA_NODE K V) (hp : H) :
    InsertStatus K V × zBTree K V × H :=
  match t.m_pRoot with
  | none =>
    match Hp.LockAlloc hp with
    | (none, hp1) => (.memError, t, hp1)
    | (some r, hp1) => (.inserted, { Size := t.Size + 1, m_pRoot := some (.mk r [d] []) }, hp1)
  | some root =>
    if root.KeyNum = KEY_MAX then
      match Hp.LockAlloc hp with
      | (none, hp1) => (.memError, t, hp1)
      | (some pNode, hp1) =>
        match Hp.LockAlloc hp1 with
        | (none, hp2) => (.memError, t, Hp.LockFree hp2 pNode)
        | (some pRight, hp2) =>
          match root.Key[KEY_MIN]? with
          | none => (.noFuel, t, hp2) -- not reached: a full root has `Key[KEY_MIN]`
          | some med =>
            insertFrom Hp t
              (.mk pNode [med] [zBTreeNode.splitLeft root, zBTreeNode.splitRight pRight root])
              d hp2
    else insertFrom Hp t root d hp

/-- Member `Remove(key, h)`: the data node removed (`none` for the null result).  On the root
`solveUnderflow` only replaces an internal root that has lost its last key by its only
child; a leaf root is left as it is. -/
def Remove (Hp : zMemHeap H) (t : zBTree K V) (key : K) (h : Nat) (hp : H) :
    Option (DATA_NODE K V) × zBTree K V × H :=
  match t.m_pRoot with
  | none => (none, t, hp)
  | some root =>
    match zBTreeNode.removeRec Hp key h hp root with
    | (none, _, _, _) => (none, t, hp)
    | (some e, root1, called, hp1) =>
      match root.pChild, root1.pChild with
      | _ :: _, c :: _ =>
        if called ∧ root1.KeyNum = 0 then
          (some e, { Size := t.Size - 1, m_pRoot := some c }, Hp.LockFree hp1 root1.slot)
        else (some e, { Size := t.Size - 1, m_pRoot := some root1 }, hp1)
      | _, _ => (some e, { Size := t.Size - 1, m_pRoot := some root1 }, hp1)

/-- The store `pD->value = v` for the data node `FindData(key, h)` returns. -/
def storeValue (t : zBTree K V) (key : K) (h : Nat) (v : V) : zBTree K V :=
  match t.m_pRoot with
  | none => t
  | some root => { t with m_pRoot := some (root.storeValue key h v) }

end zBTree

/-! ## The bucket lock `zRWLock` (`ZZG_Sync.cpp`), run by one thread -/

/-- Writer bit of the lock word (`WRITELOCKMASK`). -/
def WRITELOCKMASK : Nat := 0x1000000

/-- The read/write lock: the 32-bit word `Flag` and the hint `WriteFlag`. -/
structure zRWLock where
  Flag : Nat
  WriteFlag : Bool
  deriving DecidableEq

namespace zRWLock

/-- The lock as its constructor leaves it. -/
def init : zRWLock := { Flag := 0, WriteFlag := false }

/-- Member `RLock`: the word is incremented; when `WriteFlag` is set or the writer bit shows in
the word, the increment is taken back and the loop tries again.  With one thread nothing
changes between two rounds, so a round that fails is repeated for ever. -/
def RLock (l : zRWLock) : Except Fault zRWLock :=
  if l.WriteFlag = true ∨ ((l.Flag + 1) % 2 ^ 32) &&& WRITELOCKMASK ≠ 0 then .error .hang
  else .ok { l with Flag := (l.Flag + 1) % 2 ^ 32 }

/-- Member `RUnlock`: `fetch_sub(Flag, 1)` on the 32-bit word. -/
def RUnlock (l : zRWLock) : zRWLock :=
  { l with Flag := (l.Flag + (2 ^ 32 - 1)) % 2 ^ 32 }

/-- Member `WLock`: `WriteFlag` is set and the loop runs `compare_exchange(Flag, temp,
WRITELOCKMASK)` with `temp = 0` before the loop.  A failed exchange loads the word into
`temp`, so the next round compares the word with itself and stores `WRITELOCKMASK`. -/
def WLock (_l : zRWLock) : zRWLock :=
  { Flag := WRITELOCKMASK, WriteFlag := true }

/-- Member `WUnlock`: `WriteFlag` is cleared and the word is masked with `0xffffff`. -/
def WUnlock (l : zRWLock) : zRWLock :=
  { Flag := l.Flag &&& 0xffffff, WriteFlag := false }

end zRWLock

/-! ## The hash table `zHash` -/

/-- The pointer `ENTRY::p`: null, the first node of a linked list together with the nodes
that follow it through `pNext`, or the tree object. -/
inductive ChainPtr (K V : Type) where
  | null
  | list (first : DATA_NODE K V) (pNext : List (DATA_NODE K V))
  | tree (t : zBTree K V)

/-- The pointer to the first node of the list `l` (null for the empty list). -/
def ChainPtr.ofList {K V : Type} : List (DATA_NODE K V) → ChainPtr K V
  | [] => .null
  | d :: ds => .list d ds

/-- Bucket entry (`struct ENTRY`). -/
structure ENTRY (K V : Type) where
  p : ChainPtr K V
  lock : zRWLock
  Size_Type : Nat

/-- The state of a table `zHash<TK,TV>`.  `LoadFactor` is the fraction numerator/denominator;
`sysHeap` is the script of the process heap; `pBucketId` names the allocation `pBucket`
points to. -/
structure zHash (K V H : Type) where
  pHashFun : K → Nat → Nat
  pHeap : H
  pBTNodeHeap : H
  Resizable : Bool
  Countable : Bool
  MaxSize : Nat
  pBucket : List (ENTRY K V)
  pBucketId : Nat
  Buckets : Nat
  PosMask : Nat
  MaskBits : Nat
  DataCount : Nat
  LoadFactor : Nat × Nat
  Threshold : Nat
  sysHeap : List Bool

/-- The 64-bit branch of `zBitCount` (`ZZG_Bit.h`) on an unsigned argument. -/
def zBitCount (n : Nat) : Nat :=
  let tmp := (n + 3 * 2 ^ 64 - ((n >>> 1) &&& 0xBB76EDDBB76EDDBB)
    - ((n >>> 2) &&& 0x993264C993264C99) - ((n >>> 3) &&& 0x810204081020408)) % 2 ^ 64
  let tmp1 := ((tmp + (tmp >>> 3)) % 2 ^ 64) &&& 0x870E1C3870E1C387
  tmp1 % 127

/-- The first node of a list with `h == pNext->h && Key == pNext->key`. -/
def listFind {K V : Type} [DecidableEq K] (h : Nat) (key : K) :
    List (DATA_NODE K V) → Option (DATA_NODE K V)
  | [] => none
  | d :: ds => if h = d.h ∧ key = d.key then some d else listFind h key ds

/-- The store `pD->value = v` for the node `listFind` returns. -/
def listStore {K V : Type} [DecidableEq K] (h : Nat) (key : K) (v : V) :
    List (DATA_NODE K V) → List (DATA_NODE K V)
  | [] => []
  | d :: ds => if h = d.h ∧ key = d.key then { d with value := v } :: ds
    else d :: listStore h key v ds

/-- The unlinking of the node `listFind` returns (`pPre->pNext = pD->pNext`, or the head). -/
def listUnlink {K V : Type} [DecidableEq K] (h : Nat) (key : K) :
    List (DATA_NODE K V) → List (DATA_NODE K V)
  | [] => []
  | d :: ds => if h = d.h ∧ key = d.key then ds else d :: listUnlink h key ds

namespace zHash

variable {K V H : Type} [LinearOrder K]

/-- The threshold `(size_t)((double)Buckets * LoadFactor)`. -/
def threshold (lf : Nat × Nat) (Buckets : Nat) : Nat := Buckets * lf.1 / lf.2

/-- A fresh entry: `new (pBucket + i) ENTRY; pBucket[i].p = 0`. -/
def freshEntry : ENTRY K V := { p := .null, lock := zRWLock.init, Size_Type := 0 }

/-- The constructor `zHash()`: 256 buckets, load factor 0.75, all buckets empty. -/
def new (Hp : zMemHeap H) (pHashFun : K → Nat → Nat) (sysHeap : List Bool) : zHash K V H :=
  { pHashFun := pHashFun
    pHeap := Hp.create 192
    pBTNodeHeap := Hp.create ((192 + KEY_MIN - 1) / KEY_MIN)
    Resizable := true
    Countable := true
    MaxSize := 2 ^ 64 - 1
    pBucket := List.replicate 256 freshEntry
    pBucketId := 0
    Buckets := 256
    PosMask := 255
    MaskBits := zBitCount 255
    DataCount := 0
    LoadFactor := (3, 4)
    Threshold := 192
    sysHeap := sysHeap }

/-- One request to the process heap: the head of the script (success when it is used up). -/
def sysAlloc (s : zHash K V H) : Bool × zHash K V H :=
  match s.sysHeap with
  | [] => (true, s)
  | b :: rest => (b, { s with sysHeap := rest })

/-- The entry `pBucket[pos]` replaced. -/
def setEntry (s : zHash K V H) (pos : Nat) (e : ENTRY K V) : zHash K V H :=
  { s with pBucket := s.pBucket.set pos e }

/-- The loop of `listToBTree`: every node of the list is inserted into the tree.  The source
does not look at what `Insert` returns: after `-1` the slot pointer it writes through is
indeterminate; after `1` (an equal key is in the tree already) it overwrites a handle, a run
the model does not follow. -/
def listToBTreeLoop (Hp : zMemHeap H) :
    List (DATA_NODE K V) → zBTree K V → H → Except Fault (zBTree K V × H)
  | [], t, hp => .ok (t, hp)
  | d :: ds, t, hp =>
    match t.Insert Hp d hp with
    | (.inserted, t1, hp1) => listToBTreeLoop Hp ds t1 hp1
    | (.memError, _, _) => .error .undefinedBehaviour
    | (.found _, _, _) => .error .outOfModel
    | (.noFuel, _, _) => .error .outOfFuel

/-- Member `listToBTree(pT)` for the entry `pBucket[pos]`, which holds a list.  The tree
object comes from the process heap (`new (nothrow)`); when that fails the entry keeps the
list and `false` is returned. -/
def listToBTree (Hp : zMemHeap H) (s : zHash K V H) (pos : Nat) :
    Except Fault (Bool × zHash K V H) :=
  match s.pBucket[pos]? with
  | none => .error .undefinedBehaviour
  | some e =>
    match e.p with
    | .list first rest =>
      match sysAlloc s with
      | (false, s1) => .ok (false, s1)
      | (true, s1) =>
        match listToBTreeLoop Hp (first :: rest) { Size := 0, m_pRoot := none } s1.pBTNodeHeap with
        | .error f => .error f
        | .ok (t, hp) =>
          .ok (true, setEntry { s1 with pBTNodeHeap := hp } pos
            { e with p := .tree t, Size_Type := 0 })
    | _ => .error .undefinedBehaviour

/-- Member `treeToList(pT)` for the entry `pBucket[pos]`, which holds a tree: the data nodes
are collected into a buffer of `Count()` pointers, the tree nodes are freed, and the buffer
is linked into a list.  The buffer comes from the process heap through a plain `new`: when
the request fails, `std::bad_alloc` is thrown, and neither `treeToList` nor its caller `Del`
catches it.  The buffer holds exactly the data nodes only when `Count()` is their number, and
`pBuf[0]` exists only when it is positive. -/
def treeToList (Hp : zMemHeap H) (s : zHash K V H) (pos : Nat) : Except Fault (zHash K V H) :=
  match s.pBucket[pos]? with
  | none => .error .undefinedBehaviour
  | some e =>
    match e.p with
    | .tree t =>
      match sysAlloc s with
      | (false, _) => .error .badAlloc
      | (true, s1) =>
        if t.Count = 0 ∨ t.FindAllData.length ≠ t.Count then .error .undefinedBehaviour
        else
          .ok (setEntry { s1 with pBTNodeHeap := (t.Clear Hp s1.pBTNodeHeap).2 } pos
            { e with p := ChainPtr.ofList t.FindAllData, Size_Type := t.Count })
    | _ => .error .undefinedBehaviour

/-- Member `inserCopyData(pSrc)`: a copy of `pSrc` with the hash recomputed for the current
`MaskBits` is put into its bucket of the current `pBucket`.  The result of `LockAlloc` is used
unchecked. -/
def inserCopyData (Hp : zMemHeap H) (s : zHash K V H) (pSrc : DATA_NODE K V) :
    Except Fault (Bool × zHash K V H) :=
  match Hp.LockAlloc s.pHeap with
  | (none, _) => .error .undefinedBehaviour
  | (some slot, hp) =>
    let pData : DATA_NODE K V :=
      { slot := slot, h := s.pHashFun pSrc.key s.MaskBits, key := pSrc.key, value := pSrc.value }
    let pos := pData.h &&& s.PosMask
    let s1 := { s with pHeap := hp }
    match s1.pBucket[pos]? with
    | none => .error .undefinedBehaviour
    | some e =>
      match e.p with
      | .null => .ok (true, setEntry s1 pos { e with p := .list pData [], Size_Type := 1 })
      | .list first rest =>
        if 0 < e.Size_Type then
          if e.Size_Type < MAX_LINKEDLIST_SIZE then
            .ok (true, setEntry s1 pos
              { e with p := .list pData (first :: rest), Size_Type := e.Size_Type + 1 })
          else
            match listToBTree Hp s1 pos with
            | .error f => .error f
            | .ok (false, s2) => .ok (false, s2)
            | .ok (true, s2) =>
              match s2.pBucket[pos]? with
              | some { p := .tree t, lock := lk, Size_Type := st } =>
                match t.Insert Hp pData s2.pBTNodeHeap with
                | (.inserted, t1, hp1) =>
                  .ok (true, setEntry { s2 with pBTNodeHeap := hp1 } pos
                    { p := .tree t1, lock := lk, Size_Type := st })
                | (.noFuel, _, _) => .error .outOfFuel
                | (_, t1, hp1) =>
                  .ok (false, setEntry { s2 with pBTNodeHeap := hp1 } pos
                    { p := .tree t1, lock := lk, Size_Type := st })
              | _ => .error .undefinedBehaviour
        else .error .undefinedBehaviour
      | .tree t =>
        if 0 < e.Size_Type then .error .undefinedBehaviour
        else
          match t.Insert Hp pData s1.pBTNodeHeap with
          | (.inserted, t1, hp1) =>
            .ok (true, setEntry { s1 with pBTNodeHeap := hp1 } pos { e with p := .tree t1 })
          | (.noFuel, _, _) => .error .outOfFuel
          | (_, t1, hp1) =>
            .ok (false, setEntry { s1 with pBTNodeHeap := hp1 } pos { e with p := .tree t1 })

/-- The copy of a sequence of data nodes with `inserCopyData`, stopping at the first
`false`. -/
def copyNodes (Hp : zMemHeap H) :
    List (DATA_NODE K V) → zHash K V H → Except Fault (Bool × zHash K V H)
  | [], s => .ok (true, s)
  | d :: ds, s =>
    match inserCopyData Hp s d with
    | .error f => .error f
    | .ok (false, s1) => .ok (false, s1)
    | .ok (true, s1) => copyNodes Hp ds s1

/-- The body of the scan loop of `upSize` for one old entry: a list is walked through
`pNext`; the nodes of a tree are first collected into a buffer of `Count()` pointers taken
from the process heap. -/
def copyEntry (Hp : zMemHeap H) (old : ENTRY K V) (s : zHash K V H) :
    Except Fault (Bool × zHash K V H) :=
  match old.p with
  | .null => .ok (true, s)
  | .list first rest =>
    if 0 < old.Size_Type then copyNodes Hp (first :: rest) s else .error .undefinedBehaviour
  | .tree t =>
    if 0 < old.Size_Type then .error .undefinedBehaviour
    else
      match sysAlloc s with
      | (false, s1) => .ok (false, s1)
      | (true, s1) =>
        if t.FindAllData.length ≠ t.Count then .error .undefinedBehaviour
        else copyNodes Hp t.FindAllData s1

/-- The scan loop of `upSize` over the old bucket array. -/
def copyEntries (Hp : zMemHeap H) :
    List (ENTRY K V) → zHash K V H → Except Fault (Bool × zHash K V H)
  | [], s => .ok (true, s)
  | e :: es, s =>
    match copyEntry Hp e s with
    | .error f => .error f
    | .ok (false, s1) => .ok (false, s1)
    | .ok (true, s1) => copyEntries Hp es s1

/-- The `catch` block of `upSize`: the members saved at the start are put back; `cur` is the
state in which the exception was thrown.  `Threshold` is not among the members saved. -/
def upSizeRestore (old cur : zHash K V H) : zHash K V H :=
  { old with Threshold := cur.Threshold, sysHeap := cur.sysHeap }

/-- Member `upSize()`: twice the buckets, fresh heaps, and every record copied into the new
bucket array.  Each of the two `new zMemHeap` and the `malloc` of the bucket array is one
request to the process heap. -/
def upSize (Hp : zMemHeap H) (s : zHash K V H) : Except Fault (Bool × zHash K V H) :=
  let s0 : zHash K V H :=
    { s with Buckets := s.Buckets * 2, Threshold := threshold s.LoadFactor (s.Buckets * 2) }
  match sysAlloc s0 with
  | (false, s1) => .ok (false, upSizeRestore s s1)
  | (true, s1) =>
    match sysAlloc { s1 with pHeap := Hp.create s1.Threshold } with
    | (false, s2) => .ok (false, upSizeRestore s s2)
    | (true, s2) =>
      match sysAlloc { s2 with pBTNodeHeap := Hp.create ((s2.Threshold + 1) >>> 1) } with
      | (false, s3) => .ok (false, upSizeRestore s s3)
      | (true, s3) =>
        let s4 : zHash K V H :=
          { s3 with pBucket := List.replicate s3.Buckets freshEntry
                    PosMask := s3.Buckets - 1
                    MaskBits := zBitCount (s3.Buckets - 1) }
        match copyEntries Hp s.pBucket s4 with
        | .error f => .error f
        | .ok (false, s5) => .ok (false, upSizeRestore s s5)
        | .ok (true, s5) => .ok (true, { s5 with pBucketId := s.pBucketId + 1 })

/-- Member `pauseAndUpsize()`. -/
def pauseAndUpsize (Hp : zMemHeap H) (s : zHash K V H) : Except Fault (Bool × zHash K V H) :=
  if s.Resizable then
    if s.Buckets > s.MaxSize then .ok (false, s)
    else if s.DataCount ≥ s.Threshold then upSize Hp s
    else .ok (true, s)
  else .ok (false, s)

/-- The call `pBucket[pos].lock.WLock()`. -/
def wLockAt (s : zHash K V H) (pos : Nat) : Except Fault (zHash K V H) :=
  match s.pBucket[pos]? with
  | none => .error .undefinedBehaviour
  | some e => .ok (setEntry s pos { e with lock := e.lock.WLock })

/-- The call `pBucket[pos].lock.WUnlock()`. -/
def wUnlockAt (s : zHash K V H) (pos : Nat) : zHash K V H :=
  match s.pBucket[pos]? with
  | none => s
  | some e => setEntry s pos { e with lock := e.lock.WUnlock }

/-- The call `pBucket[pos].lock.RUnlock()`. -/
def rUnlockAt (s : zHash K V H) (pos : Nat) : zHash K V H :=
  match s.pBucket[pos]? with
  | none => s
  | some e => setEntry s pos { e with lock := e.lock.RUnlock }

/-- The store `pD->value = v` for the data node of `(h, key)` in the chain of `pBucket[pos]`. -/
def storeAt (s : zHash K V H) (pos : Nat) (h : Nat) (key : K) (v : V) : zHash K V H :=
  match s.pBucket[pos]? with
  | none => s
  | some e =>
    match e.p with
    | .null => s
    | .list first rest => setEntry s pos { e with p := ChainPtr.ofList (listStore h key v (first :: rest)) }
    | .tree t => setEntry s pos { e with p := .tree (t.storeValue key h v) }

/-- The path all three branches of `insertKey` take when memory ran out and `pauseAndUpsize`
returned `true`: the hash is recomputed, `pEntry->lock.WUnlock()` unlocks the old entry and
the entry of the new hash is locked.  `before` is the table before `pauseAndUpsize`: after a
rebuild `pEntry` still points into the array that `upSize` has released with `free`, and the
unlock writes into released memory, which is undefined behaviour. -/
def relock (before s : zHash K V H) (pos : Nat) (key : K) :
    Except Fault (zHash K V H × Nat × Nat) :=
  let h := s.pHashFun key s.MaskBits
  if s.pBucketId = before.pBucketId then
    match wLockAt (wUnlockAt s pos) (h &&& s.PosMask) with
    | .error f => .error f
    | .ok s2 => .ok (s2, h, h &&& s.PosMask)
  else .error .undefinedBehaviour

/-- The path all three branches of `insertKey` take when memory ran out: `pauseAndUpsize`,
then `ERR_MEMORY` when it returned `false`, else the new hash, the change of the locked entry
and the jump back to `INSERT_BEGIN`, which is `again`. -/
def insertRetry (Hp : zMemHeap H)
    (again : zHash K V H → Nat → Nat →
      Except Fault (RETURN_CODE × zHash K V H × Nat × Option (DATA_NODE K V)))
    (s1 : zHash K V H) (pos : Nat) (Key : K) :
    Except Fault (RETURN_CODE × zHash K V H × Nat × Option (DATA_NODE K V)) :=
  match pauseAndUpsize Hp s1 with
  | .error f => .error f
  | .ok (false, s2) => .ok (.ERR_MEMORY, s2, pos, none)
  | .ok (true, s2) =>
    match relock s1 s2 pos Key with
    | .error f => .error f
    | .ok (s3, h1, pos1) => again s3 pos1 h1

/-- Member `insertKey(pEntry, h, Key, pRet)` with `pEntry = pBucket + pos`.  The result is
the return code, the table, the position of `pEntry` on return and the node `pRet` points to
(`none` on `ERR_MEMORY`).  `uninit` is the content of the value field of a node that has been
constructed and not yet written.  The first argument bounds the number of passes through
`INSERT_BEGIN`. -/
def insertKey (Hp : zMemHeap H) : Nat → zHash K V H → Nat → Nat → K → V →
    Except Fault (RETURN_CODE × zHash K V H × Nat × Option (DATA_NODE K V))
  | 0, _, _, _, _, _ => .error .outOfFuel
  | fuel + 1, s, pos, h, Key, uninit =>
    let retry (s1 : zHash K V H) :
        Except Fault (RETURN_CODE × zHash K V H × Nat × Option (DATA_NODE K V)) :=
      insertRetry Hp (fun s3 pos1 h1 => insertKey Hp fuel s3 pos1 h1 Key uninit) s1 pos Key
    match s.pBucket[pos]? with
    | none => .error .undefinedBehaviour
    | some e =>
      match e.p with
      | .null =>
        match Hp.LockAlloc s.pHeap with
        | (none, hp) => retry { s with pHeap := hp }
        | (some slot, hp) =>
          let pRet : DATA_NODE K V := { slot := slot, h := h, key := Key, value := uninit }
          .ok (.SUCCESS, setEntry { s with pHeap := hp } pos
            { e with p := .list pRet [], Size_Type := 1 }, pos, some pRet)
      | .list first rest =>
        if 0 < e.Size_Type then
          match listFind h Key (first :: rest) with
          | some pNext => .ok (.HASH_KEY_EXIST, s, pos, some pNext)
          | none =>
            match Hp.LockAlloc s.pHeap with
            | (none, hp) => retry { s with pHeap := hp }
            | (some slot, hp) =>
              let pRet : DATA_NODE K V := { slot := slot, h := h, key := Key, value := uninit }
              let s1 := setEntry { s with pHeap := hp } pos
                { e with p := .list pRet (first :: rest), Size_Type := e.Size_Type + 1 }
              if MAX_LINKEDLIST_SIZE ≤ e.Size_Type + 1 then
                match listToBTree Hp s1 pos with
                | .error f => .error f
                | .ok (false, s2) => .ok (.ERR_MEMORY, s2, pos, none)
                | .ok (true, s2) => .ok (.SUCCESS, s2, pos, some pRet)
              else .ok (.SUCCESS, s1, pos, some pRet)
        else .error .undefinedBehaviour
      | .tree t =>
        if 0 < e.Size_Type then .error .undefinedBehaviour
        else
          match Hp.LockAlloc s.pHeap with
          | (none, hp) =>
            match t.FindData Key h with
            | some pD => .ok (.HASH_KEY_EXIST, { s with pHeap := hp }, pos, some pD)
            | none => retry { s with pHeap := hp }
          | (some slot, hp) =>
            let pRet : DATA_NODE K V := { slot := slot, h := h, key := Key, value := uninit }
            match t.Insert Hp pRet s.pBTNodeHeap with
            | (.inserted, t1, hp1) =>
              .ok (.SUCCESS, setEntry { s with pHeap := hp, pBTNodeHeap := hp1 } pos
                { e with p := .tree t1 }, pos, some pRet)
            | (.found pD, t1, hp1) =>
              .ok (.HASH_KEY_EXIST,
                setEntry { s with pHeap := Hp.LockFree hp slot, pBTNodeHeap := hp1 } pos
                  { e with p := .tree t1 }, pos, some pD)
            | (.memError, t1, hp1) =>
              retry (setEntry { s with pHeap := Hp.LockFree hp slot, pBTNodeHeap := hp1 } pos
                { e with p := .tree t1 })
            | (.noFuel, _, _) => .error .outOfFuel

/-- Member `endAdd()`: the record counter after a successful insertion. -/
def endAdd (s : zHash K V H) : zHash K V H :=
  if s.Resizable ∨ s.Countable then { s with DataCount := s.DataCount + 1 } else s

/-- Member `endDel()`: the record counter after a successful removal (`fetch_sub` on the
64-bit counter). -/
def endDel (s : zHash K V H) : zHash K V H :=
  if s.Resizable ∨ s.Countable then
    { s with DataCount := (s.DataCount + (2 ^ 64 - 1)) % 2 ^ 64 }
  else s

/-- Member `Insert(Key, pValue)`; `fuel` bounds the passes through `INSERT_BEGIN`. -/
def Insert (Hp : zMemHeap H) (fuel : Nat) (s : zHash K V H) (Key : K) (Value uninit : V) :
    Except Fault (RETURN_CODE × zHash K V H) :=
  let h := s.pHashFun Key s.MaskBits
  match wLockAt s (h &&& s.PosMask) with
  | .error f => .error f
  | .ok s1 =>
    match insertKey Hp fuel s1 (h &&& s.PosMask) h Key uninit with
    | .error f => .error f
    | .ok (.SUCCESS, s2, pT, some pRet) =>
      .ok (.SUCCESS, endAdd (wUnlockAt (storeAt s2 pT pRet.h pRet.key Value) pT))
    | .ok (.SUCCESS, _, _, none) => .error .undefinedBehaviour
    | .ok (ret, s2, pT, _) => .ok (ret, wUnlockAt s2 pT)

/-- A call `pHashFun(Key, args...)` through the member `pHashFun`, whose type
`ZHASH_FUNCTION` is `size_t(*)(const TK &Key, uint16_t MaskBits)`: `args` are the arguments
that follow the key.  With the one argument `MaskBits` the call is the hash of the key; with
any other number of arguments it is ill-formed. -/
def hashCall (s : zHash K V H) (Key : K) : List Nat → Except Fault Nat
  | [MaskBits] => .ok (s.pHashFun Key MaskBits)
  | _ => .error .illFormed

/-- Member `Upsert(Key, pValue)`.  Its first statement after `begin()` is
`size_t h = pHashFun(Key, PosMask, MaskBits)`, a call with three arguments. -/
def Upsert (Hp : zMemHeap H) (fuel : Nat) (s : zHash K V H) (Key : K) (Value uninit : V) :
    Except Fault (Bool × zHash K V H) :=
  match s.hashCall Key [s.PosMask, s.MaskBits] with
  | .error f => .error f
  | .ok h =>
    match wLockAt s (h &&& s.PosMask) with
    | .error f => .error f
    | .ok s1 =>
      match insertKey Hp fuel s1 (h &&& s.PosMask) h Key uninit with
      | .error f => .error f
      | .ok (.ERR_MEMORY, s2, pT, _) => .ok (false, wUnlockAt s2 pT)
      | .ok (_, _, _, none) => .error .undefinedBehaviour
      | .ok (.SUCCESS, s2, pT, some pRet) =>
        .ok (true, endAdd (wUnlockAt (storeAt s2 pT pRet.h pRet.key Value) pT))
      | .ok (.HASH_KEY_EXIST, s2, pT, some pRet) =>
        .ok (true, wUnlockAt (storeAt s2 pT pRet.h pRet.key Value) pT)

/-- Member `searchAndRLock(key, pEntry)`: the data node (`none` for null), the position of
`pEntry`, and the table with its lock words.  The entry stays read-locked when a node is
returned; it is not locked when it was empty and unlocked again when the key was not found. -/
def searchAndRLock (s : zHash K V H) (key : K) :
    Except Fault (Option (DATA_NODE K V) × Nat × zHash K V H) :=
  let h := s.pHashFun key s.MaskBits
  let pos := h &&& s.PosMask
  match s.pBucket[pos]? with
  | none => .error .undefinedBehaviour
  | some e =>
    match e.p with
    | .null => .ok (none, pos, s)
    | .list first rest =>
      match e.lock.RLock with
      | .error f => .error f
      | .ok lk =>
        if 0 < e.Size_Type then
          match listFind h key (first :: rest) with
          | some pRet => .ok (some pRet, pos, setEntry s pos { e with lock := lk })
          | none => .ok (none, pos, setEntry s pos { e with lock := lk.RUnlock })
        else .error .undefinedBehaviour
    | .tree t =>
      match e.lock.RLock with
      | .error f => .error f
      | .ok lk =>
        if 0 < e.Size_Type then .error .undefinedBehaviour
        else
          match t.FindData key h with
          | some pRet => .ok (some pRet, pos, setEntry s pos { e with lock := lk })
          | none => .ok (none, pos, setEntry s pos { e with lock := lk.RUnlock })

/-- Member `Value(Key, pRet)`: `some v` stands for `true` with `*pRet = v`, `none` for
`false`. -/
def Value (s : zHash K V H) (Key : K) : Except Fault (Option V × zHash K V H) :=
  match searchAndRLock s Key with
  | .error f => .error f
  | .ok (none, pT, s1) => .ok (none, rUnlockAt s1 pT)
  | .ok (some pD, pT, s1) => .ok (some pD.value, rUnlockAt s1 pT)

/-- Member `Update(Key, pValue)`. -/
def Update (s : zHash K V H) (Key : K) (Value : V) : Except Fault (Bool × zHash K V H) :=
  match searchAndRLock s Key with
  | .error f => .error f
  | .ok (none, pT, s1) => .ok (false, rUnlockAt s1 pT)
  | .ok (some pD, pT, s1) => .ok (true, rUnlockAt (storeAt s1 pT pD.h pD.key Value) pT)

/-- The statements of `Del(Key, pRet)` from `begin()` on, for the hash `h` of the key:
`some v` stands for `true` with the value `v` of the node removed (what `*pRet` receives when
asked for), `none` for `false`. -/
def DelFrom (Hp : zMemHeap H) (s : zHash K V H) (Key : K) (h : Nat) :
    Except Fault (Option V × zHash K V H) :=
  let pos := h &&& s.PosMask
  match s.pBucket[pos]? with
  | none => .error .undefinedBehaviour
  | some e =>
    match e.p with
    | .null => .ok (none, s)
    | .list first rest =>
      if 0 < e.Size_Type then
        match listFind h Key (first :: rest) with
        | none => .ok (none, setEntry s pos { e with lock := e.lock.WLock.WUnlock })
        | some pD =>
          .ok (some pD.value, endDel (setEntry { s with pHeap := Hp.LockFree s.pHeap pD.slot } pos
            { p := if e.Size_Type - 1 = 0 then .null
                   else ChainPtr.ofList (listUnlink h Key (first :: rest))
              lock := e.lock.WLock.WUnlock
              Size_Type := e.Size_Type - 1 }))
      else .error .undefinedBehaviour
    | .tree t =>
      if 0 < e.Size_Type then .error .undefinedBehaviour
      else
        match t.Remove Hp Key h s.pBTNodeHeap with
        | (none, _, _) => .ok (none, setEntry s pos { e with lock := e.lock.WLock.WUnlock })
        | (some pD, t1, hp1) =>
          let s1 := setEntry { s with pHeap := Hp.LockFree s.pHeap pD.slot, pBTNodeHeap := hp1 } pos
            { e with p := .tree t1, lock := e.lock.WLock }
          if t1.Count < MIN_BTREE_SIZE then
            match treeToList Hp s1 pos with
            | .error f => .error f
            | .ok s2 => .ok (some pD.value, endDel (wUnlockAt s2 pos))
          else .ok (some pD.value, endDel (wUnlockAt s1 pos))

/-- Member `Del(Key, pRet)`.  Its first statement is
`size_t h = pHashFun(Key, PosMask, MaskBits)`, a call with three arguments; the statements
that follow are `DelFrom`. -/
def Del (Hp : zMemHeap H) (s : zHash K V H) (Key : K) : Except Fault (Option V × zHash K V H) :=
  match s.hashCall Key [s.PosMask, s.MaskBits] with
  | .error f => .error f
  | .ok h => DelFrom Hp s Key h

/-- The removal of a key by the statements of `Del`, run with the hash that `Insert`,
`Value` and `Update` compute for the key, `pHashFun(Key, MaskBits)`. -/
def removal (Hp : zMemHeap H) (s : zHash K V H) (Key : K) :
    Except Fault (Option V × zHash K V H) :=
  DelFrom Hp s Key (s.pHashFun Key s.MaskBits)

/-- Member `SetResizable(bResize)`. -/
def SetResizable (s : zHash K V H) (bResize : Bool) : zHash K V H :=
  { s with Resizable := bResize, Countable := true }

/-- Member `SetCountable(bCount)`. -/
def SetCountable (s : zHash K V H) (bCount : Bool) : zHash K V H :=
  if s.Resizable then s else { s with Countable := bCount }

/-- Member `SetMaxBuckets(MaxSize)`. -/
def SetMaxBuckets (s : zHash K V H) (MaxSize : Nat) : zHash K V H :=
  { s with MaxSize := MaxSize }

end zHash

/-! ## Specification vocabulary -/

section Spec

variable {K V H : Type} [LinearOrder K]

/-- The pair `(cached hash, key)` by which the tree compares data nodes. -/
def DATA_NODE.kh (d : DATA_NODE K V) : Lex (Nat × K) := toLex (d.h, d.key)

/-- Keys and subtree contents in key order: `x0 k0 x1 k1 ... xn`; the keys alone when there
is no subtree. -/
def interleave : List (List (DATA_NODE K V)) → List (DATA_NODE K V) → List (DATA_NODE K V)
  | [], ks => ks
  | x :: xs, [] => x ++ interleave xs []
  | x :: xs, k :: ks => x ++ k :: interleave xs ks

mutual
/-- The data nodes of a subtree in key order (in-order traversal). -/
def zBTreeNode.inorder : zBTreeNode K V → List (DATA_NODE K V)
  | .mk _ Key pChild => interleave (inorders pChild) Key
/-- The in-order traversals of a list of subtrees. -/
def inorders : List (zBTreeNode K V) → List (List (DATA_NODE K V))
  | [] => []
  | c :: cs => c.inorder :: inorders cs
end

/-- Shape of a subtree of height `n` whose top node holds at least `lo` keys: every node has
at most `KEY_MAX` keys, every node below the top at least `KEY_MIN`, an internal node with
`k` keys has `k + 1` children, and all leaves are on level `n`. -/
def zBTreeNode.Shape : Nat → Nat → zBTreeNode K V → Prop
  | lo, 0, p => p.pChild = [] ∧ lo ≤ p.KeyNum ∧ p.KeyNum ≤ KEY_MAX
  | lo, n + 1, p =>
    p.pChild.length = p.KeyNum + 1 ∧ lo ≤ p.KeyNum ∧ p.KeyNum ≤ KEY_MAX ∧
      ∀ c ∈ p.pChild, zBTreeNode.Shape KEY_MIN n c

/-- The keys of a subtree are strictly increasing in `(cached hash, key)`. -/
def zBTreeNode.Ordered (p : zBTreeNode K V) : Prop :=
  p.inorder.Pairwise (fun a b => a.kh < b.kh)

/-- A valid root: a leaf with any number of keys up to `KEY_MAX`, or an internal node with at
least one key. -/
def zBTreeNode.RootShape (n : Nat) (p : zBTreeNode K V) : Prop :=
  zBTreeNode.Shape (if n = 0 then 0 else 1) n p

/-- A valid non-empty tree object: a valid ordered root and `Size` equal to the number of
data nodes. -/
def zBTree.Valid (t : zBTree K V) : Prop :=
  ∃ root n, t.m_pRoot = some root ∧ root.RootShape n ∧ root.Ordered ∧
    t.Size = root.inorder.length

/-- The data nodes of a tree object in key order. -/
def zBTree.toList (t : zBTree K V) : List (DATA_NODE K V) :=
  match t.m_pRoot with
  | none => []
  | some root => root.inorder

/-- The data nodes of a bucket chain. -/
def ENTRY.nodes (e : ENTRY K V) : List (DATA_NODE K V) :=
  match e.p with
  | .null => []
  | .list first rest => first :: rest
  | .tree t => t.toList

/-- The invariant of the entry `pBucket[i]` of a table with hash function `hf`, `MaskBits = m`
and `PosMask = mask`: a list entry has `Size_Type` equal to its positive length and pairwise
different keys; a tree entry has `Size_Type = 0` and a valid tree of at least
`MIN_BTREE_SIZE` records; every data node carries the hash of its key, and that hash selects
bucket `i`. -/
def ENTRY.WF (hf : K → Nat → Nat) (m mask i : Nat) (e : ENTRY K V) : Prop :=
  (∀ d ∈ e.nodes, d.h = hf d.key m ∧ d.h &&& mask = i) ∧
  match e.p with
  | .null => True
  | .list first rest =>
    e.Size_Type = (first :: rest).length ∧ (first :: rest).Pairwise (fun a b => a.key ≠ b.key)
  | .tree t => e.Size_Type = 0 ∧ t.Valid ∧ MIN_BTREE_SIZE ≤ t.Size

/-- The invariant of the table. -/
def zHash.WF (s : zHash K V H) : Prop :=
  s.pBucket.length = s.Buckets ∧ 0 < s.Buckets ∧ s.PosMask = s.Buckets - 1 ∧
  ∀ (i : Nat) (e : ENTRY K V), s.pBucket[i]? = some e → e.WF s.pHashFun s.MaskBits s.PosMask i

/-- The data node of `key` in the table: the search of `searchAndRLock` without the locking. -/
def zHash.find (s : zHash K V H) (key : K) : Option (DATA_NODE K V) :=
  match s.pBucket[s.pHashFun key s.MaskBits &&& s.PosMask]? with
  | none => none
  | some e =>
    match e.p with
    | .null => none
    | .list first rest => listFind (s.pHashFun key s.MaskBits) key (first :: rest)
    | .tree t => t.FindData key (s.pHashFun key s.MaskBits)

/-- All data nodes of the table, bucket by bucket. -/
def zHash.allNodes (s : zHash K V H) : List (DATA_NODE K V) :=
  (s.pBucket.map ENTRY.nodes).flatten

/-- The table states that the constructor (with any hash function, as after
`SetHashFunction` on the new table), the calls `SetResizable`, `SetCountable` and
`SetMaxBuckets` and the data operations produce, for every behaviour of the heaps: the
states of a table whose bucket array the constructor has initialised.  `SetInitBuckets` and
`SetLoadFactor` are not among the steps: they install a bucket array that is not
initialised (`zHash.SetInitBuckets`), and what a table holds after them depends on the
content of that memory.  The members `Upsert` and `Del` have no run (`zHash.Upsert`,
`zHash.Del`), so their steps add no state; the step `remove` is the removal that the
statements of `Del` perform for the hash of the key. -/
inductive zHash.Reachable (Hp : zMemHeap H) : zHash K V H → Prop where
  | new (hf : K → Nat → Nat) (sys : List Bool) : Reachable Hp (zHash.new Hp hf sys)
  | setResizable {s} (b : Bool) : Reachable Hp s → Reachable Hp (s.SetResizable b)
  | setCountable {s} (b : Bool) : Reachable Hp s → Reachable Hp (s.SetCountable b)
  | setMaxBuckets {s} (m : Nat) : Reachable Hp s → Reachable Hp (s.SetMaxBuckets m)
  | insert {s s1} (fuel : Nat) (k : K) (v u : V) (r : RETURN_CODE) :
      Reachable Hp s → zHash.Insert Hp fuel s k v u = .ok (r, s1) → Reachable Hp s1
  | upsert {s s1} (fuel : Nat) (k : K) (v u : V) (r : Bool) :
      Reachable Hp s → zHash.Upsert Hp fuel s k v u = .ok (r, s1) → Reachable Hp s1
  | update {s s1} (k : K) (v : V) (r : Bool) :
      Reachable Hp s → zHash.Update s k v = .ok (r, s1) → Reachable Hp s1
  | del {s s1} (k : K) (r : Option V) :
      Reachable Hp s → zHash.Del Hp s k = .ok (r, s1) → Reachable Hp s1
  | remove {s s1} (k : K) (r : Option V) :
      Reachable Hp s → zHash.removal Hp s k = .ok (r, s1) → Reachable Hp s1
  | value {s s1} (k : K) (r : Option V) :
      Reachable Hp s → zHash.Value s k = .ok (r, s1) → Reachable Hp s1

end Spec

/-! ## Predicates and relations of the specification -/

section Relations

variable {K V H : Type} [LinearOrder K]

/-- Paired prefix -/
def glue : List (List (DATA_NODE K V)) → List (DATA_NODE K V) → List (DATA_NODE K V)
  | x :: xs, k :: ks => x ++ k :: glue xs ks
  | _, _ => []

def glueR : List (DATA_NODE K V) → List (List (DATA_NODE K V)) → List (DATA_NODE K V)
  | k :: ks, x :: xs => k :: x ++ glueR ks xs
  | _, _ => []

/-- What `searchForInsert` does to the in-order traversal. -/
def InsSpec (d : DATA_NODE K V) (l l' : List (DATA_NODE K V)) : InsertStatus K V → Prop
  | .inserted => ∃ A B, l = A ++ B ∧ l' = A ++ d :: B ∧ (∀ a ∈ A, a.kh < d.kh) ∧
      (∀ b ∈ B, d.kh < b.kh)
  | .found e => e ∈ l ∧ e.kh = d.kh ∧ l' = l
  | .memError => l' = l
  | .noFuel => False

/-- A tree object that is valid, or empty as its constructor leaves it. -/
def zBTree.Good (t : zBTree K V) : Prop := (t.m_pRoot = none ∧ t.Size = 0) ∨ t.Valid

/-- What a `solveUnderflow` call leaves: the traversal of `p`, a node `p1` whose children all
have the regular shape, and one key less exactly when the call goes on to the parent. -/
def FixSpec (m : Nat) (p p1 : zBTreeNode K V) (called : Bool) : Prop :=
  p1.inorder = p.inorder ∧ p1.pChild.length = p1.KeyNum + 1 ∧
    (∀ c ∈ p1.pChild, c.Shape KEY_MIN m) ∧ p1.KeyNum + (if called then 1 else 0) = p.KeyNum

/-- What a removal leaves of a subtree `p` that held `e`. -/
def RemSpec (lo m : Nat) (e : DATA_NODE K V) (p p1 : zBTreeNode K V) (called : Bool) : Prop :=
  (∃ A B, p.inorder = A ++ e :: B ∧ p1.inorder = A ++ B) ∧ p1.Shape (lo - 1) m ∧
    (called = false → p1.Shape lo m)

/-- The index of the bucket of `key`: `h & PosMask` for `h = pHashFun(key, MaskBits)`. -/
def zHash.pos (s : zHash K V H) (key : K) : Nat := s.pHashFun key s.MaskBits &&& s.PosMask

/-- The records `(key, value)` of a sequence of data nodes. -/
def recordsOf (l : List (DATA_NODE K V)) : List (K × V) := l.map (fun d => (d.key, d.value))

/-- The records of the table, bucket by bucket. -/
def zHash.records (s : zHash K V H) : List (K × V) := recordsOf s.allNodes

/-- The value stored for `key`, when there is one. -/
def zHash.lookup (s : zHash K V H) (key : K) : Option V := (s.find key).map (·.value)

/-- The search in the chain of one entry. -/
def ENTRY.find (e : ENTRY K V) (h : Nat) (key : K) : Option (DATA_NODE K V) :=
  match e.p with
  | .null => none
  | .list first rest => listFind h key (first :: rest)
  | .tree t => t.FindData key h

/-- All nodes of the sequence carry the hash of their key, and it selects bucket `i`. -/
def Hashed (hf : K → Nat → Nat) (m mask i : Nat) (l : List (DATA_NODE K V)) : Prop :=
  ∀ d ∈ l, d.h = hf d.key m ∧ d.h &&& mask = i

/-- The keys of the sequence are pairwise different. -/
def DistinctKeys (l : List (DATA_NODE K V)) : Prop := l.Pairwise (fun a b => a.key ≠ b.key)

/-- What the table operations read of an entry besides its lock. -/
def ENTRY.data (e : ENTRY K V) : ChainPtr K V × Nat := (e.p, e.Size_Type)

/-- The number of records stored for `key`. -/
def zHash.countKey (s : zHash K V H) (key : K) : Nat := (s.allNodes.map (·.key)).count key

/-- The table `s'` differs from `s` at most in the bucket entries, the two slab heaps and the
script of the process heap. -/
def Frame (s s' : zHash K V H) : Prop :=
  s' = { s with pBucket := s'.pBucket, pHeap := s'.pHeap, pBTNodeHeap := s'.pBTNodeHeap,
                sysHeap := s'.sysHeap }

/-- No bucket lock is held and no lock word is off its rest value. -/
def Calm (s : zHash K V H) : Prop :=
  ∀ (j : Nat) (e : ENTRY K V), s.pBucket[j]? = some e → e.lock = zRWLock.init

/-- The table after a failed `upSize()`. -/
def upSizeFailed (s s1 : zHash K V H) : Prop :=
  s1 = { s with Threshold := zHash.threshold s.LoadFactor (s.Buckets * 2), sysHeap := s1.sysHeap }

/-- The table after a successful `upSize()`. -/
def upSizeDone (s s1 : zHash K V H) : Prop :=
  s1.WF ∧ Calm s1 ∧ s1.records.Perm s.records ∧ s1.Buckets = s.Buckets * 2 ∧
    s1.DataCount = s.DataCount ∧ s1.pHashFun = s.pHashFun ∧ s1.Resizable = s.Resizable ∧
    s1.Countable = s.Countable ∧ s1.MaxSize = s.MaxSize ∧ s1.LoadFactor = s.LoadFactor ∧
    s1.pBucketId = s.pBucketId + 1 ∧
    s1.Threshold = zHash.threshold s.LoadFactor (s.Buckets * 2)

/-- The lock of the entry `pBucket[j]`. -/
def zHash.lockAt (s : zHash K V H) (j : Nat) : Option zRWLock := (s.pBucket[j]?).map ENTRY.lock

/-- The lock of a bucket as `WLock` leaves it. -/
def wlocked : zRWLock := { Flag := WRITELOCKMASK, WriteFlag := true }

/-- The entry `pBucket[pos]` is write-locked. -/
def Held (s : zHash K V H) (pos : Nat) : Prop :=
  ∃ e : ENTRY K V, s.pBucket[pos]? = some e ∧ e.lock = wlocked

/-- The lock of the bucket of `key` is at rest. -/
def CalmAt (s : zHash K V H) (key : K) : Prop :=
  ∃ e : ENTRY K V, s.pBucket[s.pos key]? = some e ∧ e.lock = zRWLock.init

/-- The configuration that data operations hand on, also through a rebuild. -/
def Inherit (s s' : zHash K V H) : Prop :=
  s'.pHashFun = s.pHashFun ∧ s'.Resizable = s.Resizable ∧ s'.Countable = s.Countable ∧
    s'.MaxSize = s.MaxSize ∧ s'.DataCount = s.DataCount ∧ s'.LoadFactor = s.LoadFactor

/-- Same bucket geometry. -/
def SameGeom (s s' : zHash K V H) : Prop :=
  s'.pHashFun = s.pHashFun ∧ s'.Buckets = s.Buckets ∧ s'.PosMask = s.PosMask ∧
    s'.MaskBits = s.MaskBits ∧ s'.pBucketId = s.pBucketId

/-- The locks of the other buckets on return from `insertKey`: without a rebuild they are as
before; after a rebuild they are at rest. -/
def LockStep (s s2 : zHash K V H) (pos pT : Nat) : Prop :=
  (SameGeom s s2 ∧ pT = pos ∧ ∀ j, j ≠ pos → s2.lockAt j = s.lockAt j) ∨
  (∀ (j : Nat) (e : ENTRY K V), s2.pBucket[j]? = some e → j ≠ pT → e.lock = zRWLock.init)

/-- What `insertKey` returns for `key` in the table `s` with the entry `pos` locked. -/
def InsPost (s : zHash K V H) (pos : Nat) (key : K) (u : V) (r : RETURN_CODE)
    (s2 : zHash K V H) (pT : Nat) (pRet : Option (DATA_NODE K V)) : Prop :=
  s2.WF ∧ Inherit s s2 ∧ pT = s2.pos key ∧ Held s2 pT ∧ LockStep s s2 pos pT ∧
  (r = .SUCCESS → ∃ d, pRet = some d ∧ d.value = u ∧ s2.find key = some d ∧
    s2.records.Perm ((key, u) :: s.records)) ∧
  (r = .HASH_KEY_EXIST → ∃ d, pRet = some d ∧ s2.find key = some d ∧
    s2.records.Perm s.records) ∧
  (r = .ERR_MEMORY → pRet = none ∧
    (s2.records.Perm s.records ∨ s2.records.Perm ((key, u) :: s.records)))

/-- A step that keeps the geometry, the lock of `pos` held and the other locks. -/
def Base (s s1 : zHash K V H) (pos : Nat) : Prop :=
  s1.WF ∧ Inherit s s1 ∧ SameGeom s s1 ∧ Held s1 pos ∧ (∀ j, j ≠ pos → s1.lockAt j = s.lockAt j)

/-- What the table operations keep of the configuration. -/
def Config (s s' : zHash K V H) : Prop :=
  s'.pHashFun = s.pHashFun ∧ s'.Resizable = s.Resizable ∧ s'.Countable = s.Countable ∧
    s'.MaxSize = s.MaxSize ∧ s'.LoadFactor = s.LoadFactor

/-- The outcome of `Insert(k, v)` in a well-formed table. -/
def InsertPost (s : zHash K V H) (k : K) (v u : V) (r : RETURN_CODE) (s' : zHash K V H) : Prop :=
  s'.WF ∧ Config s s' ∧ CalmAt s' k ∧ (∀ k', CalmAt s k' → CalmAt s' k') ∧
  (r = .SUCCESS → s'.records.Perm ((k, v) :: s.records) ∧
    s'.DataCount = (if s.Resizable ∨ s.Countable then s.DataCount + 1 else s.DataCount)) ∧
  (r = .HASH_KEY_EXIST → s'.records.Perm s.records ∧ s'.DataCount = s.DataCount) ∧
  (r = .ERR_MEMORY → (s'.records.Perm s.records ∨ s'.records.Perm ((k, u) :: s.records)) ∧
    s'.DataCount = s.DataCount)

/-- The lock word that `searchAndRLock` leaves after the read lock `l` was taken. -/
def lockAfterSearch (r : Option (DATA_NODE K V)) (l : zRWLock) : zRWLock :=
  match r with
  | none => l.RUnlock
  | some _ => l

/-- The table after a lookup of `k`: only the lock of its bucket may have changed. -/
def LockOnly (s s' : zHash K V H) (pos : Nat) : Prop :=
  ∃ (e : ENTRY K V) (l : zRWLock), s.pBucket[pos]? = some e ∧
    s' = s.setEntry pos { e with lock := l }

/-- The outcome of `Update(k, v)` in a well-formed table. -/
def UpdatePost (s : zHash K V H) (k : K) (v : V) (b : Bool) (s' : zHash K V H) : Prop :=
  s'.WF ∧ Frame s s' ∧ b = (s.lookup k).isSome ∧
    (∀ j, j ≠ s.pos k → s'.lockAt j = s.lockAt j) ∧
    (b = false → s'.allNodes = s.allNodes) ∧
    (b = true → s'.lookup k = some v ∧ (∀ k', k' ≠ k → s'.lookup k' = s.lookup k') ∧
      s'.allNodes.length = s.allNodes.length)

/-- The bucket of `k` is empty or its lock is at rest. -/
def Readable (s : zHash K V H) (k : K) : Prop :=
  ∃ e : ENTRY K V, s.pBucket[s.pos k]? = some e ∧ (e.lock = zRWLock.init ∨ e.p = .null)

/-- The outcome of `Del(k)`. -/
def DelPost (s : zHash K V H) (k : K) (r : Option V) (s' : zHash K V H) : Prop :=
  s'.WF ∧ Config s s' ∧ SameGeom s s' ∧ r = s.lookup k ∧
  (∀ j, j ≠ s.pos k → s'.pBucket[j]? = s.pBucket[j]?) ∧ Readable s' k ∧
  (r = none → s'.allNodes = s.allNodes ∧ s'.DataCount = s.DataCount) ∧
  (∀ v, r = some v → s.records.Perm ((k, v) :: s'.records) ∧
    s'.DataCount = (if s.Resizable ∨ s.Countable then (s.DataCount + (2 ^ 64 - 1)) % 2 ^ 64
      else s.DataCount))

/-- The calls `Update(k, v)` for the values of `vs`, one after the other, starting with
`cur` as the value written last: the table at the end and the last value whose call
returned `true`. -/
def zHash.runUpdates (k : K) : zHash K V H → V → List V → Except Fault (zHash K V H × V)
  | s, cur, [] => .ok (s, cur)
  | s, cur, v :: vs =>
    match zHash.Update s k v with
    | .error f => .error f
    | .ok (b, s1) => zHash.runUpdates k s1 (if b then v else cur) vs

/-- The calls `Upsert(k, v)` for the values of `ws` (each with its iteration bound and the
content of a fresh value field), all of which return `true`; `none` when one does not. -/
def zHash.runUpserts (Hp : zMemHeap H) (k : K) :
    zHash K V H → List (Nat × V × V) → Option (zHash K V H)
  | s, [] => some s
  | s, (fuel, v, uninit) :: ws =>
    match zHash.Upsert Hp fuel s k v uninit with
    | .ok (true, s1) => zHash.runUpserts Hp k s1 ws
    | _ => none

/-- The calls `Insert(k, v)` for the pairs of `kvs`, all of which return `SUCCESS`; `none`
when one does not. -/
def zHash.insertAll (Hp : zMemHeap H) (fuel : Nat) (uninit : V) :
    zHash K V H → List (K × V) → Option (zHash K V H)
  | s, [] => some s
  | s, (k, v) :: kvs =>
    match zHash.Insert Hp fuel s k v uninit with
    | .ok (.SUCCESS, s1) => zHash.insertAll Hp fuel uninit s1 kvs
    | _ => none

/-- The key `k` is stored with value `v` and can be read. -/
def Settled (s : zHash K V H) (k : K) (v : V) : Prop :=
  s.WF ∧ CalmAt s k ∧ s.lookup k = some v

/-- The loop `while (X >>= 1) ret <<= 1` of `roundUp`, which a 64-bit `size_t` leaves after at
most 64 passes. -/
def zHash.roundUpLoop : Nat → Nat → Nat → Nat
  | 0, _, ret => ret
  | fuel + 1, X, ret =>
    if X >>> 1 = 0 then ret else zHash.roundUpLoop fuel (X >>> 1) ((ret <<< 1) % 2 ^ 64)

/-- Member `roundUp(X)` on a 64-bit `size_t`: `ret < tmp ? ret << 1 : ret`. -/
def zHash.roundUp (X : Nat) : Nat :=
  if zHash.roundUpLoop 64 X 1 < X then (zHash.roundUpLoop 64 X 1 <<< 1) % 2 ^ 64
  else zHash.roundUpLoop 64 X 1

/-- Member `SetInitBuckets(InitBuckets)`.  The two `new zMemHeap` and the `malloc` of the bucket
array are one request to the process heap each; when one fails nothing is changed and `false`
is returned.  The new bucket array is used as `malloc` returns it (`initBucketList` is not
called): `uninit` is its content. -/
def zHash.SetInitBuckets (Hp : zMemHeap H) (s : zHash K V H) (InitBuckets : Nat)
    (uninit : List (ENTRY K V)) : Bool × zHash K V H :=
  let NewBuckets := zHash.roundUp InitBuckets
  let NewThreshHold := zHash.threshold s.LoadFactor NewBuckets
  match zHash.sysAlloc s with
  | (false, s1) => (false, s1)
  | (true, s1) =>
    match zHash.sysAlloc s1 with
    | (false, s2) => (false, s2)
    | (true, s2) =>
      match zHash.sysAlloc s2 with
      | (false, s3) => (false, s3)
      | (true, s3) =>
        (true, { s3 with pHeap := Hp.create NewThreshHold
                         pBTNodeHeap := Hp.create ((NewThreshHold + KEY_MIN - 1) / KEY_MIN)
                         pBucket := uninit
                         Buckets := NewBuckets
                         Threshold := NewThreshHold
                         PosMask := (NewBuckets + (2 ^ 64 - 1)) % 2 ^ 64
                         MaskBits := zBitCount ((NewBuckets + (2 ^ 64 - 1)) % 2 ^ 64) })

/-- The law of the table parameters: the bucket count is a power of two `2 ^ j`, `PosMask` is
one less, and `MaskBits` is the bit count of `PosMask` and equals `j`. -/
def zHash.Geometry (s : zHash K V H) : Prop :=
  ∃ j, s.Buckets = 2 ^ j ∧ s.PosMask = s.Buckets - 1 ∧ s.MaskBits = zBitCount s.PosMask ∧
    s.MaskBits = j

/-- The law of the threshold: the bucket count times the load factor, rounded down. -/
def zHash.ThresholdLaw (s : zHash K V H) : Prop :=
  s.Threshold = zHash.threshold s.LoadFactor s.Buckets

/-- The entry is a list. -/
def ENTRY.isList {K V : Type} (e : ENTRY K V) : Bool :=
  match e.p with
  | .list _ _ => true
  | _ => false

/-- The entry is a tree. -/
def ENTRY.isTree {K V : Type} (e : ENTRY K V) : Bool :=
  match e.p with
  | .tree _ => true
  | _ => false

/-- The chain-variant law of one entry, without a bound on the length of a list: the entry is
empty, or a list of `Size_Type` nodes with `Size_Type` at least 1, or, with `Size_Type = 0`, a
valid tree of at least `MIN_BTREE_SIZE` records. -/
def ENTRY.Variant (e : ENTRY K V) : Prop :=
  e.p = .null ∨
  (∃ first rest, e.p = .list first rest ∧ e.Size_Type = (first :: rest).length ∧
    1 ≤ e.Size_Type) ∨
  (∃ t, e.p = .tree t ∧ e.Size_Type = 0 ∧ t.Valid ∧ MIN_BTREE_SIZE ≤ t.Size)

/-- The hash law of the entry `pBucket[i]`: every data node carries the hash of its key for
the current `MaskBits`, and that hash selects bucket `i`. -/
def zHash.HashLaw (s : zHash K V H) : Prop :=
  ∀ (i : Nat) (e : ENTRY K V), s.pBucket[i]? = some e →
    ∀ d ∈ e.nodes, d.h = s.pHashFun d.key s.MaskBits ∧ d.h &&& s.PosMask = i

end Relations

/-! ## The allocation tree `zAT` (`ZZG_Mem.cpp`, `ZZG_Bit.h`) -/

/-- The number of free bits of a leaf at which `Free` reports the leaf to the upper layers. -/
def FREE_THRESH_HOLD : Nat := 3

/-- The length of the arrays `pT` and `Nodes`. -/
def MAX_LAYER : Nat := 8

/-- Function `zBSF` on a 32-bit word: the index of the lowest bit that is 1, `none` when the
function returns 0 because the word is 0. -/
def zBSF (x : Nat) : Option Nat := (List.range 32).find? (fun i => x.testBit i)

/-- Function `zBitSet` on a 32-bit word: `*x |= ((uint32_t)0x1 << Index)`. -/
def zBitSet (x Index : Nat) : Nat := x ||| ((1 <<< Index) % 2 ^ 32)

/-- Function `zBitReset` on a 32-bit word: `*x &= ~(1U << Index)`. -/
def zBitReset (x Index : Nat) : Nat := x &&& ((2 ^ 32 - 1) ^^^ ((1 <<< Index) % 2 ^ 32))

/-- Function `zBitTest` on a 32-bit word: `(*x >> Index) & 0x1`. -/
def zBitTest (x Index : Nat) : Nat := (x >>> Index) &&& 1

/-- The 32-bit branch of `zBitCount` on an unsigned argument. -/
def zBitCount32 (n : Nat) : Nat :=
  let tmp := (n + 2 * 2 ^ 32 - ((n >>> 1) &&& 0o33333333333) - ((n >>> 2) &&& 0o11111111111))
    % 2 ^ 32
  (((tmp + (tmp >>> 3)) % 2 ^ 32) &&& 0o30707070707) % 63

/-- One allocation tree `z__AT`: `pT[i]` is the sequence of the words of layer `i`, layer 0
being the root and layer `MaxLayer - 1` the leaves, whose bits stand for the units (1 is
free).  The lock table is not used by `Alloc`, `Free` and `PreSet`. -/
structure z__AT where
  pT : List (List Nat)
  MaxLayer : Nat
deriving DecidableEq

namespace z__AT

/-- The word `*(pT[i] + k)`, when layer `i` has a word `k`. -/
def word (a : z__AT) (i k : Nat) : Option Nat :=
  match a.pT[i]? with
  | some layer => layer[k]?
  | none => none

/-- The store `*(pT[i] + k) = w`. -/
def store (a : z__AT) (i k w : Nat) : z__AT :=
  match a.pT[i]? with
  | some layer => { a with pT := a.pT.set i (layer.set k w) }
  | none => a

/-- The loop of `z__AT::Alloc()` from layer `i` and node `k` on; `none` stands for
`RET_MEM_FULL`.  An access to a word that its layer does not have is not followed
(`outOfModel`). -/
def AllocLoop : Nat → z__AT → Nat → Nat → Except Fault (Option Nat × z__AT)
  | 0, _, _, _ => .error .outOfFuel
  | fuel + 1, a, i, k =>
    match a.word i k with
    | none => .error .outOfModel
    | some w =>
      match zBSF w with
      | none =>
        if i = 0 then .ok (none, a)
        else
          match a.word (i - 1) (k >>> 5) with
          | none => .error .outOfModel
          | some p =>
            AllocLoop fuel (a.store (i - 1) (k >>> 5) (zBitReset p (k &&& 0x1f))) (i - 1)
              (k >>> 5)
      | some index =>
        if i = a.MaxLayer - 1 then
          .ok (some ((k <<< 5) + index), a.store i k (zBitReset w index))
        else AllocLoop fuel a (i + 1) ((k <<< 5) + index)

/-- A bound on the passes of the loop of `Alloc()`: every pass that goes up clears a bit that
is 1, every other pass goes down one layer. -/
def budget (a : z__AT) : Nat := 2 * (a.pT.map List.sum).sum + a.MaxLayer + 1

/-- Member `z__AT::Alloc()`. -/
def Alloc (a : z__AT) : Except Fault (Option Nat × z__AT) := AllocLoop a.budget a 0 0

/-- The loop of `z__AT::Free` over the layers `i - 1` down to 0, `UnitPos` being the node of
layer `i` whose bit is to be set. -/
def FreeUp : Nat → z__AT → Nat → Except Fault z__AT
  | 0, a, _ => .ok a
  | i + 1, a, UnitPos =>
    match a.word i (UnitPos >>> 5) with
    | none => .error .outOfModel
    | some w =>
      if zBitTest w (UnitPos &&& 0x1f) ≠ 0 then .ok a
      else FreeUp i (a.store i (UnitPos >>> 5) (zBitSet w (UnitPos &&& 0x1f))) (UnitPos >>> 5)

/-- Member `z__AT::Free(UnitPos)`. -/
def Free (a : z__AT) (UnitPos : Nat) : Except Fault z__AT :=
  match a.word (a.MaxLayer - 1) (UnitPos >>> 5) with
  | none => .error .outOfModel
  | some w =>
    if zBitCount32 (zBitSet w (UnitPos &&& 0x1f)) = FREE_THRESH_HOLD then
      FreeUp (a.MaxLayer - 1)
        (a.store (a.MaxLayer - 1) (UnitPos >>> 5) (zBitSet w (UnitPos &&& 0x1f)))
        (UnitPos >>> 5)
    else .ok (a.store (a.MaxLayer - 1) (UnitPos >>> 5) (zBitSet w (UnitPos &&& 0x1f)))

/-- The loop of `z__AT::PreSet` over the layers `i - 1` down to 0. -/
def PreSetUp : Nat → z__AT → Nat → Except Fault z__AT
  | 0, a, _ => .ok a
  | i + 1, a, UnitPos =>
    match a.word i (UnitPos >>> 5) with
    | none => .error .outOfModel
    | some w =>
      if zBitReset w (UnitPos &&& 0x1f) ≠ 0 then
        .ok (a.store i (UnitPos >>> 5) (zBitReset w (UnitPos &&& 0x1f)))
      else PreSetUp i (a.store i (UnitPos >>> 5) (zBitReset w (UnitPos &&& 0x1f)))
        (UnitPos >>> 5)

/-- Member `z__AT::PreSet(UnitPos)`. -/
def PreSet (a : z__AT) (UnitPos : Nat) : Except Fault z__AT :=
  match a.word (a.MaxLayer - 1) (UnitPos >>> 5) with
  | none => .error .outOfModel
  | some w =>
    if zBitReset w (UnitPos &&& 0x1f) ≠ 0 then
      .ok (a.store (a.MaxLayer - 1) (UnitPos >>> 5) (zBitReset w (UnitPos &&& 0x1f)))
    else
      PreSetUp (a.MaxLayer - 1)
        (a.store (a.MaxLayer - 1) (UnitPos >>> 5) (zBitReset w (UnitPos &&& 0x1f)))
        (UnitPos >>> 5)

/-- Every word of the tree set to `~0x0`. -/
def fill (a : z__AT) : z__AT :=
  { a with pT := a.pT.map (fun layer => layer.map (fun _ => 0xFFFFFFFF)) }

end z__AT

/-- The allocator `zAT`: two trees of `Size` units each.  `Count` is the call counter (an
`int`, kept as its 32-bit pattern), `Nodes[j]` the number of words of the layer `j` counted
from the leaves. -/
structure zAT where
  Count : Nat
  pAT1 : z__AT
  pAT2 : z__AT
  Size : Nat
  NodeNum : Nat
  MaxLayer : Nat
  Nodes : List Nat
deriving DecidableEq

namespace zAT

/-- The loop `for (int i = 1; Nodes[i - 1] > 0x1; ++i)` of `Init`: the entries of `Nodes`
after the entry `n`, at most `fuel` of them. -/
def nodeCounts : Nat → Nat → List Nat
  | 0, _ => []
  | fuel + 1, n => if 1 < n then ((n + 31) >>> 5) :: nodeCounts fuel ((n + 31) >>> 5) else []

/-- The word that `*pt1 = 1` and `k` passes of `*pt1 <<= 1; *pt1 |= 0x1` leave. -/
def lowOnes : Nat → Nat
  | 0 => 1
  | k + 1 => ((lowOnes k <<< 1) % 2 ^ 32) ||| 1

/-- The loop of `Init` and of `Reset` that sets the last word of every layer but the leaves,
for the layers `i - 1` down to 0. -/
def setLast (Nodes : List Nat) (MaxLayer : Nat) : Nat → z__AT → z__AT
  | 0, a => a
  | i + 1, a =>
    setLast Nodes MaxLayer i
      (if Nodes.getD (MaxLayer - i - 2) 0 &&& 0x1f ≠ 0 then
        a.store i (Nodes.getD (MaxLayer - 1 - i) 0 - 1)
          (lowOnes ((Nodes.getD (MaxLayer - i - 2) 0 &&& 0x1f) - 1))
      else a)

/-- A tree as the loop of `Init` that fills the buffer leaves it: layer `i` has
`Nodes[MaxLayer - 1 - i]` words, all of them `~0x0`. -/
def blank (Nodes : List Nat) : z__AT :=
  { pT := Nodes.reverse.map (fun n => List.replicate n 0xFFFFFFFF), MaxLayer := Nodes.length }

/-- Member `zAT::PreSet(UnitPos)`. -/
def PreSet (s : zAT) (UnitPos : Nat) : Except Fault zAT :=
  if UnitPos < s.Size then
    match s.pAT1.PreSet UnitPos with
    | .ok a => .ok { s with pAT1 := a }
    | .error f => .error f
  else
    match s.pAT2.PreSet (UnitPos - s.Size) with
    | .ok a => .ok { s with pAT2 := a }
    | .error f => .error f

/-- The loop `for (size_t i = Len - MaxNum; i > 0; --i) PreSet(Len - i)` of `Init`. -/
def presetLoop (Len : Nat) : Nat → zAT → Except Fault zAT
  | 0, s => .ok s
  | i + 1, s =>
    match s.PreSet (Len - (i + 1)) with
    | .ok s1 => presetLoop Len i s1
    | .error f => .error f

/-- Member `zAT::Init(MaxNum)` after the constructor has set `NodeNum = 0` and
`MaxLayer = 1`; `mem` tells whether `malloc` returns a buffer.  The result `none` stands for
the return value false.  More than `MAX_LAYER` layers overflow the array `Nodes`, and with
`NodeNum` not below `2 ^ 32` the loop that fills the buffer, whose counter is an
`unsigned int`, does not end inside the buffer. -/
def Init (MaxNum : Nat) (mem : Bool) : Except Fault (Option zAT) :=
  if MaxNum ≤ 0 then .ok none
  else
    let Nodes0 := ((MaxNum - (MaxNum >>> 1)) + 31) >>> 5
    let Size := Nodes0 <<< 5
    let Nodes := Nodes0 :: nodeCounts (MAX_LAYER - 1) Nodes0
    if 1 < Nodes.getLastD 0 then .error .undefinedBehaviour
    else
      let MaxLayer := Nodes.length
      let NodeNum := Nodes.sum
      if mem = false then .ok none
      else if 2 ^ 32 ≤ NodeNum then .error .undefinedBehaviour
      else
        let t : z__AT := setLast Nodes MaxLayer (MaxLayer - 1) (blank Nodes)
        match presetLoop (Size <<< 1) ((Size <<< 1) - MaxNum)
            { Count := 0, pAT1 := t, pAT2 := t, Size := Size, NodeNum := NodeNum
              MaxLayer := MaxLayer, Nodes := Nodes } with
        | .ok s => .ok (some s)
        | .error f => .error f

/-- Member `zAT::Reset()`. -/
def Reset (s : zAT) : zAT :=
  { s with pAT1 := setLast s.Nodes s.MaxLayer (s.MaxLayer - 1) s.pAT1.fill
           pAT2 := setLast s.Nodes s.MaxLayer (s.MaxLayer - 1) s.pAT2.fill }

/-- Member `zAT::Alloc()`; `none` stands for `RET_MEM_FULL`. -/
def Alloc (s : zAT) : Except Fault (Option Nat × zAT) :=
  if ((s.Count + 1) % 2 ^ 32) &&& 0x1 ≠ 0 then
    match s.pAT1.Alloc with
    | .error f => .error f
    | .ok (some AtNum, a1) => .ok (some AtNum, { s with Count := (s.Count + 1) % 2 ^ 32, pAT1 := a1 })
    | .ok (none, a1) =>
      match s.pAT2.Alloc with
      | .error f => .error f
      | .ok (some AtNum, a2) =>
        .ok (some (s.Size + AtNum),
          { s with Count := (s.Count + 1) % 2 ^ 32, pAT1 := a1, pAT2 := a2 })
      | .ok (none, a2) =>
        .ok (none, { s with Count := (s.Count + 1) % 2 ^ 32, pAT1 := a1, pAT2 := a2 })
  else
    match s.pAT2.Alloc with
    | .error f => .error f
    | .ok (some AtNum, a2) =>
      .ok (some (s.Size + AtNum), { s with Count := (s.Count + 1) % 2 ^ 32, pAT2 := a2 })
    | .ok (none, a2) =>
      match s.pAT1.Alloc with
      | .error f => .error f
      | .ok (r, a1) => .ok (r, { s with Count := (s.Count + 1) % 2 ^ 32, pAT1 := a1, pAT2 := a2 })

/-- Member `zAT::Free(UnitPos)`. -/
def Free (s : zAT) (UnitPos : Nat) : Except Fault zAT :=
  if UnitPos < s.Size then
    match s.pAT1.Free UnitPos with
    | .ok a => .ok { s with pAT1 := a }
    | .error f => .error f
  else
    match s.pAT2.Free (UnitPos - s.Size) with
    | .ok a => .ok { s with pAT2 := a }
    | .error f => .error f

/-- Member `zAT::GetUnitStatus(Unit)`: false when the unit is in use. -/
def GetUnitStatus (s : zAT) (Unit : Nat) : Except Fault Bool :=
  match (if Unit < s.Size then s.pAT1.word (s.pAT1.MaxLayer - 1) (Unit >>> 5)
      else s.pAT2.word (s.pAT2.MaxLayer - 1) ((Unit - s.Size) >>> 5)) with
  | some w => .ok (decide (zBitTest w (Unit &&& 0x1f) ≠ 0))
  | none => .error .outOfModel

end zAT

/-! ### Predicates on allocation trees -/

namespace z__AT

/-- The bit `b` of the word `k` of layer `i`; false where the layer has no such word. -/
def bit (a : z__AT) (i k b : Nat) : Bool :=
  match a.word i k with
  | some w => w.testBit b
  | none => false

/-- The layers of the tree fit: there are `MaxLayer` of them, the root layer has one word,
every word has its parent word in the layer above, and every word is a 32-bit word. -/
def Shaped (a : z__AT) : Prop :=
  a.pT.length = a.MaxLayer ∧ 0 < a.MaxLayer ∧ (a.word 0 0).isSome = true ∧
  (∀ k, (a.word 0 k).isSome = true → k = 0) ∧
  (∀ i k, (a.word (i + 1) k).isSome = true → (a.word i (k / 32)).isSome = true) ∧
  (∀ i k w, a.word i k = some w → w < 2 ^ 32)

/-- A tree in which `Alloc`, `Free` and `PreSet` stay inside the layers: it is `Shaped`, and
a bit that is 1 above the leaves stands for a word of the next layer. -/
def Valid (a : z__AT) : Prop :=
  a.Shaped ∧
  ∀ i k b, i + 1 < a.MaxLayer → b < 32 → a.bit i k b = true →
    (a.word (i + 1) (k * 32 + b)).isSome = true

/-- Every word with a bit that is 1 has its bit in the layer above at 1. -/
def Tight (a : z__AT) : Prop :=
  ∀ i k b, b < 32 → a.bit (i + 1) k b = true → a.bit i (k / 32) (k % 32) = true

/-- The bits above the node `k` of layer `i` that lead to it are 1. -/
def OnPath (a : z__AT) : Nat → Nat → Prop
  | 0, _ => True
  | i + 1, k => a.bit i (k / 32) (k % 32) = true ∧ OnPath a i (k / 32)

/-- The sum of all words. -/
def weight (a : z__AT) : Nat := (a.pT.map List.sum).sum

/-- The tree `a1` has the layers of `a` with the same numbers of words. -/
def SameShape (a a1 : z__AT) : Prop :=
  a1.MaxLayer = a.MaxLayer ∧ a1.pT.length = a.pT.length ∧
  ∀ i k, (a1.word i k).isSome = (a.word i k).isSome

/-- The unit `u` of the tree is free: its bit in the leaf layer is 1. -/
def free (a : z__AT) (u : Nat) : Bool := a.bit (a.MaxLayer - 1) (u / 32) (u % 32)

/-- The outcome of `Alloc()` on the tree `a`. -/
def AllocPost (a a1 : z__AT) (r : Option Nat) : Prop :=
  a1.Valid ∧ SameShape a a1 ∧ (a.Tight → a1.Tight) ∧
  match r with
  | none => (∀ u, a1.free u = a.free u) ∧ (∀ b, b < 32 → a1.bit 0 0 b = false)
  | some u => a.free u = true ∧ a1.free u = false ∧ ∀ v, v ≠ u → a1.free v = a.free v

end z__AT

namespace z__AT

/-- The tree `a1` has the layers, the free units and the validity of `a`, and is `Tight` when
`a` is. -/
def Kept (a a1 : z__AT) : Prop :=
  a1.Valid ∧ SameShape a a1 ∧ (a.Tight → a1.Tight) ∧ ∀ u, a1.free u = a.free u

end z__AT

namespace zAT

/-- The list is a list of layer sizes, from the leaves to the root: every entry but the last
is above 1, the next entry is that entry divided by 32 and rounded up, and the last entry
is 1. -/
def Layers (Nodes : List Nat) : Prop :=
  0 < Nodes.length ∧
  (∀ j, j + 1 < Nodes.length →
    1 < Nodes.getD j 0 ∧ Nodes.getD (j + 1) 0 = (Nodes.getD j 0 + 31) / 32) ∧
  Nodes.getD (Nodes.length - 1) 0 = 1

/-- The unit `u` of the allocator is free: the units below `Size` are those of the first
tree, the others those of the second. -/
def free (s : zAT) (u : Nat) : Bool :=
  if u < s.Size then s.pAT1.free u else s.pAT2.free (u - s.Size)

/-- The invariant of the allocator: both trees are `Valid`, `Size` is a multiple of 32, and
the leaf layer of each tree has `Size / 32` words. -/
def Inv (s : zAT) : Prop :=
  s.pAT1.Valid ∧ s.pAT2.Valid ∧ s.Size % 32 = 0 ∧
  (∀ k, (s.pAT1.word (s.pAT1.MaxLayer - 1) k).isSome = true ↔ k * 32 < s.Size) ∧
  (∀ k, (s.pAT2.word (s.pAT2.MaxLayer - 1) k).isSome = true ↔ k * 32 < s.Size)

/-- Both trees are `Tight`. -/
def Tight (s : zAT) : Prop := s.pAT1.Tight ∧ s.pAT2.Tight

/-- The root words of both trees are 0 (in their 32 bits). -/
def RootsZero (s : zAT) : Prop :=
  (∀ b, b < 32 → s.pAT1.bit 0 0 b = false) ∧ (∀ b, b < 32 → s.pAT2.bit 0 0 b = false)

/-- The root words of both trees are 0, as a check. -/
def rootsZero (s : zAT) : Bool :=
  decide (s.pAT1.word 0 0 = some 0) && decide (s.pAT2.word 0 0 = some 0)

/-- The unit `u` is in use: `GetUnitStatus(u)` returns false. -/
def used (s : zAT) (u : Nat) : Bool :=
  match s.GetUnitStatus u with
  | .ok false => true
  | _ => false

/-- The number of the units `0` to `C - 1` that are in use. -/
def usedCount (s : zAT) (C : Nat) : Nat := ((List.range C).filter s.used).length

/-- The outcome of `zAT::Alloc()`. -/
def AllocOut (s s1 : zAT) (r : Option Nat) : Prop :=
  s1.Inv ∧ s1.Size = s.Size ∧ (s.Tight → s1.Tight) ∧
  match r with
  | none => (∀ u, s1.free u = s.free u) ∧ s1.RootsZero
  | some u =>
    u < 2 * s.Size ∧ s.free u = true ∧ s1.free u = false ∧ ∀ v, v ≠ u → s1.free v = s.free v

/-- A call of the allocator. -/
inductive Call where
  | alloc
  | free (UnitPos : Nat)
deriving DecidableEq

/-- An allocator in use: its state, the units that `Alloc` has returned and that have not
been freed since, and the numbers of the successful calls of `Alloc` and of the calls of
`Free`. -/
structure Trace where
  s : zAT
  live : List Nat
  allocs : Nat
  frees : Nat

/-- One call.  `Free` is applied to live units only: with another unit the sequence of calls
is not considered (`none`). -/
def call (t : Trace) : Call → Except Fault (Option Trace)
  | .alloc =>
    match t.s.Alloc with
    | .ok (some u, s1) =>
      .ok (some { s := s1, live := u :: t.live, allocs := t.allocs + 1, frees := t.frees })
    | .ok (none, s1) => .ok (some { t with s := s1 })
    | .error f => .error f
  | .free u =>
    if u ∈ t.live then
      match t.s.Free u with
      | .ok s1 =>
        .ok (some { s := s1, live := t.live.erase u, allocs := t.allocs, frees := t.frees + 1 })
      | .error f => .error f
    else .ok none

/-- A sequence of calls. -/
def calls : Trace → List Call → Except Fault (Option Trace)
  | t, [] => .ok (some t)
  | t, c :: cs =>
    match call t c with
    | .ok (some t1) => calls t1 cs
    | .ok none => .ok none
    | .error f => .error f

/-- The allocator right after `Init`, with no unit live. -/
def start (s : zAT) : Trace := { s := s, live := [], allocs := 0, frees := 0 }

/-- The invariant of an allocator of capacity `C` in use. -/
def TInv (C : Nat) (t : Trace) : Prop :=
  t.s.Inv ∧ C ≤ 2 * t.s.Size ∧ t.live.Nodup ∧
  (∀ u, u ∈ t.live ↔ (u < C ∧ t.s.free u = false)) ∧
  (∀ u, C ≤ u → t.s.free u = false) ∧ t.live.length + t.frees = t.allocs

end zAT

/-- The number of units of the allocator of `zMemHeap(MaxMum)`:
`MaxMum * 32 / (33 - FREE_THRESH_HOLD) + 1`, in 64-bit arithmetic. -/
def zMemHeap.Count (MaxMum : Nat) : Nat :=
  ((MaxMum * 32) % 2 ^ 64 / (33 - FREE_THRESH_HOLD) + 1) % 2 ^ 64

/-- The allocator `pAT = new zAT(Count)` of `zMemHeap(MaxMum)`. -/
def zMemHeap.pAT (MaxMum : Nat) (mem : Bool) : Except Fault (Option zAT) :=
  zAT.Init (zMemHeap.Count MaxMum) mem

/-! ## The spin lock `zLock` and the sequence lock `zSeqLock` (`ZZG_Sync.h`), run by one thread -/

/-- The spin lock: the flag `aFlag`, `true` when set. -/
structure zLock where
  aFlag : Bool
  deriving DecidableEq

namespace zLock

/-- The lock as its constructor leaves it: the flag is clear. -/
def init : zLock := { aFlag := false }

/-- Member `Lock`: `test_and_set` until the flag was clear.  With one thread a set flag is
never cleared, so the loop does not end. -/
def Lock (l : zLock) : Except Fault zLock :=
  if l.aFlag = true then .error .hang else .ok { aFlag := true }

/-- Member `Unlock`: the flag is cleared. -/
def Unlock (_l : zLock) : zLock := { aFlag := false }

end zLock

/-- The sequence lock: the writers' spin lock and the 32-bit pattern of the `int` `Version`. -/
structure zSeqLock where
  lock : zLock
  Version : Nat
  deriving DecidableEq

namespace zSeqLock

/-- The lock as its constructor leaves it: `Version.store(0)`. -/
def init : zSeqLock := { lock := zLock.init, Version := 0 }

/-- Member `ReadBegin`: the version is loaded, and loaded again while it is odd.  With one
thread an odd version stays odd, so the loop does not end. -/
def ReadBegin (l : zSeqLock) : Except Fault Nat :=
  if l.Version &&& 1 ≠ 0 then .error .hang else .ok l.Version

/-- Member `ReadRetry(StartVersion)`: `StartVersion ^ Version`. -/
def ReadRetry (l : zSeqLock) (StartVersion : Nat) : Nat :=
  StartVersion ^^^ l.Version

/-- Member `WLock`: `lock.Lock()` and then `fetch_add(Version, 1)`. -/
def WLock (l : zSeqLock) : Except Fault zSeqLock :=
  match l.lock.Lock with
  | .error f => .error f
  | .ok k => .ok { lock := k, Version := (l.Version + 1) % 2 ^ 32 }

/-- Member `WUnlock`: `fetch_sub(Version, 1)` and then `lock.Unlock()`. -/
def WUnlock (l : zSeqLock) : zSeqLock :=
  { lock := l.lock.Unlock, Version := (l.Version + (2 ^ 32 - 1)) % 2 ^ 32 }

/-- A number of write sections one after the other, each `WLock` followed by `WUnlock`. -/
def writes : Nat → zSeqLock → Except Fault zSeqLock
  | 0, l => .ok l
  | n + 1, l =>
    match l.WLock with
    | .error f => .error f
    | .ok l1 => writes n l1.WUnlock

end zSeqLock

/-! ## The default hash functions `zHashFun` (`ZZG_Hash.h`) -/

/-- The loop `while (Tmp >>= MaskBits) h ^= Tmp;` of the integer `zHashFun`: the first
argument bounds the number of rounds, and `hang` is the loop that runs out of it. -/
def zHashFun.fold : Nat → Nat → Nat → Nat → Except Fault Nat
  | 0, _, _, _ => .error .hang
  | fuel + 1, Tmp, h, MaskBits =>
    if Tmp >>> MaskBits = 0 then .ok h
    else zHashFun.fold fuel (Tmp >>> MaskBits) (h ^^^ (Tmp >>> MaskBits)) MaskBits

/-- The arithmetic `zHashFun(Key, MaskBits)` for a key of `size` bytes, the key given by its
bit pattern.  Keys of 8, 4 and 2 bytes are folded as `uint64_t`, `uint32_t` and `uint16_t`
(the last promoted to `int` for the shift); a shift by the width of the shifted type or more
is undefined; every other size returns the first byte of the key. -/
def zHashFun (size Key MaskBits : Nat) : Except Fault Nat :=
  if size = 8 then
    if 64 ≤ MaskBits then .error .undefinedBehaviour else zHashFun.fold 65 Key Key MaskBits
  else if size = 4 then
    if 32 ≤ MaskBits then .error .undefinedBehaviour else zHashFun.fold 33 Key Key MaskBits
  else if size = 2 then
    if 32 ≤ MaskBits then .error .undefinedBehaviour else zHashFun.fold 17 Key Key MaskBits
  else .ok (Key % 2 ^ 8)

/-- The value of an `int8_t` character, given by its byte, converted to `size_t`. -/
def int8ToSize (c : Nat) : Nat :=
  if c < 128 then c else c + (2 ^ 64 - 256)

/-- The loop `while (*(pc++)) h = *pc + h * 9;` of the string `zHashFun` over the buffer from
`pc` on: the character under `pc` is tested, `pc` moves on, and the character then under `pc`
is added. -/
def zHashFun.strLoop : List Nat → Nat → Nat
  | [], h => h
  | c :: rest, h =>
    if c = 0 then h
    else zHashFun.strLoop rest ((int8ToSize (rest.headD 0) + h * 9) % 2 ^ 64)

/-- The `std::string` `zHashFun(Key, MaskBits)`: the loop over the bytes of `Key.data()`, which
end with the terminator 0, and then `h ^= (h >> MaskBits)` on the 64-bit `size_t`. -/
def zHashFunString (Key : List Nat) (MaskBits : Nat) : Except Fault Nat :=
  if 64 ≤ MaskBits then .error .undefinedBehaviour
  else .ok (zHashFun.strLoop (Key ++ [0]) 0 ^^^ (zHashFun.strLoop (Key ++ [0]) 0 >>> MaskBits))

/-- One call that configures a table. -/
inductive zHash.Setting where
  | resizable (bResize : Bool)
  | countable (bCount : Bool)
  deriving DecidableEq

/-- The table after a sequence of `SetResizable` and `SetCountable` calls. -/
def zHash.configure {K V H : Type} (s : zHash K V H) : List zHash.Setting → zHash K V H
  | [] => s
  | .resizable b :: rest => zHash.configure (s.SetResizable b) rest
  | .countable b :: rest => zHash.configure (s.SetCountable b) rest

/-! ### What the description says of the hash functions -/

/-- The XOR of the first `n` chunks of `m` bits of `k`, from the lowest up. -/
def chunkXor (k m : Nat) : Nat → Nat
  | 0 => 0
  | n + 1 => chunkXor k m n ^^^ ((k >>> (n * m)) % 2 ^ m)

/-- The XOR of `k`, `k >> m`, ..., `k >> ((n - 1) * m)`. -/
def xorShifts (k m : Nat) : Nat → Nat
  | 0 => 0
  | n + 1 => xorShifts k m n ^^^ (k >>> (n * m))

/-- The value `g` of the description of the string hash: from `h = 0`, `h ← 9·h + c` modulo
`2^64` for every character of the string in order. -/
def strFold (s : List Nat) : Nat :=
  s.foldl (fun h c => (9 * h + c) % 2 ^ 64) 0

/-- The string hash as the description has it: `g XOR (g >> m)`. -/
def strHashSpec (s : List Nat) (m : Nat) : Nat :=
  strFold s ^^^ (strFold s >>> m)

/-! ## The lock `zRWLock` under several threads: atomic steps -/

namespace zRWLock

/-- Where a thread stands in the members of the lock: between two of its accesses to `Flag`
and `WriteFlag`, or holding a lock. -/
inductive Pc where
  /-- In no member, holding nothing. -/
  | idle
  /-- In `RLock`, before `fetch_add(Flag, 1)` of a further round. -/
  | rAdd
  /-- In `RLock`, before the read of `WriteFlag`. -/
  | rTestW
  /-- In `RLock`, before `Flag.load() & WRITELOCKMASK`. -/
  | rTestF
  /-- In `RLock`, before `fetch_sub(Flag, 1)`. -/
  | rUndo
  /-- Returned from `RLock` (or `WToRLock`): holding a read lock. -/
  | reading
  /-- In `WLock`, before `compare_exchange_weak(&Flag, &temp, WRITELOCKMASK)`, with the
  value of the local `temp`. -/
  | wCas (temp : Nat)
  /-- In `WLock`, after a failed exchange, before `WriteFlag = true`. -/
  | wReset (temp : Nat)
  /-- Returned from `WLock`: holding the write lock. -/
  | writing
  /-- In `WUnlock`, before `fetch_and(Flag, 0xffffff)`. -/
  | uAnd
  /-- In `WToRLock`, before `fetch_add(Flag, 1)`. -/
  | dAdd
  /-- In `WToRLock`, before `fetch_and(Flag, 0xffffff)`. -/
  | dAnd
  deriving DecidableEq

/-- What a thread does next: enter a member (which runs the first access of the member), run
the next access of the member it is in, or have the weak exchange fail although the word
equals `temp`. -/
inductive Act where
  | callRLock
  | callWLock
  | callRUnlock
  | callWUnlock
  | callWToRLock
  | next
  | spurious
  deriving DecidableEq

/-- One atomic step of one thread on the lock: the lock and the place of the thread after
it, `none` when the thread cannot do this where it stands (a thread unlocks only what it
holds). -/
def step (l : zRWLock) : Pc → Act → Option (zRWLock × Pc)
  | .idle, .callRLock => some ({ l with Flag := (l.Flag + 1) % 2 ^ 32 }, .rTestW)
  | .rAdd, .next => some ({ l with Flag := (l.Flag + 1) % 2 ^ 32 }, .rTestW)
  | .rTestW, .next => some (l, if l.WriteFlag = true then .rUndo else .rTestF)
  | .rTestF, .next => some (l, if l.Flag &&& WRITELOCKMASK ≠ 0 then .rUndo else .reading)
  | .rUndo, .next => some ({ l with Flag := (l.Flag + (2 ^ 32 - 1)) % 2 ^ 32 }, .rAdd)
  | .reading, .callRUnlock =>
    some ({ l with Flag := (l.Flag + (2 ^ 32 - 1)) % 2 ^ 32 }, .idle)
  | .idle, .callWLock => some ({ l with WriteFlag := true }, .wCas 0)
  | .wCas temp, .next =>
    if l.Flag = temp then some ({ l with Flag := WRITELOCKMASK }, .writing)
    else some (l, .wReset l.Flag)
  | .wCas temp, .spurious => if l.Flag = temp then some (l, .wReset temp) else none
  | .wReset temp, .next => some ({ l with WriteFlag := true }, .wCas temp)
  | .writing, .callWUnlock => some ({ l with WriteFlag := false }, .uAnd)
  | .uAnd, .next => some ({ l with Flag := l.Flag &&& 0xffffff }, .idle)
  | .writing, .callWToRLock => some ({ l with WriteFlag := false }, .dAdd)
  | .dAdd, .next => some ({ l with Flag := (l.Flag + 1) % 2 ^ 32 }, .dAnd)
  | .dAnd, .next => some ({ l with Flag := l.Flag &&& 0xffffff }, .reading)
  | _, _ => none

/-- A lock shared by threads: the lock and the place of every thread. -/
structure Shared where
  lock : zRWLock
  threads : List Pc
  deriving DecidableEq

/-- A fresh lock and `n` threads that hold nothing. -/
def Shared.start (n : Nat) : Shared :=
  { lock := zRWLock.init, threads := List.replicate n .idle }

/-- Thread `i` takes one step. -/
def Shared.step (s : Shared) (i : Nat) (a : Act) : Option Shared :=
  match s.threads.get? i with
  | none => none
  | some pc =>
    match zRWLock.step s.lock pc a with
    | none => none
    | some (l, pc1) => some { lock := l, threads := s.threads.set i pc1 }

/-- A schedule: the steps are taken in order, each by the named thread. -/
def Shared.run (s : Shared) : List (Nat × Act) → Option Shared
  | [] => some s
  | (i, a) :: rest =>
    match s.step i a with
    | none => none
    | some s1 => Shared.run s1 rest

/-- The states a fresh lock with `n` threads can get into. -/
def Shared.Reachable (n : Nat) (s : Shared) : Prop :=
  ∃ schedule, (Shared.start n).run schedule = some s

/-- Thread `i` holds the write lock. -/
def Shared.writes (s : Shared) (i : Nat) : Prop := s.threads.get? i = some .writing

/-- Thread `i` holds a read lock. -/
def Shared.reads (s : Shared) (i : Nat) : Prop := s.threads.get? i = some .reading

/-- The exclusion the lock is meant to give: no thread holds the write lock while another
thread holds a read lock or the write lock. -/
def Shared.Exclusive (s : Shared) : Prop :=
  ∀ i j, i ≠ j → s.writes i → ¬ s.reads j ∧ ¬ s.writes j

end zRWLock

/-! ## Sequences of `Insert` and `Remove` on a tree -/

section TreeRuns

variable {K V H : Type} [LinearOrder K]

/-- The tree as its constructor leaves it: `m_pRoot = NULL`, `Size = 0`. -/
def zBTree.empty : zBTree K V := { Size := 0, m_pRoot := none }

/-- One call on a tree: `Insert` with the data node stored in the slot returned, or
`Remove`. -/
inductive zBTree.Step (K V : Type) where
  | insert (d : DATA_NODE K V)
  | remove (key : K) (h : Nat)

/-- The tree and its node heap after one call. -/
def zBTree.step (Hp : zMemHeap H) (s : zBTree K V × H) : zBTree.Step K V → zBTree K V × H
  | .insert d => (s.1.Insert Hp d s.2).2
  | .remove key h => (s.1.Remove Hp key h s.2).2

/-- The tree and its node heap after a sequence of calls. -/
def zBTree.steps (Hp : zMemHeap H) (s : zBTree K V × H) (l : List (zBTree.Step K V)) :
    zBTree K V × H :=
  l.foldl (zBTree.step Hp) s

/-- The value `Insert` returns: 0, 1 or -1 (2 marks a descent cut off by the model's
iteration bound). -/
def InsertStatus.code : InsertStatus K V → Int
  | .inserted => 0
  | .found _ => 1
  | .memError => -1
  | .noFuel => 2

end TreeRuns

/-! ## The tree with the `parent` pointers of its nodes

The functions on `zBTreeNode` above follow a node's way down from the root and have no use for
the field `parent`.  Here the nodes carry it, and every store to it that `Insert`,
`splitChild` and `solveUnderflow` make is made. -/

/-- Tree node (`zBTreeNode<TK,TV>`) with its field `parent`: the slot of the node pointed to,
`none` for the null pointer. -/
inductive zBTreeNodeP (K V : Type) where
  | mk (slot : Nat) (parent : Option Nat) (Key : List (DATA_NODE K V))
      (pChild : List (zBTreeNodeP K V))

namespace zBTreeNodeP

variable {K V H : Type}

/-- Slot of the node in the tree-node heap. -/
def slot : zBTreeNodeP K V → Nat
  | mk s _ _ _ => s

/-- Field `parent`. -/
def parent : zBTreeNodeP K V → Option Nat
  | mk _ par _ _ => par

/-- Keys `Key[0 .. KeyNum-1]`. -/
def Key : zBTreeNodeP K V → List (DATA_NODE K V)
  | mk _ _ ks _ => ks

/-- Children `pChild[0 .. KeyNum]`; empty for a leaf. -/
def pChild : zBTreeNodeP K V → List (zBTreeNodeP K V)
  | mk _ _ _ cs => cs

/-- Number of keys of the node. -/
def KeyNum (p : zBTreeNodeP K V) : Nat := p.Key.length

/-- Number of loop iterations a descent from the node needs. -/
def depth : zBTreeNodeP K V → Nat
  | mk _ _ _ [] => 1
  | mk _ _ _ (c :: _) => depth c + 1

/-- The store `p->parent = x`. -/
def setParent (x : Option Nat) : zBTreeNodeP K V → zBTreeNodeP K V
  | mk s _ ks cs => mk s x ks cs

/-- Member `insertChild(pos, pN)`. -/
def insertChild (pChild : List (zBTreeNodeP K V)) (pos : Nat) (pN : zBTreeNodeP K V) :
    List (zBTreeNodeP K V) :=
  pChild.take pos ++ pN :: pChild.drop pos

/-- Member `removeChild(pos)` followed by the decrement of `KeyNum`. -/
def removeChild (pChild : List (zBTreeNodeP K V)) (pos : Nat) : List (zBTreeNodeP K V) :=
  pChild.take pos ++ pChild.drop (pos + 1)

/-- Store `c` in `pChild[pos]`. -/
def setChild (pChild : List (zBTreeNodeP K V)) (pos : Nat) (c : zBTreeNodeP K V) :
    List (zBTreeNodeP K V) :=
  pChild.take pos ++ c :: pChild.drop (pos + 1)

mutual
/-- The node without its `parent` fields. -/
def erase : zBTreeNodeP K V → zBTreeNode K V
  | mk s _ ks cs => .mk s ks (eraseList cs)
/-- A list of nodes without their `parent` fields. -/
def eraseList : List (zBTreeNodeP K V) → List (zBTreeNode K V)
  | [] => []
  | c :: cs => erase c :: eraseList cs
end

mutual
/-- Below the node every `parent` pointer points to the node that holds the child. -/
def Linked : zBTreeNodeP K V → Prop
  | mk s _ _ cs => LinkedTo s cs
/-- The nodes of the list have their `parent` pointer on slot `s`, and below them every
`parent` pointer points to the node that holds the child. -/
def LinkedTo (s : Nat) : List (zBTreeNodeP K V) → Prop
  | [] => True
  | c :: cs => c.parent = some s ∧ Linked c ∧ LinkedTo s cs
end

end zBTreeNodeP

namespace zBTreeNode

variable {K V : Type}

mutual
/-- The node with `parent` fields as the tree structure has them: `par` in the node itself and
the slot of the holding node in every node below. -/
def annotate : zBTreeNode K V → Option Nat → zBTreeNodeP K V
  | mk s ks cs, par => .mk s par ks (annotateList cs (some s))
/-- The nodes of a list annotated, all with `par` as their parent. -/
def annotateList : List (zBTreeNode K V) → Option Nat → List (zBTreeNodeP K V)
  | [], _ => []
  | c :: cs, par => annotate c par :: annotateList cs par
end

end zBTreeNode

/-- The tree object over nodes with `parent` pointers. -/
structure zBTreeP (K V : Type) where
  Size : Nat
  m_pRoot : Option (zBTreeNodeP K V)

namespace zBTreeNodeP

variable {K V H : Type} [LinearOrder K]

/-- Left half of a split: the node itself with `KeyNum = KEY_MIN`; its `parent` stays. -/
def splitLeft (pNode : zBTreeNodeP K V) : zBTreeNodeP K V :=
  mk pNode.slot pNode.parent (pNode.Key.take KEY_MIN) (pNode.pChild.take CHILD_MIN)

/-- Right half of a split: the new node in slot `r` with `parent = par`; the children moved
into it get `parent = r`. -/
def splitRight (r : Nat) (par : Option Nat) (pNode : zBTreeNodeP K V) : zBTreeNodeP K V :=
  mk r par ((pNode.Key.drop CHILD_MIN).take KEY_MIN)
    (((pNode.pChild.drop CHILD_MIN).take CHILD_MIN).map (setParent (some r)))

/-- The loop of `searchForInsert` from the node `p`, with the store at the leaf; `splitChild`
sets `pRightNode->parent = pParent` and the `parent` of the children it moves. -/
def searchForInsert (Hp : zMemHeap H) :
    Nat → zBTreeNodeP K V → DATA_NODE K V → H → InsertStatus K V × zBTreeNodeP K V × H
  | 0, p, _, hp => (.noFuel, p, hp)
  | fuel + 1, p, d, hp =>
    let index1 := zBTreeNode.searchKey d.key d.h p.Key
    match zBTreeNode.foundAt p.Key index1 d.key d.h with
    | some e => (.found e, p, hp)
    | none =>
      match p.pChild[index1]? with
      | none => (.inserted, mk p.slot p.parent (zBTreeNode.insertKey p.Key index1 d) p.pChild, hp)
      | some c =>
        if KEY_MAX ≤ c.KeyNum then
          match Hp.LockAlloc hp with
          | (none, hp1) => (.memError, p, hp1)
          | (some r, hp1) =>
            match c.Key[KEY_MIN]? with
            | none => (.noFuel, p, hp1)
            | some med =>
              if med.h < d.h ∨ (d.h = med.h ∧ med.key < d.key) then
                match searchForInsert Hp fuel (splitRight r (some p.slot) c) d hp1 with
                | (st, cR, hp2) =>
                  (st, mk p.slot p.parent (zBTreeNode.insertKey p.Key index1 med)
                    (insertChild (setChild p.pChild index1 (splitLeft c)) (index1 + 1) cR), hp2)
              else if d.h = med.h ∧ d.key = med.key then
                (.found med, mk p.slot p.parent (zBTreeNode.insertKey p.Key index1 med)
                  (insertChild (setChild p.pChild index1 (splitLeft c)) (index1 + 1)
                    (splitRight r (some p.slot) c)), hp1)
              else
                match searchForInsert Hp fuel (splitLeft c) d hp1 with
                | (st, cL, hp2) =>
                  (st, mk p.slot p.parent (zBTreeNode.insertKey p.Key index1 med)
                    (insertChild (setChild p.pChild index1 cL) (index1 + 1)
                      (splitRight r (some p.slot) c)),
                    hp2)
        else
          match searchForInsert Hp fuel c d hp with
          | (st, c1, hp1) => (st, mk p.slot p.parent p.Key (setChild p.pChild index1 c1), hp1)

/-- Borrowing from the left sibling `lc`: the child moved into `q` gets `parent = q`. -/
def borrowLeft (p : zBTreeNodeP K V) (n : Nat) (q lc : zBTreeNodeP K V) : zBTreeNodeP K V :=
  match p.Key[n - 1]?, lc.Key[lc.KeyNum - 1]? with
  | some sep, some up =>
    let qChild :=
      match q.pChild, lc.pChild[lc.KeyNum]? with
      | [], _ => []
      | c :: cs, some moved => insertChild (c :: cs) 0 (moved.setParent (some q.slot))
      | c :: cs, none => c :: cs
    let q1 := mk q.slot q.parent (zBTreeNode.insertKey q.Key 0 sep) qChild
    let lc1 := mk lc.slot lc.parent (lc.Key.take (lc.KeyNum - 1)) (lc.pChild.take lc.KeyNum)
    mk p.slot p.parent (zBTreeNode.setKey p.Key (n - 1) up)
      (setChild (setChild p.pChild n q1) (n - 1) lc1)
  | _, _ => p

/-- Borrowing from the right sibling `rc`: the child moved into `q` gets `parent = q`. -/
def borrowRight (p : zBTreeNodeP K V) (n : Nat) (q rc : zBTreeNodeP K V) : zBTreeNodeP K V :=
  match p.Key[n]?, rc.Key with
  | some sep, up :: _ =>
    let qChild :=
      match rc.pChild with
      | [] => q.pChild
      | moved :: _ => q.pChild ++ [moved.setParent (some q.slot)]
    let q1 := mk q.slot q.parent (q.Key ++ [sep]) qChild
    let rc1 := mk rc.slot rc.parent (zBTreeNode.removeKey rc.Key 0) (removeChild rc.pChild 0)
    mk p.slot p.parent (zBTreeNode.setKey p.Key n up)
      (setChild (setChild p.pChild n q1) (n + 1) rc1)
  | _, _ => p

/-- Merging `q` into its left sibling `lc`: the children of `q` get `parent = lc`. -/
def mergeLeft (p : zBTreeNodeP K V) (n : Nat) (q lc : zBTreeNodeP K V) : zBTreeNodeP K V :=
  match p.Key[n - 1]? with
  | some sep =>
    let lc1 := mk lc.slot lc.parent (lc.Key ++ sep :: q.Key)
      (lc.pChild ++ q.pChild.map (setParent (some lc.slot)))
    mk p.slot p.parent (zBTreeNode.removeKey p.Key (n - 1))
      (removeChild (setChild p.pChild (n - 1) lc1) n)
  | none => p

/-- Merging the right sibling `rc` into `q`: the children of `rc` get `parent = q`. -/
def mergeRight (p : zBTreeNodeP K V) (n : Nat) (q rc : zBTreeNodeP K V) : zBTreeNodeP K V :=
  match p.Key[n]? with
  | some sep =>
    let q1 := mk q.slot q.parent (q.Key ++ sep :: rc.Key)
      (q.pChild ++ rc.pChild.map (setParent (some q.slot)))
    mk p.slot p.parent (zBTreeNode.removeKey p.Key n)
      (removeChild (setChild p.pChild n q1) (n + 1))
  | none => p

/-- One call `solveUnderflow(q)` for the non-root node `q = p->pChild[n]`, seen from its
parent `p` (which is `q->parent`). -/
def solveUnderflow (Hp : zMemHeap H) (hp : H) (p : zBTreeNodeP K V) (n : Nat) :
    zBTreeNodeP K V × Bool × H :=
  match p.pChild[n]? with
  | none => (p, false, hp)
  | some q =>
    if KEY_MIN ≤ q.KeyNum then (p, false, hp)
    else
      match (if 0 < n then p.pChild[n - 1]? else none),
            (if n < p.KeyNum then p.pChild[n + 1]? else none) with
      | some lc, some rc =>
        if KEY_MIN < lc.KeyNum then (borrowLeft p n q lc, false, hp)
        else if KEY_MIN < rc.KeyNum then (borrowRight p n q rc, false, hp)
        else (mergeLeft p n q lc, true, Hp.LockFree hp q.slot)
      | some lc, none =>
        if KEY_MIN < lc.KeyNum then (borrowLeft p n q lc, false, hp)
        else (mergeLeft p n q lc, true, Hp.LockFree hp q.slot)
      | none, some rc =>
        if KEY_MIN < rc.KeyNum then (borrowRight p n q rc, false, hp)
        else (mergeRight p n q rc, true, Hp.LockFree hp rc.slot)
      | none, none => (p, false, hp)

/-- The parent `p` after its child `pChild[n]` came back from a removal below. -/
def afterChild (Hp : zMemHeap H) (hp : H) (p : zBTreeNodeP K V) (n : Nat) (called : Bool) :
    zBTreeNodeP K V × Bool × H :=
  if called then solveUnderflow Hp hp p n else (p, false, hp)

mutual
/-- Removal of the in-order successor below `q`, with the `solveUnderflow` calls on the way
back up. -/
def removeMin (Hp : zMemHeap H) (hp : H) :
    zBTreeNodeP K V → Option (DATA_NODE K V × zBTreeNodeP K V × Bool × H)
  | mk slot par Key [] =>
    match Key with
    | [] => none
    | k :: rest => some (k, mk slot par rest [], true, hp)
  | mk slot par Key (c :: cs) =>
    match removeMin Hp hp c with
    | none => none
    | some (k, c1, called, hp1) =>
      match afterChild Hp hp1 (mk slot par Key (c1 :: cs)) 0 called with
      | (p1, called1, hp2) => some (k, p1, called1, hp2)
/-- The successor removal applied to the child `pChild[i]`. -/
def removeMinAt (Hp : zMemHeap H) (hp : H) :
    List (zBTreeNodeP K V) → Nat → Option (DATA_NODE K V × zBTreeNodeP K V × Bool × H)
  | [], _ => none
  | c :: _, 0 => removeMin Hp hp c
  | _ :: cs, i + 1 => removeMinAt Hp hp cs i
end

mutual
/-- The body of `zBTree::Remove` below node `p`, with the `solveUnderflow` calls on the way
back up to `p`. -/
def removeRec (Hp : zMemHeap H) (key : K) (h : Nat) (hp : H) :
    zBTreeNodeP K V → Option (DATA_NODE K V) × zBTreeNodeP K V × Bool × H
  | mk slot par Key pChild =>
    let index1 := zBTreeNode.searchKey key h Key
    match zBTreeNode.foundAt Key index1 key h with
    | some e =>
      match pChild with
      | [] => (some e, mk slot par (zBTreeNode.removeKey Key (index1 - 1)) [], true, hp)
      | c :: cs =>
        match removeMinAt Hp hp (c :: cs) index1 with
        | none => (none, mk slot par Key pChild, false, hp)
        | some (succ, c1, called, hp1) =>
          match afterChild Hp hp1
              (mk slot par (zBTreeNode.setKey Key (index1 - 1) succ)
                (setChild (c :: cs) index1 c1))
              index1 called with
          | (p1, called1, hp2) => (some e, p1, called1, hp2)
    | none =>
      match removeAt Hp key h hp pChild index1 with
      | none => (none, mk slot par Key pChild, false, hp)
      | some (e, c1, called, hp1) =>
        match afterChild Hp hp1 (mk slot par Key (setChild pChild index1 c1)) index1 called with
        | (p1, called1, hp2) => (some e, p1, called1, hp2)
/-- The removal continued in the child `pChild[i]`. -/
def removeAt (Hp : zMemHeap H) (key : K) (h : Nat) (hp : H) :
    List (zBTreeNodeP K V) → Nat → Option (DATA_NODE K V × zBTreeNodeP K V × Bool × H)
  | [], _ => none
  | c :: _, 0 =>
    match removeRec Hp key h hp c with
    | (some e, c1, called, hp1) => some (e, c1, called, hp1)
    | (none, _, _, _) => none
  | _ :: cs, i + 1 => removeAt Hp key h hp cs i
end

end zBTreeNodeP

namespace zBTreeP

variable {K V H : Type} [LinearOrder K]

/-- The tree as its constructor leaves it: `m_pRoot = NULL`, `Size = 0`. -/
def empty : zBTreeP K V := { Size := 0, m_pRoot := none }

/-- Member `Count()`. -/
def Count (t : zBTreeP K V) : Nat := t.Size

/-- The tree object without the `parent` fields of its nodes. -/
def erase (t : zBTreeP K V) : zBTree K V :=
  { Size := t.Size, m_pRoot := t.m_pRoot.map zBTreeNodeP.erase }

/-- The root has a null `parent`, and below it every `parent` pointer points to the node that
holds the child. -/
def Linked (t : zBTreeP K V) : Prop :=
  match t.m_pRoot with
  | none => True
  | some root => root.parent = none ∧ root.Linked

/-- The part of `Insert` after the root check. -/
def insertFrom (Hp : zMemHeap H) (t : zBTreeP K V) (root : zBTreeNodeP K V)
    (d : DATA_NODE K V) (hp : H) : InsertStatus K V × zBTreeP K V × H :=
  match zBTreeNodeP.searchForInsert Hp root.depth root d hp with
  | (.inserted, r, hp1) => (.inserted, { Size := t.Size + 1, m_pRoot := some r }, hp1)
  | (st, r, hp1) => (st, { Size := t.Size, m_pRoot := some r }, hp1)

/-- Member `Insert(key, h, pD)` together with the caller's store `*pD = d`.  The split of a
full root sets `pNode->parent = 0`, `pRight->parent = pNode`, `m_pRoot->parent = pNode` and
the `parent` of the children moved into `pRight`; the root of an empty tree gets
`parent = 0`. -/
def Insert (Hp : zMemHeap H) (t : zBTreeP K V) (d : DATA_NODE K V) (hp : H) :
    InsertStatus K V × zBTreeP K V × H :=
  match t.m_pRoot with
  | none =>
    match Hp.LockAlloc hp with
    | (none, hp1) => (.memError, t, hp1)
    | (some r, hp1) =>
      (.inserted, { Size := t.Size + 1, m_pRoot := some (.mk r none [d] []) }, hp1)
  | some root =>
    if root.KeyNum = KEY_MAX then
      match Hp.LockAlloc hp with
      | (none, hp1) => (.memError, t, hp1)
      | (some pNode, hp1) =>
        match Hp.LockAlloc hp1 with
        | (none, hp2) => (.memError, t, Hp.LockFree hp2 pNode)
        | (some pRight, hp2) =>
          match root.Key[KEY_MIN]? with
          | none => (.noFuel, t, hp2)
          | some med =>
            insertFrom Hp t
              (.mk pNode none [med]
                [(zBTreeNodeP.splitLeft root).setParent (some pNode),
                 zBTreeNodeP.splitRight pRight (some pNode) root])
              d hp2
    else insertFrom Hp t root d hp

/-- Member `Remove(key, h)`.  An internal root that has lost its last key is replaced by its
only child, whose `parent` is set to 0. -/
def Remove (Hp : zMemHeap H) (t : zBTreeP K V) (key : K) (h : Nat) (hp : H) :
    Option (DATA_NODE K V) × zBTreeP K V × H :=
  match t.m_pRoot with
  | none => (none, t, hp)
  | some root =>
    match zBTreeNodeP.removeRec Hp key h hp root with
    | (none, _, _, _) => (none, t, hp)
    | (some e, root1, called, hp1) =>
      match root.pChild, root1.pChild with
      | _ :: _, c :: _ =>
        if called ∧ root1.KeyNum = 0 then
          (some e, { Size := t.Size - 1, m_pRoot := some (c.setParent none) },
            Hp.LockFree hp1 root1.slot)
        else (some e, { Size := t.Size - 1, m_pRoot := some root1 }, hp1)
      | _, _ => (some e, { Size := t.Size - 1, m_pRoot := some root1 }, hp1)

/-- The tree and its node heap after one call. -/
def step (Hp : zMemHeap H) (s : zBTreeP K V × H) : zBTree.Step K V → zBTreeP K V × H
  | .insert d => (s.1.Insert Hp d s.2).2
  | .remove key h => (s.1.Remove Hp key h s.2).2

/-- The tree and its node heap after a sequence of calls. -/
def steps (Hp : zMemHeap H) (s : zBTreeP K V × H) (l : List (zBTree.Step K V)) :
    zBTreeP K V × H :=
  l.foldl (step Hp) s

end zBTreeP

/-- The tree object with `parent` fields as the tree structure has them, null in the root. -/
def zBTree.annotate {K V : Type} (t : zBTree K V) : zBTreeP K V :=
  { Size := t.Size, m_pRoot := t.m_pRoot.map (fun r => r.annotate none) }

section ParentSpec

variable {K V H : Type} [LinearOrder K]

/-- The result of a removal below a node, with the parent pointers of the subtree set. -/
def annotateRemoved (par : Option Nat) :
    DATA_NODE K V × zBTreeNode K V × Bool × H → DATA_NODE K V × zBTreeNodeP K V × Bool × H :=
  fun x => (x.1, x.2.1.annotate par, x.2.2.1, x.2.2.2)

/-- The result of `removeRec`, with the parent pointers of the subtree set. -/
def annotateRec (par : Option Nat) :
    Option (DATA_NODE K V) × zBTreeNode K V × Bool × H →
      Option (DATA_NODE K V) × zBTreeNodeP K V × Bool × H :=
  fun x => (x.1, x.2.1.annotate par, x.2.2.1, x.2.2.2)

/-- The invariant of the tree object.  The root has a null `parent` and every other node has
its `parent` on the node that holds it.  The tree is empty with `Size = 0`, or its root is a
valid root of some height `n`: the keys of the whole tree are strictly increasing in
`(cached hash, key)` along the in-order traversal, every node has at most `KEY_MAX` keys,
every node but the root at least `KEY_MIN`, an internal node with `k` keys has `k + 1`
children, all leaves are on level `n`, and `Size` is the number of keys. -/
def zBTreeP.Invariant (t : zBTreeP K V) : Prop :=
  t.Linked ∧
  ((t.m_pRoot = none ∧ t.Size = 0) ∨
    ∃ root n, t.m_pRoot = some root ∧ root.erase.RootShape n ∧ root.erase.Ordered ∧
      t.Size = root.erase.inorder.length)

end ParentSpec

/-! ## Bit counting at the other widths (ZZG_Bit.h) -/

/-- The 2-byte branch of zBitCount of ZZG_Bit.h:
uint16_t tmp = n - ((n >> 1) & 0133333) - ((n >> 2) & 0111111);
tmp = (tmp + (tmp >> 3)) & 070707; return tmp % 63.
The operands are promoted to int, each assignment to tmp truncates to 16 bits. -/
def zBitCount16 (n : Nat) : Nat :=
  let tmp := (n + 2 * 2 ^ 16 - ((n >>> 1) &&& 0o133333) - ((n >>> 2) &&& 0o111111)) % 2 ^ 16
  let tmp1 := ((tmp + (tmp >>> 3)) &&& 0o70707) % 2 ^ 16
  tmp1 % 63

/-- The 1-byte branch of zBitCount of ZZG_Bit.h:
n = ((n >> 1) & 0x55) + (n & 0x55); n = (n & 0x33) + ((n >> 2) & 0x33);
n = (n & 0xf) + ((n >> 4) & 0xf); return n.
Each assignment to n truncates to 8 bits. -/
def zBitCount8 (n : Nat) : Nat :=
  let n1 := (((n >>> 1) &&& 0x55) + (n &&& 0x55)) % 2 ^ 8
  let n2 := ((n1 &&& 0x33) + ((n1 >>> 2) &&& 0x33)) % 2 ^ 8
  let n3 := ((n2 &&& 0xf) + ((n2 >>> 4) &&& 0xf)) % 2 ^ 8
  n3

/-- The template zBitCount of ZZG_Bit.h, which selects its branch by sizeof(T):
8 bytes, 4 bytes, 2 bytes, and the last branch for every other size (1 byte). A signed
argument is reinterpreted as the unsigned integer of the same width, so the argument
here is the bit pattern. -/
def zBitCountOf (size n : Nat) : Nat :=
  if size = 8 then zBitCount n
  else if size = 4 then zBitCount32 n
  else if size = 2 then zBitCount16 n
  else zBitCount8 n

/-- The number of 1 bits among the lowest w bits of the binary representation of n. -/
def bitSum : Nat → Nat → Nat
  | 0, _ => 0
  | w + 1, n => n % 2 + bitSum w (n / 2)

/-- The number that has the digit m at each of the lowest len places in base 2 ^ P. -/
def maskOf (P m : Nat) : Nat → Nat
  | 0 => 0
  | len + 1 => m + 2 ^ P * maskOf P m len

/-- The number whose digits in base 2 ^ P are f applied to the lowest len digits of n. -/
def digitMap (P : Nat) (f : Nat → Nat) : Nat → Nat → Nat
  | 0, _ => 0
  | len + 1, n => f (n % 2 ^ P) + 2 ^ P * digitMap P f len (n / 2 ^ P)

/-- The sum of f over the lowest len digits of n in base 2 ^ P. -/
def digitSum (P : Nat) (f : Nat → Nat) : Nat → Nat → Nat
  | 0, _ => 0
  | len + 1, n => f (n % 2 ^ P) + digitSum P f len (n / 2 ^ P)

/-- The digit function of the first step of the bit count: the digit less its shifted and
masked copies. -/
def countDigit (m1 m2 m3 d : Nat) : Nat :=
  d - ((d >>> 1) &&& m1) - ((d >>> 2) &&& m2) - ((d >>> 3) &&& m3)

namespace z__AT

/-- The word k of layer i + 1 is to be marked in the layer above: above the leaves it has a
bit at 1, and as a leaf it has FREE_THRESH_HOLD free units or more. -/
def Wants (a : z__AT) (i k : Nat) : Prop :=
  (i + 2 < a.MaxLayer ∧ ∃ b, b < 32 ∧ a.bit (i + 1) k b = true) ∨
  (i + 2 = a.MaxLayer ∧ ∃ w, a.word (i + 1) k = some w ∧ FREE_THRESH_HOLD ≤ bitSum 32 w)

/-- The invariant of the tree with the hysteresis of Free: every word above the leaves and
below the root with a bit at 1, and every leaf with FREE_THRESH_HOLD free units or more, has
its bit in the layer above at 1. -/
def Hyst (a : z__AT) : Prop :=
  ∀ i k, a.Wants i k → a.bit i (k / 32) (k % 32) = true

/-- The invariant but for the word U of layer n, whose bit in the layer above may be 0. -/
def HystBut (a : z__AT) (n U : Nat) : Prop :=
  ∀ i k, ¬ (i + 1 = n ∧ k = U) → a.Wants i k → a.bit i (k / 32) (k % 32) = true

/-- Every leaf of the tree has fewer than FREE_THRESH_HOLD free units. -/
def LeavesLow (a : z__AT) : Prop :=
  ∀ k w, a.word (a.MaxLayer - 1) k = some w → bitSum 32 w < FREE_THRESH_HOLD

end z__AT

namespace zAT

/-- Both trees have the invariant with the hysteresis. -/
def Hyst (s : zAT) : Prop := s.pAT1.Hyst ∧ s.pAT2.Hyst

end zAT

/-! ## The locked operations of the allocation tree (ZZG_Mem.cpp), run by one thread -/

/-- Function zBSR on a 32-bit word: the index of the highest bit that is 1, none when the
function returns 0 because the word is 0. -/
def zBSR (x : Nat) : Option Nat := (List.range 32).reverse.find? (fun i => x.testBit i)

/-- One entry of the lock table of a tree, struct LOCKFLAG: the flag LockFlag, true when
set, and the 8-bit counter SearchCount. -/
structure LOCKFLAG where
  LockFlag : Bool
  SearchCount : Nat
deriving DecidableEq

namespace z__AT

/-- The entry pLockFlag[i] + k, when layer i of the lock table has an entry k. -/
def lockAt (L : List (List LOCKFLAG)) (i k : Nat) : Option LOCKFLAG :=
  match L[i]? with
  | some layer => layer[k]?
  | none => none

/-- The store of the entry pLockFlag[i] + k. -/
def setLock (L : List (List LOCKFLAG)) (i k : Nat) (f : LOCKFLAG) : List (List LOCKFLAG) :=
  match L[i]? with
  | some layer => L.set i (layer.set k f)
  | none => L

/-- Member Lock on the entry pLockFlag[i] + k: test_and_set until the flag was clear.  With
one thread a flag that is set is never cleared, so the loop does not end.  An entry that the
table does not have is not followed. -/
def Lock (L : List (List LOCKFLAG)) (i k : Nat) : Except Fault (List (List LOCKFLAG)) :=
  match lockAt L i k with
  | none => .error .outOfModel
  | some f => if f.LockFlag = true then .error .hang else .ok (setLock L i k { f with LockFlag := true })

/-- Member Unlock on the entry pLockFlag[i] + k: the flag is cleared. -/
def Unlock (L : List (List LOCKFLAG)) (i k : Nat) : List (List LOCKFLAG) :=
  match lockAt L i k with
  | none => L
  | some f => setLock L i k { f with LockFlag := false }

/-- Member Read on the entry pLockFlag[i] + k: ++SearchCount, in 8 bits. -/
def Read (L : List (List LOCKFLAG)) (i k : Nat) : Option (List (List LOCKFLAG)) :=
  match lockAt L i k with
  | none => none
  | some f => some (setLock L i k { f with SearchCount := (f.SearchCount + 1) % 2 ^ 8 })

/-- Member UnRead on the entry pLockFlag[i] + k: --SearchCount, in 8 bits. -/
def UnRead (L : List (List LOCKFLAG)) (i k : Nat) : List (List LOCKFLAG) :=
  match lockAt L i k with
  | none => L
  | some f => setLock L i k { f with SearchCount := (f.SearchCount + 2 ^ 8 - 1) % 2 ^ 8 }

/-- The pass of the loop of LockedAlloc at a leaf: when the word has a bit at 1 the entry is
locked and the word scanned again; the unit found is returned with its bit cleared.  The
result none stands for the fall through to the code that goes back to the layer above. -/
def LockedLeaf (a : z__AT) (L : List (List LOCKFLAG)) (i k : Nat) :
    Except Fault (Option (Nat × z__AT) × List (List LOCKFLAG)) :=
  match a.word i k with
  | none => .error .outOfModel
  | some w =>
    match zBSF w with
    | none => .ok (none, L)
    | some _ =>
      match Lock L i k with
      | .error f => .error f
      | .ok L1 =>
        match zBSF w with
        | some index => .ok (some ((k <<< 5) + index, a.store i k (zBitReset w index)), Unlock L1 i k)
        | none => .ok (none, Unlock L1 i k)

/-- The scan of a word above the leaves in LockedAlloc: Read, then zBSF when SearchCount is
odd and zBSR when it is even, then UnRead. -/
def LockedScan (a : z__AT) (L : List (List LOCKFLAG)) (i k : Nat) :
    Except Fault (Option Nat × List (List LOCKFLAG)) :=
  match Read L i k with
  | none => .error .outOfModel
  | some L1 =>
    match lockAt L1 i k, a.word i k with
    | some f, some w =>
      .ok (if f.SearchCount &&& 0x1 ≠ 0 then zBSF w else zBSR w, UnRead L1 i k)
    | _, _ => .error .outOfModel

/-- The code of LockedAlloc that goes back from the node k of layer i to the layer above:
when the bit of the node is 1 there, the word above is locked, and the bit is cleared if the
word of the node has no bit at 1. -/
def LockedUp (a : z__AT) (L : List (List LOCKFLAG)) (i k : Nat) :
    Except Fault (z__AT × List (List LOCKFLAG)) :=
  match a.word (i - 1) (k >>> 5) with
  | none => .error .outOfModel
  | some p =>
    if zBitTest p (k &&& 0x1f) ≠ 0 then
      match Lock L (i - 1) (k >>> 5) with
      | .error f => .error f
      | .ok L1 =>
        match a.word i k with
        | none => .error .outOfModel
        | some c =>
          .ok (if zBSF c = none then a.store (i - 1) (k >>> 5) (zBitReset p (k &&& 0x1f)) else a,
            Unlock L1 (i - 1) (k >>> 5))
    else .ok (a, L)

/-- The loop of z__AT::LockedAlloc() from layer i and node k on; none stands for
RET_MEM_FULL. -/
def LockedAllocLoop : Nat → z__AT → List (List LOCKFLAG) → Nat → Nat →
    Except Fault (Option Nat × z__AT × List (List LOCKFLAG))
  | 0, _, _, _, _ => .error .outOfFuel
  | fuel + 1, a, L, i, k =>
    if i = a.MaxLayer - 1 then
      match LockedLeaf a L i k with
      | .error f => .error f
      | .ok (some (u, a1), L1) => .ok (some u, a1, L1)
      | .ok (none, L1) =>
        if i = 0 then .ok (none, a, L1)
        else
          match LockedUp a L1 i k with
          | .error f => .error f
          | .ok (a1, L2) => LockedAllocLoop fuel a1 L2 (i - 1) (k >>> 5)
    else
      match LockedScan a L i k with
      | .error f => .error f
      | .ok (none, L1) =>
        if i = 0 then .ok (none, a, L1)
        else
          match LockedUp a L1 i k with
          | .error f => .error f
          | .ok (a1, L2) => LockedAllocLoop fuel a1 L2 (i - 1) (k >>> 5)
      | .ok (some index, L1) => LockedAllocLoop fuel a L1 (i + 1) ((k <<< 5) + index)

/-- Member z__AT::LockedAlloc(). -/
def LockedAlloc (a : z__AT) (L : List (List LOCKFLAG)) :
    Except Fault (Option Nat × z__AT × List (List LOCKFLAG)) :=
  LockedAllocLoop a.budget a L 0 0

/-- The loop of z__AT::LockedFree over the layers i - 1 down to 0, UnitPos being the node of
layer i whose bit is to be set and lower the leaf word that pLower points to. -/
def LockedFreeUp : Nat → z__AT → List (List LOCKFLAG) → Nat → Nat →
    Except Fault (z__AT × List (List LOCKFLAG))
  | 0, a, L, _, _ => .ok (a, L)
  | i + 1, a, L, UnitPos, lower =>
    match a.word i (UnitPos >>> 5) with
    | none => .error .outOfModel
    | some w =>
      if zBitTest w (UnitPos &&& 0x1f) ≠ 0 then .ok (a, L)
      else
        match Lock L i (UnitPos >>> 5) with
        | .error f => .error f
        | .ok L1 =>
          match a.word (a.MaxLayer - 1) lower with
          | none => .error .outOfModel
          | some lw =>
            LockedFreeUp i
              (if zBitCount32 lw = FREE_THRESH_HOLD then
                a.store i (UnitPos >>> 5) (zBitSet w (UnitPos &&& 0x1f)) else a)
              (Unlock L1 i (UnitPos >>> 5)) (UnitPos >>> 5) lower

/-- Member z__AT::LockedFree(UnitPos). -/
def LockedFree (a : z__AT) (L : List (List LOCKFLAG)) (UnitPos : Nat) :
    Except Fault (z__AT × List (List LOCKFLAG)) :=
  match Lock L (a.MaxLayer - 1) (UnitPos >>> 5) with
  | .error f => .error f
  | .ok L1 =>
    match a.word (a.MaxLayer - 1) (UnitPos >>> 5) with
    | none => .error .outOfModel
    | some w =>
      if zBitCount32 (zBitSet w (UnitPos &&& 0x1f)) ≠ FREE_THRESH_HOLD then
        .ok (a.store (a.MaxLayer - 1) (UnitPos >>> 5) (zBitSet w (UnitPos &&& 0x1f)),
          Unlock L1 (a.MaxLayer - 1) (UnitPos >>> 5))
      else
        LockedFreeUp (a.MaxLayer - 1)
          (a.store (a.MaxLayer - 1) (UnitPos >>> 5) (zBitSet w (UnitPos &&& 0x1f)))
          (Unlock L1 (a.MaxLayer - 1) (UnitPos >>> 5)) (UnitPos >>> 5) (UnitPos >>> 5)

/-- The lock table of the tree as the memset of Init leaves it: one entry for every word,
the flag clear and the counter 0. -/
def lockTable (a : z__AT) : List (List LOCKFLAG) :=
  a.pT.map (fun layer => layer.map (fun _ => { LockFlag := false, SearchCount := 0 }))

/-- Every entry of the lock table is at rest: the flag is clear and the counter is 0. -/
def AtRest (L : List (List LOCKFLAG)) : Prop :=
  ∀ i k f, lockAt L i k = some f → f = { LockFlag := false, SearchCount := 0 }

/-- The lock table has an entry for every word of the tree. -/
def Covers (a : z__AT) (L : List (List LOCKFLAG)) : Prop :=
  ∀ i k, (a.word i k).isSome = true → (lockAt L i k).isSome = true

end z__AT

namespace zAT

/-- Member zAT::LockedAlloc(); none stands for RET_MEM_FULL.  The lock tables of the two
trees are L1 and L2. -/
def LockedAlloc (s : zAT) (L1 L2 : List (List LOCKFLAG)) :
    Except Fault (Option Nat × zAT × List (List LOCKFLAG) × List (List LOCKFLAG)) :=
  if ((s.Count + 1) % 2 ^ 32) &&& 0x1 ≠ 0 then
    match s.pAT1.LockedAlloc L1 with
    | .error f => .error f
    | .ok (some AtNum, a1, K1) =>
      .ok (some AtNum, { s with Count := (s.Count + 1) % 2 ^ 32, pAT1 := a1 }, K1, L2)
    | .ok (none, a1, K1) =>
      match s.pAT2.LockedAlloc L2 with
      | .error f => .error f
      | .ok (some AtNum, a2, K2) =>
        .ok (some (s.Size + AtNum),
          { s with Count := (s.Count + 1) % 2 ^ 32, pAT1 := a1, pAT2 := a2 }, K1, K2)
      | .ok (none, a2, K2) =>
        .ok (none, { s with Count := (s.Count + 1) % 2 ^ 32, pAT1 := a1, pAT2 := a2 }, K1, K2)
  else
    match s.pAT2.LockedAlloc L2 with
    | .error f => .error f
    | .ok (some AtNum, a2, K2) =>
      .ok (some (s.Size + AtNum), { s with Count := (s.Count + 1) % 2 ^ 32, pAT2 := a2 }, L1, K2)
    | .ok (none, a2, K2) =>
      match s.pAT1.LockedAlloc L1 with
      | .error f => .error f
      | .ok (r, a1, K1) =>
        .ok (r, { s with Count := (s.Count + 1) % 2 ^ 32, pAT1 := a1, pAT2 := a2 }, K1, K2)

/-- Member zAT::LockedFree(UnitPos). -/
def LockedFree (s : zAT) (L1 L2 : List (List LOCKFLAG)) (UnitPos : Nat) :
    Except Fault (zAT × List (List LOCKFLAG) × List (List LOCKFLAG)) :=
  if UnitPos < s.Size then
    match s.pAT1.LockedFree L1 UnitPos with
    | .ok (a, K1) => .ok ({ s with pAT1 := a }, K1, L2)
    | .error f => .error f
  else
    match s.pAT2.LockedFree L2 (UnitPos - s.Size) with
    | .ok (a, K2) => .ok ({ s with pAT2 := a }, L1, K2)
    | .error f => .error f

end zAT

/-! ## The reports CheckHash and TestHash (ZZG_Hash.h) -/

section Reports

variable {K V H : Type} [LinearOrder K]

/-- One pass of the loop of CheckHash over the entry pBucket[i]; the report is
(FilledBuckets, Elements, Collisions, MaxCollision), size_t counters.  An entry with a null
p is skipped; with Size_Type 1 it counts one element; with Size_Type 2 or more it counts
Size_Type elements and a collision; with Size_Type 0 the count is p->Count(), and a list
node that is read as a tree object is undefined behaviour. -/
def zHash.checkEntry (e : ENTRY K V) (r : Nat × Nat × Nat × Nat) :
    Except Fault (Nat × Nat × Nat × Nat) :=
  match e.p with
  | .null => .ok r
  | p =>
    if e.Size_Type = 1 then .ok (r.1 + 1, (r.2.1 + 1) % 2 ^ 64, r.2.2.1, r.2.2.2)
    else if 2 ≤ e.Size_Type then
      .ok (r.1 + 1, (r.2.1 + e.Size_Type) % 2 ^ 64, r.2.2.1 + 1,
        if r.2.2.2 < e.Size_Type then e.Size_Type else r.2.2.2)
    else
      match p with
      | .tree t =>
        .ok (r.1 + 1, (r.2.1 + t.Count) % 2 ^ 64, r.2.2.1 + 1,
          if r.2.2.2 < t.Count then t.Count else r.2.2.2)
      | _ => .error .undefinedBehaviour

/-- The passes i, i + 1, ... of the loop of CheckHash, n of them; an entry outside the
bucket array is undefined behaviour. -/
def zHash.checkLoop (pBucket : List (ENTRY K V)) :
    Nat → Nat → Nat × Nat × Nat × Nat → Except Fault (Nat × Nat × Nat × Nat)
  | 0, _, r => .ok r
  | n + 1, i, r =>
    match pBucket[i]? with
    | none => .error .undefinedBehaviour
    | some e =>
      match zHash.checkEntry e r with
      | .error f => .error f
      | .ok r1 => zHash.checkLoop pBucket n (i + 1) r1

/-- Member CheckHash(Buckets, FilledBuckets, Elements, Collisions, MaxCollision), run by
one thread between the data operations, when the resize lock is free and no visitor is in
the table, so that the pause of the resizing returns at once.  The result is the report
(Buckets, FilledBuckets, Elements, Collisions, MaxCollision) and the table.  The counter of
the loop is an unsigned int compared with the size_t Buckets: with 2 ^ 32 buckets or more
it wraps to 0 before it reaches Buckets, and the loop goes over the first 2 ^ 32 entries
again and again. -/
def zHash.CheckHash (s : zHash K V H) :
    Except Fault ((Nat × Nat × Nat × Nat × Nat) × zHash K V H) :=
  if 2 ^ 32 ≤ s.Buckets then
    match zHash.checkLoop s.pBucket (2 ^ 32) 0 (0, 0, 0, 0) with
    | .error f => .error f
    | .ok _ => .error .hang
  else
    match zHash.checkLoop s.pBucket s.Buckets 0 (0, 0, 0, 0) with
    | .error f => .error f
    | .ok r => .ok ((s.Buckets, r.1, r.2.1, r.2.2.1, r.2.2.2), s)

/-- The loop ++pB[pFun(Key[i]) % Buckets] of TestHash over the keys from Key[i] on.  The
division by a zero Buckets and a counter outside the buffer pB are undefined behaviour. -/
def zHash.TestHash.count (pFun : K → Nat) (Buckets : Nat) :
    List K → List Nat → Except Fault (List Nat)
  | [], pB => .ok pB
  | k :: rest, pB =>
    if Buckets = 0 then .error .undefinedBehaviour
    else
      match pB[pFun k % 2 ^ 64 % Buckets]? with
      | none => .error .undefinedBehaviour
      | some c =>
        zHash.TestHash.count pFun Buckets rest
          (pB.set (pFun k % 2 ^ 64 % Buckets) ((c + 1) % 2 ^ 64))

/-- The passes i, i + 1, ... of the second loop of TestHash, n of them; the report is
(FilledBuckets, Collitions, MaxCollition).  A counter outside the buffer pB is undefined
behaviour. -/
def zHash.TestHash.scan (pB : List Nat) : Nat → Nat → Nat × Nat × Nat → Except Fault (Nat × Nat × Nat)
  | 0, _, r => .ok r
  | n + 1, i, r =>
    match pB[i]? with
    | none => .error .undefinedBehaviour
    | some c =>
      zHash.TestHash.scan pB n (i + 1)
        (if c ≠ 0 then
          (r.1 + 1, if 2 ≤ c then (r.2.1 + 1, if r.2.2 < c then c else r.2.2) else r.2)
        else r)

/-- Static member TestHash(pFun, Key, KeyNum, Buckets, FilledBuckets, Collitions,
MaxCollition): the buffer pB has the KeyNum counters of malloc(KeyNum * sizeof(size_t)),
set to 0; mem tells whether malloc returns a buffer, and none stands for the return value
false.  The source calls pFun(Key[i]) with the key alone, although the type
ZHASH_FUNCTION takes MaskBits as well; pFun stands for the hash of a key as it is called
there.  The buffer is released with delete. -/
def zHash.TestHash (pFun : K → Nat) (Key : List K) (Buckets : Nat) (mem : Bool) :
    Except Fault (Option (Nat × Nat × Nat)) :=
  if mem = false then .ok none
  else
    match zHash.TestHash.count pFun Buckets Key
        (List.replicate ((Key.length * 8) % 2 ^ 64 / 8) 0) with
    | .error f => .error f
    | .ok pB =>
      match zHash.TestHash.scan pB Buckets 0 (0, 0, 0) with
      | .error f => .error f
      | .ok r => .ok (some r)

end Reports

/-! ### What the description says of the reports -/

/-- The number of buckets that hold a record, from the numbers of records of the buckets. -/
def filledOf (cs : List Nat) : Nat := (cs.filter (fun c => decide (0 < c))).length

/-- The number of buckets that hold two records or more. -/
def collidedOf (cs : List Nat) : Nat := (cs.filter (fun c => decide (2 ≤ c))).length

/-- The largest number of records among the buckets that hold two or more, 0 when there is
no such bucket. -/
def worstOf (cs : List Nat) : Nat := (cs.filter (fun c => decide (2 ≤ c))).foldr max 0

/-- The numbers of records of the buckets of the table. -/
def zHash.sizes {K V H : Type} (s : zHash K V H) : List Nat :=
  s.pBucket.map (fun e => e.nodes.length)

/-- The numbers of the keys that fall into the buckets 0 to Buckets - 1 under pFun. -/
def spread {K : Type} (pFun : K → Nat) (Key : List K) (Buckets : Nat) : List Nat :=
  (List.range Buckets).map (fun b => Key.countP (fun k => decide (pFun k % 2 ^ 64 % Buckets = b)))

mutual
/-- The number of tree nodes of a subtree. -/
def zBTreeNode.nodeCount {K V : Type} : zBTreeNode K V → Nat
  | .mk _ _ pChild => 1 + zBTreeNode.nodeCountList pChild
/-- The number of tree nodes of a list of subtrees. -/
def zBTreeNode.nodeCountList {K V : Type} : List (zBTreeNode K V) → Nat
  | [] => 0
  | c :: cs => zBTreeNode.nodeCount c + zBTreeNode.nodeCountList cs
end

/-- The number of tree nodes of a tree object. -/
def zBTree.nodeCount {K V : Type} (t : zBTree K V) : Nat :=
  match t.m_pRoot with
  | none => 0
  | some root => root.nodeCount

/-- The number of tree nodes of the chain of an entry: 0 unless it is a tree. -/
def ENTRY.treeNodes {K V : Type} (e : ENTRY K V) : Nat :=
  match e.p with
  | .tree t => t.nodeCount
  | _ => 0

/-- The number of tree nodes in use across all buckets of the table. -/
def zHash.treeNodes {K V H : Type} (s : zHash K V H) : Nat :=
  (s.pBucket.map ENTRY.treeNodes).sum

/-- The entry is empty: its pointer p is null. -/
def ENTRY.isNull {K V : Type} (e : ENTRY K V) : Bool :=
  match e.p with
  | .null => true
  | _ => false

/-- Every tree of the bucket array is a valid B-tree.  This is all that the copy loop of
the rebuild needs of the new array; the array it starts from holds no tree. -/
def zHash.TreesValid {K V H : Type} [LinearOrder K] (s : zHash K V H) : Prop :=
  ∀ e ∈ s.pBucket, ∀ t : zBTree K V, e.p = .tree t → t.Valid

/-! ## A concrete heap and concrete runs -/

/-- A slab heap that hands out each of its `Count = MaxMum * 32 / 30 + 1` units once and takes
freed units back: the fresh-unit counter, the freed units and `Count`.  (The allocation tree
of `ZZG_Mem.cpp` may refuse a request before all units are in use; it never hands out more
than `Count`.) -/
def slabHeap : zMemHeap (Nat × List Nat × Nat) where
  create := fun n => (0, [], n * 32 / 30 + 1)
  LockAlloc := fun hp =>
    match hp.2.1 with
    | u :: rest => (some u, (hp.1, rest, hp.2.2))
    | [] => if hp.1 < hp.2.2 then (some hp.1, (hp.1 + 1, [], hp.2.2)) else (none, hp)
  LockFree := fun hp u => (hp.1, u :: hp.2.1, hp.2.2)

/-- A hash function installed with `SetHashFunction`: the key itself. -/
def keyHash : Nat → Nat → Nat := fun k _ => k

/-- Tables with natural numbers as keys and values over `slabHeap`. -/
abbrev Table : Type := zHash Nat Nat (Nat × List Nat × Nat)

/-- The table `zHash<size_t, size_t>` after its constructor and `SetHashFunction(keyHash)`,
with the process heap following the script `sys`. -/
def freshTable (sys : List Bool) : Table := zHash.new slabHeap keyHash sys

/-- One data operation on a `Table`: `Insert`, `Update`, `Value`, and with `del` the removal
`zHash.removal` of a key; the model's iteration bound is 2 and a fresh value field holds 0. -/
inductive Op where
  | insert (k v : Nat)
  | update (k v : Nat)
  | del (k : Nat)
  | value (k : Nat)

/-- The table a call returns, whatever else it returns. -/
def keep {α : Type} : Except Fault (α × Table) → Option Table
  | .ok (_, s1) => some s1
  | .error _ => none

/-- The table after one operation that returns, whatever it returns. -/
def stepOp (s : Table) : Op → Option Table
  | .insert k v => keep (zHash.Insert slabHeap 2 s k v 0)
  | .update k v => keep (zHash.Update s k v)
  | .del k => keep (zHash.removal slabHeap s k)
  | .value k => keep (zHash.Value s k)

/-- The table after a sequence of operations that all return. -/
def runOps : Table → List Op → Option Table
  | s, [] => some s
  | s, op :: ops => match stepOp s op with | some s1 => runOps s1 ops | none => none

/-- A check on the table of a run that went through. -/
def onSome {σ : Type} (x : Option σ) (p : σ → Bool) : Bool :=
  match x with
  | some s => p s
  | none => false

/-- A check that a call returns `a`, and on the table it returns. -/
def onOk {α σ : Type} [DecidableEq α] (x : Except Fault (α × σ)) (a : α) (p : σ → Bool) : Bool :=
  match x with
  | .ok (b, s) => decide (b = a) && p s
  | .error _ => false

/-- A check that a sequence of writes ends with `a` as the value written last, and on the
table at the end. -/
def onWritten {α σ : Type} [DecidableEq α] (x : Except Fault (σ × α)) (a : α) (p : σ → Bool) :
    Bool :=
  match x with
  | .ok (s, b) => decide (b = a) && p s
  | .error _ => false

/-- A check that a call never returns because it spins on a lock. -/
def onHang {β : Type} (x : Except Fault β) : Bool :=
  match x with
  | .error .hang => true
  | _ => false

/-- The table of `freshTable []` after `SetResizable(false)`. -/
def fixedTable : Table := (freshTable []).SetResizable false

/-- Six inserts into bucket `b` (the sixth turns its list into a tree) and the removal of the
last key: the bucket is left as a tree of five records in three nodes. -/
def fillBucket (b : Nat) : List Op :=
  (List.range 6).map (fun i => Op.insert (b + 256 * i) i) ++ [Op.del (b + 256 * 5)]

/-- The buckets 0 to 32 filled with `fillBucket`, then the keys `40 + 256 * i` for `i < 11`
inserted into bucket 40. -/
def crowd : List Op :=
  ((List.range 33).map fillBucket).flatten ++
    (List.range 11).map (fun i => Op.insert (40 + 256 * i) i)

/-- The key with number `i` of a run that spreads its keys over the buckets 0 to 41, in the
table of 256 buckets and in the table of 512. -/
def lowKey (i : Nat) : Nat := i % 42 + 512 * (i / 42)

/-- The inserts of the keys `lowKey 0` to `lowKey (n - 1)`, the key with number `i` having the
value `i`. -/
def insertRange (n : Nat) : List Op := (List.range n).map (fun i => Op.insert (lowKey i) i)

/-- The keys `lowKey 0` to `lowKey 204` with the values 1000 to 1204. -/
def fullKeys : List (Nat × Nat) := (List.range 205).map (fun i => (lowKey i, i + 1000))

/-- A hash function installed with `SetHashFunction` that depends on `MaskBits`: the key with
its bits above `MaskBits` folded onto the low bits. -/
def foldHash : Nat → Nat → Nat := fun k m => k ^^^ (k >>> m)

/-- Five inserts into the bucket 1 of a table of 256 buckets under `keyHash`. -/
def fiveInserts : List Op :=
  [.insert 1 10, .insert 257 20, .insert 513 30, .insert 769 40, .insert 1025 50]

/-- A check on the result of a call that returns a state or fails. -/
def onDone {σ : Type} (x : Except Fault (Option σ)) (p : σ → Bool) : Bool :=
  match x with
  | .ok (some s) => p s
  | _ => false

/-- A check that a call ends in undefined behaviour. -/
def onUndefined {β : Type} (x : Except Fault β) : Bool :=
  match x with
  | .error .undefinedBehaviour => true
  | _ => false

/-- A check that a call returns the value `a`. -/
def onValue {α : Type} [DecidableEq α] (x : Except Fault α) (a : α) : Bool :=
  match x with
  | .ok b => decide (b = a)
  | .error _ => false

/-- The calls of the run against `zMemHeap(61)`: 67 calls of `Alloc`, then `Free` of two
units of each of the three leaves that hold units. -/
def drain : List zAT.Call :=
  List.replicate 67 zAT.Call.alloc ++
    [.free 0, .free 1, .free 32, .free 33, .free 64, .free 65]

/-! ### Trees over the concrete heap -/

/-- The data node with key, cached hash and slot `k`. -/
def dnode (k : Nat) : DATA_NODE Nat Nat := { slot := k, h := k, key := k, value := 0 }

/-- The tree grown from the empty tree by `Insert` of the keys given, in this order, over a
node heap of `units` units, and the node heap after it. -/
def grown (units : Nat) (keys : List Nat) : zBTree Nat Nat × (Nat × List Nat × Nat) :=
  zBTree.steps slabHeap (zBTree.empty, (0, [], units))
    (keys.map (fun k => zBTree.Step.insert (dnode k)))

mutual
/-- The keys of a subtree, node by node: the keys of the top node, then the subtrees. -/
def zBTreeNode.layout : zBTreeNode Nat Nat → List (List Nat)
  | .mk _ Key pChild => Key.map (·.key) :: zBTreeNode.layouts pChild
/-- The layouts of a list of subtrees, one after the other. -/
def zBTreeNode.layouts : List (zBTreeNode Nat Nat) → List (List Nat)
  | [] => []
  | c :: cs => zBTreeNode.layout c ++ zBTreeNode.layouts cs
end

/-- Twenty-one keys under a full root, the first leaf full as well, over a node heap of nine
units of which two are left. -/
def crowded : zBTree Nat Nat × (Nat × List Nat × Nat) :=
  grown 9 [10, 20, 30, 40, 50, 60, 70, 80, 90, 100, 110, 120, 130, 140, 150, 160, 170,
    11, 12, 13, 180]

/-- Five keys on two levels: the keys 1 to 6 stored and the key 6 removed again. -/
def twoLevels : zBTree Nat Nat × (Nat × List Nat × Nat) :=
  zBTree.steps slabHeap (grown 3 [1, 2, 3, 4, 5, 6]) [zBTree.Step.remove 6 6]

/-- The keys of a tree, node by node from the root. -/
def zBTree.layout (t : zBTree Nat Nat) : List (List Nat) :=
  match t.m_pRoot with
  | none => []
  | some root => root.layout

mutual
/-- The slot and the `parent` of every node of a subtree: the top node first, then the
subtrees. -/
def zBTreeNodeP.links : zBTreeNodeP Nat Nat → List (Nat × Option Nat)
  | .mk s par _ cs => (s, par) :: zBTreeNodeP.linksOf cs
/-- The slots and parents of a list of subtrees, one after the other. -/
def zBTreeNodeP.linksOf : List (zBTreeNodeP Nat Nat) → List (Nat × Option Nat)
  | [] => []
  | c :: cs => zBTreeNodeP.links c ++ zBTreeNodeP.linksOf cs
end

/-- The slot and the `parent` of every node of a tree, from the root. -/
def zBTreeP.links (t : zBTreeP Nat Nat) : List (Nat × Option Nat) :=
  match t.m_pRoot with
  | none => []
  | some root => root.links

/-- The tree with parent pointers grown from the empty tree by the calls given, over a node
heap of `units` units. -/
def grownP (units : Nat) (calls : List (zBTree.Step Nat Nat)) : zBTreeP Nat Nat :=
  (zBTreeP.steps slabHeap (zBTreeP.empty, (0, [], units)) calls).1

/-- The inserts of the keys 50 + 256 * i for i below 5, which fall into bucket 50 of a table
of 256 buckets. -/
def fiveInBucket50 : List Op := (List.range 5).map (fun i => Op.insert (50 + 256 * i) i)

/-- The table of the constructor after SetInitBuckets(2 ^ 32), the new bucket array holding
empty entries. -/
def wideTable : Table :=
  (zHash.SetInitBuckets slabHeap (freshTable []) (2 ^ 32)
    (List.replicate (2 ^ 32) zHash.freshEntry)).2

/-- The variant (true for a tree) and Size_Type of the bucket of the key k after
Insert(k, v) has returned SUCCESS on the table s. -/
def chainAfterInsert (s : Table) (k v : Nat) : Option (Bool × Nat) :=
  match zHash.Insert slabHeap 2 s k v 0 with
  | .ok (.SUCCESS, a) => (a.pBucket[s.pos k]?).map (fun e => (e.isTree, e.Size_Type))
  | _ => none

/-- The variant (true for a tree) and Size_Type of the bucket of the key k after
inserCopyData of a data node with the record (k, v) has returned true on the table s. -/
def chainAfterCopy (s : Table) (k v : Nat) : Option (Bool × Nat) :=
  match zHash.inserCopyData slabHeap s { slot := 0, h := 0, key := k, value := v } with
  | .ok (true, b) => (b.pBucket[s.pos k]?).map (fun e => (e.isTree, e.Size_Type))
  | _ => none

mutual
/-- A check that two subtrees are the same. -/
def zBTreeNode.same : zBTreeNode Nat Nat → zBTreeNode Nat Nat → Bool
  | .mk s1 k1 c1, .mk s2 k2 c2 =>
    decide (s1 = s2) && decide (k1 = k2) && zBTreeNode.sameList c1 c2
/-- A check that two lists of subtrees are the same. -/
def zBTreeNode.sameList : List (zBTreeNode Nat Nat) → List (zBTreeNode Nat Nat) → Bool
  | [], [] => true
  | a :: as, b :: bs => zBTreeNode.same a b && zBTreeNode.sameList as bs
  | _, _ => false
end

/-- A check that two tree objects are the same. -/
def zBTree.same (a b : zBTree Nat Nat) : Bool :=
  decide (a.Size = b.Size) &&
  match a.m_pRoot, b.m_pRoot with
  | none, none => true
  | some x, some y => x.same y
  | _, _ => false

/-- A check that a pass of insertKey on the table s, with the entry pos write-locked, comes
back to INSERT_BEGIN with the heaps and the tree of the entry as they were: the entry is a
tree, LockAlloc hands out a data node, which is given back, and the Insert of the tree
returns -1 without a change of the tree. -/
def stuckAtTree (s : Table) (pos h key u : Nat) : Bool :=
  match s.pBucket[pos]? with
  | some e =>
    match e.p with
    | .tree t =>
      decide (e.Size_Type = 0) && decide (e.lock = wlocked) &&
      (match slabHeap.LockAlloc s.pHeap with
        | (some slot, hp) =>
          decide (slabHeap.LockFree hp slot = s.pHeap) &&
          (match t.Insert slabHeap { slot := slot, h := h, key := key, value := u }
              s.pBTNodeHeap with
            | (.memError, t1, hp1) => t1.same t && decide (hp1 = s.pBTNodeHeap)
            | _ => false)
        | _ => false)
    | _ => false
  | none => false

/-- The run crowd, then the insert of 2856 into the tree of bucket 40, and the insert and the
removal of the key 100, which leave a free data node. -/
def crowdThenFree : List Op :=
  crowd ++ [.insert 2856 11, .insert 100 1, .del 100]

/-- A check on the table a call leaves in its result of the kind Except. -/
def onTable {σ : Type} (x : Except Fault σ) (p : σ → Bool) : Bool :=
  match x with
  | .ok s => p s
  | .error _ => false

/-- Six inserts into the bucket 1 of a table of 256 buckets under keyHash: the sixth makes
the bucket a tree. -/
def sixInserts : List Op := fiveInserts ++ [.insert 1281 60]

/-- A check that a call ends in the fault f. -/
def onFault {β : Type} (x : Except Fault β) (f : Fault) : Bool :=
  match x with
  | .error g => decide (g = f)
  | .ok _ => false

/-- A data node that an earlier use of the memory has left behind: the key 2 with the cached
hash 5 and the value 9. -/
def staleNode : DATA_NODE Nat Nat := { slot := 0, h := 5, key := 2, value := 9 }

/-- A content of the memory that malloc hands to SetInitBuckets(4), which does not
initialise it: four entries, of which the entry 1 points to staleNode and has Size_Type
3; the others are empty. -/
def staleBuckets : List (ENTRY Nat Nat) :=
  [zHash.freshEntry, { p := .list staleNode [], lock := zRWLock.init, Size_Type := 3 },
    zHash.freshEntry, zHash.freshEntry]

/-- The table of the constructor after SetInitBuckets(4) over the memory staleBuckets. -/
def staleTable : Table := (zHash.SetInitBuckets slabHeap (freshTable []) 4 staleBuckets).2

/-- A run of inserts that leaves a tree of six records in bucket 0, a list of two records in
bucket 1 and one record in bucket 2. -/
def threeBuckets : List Op :=
  (List.range 6).map (fun i => Op.insert (256 * i) i) ++
    [.insert 1 10, .insert 257 20, .insert 2 30]

/-- A check on the report of CheckHash and on the table it returns. -/
def onReport (x : Except Fault ((Nat × Nat × Nat × Nat × Nat) × Table))
    (r : Nat × Nat × Nat × Nat × Nat) : Bool :=
  match x with
  | .ok (r1, _) => decide (r1 = r)
  | .error _ => false

/-- The inserts of the keys `b + 256 * i` into bucket `b`, for the numbers `i` of a list, the
key with number `i` having the value `i`. -/
def insertsAt (b : Nat) (is : List Nat) : List Op := is.map (fun i => Op.insert (b + 256 * i) i)

/-- Seventeen keys stored in bucket `b`, with a repeated insert of the largest key each time
its leaf is full and one more when the root is full: every repeated insert returns
HASH_KEY_EXIST after the split on its way down, and the tree is left with nine nodes. -/
def packBucket (b : Nat) : List Op :=
  insertsAt b [5, 4, 3, 2, 1, 0, 6, 7, 7, 8, 9, 10, 10, 11, 12, 13, 13, 14, 15, 16, 16, 16]

/-- The buckets 0 to 10 filled with `packBucket`, then ten keys stored in bucket 11 as a tree
of four nodes whose last leaf holds four keys.  No key is removed. -/
def packed : List Op :=
  ((List.range 11).map packBucket).flatten ++ insertsAt 11 [5, 4, 3, 2, 1, 0, 6, 7, 7, 8, 9]

/-! ## Theorems -/

section Proofs

variable {K V H : Type} [LinearOrder K]

omit [LinearOrder K] in
theorem interleave_append (xs1 xs2 : List (List (DATA_NODE K V))) (ks1 ks2 : List (DATA_NODE K V))
    (hl : xs1.length = ks1.length) :
    interleave (xs1 ++ xs2) (ks1 ++ ks2) = glue xs1 ks1 ++ interleave xs2 ks2 := by
  induction xs1 generalizing ks1 with
  | nil =>
    cases ks1 with
    | nil => simp [glue]
    | cons k ks => simp at hl
  | cons x xs ih =>
    cases ks1 with
    | nil => simp at hl
    | cons k ks =>
      simp only [List.length_cons, Nat.add_right_cancel_iff] at hl
      simp [interleave, glue, ih ks hl]

omit [LinearOrder K] in
theorem interleave_cons_glueR (x : List (DATA_NODE K V)) (xs : List (List (DATA_NODE K V)))
    (ks : List (DATA_NODE K V)) (hl : xs.length = ks.length) :
    interleave (x :: xs) ks = x ++ glueR ks xs := by
  induction xs generalizing x ks with
  | nil =>
    cases ks with
    | nil => simp [interleave, glueR]
    | cons k ks => simp at hl
  | cons y ys ih =>
    cases ks with
    | nil => simp at hl
    | cons k ks =>
      simp only [List.length_cons, Nat.add_right_cancel_iff] at hl
      simp [interleave, glueR, ih y ks hl]

omit [LinearOrder K] in
theorem inorders_eq_map (cs : List (zBTreeNode K V)) : inorders cs = cs.map zBTreeNode.inorder := by
  induction cs with
  | nil => simp [inorders]
  | cons c cs ih => simp [inorders, ih]

omit [LinearOrder K] in
theorem inorder_mk (s : Nat) (ks : List (DATA_NODE K V)) (cs : List (zBTreeNode K V)) :
    (zBTreeNode.mk s ks cs).inorder = interleave (cs.map zBTreeNode.inorder) ks := by
  rw [zBTreeNode.inorder, inorders_eq_map]

omit [LinearOrder K] in
/-- normal form of the in-order traversal around the child at position `cs1.length` -/
theorem inorder_split (s : Nat) (ks1 ks2 : List (DATA_NODE K V)) (cs1 cs2 : List (zBTreeNode K V))
    (c : zBTreeNode K V) (h1 : cs1.length = ks1.length) (h2 : cs2.length = ks2.length) :
    (zBTreeNode.mk s (ks1 ++ ks2) (cs1 ++ c :: cs2)).inorder =
      glue (cs1.map zBTreeNode.inorder) ks1 ++ (c.inorder ++ glueR ks2 (cs2.map zBTreeNode.inorder)) := by
  rw [inorder_mk, List.map_append, interleave_append _ _ _ _ (by simpa using h1)]
  rw [List.map_cons, interleave_cons_glueR _ _ _ (by simpa using h2)]

omit [LinearOrder K] in
theorem inorder_leaf (s : Nat) (ks : List (DATA_NODE K V)) :
    (zBTreeNode.mk s ks ([] : List (zBTreeNode K V))).inorder = ks := by
  simp [inorder_mk, interleave]

omit [LinearOrder K] in
theorem decomp_at (ks : List (DATA_NODE K V)) (cs : List (zBTreeNode K V)) (i : Nat)
    (hlen : cs.length = ks.length + 1) (hi : i ≤ ks.length) :
    ∃ ks1 ks2 cs1 c cs2, ks = ks1 ++ ks2 ∧ cs = cs1 ++ c :: cs2 ∧ ks1.length = i ∧
      cs1.length = i ∧ cs2.length = ks2.length := by
  have hic : i < cs.length := by omega
  refine ⟨ks.take i, ks.drop i, cs.take i, cs[i], cs.drop (i + 1), ?_, ?_, ?_, ?_, ?_⟩
  · simp
  · rw [← List.drop_eq_getElem_cons hic, List.take_append_drop]
  · simp; omega
  · simp; omega
  · simp; omega

theorem kh_lt_iff (h : Nat) (key : K) (d : DATA_NODE K V) :
    (h < d.h ∨ (h = d.h ∧ key < d.key)) ↔ toLex (h, key) < d.kh := by
  simp [DATA_NODE.kh, Prod.Lex.lt_iff]

omit [LinearOrder K] in
theorem kh_eq_iff (h : Nat) (key : K) (d : DATA_NODE K V) :
    (h = d.h ∧ key = d.key) ↔ toLex (h, key) = d.kh := by
  simp [DATA_NODE.kh, Prod.ext_iff]

/-- `searchKey` on an append -/
theorem searchKey_spec (key : K) (h : Nat) (ks : List (DATA_NODE K V)) :
    ∃ ks1 ks2, ks = ks1 ++ ks2 ∧ ks1.length = zBTreeNode.searchKey key h ks ∧
      (∀ k ∈ ks1, k.kh ≤ toLex (h, key)) ∧ (∀ k, ks2.head? = some k → toLex (h, key) < k.kh) := by
  induction ks with
  | nil => exact ⟨[], [], rfl, rfl, by simp, by simp⟩
  | cons d ds ih =>
    by_cases hlt : h < d.h ∨ (h = d.h ∧ key < d.key)
    · refine ⟨[], d :: ds, rfl, ?_, by simp, ?_⟩
      · simp [zBTreeNode.searchKey, hlt]
      · intro k hk
        simp at hk
        subst hk
        exact (kh_lt_iff h key d).1 hlt
    · obtain ⟨ks1, ks2, he, hl, ha, hb⟩ := ih
      refine ⟨d :: ks1, ks2, by simp [he], ?_, ?_, hb⟩
      · simp [zBTreeNode.searchKey, hlt, hl]
      · intro k hk
        simp at hk
        rcases hk with rfl | hk
        · exact not_lt.1 (fun hc => hlt ((kh_lt_iff h key k).2 hc))
        · exact ha k hk

omit [LinearOrder K] in
theorem mem_interleave (a : DATA_NODE K V) (xs : List (List (DATA_NODE K V))) (ks : List (DATA_NODE K V)) :
    a ∈ interleave xs ks ↔ a ∈ ks ∨ ∃ x ∈ xs, a ∈ x := by
  induction xs generalizing ks with
  | nil => simp [interleave]
  | cons x xs ih =>
    cases ks with
    | nil =>
      simp only [interleave, List.mem_append, ih, List.not_mem_nil, false_or, List.mem_cons,
        exists_eq_or_imp]
    | cons k ks =>
      simp only [interleave, List.mem_append, List.mem_cons, ih, exists_eq_or_imp]
      tauto

omit [LinearOrder K] in
theorem keys_sublist (xs : List (List (DATA_NODE K V))) (ks : List (DATA_NODE K V)) :
    ks.Sublist (interleave xs ks) := by
  induction xs generalizing ks with
  | nil => simp [interleave]
  | cons x xs ih =>
    cases ks with
    | nil => simp
    | cons k ks =>
      simp only [interleave]
      exact (List.Sublist.cons₂ k (ih ks)).trans (List.sublist_append_right _ _)

omit [LinearOrder K] in
theorem child_sublist (xs : List (List (DATA_NODE K V))) (ks : List (DATA_NODE K V))
    (x : List (DATA_NODE K V)) (hx : x ∈ xs) : x.Sublist (interleave xs ks) := by
  induction xs generalizing ks with
  | nil => simp at hx
  | cons y ys ih =>
    rcases List.mem_cons.1 hx with rfl | hx
    · cases ks <;> simp [interleave]
    · cases ks with
      | nil => exact (ih [] hx).trans (by simp [interleave])
      | cons k ks =>
        simp only [interleave]
        exact ((ih ks hx).trans (List.sublist_cons_self _ _)).trans (List.sublist_append_right _ _)

omit [LinearOrder K] in
theorem mem_inorder_mk (a : DATA_NODE K V) (s : Nat) (ks : List (DATA_NODE K V))
    (cs : List (zBTreeNode K V)) :
    a ∈ (zBTreeNode.mk s ks cs).inorder ↔ a ∈ ks ∨ ∃ c ∈ cs, a ∈ c.inorder := by
  rw [inorder_mk, mem_interleave]
  simp

theorem ordered_keys {s : Nat} {ks : List (DATA_NODE K V)} {cs : List (zBTreeNode K V)}
    (ho : (zBTreeNode.mk s ks cs).Ordered) : ks.Pairwise (fun a b => a.kh < b.kh) := by
  unfold zBTreeNode.Ordered at ho
  rw [inorder_mk] at ho
  exact ho.sublist (keys_sublist _ _)

theorem ordered_child {s : Nat} {ks : List (DATA_NODE K V)} {cs : List (zBTreeNode K V)}
    (ho : (zBTreeNode.mk s ks cs).Ordered) {c : zBTreeNode K V} (hc : c ∈ cs) : c.Ordered := by
  unfold zBTreeNode.Ordered at ho ⊢
  rw [inorder_mk] at ho
  exact ho.sublist (child_sublist _ _ _ (List.mem_map_of_mem _ hc))

omit [LinearOrder K] in
theorem SearchAt_eq [LinearOrder K] (key : K) (h : Nat) (cs : List (zBTreeNode K V)) (i : Nat) :
    zBTreeNode.SearchAt key h cs i = (cs[i]?).bind (zBTreeNode.Search key h) := by
  induction cs generalizing i with
  | nil => simp [zBTreeNode.SearchAt]
  | cons c cs ih =>
    cases i with
    | zero => simp [zBTreeNode.SearchAt]
    | succ i => simp [zBTreeNode.SearchAt, ih]

theorem Search_mk (key : K) (h : Nat) (s : Nat) (ks : List (DATA_NODE K V))
    (cs : List (zBTreeNode K V)) :
    zBTreeNode.Search key h (.mk s ks cs) =
      match zBTreeNode.foundAt ks (zBTreeNode.searchKey key h ks) key h with
      | some e => some e
      | none => (cs[zBTreeNode.searchKey key h ks]?).bind (zBTreeNode.Search key h) := by
  rw [zBTreeNode.Search, SearchAt_eq]

theorem foundAt_some {ks : List (DATA_NODE K V)} {i : Nat} {key : K} {h : Nat} {e : DATA_NODE K V}
    (hf : zBTreeNode.foundAt ks i key h = some e) :
    0 < i ∧ ks[i - 1]? = some e ∧ e.kh = toLex (h, key) := by
  unfold zBTreeNode.foundAt zBTreeNode.keyBefore at hf
  by_cases hi : i = 0
  · simp [hi] at hf
  · simp only [hi, if_false] at hf
    cases hk : ks[i - 1]? with
    | none => simp [hk] at hf
    | some e' =>
      simp only [hk] at hf
      by_cases hc : h = e'.h ∧ key = e'.key
      · simp only [hc, and_self, if_true, Option.some.injEq] at hf
        subst hf
        exact ⟨Nat.pos_of_ne_zero hi, rfl, ((kh_eq_iff h key e').1 hc).symm⟩
      · simp [hc] at hf

theorem foundAt_mem {ks : List (DATA_NODE K V)} {i : Nat} {key : K} {h : Nat} {e : DATA_NODE K V}
    (hf : zBTreeNode.foundAt ks i key h = some e) : e ∈ ks :=
  List.getElem?_mem (foundAt_some hf).2.1

theorem foundAt_none_of_ne {ks : List (DATA_NODE K V)} {i : Nat} {key : K} {h : Nat}
    (hne : ∀ k ∈ ks, k.kh ≠ toLex (h, key)) : zBTreeNode.foundAt ks i key h = none := by
  cases hf : zBTreeNode.foundAt ks i key h with
  | none => rfl
  | some e => exact absurd (foundAt_some hf).2.2 (hne e (foundAt_mem hf))

/-- the only key of a sorted list with the searched pair is the one `searchKey` stops behind -/
theorem foundAt_of_mem {ks : List (DATA_NODE K V)} {key : K} {h : Nat} {e : DATA_NODE K V}
    (hs : ks.Pairwise (fun a b => a.kh < b.kh)) (he : e ∈ ks) (hk : e.kh = toLex (h, key)) :
    zBTreeNode.foundAt ks (zBTreeNode.searchKey key h ks) key h = some e := by
  obtain ⟨ks1, ks2, hks, hl, ha, hb⟩ := searchKey_spec key h ks
  subst hks
  rw [List.pairwise_append] at hs
  obtain ⟨hs1, hs2, hs12⟩ := hs
  have hnot2 : e ∉ ks2 := by
    intro hm
    cases ks2 with
    | nil => simp at hm
    | cons k0 rest =>
      have h0 := hb k0 rfl
      rcases List.mem_cons.1 hm with rfl | hm
      · rw [hk] at h0; exact lt_irrefl _ h0
      · have := (List.pairwise_cons.1 hs2).1 e hm
        rw [hk] at this
        exact lt_irrefl _ (lt_trans h0 this)
  have he1 : e ∈ ks1 := by
    rcases List.mem_append.1 he with h1 | h2
    · exact h1
    · exact absurd h2 hnot2
  -- e is the last element of ks1
  rcases List.eq_nil_or_concat ks1 with hnil | ⟨ks1', l, hcc⟩
  · subst hnil; simp at he1
  · rw [List.concat_eq_append] at hcc
    subst hcc
    have hel : e = l := by
      rcases List.mem_append.1 he1 with h1 | h2
      · have hlt : e.kh < l.kh := (List.pairwise_append.1 hs1).2.2 e h1 l (by simp)
        have hle : l.kh ≤ toLex (h, key) := ha l (by simp)
        rw [hk] at hlt
        exact absurd hlt (not_lt.2 hle)
      · simpa using h2
    subst hel
    have hi : zBTreeNode.searchKey key h (ks1' ++ [e] ++ ks2) = ks1'.length + 1 := by
      rw [← hl]; simp
    unfold zBTreeNode.foundAt zBTreeNode.keyBefore
    rw [hi]
    have hc : h = e.h ∧ key = e.key := (kh_eq_iff h key e).2 hk.symm
    have hg : (ks1' ++ [e] ++ ks2)[ks1'.length + 1 - 1]? = some e := by
      rw [List.append_assoc, List.getElem?_append_right (by simp)]
      simp
    rw [hg]
    simp [hc]

theorem Search_sound (key : K) (h : Nat) (p : zBTreeNode K V) :
    ∀ e, zBTreeNode.Search key h p = some e → e ∈ p.inorder ∧ e.kh = toLex (h, key) := by
  apply @zBTreeNode.rec K V
    (fun p => ∀ e, zBTreeNode.Search key h p = some e →
      e ∈ p.inorder ∧ e.kh = toLex (h, key))
    (fun cs => ∀ c ∈ cs, ∀ e, zBTreeNode.Search key h c = some e →
      e ∈ c.inorder ∧ e.kh = toLex (h, key))
  · intro s ks cs ih e hs
    rw [Search_mk] at hs
    cases hf : zBTreeNode.foundAt ks (zBTreeNode.searchKey key h ks) key h with
    | some e' =>
      simp only [hf, Option.some.injEq] at hs
      subst hs
      exact ⟨(mem_inorder_mk _ _ _ _).2 (Or.inl (foundAt_mem hf)), (foundAt_some hf).2.2⟩
    | none =>
      simp only [hf] at hs
      cases hc : cs[zBTreeNode.searchKey key h ks]? with
      | none => simp [hc] at hs
      | some c =>
        simp only [hc, Option.some_bind] at hs
        have hmem : c ∈ cs := List.getElem?_mem hc
        obtain ⟨h1, h2⟩ := ih c hmem e hs
        exact ⟨(mem_inorder_mk _ _ _ _).2 (Or.inr ⟨c, hmem, h1⟩), h2⟩
  · intro c hc
    simp at hc
  · intro c cs ihc ihcs c' hc'
    rcases List.mem_cons.1 hc' with rfl | hm
    · exact ihc
    · exact ihcs c' hm

theorem searchKey_eq (key : K) (h : Nat) (ks1 ks2 : List (DATA_NODE K V))
    (h1 : ∀ k ∈ ks1, k.kh ≤ toLex (h, key)) (h2 : ∀ k ∈ ks2, toLex (h, key) < k.kh) :
    zBTreeNode.searchKey key h (ks1 ++ ks2) = ks1.length := by
  induction ks1 with
  | nil =>
    cases ks2 with
    | nil => rfl
    | cons k ks =>
      have := (kh_lt_iff h key k).2 (h2 k (by simp))
      simp [zBTreeNode.searchKey, this]
  | cons k ks ih =>
    have hk : ¬ (h < k.h ∨ (h = k.h ∧ key < k.key)) := by
      intro hc
      exact absurd ((kh_lt_iff h key k).1 hc) (not_lt.2 (h1 k (by simp)))
    have := ih (fun k' hk' => h1 k' (by simp [hk']))
    simp [zBTreeNode.searchKey, hk, this]

omit [LinearOrder K] in
theorem mem_glue_key (xs : List (List (DATA_NODE K V))) (ks : List (DATA_NODE K V))
    (hl : xs.length = ks.length) (k : DATA_NODE K V) (hk : k ∈ ks) : k ∈ glue xs ks := by
  induction xs generalizing ks with
  | nil => cases ks <;> simp_all
  | cons x xs ih =>
    cases ks with
    | nil => simp at hk
    | cons k0 ks =>
      simp only [List.length_cons, Nat.add_right_cancel_iff] at hl
      simp only [glue, List.mem_append, List.mem_cons]
      rcases List.mem_cons.1 hk with rfl | hk
      · exact Or.inr (Or.inl rfl)
      · exact Or.inr (Or.inr (ih ks hl hk))

omit [LinearOrder K] in
theorem mem_glueR_key (xs : List (List (DATA_NODE K V))) (ks : List (DATA_NODE K V))
    (hl : xs.length = ks.length) (k : DATA_NODE K V) (hk : k ∈ ks) : k ∈ glueR ks xs := by
  induction xs generalizing ks with
  | nil => cases ks <;> simp_all
  | cons x xs ih =>
    cases ks with
    | nil => simp at hk
    | cons k0 ks =>
      simp only [List.length_cons, Nat.add_right_cancel_iff] at hl
      simp only [glueR, List.mem_append, List.mem_cons]
      rcases List.mem_cons.1 hk with rfl | hk
      · exact Or.inl (Or.inl rfl)
      · exact Or.inr (ih ks hl hk)

omit [LinearOrder K] in
theorem shape_succ {lo n : Nat} {p : zBTreeNode K V} :
    p.Shape lo (n + 1) ↔ p.pChild.length = p.KeyNum + 1 ∧ lo ≤ p.KeyNum ∧ p.KeyNum ≤ KEY_MAX ∧
      ∀ c ∈ p.pChild, zBTreeNode.Shape KEY_MIN n c := by
  rw [zBTreeNode.Shape]

omit [LinearOrder K] in
theorem shape_zero {lo : Nat} {p : zBTreeNode K V} :
    p.Shape lo 0 ↔ p.pChild = [] ∧ lo ≤ p.KeyNum ∧ p.KeyNum ≤ KEY_MAX := by
  rw [zBTreeNode.Shape]

theorem Search_complete (key : K) (h : Nat) :
    ∀ (n lo : Nat) (p : zBTreeNode K V), p.Shape lo n → p.Ordered →
      ∀ e, e ∈ p.inorder → e.kh = toLex (h, key) → zBTreeNode.Search key h p = some e := by
  intro n
  induction n with
  | zero =>
    intro lo p hsh ho e he hk
    obtain ⟨s, ks, cs⟩ := p
    obtain ⟨hcs, -, -⟩ := shape_zero.1 hsh
    simp only [zBTreeNode.pChild] at hcs
    subst hcs
    rw [inorder_leaf] at he
    rw [Search_mk, foundAt_of_mem (ordered_keys ho) he hk]
  | succ n ih =>
    intro lo p hsh ho e he hk
    obtain ⟨s, ks, cs⟩ := p
    obtain ⟨hlen, -, -, hch⟩ := shape_succ.1 hsh
    simp only [zBTreeNode.pChild, zBTreeNode.KeyNum, zBTreeNode.Key] at hlen hch
    rcases (mem_inorder_mk _ _ _ _).1 he with hek | ⟨c, hc, hec⟩
    · rw [Search_mk, foundAt_of_mem (ordered_keys ho) hek hk]
    · obtain ⟨cs1, cs2, hcs⟩ := List.append_of_mem hc
      subst hcs
      have hj : cs1.length ≤ ks.length := by simp at hlen; omega
      obtain ⟨ks1, ks2, hks, hl1⟩ : ∃ ks1 ks2, ks = ks1 ++ ks2 ∧ ks1.length = cs1.length :=
        ⟨ks.take cs1.length, ks.drop cs1.length, by simp, by simp; omega⟩
      subst hks
      have hl2 : cs2.length = ks2.length := by simp at hlen; omega
      have hord := ho
      unfold zBTreeNode.Ordered at hord
      rw [inorder_split s ks1 ks2 cs1 cs2 c hl1.symm hl2, List.pairwise_append] at hord
      obtain ⟨-, hmid, hcross⟩ := hord
      rw [List.pairwise_append] at hmid
      obtain ⟨-, -, hcross2⟩ := hmid
      have hb1 : ∀ k ∈ ks1, k.kh < toLex (h, key) := by
        intro k hk1
        rw [← hk]
        exact hcross k (mem_glue_key _ _ (by simpa using hl1.symm) k hk1) e (by simp [hec])
      have hb2 : ∀ k ∈ ks2, toLex (h, key) < k.kh := by
        intro k hk2
        rw [← hk]
        exact hcross2 e hec k (mem_glueR_key _ _ (by simpa using hl2) k hk2)
      have hsk : zBTreeNode.searchKey key h (ks1 ++ ks2) = cs1.length := by
        rw [searchKey_eq key h ks1 ks2 (fun k hk1 => le_of_lt (hb1 k hk1)) hb2, hl1]
      have hfn : zBTreeNode.foundAt (ks1 ++ ks2) (zBTreeNode.searchKey key h (ks1 ++ ks2)) key h
          = none := by
        apply foundAt_none_of_ne
        intro k hkm
        rcases List.mem_append.1 hkm with hm | hm
        · exact ne_of_lt (hb1 k hm)
        · exact ne_of_gt (hb2 k hm)
      rw [Search_mk, hfn, hsk]
      simp only [List.getElem?_append_right (le_refl _), Nat.sub_self, List.getElem?_cons_zero,
        Option.some_bind]
      exact ih KEY_MIN c (hch c hc) (ordered_child ho hc) e hec hk

theorem keys_bounds {ks : List (DATA_NODE K V)} {key : K} {h : Nat}
    (hs : ks.Pairwise (fun a b => a.kh < b.kh))
    (hf : zBTreeNode.foundAt ks (zBTreeNode.searchKey key h ks) key h = none) :
    (∀ a ∈ ks.take (zBTreeNode.searchKey key h ks), a.kh < toLex (h, key)) ∧
    (∀ b ∈ ks.drop (zBTreeNode.searchKey key h ks), toLex (h, key) < b.kh) := by
  obtain ⟨ks1, ks2, hks, hl, ha, hb⟩ := searchKey_spec key h ks
  have ht : ks.take (zBTreeNode.searchKey key h ks) = ks1 := by
    rw [← hl, hks]; simp
  have hd : ks.drop (zBTreeNode.searchKey key h ks) = ks2 := by
    rw [← hl, hks]; simp
  rw [ht, hd]
  constructor
  · intro a ham
    rcases lt_or_eq_of_le (ha a ham) with hlt | heq
    · exact hlt
    · have : a ∈ ks := by rw [hks]; simp [ham]
      rw [foundAt_of_mem hs this heq] at hf
      simp at hf
  · intro b hbm
    cases ks2 with
    | nil => simp at hbm
    | cons k0 rest =>
      have h0 := hb k0 rfl
      rcases List.mem_cons.1 hbm with rfl | hm
      · exact h0
      · rw [hks, List.pairwise_append] at hs
        exact lt_trans h0 ((List.pairwise_cons.1 hs.2.1).1 b hm)

theorem glue_le_key (xs : List (List (DATA_NODE K V))) (ks : List (DATA_NODE K V))
    (hp : (glue xs ks).Pairwise (fun a b => a.kh < b.kh)) (a : DATA_NODE K V)
    (ha : a ∈ glue xs ks) : ∃ k ∈ ks, a.kh ≤ k.kh := by
  induction xs generalizing ks with
  | nil => cases ks <;> simp [glue] at ha
  | cons x xs ih =>
    cases ks with
    | nil => simp [glue] at ha
    | cons k ks =>
      simp only [glue] at ha hp
      rw [List.pairwise_append] at hp
      obtain ⟨-, hp2, hp3⟩ := hp
      rcases List.mem_append.1 ha with h1 | h2
      · exact ⟨k, by simp, le_of_lt (hp3 a h1 k (by simp))⟩
      · rcases List.mem_cons.1 h2 with rfl | h3
        · exact ⟨a, by simp, le_refl _⟩
        · obtain ⟨k', hk', hle⟩ := ih ks (List.pairwise_cons.1 hp2).2 h3
          exact ⟨k', by simp [hk'], hle⟩

theorem key_le_glueR (xs : List (List (DATA_NODE K V))) (ks : List (DATA_NODE K V))
    (hp : (glueR ks xs).Pairwise (fun a b => a.kh < b.kh)) (b : DATA_NODE K V)
    (hb : b ∈ glueR ks xs) : ∃ k ∈ ks, k.kh ≤ b.kh := by
  induction xs generalizing ks with
  | nil => cases ks <;> simp [glueR] at hb
  | cons x xs ih =>
    cases ks with
    | nil => simp [glueR] at hb
    | cons k ks =>
      simp only [glueR, List.cons_append] at hb hp
      rw [List.pairwise_cons] at hp
      obtain ⟨hp1, hp2⟩ := hp
      rcases List.mem_cons.1 hb with rfl | h2
      · exact ⟨b, by simp, le_refl _⟩
      · rcases List.mem_append.1 h2 with h3 | h4
        · exact ⟨k, by simp, le_of_lt (hp1 b h2)⟩
        · obtain ⟨k', hk', hle⟩ := ih ks (List.pairwise_append.1 hp2).2.1 h4
          exact ⟨k', by simp [hk'], hle⟩

/-- Bounds on the parts of the traversal left and right of the child the search descends to. -/
theorem split_bounds {s : Nat} {ks1 ks2 : List (DATA_NODE K V)} {cs1 cs2 : List (zBTreeNode K V)}
    {c : zBTreeNode K V} (h1 : cs1.length = ks1.length) (h2 : cs2.length = ks2.length)
    (ho : (zBTreeNode.mk s (ks1 ++ ks2) (cs1 ++ c :: cs2)).Ordered) (t : Lex (Nat × K))
    (hb1 : ∀ k ∈ ks1, k.kh < t) (hb2 : ∀ k ∈ ks2, t < k.kh) :
    (∀ a ∈ glue (cs1.map zBTreeNode.inorder) ks1, a.kh < t) ∧
    (∀ b ∈ glueR ks2 (cs2.map zBTreeNode.inorder), t < b.kh) := by
  unfold zBTreeNode.Ordered at ho
  rw [inorder_split s ks1 ks2 cs1 cs2 c h1 h2, List.pairwise_append] at ho
  obtain ⟨hp1, hp2, -⟩ := ho
  rw [List.pairwise_append] at hp2
  constructor
  · intro a ha
    obtain ⟨k, hk, hle⟩ := glue_le_key _ _ hp1 a ha
    exact lt_of_le_of_lt hle (hb1 k hk)
  · intro b hb
    obtain ⟨k, hk, hle⟩ := key_le_glueR _ _ hp2.2.1 b hb
    exact lt_of_lt_of_le (hb2 k hk) hle

theorem ordered_of_insSpec {d : DATA_NODE K V} {l l' : List (DATA_NODE K V)}
    {st : InsertStatus K V} (hs : InsSpec d l l' st)
    (ho : l.Pairwise (fun a b => a.kh < b.kh)) : l'.Pairwise (fun a b => a.kh < b.kh) := by
  cases st with
  | inserted =>
    obtain ⟨A, B, h1, h2, h3, h4⟩ := hs
    subst h1 h2
    rw [List.pairwise_append] at ho ⊢
    refine ⟨ho.1, List.pairwise_cons.2 ⟨h4, ho.2.1⟩, ?_⟩
    intro a ha b hb
    rcases List.mem_cons.1 hb with rfl | hb
    · exact h3 a ha
    · exact ho.2.2 a ha b hb
  | found e => obtain ⟨-, -, h⟩ := hs; rw [h]; exact ho
  | memError => simp only [InsSpec] at hs; rw [hs]; exact ho
  | noFuel => exact absurd hs (by simp [InsSpec])

/-- Framing of an `InsSpec` by material left and right. -/
theorem insSpec_frame {d : DATA_NODE K V} {l l' : List (DATA_NODE K V)} {st : InsertStatus K V}
    (hs : InsSpec d l l' st) (L R : List (DATA_NODE K V))
    (hL : ∀ a ∈ L, a.kh < d.kh) (hR : ∀ b ∈ R, d.kh < b.kh) :
    InsSpec d (L ++ (l ++ R)) (L ++ (l' ++ R)) st := by
  cases st with
  | inserted =>
    obtain ⟨A, B, h1, h2, h3, h4⟩ := hs
    subst h1 h2
    refine ⟨L ++ A, B ++ R, by simp, by simp, ?_, ?_⟩
    · intro a ha
      rcases List.mem_append.1 ha with h | h
      · exact hL a h
      · exact h3 a h
    · intro b hb
      rcases List.mem_append.1 hb with h | h
      · exact h4 b h
      · exact hR b h
  | found e =>
    obtain ⟨h1, h2, h3⟩ := hs
    exact ⟨by simp [h1], h2, by rw [h3]⟩
  | memError => simp only [InsSpec] at hs ⊢; rw [hs]
  | noFuel => exact absurd hs (by simp [InsSpec])

omit [LinearOrder K] in
theorem KEY_MAX_eq : KEY_MAX = 5 := rfl

omit [LinearOrder K] in
theorem KEY_MIN_eq : KEY_MIN = 2 := rfl

omit [LinearOrder K] in
theorem CHILD_MIN_eq : CHILD_MIN = 3 := rfl

omit [LinearOrder K] in
theorem length_five {α : Type} (l : List α) (h : l.length = 5) :
    ∃ a b c d e, l = [a, b, c, d, e] := by
  rcases l with _ | ⟨a, _ | ⟨b, _ | ⟨c, _ | ⟨d, _ | ⟨e, _ | ⟨f, l⟩⟩⟩⟩⟩⟩ <;> simp at h
  exact ⟨a, b, c, d, e, rfl⟩

omit [LinearOrder K] in
theorem length_six {α : Type} (l : List α) (h : l.length = 6) :
    ∃ a b c d e f, l = [a, b, c, d, e, f] := by
  rcases l with _ | ⟨a, _ | ⟨b, _ | ⟨c, _ | ⟨d, _ | ⟨e, _ | ⟨f, _ | ⟨g, l⟩⟩⟩⟩⟩⟩⟩ <;> simp at h
  exact ⟨a, b, c, d, e, f, rfl⟩

omit [LinearOrder K] in
/-- The two halves of a full node. -/
theorem split_spec (n lo : Nat) (c : zBTreeNode K V) (r : Nat) (hsh : c.Shape lo n)
    (hfull : KEY_MAX ≤ c.KeyNum) :
    ∃ med, c.Key[KEY_MIN]? = some med ∧
      c.inorder = (zBTreeNode.splitLeft c).inorder ++ med :: (zBTreeNode.splitRight r c).inorder ∧
      (zBTreeNode.splitLeft c).Shape KEY_MIN n ∧ (zBTreeNode.splitRight r c).Shape KEY_MIN n ∧
      (zBTreeNode.splitLeft c).KeyNum = 2 ∧ (zBTreeNode.splitRight r c).KeyNum = 2 := by
  obtain ⟨s, ks, cs⟩ := c
  cases n with
  | zero =>
    obtain ⟨hcs, -, hmax⟩ := shape_zero.1 hsh
    simp only [zBTreeNode.pChild, zBTreeNode.KeyNum, zBTreeNode.Key, KEY_MAX_eq] at hcs hmax hfull
    subst hcs
    obtain ⟨k0, k1, k2, k3, k4, rfl⟩ := length_five ks (by omega)
    refine ⟨k2, by simp [zBTreeNode.Key, KEY_MIN_eq], ?_, ?_, ?_, ?_, ?_⟩
    · simp [zBTreeNode.splitLeft, zBTreeNode.splitRight, inorder_leaf, zBTreeNode.Key,
        zBTreeNode.pChild, zBTreeNode.slot, KEY_MIN_eq, CHILD_MIN_eq]
    · simp [shape_zero, zBTreeNode.splitLeft, zBTreeNode.Key, zBTreeNode.pChild,
        zBTreeNode.KeyNum, KEY_MIN_eq, CHILD_MIN_eq, KEY_MAX_eq]
    · simp [shape_zero, zBTreeNode.splitRight, zBTreeNode.Key, zBTreeNode.pChild,
        zBTreeNode.KeyNum, KEY_MIN_eq, CHILD_MIN_eq, KEY_MAX_eq]
    · simp [zBTreeNode.splitLeft, zBTreeNode.Key, zBTreeNode.KeyNum, KEY_MIN_eq]
    · simp [zBTreeNode.splitRight, zBTreeNode.Key, zBTreeNode.KeyNum, KEY_MIN_eq, CHILD_MIN_eq]
  | succ n =>
    obtain ⟨hlen, -, hmax, hch⟩ := shape_succ.1 hsh
    simp only [zBTreeNode.pChild, zBTreeNode.KeyNum, zBTreeNode.Key, KEY_MAX_eq] at hlen hmax hfull hch
    obtain ⟨k0, k1, k2, k3, k4, rfl⟩ := length_five ks (by omega)
    obtain ⟨c0, c1, c2, c3, c4, c5, rfl⟩ := length_six cs (by simpa using hlen)
    refine ⟨k2, by simp [zBTreeNode.Key, KEY_MIN_eq], ?_, ?_, ?_, ?_, ?_⟩
    · simp [zBTreeNode.splitLeft, zBTreeNode.splitRight, inorder_mk, interleave, zBTreeNode.Key,
        zBTreeNode.pChild, zBTreeNode.slot, KEY_MIN_eq, CHILD_MIN_eq]
    · rw [shape_succ]
      simp only [zBTreeNode.splitLeft, zBTreeNode.Key, zBTreeNode.pChild,
        zBTreeNode.KeyNum, KEY_MIN_eq, CHILD_MIN_eq, KEY_MAX_eq]
      refine ⟨by simp, by simp, by simp, ?_⟩
      intro c hc
      exact hch c (List.mem_of_mem_take hc)
    · rw [shape_succ]
      simp only [zBTreeNode.splitRight, zBTreeNode.Key, zBTreeNode.pChild,
        zBTreeNode.KeyNum, KEY_MIN_eq, CHILD_MIN_eq, KEY_MAX_eq]
      refine ⟨by simp, by simp, by simp, ?_⟩
      intro c hc
      exact hch c (List.mem_of_mem_drop (List.mem_of_mem_take hc))
    · simp [zBTreeNode.splitLeft, zBTreeNode.Key, zBTreeNode.KeyNum, KEY_MIN_eq]
    · simp [zBTreeNode.splitRight, zBTreeNode.Key, zBTreeNode.KeyNum, KEY_MIN_eq, CHILD_MIN_eq]

theorem sfi_unfold (Hp : zMemHeap H) (fuel : Nat) (s : Nat) (ks : List (DATA_NODE K V))
    (cs : List (zBTreeNode K V)) (d : DATA_NODE K V) (hp : H) :
    zBTreeNode.searchForInsert Hp (fuel + 1) (.mk s ks cs) d hp =
    match zBTreeNode.foundAt ks (zBTreeNode.searchKey d.key d.h ks) d.key d.h with
    | some e => (.found e, .mk s ks cs, hp)
    | none =>
      match cs[zBTreeNode.searchKey d.key d.h ks]? with
      | none => (.inserted, .mk s (zBTreeNode.insertKey ks (zBTreeNode.searchKey d.key d.h ks) d) cs, hp)
      | some c =>
        if KEY_MAX ≤ c.KeyNum then
          match Hp.LockAlloc hp with
          | (none, hp1) => (.memError, .mk s ks cs, hp1)
          | (some r, hp1) =>
            match c.Key[KEY_MIN]? with
            | none => (.noFuel, .mk s ks cs, hp1)
            | some med =>
              if med.h < d.h ∨ (d.h = med.h ∧ med.key < d.key) then
                match zBTreeNode.searchForInsert Hp fuel (zBTreeNode.splitRight r c) d hp1 with
                | (st, cR, hp2) =>
                  (st, .mk s (zBTreeNode.insertKey ks (zBTreeNode.searchKey d.key d.h ks) med)
                    (zBTreeNode.insertChild (zBTreeNode.setChild cs (zBTreeNode.searchKey d.key d.h ks) (zBTreeNode.splitLeft c)) (zBTreeNode.searchKey d.key d.h ks + 1) cR), hp2)
              else if d.h = med.h ∧ d.key = med.key then
                (.found med, .mk s (zBTreeNode.insertKey ks (zBTreeNode.searchKey d.key d.h ks) med)
                  (zBTreeNode.insertChild (zBTreeNode.setChild cs (zBTreeNode.searchKey d.key d.h ks) (zBTreeNode.splitLeft c)) (zBTreeNode.searchKey d.key d.h ks + 1)
                    (zBTreeNode.splitRight r c)), hp1)
              else
                match zBTreeNode.searchForInsert Hp fuel (zBTreeNode.splitLeft c) d hp1 with
                | (st, cL, hp2) =>
                  (st, .mk s (zBTreeNode.insertKey ks (zBTreeNode.searchKey d.key d.h ks) med)
                    (zBTreeNode.insertChild (zBTreeNode.setChild cs (zBTreeNode.searchKey d.key d.h ks) cL) (zBTreeNode.searchKey d.key d.h ks + 1) (zBTreeNode.splitRight r c)),
                    hp2)
        else
          match zBTreeNode.searchForInsert Hp fuel c d hp with
          | (st, c1, hp1) => (st, .mk s ks (zBTreeNode.setChild cs (zBTreeNode.searchKey d.key d.h ks) c1), hp1) := by
  rw [zBTreeNode.searchForInsert]
  rfl

omit [LinearOrder K] in
theorem insertKey_append (ks1 ks2 : List (DATA_NODE K V)) (i : Nat) (d : DATA_NODE K V)
    (hi : ks1.length = i) : zBTreeNode.insertKey (ks1 ++ ks2) i d = ks1 ++ d :: ks2 := by
  subst hi
  simp [zBTreeNode.insertKey]

omit [LinearOrder K] in
theorem setChild_append (cs1 cs2 : List (zBTreeNode K V)) (c x : zBTreeNode K V) (i : Nat)
    (hi : cs1.length = i) : zBTreeNode.setChild (cs1 ++ c :: cs2) i x = cs1 ++ x :: cs2 := by
  subst hi
  simp [zBTreeNode.setChild]

omit [LinearOrder K] in
theorem insertChild_append (cs1 cs2 : List (zBTreeNode K V)) (c x : zBTreeNode K V) (i : Nat)
    (hi : cs1.length = i) :
    zBTreeNode.insertChild (cs1 ++ c :: cs2) (i + 1) x = cs1 ++ c :: x :: cs2 := by
  subst hi
  have : cs1 ++ c :: cs2 = (cs1 ++ [c]) ++ cs2 := by simp
  rw [zBTreeNode.insertChild, this, List.take_left' (by simp), List.drop_left' (by simp)]
  simp

theorem searchKey_le (key : K) (h : Nat) (ks : List (DATA_NODE K V)) :
    zBTreeNode.searchKey key h ks ≤ ks.length := by
  obtain ⟨ks1, ks2, hks, hl, -, -⟩ := searchKey_spec key h ks
  rw [← hl, hks]; simp

theorem child_lt_med {c : zBTreeNode K V} {A B : List (DATA_NODE K V)} {med : DATA_NODE K V}
    (ho : c.Ordered) (hc : c.inorder = A ++ med :: B) :
    (∀ a ∈ A, a.kh < med.kh) ∧ (∀ b ∈ B, med.kh < b.kh) ∧
      A.Pairwise (fun a b => a.kh < b.kh) ∧ B.Pairwise (fun a b => a.kh < b.kh) := by
  unfold zBTreeNode.Ordered at ho
  rw [hc, List.pairwise_append] at ho
  obtain ⟨h1, h2, h3⟩ := ho
  rw [List.pairwise_cons] at h2
  exact ⟨fun a ha => h3 a ha med (by simp), h2.1, h1, h2.2⟩

theorem sfi_spec (Hp : zMemHeap H) (d : DATA_NODE K V) :
    ∀ (n lo fuel : Nat) (p : zBTreeNode K V) (hp : H), p.Shape lo n → p.KeyNum < KEY_MAX →
      p.Ordered → n < fuel → ∀ st p1 hp1,
      zBTreeNode.searchForInsert Hp fuel p d hp = (st, p1, hp1) →
      p1.Shape lo n ∧ InsSpec d p.inorder p1.inorder st := by
  intro n
  induction n with
  | zero =>
    intro lo fuel p hp hsh hnf ho hfu st p1 hp1 hr
    obtain ⟨s, ks, cs⟩ := p
    obtain ⟨hcs, hlo, hmax⟩ := shape_zero.1 hsh
    simp only [zBTreeNode.pChild, zBTreeNode.KeyNum, zBTreeNode.Key] at hcs hlo hmax hnf
    subst hcs
    obtain ⟨f, rfl⟩ : ∃ f, fuel = f + 1 := ⟨fuel - 1, by omega⟩
    rw [sfi_unfold] at hr
    cases hf : zBTreeNode.foundAt ks (zBTreeNode.searchKey d.key d.h ks) d.key d.h with
    | some e =>
      simp only [hf, Prod.mk.injEq] at hr
      obtain ⟨rfl, rfl, rfl⟩ := hr
      refine ⟨hsh, ?_⟩
      simp only [InsSpec, inorder_leaf]
      exact ⟨foundAt_mem hf, (foundAt_some hf).2.2, trivial⟩
    | none =>
      simp only [hf, List.getElem?_nil, Prod.mk.injEq] at hr
      obtain ⟨rfl, rfl, rfl⟩ := hr
      have hb := keys_bounds (ordered_keys ho) hf
      constructor
      · rw [shape_zero]
        simp only [zBTreeNode.pChild, zBTreeNode.KeyNum, zBTreeNode.Key, zBTreeNode.insertKey,
          List.length_append, List.length_cons, List.length_take, List.length_drop, true_and]
        simp only [KEY_MAX_eq] at hnf ⊢
        omega
      · simp only [InsSpec, inorder_leaf, zBTreeNode.insertKey]
        exact ⟨_, _, (List.take_append_drop _ _).symm, rfl, hb.1, hb.2⟩
  | succ n ih =>
    intro lo fuel p hp hsh hnf ho hfu st p1 hp1 hr
    obtain ⟨s, ks, cs⟩ := p
    obtain ⟨hlen, hlo, hmax, hch⟩ := shape_succ.1 hsh
    simp only [zBTreeNode.pChild, zBTreeNode.KeyNum, zBTreeNode.Key] at hlen hlo hmax hnf hch
    obtain ⟨f, rfl⟩ : ∃ f, fuel = f + 1 := ⟨fuel - 1, by omega⟩
    have hfu' : n < f := by omega
    rw [sfi_unfold] at hr
    cases hf : zBTreeNode.foundAt ks (zBTreeNode.searchKey d.key d.h ks) d.key d.h with
    | some e =>
      simp only [hf, Prod.mk.injEq] at hr
      obtain ⟨rfl, rfl, rfl⟩ := hr
      refine ⟨hsh, ?_⟩
      exact ⟨(mem_inorder_mk _ _ _ _).2 (Or.inl (foundAt_mem hf)), (foundAt_some hf).2.2, rfl⟩
    | none =>
      simp only [hf] at hr
      have hkb := keys_bounds (ordered_keys ho) hf
      obtain ⟨ks1, ks2, cs1, c, cs2, hks, hcs, hl1, hl2, hl3⟩ :=
        decomp_at ks cs (zBTreeNode.searchKey d.key d.h ks) hlen (searchKey_le _ _ _)
      have hi : zBTreeNode.searchKey d.key d.h ks = ks1.length := hl1.symm
      rw [hi] at hr hkb
      subst hks hcs
      have hl12 : cs1.length = ks1.length := by omega
      rw [List.take_left' rfl, List.drop_left' rfl] at hkb
      have hget : (cs1 ++ c :: cs2)[ks1.length]? = some c := by
        rw [List.getElem?_append_right (by omega)]
        simp [hl12]
      simp only [hget] at hr
      obtain ⟨hG1, hGR⟩ := split_bounds hl12 hl3 ho d.kh hkb.1 hkb.2
      have hcsh : c.Shape KEY_MIN n := hch c (by simp)
      have hco : c.Ordered := ordered_child ho (by simp)
      have hkeys : (ks1 ++ ks2).length = ks1.length + ks2.length := by simp
      by_cases hfull : KEY_MAX ≤ c.KeyNum
      · simp only [hfull, if_true] at hr
        cases hal : Hp.LockAlloc hp with
        | mk ro hpa =>
          cases ro with
          | none =>
            simp only [hal, Prod.mk.injEq] at hr
            obtain ⟨rfl, rfl, rfl⟩ := hr
            exact ⟨hsh, rfl⟩
          | some r =>
            simp only [hal] at hr
            obtain ⟨med, hmed, hcin, hLs, hRs, hLk, hRk⟩ := split_spec n KEY_MIN c r hcsh hfull
            simp only [hmed] at hr
            rw [insertKey_append _ _ _ _ rfl] at hr
            obtain ⟨hLm, hmR, hLo, hRo⟩ := child_lt_med hco hcin
            have hshape : ∀ (X Y : zBTreeNode K V), X.Shape KEY_MIN n → Y.Shape KEY_MIN n →
                (zBTreeNode.mk s (ks1 ++ med :: ks2) (cs1 ++ X :: Y :: cs2)).Shape lo (n + 1) := by
              intro X Y hX hY
              rw [shape_succ]
              simp only [zBTreeNode.pChild, zBTreeNode.KeyNum, zBTreeNode.Key, List.length_append,
                List.length_cons]
              simp only [List.length_append] at hlo hnf
              refine ⟨by omega, by omega, by simp only [KEY_MAX_eq] at hnf ⊢; omega, ?_⟩
              intro x hx
              simp only [List.mem_append, List.mem_cons] at hx
              rcases hx with h | rfl | rfl | h
              · exact hch x (by simp [h])
              · exact hX
              · exact hY
              · exact hch x (by simp [h])
            have hin : ∀ (X Y : zBTreeNode K V),
                (zBTreeNode.mk s (ks1 ++ med :: ks2) (cs1 ++ X :: Y :: cs2)).inorder =
                glue (cs1.map zBTreeNode.inorder) ks1 ++
                  (X.inorder ++ (med :: (Y.inorder ++ glueR ks2 (cs2.map zBTreeNode.inorder)))) := by
              intro X Y
              rw [inorder_split s ks1 (med :: ks2) cs1 (Y :: cs2) X hl12 (by simp [hl3])]
              simp [glueR]
            have hpin := inorder_split s ks1 ks2 cs1 cs2 c hl12 hl3
            by_cases hgt : med.h < d.h ∨ (d.h = med.h ∧ med.key < d.key)
            · simp only [hgt, if_true] at hr
              have hmd : med.kh < d.kh := by
                rcases hgt with h1 | ⟨h1, h2⟩
                · exact (kh_lt_iff med.h med.key d).1 (Or.inl h1)
                · exact (kh_lt_iff med.h med.key d).1 (Or.inr ⟨h1.symm, h2⟩)
              cases hrec : zBTreeNode.searchForInsert Hp f (zBTreeNode.splitRight r c) d hpa with
              | mk st' rest =>
                obtain ⟨cR, hp2⟩ := rest
                simp only [hrec, Prod.mk.injEq] at hr
                obtain ⟨rfl, rfl, rfl⟩ := hr
                obtain ⟨hRs', hspec⟩ := ih KEY_MIN f _ hpa hRs (by rw [hRk, KEY_MAX_eq]; omega)
                  hRo hfu' _ _ _ hrec
                rw [setChild_append _ _ _ _ _ hl12, insertChild_append _ _ _ _ _ hl12]
                refine ⟨hshape _ _ hLs hRs', ?_⟩
                rw [hin, hpin, hcin]
                have := insSpec_frame hspec
                  (glue (cs1.map zBTreeNode.inorder) ks1 ++ ((zBTreeNode.splitLeft c).inorder ++ [med]))
                  (glueR ks2 (cs2.map zBTreeNode.inorder))
                  (by
                    intro a ha
                    simp only [List.mem_append, List.mem_singleton] at ha
                    rcases ha with h | h | rfl
                    · exact hG1 a h
                    · exact lt_trans (hLm a h) hmd
                    · exact hmd)
                  hGR
                simpa [List.append_assoc] using this
            · simp only [hgt, if_false] at hr
              by_cases heq : d.h = med.h ∧ d.key = med.key
              · simp only [heq, and_self, if_true, Prod.mk.injEq] at hr
                obtain ⟨rfl, rfl, rfl⟩ := hr
                rw [setChild_append _ _ _ _ _ hl12, insertChild_append _ _ _ _ _ hl12]
                refine ⟨hshape _ _ hLs hRs, ?_⟩
                refine ⟨?_, ((kh_eq_iff d.h d.key med).1 heq).symm, ?_⟩
                · rw [hpin, hcin]; simp
                · rw [hin, hpin, hcin]; simp
              · simp only [heq, if_false] at hr
                have hdm : d.kh < med.kh := by
                  rcases lt_trichotomy d.kh med.kh with h | h | h
                  · exact h
                  · exact absurd ((kh_eq_iff d.h d.key med).2 h) heq
                  · exfalso
                    apply hgt
                    have := (kh_lt_iff med.h med.key d).2 h
                    rcases this with h1 | ⟨h1, h2⟩
                    · exact Or.inl h1
                    · exact Or.inr ⟨h1.symm, h2⟩
                cases hrec : zBTreeNode.searchForInsert Hp f (zBTreeNode.splitLeft c) d hpa with
                | mk st' rest =>
                  obtain ⟨cL, hp2⟩ := rest
                  simp only [hrec, Prod.mk.injEq] at hr
                  obtain ⟨rfl, rfl, rfl⟩ := hr
                  obtain ⟨hLs', hspec⟩ := ih KEY_MIN f _ hpa hLs (by rw [hLk, KEY_MAX_eq]; omega)
                    hLo hfu' _ _ _ hrec
                  rw [setChild_append _ _ _ _ _ hl12, insertChild_append _ _ _ _ _ hl12]
                  refine ⟨hshape _ _ hLs' hRs, ?_⟩
                  rw [hin, hpin, hcin]
                  have := insSpec_frame hspec
                    (glue (cs1.map zBTreeNode.inorder) ks1)
                    (med :: ((zBTreeNode.splitRight r c).inorder ++ glueR ks2 (cs2.map zBTreeNode.inorder)))
                    hG1
                    (by
                      intro b hb
                      simp only [List.mem_cons, List.mem_append] at hb
                      rcases hb with rfl | h | h
                      · exact hdm
                      · exact lt_trans hdm (hmR b h)
                      · exact hGR b h)
                  simpa [List.append_assoc] using this
      · simp only [hfull, if_false] at hr
        cases hrec : zBTreeNode.searchForInsert Hp f c d hp with
        | mk st' rest =>
          obtain ⟨c1, hp2⟩ := rest
          simp only [hrec, Prod.mk.injEq] at hr
          obtain ⟨rfl, rfl, rfl⟩ := hr
          obtain ⟨hcs', hspec⟩ := ih KEY_MIN f c hp hcsh (by omega) hco hfu' _ _ _ hrec
          rw [setChild_append _ _ _ _ _ hl12]
          constructor
          · rw [shape_succ]
            simp only [zBTreeNode.pChild, zBTreeNode.KeyNum, zBTreeNode.Key, List.length_append,
              List.length_cons]
            simp only [List.length_append, List.length_cons] at hlen hlo hmax
            refine ⟨by omega, by omega, by omega, ?_⟩
            intro x hx
            simp only [List.mem_append, List.mem_cons] at hx
            rcases hx with h | rfl | h
            · exact hch x (by simp [h])
            · exact hcs'
            · exact hch x (by simp [h])
          · rw [inorder_split s ks1 ks2 cs1 cs2 c hl12 hl3,
              inorder_split s ks1 ks2 cs1 cs2 c1 hl12 hl3]
            exact insSpec_frame hspec _ _ hG1 hGR

omit [LinearOrder K] in
theorem depth_of_shape (n lo : Nat) (p : zBTreeNode K V) (h : p.Shape lo n) : p.depth = n + 1 := by
  induction n generalizing lo p with
  | zero =>
    obtain ⟨s, ks, cs⟩ := p
    obtain ⟨hcs, -, -⟩ := shape_zero.1 h
    simp only [zBTreeNode.pChild] at hcs
    subst hcs
    simp [zBTreeNode.depth]
  | succ n ih =>
    obtain ⟨s, ks, cs⟩ := p
    obtain ⟨hlen, -, -, hch⟩ := shape_succ.1 h
    simp only [zBTreeNode.pChild, zBTreeNode.KeyNum, zBTreeNode.Key] at hlen hch
    cases cs with
    | nil => simp at hlen
    | cons c cs =>
      simp only [zBTreeNode.depth]
      rw [ih KEY_MIN c (hch c (by simp))]

theorem insSpec_length {d : DATA_NODE K V} {l l' : List (DATA_NODE K V)} {st : InsertStatus K V}
    (hs : InsSpec d l l' st) :
    (st = .inserted → l'.length = l.length + 1) ∧ (st ≠ .inserted → l'.length = l.length) := by
  cases st with
  | inserted =>
    obtain ⟨A, B, h1, h2, -, -⟩ := hs
    subst h1 h2
    simp; omega
  | found e => obtain ⟨-, -, h⟩ := hs; simp [h]
  | memError => simp only [InsSpec] at hs; simp [hs]
  | noFuel => exact absurd hs (by simp [InsSpec])

theorem insertFrom_spec (Hp : zMemHeap H) (t : zBTree K V) (root : zBTreeNode K V) (n : Nat)
    (d : DATA_NODE K V) (hp : H) (hsh : root.RootShape n) (hnf : root.KeyNum < KEY_MAX)
    (ho : root.Ordered) (hsz : t.Size = root.inorder.length)
    (st : InsertStatus K V) (t1 : zBTree K V) (hp1 : H)
    (hr : zBTree.insertFrom Hp t root d hp = (st, t1, hp1)) :
    t1.Valid ∧ InsSpec d root.inorder t1.toList st := by
  unfold zBTree.insertFrom at hr
  cases hrec : zBTreeNode.searchForInsert Hp root.depth root d hp with
  | mk st' rest =>
    obtain ⟨r1, hp2⟩ := rest
    have hd := depth_of_shape n _ root hsh
    obtain ⟨hs1, hspec⟩ := sfi_spec Hp d n _ root.depth root hp hsh hnf ho (by omega) _ _ _ hrec
    have hlen := insSpec_length hspec
    have ho1 := ordered_of_insSpec hspec ho
    rw [hrec] at hr
    cases st' with
    | inserted =>
      simp only [Prod.mk.injEq] at hr
      obtain ⟨rfl, rfl, rfl⟩ := hr
      exact ⟨⟨r1, n, rfl, hs1, ho1, by have := hlen.1; have := hlen.2; simp_all⟩, hspec⟩
    | found e =>
      simp only [Prod.mk.injEq] at hr
      obtain ⟨rfl, rfl, rfl⟩ := hr
      exact ⟨⟨r1, n, rfl, hs1, ho1, by have := hlen.1; have := hlen.2; simp_all⟩, hspec⟩
    | memError =>
      simp only [Prod.mk.injEq] at hr
      obtain ⟨rfl, rfl, rfl⟩ := hr
      exact ⟨⟨r1, n, rfl, hs1, ho1, by have := hlen.1; have := hlen.2; simp_all⟩, hspec⟩
    | noFuel => exact absurd hspec (by simp [InsSpec])

theorem Insert_spec (Hp : zMemHeap H) (t : zBTree K V) (d : DATA_NODE K V) (hp : H)
    (hg : t.Good) (st : InsertStatus K V) (t1 : zBTree K V) (hp1 : H)
    (hr : t.Insert Hp d hp = (st, t1, hp1)) :
    t1.Good ∧ InsSpec d t.toList t1.toList st ∧
      ((t.Valid ∨ st = .inserted) → t1.Valid) := by
  unfold zBTree.Insert at hr
  rcases hg with ⟨hroot, hsz⟩ | hv
  · simp only [hroot] at hr
    have htl : t.toList = [] := by simp [zBTree.toList, hroot]
    cases hal : Hp.LockAlloc hp with
    | mk ro hpa =>
      cases ro with
      | none =>
        simp only [hal, Prod.mk.injEq] at hr
        obtain ⟨rfl, rfl, rfl⟩ := hr
        refine ⟨Or.inl ⟨hroot, hsz⟩, rfl, ?_⟩
        rintro (hv | h)
        · exact hv
        · simp at h
      | some r =>
        simp only [hal, Prod.mk.injEq] at hr
        obtain ⟨rfl, rfl, rfl⟩ := hr
        have hval : (⟨t.Size + 1, some (.mk r [d] [])⟩ : zBTree K V).Valid := by
          refine ⟨_, 0, rfl, ?_, ?_, ?_⟩
          · simp [zBTreeNode.RootShape, shape_zero, zBTreeNode.pChild, zBTreeNode.KeyNum,
              zBTreeNode.Key, KEY_MAX_eq]
          · simp [zBTreeNode.Ordered, inorder_leaf]
          · simp [inorder_leaf, hsz]
        refine ⟨Or.inr hval, ?_, fun _ => hval⟩
        rw [htl]
        exact ⟨[], [], rfl, by simp [zBTree.toList, inorder_leaf], by simp, by simp⟩
  · obtain ⟨root, n, hroot, hsh, ho, hsz⟩ := hv
    have htl : t.toList = root.inorder := by simp [zBTree.toList, hroot]
    have hv : t.Valid := ⟨root, n, hroot, hsh, ho, hsz⟩
    simp only [hroot] at hr
    have hmax : root.KeyNum ≤ KEY_MAX := by
      unfold zBTreeNode.RootShape at hsh
      cases n with
      | zero => exact (shape_zero.1 hsh).2.2
      | succ n => exact (shape_succ.1 hsh).2.2.1
    by_cases hfull : root.KeyNum = KEY_MAX
    · simp only [hfull, if_true] at hr
      cases hal : Hp.LockAlloc hp with
      | mk ro hpa =>
        cases ro with
        | none =>
          simp only [hal, Prod.mk.injEq] at hr
          obtain ⟨rfl, rfl, rfl⟩ := hr
          exact ⟨Or.inr hv, rfl, fun _ => hv⟩
        | some pNode =>
          simp only [hal] at hr
          cases hal2 : Hp.LockAlloc hpa with
          | mk ro2 hpb =>
            cases ro2 with
            | none =>
              simp only [hal2, Prod.mk.injEq] at hr
              obtain ⟨rfl, rfl, rfl⟩ := hr
              exact ⟨Or.inr hv, rfl, fun _ => hv⟩
            | some pRight =>
              simp only [hal2] at hr
              obtain ⟨med, hmed, hcin, hLs, hRs, hLk, hRk⟩ :=
                split_spec n _ root pRight hsh (le_of_eq hfull.symm)
              simp only [hmed] at hr
              have hin : (zBTreeNode.mk pNode [med]
                  [zBTreeNode.splitLeft root, zBTreeNode.splitRight pRight root]).inorder =
                  root.inorder := by
                rw [hcin]; simp [inorder_mk, interleave]
              have hsh2 : (zBTreeNode.mk pNode [med]
                  [zBTreeNode.splitLeft root, zBTreeNode.splitRight pRight root]).RootShape
                  (n + 1) := by
                unfold zBTreeNode.RootShape
                rw [shape_succ]
                simp only [zBTreeNode.pChild, zBTreeNode.KeyNum, zBTreeNode.Key]
                refine ⟨by simp, by simp, by simp [KEY_MAX_eq], ?_⟩
                intro x hx
                simp only [List.mem_cons, List.mem_singleton, List.not_mem_nil, or_false] at hx
                rcases hx with rfl | rfl
                · exact hLs
                · exact hRs
              obtain ⟨hv1, hspec⟩ := insertFrom_spec Hp t _ (n + 1) d hpb hsh2
                (by simp [zBTreeNode.KeyNum, zBTreeNode.Key, KEY_MAX_eq])
                (by unfold zBTreeNode.Ordered; rw [hin]; exact ho)
                (by rw [hin]; exact hsz) st t1 hp1 hr
              rw [hin] at hspec
              rw [htl]
              exact ⟨Or.inr hv1, hspec, fun _ => hv1⟩
    · simp only [hfull, if_false] at hr
      obtain ⟨hv1, hspec⟩ := insertFrom_spec Hp t root n d hp hsh
        (lt_of_le_of_ne hmax hfull) ho hsz st t1 hp1 hr
      rw [htl]
      exact ⟨Or.inr hv1, hspec, fun _ => hv1⟩

omit [LinearOrder K] in
theorem interleave_merge (xa xb : List (List (DATA_NODE K V))) (ka kb : List (DATA_NODE K V))
    (sep : DATA_NODE K V) (ha : xa.length = ka.length + 1) :
    interleave (xa ++ xb) (ka ++ sep :: kb) = interleave xa ka ++ sep :: interleave xb kb := by
  rcases List.eq_nil_or_concat xa with hnil | ⟨xa', y, hcc⟩
  · subst hnil; simp at ha
  · rw [List.concat_eq_append] at hcc
    subst hcc
    have hl : xa'.length = ka.length := by simp at ha; omega
    rw [List.append_assoc, interleave_append _ _ _ _ hl]
    have h2 : interleave (xa' ++ [y]) ka = glue xa' ka ++ y := by
      have := interleave_append xa' [y] ka [] hl
      simpa [interleave] using this
    rw [h2]
    cases xb with
    | nil => simp [interleave]
    | cons x xs => simp [interleave]

omit [LinearOrder K] in
theorem interleave_snoc (xs : List (List (DATA_NODE K V))) (ks : List (DATA_NODE K V))
    (x : List (DATA_NODE K V)) (k : DATA_NODE K V) (ha : xs.length = ks.length + 1) :
    interleave (xs ++ [x]) (ks ++ [k]) = interleave xs ks ++ k :: x := by
  have := interleave_merge xs [x] ks [] k ha
  simpa [interleave] using this

omit [LinearOrder K] in
theorem shape_lo {lo lo1 n : Nat} {p : zBTreeNode K V} (h : p.Shape lo n) (h1 : lo1 ≤ p.KeyNum) :
    p.Shape lo1 n := by
  cases n with
  | zero =>
    obtain ⟨a, -, c⟩ := shape_zero.1 h
    exact shape_zero.2 ⟨a, h1, c⟩
  | succ n =>
    obtain ⟨a, -, c, d⟩ := shape_succ.1 h
    exact shape_succ.2 ⟨a, h1, c, d⟩

omit [LinearOrder K] in
theorem shape_keynum {lo n : Nat} {p : zBTreeNode K V} (h : p.Shape lo n) :
    lo ≤ p.KeyNum ∧ p.KeyNum ≤ KEY_MAX := by
  cases n with
  | zero => exact (shape_zero.1 h).2
  | succ n => exact ⟨(shape_succ.1 h).2.1, (shape_succ.1 h).2.2.1⟩

omit [LinearOrder K] in
/-- A node of a given shape with its last key and last child taken off. -/
theorem last_split (n lo : Nat) (s : Nat) (lk : List (DATA_NODE K V)) (lcc : List (zBTreeNode K V))
    (hsh : (zBTreeNode.mk s lk lcc).Shape lo n) (hk : 1 ≤ lk.length) :
    ∃ up, lk[lk.length - 1]? = some up ∧
      (zBTreeNode.mk s (lk.take (lk.length - 1)) (lcc.take lk.length)).Shape (lk.length - 1) n ∧
      (n = 0 → lcc = [] ∧ (zBTreeNode.mk s lk lcc).inorder =
          (zBTreeNode.mk s (lk.take (lk.length - 1)) (lcc.take lk.length)).inorder ++ [up]) ∧
      (∀ m, n = m + 1 → ∃ moved, lcc[lk.length]? = some moved ∧ moved.Shape KEY_MIN m ∧
          (zBTreeNode.mk s lk lcc).inorder =
            (zBTreeNode.mk s (lk.take (lk.length - 1)) (lcc.take lk.length)).inorder ++
              up :: moved.inorder) := by
  rcases List.eq_nil_or_concat lk with hnil | ⟨lk', up, hcc⟩
  · subst hnil; simp at hk
  · rw [List.concat_eq_append] at hcc
    subst hcc
    have hlen : (lk' ++ [up]).length - 1 = lk'.length := by simp
    refine ⟨up, by rw [hlen]; simp, ?_, ?_⟩
    · rw [hlen, List.take_left' rfl]
      cases n with
      | zero =>
        obtain ⟨hcs, -, hmax⟩ := shape_zero.1 hsh
        simp only [zBTreeNode.pChild, zBTreeNode.KeyNum, zBTreeNode.Key] at hcs hmax
        subst hcs
        rw [shape_zero]
        simp only [zBTreeNode.pChild, zBTreeNode.KeyNum, zBTreeNode.Key, List.take_nil]
        simp at hmax
        exact ⟨trivial, le_refl _, by omega⟩
      | succ m =>
        obtain ⟨hl, -, hmax, hch⟩ := shape_succ.1 hsh
        simp only [zBTreeNode.pChild, zBTreeNode.KeyNum, zBTreeNode.Key] at hl hmax hch
        rw [shape_succ]
        simp only [zBTreeNode.pChild, zBTreeNode.KeyNum, zBTreeNode.Key]
        simp at hl hmax
        refine ⟨by simp; omega, le_refl _, by omega, ?_⟩
        intro c hc
        exact hch c (List.mem_of_mem_take hc)
    · refine ⟨?_, ?_⟩
      · intro hn
        subst hn
        obtain ⟨hcs, -, -⟩ := shape_zero.1 hsh
        simp only [zBTreeNode.pChild] at hcs
        subst hcs
        simp [inorder_leaf]
      · intro m hn
        subst hn
        obtain ⟨hl, -, hmax, hch⟩ := shape_succ.1 hsh
        simp only [zBTreeNode.pChild, zBTreeNode.KeyNum, zBTreeNode.Key] at hl hmax hch
        rcases List.eq_nil_or_concat lcc with hnil | ⟨lcc', moved, hcc⟩
        · subst hnil; simp at hl
        · rw [List.concat_eq_append] at hcc
          subst hcc
          have hl' : lcc'.length = lk'.length + 1 := by simp at hl; omega
          refine ⟨moved, ?_, hch moved (by simp), ?_⟩
          · rw [List.getElem?_append_right (by simp [hl'])]
            simp [hl']
          · rw [hlen, List.take_left' rfl]
            have : (lk' ++ [up]).length = lcc'.length := by simp [hl']
            rw [this, List.take_left' rfl]
            simp only [inorder_mk, List.map_append, List.map_cons, List.map_nil]
            rw [interleave_snoc _ _ _ _ (by simp [hl'])]

omit [LinearOrder K] in
/-- A node of a given shape with its first key and first child taken off. -/
theorem first_split (n lo : Nat) (s : Nat) (rk : List (DATA_NODE K V)) (rcc : List (zBTreeNode K V))
    (hsh : (zBTreeNode.mk s rk rcc).Shape lo n) (hk : 1 ≤ rk.length) :
    ∃ up rest, rk = up :: rest ∧
      (zBTreeNode.mk s rest (zBTreeNode.removeChild rcc 0)).Shape (rk.length - 1) n ∧
      (n = 0 → rcc = [] ∧ (zBTreeNode.mk s rk rcc).inorder =
          up :: (zBTreeNode.mk s rest (zBTreeNode.removeChild rcc 0)).inorder) ∧
      (∀ m, n = m + 1 → ∃ moved rcc', rcc = moved :: rcc' ∧ moved.Shape KEY_MIN m ∧
          (zBTreeNode.mk s rk rcc).inorder =
            moved.inorder ++ up :: (zBTreeNode.mk s rest (zBTreeNode.removeChild rcc 0)).inorder) := by
  cases rk with
  | nil => simp at hk
  | cons up rest =>
    refine ⟨up, rest, rfl, ?_, ?_⟩
    · cases n with
      | zero =>
        obtain ⟨hcs, -, hmax⟩ := shape_zero.1 hsh
        simp only [zBTreeNode.pChild, zBTreeNode.KeyNum, zBTreeNode.Key] at hcs hmax
        subst hcs
        rw [shape_zero]
        simp only [zBTreeNode.pChild, zBTreeNode.KeyNum, zBTreeNode.Key, zBTreeNode.removeChild]
        simp at hmax
        exact ⟨by simp, by simp, by omega⟩
      | succ m =>
        obtain ⟨hl, -, hmax, hch⟩ := shape_succ.1 hsh
        simp only [zBTreeNode.pChild, zBTreeNode.KeyNum, zBTreeNode.Key] at hl hmax hch
        cases rcc with
        | nil => simp at hl
        | cons moved rcc' =>
          rw [shape_succ]
          simp only [zBTreeNode.pChild, zBTreeNode.KeyNum, zBTreeNode.Key, zBTreeNode.removeChild]
          simp at hl hmax
          refine ⟨by simp; omega, by simp, by omega, ?_⟩
          intro c hc
          simp at hc
          exact hch c (by simp [hc])
    · refine ⟨?_, ?_⟩
      · intro hn
        subst hn
        obtain ⟨hcs, -, -⟩ := shape_zero.1 hsh
        simp only [zBTreeNode.pChild] at hcs
        subst hcs
        simp [inorder_leaf, zBTreeNode.removeChild]
      · intro m hn
        subst hn
        obtain ⟨hl, -, hmax, hch⟩ := shape_succ.1 hsh
        simp only [zBTreeNode.pChild, zBTreeNode.KeyNum, zBTreeNode.Key] at hl hmax hch
        cases rcc with
        | nil => simp at hl
        | cons moved rcc' =>
          refine ⟨moved, rcc', rfl, hch moved (by simp), ?_⟩
          simp [inorder_mk, interleave, zBTreeNode.removeChild]

omit [LinearOrder K] in
@[simp] theorem Key_mk (s : Nat) (ks : List (DATA_NODE K V)) (cs : List (zBTreeNode K V)) :
    (zBTreeNode.mk s ks cs).Key = ks := rfl

omit [LinearOrder K] in
@[simp] theorem pChild_mk (s : Nat) (ks : List (DATA_NODE K V)) (cs : List (zBTreeNode K V)) :
    (zBTreeNode.mk s ks cs).pChild = cs := rfl

omit [LinearOrder K] in
@[simp] theorem slot_mk (s : Nat) (ks : List (DATA_NODE K V)) (cs : List (zBTreeNode K V)) :
    (zBTreeNode.mk s ks cs).slot = s := rfl

omit [LinearOrder K] in
@[simp] theorem KeyNum_mk (s : Nat) (ks : List (DATA_NODE K V)) (cs : List (zBTreeNode K V)) :
    (zBTreeNode.mk s ks cs).KeyNum = ks.length := rfl

omit [LinearOrder K] in
theorem inorder_split2 (s : Nat) (ks1 ks2 : List (DATA_NODE K V)) (cs1 cs2 : List (zBTreeNode K V))
    (a b : zBTreeNode K V) (sep : DATA_NODE K V)
    (h1 : cs1.length = ks1.length) (h2 : cs2.length = ks2.length) :
    (zBTreeNode.mk s (ks1 ++ sep :: ks2) (cs1 ++ a :: b :: cs2)).inorder =
      glue (cs1.map zBTreeNode.inorder) ks1 ++
        ((a.inorder ++ sep :: b.inorder) ++ glueR ks2 (cs2.map zBTreeNode.inorder)) := by
  rw [inorder_split s ks1 (sep :: ks2) cs1 (b :: cs2) a h1 (by simp [h2])]
  simp [glueR]

omit [LinearOrder K] in
theorem setKey_append (ks1 ks2 : List (DATA_NODE K V)) (k x : DATA_NODE K V) (i : Nat)
    (hi : ks1.length = i) : zBTreeNode.setKey (ks1 ++ k :: ks2) i x = ks1 ++ x :: ks2 := by
  subst hi
  simp [zBTreeNode.setKey]

omit [LinearOrder K] in
theorem removeKey_append (ks1 ks2 : List (DATA_NODE K V)) (k : DATA_NODE K V) (i : Nat)
    (hi : ks1.length = i) : zBTreeNode.removeKey (ks1 ++ k :: ks2) i = ks1 ++ ks2 := by
  subst hi
  simp [zBTreeNode.removeKey]

omit [LinearOrder K] in
theorem removeChild_append (cs1 cs2 : List (zBTreeNode K V)) (c : zBTreeNode K V) (i : Nat)
    (hi : cs1.length = i) : zBTreeNode.removeChild (cs1 ++ c :: cs2) i = cs1 ++ cs2 := by
  subst hi
  simp [zBTreeNode.removeChild]

omit [LinearOrder K] in
theorem setChild_append2 (cs1 cs2 : List (zBTreeNode K V)) (a c x : zBTreeNode K V) (i : Nat)
    (hi : cs1.length = i) :
    zBTreeNode.setChild (cs1 ++ a :: c :: cs2) (i + 1) x = cs1 ++ a :: x :: cs2 := by
  have h : cs1 ++ a :: c :: cs2 = (cs1 ++ [a]) ++ c :: cs2 := by simp
  rw [h, setChild_append _ _ _ _ _ (by simp [hi])]
  simp

omit [LinearOrder K] in
theorem removeChild_append2 (cs1 cs2 : List (zBTreeNode K V)) (a c : zBTreeNode K V) (i : Nat)
    (hi : cs1.length = i) :
    zBTreeNode.removeChild (cs1 ++ a :: c :: cs2) (i + 1) = cs1 ++ a :: cs2 := by
  have h : cs1 ++ a :: c :: cs2 = (cs1 ++ [a]) ++ c :: cs2 := by simp
  rw [h, removeChild_append _ _ _ _ (by simp [hi])]
  simp

omit [LinearOrder K] in
theorem getElem?_append_mid {α : Type} (l1 l2 : List α) (x : α) (i : Nat) (hi : l1.length = i) :
    (l1 ++ x :: l2)[i]? = some x := by
  subst hi
  rw [List.getElem?_append_right (le_refl _)]
  simp

omit [LinearOrder K] in
theorem getElem?_append_mid2 {α : Type} (l1 l2 : List α) (a x : α) (i : Nat)
    (hi : l1.length = i) : (l1 ++ a :: x :: l2)[i + 1]? = some x := by
  subst hi
  rw [List.getElem?_append_right (by omega)]
  simp

omit [LinearOrder K] in
/-- `borrowLeft` keeps the traversal and restores the shape. -/
theorem borrowLeft_spec (m : Nat) (s : Nat) (ks1 ks2 : List (DATA_NODE K V)) (sep : DATA_NODE K V)
    (cs1 cs2 : List (zBTreeNode K V)) (lc q : zBTreeNode K V)
    (h1 : cs1.length = ks1.length) (_h2 : cs2.length = ks2.length)
    (hlc : lc.Shape KEY_MIN m) (hlend : KEY_MIN < lc.KeyNum)
    (hq : q.Shape (KEY_MIN - 1) m) (hq1 : q.KeyNum < KEY_MIN) :
    ∃ (up : DATA_NODE K V) (lc1 q1 : zBTreeNode K V),
      zBTreeNode.borrowLeft (.mk s (ks1 ++ sep :: ks2) (cs1 ++ lc :: q :: cs2))
        (cs1.length + 1) q lc = .mk s (ks1 ++ up :: ks2) (cs1 ++ lc1 :: q1 :: cs2) ∧
      lc1.Shape KEY_MIN m ∧ q1.Shape KEY_MIN m ∧
      lc.inorder ++ sep :: q.inorder = lc1.inorder ++ up :: q1.inorder := by
  obtain ⟨ls, lk, lcc⟩ := lc
  obtain ⟨qs, qk, qcc⟩ := q
  simp only [zBTreeNode.KeyNum, zBTreeNode.Key, KEY_MIN_eq] at hlend hq1
  obtain ⟨up, hup, hlc1, hrest⟩ := last_split m KEY_MIN ls lk lcc hlc (by omega)
  have hsep : (ks1 ++ sep :: ks2)[cs1.length]? = some sep :=
    getElem?_append_mid _ _ _ _ h1.symm
  unfold zBTreeNode.borrowLeft
  simp only [zBTreeNode.Key, zBTreeNode.KeyNum, zBTreeNode.pChild, zBTreeNode.slot, hsep, hup,
    Nat.add_sub_cancel]
  rw [setKey_append _ _ _ _ _ h1.symm, setChild_append2 _ _ _ _ _ _ rfl,
    setChild_append _ _ _ _ _ rfl]
  cases m with
  | zero =>
    obtain ⟨hlcc, hlin⟩ := hrest.1 rfl
    subst hlcc
    obtain ⟨hqcc, hqlo, hqmax⟩ := shape_zero.1 hq
    simp only [zBTreeNode.pChild, zBTreeNode.KeyNum, zBTreeNode.Key] at hqcc hqlo hqmax
    subst hqcc
    refine ⟨up, _, _, rfl, ?_, ?_, ?_⟩
    · exact shape_lo hlc1 (by simp [zBTreeNode.KeyNum, zBTreeNode.Key, KEY_MIN_eq]; omega)
    · rw [shape_zero]
      simp [zBTreeNode.pChild, zBTreeNode.KeyNum, zBTreeNode.Key, zBTreeNode.insertKey,
        KEY_MIN_eq, KEY_MAX_eq] at hqlo ⊢
      omega
    · rw [hlin]
      simp [inorder_leaf, zBTreeNode.insertKey]
  | succ m =>
    obtain ⟨moved, hmoved, hmsh, hlin⟩ := hrest.2 m rfl
    obtain ⟨hql, hqlo, hqmax, hqch⟩ := shape_succ.1 hq
    simp only [zBTreeNode.pChild, zBTreeNode.KeyNum, zBTreeNode.Key] at hql hqlo hqmax hqch
    cases qcc with
    | nil => simp at hql
    | cons c0 crest =>
      simp only [hmoved]
      refine ⟨up, _, _, rfl, ?_, ?_, ?_⟩
      · exact shape_lo hlc1 (by simp [zBTreeNode.KeyNum, zBTreeNode.Key, KEY_MIN_eq]; omega)
      · rw [shape_succ]
        simp only [zBTreeNode.pChild, zBTreeNode.KeyNum, zBTreeNode.Key, zBTreeNode.insertKey,
          zBTreeNode.insertChild, KEY_MIN_eq, KEY_MAX_eq] at hql hqlo ⊢
        simp at hql ⊢
        refine ⟨by omega, by omega, by omega, ?_⟩
        refine ⟨hmsh, hqch c0 (by simp), ?_⟩
        intro x hx
        exact hqch x (by simp [hx])
      · rw [hlin]
        simp [inorder_mk, interleave, zBTreeNode.insertKey, zBTreeNode.insertChild]

omit [LinearOrder K] in
/-- Two siblings and the key between them put into one node. -/
theorem merge_node_spec (m la lb slot : Nat) (a b : zBTreeNode K V) (sep : DATA_NODE K V)
    (ha : a.Shape la m) (hb : b.Shape lb m) (hmax : a.KeyNum + b.KeyNum + 1 ≤ KEY_MAX)
    (hmin : KEY_MIN ≤ a.KeyNum + b.KeyNum + 1) :
    (zBTreeNode.mk slot (a.Key ++ sep :: b.Key) (a.pChild ++ b.pChild)).Shape KEY_MIN m ∧
    (zBTreeNode.mk slot (a.Key ++ sep :: b.Key) (a.pChild ++ b.pChild)).inorder =
      a.inorder ++ sep :: b.inorder := by
  obtain ⟨sa, ka, ca⟩ := a
  obtain ⟨sb, kb, cb⟩ := b
  simp only [zBTreeNode.KeyNum, zBTreeNode.Key, zBTreeNode.pChild] at hmax hmin ⊢
  cases m with
  | zero =>
    obtain ⟨hca, -, -⟩ := shape_zero.1 ha
    obtain ⟨hcb, -, -⟩ := shape_zero.1 hb
    simp only [zBTreeNode.pChild] at hca hcb
    subst hca hcb
    constructor
    · rw [shape_zero]
      simp only [zBTreeNode.KeyNum, zBTreeNode.Key, zBTreeNode.pChild, List.length_append,
        List.length_cons, List.append_nil, true_and]
      omega
    · simp [inorder_leaf]
  | succ m =>
    obtain ⟨hla, -, -, hcha⟩ := shape_succ.1 ha
    obtain ⟨hlb, -, -, hchb⟩ := shape_succ.1 hb
    simp only [zBTreeNode.KeyNum, zBTreeNode.Key, zBTreeNode.pChild] at hla hlb hcha hchb
    constructor
    · rw [shape_succ]
      simp only [zBTreeNode.KeyNum, zBTreeNode.Key, zBTreeNode.pChild, List.length_append,
        List.length_cons]
      refine ⟨by omega, by omega, by omega, ?_⟩
      intro c hc
      rcases List.mem_append.1 hc with h | h
      · exact hcha c h
      · exact hchb c h
    · simp only [inorder_mk, List.map_append]
      rw [interleave_merge _ _ _ _ _ (by simp [hla])]

omit [LinearOrder K] in
/-- `borrowRight` keeps the traversal and restores the shape. -/
theorem borrowRight_spec (m : Nat) (s : Nat) (ks1 ks2 : List (DATA_NODE K V)) (sep : DATA_NODE K V)
    (cs1 cs2 : List (zBTreeNode K V)) (q rc : zBTreeNode K V)
    (h1 : cs1.length = ks1.length)
    (hrc : rc.Shape KEY_MIN m) (hlend : KEY_MIN < rc.KeyNum)
    (hq : q.Shape (KEY_MIN - 1) m) (hq1 : q.KeyNum < KEY_MIN) :
    ∃ (up : DATA_NODE K V) (q1 rc1 : zBTreeNode K V),
      zBTreeNode.borrowRight (.mk s (ks1 ++ sep :: ks2) (cs1 ++ q :: rc :: cs2))
        cs1.length q rc = .mk s (ks1 ++ up :: ks2) (cs1 ++ q1 :: rc1 :: cs2) ∧
      q1.Shape KEY_MIN m ∧ rc1.Shape KEY_MIN m ∧
      q.inorder ++ sep :: rc.inorder = q1.inorder ++ up :: rc1.inorder := by
  obtain ⟨rs, rk, rcc⟩ := rc
  obtain ⟨qs, qk, qcc⟩ := q
  simp only [zBTreeNode.KeyNum, zBTreeNode.Key, KEY_MIN_eq] at hlend hq1
  obtain ⟨up, rest, hrk, hrc1, hrest⟩ := first_split m KEY_MIN rs rk rcc hrc (by omega)
  subst hrk
  have hsep : (ks1 ++ sep :: ks2)[cs1.length]? = some sep :=
    getElem?_append_mid _ _ _ _ h1.symm
  unfold zBTreeNode.borrowRight
  simp only [zBTreeNode.Key, zBTreeNode.KeyNum, zBTreeNode.pChild, zBTreeNode.slot, hsep]
  rw [setKey_append _ _ _ _ _ h1.symm, setChild_append _ _ _ _ _ rfl,
    setChild_append2 _ _ _ _ _ _ rfl]
  have hrk0 : zBTreeNode.removeKey (up :: rest) 0 = rest := by simp [zBTreeNode.removeKey]
  rw [hrk0]
  simp only [List.length_cons] at hlend hrc1
  cases m with
  | zero =>
    obtain ⟨hrcc, hrin⟩ := hrest.1 rfl
    subst hrcc
    obtain ⟨hqcc, hqlo, hqmax⟩ := shape_zero.1 hq
    simp only [zBTreeNode.pChild, zBTreeNode.KeyNum, zBTreeNode.Key] at hqcc hqlo hqmax
    subst hqcc
    refine ⟨up, _, _, rfl, ?_, ?_, ?_⟩
    · rw [shape_zero]
      simp [zBTreeNode.pChild, zBTreeNode.KeyNum, zBTreeNode.Key, KEY_MIN_eq, KEY_MAX_eq] at hqlo ⊢
      omega
    · exact shape_lo hrc1 (by simp [zBTreeNode.KeyNum, zBTreeNode.Key, KEY_MIN_eq]; omega)
    · rw [hrin]
      simp [inorder_leaf]
  | succ m =>
    obtain ⟨moved, rcc', hrcc, hmsh, hrin⟩ := hrest.2 m rfl
    subst hrcc
    obtain ⟨hql, hqlo, hqmax, hqch⟩ := shape_succ.1 hq
    simp only [zBTreeNode.pChild, zBTreeNode.KeyNum, zBTreeNode.Key] at hql hqlo hqmax hqch
    refine ⟨up, _, _, rfl, ?_, ?_, ?_⟩
    · rw [shape_succ]
      simp only [zBTreeNode.pChild, zBTreeNode.KeyNum, zBTreeNode.Key, KEY_MIN_eq, KEY_MAX_eq,
        List.length_append, List.length_cons, List.length_nil] at hql hqlo ⊢
      refine ⟨by omega, by omega, by omega, ?_⟩
      intro x hx
      rcases List.mem_append.1 hx with h | h
      · exact hqch x h
      · simp at h; subst h; exact hmsh
    · exact shape_lo hrc1 (by simp [zBTreeNode.KeyNum, zBTreeNode.Key, KEY_MIN_eq]; omega)
    · rw [hrin]
      simp only [inorder_mk, List.map_append, List.map_cons, List.map_nil]
      rw [interleave_snoc _ _ _ _ (by simp [hql])]
      simp

omit [LinearOrder K] in
/-- `mergeLeft` keeps the traversal; the parent loses one key and one child. -/
theorem mergeLeft_spec (m : Nat) (s : Nat) (ks1 ks2 : List (DATA_NODE K V)) (sep : DATA_NODE K V)
    (cs1 cs2 : List (zBTreeNode K V)) (lc q : zBTreeNode K V)
    (h1 : cs1.length = ks1.length)
    (hlc : lc.Shape KEY_MIN m) (hlend : ¬ KEY_MIN < lc.KeyNum)
    (hq : q.Shape (KEY_MIN - 1) m) (hq1 : q.KeyNum < KEY_MIN) :
    ∃ (lc1 : zBTreeNode K V),
      zBTreeNode.mergeLeft (.mk s (ks1 ++ sep :: ks2) (cs1 ++ lc :: q :: cs2))
        (cs1.length + 1) q lc = .mk s (ks1 ++ ks2) (cs1 ++ lc1 :: cs2) ∧
      lc1.Shape KEY_MIN m ∧ lc.inorder ++ sep :: q.inorder = lc1.inorder := by
  have hsep : (ks1 ++ sep :: ks2)[cs1.length]? = some sep :=
    getElem?_append_mid _ _ _ _ h1.symm
  unfold zBTreeNode.mergeLeft
  simp only [zBTreeNode.Key, zBTreeNode.pChild, zBTreeNode.slot, Nat.add_sub_cancel, hsep]
  rw [removeKey_append _ _ _ _ h1.symm, setChild_append _ _ _ _ _ rfl,
    removeChild_append2 _ _ _ _ _ rfl]
  have hlk := shape_keynum hlc
  have hqk := shape_keynum hq
  simp only [KEY_MIN_eq, KEY_MAX_eq] at hlk hqk hlend hq1
  obtain ⟨hs, hin⟩ := merge_node_spec m _ _ lc.slot lc q sep hlc hq
    (by simp only [KEY_MAX_eq]; omega) (by simp only [KEY_MIN_eq]; omega)
  exact ⟨_, rfl, hs, hin.symm⟩

omit [LinearOrder K] in
/-- `mergeRight` keeps the traversal; the parent loses one key and one child. -/
theorem mergeRight_spec (m : Nat) (s : Nat) (ks1 ks2 : List (DATA_NODE K V)) (sep : DATA_NODE K V)
    (cs1 cs2 : List (zBTreeNode K V)) (q rc : zBTreeNode K V)
    (h1 : cs1.length = ks1.length)
    (hrc : rc.Shape KEY_MIN m) (hlend : ¬ KEY_MIN < rc.KeyNum)
    (hq : q.Shape (KEY_MIN - 1) m) (hq1 : q.KeyNum < KEY_MIN) :
    ∃ (q1 : zBTreeNode K V),
      zBTreeNode.mergeRight (.mk s (ks1 ++ sep :: ks2) (cs1 ++ q :: rc :: cs2))
        cs1.length q rc = .mk s (ks1 ++ ks2) (cs1 ++ q1 :: cs2) ∧
      q1.Shape KEY_MIN m ∧ q.inorder ++ sep :: rc.inorder = q1.inorder := by
  have hsep : (ks1 ++ sep :: ks2)[cs1.length]? = some sep :=
    getElem?_append_mid _ _ _ _ h1.symm
  unfold zBTreeNode.mergeRight
  simp only [zBTreeNode.Key, zBTreeNode.pChild, zBTreeNode.slot, hsep]
  rw [removeKey_append _ _ _ _ h1.symm, setChild_append _ _ _ _ _ rfl,
    removeChild_append2 _ _ _ _ _ rfl]
  have hrk := shape_keynum hrc
  have hqk := shape_keynum hq
  simp only [KEY_MIN_eq, KEY_MAX_eq] at hrk hqk hlend hq1
  obtain ⟨hs, hin⟩ := merge_node_spec m _ _ q.slot q rc sep hq hrc
    (by simp only [KEY_MAX_eq]; omega) (by simp only [KEY_MIN_eq]; omega)
  exact ⟨_, rfl, hs, hin.symm⟩

omit [LinearOrder K] in
theorem assemble_borrow (m s : Nat) (ks1 ks2 : List (DATA_NODE K V)) (sep up : DATA_NODE K V)
    (cs1 cs2 : List (zBTreeNode K V)) (a b a1 b1 : zBTreeNode K V)
    (h1 : cs1.length = ks1.length) (h2 : cs2.length = ks2.length)
    (hch : ∀ c ∈ cs1 ++ cs2, c.Shape KEY_MIN m) (ha : a1.Shape KEY_MIN m) (hb : b1.Shape KEY_MIN m)
    (hin : a.inorder ++ sep :: b.inorder = a1.inorder ++ up :: b1.inorder) :
    FixSpec m (.mk s (ks1 ++ sep :: ks2) (cs1 ++ a :: b :: cs2))
      (.mk s (ks1 ++ up :: ks2) (cs1 ++ a1 :: b1 :: cs2)) false := by
  refine ⟨?_, ?_, ?_, ?_⟩
  · rw [inorder_split2 _ _ _ _ _ _ _ _ h1 h2, inorder_split2 _ _ _ _ _ _ _ _ h1 h2, hin]
  · simp [zBTreeNode.pChild, zBTreeNode.KeyNum, zBTreeNode.Key]; omega
  · intro c hc
    simp only [zBTreeNode.pChild, List.mem_append, List.mem_cons] at hc
    rcases hc with h | rfl | rfl | h
    · exact hch c (by simp [h])
    · exact ha
    · exact hb
    · exact hch c (by simp [h])
  · simp [zBTreeNode.KeyNum, zBTreeNode.Key]

omit [LinearOrder K] in
theorem assemble_merge (m s : Nat) (ks1 ks2 : List (DATA_NODE K V)) (sep : DATA_NODE K V)
    (cs1 cs2 : List (zBTreeNode K V)) (a b c1 : zBTreeNode K V)
    (h1 : cs1.length = ks1.length) (h2 : cs2.length = ks2.length)
    (hch : ∀ c ∈ cs1 ++ cs2, c.Shape KEY_MIN m) (hc1 : c1.Shape KEY_MIN m)
    (hin : a.inorder ++ sep :: b.inorder = c1.inorder) :
    FixSpec m (.mk s (ks1 ++ sep :: ks2) (cs1 ++ a :: b :: cs2))
      (.mk s (ks1 ++ ks2) (cs1 ++ c1 :: cs2)) true := by
  refine ⟨?_, ?_, ?_, ?_⟩
  · rw [inorder_split2 _ _ _ _ _ _ _ _ h1 h2, inorder_split _ _ _ _ _ _ h1 h2, hin]
  · simp [zBTreeNode.pChild, zBTreeNode.KeyNum, zBTreeNode.Key]; omega
  · intro c hc
    simp only [zBTreeNode.pChild, List.mem_append, List.mem_cons] at hc
    rcases hc with h | rfl | h
    · exact hch c (by simp [h])
    · exact hc1
    · exact hch c (by simp [h])
  · simp [zBTreeNode.KeyNum, zBTreeNode.Key]; omega

omit [LinearOrder K] in
theorem solveUnderflow_spec (Hp : zMemHeap H) (hp : H) (m s : Nat) (ks : List (DATA_NODE K V))
    (cs1 cs2 : List (zBTreeNode K V)) (q : zBTreeNode K V)
    (hlen : (cs1 ++ q :: cs2).length = ks.length + 1) (hk1 : 1 ≤ ks.length)
    (hch : ∀ c ∈ cs1 ++ cs2, c.Shape KEY_MIN m) (hq : q.Shape (KEY_MIN - 1) m)
    (p1 : zBTreeNode K V) (called : Bool) (hp1 : H)
    (hr : zBTreeNode.solveUnderflow Hp hp (.mk s ks (cs1 ++ q :: cs2)) cs1.length
      = (p1, called, hp1)) :
    FixSpec m (.mk s ks (cs1 ++ q :: cs2)) p1 called := by
  unfold zBTreeNode.solveUnderflow at hr
  simp only [pChild_mk, KeyNum_mk, Key_mk,
    getElem?_append_mid cs1 cs2 q _ rfl] at hr
  by_cases hqk : KEY_MIN ≤ q.KeyNum
  · simp only [hqk, if_true, Prod.mk.injEq] at hr
    obtain ⟨rfl, rfl, rfl⟩ := hr
    refine ⟨rfl, by simpa [zBTreeNode.pChild, zBTreeNode.KeyNum, zBTreeNode.Key] using hlen, ?_,
      by simp⟩
    intro c hc
    simp only [zBTreeNode.pChild, List.mem_append, List.mem_cons] at hc
    rcases hc with h | rfl | h
    · exact hch c (by simp [h])
    · exact shape_lo hq hqk
    · exact hch c (by simp [h])
  · simp only [hqk, if_false] at hr
    have hq1 : q.KeyNum < KEY_MIN := by omega
    obtain ⟨ks1, ks2, hks, hl1⟩ : ∃ ks1 ks2, ks = ks1 ++ ks2 ∧ ks1.length = cs1.length :=
      ⟨ks.take cs1.length, ks.drop cs1.length, by simp, by simp at hlen ⊢; omega⟩
    subst hks
    have hl2 : cs2.length = ks2.length := by simp at hlen; omega
    rcases List.eq_nil_or_concat cs1 with hnil | ⟨cs1', lc, hcc⟩
    · subst hnil
      have hks1 : ks1 = [] := List.length_eq_zero.1 (by simpa using hl1)
      subst hks1
      cases ks2 with
      | nil => simp at hk1
      | cons sep ks2' =>
        cases cs2 with
        | nil => simp at hl2
        | cons rc cs2' =>
          have hrc : rc.Shape KEY_MIN m := hch rc (by simp)
          simp only [List.length_nil, Nat.lt_irrefl, if_false, List.nil_append,
            List.length_cons, Nat.zero_lt_succ, if_true, Nat.zero_add,
            List.getElem?_cons_succ, List.getElem?_cons_zero] at hr
          by_cases hlend : KEY_MIN < rc.KeyNum
          · simp only [hlend, if_true, Prod.mk.injEq] at hr
            obtain ⟨rfl, rfl, rfl⟩ := hr
            obtain ⟨up, q1, rc1, heq, hs1, hs2, hin⟩ := borrowRight_spec m s [] ks2' sep []
              cs2' q rc rfl hrc hlend hq hq1
            simp only [List.nil_append, List.length_nil] at heq
            rw [heq]
            exact assemble_borrow m s [] ks2' sep up [] cs2' q rc q1 rc1 rfl
              (by simpa using hl2) (fun c hc => hch c (by simp at hc ⊢; exact Or.inr hc)) hs1 hs2 hin
          · simp only [hlend, if_false, Prod.mk.injEq] at hr
            obtain ⟨rfl, rfl, rfl⟩ := hr
            obtain ⟨q1, heq, hs1, hin⟩ := mergeRight_spec m s [] ks2' sep []
              cs2' q rc rfl hrc hlend hq hq1
            simp only [List.nil_append, List.length_nil] at heq
            rw [heq]
            exact assemble_merge m s [] ks2' sep [] cs2' q rc q1 rfl
              (by simpa using hl2) (fun c hc => hch c (by simp at hc ⊢; exact Or.inr hc)) hs1 hin
    · rw [List.concat_eq_append] at hcc
      subst hcc
      have hlc : lc.Shape KEY_MIN m := hch lc (by simp)
      rcases List.eq_nil_or_concat ks1 with hnil | ⟨ks1', sep, hkc⟩
      · subst hnil; simp at hl1
      · rw [List.concat_eq_append] at hkc
        subst hkc
        have hl1' : cs1'.length = ks1'.length := by simp at hl1; omega
        have hpos : 0 < (cs1' ++ [lc]).length := by simp
        have hgl : (cs1' ++ [lc] ++ q :: cs2)[(cs1' ++ [lc]).length - 1]? = some lc := by
          have : cs1' ++ [lc] ++ q :: cs2 = cs1' ++ lc :: q :: cs2 := by simp
          rw [this]
          exact getElem?_append_mid _ _ _ _ (by simp)
        simp only [hpos, if_true, hgl] at hr
        have hchs : ∀ c ∈ cs1' ++ cs2, c.Shape KEY_MIN m := fun c hc =>
          hch c (by
            simp only [List.mem_append, List.mem_singleton] at hc ⊢
            rcases hc with h | h
            · exact Or.inl (Or.inl h)
            · exact Or.inr h)
        have hform : zBTreeNode.mk s (ks1' ++ [sep] ++ ks2) (cs1' ++ [lc] ++ q :: cs2) =
            zBTreeNode.mk s (ks1' ++ sep :: ks2) (cs1' ++ lc :: q :: cs2) := by simp
        have hn : (cs1' ++ [lc]).length = cs1'.length + 1 := by simp
        cases cs2 with
        | nil =>
          have hks2 : ks2 = [] := List.length_eq_zero.1 (by simpa using hl2.symm)
          subst hks2
          have hnlt : ¬ (cs1' ++ [lc]).length < (ks1' ++ [sep] ++ []).length := by
            simp [hl1']
          simp only [hnlt, if_false] at hr
          by_cases hlend : KEY_MIN < lc.KeyNum
          · simp only [hlend, if_true, Prod.mk.injEq] at hr
            obtain ⟨rfl, rfl, rfl⟩ := hr
            obtain ⟨up, lc1, q1, heq, hs1, hs2, hin⟩ := borrowLeft_spec m s ks1' [] sep cs1'
              [] lc q hl1' rfl hlc hlend hq hq1
            rw [hform, hn, heq]
            exact assemble_borrow m s ks1' [] sep up cs1' [] lc q lc1 q1 hl1' rfl hchs hs1 hs2 hin
          · simp only [hlend, if_false, Prod.mk.injEq] at hr
            obtain ⟨rfl, rfl, rfl⟩ := hr
            obtain ⟨lc1, heq, hs1, hin⟩ := mergeLeft_spec m s ks1' [] sep cs1'
              [] lc q hl1' hlc hlend hq hq1
            rw [hform, hn, heq]
            exact assemble_merge m s ks1' [] sep cs1' [] lc q lc1 hl1' rfl hchs hs1 hin
        | cons rc cs2' =>
          cases ks2 with
          | nil => simp at hl2
          | cons sep2 ks2' =>
            have hrc : rc.Shape KEY_MIN m := hch rc (by simp)
            have hlt : (cs1' ++ [lc]).length < (ks1' ++ [sep] ++ sep2 :: ks2').length := by
              simp [hl1']
            have hgr : (cs1' ++ [lc] ++ q :: rc :: cs2')[(cs1' ++ [lc]).length + 1]? = some rc :=
              getElem?_append_mid2 _ _ _ _ _ rfl
            simp only [hlt, if_true, hgr] at hr
            have hl2' : cs2'.length = ks2'.length := by simpa using hl2
            by_cases hlend : KEY_MIN < lc.KeyNum
            · simp only [hlend, if_true, Prod.mk.injEq] at hr
              obtain ⟨rfl, rfl, rfl⟩ := hr
              obtain ⟨up, lc1, q1, heq, hs1, hs2, hin⟩ := borrowLeft_spec m s ks1' (sep2 :: ks2')
                sep cs1' (rc :: cs2') lc q hl1' (by simp [hl2']) hlc hlend hq hq1
              rw [hform, hn, heq]
              exact assemble_borrow m s ks1' _ sep up cs1' _ lc q lc1 q1 hl1' (by simp [hl2'])
                hchs hs1 hs2 hin
            · simp only [hlend, if_false] at hr
              by_cases hrend : KEY_MIN < rc.KeyNum
              · simp only [hrend, if_true, Prod.mk.injEq] at hr
                obtain ⟨rfl, rfl, rfl⟩ := hr
                obtain ⟨up, q1, rc1, heq, hs1, hs2, hin⟩ := borrowRight_spec m s (ks1' ++ [sep])
                  ks2' sep2 (cs1' ++ [lc]) cs2' q rc (by simp [hl1']) hrc hrend hq hq1
                rw [heq]
                exact assemble_borrow m s _ ks2' sep2 up _ cs2' q rc q1 rc1 (by simp [hl1']) hl2'
                  (fun c hc => hch c (by
                    simp only [List.mem_append, List.mem_singleton, List.mem_cons] at hc ⊢
                    tauto)) hs1 hs2 hin
              · simp only [hrend, if_false, Prod.mk.injEq] at hr
                obtain ⟨rfl, rfl, rfl⟩ := hr
                obtain ⟨lc1, heq, hs1, hin⟩ := mergeLeft_spec m s ks1' (sep2 :: ks2') sep cs1'
                  (rc :: cs2') lc q hl1' hlc hlend hq hq1
                rw [hform, hn, heq]
                exact assemble_merge m s ks1' _ sep cs1' _ lc q lc1 hl1' (by simp [hl2'])
                  hchs hs1 hin

omit [LinearOrder K] in
theorem removeMinAt_eq [LinearOrder K] (Hp : zMemHeap H) (hp : H) (cs : List (zBTreeNode K V)) (i : Nat) :
    zBTreeNode.removeMinAt Hp hp cs i =
      match cs[i]? with
      | none => none
      | some c => zBTreeNode.removeMin Hp hp c := by
  induction cs generalizing i with
  | nil => simp [zBTreeNode.removeMinAt]
  | cons c cs ih =>
    cases i with
    | zero => simp [zBTreeNode.removeMinAt]
    | succ i => simp [zBTreeNode.removeMinAt, ih]

theorem removeAt_eq (Hp : zMemHeap H) (key : K) (h : Nat) (hp : H) (cs : List (zBTreeNode K V))
    (i : Nat) (c : zBTreeNode K V) (hc : cs[i]? = some c) (ret : Option (DATA_NODE K V))
    (c1 : zBTreeNode K V) (called : Bool) (hp1 : H)
    (hrr : zBTreeNode.removeRec Hp key h hp c = (ret, c1, called, hp1)) :
    zBTreeNode.removeAt Hp key h hp cs i = ret.map (fun e => (e, c1, called, hp1)) := by
  induction cs generalizing i with
  | nil => simp at hc
  | cons c' cs ih =>
    cases i with
    | zero =>
      simp only [List.getElem?_cons_zero, Option.some.injEq] at hc
      subst hc
      cases ret <;> simp [zBTreeNode.removeAt, hrr]
    | succ i =>
      simp only [List.getElem?_cons_succ] at hc
      simp [zBTreeNode.removeAt, ih i hc]

omit [LinearOrder K] in
theorem shape_of_fix {m lo : Nat} {p p2 : zBTreeNode K V} {called : Bool}
    (hf : FixSpec m p p2 called) (hlo : lo ≤ p.KeyNum) (hmax : p.KeyNum ≤ KEY_MAX) :
    p2.Shape (lo - 1) (m + 1) ∧ (called = false → p2.Shape lo (m + 1)) := by
  obtain ⟨-, hl, hch, hk⟩ := hf
  constructor
  · rw [shape_succ]
    refine ⟨hl, ?_, ?_, hch⟩
    · split at hk <;> omega
    · split at hk <;> omega
  · intro hc
    subst hc
    simp only [Bool.false_eq_true, if_false, Nat.add_zero] at hk
    rw [shape_succ]
    exact ⟨hl, by omega, by omega, hch⟩

omit [LinearOrder K] in
theorem afterChild_spec [LinearOrder K] (Hp : zMemHeap H) (hp : H) (m s : Nat) (ks : List (DATA_NODE K V))
    (cs1 cs2 : List (zBTreeNode K V)) (q : zBTreeNode K V) (c0 : Bool)
    (hlen : (cs1 ++ q :: cs2).length = ks.length + 1) (hk1 : 1 ≤ ks.length)
    (hch : ∀ c ∈ cs1 ++ cs2, c.Shape KEY_MIN m) (hq : q.Shape (KEY_MIN - 1) m)
    (hq0 : c0 = false → q.Shape KEY_MIN m)
    (p1 : zBTreeNode K V) (called : Bool) (hp1 : H)
    (hr : zBTreeNode.afterChild Hp hp (.mk s ks (cs1 ++ q :: cs2)) cs1.length c0
      = (p1, called, hp1)) :
    FixSpec m (.mk s ks (cs1 ++ q :: cs2)) p1 called := by
  unfold zBTreeNode.afterChild at hr
  cases c0 with
  | true =>
    simp only [if_true] at hr
    exact solveUnderflow_spec Hp hp m s ks cs1 cs2 q hlen hk1 hch hq p1 called hp1 hr
  | false =>
    simp only [Bool.false_eq_true, if_false, Prod.mk.injEq] at hr
    obtain ⟨rfl, rfl, rfl⟩ := hr
    refine ⟨rfl, by simpa using hlen, ?_, by simp⟩
    intro c hc
    simp only [pChild_mk, List.mem_append, List.mem_cons] at hc
    rcases hc with h | rfl | h
    · exact hch c (by simp [h])
    · exact hq0 rfl
    · exact hch c (by simp [h])

omit [LinearOrder K] in
theorem removeMin_spec [LinearOrder K] (Hp : zMemHeap H) :
    ∀ (m lo : Nat) (p : zBTreeNode K V) (hp : H), p.Shape lo m → 1 ≤ lo →
      ∃ k p1 called hp1, zBTreeNode.removeMin Hp hp p = some (k, p1, called, hp1) ∧
        p.inorder = k :: p1.inorder ∧ p1.Shape (lo - 1) m ∧ (called = false → p1.Shape lo m) := by
  intro m
  induction m with
  | zero =>
    intro lo p hp hsh hlo
    obtain ⟨s, ks, cs⟩ := p
    obtain ⟨hcs, hl, hmax⟩ := shape_zero.1 hsh
    simp only [pChild_mk, KeyNum_mk] at hcs hl hmax
    subst hcs
    cases ks with
    | nil => simp at hl; omega
    | cons k rest =>
      refine ⟨k, .mk s rest [], true, hp, by simp [zBTreeNode.removeMin], by simp [inorder_leaf],
        ?_, by simp⟩
      rw [shape_zero]
      simp only [pChild_mk, KeyNum_mk, List.length_cons] at hl hmax ⊢
      exact ⟨trivial, by omega, by omega⟩
  | succ m ih =>
    intro lo p hp hsh hlo
    obtain ⟨s, ks, cs⟩ := p
    obtain ⟨hlen, hl, hmax, hch⟩ := shape_succ.1 hsh
    simp only [pChild_mk, KeyNum_mk] at hlen hl hmax hch
    cases cs with
    | nil => simp at hlen
    | cons c cs' =>
      obtain ⟨k, c1, called, hp1, hrm, hin, hs1, hs2⟩ :=
        ih KEY_MIN c hp (hch c (by simp)) (by simp [KEY_MIN_eq])
      cases hac : zBTreeNode.afterChild Hp hp1 (.mk s ks (c1 :: cs')) 0 called with
      | mk p2 rest =>
        obtain ⟨called2, hp2⟩ := rest
        have hfix := afterChild_spec Hp hp1 m s ks [] cs' c1 called (by simpa using hlen)
          (by omega) (fun x hx => hch x (by simp at hx; simp [hx])) hs1 hs2 p2 called2 hp2
          (by simpa using hac)
        obtain ⟨hsh1, hsh2⟩ := @shape_of_fix K V _ (lo) _ _ _ hfix (by simpa using hl)
          (by simpa using hmax)
        refine ⟨k, p2, called2, hp2, ?_, ?_, hsh1, hsh2⟩
        · simp [zBTreeNode.removeMin, hrm, hac]
        · rw [hfix.1]
          cases ks with
          | nil => simp at hl; omega
          | cons k0 ks' =>
            simp only [inorder_mk, List.map_cons, interleave, hin, List.cons_append]

omit [LinearOrder K] in
theorem split_at_key (ks : List (DATA_NODE K V)) (i : Nat) (e : DATA_NODE K V) (hi : 0 < i)
    (he : ks[i - 1]? = some e) :
    ∃ ks1 ks2, ks = ks1 ++ e :: ks2 ∧ ks1.length = i - 1 := by
  have hlt : i - 1 < ks.length := by
    by_contra hc
    rw [List.getElem?_eq_none (by omega)] at he
    simp at he
  refine ⟨ks.take (i - 1), ks.drop i, ?_, by simp; omega⟩
  have h1 : ks.drop (i - 1) = e :: ks.drop i := by
    rw [List.drop_eq_getElem_cons hlt]
    have : ks[i - 1] = e := by
      rw [List.getElem?_eq_getElem hlt] at he
      simpa using he
    rw [this]
    congr 2
    omega
  rw [← h1, List.take_append_drop]

theorem removeRec_spec (Hp : zMemHeap H) (key : K) (h : Nat) :
    ∀ (m lo : Nat) (p : zBTreeNode K V) (hp : H), p.Shape lo m → (m = 0 ∨ 1 ≤ lo) →
      (zBTreeNode.Search key h p = none →
        zBTreeNode.removeRec Hp key h hp p = (none, p, false, hp)) ∧
      (∀ e, zBTreeNode.Search key h p = some e → ∃ p1 called hp1,
        zBTreeNode.removeRec Hp key h hp p = (some e, p1, called, hp1) ∧
          RemSpec lo m e p p1 called) := by
  intro m
  induction m with
  | zero =>
    intro lo p hp hsh _
    obtain ⟨s, ks, cs⟩ := p
    obtain ⟨hcs, hl, hmax⟩ := shape_zero.1 hsh
    simp only [pChild_mk, KeyNum_mk] at hcs hl hmax
    subst hcs
    rw [Search_mk, zBTreeNode.removeRec]
    cases hf : zBTreeNode.foundAt ks (zBTreeNode.searchKey key h ks) key h with
    | none =>
      simp [zBTreeNode.removeAt]
    | some e =>
      simp only [Option.some.injEq, false_implies, true_and, forall_eq', reduceCtorEq]
      obtain ⟨hi, hget, -⟩ := foundAt_some hf
      obtain ⟨ks1, ks2, hks, hl1⟩ := split_at_key ks _ e hi hget
      subst hks
      have hrk : zBTreeNode.removeKey (ks1 ++ e :: ks2)
          (zBTreeNode.searchKey key h (ks1 ++ e :: ks2) - 1) = ks1 ++ ks2 :=
        removeKey_append _ _ _ _ hl1
      refine ⟨_, _, _, rfl, ⟨ks1, ks2, ?_, ?_⟩, ?_, by simp⟩
      · rw [inorder_leaf]
      · rw [inorder_leaf, hrk]
      · rw [shape_zero]
        simp only [pChild_mk, KeyNum_mk, true_and]
        rw [hrk]
        simp only [List.length_append, List.length_cons] at hl hmax ⊢
        omega
  | succ m ih =>
    intro lo p hp hsh hlo1
    have hlo : 1 ≤ lo := by omega
    obtain ⟨s, ks, cs⟩ := p
    obtain ⟨hlen, hl, hmax, hch⟩ := shape_succ.1 hsh
    simp only [pChild_mk, KeyNum_mk] at hlen hl hmax hch
    rw [Search_mk, zBTreeNode.removeRec]
    have hile := searchKey_le key h ks
    cases hf : zBTreeNode.foundAt ks (zBTreeNode.searchKey key h ks) key h with
    | some e =>
      simp only [Option.some.injEq, false_implies, true_and, forall_eq', reduceCtorEq]
      obtain ⟨hi, hget, -⟩ := foundAt_some hf
      obtain ⟨ks1, ks2, hks, hl1⟩ := split_at_key ks _ e hi hget
      -- the children around the key
      obtain ⟨cs0, a, rest, hcs, hl0⟩ : ∃ cs0 a rest, cs = cs0 ++ a :: rest ∧
          cs0.length = ks1.length := by
        have hlt : ks1.length < cs.length := by
          rw [hks] at hlen; simp at hlen; omega
        exact ⟨cs.take ks1.length, cs[ks1.length], cs.drop (ks1.length + 1),
          by rw [← List.drop_eq_getElem_cons hlt, List.take_append_drop], by simp; omega⟩
      cases rest with
      | nil => rw [hcs, hks] at hlen; simp at hlen; omega
      | cons c cs2 =>
        have hidx : zBTreeNode.searchKey key h ks = cs0.length + 1 := by omega
        have hl2 : cs2.length = ks2.length := by
          rw [hcs, hks] at hlen; simp at hlen; omega
        subst hks hcs
        have hcsh : c.Shape KEY_MIN m := hch c (by simp)
        obtain ⟨succ, c1, called, hp1, hrm, hin, hs1, hs2⟩ :=
          removeMin_spec Hp m KEY_MIN c hp hcsh (by simp [KEY_MIN_eq])
        have hne : ∃ x xs, cs0 ++ a :: c :: cs2 = x :: xs := by
          cases cs0 with
          | nil => exact ⟨_, _, rfl⟩
          | cons x xs => exact ⟨_, _, rfl⟩
        obtain ⟨x, xs, hx⟩ := hne
        have hrm' : zBTreeNode.removeMinAt Hp hp (cs0 ++ a :: c :: cs2)
            (zBTreeNode.searchKey key h (ks1 ++ e :: ks2)) = some (succ, c1, called, hp1) := by
          rw [removeMinAt_eq, hidx, getElem?_append_mid2 _ _ _ _ _ rfl]
          exact hrm
        have hidx' : zBTreeNode.searchKey key h (ks1 ++ e :: ks2) - 1 = ks1.length := by omega
        cases hac : zBTreeNode.afterChild Hp hp1
            (.mk s (ks1 ++ succ :: ks2) (cs0 ++ [a] ++ c1 :: cs2)) (cs0 ++ [a]).length called with
        | mk p2 rest =>
          obtain ⟨called2, hp2⟩ := rest
          have hfix := afterChild_spec Hp hp1 m s (ks1 ++ succ :: ks2) (cs0 ++ [a]) cs2 c1 called
            (by simp at hlen ⊢; omega) (by simp only [List.length_append, List.length_cons]; omega)
            (fun y hy => hch y (by
              simp only [List.mem_append, List.mem_singleton, List.mem_cons] at hy ⊢
              tauto)) hs1 hs2 p2 called2 hp2 hac
          obtain ⟨hsh1, hsh2⟩ := @shape_of_fix K V _ lo _ _ _ hfix
            (by simp at hl ⊢; omega) (by simp at hmax ⊢; omega)
          refine ⟨p2, called2, hp2, ?_, ⟨glue (cs0.map zBTreeNode.inorder) ks1 ++ a.inorder,
            succ :: c1.inorder ++ glueR ks2 (cs2.map zBTreeNode.inorder), ?_, ?_⟩, hsh1, hsh2⟩
          · rw [hx] at hrm' ⊢
            simp only [hrm']
            rw [← hx, hidx', hidx, setKey_append _ _ _ _ _ rfl, setChild_append2 _ _ _ _ _ _ rfl]
            have : cs0 ++ a :: c1 :: cs2 = cs0 ++ [a] ++ c1 :: cs2 := by simp
            rw [this]
            have hn : cs0.length + 1 = (cs0 ++ [a]).length := by simp
            rw [hn, hac]
          · rw [inorder_split2 _ _ _ _ _ _ _ _ hl0 hl2, hin]
            simp
          · rw [hfix.1]
            have : cs0 ++ [a] ++ c1 :: cs2 = cs0 ++ a :: c1 :: cs2 := by simp
            rw [this, inorder_split2 _ _ _ _ _ _ _ _ hl0 hl2]
            simp
    | none =>
      simp only
      obtain ⟨ks1, ks2, cs1, c, cs2, hks, hcs, hl1, hl2, hl3⟩ :=
        decomp_at ks cs (zBTreeNode.searchKey key h ks) hlen hile
      have hget : cs[zBTreeNode.searchKey key h ks]? = some c := by
        rw [hcs]; exact getElem?_append_mid _ _ _ _ hl2
      have hcsh : c.Shape KEY_MIN m := hch c (by rw [hcs]; simp)
      obtain ⟨ihn, ihs⟩ := ih KEY_MIN c hp hcsh (Or.inr (by simp [KEY_MIN_eq]))
      rw [hget]
      simp only [Option.some_bind]
      constructor
      · intro hsn
        rw [removeAt_eq Hp key h hp cs _ c hget _ _ _ _ (ihn hsn)]
        simp
      · intro e hse
        obtain ⟨c1, called, hp1, hrr, ⟨A, B, hA, hB⟩, hs1, hs2⟩ := ihs e hse
        rw [removeAt_eq Hp key h hp cs _ c hget _ _ _ _ hrr]
        simp only [Option.map_some']
        have hl12 : cs1.length = ks1.length := by omega
        cases hac : zBTreeNode.afterChild Hp hp1 (.mk s ks (cs1 ++ c1 :: cs2)) cs1.length called with
        | mk p2 rest =>
          obtain ⟨called2, hp2⟩ := rest
          have hfix := afterChild_spec Hp hp1 m s ks cs1 cs2 c1 called
            (by rw [hcs] at hlen; simpa using hlen) (by omega)
            (fun y hy => hch y (by
              rw [hcs]
              simp only [List.mem_append, List.mem_cons] at hy ⊢
              tauto)) hs1 hs2 p2 called2 hp2 hac
          obtain ⟨hsh1, hsh2⟩ := @shape_of_fix K V _ lo _ _ _ hfix (by simpa using hl)
            (by simpa using hmax)
          refine ⟨p2, called2, hp2, ?_, ⟨glue (cs1.map zBTreeNode.inorder) ks1 ++ A,
            B ++ glueR ks2 (cs2.map zBTreeNode.inorder), ?_, ?_⟩, hsh1, hsh2⟩
          · conv_lhs => rw [hcs]
            rw [setChild_append _ _ _ _ _ hl2, ← hl2, hac]
          · rw [hks, hcs, inorder_split _ _ _ _ _ _ hl12 hl3, hA]
            simp
          · rw [hfix.1]
            rw [hks, inorder_split _ _ _ _ _ _ hl12 hl3, hB]
            simp

omit [LinearOrder K] in
theorem rootShape_of_shape {n lo : Nat} {p : zBTreeNode K V} (h : p.Shape lo n)
    (hk : n ≠ 0 → 1 ≤ p.KeyNum) : p.RootShape n := by
  unfold zBTreeNode.RootShape
  apply shape_lo h
  by_cases hn : n = 0
  · simp [hn]
  · simp only [hn, if_false]; exact hk hn

theorem FindData_iff {t : zBTree K V} (hv : t.Valid) (key : K) (h : Nat) (e : DATA_NODE K V) :
    t.FindData key h = some e ↔ e ∈ t.toList ∧ e.h = h ∧ e.key = key := by
  obtain ⟨root, n, hroot, hsh, ho, -⟩ := hv
  simp only [zBTree.FindData, zBTree.toList, hroot]
  constructor
  · intro hs
    obtain ⟨h1, h2⟩ := Search_sound key h root e hs
    have := (kh_eq_iff h key e).2 h2.symm
    exact ⟨h1, this.1.symm, this.2.symm⟩
  · rintro ⟨h1, h2, h3⟩
    exact Search_complete key h n _ root hsh ho e h1
      ((kh_eq_iff h key e).1 ⟨h2.symm, h3.symm⟩).symm

theorem Remove_spec (Hp : zMemHeap H) (t : zBTree K V) (key : K) (h : Nat) (hp : H)
    (hv : t.Valid) :
    (t.FindData key h = none → t.Remove Hp key h hp = (none, t, hp)) ∧
    (∀ e, t.FindData key h = some e → ∃ t1 hp1, t.Remove Hp key h hp = (some e, t1, hp1) ∧
      t1.Valid ∧ (∃ A B, t.toList = A ++ e :: B ∧ t1.toList = A ++ B) ∧
      t1.Size + 1 = t.Size) := by
  obtain ⟨root, n, hroot, hsh, ho, hsz⟩ := hv
  have hspec := removeRec_spec Hp key h n _ root hp hsh
    (by by_cases hn : n = 0
        · exact Or.inl hn
        · right; simp [hn])
  simp only [zBTree.FindData, zBTree.Remove, zBTree.toList, hroot]
  constructor
  · intro hn
    rw [hspec.1 hn]
  · intro e he
    obtain ⟨root1, called, hp1, hrr, ⟨A, B, hA, hB⟩, hs1, hs2⟩ := hspec.2 e he
    rw [hrr]
    have hord : ∀ r : zBTreeNode K V, r.inorder = A ++ B → r.Ordered := by
      intro r hr
      unfold zBTreeNode.Ordered at ho ⊢
      rw [hr]; rw [hA] at ho
      exact ho.sublist (List.Sublist.append (List.Sublist.refl A) (List.sublist_cons_self e B))
    have hlen : (A ++ B).length + 1 = t.Size := by
      rw [hsz, hA]; simp; omega
    have fin : ∀ (r : zBTreeNode K V) (k : Nat) (hq : H), r.RootShape k → r.inorder = A ++ B →
        ∃ t1 hp1, (some e, ({ Size := t.Size - 1, m_pRoot := some r } : zBTree K V), hq) =
          (some e, t1, hp1) ∧ t1.Valid ∧
          (∃ A' B', root.inorder = A' ++ e :: B' ∧
            (match t1.m_pRoot with | none => [] | some root => root.inorder) = A' ++ B') ∧
          t1.Size + 1 = t.Size := by
      intro r k hq hrs hr
      refine ⟨_, _, rfl, ⟨r, k, rfl, hrs, hord r hr, ?_⟩, ⟨A, B, hA, hr⟩, ?_⟩
      · simp only; rw [hr]; omega
      · simp only; omega
    cases n with
    | zero =>
      have hrc : root.pChild = [] := (shape_zero.1 hsh).1
      rw [hrc]
      exact fin root1 0 hp1 (rootShape_of_shape hs1 (by simp)) hB
    | succ m =>
      obtain ⟨s, ks, cs⟩ := root
      obtain ⟨s1, ks1, cs1⟩ := root1
      have h0 := shape_succ.1 hsh
      have h1 := shape_succ.1 hs1
      simp only [pChild_mk, KeyNum_mk] at h0 h1 ⊢
      cases cs with
      | nil => simp at h0
      | cons c0 cs =>
        cases cs1 with
        | nil => simp at h1
        | cons c cs1 =>
          simp only
          by_cases hc : called = true ∧ ks1.length = 0
          · simp only [hc, and_self, if_true]
            have hk : ks1 = [] := List.length_eq_zero.1 hc.2
            subst hk
            have hcs : cs1 = [] := by
              have := h1.1; simp at this; exact this
            subst hcs
            have hcsh : c.Shape KEY_MIN m := h1.2.2.2 c (by simp)
            apply fin c m _ (rootShape_of_shape hcsh
              (fun _ => by have := (shape_keynum hcsh).1; rw [KEY_MIN_eq] at this; omega))
            rw [← hB, inorder_mk]
            simp [interleave]
          · simp only [hc, if_false]
            apply fin _ (m + 1) _ _ hB
            by_cases hcl : called = true
            · have : ks1.length ≠ 0 := fun h => hc ⟨hcl, h⟩
              exact rootShape_of_shape hs1 (fun _ => by simp only [KeyNum_mk]; omega)
            · have := hs2 (by simpa using hcl)
              exact rootShape_of_shape this (fun _ => by
                have := (shape_keynum this).1; simpa using this)

omit [LinearOrder K] in
theorem interleave_perm (xs : List (List (DATA_NODE K V))) (ks : List (DATA_NODE K V)) :
    (interleave xs ks).Perm (xs.flatten ++ ks) := by
  induction xs generalizing ks with
  | nil => simp [interleave]
  | cons x xs ih =>
    cases ks with
    | nil =>
      simp only [interleave, List.flatten_cons, List.append_nil]
      exact List.Perm.append_left x (by simpa using ih [])
    | cons k ks =>
      simp only [interleave, List.flatten_cons, List.append_assoc]
      apply List.Perm.append_left x
      refine List.Perm.trans (List.Perm.cons k (ih ks)) ?_
      exact (List.perm_middle).symm

omit [LinearOrder K] in
theorem getData_perm (p : zBTreeNode K V) : p.recursive_getData.Perm p.inorder := by
  apply @zBTreeNode.rec K V
    (fun p => p.recursive_getData.Perm p.inorder)
    (fun cs => (zBTreeNode.getDataList cs).Perm (cs.map zBTreeNode.inorder).flatten)
  · intro s ks cs ih
    rw [zBTreeNode.recursive_getData, inorder_mk]
    exact (List.Perm.append_right ks ih).trans (interleave_perm _ _).symm
  · simp [zBTreeNode.getDataList]
  · intro c cs ihc ihcs
    simp only [zBTreeNode.getDataList, List.map_cons, List.flatten_cons]
    exact List.Perm.append ihc ihcs

omit [LinearOrder K] in
theorem FindAllData_perm (t : zBTree K V) : t.FindAllData.Perm t.toList := by
  unfold zBTree.FindAllData zBTree.toList
  cases t.m_pRoot with
  | none => exact List.Perm.refl _
  | some r => exact getData_perm r

omit [LinearOrder K] in
theorem interleave_replace_child (xs1 xs2 : List (List (DATA_NODE K V))) :
    ∀ ks : List (DATA_NODE K V), ∃ P Q, ∀ x, interleave (xs1 ++ x :: xs2) ks = P ++ x ++ Q := by
  induction xs1 with
  | nil =>
    intro ks
    cases ks with
    | nil => exact ⟨[], interleave xs2 [], fun x => by simp [interleave]⟩
    | cons k ks => exact ⟨[], k :: interleave xs2 ks, fun x => by simp [interleave]⟩
  | cons y xs1 ih =>
    intro ks
    cases ks with
    | nil =>
      obtain ⟨P, Q, hpq⟩ := ih []
      exact ⟨y ++ P, Q, fun x => by simp [interleave, hpq]⟩
    | cons k ks =>
      obtain ⟨P, Q, hpq⟩ := ih ks
      exact ⟨y ++ k :: P, Q, fun x => by simp [interleave, hpq]⟩

omit [LinearOrder K] in
theorem interleave_replace_key (xs : List (List (DATA_NODE K V))) :
    ∀ ks1 ks2 : List (DATA_NODE K V), ∃ P Q, ∀ k,
      interleave xs (ks1 ++ k :: ks2) = P ++ k :: Q := by
  induction xs with
  | nil => intro ks1 ks2; exact ⟨ks1, ks2, fun k => by simp [interleave]⟩
  | cons x xs ih =>
    intro ks1 ks2
    cases ks1 with
    | nil => exact ⟨x, interleave xs ks2, fun k => by simp [interleave]⟩
    | cons a ks1 =>
      obtain ⟨P, Q, hpq⟩ := ih ks1 ks2
      exact ⟨x ++ a :: P, Q, fun k => by simp [interleave, hpq]⟩

theorem storeValueAt_append (key : K) (h : Nat) (v : V) (cs1 cs2 : List (zBTreeNode K V))
    (c : zBTreeNode K V) (i : Nat) (hi : cs1.length = i) :
    zBTreeNode.storeValueAt key h v (cs1 ++ c :: cs2) i =
      cs1 ++ zBTreeNode.storeValue key h v c :: cs2 := by
  subst hi
  induction cs1 with
  | nil => simp [zBTreeNode.storeValueAt]
  | cons a cs1 ih => simp [zBTreeNode.storeValueAt, ih]

theorem storeValueAt_none (key : K) (h : Nat) (v : V) (cs : List (zBTreeNode K V)) (i : Nat)
    (hi : cs[i]? = none) : zBTreeNode.storeValueAt key h v cs i = cs := by
  induction cs generalizing i with
  | nil => simp [zBTreeNode.storeValueAt]
  | cons a cs ih =>
    cases i with
    | zero => simp at hi
    | succ i =>
      simp only [List.getElem?_cons_succ] at hi
      simp [zBTreeNode.storeValueAt, ih i hi]

omit [LinearOrder K] in
theorem split_at_child (cs : List (zBTreeNode K V)) (i : Nat) (c : zBTreeNode K V)
    (hc : cs[i]? = some c) : ∃ cs1 cs2, cs = cs1 ++ c :: cs2 ∧ cs1.length = i := by
  have hlt : i < cs.length := by
    by_contra hcon
    rw [List.getElem?_eq_none (by omega)] at hc
    simp at hc
  refine ⟨cs.take i, cs.drop (i + 1), ?_, by simp; omega⟩
  have : cs[i] = c := by
    rw [List.getElem?_eq_getElem hlt] at hc
    simpa using hc
  rw [← this, ← List.drop_eq_getElem_cons hlt, List.take_append_drop]

theorem storeValue_inorder (key : K) (h : Nat) (v : V) (p : zBTreeNode K V) :
    ∀ e, zBTreeNode.Search key h p = some e → ∃ A B, p.inorder = A ++ e :: B ∧
      (p.storeValue key h v).inorder = A ++ { e with value := v } :: B := by
  apply @zBTreeNode.rec K V
    (fun p => ∀ e, zBTreeNode.Search key h p = some e → ∃ A B,
      p.inorder = A ++ e :: B ∧ (p.storeValue key h v).inorder = A ++ { e with value := v } :: B)
    (fun cs => ∀ c ∈ cs, ∀ e, zBTreeNode.Search key h c = some e → ∃ A B,
      c.inorder = A ++ e :: B ∧ (c.storeValue key h v).inorder = A ++ { e with value := v } :: B)
  · intro s ks cs ih e hs
    rw [Search_mk] at hs
    rw [zBTreeNode.storeValue]
    cases hf : zBTreeNode.foundAt ks (zBTreeNode.searchKey key h ks) key h with
    | some e' =>
      simp only [hf, Option.some.injEq] at hs
      subst hs
      obtain ⟨hi, hget, -⟩ := foundAt_some hf
      obtain ⟨ks1, ks2, hks, hl1⟩ := split_at_key ks _ _ hi hget
      simp only
      have hsk : ∀ x, zBTreeNode.setKey ks (zBTreeNode.searchKey key h ks - 1) x =
          ks1 ++ x :: ks2 := by
        intro x; rw [← hl1, hks]; exact setKey_append _ _ _ _ _ rfl
      rw [hsk]
      obtain ⟨P, Q, hpq⟩ := interleave_replace_key (inorders cs) ks1 ks2
      refine ⟨P, Q, ?_, ?_⟩
      · rw [zBTreeNode.inorder, hks, hpq]
      · rw [zBTreeNode.inorder, hpq]
    | none =>
      simp only [hf] at hs
      cases hc : cs[zBTreeNode.searchKey key h ks]? with
      | none => simp [hc] at hs
      | some c =>
        simp only [hc, Option.some_bind] at hs
        obtain ⟨cs1, cs2, hcs, hl⟩ := split_at_child cs _ c hc
        obtain ⟨A, B, hA, hB⟩ := ih c (List.getElem?_mem hc) e hs
        simp only
        conv in zBTreeNode.storeValueAt key h v cs _ =>
          rw [hcs, storeValueAt_append key h v _ _ _ _ hl]
        obtain ⟨P, Q, hpq⟩ := interleave_replace_child (cs1.map zBTreeNode.inorder)
          (cs2.map zBTreeNode.inorder) ks
        refine ⟨P ++ A, B ++ Q, ?_, ?_⟩
        · rw [inorder_mk, hcs]
          simp only [List.map_append, List.map_cons]
          rw [hpq, hA]; simp
        · rw [inorder_mk]
          simp only [List.map_append, List.map_cons]
          rw [hpq, hB]; simp
  · intro c hc
    simp at hc
  · intro c cs ihc ihcs c' hc'
    rcases List.mem_cons.1 hc' with rfl | hm
    · exact ihc
    · exact ihcs c' hm

theorem storeValue_shape (key : K) (h : Nat) (v : V) :
    ∀ (n lo : Nat) (p : zBTreeNode K V), p.Shape lo n → (p.storeValue key h v).Shape lo n := by
  intro n
  induction n with
  | zero =>
    intro lo p hsh
    obtain ⟨s, ks, cs⟩ := p
    obtain ⟨hcs, hl, hmax⟩ := shape_zero.1 hsh
    simp only [pChild_mk, KeyNum_mk] at hcs hl hmax
    subst hcs
    rw [zBTreeNode.storeValue]
    cases hf : zBTreeNode.foundAt ks (zBTreeNode.searchKey key h ks) key h with
    | some e =>
      obtain ⟨hi, hget, -⟩ := foundAt_some hf
      obtain ⟨ks1, ks2, hks, hl1⟩ := split_at_key ks _ _ hi hget
      simp only
      have hsk : ∀ x, zBTreeNode.setKey ks (zBTreeNode.searchKey key h ks - 1) x =
          ks1 ++ x :: ks2 := by
        intro x; rw [← hl1, hks]; exact setKey_append _ _ _ _ _ rfl
      rw [hsk]
      rw [shape_zero]
      subst hks
      simp only [List.length_append, List.length_cons] at hl hmax
      simpa using ⟨hl, hmax⟩
    | none =>
      simp only [zBTreeNode.storeValueAt]
      exact hsh
  | succ n ih =>
    intro lo p hsh
    obtain ⟨s, ks, cs⟩ := p
    obtain ⟨hlen, hl, hmax, hch⟩ := shape_succ.1 hsh
    simp only [pChild_mk, KeyNum_mk] at hlen hl hmax hch
    rw [zBTreeNode.storeValue]
    cases hf : zBTreeNode.foundAt ks (zBTreeNode.searchKey key h ks) key h with
    | some e =>
      obtain ⟨hi, hget, -⟩ := foundAt_some hf
      obtain ⟨ks1, ks2, hks, hl1⟩ := split_at_key ks _ _ hi hget
      simp only
      have hsk : ∀ x, zBTreeNode.setKey ks (zBTreeNode.searchKey key h ks - 1) x =
          ks1 ++ x :: ks2 := by
        intro x; rw [← hl1, hks]; exact setKey_append _ _ _ _ _ rfl
      rw [hsk]
      rw [shape_succ]
      subst hks
      simp only [pChild_mk, KeyNum_mk]
      refine ⟨by simpa using hlen, by simpa using hl, by simpa using hmax, hch⟩
    | none =>
      simp only
      cases hc : cs[zBTreeNode.searchKey key h ks]? with
      | none =>
        rw [storeValueAt_none key h v cs _ hc]
        exact hsh
      | some c =>
        obtain ⟨cs1, cs2, hcs, hl2⟩ := split_at_child cs _ c hc
        conv in zBTreeNode.storeValueAt key h v cs _ =>
          rw [hcs, storeValueAt_append key h v _ _ _ _ hl2]
        rw [shape_succ]
        subst hcs
        simp only [pChild_mk, KeyNum_mk]
        refine ⟨by simpa using hlen, hl, hmax, ?_⟩
        intro x hx
        simp only [List.mem_append, List.mem_cons] at hx
        rcases hx with hx | rfl | hx
        · exact hch x (by simp [hx])
        · exact ih _ c (hch c (by simp))
        · exact hch x (by simp [hx])

theorem tree_storeValue_spec {t : zBTree K V} (hv : t.Valid) (key : K) (h : Nat) (v : V)
    (e : DATA_NODE K V) (hf : t.FindData key h = some e) :
    (t.storeValue key h v).Valid ∧ (t.storeValue key h v).Size = t.Size ∧
      ∃ A B, t.toList = A ++ e :: B ∧
        (t.storeValue key h v).toList = A ++ { e with value := v } :: B := by
  obtain ⟨root, n, hroot, hsh, ho, hsz⟩ := hv
  simp only [zBTree.FindData, hroot] at hf
  obtain ⟨A, B, hA, hB⟩ := storeValue_inorder key h v root e hf
  have hst : t.storeValue key h v = { t with m_pRoot := some (root.storeValue key h v) } := by
    simp [zBTree.storeValue, hroot]
  rw [hst]
  refine ⟨⟨_, n, rfl, storeValue_shape key h v n _ root hsh, ?_, ?_⟩, rfl, A, B, ?_, ?_⟩
  · unfold zBTreeNode.Ordered at ho ⊢
    rw [hB]; rw [hA] at ho
    have hm : (A ++ ({ e with value := v } : DATA_NODE K V) :: B).map DATA_NODE.kh =
        (A ++ e :: B).map DATA_NODE.kh := by simp [DATA_NODE.kh]
    have h1 := (List.pairwise_map (f := DATA_NODE.kh) (R := (· < ·))).2 ho
    rw [← hm] at h1
    exact (List.pairwise_map (f := DATA_NODE.kh) (R := (· < ·))).1 h1
  · simp only; rw [hB, hsz, hA]; simp
  · simp [zBTree.toList, hroot, hA]
  · simp [zBTree.toList, hB]

theorem find_eq (s : zHash K V H) (key : K) :
    s.find key = (s.pBucket[s.pos key]?).bind (fun e => e.find (s.pHashFun key s.MaskBits) key) := by
  unfold zHash.find zHash.pos ENTRY.find
  cases s.pBucket[s.pHashFun key s.MaskBits &&& s.PosMask]? with
  | none => rfl
  | some e => rfl

theorem pos_lt {s : zHash K V H} (hw : s.WF) (key : K) : s.pos key < s.pBucket.length := by
  obtain ⟨h1, h2, h3, -⟩ := hw
  unfold zHash.pos
  have := @Nat.and_le_right (s.pHashFun key s.MaskBits) s.PosMask
  omega

theorem entry_at {s : zHash K V H} (hw : s.WF) (key : K) :
    ∃ e, s.pBucket[s.pos key]? = some e ∧ e.WF s.pHashFun s.MaskBits s.PosMask (s.pos key) := by
  have hlt := pos_lt hw key
  exact ⟨s.pBucket[s.pos key], List.getElem?_eq_getElem hlt,
    hw.2.2.2 _ _ (List.getElem?_eq_getElem hlt)⟩

omit [LinearOrder K] in
theorem mem_allNodes {s : zHash K V H} {d : DATA_NODE K V} :
    d ∈ s.allNodes ↔ ∃ (i : Nat) (e : ENTRY K V), s.pBucket[i]? = some e ∧ d ∈ e.nodes := by
  unfold zHash.allNodes
  simp only [List.mem_flatten, List.mem_map]
  constructor
  · rintro ⟨l, ⟨e, he, rfl⟩, hd⟩
    obtain ⟨i, hi⟩ := List.getElem?_of_mem he
    exact ⟨i, e, hi, hd⟩
  · rintro ⟨i, e, hi, hd⟩
    exact ⟨_, ⟨e, List.getElem?_mem hi, rfl⟩, hd⟩

theorem entry_hashed {hf : K → Nat → Nat} {m mask i : Nat} {e : ENTRY K V}
    (hw : e.WF hf m mask i) : Hashed hf m mask i e.nodes := hw.1

theorem ordered_distinct {hf : K → Nat → Nat} {m mask i : Nat} {l : List (DATA_NODE K V)}
    (hh : Hashed hf m mask i l) (ho : l.Pairwise (fun a b => a.kh < b.kh)) : DistinctKeys l := by
  unfold DistinctKeys
  refine List.Pairwise.imp_of_mem ?_ ho
  intro a b ha hb hlt heq
  have h1 := (hh a ha).1
  have h2 := (hh b hb).1
  have : a.kh = b.kh := by
    unfold DATA_NODE.kh
    rw [h1, h2, heq]
  exact absurd hlt (by rw [this]; exact lt_irrefl _)

theorem entry_distinct {hf : K → Nat → Nat} {m mask i : Nat} {e : ENTRY K V}
    (hw : e.WF hf m mask i) : DistinctKeys e.nodes := by
  obtain ⟨hh, hm⟩ := hw
  unfold ENTRY.nodes at hh ⊢
  cases hp : e.p with
  | null => simp [DistinctKeys]
  | list f r =>
    simp only [hp] at hm hh ⊢
    exact hm.2
  | tree t =>
    simp only [hp] at hm hh ⊢
    obtain ⟨-, ⟨root, n, hroot, -, ho, -⟩, -⟩ := hm
    simp only [zBTree.toList, hroot] at hh ⊢
    exact ordered_distinct hh ho

omit [LinearOrder K] in
theorem listFind_some {h : Nat} {key : K} [DecidableEq K] {l : List (DATA_NODE K V)}
    {d : DATA_NODE K V} (hf : listFind h key l = some d) : d ∈ l ∧ d.h = h ∧ d.key = key := by
  induction l with
  | nil => simp [listFind] at hf
  | cons a l ih =>
    unfold listFind at hf
    by_cases hc : h = a.h ∧ key = a.key
    · simp only [hc, and_self, if_true, Option.some.injEq] at hf
      subst hf
      exact ⟨by simp, hc.1.symm, hc.2.symm⟩
    · simp only [hc, if_false] at hf
      obtain ⟨h1, h2⟩ := ih hf
      exact ⟨by simp [h1], h2⟩

omit [LinearOrder K] in
theorem listFind_split {h : Nat} {key : K} [DecidableEq K] {l : List (DATA_NODE K V)}
    {d : DATA_NODE K V} (hf : listFind h key l = some d) (v : V) :
    ∃ A B, l = A ++ d :: B ∧ listStore h key v l = A ++ { d with value := v } :: B ∧
      listUnlink h key l = A ++ B := by
  induction l with
  | nil => simp [listFind] at hf
  | cons a l ih =>
    unfold listFind at hf
    by_cases hc : h = a.h ∧ key = a.key
    · simp only [hc, and_self, if_true, Option.some.injEq] at hf
      subst hf
      exact ⟨[], l, rfl, by simp [listStore, hc], by simp [listUnlink, hc]⟩
    · simp only [hc, if_false] at hf
      obtain ⟨A, B, h1, h2, h3⟩ := ih hf
      exact ⟨a :: A, B, by simp [h1], by simp [listStore, hc, h2], by simp [listUnlink, hc, h3]⟩

omit [LinearOrder K] in
theorem listFind_none {h : Nat} {key : K} [DecidableEq K] {l : List (DATA_NODE K V)}
    (hf : listFind h key l = none) : ∀ d ∈ l, ¬ (d.h = h ∧ d.key = key) := by
  induction l with
  | nil => simp
  | cons a l ih =>
    unfold listFind at hf
    by_cases hc : h = a.h ∧ key = a.key
    · simp [hc] at hf
    · simp only [hc, if_false] at hf
      intro d hd
      rcases List.mem_cons.1 hd with rfl | hm
      · intro hx; exact hc ⟨hx.1.symm, hx.2.symm⟩
      · exact ih hf d hm

theorem listFind_iff {hf : K → Nat → Nat} {m mask i : Nat} {l : List (DATA_NODE K V)}
    (hh : Hashed hf m mask i l) (hd : DistinctKeys l) (key : K) (d : DATA_NODE K V) :
    listFind (hf key m) key l = some d ↔ d ∈ l ∧ d.key = key := by
  constructor
  · intro h
    have := listFind_some h
    exact ⟨this.1, this.2.2⟩
  · rintro ⟨hm, hk⟩
    cases hfd : listFind (hf key m) key l with
    | none =>
      exact absurd ⟨by rw [(hh d hm).1, hk], hk⟩ (listFind_none hfd d hm)
    | some d' =>
      obtain ⟨h1, -, h3⟩ := listFind_some hfd
      by_contra hne
      have hne' : d' ≠ d := fun h => hne (by rw [h])
      unfold DistinctKeys at hd
      have hall := List.Pairwise.forall_of_forall (R := fun a b : DATA_NODE K V => a = b ∨ a.key ≠ b.key)
        (fun x y hxy => by rcases hxy with h | h; exact Or.inl h.symm; exact Or.inr (fun e => h e.symm))
        (fun x _ => Or.inl rfl) (hd.imp (fun h => Or.inr h))
      rcases hall h1 hm with h | h
      · exact hne' h
      · exact h (by rw [h3, hk])

theorem entry_find_iff {hf : K → Nat → Nat} {m mask i : Nat} {e : ENTRY K V}
    (hw : e.WF hf m mask i) (key : K) (d : DATA_NODE K V) :
    e.find (hf key m) key = some d ↔ d ∈ e.nodes ∧ d.key = key := by
  have hdist := entry_distinct hw
  obtain ⟨hh, hm⟩ := hw
  unfold ENTRY.nodes at hh hdist ⊢
  unfold ENTRY.find
  cases hp : e.p with
  | null => simp
  | list f r =>
    simp only [hp] at hm hh hdist ⊢
    exact listFind_iff hh hdist key d
  | tree t =>
    simp only [hp] at hm hh ⊢
    rw [FindData_iff hm.2.1]
    constructor
    · rintro ⟨h1, -, h3⟩; exact ⟨h1, h3⟩
    · rintro ⟨h1, h3⟩; exact ⟨h1, by rw [(hh d h1).1, h3], h3⟩

theorem find_iff_mem {s : zHash K V H} (hw : s.WF) (key : K) (d : DATA_NODE K V) :
    s.find key = some d ↔ d ∈ s.allNodes ∧ d.key = key := by
  obtain ⟨e, he, hew⟩ := entry_at hw key
  rw [find_eq, he, Option.some_bind, entry_find_iff hew, mem_allNodes]
  constructor
  · rintro ⟨h1, h2⟩; exact ⟨⟨_, e, he, h1⟩, h2⟩
  · rintro ⟨⟨j, e', he', h1⟩, h2⟩
    have hj := hw.2.2.2 j e' he'
    have hh := hj.1 d h1
    have : j = s.pos key := by
      rw [← hh.2, hh.1, h2]; rfl
    subst this
    rw [he] at he'
    cases he'
    exact ⟨h1, h2⟩

theorem split_at {α : Type} (l : List α) (i : Nat) (x : α) (hx : l[i]? = some x) :
    ∃ l1 l2, l = l1 ++ x :: l2 ∧ l1.length = i := by
  have hlt : i < l.length := by
    by_contra hcon
    rw [List.getElem?_eq_none (by omega)] at hx
    simp at hx
  refine ⟨l.take i, l.drop (i + 1), ?_, by simp; omega⟩
  have : l[i] = x := by
    rw [List.getElem?_eq_getElem hlt] at hx
    simpa using hx
  rw [← this, ← List.drop_eq_getElem_cons hlt, List.take_append_drop]

theorem set_split {α : Type} (l1 l2 : List α) (x y : α) :
    (l1 ++ x :: l2).set l1.length y = l1 ++ y :: l2 := by
  induction l1 with
  | nil => rfl
  | cons a l1 ih => simp [ih]

omit [LinearOrder K] in
theorem setEntry_same (s : zHash K V H) (pos : Nat) (e' : ENTRY K V)
    (h : pos < s.pBucket.length) : (s.setEntry pos e').pBucket[pos]? = some e' := by
  simp [zHash.setEntry, h]

omit [LinearOrder K] in
theorem setEntry_ne (s : zHash K V H) (pos j : Nat) (e' : ENTRY K V) (h : j ≠ pos) :
    (s.setEntry pos e').pBucket[j]? = s.pBucket[j]? := by
  simp only [zHash.setEntry]
  rw [List.getElem?_set_ne (Ne.symm h)]

omit [LinearOrder K] in
theorem setEntry_get (s : zHash K V H) (pos j : Nat) (e' x : ENTRY K V)
    (h : (s.setEntry pos e').pBucket[j]? = some x) :
    (j = pos ∧ x = e') ∨ (j ≠ pos ∧ s.pBucket[j]? = some x) := by
  by_cases hj : j = pos
  · subst hj
    left
    have hlt : j < s.pBucket.length := by
      by_contra hc
      simp only [zHash.setEntry] at h
      rw [List.getElem?_eq_none (by simp; omega)] at h
      simp at h
    rw [setEntry_same s j e' hlt] at h
    exact ⟨rfl, (Option.some.inj h).symm⟩
  · right
    rw [setEntry_ne s pos j e' hj] at h
    exact ⟨hj, h⟩

omit [LinearOrder K] in
theorem allNodes_setEntry (s : zHash K V H) (pos : Nat) (e : ENTRY K V)
    (he : s.pBucket[pos]? = some e) :
    ∃ L R, s.allNodes = L ++ e.nodes ++ R ∧
      ∀ e', (s.setEntry pos e').allNodes = L ++ e'.nodes ++ R := by
  obtain ⟨l1, l2, hl, hlen⟩ := split_at s.pBucket pos e he
  refine ⟨(l1.map ENTRY.nodes).flatten, (l2.map ENTRY.nodes).flatten, ?_, ?_⟩
  · simp [zHash.allNodes, hl]
  · intro e'
    simp only [zHash.allNodes, zHash.setEntry]
    rw [hl, ← hlen, set_split]
    simp

theorem WF_setEntry {s : zHash K V H} (hw : s.WF) (pos : Nat) (e' : ENTRY K V)
    (he : e'.WF s.pHashFun s.MaskBits s.PosMask pos) : (s.setEntry pos e').WF := by
  obtain ⟨h1, h2, h3, h4⟩ := hw
  refine ⟨by simpa [zHash.setEntry] using h1, h2, h3, ?_⟩
  intro j x hx
  rcases setEntry_get s pos j e' x hx with ⟨rfl, rfl⟩ | ⟨-, hj⟩
  · exact he
  · exact h4 j x hj

theorem keys_nodup {s : zHash K V H} (hw : s.WF) : (s.allNodes.map (·.key)).Nodup := by
  unfold zHash.allNodes
  rw [List.map_flatten, List.nodup_flatten]
  constructor
  · intro l hl
    simp only [List.mem_map, exists_exists_and_eq_and] at hl
    obtain ⟨e, he, rfl⟩ := hl
    obtain ⟨i, hi⟩ := List.getElem?_of_mem he
    have := entry_distinct (hw.2.2.2 i e hi)
    unfold DistinctKeys at this
    exact (List.pairwise_map).2 this
  · rw [List.pairwise_iff_getElem]
    intro i j hi hj hij
    simp only [List.getElem_map]
    simp only [List.length_map] at hi hj
    intro k hk1 hk2
    simp only [Function.comp, List.mem_map] at hk1 hk2
    obtain ⟨d1, hd1, rfl⟩ := hk1
    obtain ⟨d2, hd2, hk⟩ := hk2
    have h1 := (hw.2.2.2 i _ (List.getElem?_eq_getElem hi)).1 d1 hd1
    have h2 := (hw.2.2.2 j _ (List.getElem?_eq_getElem hj)).1 d2 hd2
    have : i = j := by rw [← h1.2, ← h2.2, h1.1, h2.1, hk]
    omega

theorem lookup_iff {s : zHash K V H} (hw : s.WF) (k : K) (v : V) :
    s.lookup k = some v ↔ (k, v) ∈ s.records := by
  unfold zHash.lookup zHash.records recordsOf
  simp only [Option.map_eq_some', List.mem_map, Prod.mk.injEq]
  constructor
  · rintro ⟨d, hd, rfl⟩
    obtain ⟨h1, h2⟩ := (find_iff_mem hw k d).1 hd
    exact ⟨d, h1, h2, rfl⟩
  · rintro ⟨d, hd, h2, rfl⟩
    exact ⟨d, (find_iff_mem hw k d).2 ⟨hd, h2⟩, rfl⟩

theorem lookup_congr {s s' : zHash K V H} (hw : s.WF) (hw' : s'.WF) (k : K)
    (h : ∀ v, (k, v) ∈ s'.records ↔ (k, v) ∈ s.records) : s'.lookup k = s.lookup k := by
  apply Option.ext
  intro v
  simp only [Option.mem_def]
  rw [lookup_iff hw, lookup_iff hw', h]

theorem lookup_perm {s s' : zHash K V H} (hw : s.WF) (hw' : s'.WF)
    (hp : s'.records.Perm s.records) (k : K) : s'.lookup k = s.lookup k :=
  lookup_congr hw hw' k (fun _ => hp.mem_iff)

omit [LinearOrder K] in
theorem keys_records (l : List (DATA_NODE K V)) :
    (recordsOf l).map Prod.fst = l.map (·.key) := by
  simp [recordsOf]

theorem records_nodup {s : zHash K V H} (hw : s.WF) : (s.records.map Prod.fst).Nodup := by
  unfold zHash.records
  rw [keys_records]
  exact keys_nodup hw

theorem lookup_none_iff {s : zHash K V H} (hw : s.WF) (k : K) :
    s.lookup k = none ↔ k ∉ s.records.map Prod.fst := by
  rw [← not_iff_not]
  simp only [not_not, List.mem_map, Prod.exists, exists_and_right, exists_eq_right]
  rw [← ne_eq, Option.ne_none_iff_exists']
  exact exists_congr (fun v => lookup_iff hw k v)

theorem lookup_perm_cons {s s' : zHash K V H} (hw : s.WF) (hw' : s'.WF) (k : K) (v : V)
    (hp : s'.records.Perm ((k, v) :: s.records)) :
    s.lookup k = none ∧ s'.lookup k = some v ∧ ∀ k', k' ≠ k → s'.lookup k' = s.lookup k' := by
  have hnd := records_nodup hw'
  have hnd2 : (((k, v) :: s.records).map Prod.fst).Nodup := (hp.map Prod.fst).nodup_iff.1 hnd
  simp only [List.map_cons, List.nodup_cons] at hnd2
  refine ⟨(lookup_none_iff hw k).2 hnd2.1, (lookup_iff hw' k v).2 (hp.mem_iff.2 (by simp)), ?_⟩
  intro k' hne
  apply lookup_congr hw hw'
  intro v'
  rw [hp.mem_iff]
  simp [hne]

theorem lookup_perm_replace {s s' : zHash K V H} (hw : s.WF) (hw' : s'.WF) (k : K) (v v' : V)
    (R : List (K × V)) (hp : s.records.Perm ((k, v) :: R))
    (hp' : s'.records.Perm ((k, v') :: R)) :
    s'.lookup k = some v' ∧ ∀ k', k' ≠ k → s'.lookup k' = s.lookup k' := by
  refine ⟨(lookup_iff hw' k v').2 (hp'.mem_iff.2 (by simp)), ?_⟩
  intro k' hne
  apply lookup_congr hw hw'
  intro x
  rw [hp.mem_iff, hp'.mem_iff]
  simp [hne]

theorem lookup_perm_remove {s s' : zHash K V H} (hw : s.WF) (hw' : s'.WF) (k : K) (v : V)
    (hp : s.records.Perm ((k, v) :: s'.records)) :
    s.lookup k = some v ∧ s'.lookup k = none ∧ ∀ k', k' ≠ k → s'.lookup k' = s.lookup k' := by
  have hnd := records_nodup hw
  have hnd2 : (((k, v) :: s'.records).map Prod.fst).Nodup := (hp.map Prod.fst).nodup_iff.1 hnd
  simp only [List.map_cons, List.nodup_cons] at hnd2
  refine ⟨(lookup_iff hw k v).2 (hp.mem_iff.2 (by simp)), (lookup_none_iff hw' k).2 hnd2.1, ?_⟩
  intro k' hne
  apply lookup_congr hw hw'
  intro x
  rw [hp.mem_iff]
  simp [hne]

theorem countKey_of_lookup {s : zHash K V H} (hw : s.WF) (k : K) (v : V)
    (h : s.lookup k = some v) : s.countKey k = 1 := by
  unfold zHash.countKey
  apply List.count_eq_one_of_mem (keys_nodup hw)
  have := (lookup_iff hw k v).1 h
  unfold zHash.records at this
  rw [← keys_records]
  exact List.mem_map.2 ⟨_, this, rfl⟩

theorem countKey_of_none {s : zHash K V H} (hw : s.WF) (k : K)
    (h : s.lookup k = none) : s.countKey k = 0 := by
  unfold zHash.countKey
  apply List.count_eq_zero.2
  have := (lookup_none_iff hw k).1 h
  unfold zHash.records at this
  rwa [keys_records] at this

omit [LinearOrder K] in
theorem Frame.frefl (s : zHash K V H) : Frame s s := rfl

omit [LinearOrder K] in
theorem Frame.ftrans {s s1 s2 : zHash K V H} (h1 : Frame s s1) (h2 : Frame s1 s2) :
    Frame s s2 := by
  unfold Frame at *
  rw [h2, h1]

omit [LinearOrder K] in
theorem Frame.fields {s s' : zHash K V H} (h : Frame s s') :
    s'.pHashFun = s.pHashFun ∧ s'.Resizable = s.Resizable ∧ s'.Countable = s.Countable ∧
    s'.MaxSize = s.MaxSize ∧ s'.pBucketId = s.pBucketId ∧ s'.Buckets = s.Buckets ∧
    s'.PosMask = s.PosMask ∧ s'.MaskBits = s.MaskBits ∧ s'.DataCount = s.DataCount ∧
    s'.LoadFactor = s.LoadFactor ∧ s'.Threshold = s.Threshold := by
  unfold Frame at h
  rw [h]
  exact ⟨rfl, rfl, rfl, rfl, rfl, rfl, rfl, rfl, rfl, rfl, rfl⟩

omit [LinearOrder K] in
theorem Frame.fpos {s s' : zHash K V H} (h : Frame s s') (k : K) : s'.pos k = s.pos k := by
  obtain ⟨h1, -, -, -, -, -, h7, h8, -⟩ := h.fields
  unfold zHash.pos
  rw [h1, h7, h8]

omit [LinearOrder K] in
theorem frame_setEntry (s : zHash K V H) (pos : Nat) (e : ENTRY K V) :
    Frame s (s.setEntry pos e) := rfl

omit [LinearOrder K] in
theorem frame_sysAlloc (s : zHash K V H) :
    Frame s s.sysAlloc.2 ∧ s.sysAlloc.2.pBucket = s.pBucket ∧ s.sysAlloc.2.pHeap = s.pHeap ∧
      s.sysAlloc.2.pBTNodeHeap = s.pBTNodeHeap := by
  unfold zHash.sysAlloc
  cases s.sysHeap with
  | nil => exact ⟨rfl, rfl, rfl, rfl⟩
  | cons b r => exact ⟨rfl, rfl, rfl, rfl⟩

theorem WF_frame {s s' : zHash K V H} (h : Frame s s') (hb : s'.pBucket = s.pBucket) :
    s'.WF ↔ s.WF := by
  obtain ⟨h1, -, -, -, -, h6, h7, h8, -⟩ := h.fields
  unfold zHash.WF
  rw [h1, h6, h7, h8, hb]

omit [LinearOrder K] in
theorem allNodes_of_bucket {s s' : zHash K V H} (hb : s'.pBucket = s.pBucket) :
    s'.allNodes = s.allNodes := by
  unfold zHash.allNodes
  rw [hb]

omit [LinearOrder K] in
theorem records_of_bucket {s s' : zHash K V H} (hb : s'.pBucket = s.pBucket) :
    s'.records = s.records := by
  unfold zHash.records
  rw [allNodes_of_bucket hb]

omit [LinearOrder K] in
theorem nodes_ofList (l : List (DATA_NODE K V)) (lk : zRWLock) (st : Nat) :
    (⟨ChainPtr.ofList l, lk, st⟩ : ENTRY K V).nodes = l := by
  cases l <;> rfl

theorem wf_ofList {hf : K → Nat → Nat} {m mask i : Nat} {l : List (DATA_NODE K V)}
    (hh : Hashed hf m mask i l) (hd : DistinctKeys l) (lk : zRWLock) :
    (⟨ChainPtr.ofList l, lk, l.length⟩ : ENTRY K V).WF hf m mask i := by
  refine ⟨by rw [nodes_ofList]; exact hh, ?_⟩
  cases l with
  | nil => trivial
  | cons a l => exact ⟨rfl, hd⟩

theorem wf_tree {hf : K → Nat → Nat} {m mask i : Nat} {t : zBTree K V}
    (hh : Hashed hf m mask i t.toList) (hv : t.Valid) (hs : MIN_BTREE_SIZE ≤ t.Size)
    (lk : zRWLock) : (⟨.tree t, lk, 0⟩ : ENTRY K V).WF hf m mask i :=
  ⟨hh, rfl, hv, hs⟩

theorem valid_size {t : zBTree K V} (hv : t.Valid) : t.Size = t.toList.length := by
  obtain ⟨root, n, hroot, -, -, hsz⟩ := hv
  simp [zBTree.toList, hroot, hsz]

theorem insSpec_perm {d : DATA_NODE K V} {l l' : List (DATA_NODE K V)}
    (h : InsSpec d l l' .inserted) : l'.Perm (d :: l) := by
  obtain ⟨A, B, h1, h2, -, -⟩ := h
  subst h1 h2
  exact List.perm_middle

theorem listToBTreeLoop_spec (Hp : zMemHeap H) :
    ∀ (ds : List (DATA_NODE K V)) (t : zBTree K V) (hp : H) (t' : zBTree K V) (hp' : H),
      t.Good → zHash.listToBTreeLoop Hp ds t hp = .ok (t', hp') →
      t'.Good ∧ t'.toList.Perm (ds ++ t.toList) ∧ ((ds ≠ [] ∨ t.Valid) → t'.Valid) := by
  intro ds
  induction ds with
  | nil =>
    intro t hp t' hp' hg h
    simp only [zHash.listToBTreeLoop, Except.ok.injEq, Prod.mk.injEq] at h
    obtain ⟨rfl, rfl⟩ := h
    exact ⟨hg, by simp, fun h => h.elim (fun h => absurd rfl h) id⟩
  | cons d ds ih =>
    intro t hp t' hp' hg h
    rw [zHash.listToBTreeLoop] at h
    cases hi : t.Insert Hp d hp with
    | mk st rest =>
      obtain ⟨t1, hp1⟩ := rest
      obtain ⟨hg1, hspec, hv1⟩ := Insert_spec Hp t d hp hg st t1 hp1 hi
      rw [hi] at h
      cases st with
      | inserted =>
        simp only at h
        obtain ⟨hg2, hperm, hv2⟩ := ih t1 hp1 t' hp' hg1 h
        refine ⟨hg2, ?_, fun _ => hv2 (Or.inr (hv1 (Or.inr rfl)))⟩
        refine hperm.trans ?_
        refine (List.Perm.append_left ds (insSpec_perm hspec)).trans ?_
        simp only [List.cons_append]
        exact (List.perm_middle)
      | found e => simp at h
      | memError => simp at h
      | noFuel => simp at h

theorem listToBTree_spec (Hp : zMemHeap H) (s : zHash K V H) (pos : Nat) (e : ENTRY K V)
    (f : DATA_NODE K V) (r : List (DATA_NODE K V)) (he : s.pBucket[pos]? = some e)
    (hp : e.p = .list f r) (b : Bool) (s1 : zHash K V H)
    (h : zHash.listToBTree Hp s pos = .ok (b, s1)) :
    (b = false → Frame s s1 ∧ s1.pBucket = s.pBucket) ∧
    (b = true → ∃ (s0 : zHash K V H) (t : zBTree K V), Frame s s0 ∧ s0.pBucket = s.pBucket ∧
      s1 = s0.setEntry pos { e with p := .tree t, Size_Type := 0 } ∧ t.Valid ∧
      t.toList.Perm (f :: r)) := by
  unfold zHash.listToBTree at h
  simp only [he, hp] at h
  obtain ⟨hfr, hbk, -, -⟩ := frame_sysAlloc s
  cases hsa : s.sysAlloc with
  | mk ok s0 =>
    rw [hsa] at h hfr hbk
    simp only at hfr hbk
    cases ok with
    | false =>
      simp only [Except.ok.injEq, Prod.mk.injEq] at h
      obtain ⟨rfl, rfl⟩ := h
      exact ⟨fun _ => ⟨hfr, hbk⟩, fun h => by simp at h⟩
    | true =>
      simp only at h
      cases hl : zHash.listToBTreeLoop Hp (f :: r) { Size := 0, m_pRoot := none } s0.pBTNodeHeap with
      | error x => rw [hl] at h; simp at h
      | ok res =>
        obtain ⟨t, hp'⟩ := res
        rw [hl] at h
        simp only [Except.ok.injEq, Prod.mk.injEq] at h
        obtain ⟨rfl, rfl⟩ := h
        obtain ⟨-, hperm, hv⟩ := listToBTreeLoop_spec Hp (f :: r) _ _ t hp'
          (Or.inl ⟨rfl, rfl⟩) hl
        refine ⟨fun h => by simp at h, fun _ => ⟨{ s0 with pBTNodeHeap := hp' }, t,
          hfr.ftrans rfl, hbk, rfl, hv (Or.inl (by simp)), ?_⟩⟩
        simpa [zBTree.toList] using hperm

theorem treeToList_spec (Hp : zMemHeap H) (s : zHash K V H) (pos : Nat) (e : ENTRY K V)
    (t : zBTree K V) (he : s.pBucket[pos]? = some e) (hp : e.p = .tree t) (hv : t.Valid)
    (hs : 0 < t.Size) :
    zHash.treeToList Hp s pos = .error .badAlloc ∨
    ∃ (s0 : zHash K V H), Frame s s0 ∧ s0.pBucket = s.pBucket ∧ s0.pHeap = s.pHeap ∧
      zHash.treeToList Hp s pos = .ok (s0.setEntry pos
        { e with p := ChainPtr.ofList t.FindAllData, Size_Type := t.FindAllData.length }) ∧
      t.FindAllData.Perm t.toList ∧ t.FindAllData.length = t.Size := by
  have hperm := FindAllData_perm t
  have hlen : t.FindAllData.length = t.Size := by rw [valid_size hv, hperm.length_eq]
  obtain ⟨hfr, hbk, hph, -⟩ := frame_sysAlloc s
  unfold zHash.treeToList
  simp only [he, hp, zBTree.Count]
  cases hsa : s.sysAlloc with
  | mk ok s1 =>
    rw [hsa] at hfr hbk hph
    simp only at hfr hbk hph
    cases ok with
    | false => exact Or.inl rfl
    | true =>
      right
      simp only
      refine ⟨{ s1 with pBTNodeHeap := (t.Clear Hp s1.pBTNodeHeap).2 }, hfr.ftrans rfl, hbk, hph,
        ?_, hperm, hlen⟩
      rw [if_neg (by rw [hlen]; simp; omega), hlen]

omit [LinearOrder K] in
theorem hashed_perm {hf : K → Nat → Nat} {m mask i : Nat} {l l' : List (DATA_NODE K V)}
    (hp : l'.Perm l) (hh : Hashed hf m mask i l) : Hashed hf m mask i l' :=
  fun d hd => hh d (hp.mem_iff.1 hd)

omit [LinearOrder K] in
theorem hashed_cons {hf : K → Nat → Nat} {m mask i : Nat} {l : List (DATA_NODE K V)}
    {d : DATA_NODE K V} (h1 : d.h = hf d.key m) (h2 : d.h &&& mask = i)
    (hh : Hashed hf m mask i l) : Hashed hf m mask i (d :: l) := by
  intro x hx
  rcases List.mem_cons.1 hx with rfl | hx
  · exact ⟨h1, h2⟩
  · exact hh x hx

omit [LinearOrder K] in
theorem distinct_perm {l l' : List (DATA_NODE K V)} (hp : l'.Perm l) (hd : DistinctKeys l) :
    DistinctKeys l' := by
  unfold DistinctKeys at *
  exact (hp.pairwise_iff (fun {a b} h => Ne.symm h)).2 hd

omit [LinearOrder K] in
theorem distinct_cons {l : List (DATA_NODE K V)} {d : DATA_NODE K V}
    (hn : d.key ∉ l.map (·.key)) (hd : DistinctKeys l) : DistinctKeys (d :: l) := by
  unfold DistinctKeys at *
  refine List.pairwise_cons.2 ⟨?_, hd⟩
  intro a ha heq
  exact hn (List.mem_map.2 ⟨a, ha, heq.symm⟩)

omit [LinearOrder K] in
theorem distinct_of_perm_cons {l l' : List (DATA_NODE K V)} {d : DATA_NODE K V}
    (hp : l'.Perm (d :: l)) (hd : DistinctKeys l') :
    d.key ∉ l.map (·.key) ∧ DistinctKeys l := by
  have := distinct_perm hp.symm hd
  unfold DistinctKeys at *
  obtain ⟨h1, h2⟩ := List.pairwise_cons.1 this
  refine ⟨?_, h2⟩
  intro hm
  obtain ⟨a, ha, heq⟩ := List.mem_map.1 hm
  exact h1 a ha heq.symm

theorem update_entry {s s0 : zHash K V H} (hw : s.WF) (hfr : Frame s s0)
    (hb : s0.pBucket = s.pBucket) (pos : Nat) (e e' : ENTRY K V)
    (he : s.pBucket[pos]? = some e) (hwf : e'.WF s.pHashFun s.MaskBits s.PosMask pos) :
    (s0.setEntry pos e').WF ∧ Frame s (s0.setEntry pos e') ∧
    (∃ L R, s.allNodes = L ++ e.nodes ++ R ∧ (s0.setEntry pos e').allNodes = L ++ e'.nodes ++ R) ∧
    (s0.setEntry pos e').pBucket[pos]? = some e' ∧
    (∀ j, j ≠ pos → (s0.setEntry pos e').pBucket[j]? = s.pBucket[j]?) := by
  have hw0 : s0.WF := (WF_frame hfr hb).2 hw
  obtain ⟨h1, -, -, -, -, -, h7, h8, -⟩ := hfr.fields
  have hlt : pos < s0.pBucket.length := by
    rw [hb]
    by_contra hc
    rw [List.getElem?_eq_none (by omega)] at he
    simp at he
  refine ⟨WF_setEntry hw0 pos e' (by rw [h1, h7, h8]; exact hwf),
    hfr.ftrans (frame_setEntry _ _ _), ?_, setEntry_same _ _ _ hlt, ?_⟩
  · obtain ⟨L, R, hL, hR⟩ := allNodes_setEntry s0 pos e (by rw [hb]; exact he)
    exact ⟨L, R, by rw [← allNodes_of_bucket hb]; exact hL, hR e'⟩
  · intro j hj
    rw [setEntry_ne _ _ _ _ hj, hb]

theorem perm_ins {α : Type} {L R a a' : List α} {x : α} (h : a'.Perm (x :: a)) :
    (L ++ a' ++ R).Perm (x :: (L ++ a ++ R)) := by
  have h1 : (L ++ a' ++ R).Perm (L ++ (x :: a) ++ R) :=
    List.Perm.append_right R (List.Perm.append_left L h)
  refine h1.trans ?_
  simp only [List.append_assoc, List.cons_append]
  exact List.perm_middle

theorem perm_same {α : Type} {L R a a' : List α} (h : a'.Perm a) :
    (L ++ a' ++ R).Perm (L ++ a ++ R) :=
  List.Perm.append_right R (List.Perm.append_left L h)

omit [LinearOrder K] in
theorem nodes_sub {s : zHash K V H} {pos : Nat} {e : ENTRY K V} (he : s.pBucket[pos]? = some e)
    {k : K} (hn : k ∉ s.allNodes.map (·.key)) : k ∉ e.nodes.map (·.key) := by
  intro hm
  obtain ⟨d, hd, rfl⟩ := List.mem_map.1 hm
  exact hn (List.mem_map.2 ⟨d, mem_allNodes.2 ⟨pos, e, he, hd⟩, rfl⟩)

omit [LinearOrder K] in
theorem setEntry_twice (s : zHash K V H) (pos : Nat) (e1 e2 : ENTRY K V) :
    (s.setEntry pos e1).setEntry pos e2 = s.setEntry pos e2 := by
  simp [zHash.setEntry]

theorem inserCopyData_spec (Hp : zMemHeap H) (s : zHash K V H) (d : DATA_NODE K V)
    (hw : s.WF) (hn : d.key ∉ s.allNodes.map (·.key)) (s1 : zHash K V H)
    (h : zHash.inserCopyData Hp s d = .ok (true, s1)) :
    s1.WF ∧ Frame s s1 ∧
      (∃ d' : DATA_NODE K V, d'.key = d.key ∧ d'.value = d.value ∧
        s1.allNodes.Perm (d' :: s.allNodes)) ∧ (Calm s → Calm s1) := by
  unfold zHash.inserCopyData at h
  cases hal : Hp.LockAlloc s.pHeap with
  | mk so hp =>
    rw [hal] at h
    cases so with
    | none => simp at h
    | some slot =>
      simp only at h
      obtain ⟨e, he, hew⟩ := entry_at hw d.key
      unfold zHash.pos at he hew
      rw [he] at h
      simp only at h
      have hfr0 : Frame s { s with pHeap := hp } := rfl
      have hnk := nodes_sub he hn
      have hcalm : ∀ (s' : zHash K V H) (e' : ENTRY K V),
          s'.pBucket[s.pHashFun d.key s.MaskBits &&& s.PosMask]? = some e' →
          (∀ j, j ≠ (s.pHashFun d.key s.MaskBits &&& s.PosMask) → s'.pBucket[j]? = s.pBucket[j]?) →
          e'.lock = e.lock → Calm s → Calm s' := by
        intro s' e' hs' hoth hlk hc j x hx
        by_cases hj : j = (s.pHashFun d.key s.MaskBits &&& s.PosMask)
        · subst hj
          rw [hs'] at hx
          cases hx
          rw [hlk]; exact hc _ e he
        · rw [hoth j hj] at hx
          exact hc j x hx
      obtain ⟨hh, hm⟩ := hew
      cases hp' : e.p with
      | null =>
        rw [hp'] at h
        simp only [Except.ok.injEq, Prod.mk.injEq, true_and] at h
        subst h
        have hnodes : e.nodes = [] := by simp [ENTRY.nodes, hp']
        obtain ⟨h1, h2, ⟨L, R, hL, hR⟩, h4, h5⟩ := update_entry hw hfr0 rfl _ e
          { e with p := .list { slot := slot, h := s.pHashFun d.key s.MaskBits, key := d.key,
                                value := d.value } [], Size_Type := 1 } he
          ⟨by simp only [ENTRY.nodes]; exact hashed_cons rfl rfl (by intro x hx; simp at hx),
           rfl, by simp⟩
        refine ⟨h1, h2, ⟨{ slot := slot, h := s.pHashFun d.key s.MaskBits, key := d.key, value := d.value }, rfl, rfl, ?_⟩, hcalm _ _ h4 h5 rfl⟩
        rw [hL, hR]
        exact perm_ins (show List.Perm [_] (_ :: e.nodes) by rw [hnodes])
      | list f r =>
        rw [hp'] at h hm
        have hnodes : e.nodes = f :: r := by simp [ENTRY.nodes, hp']
        rw [hnodes] at hh hnk
        simp only at hm
        obtain ⟨hsz, hdist⟩ := hm
        have hpos : 0 < e.Size_Type := by rw [hsz]; simp
        simp only [hpos, if_true] at h
        by_cases hlt : e.Size_Type < MAX_LINKEDLIST_SIZE
        · simp only [hlt, if_true, Except.ok.injEq, Prod.mk.injEq, true_and] at h
          subst h
          obtain ⟨h1, h2, ⟨L, R, hL, hR⟩, h4, h5⟩ := update_entry hw hfr0 rfl _ e
            { e with p := .list { slot := slot, h := s.pHashFun d.key s.MaskBits, key := d.key,
                                  value := d.value } (f :: r), Size_Type := e.Size_Type + 1 } he
            ⟨by simp only [ENTRY.nodes]; exact hashed_cons rfl rfl hh,
             by simp [hsz], distinct_cons hnk hdist⟩
          refine ⟨h1, h2, ⟨{ slot := slot, h := s.pHashFun d.key s.MaskBits, key := d.key, value := d.value }, rfl, rfl, ?_⟩, hcalm _ _ h4 h5 rfl⟩
          rw [hL, hR]
          exact perm_ins (show List.Perm (_ :: f :: r) (_ :: e.nodes) by rw [hnodes])
        · simp only [hlt, if_false] at h
          cases hl : zHash.listToBTree Hp { s with pHeap := hp }
              (s.pHashFun d.key s.MaskBits &&& s.PosMask) with
          | error x => rw [hl] at h; simp at h
          | ok res =>
            obtain ⟨b, s2⟩ := res
            rw [hl] at h
            cases b with
            | false => simp at h
            | true =>
              obtain ⟨-, htrue⟩ := listToBTree_spec Hp _ _ e f r (by exact he) hp' _ _ hl
              obtain ⟨s0, t, hfr1, hb1, rfl, htv, htp⟩ := htrue rfl
              have hlt0 : (s.pHashFun d.key s.MaskBits &&& s.PosMask) < s0.pBucket.length := by
                rw [hb1]
                by_contra hc
                rw [List.getElem?_eq_none (by simpa using hc)] at he
                simp at he
              simp only [setEntry_same _ _ _ hlt0] at h
              cases hi : t.Insert Hp
                  { slot := slot, h := s.pHashFun d.key s.MaskBits, key := d.key,
                    value := d.value } s0.pBTNodeHeap with
              | mk st rest =>
                obtain ⟨t1, hp1⟩ := rest
                have hi' : t.Insert Hp
                  { slot := slot, h := s.pHashFun d.key s.MaskBits, key := d.key,
                    value := d.value }
                  (s0.setEntry (s.pHashFun d.key s.MaskBits &&& s.PosMask)
                    { e with p := .tree t, Size_Type := 0 }).pBTNodeHeap = (st, t1, hp1) := hi
                rw [hi'] at h
                obtain ⟨-, hspec, hv1⟩ := Insert_spec Hp t _ _ (Or.inr htv) st t1 hp1 hi
                cases st with
                | found x => simp at h
                | memError => simp at h
                | noFuel => simp at h
                | inserted =>
                  simp only [Except.ok.injEq, Prod.mk.injEq, true_and] at h
                  subst h
                  have hperm : t1.toList.Perm (_ :: f :: r) :=
                    (insSpec_perm hspec).trans (List.Perm.cons _ htp)
                  have heq : ({ (s0.setEntry (s.pHashFun d.key s.MaskBits &&& s.PosMask)
                      { e with p := .tree t, Size_Type := 0 }) with pBTNodeHeap := hp1 } :
                      zHash K V H).setEntry (s.pHashFun d.key s.MaskBits &&& s.PosMask)
                      { p := .tree t1, lock := e.lock, Size_Type := 0 } =
                      ({ s0 with pBTNodeHeap := hp1 } : zHash K V H).setEntry
                        (s.pHashFun d.key s.MaskBits &&& s.PosMask)
                        { p := .tree t1, lock := e.lock, Size_Type := 0 } := by
                    simp [zHash.setEntry]
                  rw [heq]
                  have hfr2 : Frame s ({ s0 with pBTNodeHeap := hp1 } : zHash K V H) :=
                    (hfr0.ftrans hfr1).ftrans rfl
                  have hv1' := hv1 (Or.inr rfl)
                  obtain ⟨h1, h2, ⟨L, R, hL, hR⟩, h4, h5⟩ := update_entry hw hfr2
                    hb1 _ e
                    { p := .tree t1, lock := e.lock, Size_Type := 0 } he
                    (wf_tree (hashed_perm hperm (hashed_cons rfl rfl hh)) hv1'
                      (by rw [valid_size hv1', hperm.length_eq]
                          simp only [List.length_cons, MIN_BTREE_SIZE]
                          simp only [List.length_cons, MAX_LINKEDLIST_SIZE] at hsz hlt
                          omega) _)
                  refine ⟨h1, h2, ⟨{ slot := slot, h := s.pHashFun d.key s.MaskBits, key := d.key, value := d.value }, rfl, rfl, ?_⟩, hcalm _ _ h4 h5 rfl⟩
                  rw [hL, hR]
                  exact perm_ins (show t1.toList.Perm (_ :: e.nodes) by rw [hnodes]; exact hperm)
      | tree t =>
        rw [hp'] at h hm
        have hnodes : e.nodes = t.toList := by simp [ENTRY.nodes, hp']
        rw [hnodes] at hh
        simp only at hm
        obtain ⟨hsz, htv, hts⟩ := hm
        simp only [hsz, lt_irrefl, if_false] at h
        cases hi : t.Insert Hp
            { slot := slot, h := s.pHashFun d.key s.MaskBits, key := d.key,
              value := d.value } s.pBTNodeHeap with
        | mk st rest =>
          obtain ⟨t1, hp1⟩ := rest
          rw [hi] at h
          obtain ⟨-, hspec, hv1⟩ := Insert_spec Hp t _ _ (Or.inr htv) st t1 hp1 hi
          cases st with
          | found x => simp at h
          | memError => simp at h
          | noFuel => simp at h
          | inserted =>
            simp only [Except.ok.injEq, Prod.mk.injEq, true_and] at h
            subst h
            have hperm := insSpec_perm hspec
            have hv1' := hv1 (Or.inr rfl)
            have hfr2 : Frame s ({ s with pHeap := hp, pBTNodeHeap := hp1 } : zHash K V H) := rfl
            obtain ⟨h1, h2, ⟨L, R, hL, hR⟩, h4, h5⟩ := update_entry hw hfr2 rfl _ e
              { p := .tree t1, lock := e.lock, Size_Type := 0 } he
              (wf_tree (hashed_perm hperm (hashed_cons rfl rfl hh)) hv1'
                (by rw [valid_size hv1', hperm.length_eq, List.length_cons, ← valid_size htv]
                    omega) _)
            refine ⟨h1, h2, ⟨{ slot := slot, h := s.pHashFun d.key s.MaskBits, key := d.key, value := d.value }, rfl, rfl, ?_⟩, hcalm _ _ h4 h5 rfl⟩
            rw [hL, hR]
            exact perm_ins (show t1.toList.Perm (_ :: e.nodes) by rw [hnodes]; exact hperm)

theorem listToBTree_frame (Hp : zMemHeap H) (s : zHash K V H) (pos : Nat) (b : Bool)
    (s1 : zHash K V H) (h : zHash.listToBTree Hp s pos = .ok (b, s1)) : Frame s s1 := by
  unfold zHash.listToBTree at h
  cases he : s.pBucket[pos]? with
  | none => simp [he] at h
  | some e =>
    cases hp : e.p with
    | null => simp [he, hp] at h
    | tree t => simp [he, hp] at h
    | list f r =>
      obtain ⟨h1, h2⟩ := listToBTree_spec Hp s pos e f r he hp b s1 (by unfold zHash.listToBTree; exact h)
      cases b with
      | false => exact (h1 rfl).1
      | true =>
        obtain ⟨s0, t, hfr, -, rfl, -⟩ := h2 rfl
        exact hfr.ftrans (frame_setEntry _ _ _)

theorem inserCopyData_frame (Hp : zMemHeap H) (s : zHash K V H) (d : DATA_NODE K V) (b : Bool)
    (s1 : zHash K V H) (h : zHash.inserCopyData Hp s d = .ok (b, s1)) : Frame s s1 := by
  unfold zHash.inserCopyData at h
  cases hal : Hp.LockAlloc s.pHeap with
  | mk so hp =>
    rw [hal] at h
    cases so with
    | none => simp at h
    | some slot =>
      simp only at h
      have hfr0 : Frame s { s with pHeap := hp } := rfl
      cases he : s.pBucket[s.pHashFun d.key s.MaskBits &&& s.PosMask]? with
      | none => simp [he] at h
      | some e =>
        rw [he] at h
        simp only at h
        cases hp' : e.p with
        | null =>
          rw [hp'] at h
          simp only [Except.ok.injEq, Prod.mk.injEq] at h
          rw [← h.2]
          exact rfl
        | list f r =>
          rw [hp'] at h
          simp only at h
          split at h
          · split at h
            · simp only [Except.ok.injEq, Prod.mk.injEq] at h
              rw [← h.2]
              exact rfl
            · cases hl : zHash.listToBTree Hp { s with pHeap := hp }
                  (s.pHashFun d.key s.MaskBits &&& s.PosMask) with
              | error x => rw [hl] at h; simp at h
              | ok res =>
                obtain ⟨b2, s2⟩ := res
                have hfr1 := listToBTree_frame Hp _ _ _ _ hl
                rw [hl] at h
                cases b2 with
                | false =>
                  simp only [Except.ok.injEq, Prod.mk.injEq] at h
                  rw [← h.2]
                  exact hfr0.ftrans hfr1
                | true =>
                  simp only at h
                  split at h
                  · split at h
                    · simp only [Except.ok.injEq, Prod.mk.injEq] at h
                      rw [← h.2]
                      exact (hfr0.ftrans hfr1).ftrans rfl
                    · simp at h
                    · simp only [Except.ok.injEq, Prod.mk.injEq] at h
                      rw [← h.2]
                      exact (hfr0.ftrans hfr1).ftrans rfl
                  · simp at h
          · simp at h
        | tree t =>
          rw [hp'] at h
          simp only at h
          split at h
          · simp at h
          · split at h
            · simp only [Except.ok.injEq, Prod.mk.injEq] at h
              rw [← h.2]
              exact rfl
            · simp at h
            · simp only [Except.ok.injEq, Prod.mk.injEq] at h
              rw [← h.2]
              exact rfl

theorem copyNodes_frame (Hp : zMemHeap H) :
    ∀ (ds : List (DATA_NODE K V)) (s : zHash K V H) (b : Bool) (s1 : zHash K V H),
      zHash.copyNodes Hp ds s = .ok (b, s1) → Frame s s1 := by
  intro ds
  induction ds with
  | nil =>
    intro s b s1 h
    simp only [zHash.copyNodes, Except.ok.injEq, Prod.mk.injEq] at h
    rw [← h.2]; exact Frame.frefl _
  | cons d ds ih =>
    intro s b s1 h
    rw [zHash.copyNodes] at h
    cases hi : zHash.inserCopyData Hp s d with
    | error x => rw [hi] at h; simp at h
    | ok res =>
      obtain ⟨b2, s2⟩ := res
      have hfr := inserCopyData_frame Hp s d b2 s2 hi
      rw [hi] at h
      cases b2 with
      | false =>
        simp only [Except.ok.injEq, Prod.mk.injEq] at h
        rw [← h.2]; exact hfr
      | true => exact hfr.ftrans (ih s2 b s1 h)

theorem copyEntry_frame (Hp : zMemHeap H) (old : ENTRY K V) (s : zHash K V H) (b : Bool)
    (s1 : zHash K V H) (h : zHash.copyEntry Hp old s = .ok (b, s1)) : Frame s s1 := by
  unfold zHash.copyEntry at h
  cases hp : old.p with
  | null =>
    simp only [hp, Except.ok.injEq, Prod.mk.injEq] at h
    rw [← h.2]; exact Frame.frefl _
  | list f r =>
    simp only [hp] at h
    split at h
    · exact copyNodes_frame Hp _ _ _ _ h
    · simp at h
  | tree t =>
    simp only [hp] at h
    split at h
    · simp at h
    · obtain ⟨hfr, -⟩ := frame_sysAlloc s
      cases hsa : s.sysAlloc with
      | mk ok s0 =>
        rw [hsa] at h hfr
        cases ok with
        | false =>
          simp only [Except.ok.injEq, Prod.mk.injEq] at h
          rw [← h.2]; exact hfr
        | true =>
          simp only at h
          split at h
          · simp at h
          · exact hfr.ftrans (copyNodes_frame Hp _ _ _ _ h)

theorem copyEntries_frame (Hp : zMemHeap H) :
    ∀ (es : List (ENTRY K V)) (s : zHash K V H) (b : Bool) (s1 : zHash K V H),
      zHash.copyEntries Hp es s = .ok (b, s1) → Frame s s1 := by
  intro es
  induction es with
  | nil =>
    intro s b s1 h
    simp only [zHash.copyEntries, Except.ok.injEq, Prod.mk.injEq] at h
    rw [← h.2]; exact Frame.frefl _
  | cons e es ih =>
    intro s b s1 h
    rw [zHash.copyEntries] at h
    cases hi : zHash.copyEntry Hp e s with
    | error x => rw [hi] at h; simp at h
    | ok res =>
      obtain ⟨b2, s2⟩ := res
      have hfr := copyEntry_frame Hp e s b2 s2 hi
      rw [hi] at h
      cases b2 with
      | false =>
        simp only [Except.ok.injEq, Prod.mk.injEq] at h
        rw [← h.2]; exact hfr
      | true => exact hfr.ftrans (ih s2 b s1 h)

omit [LinearOrder K] in
theorem recordsOf_perm {l l' : List (DATA_NODE K V)} (h : l'.Perm l) :
    (recordsOf l').Perm (recordsOf l) := h.map _

omit [LinearOrder K] in
theorem keys_perm {l l' : List (DATA_NODE K V)} (h : l'.Perm l) :
    (l'.map (·.key)).Perm (l.map (·.key)) := h.map _

theorem copyNodes_spec (Hp : zMemHeap H) :
    ∀ (ds : List (DATA_NODE K V)) (s : zHash K V H), s.WF → (ds.map (·.key)).Nodup →
      (∀ d ∈ ds, d.key ∉ s.allNodes.map (·.key)) → ∀ s1 : zHash K V H,
      zHash.copyNodes Hp ds s = .ok (true, s1) →
      s1.WF ∧ s1.records.Perm (recordsOf ds ++ s.records) ∧ (Calm s → Calm s1) := by
  intro ds
  induction ds with
  | nil =>
    intro s hw _ _ s1 h
    simp only [zHash.copyNodes, Except.ok.injEq, Prod.mk.injEq, true_and] at h
    subst h
    exact ⟨hw, by simp [recordsOf], id⟩
  | cons d ds ih =>
    intro s hw hnd hdis s1 h
    rw [zHash.copyNodes] at h
    cases hi : zHash.inserCopyData Hp s d with
    | error x => rw [hi] at h; simp at h
    | ok res =>
      obtain ⟨b2, s2⟩ := res
      rw [hi] at h
      cases b2 with
      | false => simp at h
      | true =>
        simp only at h
        obtain ⟨hw2, -, ⟨d', hk, hv, hperm⟩, hc2⟩ :=
          inserCopyData_spec Hp s d hw (hdis d (by simp)) s2 hi
        simp only [List.map_cons, List.nodup_cons] at hnd
        obtain ⟨hw1, hp1, hc1⟩ := ih s2 hw2 hnd.2 (by
          intro x hx hm
          have := (keys_perm hperm).mem_iff.1 hm
          simp only [List.map_cons, List.mem_cons] at this
          rcases this with h1 | h1
          · exact hnd.1 (by rw [← hk, ← h1]; exact List.mem_map.2 ⟨x, hx, rfl⟩)
          · exact hdis x (by simp [hx]) h1) s1 h
        refine ⟨hw1, hp1.trans ?_, fun hc => hc1 (hc2 hc)⟩
        have h2 : s2.records.Perm ((d.key, d.value) :: s.records) := by
          have := recordsOf_perm hperm
          simpa [zHash.records, recordsOf, hk, hv] using this
        refine (List.Perm.append_left _ h2).trans ?_
        simp only [recordsOf, List.map_cons, List.cons_append]
        exact List.perm_middle

theorem copyEntry_spec (Hp : zMemHeap H) (old : ENTRY K V) (s : zHash K V H) (hw : s.WF)
    (hnd : (old.nodes.map (·.key)).Nodup)
    (hdis : ∀ d ∈ old.nodes, d.key ∉ s.allNodes.map (·.key)) (s1 : zHash K V H)
    (h : zHash.copyEntry Hp old s = .ok (true, s1)) :
    s1.WF ∧ s1.records.Perm (recordsOf old.nodes ++ s.records) ∧ (Calm s → Calm s1) := by
  unfold zHash.copyEntry at h
  unfold ENTRY.nodes at hnd hdis ⊢
  cases hp : old.p with
  | null =>
    simp only [hp, Except.ok.injEq, Prod.mk.injEq, true_and] at h
    subst h
    exact ⟨hw, by simp [recordsOf], id⟩
  | list f r =>
    simp only [hp] at h hnd hdis ⊢
    split at h
    · exact copyNodes_spec Hp _ s hw hnd hdis s1 h
    · simp at h
  | tree t =>
    simp only [hp] at h hnd hdis ⊢
    split at h
    · simp at h
    · obtain ⟨hfr, hb, -⟩ := frame_sysAlloc s
      cases hsa : s.sysAlloc with
      | mk ok s0 =>
        rw [hsa] at h hfr hb
        simp only at hfr hb
        cases ok with
        | false => simp at h
        | true =>
          simp only at h
          split at h
          · simp at h
          · have hperm := FindAllData_perm t
            obtain ⟨h1, h2, h3⟩ := copyNodes_spec Hp _ s0 ((WF_frame hfr hb).2 hw)
              ((keys_perm hperm).nodup_iff.2 hnd)
              (by intro d hd; rw [allNodes_of_bucket hb]; exact hdis d (hperm.mem_iff.1 hd)) s1 h
            refine ⟨h1, ?_, fun hc => h3 (fun j e he => hc j e (by rw [← hb]; exact he))⟩
            rw [records_of_bucket hb] at h2
            exact h2.trans (List.Perm.append_right _ (recordsOf_perm hperm))

omit [LinearOrder K] in
theorem keys_of_records (s : zHash K V H) : s.records.map Prod.fst = s.allNodes.map (·.key) :=
  keys_records _

theorem copyEntries_spec (Hp : zMemHeap H) :
    ∀ (es : List (ENTRY K V)) (s : zHash K V H), s.WF →
      (((es.map ENTRY.nodes).flatten).map (·.key)).Nodup →
      (∀ d ∈ (es.map ENTRY.nodes).flatten, d.key ∉ s.allNodes.map (·.key)) →
      ∀ s1 : zHash K V H, zHash.copyEntries Hp es s = .ok (true, s1) →
      s1.WF ∧ s1.records.Perm (recordsOf (es.map ENTRY.nodes).flatten ++ s.records) ∧
        (Calm s → Calm s1) := by
  intro es
  induction es with
  | nil =>
    intro s hw _ _ s1 h
    simp only [zHash.copyEntries, Except.ok.injEq, Prod.mk.injEq, true_and] at h
    subst h
    exact ⟨hw, by simp [recordsOf], id⟩
  | cons e es ih =>
    intro s hw hnd hdis s1 h
    rw [zHash.copyEntries] at h
    simp only [List.map_cons, List.flatten_cons, List.map_append] at hnd hdis
    rw [List.nodup_append] at hnd
    obtain ⟨hnd1, hnd2, hdj⟩ := hnd
    cases hi : zHash.copyEntry Hp e s with
    | error x => rw [hi] at h; simp at h
    | ok res =>
      obtain ⟨b2, s2⟩ := res
      rw [hi] at h
      cases b2 with
      | false => simp at h
      | true =>
        simp only at h
        obtain ⟨hw2, hp2, hc2⟩ := copyEntry_spec Hp e s hw hnd1
          (fun d hd => hdis d (List.mem_append.2 (Or.inl hd))) s2 hi
        obtain ⟨hw1, hp1, hc1⟩ := ih s2 hw2 hnd2 (by
          intro x hx hm
          rw [← keys_of_records] at hm
          have := (hp2.map Prod.fst).mem_iff.1 hm
          simp only [List.map_append, List.mem_append, keys_records] at this
          rcases this with h1 | h1
          · exact hdj h1 (List.mem_map.2 ⟨x, hx, rfl⟩)
          · rw [keys_of_records] at h1
            exact hdis x (List.mem_append.2 (Or.inr hx)) h1) s1 h
        refine ⟨hw1, hp1.trans ?_, fun hc => hc1 (hc2 hc)⟩
        refine (List.Perm.append_left _ hp2).trans ?_
        simp only [recordsOf, List.map_cons, List.flatten_cons, List.map_append,
          List.append_assoc]
        rw [← List.append_assoc, ← List.append_assoc]
        exact List.Perm.append_right _ List.perm_append_comm

omit [LinearOrder K] in
theorem allNodes_replicate (s : zHash K V H) (n : Nat)
    (h : s.pBucket = List.replicate n zHash.freshEntry) : s.allNodes = [] := by
  unfold zHash.allNodes
  rw [h]
  simp only [List.map_replicate]
  apply List.flatten_eq_nil_iff.2
  intro l hl
  rw [List.mem_replicate] at hl
  rw [hl.2]
  rfl

theorem WF_replicate (s : zHash K V H) (h : s.pBucket = List.replicate s.Buckets zHash.freshEntry)
    (h2 : 0 < s.Buckets) (h3 : s.PosMask = s.Buckets - 1) : s.WF ∧ Calm s := by
  refine ⟨⟨by rw [h]; simp, h2, h3, ?_⟩, ?_⟩
  · intro i e he
    rw [h] at he
    have := List.getElem?_mem he
    rw [List.mem_replicate] at this
    rw [this.2]
    exact ⟨by intro d hd; simp [ENTRY.nodes, zHash.freshEntry] at hd, trivial⟩
  · intro i e he
    rw [h] at he
    have := List.getElem?_mem he
    rw [List.mem_replicate] at this
    rw [this.2]
    rfl

theorem upSize_spec (Hp : zMemHeap H) (s : zHash K V H) (hw : s.WF) (b : Bool)
    (s1 : zHash K V H) (h : zHash.upSize Hp s = .ok (b, s1)) :
    (b = false → upSizeFailed s s1) ∧ (b = true → upSizeDone s s1) := by
  unfold zHash.upSize at h
  simp only at h
  have restore : ∀ (cur : zHash K V H),
      cur.Threshold = zHash.threshold s.LoadFactor (s.Buckets * 2) →
      upSizeFailed s (zHash.upSizeRestore s cur) := by
    intro cur hc
    unfold upSizeFailed zHash.upSizeRestore
    rw [hc]
  -- first request
  cases hsa1 : zHash.sysAlloc ({ s with Buckets := s.Buckets * 2, Threshold := zHash.threshold s.LoadFactor (s.Buckets * 2) } : zHash K V H) with
  | mk b1 sa =>
    obtain ⟨hf1, hb1, -⟩ := frame_sysAlloc ({ s with Buckets := s.Buckets * 2, Threshold := zHash.threshold s.LoadFactor (s.Buckets * 2) } : zHash K V H)
    rw [hsa1] at hf1 hb1 h
    simp only at hf1 hb1 h
    have hT1 : sa.Threshold = zHash.threshold s.LoadFactor (s.Buckets * 2) := hf1.fields.2.2.2.2.2.2.2.2.2.2
    cases b1 with
    | false =>
      simp only [Except.ok.injEq, Prod.mk.injEq] at h
      obtain ⟨rfl, rfl⟩ := h
      exact ⟨fun _ => restore _ hT1, fun h => by simp at h⟩
    | true =>
      simp only at h
      cases hsa2 : zHash.sysAlloc ({ sa with pHeap := Hp.create sa.Threshold } : zHash K V H) with
      | mk b2 sb =>
        obtain ⟨hf2, hb2, -⟩ := frame_sysAlloc
          ({ sa with pHeap := Hp.create sa.Threshold } : zHash K V H)
        rw [hsa2] at hf2 hb2 h
        simp only at hf2 hb2 h
        have hf2x : Frame sa sb := @Frame.ftrans K V H _ (({ sa with pHeap := Hp.create sa.Threshold } : zHash K V H)) _ (show Frame _ _ from rfl) hf2
        have hT2 : sb.Threshold = zHash.threshold s.LoadFactor (s.Buckets * 2) := by
          rw [hf2x.fields.2.2.2.2.2.2.2.2.2.2, hT1]
        cases b2 with
        | false =>
          simp only [Except.ok.injEq, Prod.mk.injEq] at h
          obtain ⟨rfl, rfl⟩ := h
          exact ⟨fun _ => restore _ hT2, fun h => by simp at h⟩
        | true =>
          simp only at h
          cases hsa3 : zHash.sysAlloc ({ sb with pBTNodeHeap := Hp.create ((sb.Threshold + 1) >>> 1) } : zHash K V H) with
          | mk b3 sc =>
            obtain ⟨hf3, hb3, -⟩ := frame_sysAlloc ({ sb with pBTNodeHeap := Hp.create ((sb.Threshold + 1) >>> 1) } : zHash K V H)
            rw [hsa3] at hf3 hb3 h
            simp only at hf3 hb3 h
            have hf3x : Frame sb sc := @Frame.ftrans K V H _ (({ sb with pBTNodeHeap := Hp.create ((sb.Threshold + 1) >>> 1) } : zHash K V H)) _ (show Frame _ _ from rfl) hf3
            have hfr : Frame ({ s with Buckets := s.Buckets * 2, Threshold := zHash.threshold s.LoadFactor (s.Buckets * 2) } : zHash K V H) sc :=
              (hf1.ftrans hf2x).ftrans hf3x
            obtain ⟨g1, g2, g3, g4, g5, g6, g7, g8, g9, g10, g11⟩ := hfr.fields
            simp only at g1 g2 g3 g4 g5 g6 g7 g8 g9 g10 g11
            cases b3 with
            | false =>
              simp only [Except.ok.injEq, Prod.mk.injEq] at h
              obtain ⟨rfl, rfl⟩ := h
              exact ⟨fun _ => restore _ g11, fun h => by simp at h⟩
            | true =>
              simp only at h
              cases hce : zHash.copyEntries Hp s.pBucket ({ sc with pBucket := List.replicate sc.Buckets zHash.freshEntry, PosMask := sc.Buckets - 1, MaskBits := zBitCount (sc.Buckets - 1) } : zHash K V H) with
              | error x => rw [hce] at h; simp at h
              | ok res =>
                obtain ⟨b5, s5⟩ := res
                rw [hce] at h
                have hf5 := copyEntries_frame Hp _ _ _ _ hce
                obtain ⟨k1, k2, k3, k4, k5, k6, k7, k8, k9, k10, k11⟩ := hf5.fields
                simp only at k1 k2 k3 k4 k5 k6 k7 k8 k9 k10 k11
                cases b5 with
                | false =>
                  simp only [Except.ok.injEq, Prod.mk.injEq] at h
                  obtain ⟨rfl, rfl⟩ := h
                  exact ⟨fun _ => restore _ (by rw [k11, g11]), fun h => by simp at h⟩
                | true =>
                  simp only [Except.ok.injEq, Prod.mk.injEq] at h
                  obtain ⟨rfl, rfl⟩ := h
                  refine ⟨fun h => by simp at h, fun _ => ?_⟩
                  obtain ⟨hw4, hc4⟩ := WF_replicate ({ sc with pBucket := List.replicate sc.Buckets zHash.freshEntry, PosMask := sc.Buckets - 1, MaskBits := zBitCount (sc.Buckets - 1) } : zHash K V H) rfl
                    (by simp only; rw [g6]; have := hw.2.1; omega) rfl
                  have hempty := allNodes_replicate ({ sc with pBucket := List.replicate sc.Buckets zHash.freshEntry, PosMask := sc.Buckets - 1, MaskBits := zBitCount (sc.Buckets - 1) } : zHash K V H) _ rfl
                  obtain ⟨hw5, hp5, hc5⟩ := copyEntries_spec Hp s.pBucket _ hw4
                    (keys_nodup hw) (by intro d _; rw [hempty]; simp) s5 hce
                  refine ⟨hw5, fun j e he => hc5 hc4 j e he,
                    ?_, ?_, ?_, ?_, ?_, ?_, ?_, ?_, rfl, ?_⟩
                  · have : ({ s5 with pBucketId := s.pBucketId + 1 } : zHash K V H).records =
                        s5.records := rfl
                    rw [this]
                    refine hp5.trans ?_
                    simp only [zHash.records, hempty, recordsOf, List.map_nil, List.append_nil]
                    exact List.Perm.refl _
                  · simp only; rw [k6]; exact g6
                  · simp only; rw [k9]; exact g9
                  · simp only; rw [k1]; exact g1
                  · simp only; rw [k2]; exact g2
                  · simp only; rw [k3]; exact g3
                  · simp only; rw [k4]; exact g4
                  · simp only; rw [k10]; exact g10
                  · simp only; rw [k11]; exact g11

omit [LinearOrder K] in
theorem Inherit.irefl (s : zHash K V H) : Inherit s s := ⟨rfl, rfl, rfl, rfl, rfl, rfl⟩

omit [LinearOrder K] in
theorem Inherit.itrans {s s1 s2 : zHash K V H} (h1 : Inherit s s1) (h2 : Inherit s1 s2) :
    Inherit s s2 := by
  unfold Inherit at h1 h2 ⊢
  refine ⟨?_, ?_, ?_, ?_, ?_, ?_⟩
  · rw [h2.1, h1.1]
  · rw [h2.2.1, h1.2.1]
  · rw [h2.2.2.1, h1.2.2.1]
  · rw [h2.2.2.2.1, h1.2.2.2.1]
  · rw [h2.2.2.2.2.1, h1.2.2.2.2.1]
  · rw [h2.2.2.2.2.2, h1.2.2.2.2.2]

omit [LinearOrder K] in
theorem Frame.inherit {s s' : zHash K V H} (h : Frame s s') : Inherit s s' := by
  obtain ⟨a1, a2, a3, a4, -, -, -, -, a9, a10, -⟩ := h.fields
  exact ⟨a1, a2, a3, a4, a9, a10⟩

omit [LinearOrder K] in
theorem SameGeom.grefl (s : zHash K V H) : SameGeom s s := ⟨rfl, rfl, rfl, rfl, rfl⟩

omit [LinearOrder K] in
theorem SameGeom.gtrans {s s1 s2 : zHash K V H} (h1 : SameGeom s s1) (h2 : SameGeom s1 s2) :
    SameGeom s s2 := by
  obtain ⟨a1, a2, a3, a4, a5⟩ := h1
  obtain ⟨b1, b2, b3, b4, b5⟩ := h2
  exact ⟨b1.trans a1, b2.trans a2, b3.trans a3, b4.trans a4, b5.trans a5⟩

omit [LinearOrder K] in
theorem Frame.geom {s s' : zHash K V H} (h : Frame s s') : SameGeom s s' := by
  obtain ⟨a1, -, -, -, a5, a6, a7, a8, -⟩ := h.fields
  exact ⟨a1, a6, a7, a8, a5⟩

omit [LinearOrder K] in
theorem SameGeom.gpos {s s' : zHash K V H} (h : SameGeom s s') (k : K) : s'.pos k = s.pos k := by
  obtain ⟨a1, -, a3, a4, -⟩ := h
  unfold zHash.pos
  rw [a1, a3, a4]

theorem WF_geom {s s' : zHash K V H} (h : SameGeom s s') (hb : s'.pBucket = s.pBucket) :
    s'.WF ↔ s.WF := by
  obtain ⟨a1, a2, a3, a4, -⟩ := h
  unfold zHash.WF
  rw [a1, a2, a3, a4, hb]

theorem find_congr {s s' : zHash K V H} (hw : s.WF) (hw' : s'.WF)
    (h : ∀ d, d ∈ s'.allNodes ↔ d ∈ s.allNodes) (k : K) : s'.find k = s.find k := by
  apply Option.ext
  intro d
  simp only [Option.mem_def]
  rw [find_iff_mem hw, find_iff_mem hw', h]

theorem setLock_spec {s : zHash K V H} (hw : s.WF) (pos : Nat) (e : ENTRY K V)
    (he : s.pBucket[pos]? = some e) (l : zRWLock) :
    (s.setEntry pos { e with lock := l }).WF ∧ Frame s (s.setEntry pos { e with lock := l }) ∧
    (s.setEntry pos { e with lock := l }).allNodes = s.allNodes ∧
    (s.setEntry pos { e with lock := l }).pBucket[pos]? = some { e with lock := l } ∧
    (∀ j, j ≠ pos → (s.setEntry pos { e with lock := l }).pBucket[j]? = s.pBucket[j]?) := by
  have hwe := hw.2.2.2 pos e he
  obtain ⟨h1, h2, ⟨L, R, hL, hR⟩, h4, h5⟩ := update_entry hw (Frame.frefl s) rfl pos e
    { e with lock := l } he hwe
  exact ⟨h1, h2, by rw [hL, hR]; rfl, h4, h5⟩

theorem wLockAt_spec {s : zHash K V H} (hw : s.WF) (pos : Nat) (hp : pos < s.pBucket.length) :
    ∃ s1, s.wLockAt pos = .ok s1 ∧ s1.WF ∧ Frame s s1 ∧ s1.allNodes = s.allNodes ∧
      Held s1 pos ∧ s1.pHeap = s.pHeap ∧ s1.pBTNodeHeap = s.pBTNodeHeap ∧
      (∀ e, s.pBucket[pos]? = some e → s1.pBucket[pos]? = some { e with lock := wlocked }) ∧
      (∀ j, j ≠ pos → s1.pBucket[j]? = s.pBucket[j]?) := by
  have he : s.pBucket[pos]? = some s.pBucket[pos] := List.getElem?_eq_getElem hp
  obtain ⟨h1, h2, h3, h4, h5⟩ := setLock_spec hw pos _ he (zRWLock.WLock s.pBucket[pos].lock)
  refine ⟨_, by unfold zHash.wLockAt; rw [he], h1, h2, h3, ⟨_, h4, rfl⟩, rfl, rfl, ?_, h5⟩
  intro e he'
  rw [he] at he'
  cases he'
  exact h4

theorem wUnlockAt_spec {s : zHash K V H} (hw : s.WF) (pos : Nat) (hh : Held s pos) :
    (s.wUnlockAt pos).WF ∧ Frame s (s.wUnlockAt pos) ∧ (s.wUnlockAt pos).allNodes = s.allNodes ∧
      (∃ e, (s.wUnlockAt pos).pBucket[pos]? = some e ∧ e.lock = zRWLock.init) ∧
      (s.wUnlockAt pos).pHeap = s.pHeap ∧ (s.wUnlockAt pos).pBTNodeHeap = s.pBTNodeHeap ∧
      (∀ j, j ≠ pos → (s.wUnlockAt pos).pBucket[j]? = s.pBucket[j]?) := by
  obtain ⟨e, he, hl⟩ := hh
  obtain ⟨h1, h2, h3, h4, h5⟩ := setLock_spec hw pos _ he (zRWLock.WUnlock e.lock)
  have : s.wUnlockAt pos = s.setEntry pos { e with lock := e.lock.WUnlock } := by
    unfold zHash.wUnlockAt; rw [he]
  rw [this]
  refine ⟨h1, h2, h3, ⟨_, h4, ?_⟩, rfl, rfl, h5⟩
  simp only [hl]
  decide

theorem pauseAndUpsize_spec (Hp : zMemHeap H) (s : zHash K V H) (hw : s.WF) (b : Bool)
    (s1 : zHash K V H) (h : zHash.pauseAndUpsize Hp s = .ok (b, s1)) :
    (b = false → s1 = s ∨ upSizeFailed s s1) ∧ (b = true → s1 = s ∨ upSizeDone s s1) := by
  unfold zHash.pauseAndUpsize at h
  split at h
  · split at h
    · simp only [Except.ok.injEq, Prod.mk.injEq] at h
      obtain ⟨rfl, rfl⟩ := h
      exact ⟨fun _ => Or.inl rfl, fun h => by simp at h⟩
    · split at h
      · obtain ⟨h1, h2⟩ := upSize_spec Hp s hw b s1 h
        exact ⟨fun hb => Or.inr (h1 hb), fun hb => Or.inr (h2 hb)⟩
      · simp only [Except.ok.injEq, Prod.mk.injEq] at h
        obtain ⟨rfl, rfl⟩ := h
        exact ⟨fun h => by simp at h, fun _ => Or.inl rfl⟩
  · simp only [Except.ok.injEq, Prod.mk.injEq] at h
    obtain ⟨rfl, rfl⟩ := h
    exact ⟨fun _ => Or.inl rfl, fun h => by simp at h⟩

omit [LinearOrder K] in
theorem upSizeFailed_facts {s s1 : zHash K V H} (h : upSizeFailed s s1) :
    SameGeom s s1 ∧ Inherit s s1 ∧ s1.pBucket = s.pBucket ∧ s1.pHeap = s.pHeap ∧
      s1.pBTNodeHeap = s.pBTNodeHeap := by
  unfold upSizeFailed at h
  rw [h]
  exact ⟨⟨rfl, rfl, rfl, rfl, rfl⟩, ⟨rfl, rfl, rfl, rfl, rfl, rfl⟩, rfl, rfl, rfl⟩

theorem storeAt_spec {s : zHash K V H} (hw : s.WF) (key : K) (d : DATA_NODE K V)
    (hf : s.find key = some d) (v : V) :
    (s.storeAt (s.pos key) d.h d.key v).WF ∧ Frame s (s.storeAt (s.pos key) d.h d.key v) ∧
    (∃ L R, s.allNodes = L ++ d :: R ∧
      (s.storeAt (s.pos key) d.h d.key v).allNodes = L ++ { d with value := v } :: R) ∧
    (∀ j, (s.storeAt (s.pos key) d.h d.key v).lockAt j = s.lockAt j) ∧
    (s.storeAt (s.pos key) d.h d.key v).pHeap = s.pHeap ∧
    (s.storeAt (s.pos key) d.h d.key v).pBTNodeHeap = s.pBTNodeHeap := by
  obtain ⟨e, he, hwe⟩ := entry_at hw key
  have hfe : e.find (s.pHashFun key s.MaskBits) key = some d := by
    rw [find_eq, he] at hf; exact hf
  obtain ⟨hmem, hk⟩ := (entry_find_iff hwe key d).1 hfe
  have hdh : d.h = s.pHashFun key s.MaskBits := by rw [(hwe.1 d hmem).1, hk]
  have locks : ∀ (e' : ENTRY K V), e'.lock = e.lock → ∀ j,
      (s.setEntry (s.pos key) e').lockAt j = s.lockAt j := by
    intro e' hl j
    unfold zHash.lockAt
    by_cases hj : j = s.pos key
    · subst hj
      rw [setEntry_same _ _ _ (pos_lt hw key), he]
      simp [hl]
    · rw [setEntry_ne _ _ _ _ hj]
  unfold zHash.storeAt
  rw [he]
  unfold ENTRY.find at hfe
  obtain ⟨hh, hm⟩ := hwe
  cases hp : e.p with
  | null => rw [hp] at hfe; simp at hfe
  | list f r =>
    rw [hp] at hfe hm
    simp only [hp] at hfe hm ⊢
    have hnodes : e.nodes = f :: r := by simp [ENTRY.nodes, hp]
    rw [hnodes] at hh
    rw [hdh, hk]
    obtain ⟨A, B, hA, hB, -⟩ := listFind_split hfe v
    rw [hB]
    have hwf' : (⟨ChainPtr.ofList (A ++ { d with value := v } :: B), e.lock, e.Size_Type⟩ :
        ENTRY K V).WF s.pHashFun s.MaskBits s.PosMask (s.pos key) := by
      have hlen : e.Size_Type = (A ++ { d with value := v } :: B).length := by
        rw [hm.1, hA]; simp
      rw [hlen]
      apply wf_ofList
      · intro x hx
        simp only [List.mem_append, List.mem_cons] at hx
        rcases hx with hx | rfl | hx
        · exact hh x (by rw [hA]; simp [hx])
        · exact hh d (by rw [hA]; simp)
        · exact hh x (by rw [hA]; simp [hx])
      · have := hm.2
        rw [hA] at this
        unfold DistinctKeys
        have h1 := (List.pairwise_map (f := fun x : DATA_NODE K V => x.key) (R := (· ≠ ·))).2 this
        apply (List.pairwise_map (f := fun x : DATA_NODE K V => x.key) (R := (· ≠ ·))).1
        simpa using h1
    obtain ⟨h1, h2, ⟨L, R, hL, hR⟩, h4, h5⟩ := update_entry hw (Frame.frefl s) rfl _ e _ he hwf'
    refine ⟨h1, h2, ⟨L ++ A, B ++ R, ?_, ?_⟩, locks _ rfl, rfl, rfl⟩
    · rw [hL, hnodes, hA]; simp
    · rw [hR, nodes_ofList]; simp [hdh, hk]
  | tree t =>
    rw [hp] at hfe hm
    simp only [hp] at hfe hm ⊢
    have hnodes : e.nodes = t.toList := by simp [ENTRY.nodes, hp]
    rw [hnodes] at hh
    rw [hdh, hk]
    obtain ⟨hv', hs', A, B, hA, hB⟩ := tree_storeValue_spec hm.2.1 key _ v d hfe
    have hwf' : (⟨.tree (t.storeValue key (s.pHashFun key s.MaskBits) v), e.lock, e.Size_Type⟩ :
        ENTRY K V).WF s.pHashFun s.MaskBits s.PosMask (s.pos key) := by
      rw [hm.1]
      apply wf_tree _ hv' (by rw [hs']; exact hm.2.2)
      intro x hx
      rw [hB] at hx
      simp only [List.mem_append, List.mem_cons] at hx
      rcases hx with hx | rfl | hx
      · exact hh x (by rw [hA]; simp [hx])
      · exact hh d (by rw [hA]; simp)
      · exact hh x (by rw [hA]; simp [hx])
    obtain ⟨h1, h2, ⟨L, R, hL, hR⟩, h4, h5⟩ := update_entry hw (Frame.frefl s) rfl _ e _ he hwf'
    refine ⟨h1, h2, ⟨L ++ A, B ++ R, ?_, ?_⟩, locks _ rfl, rfl, rfl⟩
    · rw [hL, hnodes, hA]; simp
    · rw [hR]
      show L ++ (t.storeValue key (s.pHashFun key s.MaskBits) v).toList ++ R = _
      rw [hB]; simp [hdh, hk]

theorem InsPost.step {s s1 s2 : zHash K V H} {pos pT : Nat} {key : K} {u : V} {r : RETURN_CODE}
    {pRet : Option (DATA_NODE K V)} (hb : Base s s1 pos) (hr : s1.records.Perm s.records)
    (h : InsPost s1 pos key u r s2 pT pRet) : InsPost s pos key u r s2 pT pRet := by
  obtain ⟨-, hi, hg, -, hl⟩ := hb
  obtain ⟨a1, a2, a3, a4, a5, a6, a7, a8⟩ := h
  refine ⟨a1, hi.itrans a2, a3, a4, ?_, ?_, ?_, ?_⟩
  · rcases a5 with ⟨g, hp, hlk⟩ | hB
    · exact Or.inl ⟨hg.gtrans g, hp, fun j hj => (hlk j hj).trans (hl j hj)⟩
    · exact Or.inr hB
  · intro hs
    obtain ⟨d, b1, b2, b3, b4⟩ := a6 hs
    exact ⟨d, b1, b2, b3, b4.trans (List.Perm.cons _ hr)⟩
  · intro hs
    obtain ⟨d, b1, b2, b3⟩ := a7 hs
    exact ⟨d, b1, b2, b3.trans hr⟩
  · intro hs
    obtain ⟨b1, b2⟩ := a8 hs
    refine ⟨b1, ?_⟩
    rcases b2 with b2 | b2
    · exact Or.inl (b2.trans hr)
    · exact Or.inr (b2.trans (List.Perm.cons _ hr))

theorem insPost_of_base {s s2 : zHash K V H} {pos : Nat} {key : K} {u : V} {r : RETURN_CODE}
    {pRet : Option (DATA_NODE K V)} (hb : Base s s2 pos) (hpos : pos = s.pos key)
    (h1 : r = .SUCCESS → ∃ d, pRet = some d ∧ d.value = u ∧ s2.find key = some d ∧
      s2.records.Perm ((key, u) :: s.records))
    (h2 : r = .HASH_KEY_EXIST → ∃ d, pRet = some d ∧ s2.find key = some d ∧
      s2.records.Perm s.records)
    (h3 : r = .ERR_MEMORY → pRet = none ∧
      (s2.records.Perm s.records ∨ s2.records.Perm ((key, u) :: s.records))) :
    InsPost s pos key u r s2 pos pRet := by
  obtain ⟨a1, a2, a3, a4, a5⟩ := hb
  exact ⟨a1, a2, by rw [a3.gpos]; exact hpos, a4, Or.inl ⟨a3, rfl, a5⟩, h1, h2, h3⟩

theorem base_of_bucket {s s1 : zHash K V H} {pos : Nat} (hw : s.WF) (hh : Held s pos)
    (hi : Inherit s s1) (hg : SameGeom s s1) (hb : s1.pBucket = s.pBucket) :
    Base s s1 pos ∧ s1.records = s.records := by
  refine ⟨⟨(WF_geom hg hb).2 hw, hi, hg, ?_, ?_⟩, records_of_bucket hb⟩
  · obtain ⟨e, he, hl⟩ := hh
    exact ⟨e, by rw [hb]; exact he, hl⟩
  · intro j _
    unfold zHash.lockAt
    rw [hb]

theorem base_of_entry {s s0 : zHash K V H} {pos : Nat} {e e' : ENTRY K V} (hw : s.WF)
    (hfr : Frame s s0) (hb : s0.pBucket = s.pBucket) (he : s.pBucket[pos]? = some e)
    (hl : e.lock = wlocked) (hwf : e'.WF s.pHashFun s.MaskBits s.PosMask pos)
    (hlk : e'.lock = e.lock) :
    Base s (s0.setEntry pos e') pos ∧
    (∃ L R, s.allNodes = L ++ e.nodes ++ R ∧ (s0.setEntry pos e').allNodes = L ++ e'.nodes ++ R) ∧
    (s0.setEntry pos e').pBucket[pos]? = some e' := by
  obtain ⟨h1, h2, h3, h4, h5⟩ := update_entry hw hfr hb pos e e' he hwf
  refine ⟨⟨h1, h2.inherit, h2.geom, ⟨e', h4, by rw [hlk, hl]⟩, ?_⟩, h3, h4⟩
  intro j hj
  unfold zHash.lockAt
  rw [h5 j hj]

omit [LinearOrder K] in
theorem records_perm_ins {s s2 : zHash K V H} {d : DATA_NODE K V}
    (h : s2.allNodes.Perm (d :: s.allNodes)) :
    s2.records.Perm ((d.key, d.value) :: s.records) := by
  have := recordsOf_perm h
  simpa [zHash.records, recordsOf] using this

theorem insertRetry_spec (Hp : zMemHeap H)
    (again : zHash K V H → Nat → Nat →
      Except Fault (RETURN_CODE × zHash K V H × Nat × Option (DATA_NODE K V)))
    (key : K) (u : V)
    (ih : ∀ (s : zHash K V H) (pos h : Nat), s.WF → pos = s.pos key →
      h = s.pHashFun key s.MaskBits → Held s pos →
      ∀ r s2 pT pRet, again s pos h = .ok (r, s2, pT, pRet) → InsPost s pos key u r s2 pT pRet)
    (s1 : zHash K V H) (pos : Nat) (hw : s1.WF) (hpos : pos = s1.pos key) (hh : Held s1 pos)
    (r : RETURN_CODE) (s2 : zHash K V H) (pT : Nat) (pRet : Option (DATA_NODE K V))
    (h : zHash.insertRetry Hp again s1 pos key = .ok (r, s2, pT, pRet)) :
    InsPost s1 pos key u r s2 pT pRet := by
  unfold zHash.insertRetry at h
  cases hpu : zHash.pauseAndUpsize Hp s1 with
  | error x => rw [hpu] at h; simp at h
  | ok res =>
    obtain ⟨b, sp⟩ := res
    rw [hpu] at h
    obtain ⟨hF, hT⟩ := pauseAndUpsize_spec Hp s1 hw b sp hpu
    cases b with
    | false =>
      simp only [Except.ok.injEq, Prod.mk.injEq] at h
      obtain ⟨rfl, rfl, rfl, rfl⟩ := h
      have hbase : Base s1 sp pos ∧ sp.records = s1.records := by
        rcases hF rfl with rfl | hfail
        · exact base_of_bucket hw hh (Inherit.irefl _) (SameGeom.grefl _) rfl
        · obtain ⟨g, i, hb, -⟩ := upSizeFailed_facts hfail
          exact base_of_bucket hw hh i g hb
      exact insPost_of_base hbase.1 hpos (fun h => by simp at h) (fun h => by simp at h)
        (fun _ => ⟨rfl, Or.inl (by rw [hbase.2])⟩)
    | true =>
      simp only at h
      unfold zHash.relock at h
      simp only at h
      rcases hT rfl with rfl | hdone
      · -- no rebuild: the same entry is unlocked and locked again
        simp only [if_true] at h
        obtain ⟨u1, u2, u3, ⟨eu, u4, u4l⟩, -, -, u5⟩ := wUnlockAt_spec hw pos hh
        have hposeq : sp.pHashFun key sp.MaskBits &&& sp.PosMask = pos := hpos.symm
        rw [hposeq] at h
        have hlt : pos < (sp.wUnlockAt pos).pBucket.length := by
          by_contra hc
          rw [List.getElem?_eq_none (by omega)] at u4
          simp at u4
        obtain ⟨s3, hl3, w1, w2, w3, w4, -, -, -, w6⟩ := wLockAt_spec u1 pos hlt
        rw [hl3] at h
        simp only at h
        have hb : Base sp s3 pos := by
          refine ⟨w1, (u2.ftrans w2).inherit, (u2.ftrans w2).geom, w4, ?_⟩
          intro j hj
          unfold zHash.lockAt
          rw [w6 j hj, u5 j hj]
        have hrec : s3.records.Perm sp.records := by
          unfold zHash.records
          rw [w3, u3]
        have := ih s3 pos (sp.pHashFun key sp.MaskBits) w1
          (by rw [hb.2.2.1.gpos]; exact hpos) (by
            obtain ⟨g1, -, -, g4, -⟩ := hb.2.2.1
            rw [g1, g4]) w4 r s2 pT pRet h
        exact InsPost.step hb hrec this
      · -- rebuild: the unlock of the old entry writes into the released array
        obtain ⟨d1, d2, d3, d4, d5, d6, d7, d8, d9, d10, d11, d12⟩ := hdone
        have hne : ¬ sp.pBucketId = s1.pBucketId := by rw [d11]; omega
        simp only [hne, if_false] at h
        simp at h

theorem find_of_entry {s : zHash K V H} (hw : s.WF) (key : K) (d : DATA_NODE K V)
    (e : ENTRY K V) (he : s.pBucket[s.pos key]? = some e) (hd : d ∈ e.nodes) (hk : d.key = key) :
    s.find key = some d :=
  (find_iff_mem hw key d).2 ⟨mem_allNodes.2 ⟨_, e, he, hd⟩, hk⟩

theorem insertKey_spec (Hp : zMemHeap H) (key : K) (u : V) :
    ∀ (fuel : Nat) (s : zHash K V H) (pos h : Nat), s.WF → pos = s.pos key →
      h = s.pHashFun key s.MaskBits → Held s pos →
      ∀ r s2 pT pRet, zHash.insertKey Hp fuel s pos h key u = .ok (r, s2, pT, pRet) →
        InsPost s pos key u r s2 pT pRet := by
  intro fuel
  induction fuel with
  | zero =>
    intro s pos h _ _ _ _ r s2 pT pRet hres
    simp [zHash.insertKey] at hres
  | succ fuel ih =>
    intro s pos h hw hpos hh hheld r s2 pT pRet hres
    rw [zHash.insertKey] at hres
    simp only at hres
    obtain ⟨e, he, hlk⟩ := hheld
    have hheld : Held s pos := ⟨e, he, hlk⟩
    have hwe : e.WF s.pHashFun s.MaskBits s.PosMask pos := hw.2.2.2 pos e he
    have hposm : h &&& s.PosMask = pos := by rw [hh, hpos]; rfl
    rw [he] at hres
    simp only at hres
    have retry : ∀ s1 : zHash K V H, Base s s1 pos → s1.records.Perm s.records →
        zHash.insertRetry Hp (fun s3 pos1 h1 => zHash.insertKey Hp fuel s3 pos1 h1 key u)
          s1 pos key = .ok (r, s2, pT, pRet) → InsPost s pos key u r s2 pT pRet := by
      intro s1 hb hrec hr
      exact InsPost.step hb hrec (insertRetry_spec Hp _ key u
        (fun s' pos' h' a b c d r' s2' pT' pRet' hx => ih s' pos' h' a b c d r' s2' pT' pRet' hx)
        s1 pos hb.1 (by rw [hb.2.2.1.gpos]; exact hpos) hb.2.2.2.1 r s2 pT pRet hr)
    obtain ⟨hhash, hm⟩ := hwe
    cases hp : e.p with
    | null =>
      rw [hp] at hres
      simp only at hres
      have hnodes : e.nodes = [] := by simp [ENTRY.nodes, hp]
      cases hal : Hp.LockAlloc s.pHeap with
      | mk so hp1 =>
        rw [hal] at hres
        cases so with
        | none =>
          simp only at hres
          obtain ⟨hb, hr⟩ := @base_of_bucket K V H _ _ ({ s with pHeap := hp1 }) _ hw hheld
            ⟨rfl, rfl, rfl, rfl, rfl, rfl⟩ ⟨rfl, rfl, rfl, rfl, rfl⟩ rfl
          exact retry _ hb (by rw [hr]) hres
        | some slot =>
          simp only [Except.ok.injEq, Prod.mk.injEq] at hres
          obtain ⟨rfl, rfl, rfl, rfl⟩ := hres
          obtain ⟨hb, ⟨L, R, hL, hR⟩, hget⟩ := @base_of_entry K V H _ _ ({ s with pHeap := hp1 }) _ _
            ({ e with p := .list { slot := slot, h := h, key := key, value := u } [], Size_Type := 1 })
            hw rfl rfl he hlk
            ⟨by simp only [ENTRY.nodes]
                exact hashed_cons (by simp only; exact hh) hposm (by intro x hx; simp at hx),
             rfl, by simp⟩ rfl
          refine insPost_of_base hb hpos (fun _ => ⟨_, rfl, rfl, ?_, ?_⟩)
            (fun h => by simp at h) (fun h => by simp at h)
          · exact find_of_entry hb.1 key _ _ (by rw [hb.2.2.1.gpos, ← hpos]; exact hget)
              (by simp [ENTRY.nodes]) rfl
          · apply records_perm_ins (d := { slot := slot, h := h, key := key, value := u })
            rw [hL, hR]
            exact perm_ins (show List.Perm [_] (_ :: e.nodes) by rw [hnodes])
    | list f r' =>
      rw [hp] at hres hm
      simp only at hres hm
      have hnodes : e.nodes = f :: r' := by simp [ENTRY.nodes, hp]
      rw [hnodes] at hhash
      obtain ⟨hsz, hdist⟩ := hm
      have hpos0 : 0 < e.Size_Type := by rw [hsz]; simp
      simp only [hpos0, if_true] at hres
      cases hfd : listFind h key (f :: r') with
      | some pNext =>
        rw [hfd] at hres
        simp only [Except.ok.injEq, Prod.mk.injEq] at hres
        obtain ⟨rfl, rfl, rfl, rfl⟩ := hres
        obtain ⟨hb, hr⟩ := @base_of_bucket K V H _ _ (s) _ hw hheld (Inherit.irefl _) (SameGeom.grefl _) rfl
        refine insPost_of_base hb hpos (fun h => by simp at h)
          (fun _ => ⟨_, rfl, ?_, List.Perm.refl _⟩) (fun h => by simp at h)
        obtain ⟨g1, -, g3⟩ := listFind_some hfd
        exact find_of_entry hw key _ e (by rw [← hpos]; exact he) (by rw [hnodes]; exact g1) g3
      | none =>
        rw [hfd] at hres
        simp only at hres
        have hnk : key ∉ (f :: r').map (·.key) := by
          intro hmem
          obtain ⟨d, hd, hdk⟩ := List.mem_map.1 hmem
          exact listFind_none hfd d hd ⟨by rw [(hhash d hd).1, hdk, hh], hdk⟩
        cases hal : Hp.LockAlloc s.pHeap with
        | mk so hp1 =>
          rw [hal] at hres
          cases so with
          | none =>
            simp only at hres
            obtain ⟨hb, hr⟩ := @base_of_bucket K V H _ _ ({ s with pHeap := hp1 }) _ hw hheld
              ⟨rfl, rfl, rfl, rfl, rfl, rfl⟩ ⟨rfl, rfl, rfl, rfl, rfl⟩ rfl
            exact retry _ hb (by rw [hr]) hres
          | some slot =>
            simp only at hres
            obtain ⟨hb, ⟨L, R, hL, hR⟩, hget⟩ := @base_of_entry K V H _ _ ({ s with pHeap := hp1 }) _ _
              ({ e with p := .list { slot := slot, h := h, key := key, value := u } (f :: r'), Size_Type := e.Size_Type + 1 })
              hw rfl rfl he hlk
              ⟨by simp only [ENTRY.nodes]
                  exact hashed_cons (by simp only; exact hh) hposm hhash,
               by simp [hsz], distinct_cons hnk hdist⟩ rfl
            have hperm1 : (({ s with pHeap := hp1 } : zHash K V H).setEntry pos
                { e with p := .list { slot := slot, h := h, key := key, value := u } (f :: r'), Size_Type := e.Size_Type + 1 }).records.Perm
                ((key, u) :: s.records) := by
              apply records_perm_ins (d := { slot := slot, h := h, key := key, value := u })
              rw [hL, hR]
              exact perm_ins (show List.Perm (_ :: f :: r') (_ :: e.nodes) by rw [hnodes])
            by_cases hbig : MAX_LINKEDLIST_SIZE ≤ e.Size_Type + 1
            · simp only [hbig, if_true] at hres
              cases hl : zHash.listToBTree Hp (({ s with pHeap := hp1 } : zHash K V H).setEntry pos
                { e with p := .list { slot := slot, h := h, key := key, value := u } (f :: r'), Size_Type := e.Size_Type + 1 }) pos with
              | error x => rw [hl] at hres; simp at hres
              | ok res =>
                obtain ⟨b, s3⟩ := res
                rw [hl] at hres
                obtain ⟨hF, hT⟩ := listToBTree_spec Hp _ pos _ _ _ hget rfl b s3 hl
                cases b with
                | false =>
                  simp only [Except.ok.injEq, Prod.mk.injEq] at hres
                  obtain ⟨rfl, rfl, rfl, rfl⟩ := hres
                  obtain ⟨hfr3, hb3⟩ := hF rfl
                  obtain ⟨hbb, hrr⟩ := base_of_bucket hb.1 hb.2.2.2.1 hfr3.inherit hfr3.geom hb3
                  have hbase : Base s s3 pos := by
                    obtain ⟨c1, c2, c3, c4, c5⟩ := hbb
                    obtain ⟨e1, e2, e3, e4, e5⟩ := hb
                    exact ⟨c1, e2.itrans c2, e3.gtrans c3, c4, fun j hj => (c5 j hj).trans (e5 j hj)⟩
                  exact insPost_of_base hbase hpos (fun h => by simp at h) (fun h => by simp at h)
                    (fun _ => ⟨rfl, Or.inr (by rw [hrr]; exact hperm1)⟩)
                | true =>
                  simp only [Except.ok.injEq, Prod.mk.injEq] at hres
                  obtain ⟨rfl, rfl, rfl, rfl⟩ := hres
                  obtain ⟨s0, t, hfr0, hb0, rfl, htv, htp⟩ := hT rfl
                  have hs0 : s0.pBucket = s.pBucket.set pos
                      { e with p := .list { slot := slot, h := h, key := key, value := u } (f :: r'), Size_Type := e.Size_Type + 1 } := hb0
                  have heq : s0.setEntry pos { p := .tree t, lock := e.lock, Size_Type := 0 } =
                      ({ s0 with pBucket := s.pBucket } : zHash K V H).setEntry pos
                        { p := .tree t, lock := e.lock, Size_Type := 0 } := by
                    simp [zHash.setEntry, hs0]
                  have hfrs : Frame s ({ s0 with pBucket := s.pBucket } : zHash K V H) := by
                    have h0 : Frame s (({ s with pHeap := hp1 } : zHash K V H).setEntry pos
                      { e with p := .list { slot := slot, h := h, key := key, value := u } (f :: r'), Size_Type := e.Size_Type + 1 }) := rfl
                    have h1 : Frame s s0 := h0.ftrans hfr0
                    exact h1.ftrans rfl
                  obtain ⟨hb2, ⟨L2, R2, hL2, hR2⟩, hget2⟩ := @base_of_entry K V H _ _
                    (({ s0 with pBucket := s.pBucket } : zHash K V H)) _ _
                    ({ p := .tree t, lock := e.lock, Size_Type := 0 })
                    hw hfrs rfl he hlk
                    (wf_tree (hashed_perm htp (hashed_cons (by simp only; exact hh) hposm hhash)) htv
                      (by rw [valid_size htv, htp.length_eq]
                          simp only [List.length_cons, MIN_BTREE_SIZE]
                          simp only [List.length_cons, MAX_LINKEDLIST_SIZE] at hsz hbig
                          omega) _) rfl
                  have hgoal : InsPost s pos key u .SUCCESS
                      (({ s0 with pBucket := s.pBucket } : zHash K V H).setEntry pos
                        { p := .tree t, lock := e.lock, Size_Type := 0 }) pos
                      (some { slot := slot, h := h, key := key, value := u }) := by
                    refine insPost_of_base hb2 hpos (fun _ => ⟨_, rfl, rfl, ?_, ?_⟩)
                      (fun h => by simp at h) (fun h => by simp at h)
                    · exact find_of_entry hb2.1 key _ _ (by rw [hb2.2.2.1.gpos, ← hpos]; exact hget2)
                        (by simp only [ENTRY.nodes]; exact htp.mem_iff.2 (by simp)) rfl
                    · apply records_perm_ins (d := { slot := slot, h := h, key := key, value := u })
                      rw [hL2, hR2]
                      exact perm_ins (show t.toList.Perm (_ :: e.nodes) by rw [hnodes]; exact htp)
                  rw [← heq] at hgoal
                  exact hgoal
            · simp only [hbig, if_false, Except.ok.injEq, Prod.mk.injEq] at hres
              obtain ⟨rfl, rfl, rfl, rfl⟩ := hres
              refine insPost_of_base hb hpos (fun _ => ⟨_, rfl, rfl, ?_, hperm1⟩)
                (fun h => by simp at h) (fun h => by simp at h)
              exact find_of_entry hb.1 key _ _ (by rw [hb.2.2.1.gpos, ← hpos]; exact hget)
                (by simp [ENTRY.nodes]) rfl
    | tree t =>
      rw [hp] at hres hm
      simp only at hres hm
      have hnodes : e.nodes = t.toList := by simp [ENTRY.nodes, hp]
      rw [hnodes] at hhash
      obtain ⟨hsz, htv, hts⟩ := hm
      simp only [hsz, lt_irrefl, if_false] at hres
      cases hal : Hp.LockAlloc s.pHeap with
      | mk so hp1 =>
        rw [hal] at hres
        cases so with
        | none =>
          simp only at hres
          obtain ⟨hb, hr⟩ := @base_of_bucket K V H _ _ ({ s with pHeap := hp1 }) _ hw hheld
            ⟨rfl, rfl, rfl, rfl, rfl, rfl⟩ ⟨rfl, rfl, rfl, rfl, rfl⟩ rfl
          cases hfd : t.FindData key h with
          | some pD =>
            rw [hfd] at hres
            simp only [Except.ok.injEq, Prod.mk.injEq] at hres
            obtain ⟨rfl, rfl, rfl, rfl⟩ := hres
            refine insPost_of_base hb hpos (fun h => by simp at h)
              (fun _ => ⟨_, rfl, ?_, by rw [hr]⟩) (fun h => by simp at h)
            obtain ⟨g1, -, g3⟩ := (FindData_iff htv key h pD).1 hfd
            exact find_of_entry hb.1 key _ e (by rw [hb.2.2.1.gpos, ← hpos]; exact he)
              (by rw [hnodes]; exact g1) g3
          | none =>
            rw [hfd] at hres
            simp only at hres
            exact retry _ hb (by rw [hr]) hres
        | some slot =>
          simp only at hres
          cases hi : t.Insert Hp { slot := slot, h := h, key := key, value := u } s.pBTNodeHeap with
          | mk st rest =>
            obtain ⟨t1, hp2⟩ := rest
            rw [hi] at hres
            obtain ⟨-, hspec, hv1⟩ := Insert_spec Hp t _ _ (Or.inr htv) st t1 hp2 hi
            have hv1' : t1.Valid := hv1 (Or.inl htv)
            cases st with
            | noFuel => simp at hres
            | inserted =>
              simp only [Except.ok.injEq, Prod.mk.injEq] at hres
              obtain ⟨rfl, rfl, rfl, rfl⟩ := hres
              have hperm := insSpec_perm hspec
              obtain ⟨hb, ⟨L, R, hL, hR⟩, hget⟩ := @base_of_entry K V H _ _
                ({ s with pHeap := hp1, pBTNodeHeap := hp2 }) _ _
                ({ p := .tree t1, lock := e.lock, Size_Type := 0 }) hw rfl rfl he hlk
                (wf_tree (hashed_perm hperm (hashed_cons (by simp only; exact hh) hposm hhash)) hv1'
                  (by rw [valid_size hv1', hperm.length_eq, List.length_cons, ← valid_size htv]
                      omega) _) rfl
              refine insPost_of_base hb hpos (fun _ => ⟨_, rfl, rfl, ?_, ?_⟩)
                (fun h => by simp at h) (fun h => by simp at h)
              · exact find_of_entry hb.1 key _ _ (by rw [hb.2.2.1.gpos, ← hpos]; exact hget)
                  (by simp only [ENTRY.nodes]; exact hperm.mem_iff.2 (by simp)) rfl
              · apply records_perm_ins (d := { slot := slot, h := h, key := key, value := u })
                rw [hL, hR]
                exact perm_ins (show t1.toList.Perm (_ :: e.nodes) by rw [hnodes]; exact hperm)
            | found pD =>
              simp only [Except.ok.injEq, Prod.mk.injEq] at hres
              obtain ⟨rfl, rfl, rfl, rfl⟩ := hres
              obtain ⟨hmem, hkh, hsame⟩ := hspec
              obtain ⟨hb, ⟨L, R, hL, hR⟩, hget⟩ := @base_of_entry K V H _ _
                ({ s with pHeap := Hp.LockFree hp1 slot, pBTNodeHeap := hp2 }) _ _
                ({ p := .tree t1, lock := e.lock, Size_Type := 0 }) hw rfl rfl he hlk
                (wf_tree (by rw [hsame]; exact hhash) hv1'
                  (by rw [valid_size hv1', hsame, ← valid_size htv]; exact hts) _) rfl
              refine insPost_of_base hb hpos (fun h => by simp at h)
                (fun _ => ⟨_, rfl, ?_, ?_⟩) (fun h => by simp at h)
              · have hk : pD.key = key := by
                  have := (kh_eq_iff pD.h pD.key { slot := slot, h := h, key := key, value := u }).2
                    (by simpa [DATA_NODE.kh] using hkh)
                  exact this.2
                exact find_of_entry hb.1 key _ _ (by rw [hb.2.2.1.gpos, ← hpos]; exact hget)
                  (by simp only [ENTRY.nodes]; rw [hsame]; exact hmem) hk
              · unfold zHash.records
                rw [hL, hR]
                exact recordsOf_perm (perm_same (show t1.toList.Perm e.nodes by rw [hnodes, hsame]))
            | memError =>
              simp only at hres
              have hsame : t1.toList = t.toList := hspec
              obtain ⟨hb, ⟨L, R, hL, hR⟩, hget⟩ := @base_of_entry K V H _ _
                ({ s with pHeap := Hp.LockFree hp1 slot, pBTNodeHeap := hp2 }) _ _
                ({ p := .tree t1, lock := e.lock, Size_Type := 0 }) hw rfl rfl he hlk
                (wf_tree (by rw [hsame]; exact hhash) hv1'
                  (by rw [valid_size hv1', hsame, ← valid_size htv]; exact hts) _) rfl
              refine retry _ hb ?_ hres
              unfold zHash.records
              rw [hL, hR]
              exact recordsOf_perm (perm_same (show t1.toList.Perm e.nodes by rw [hnodes, hsame]))

omit [LinearOrder K] in
theorem calmAt_iff (s : zHash K V H) (k : K) :
    CalmAt s k ↔ s.lockAt (s.pos k) = some zRWLock.init := by
  unfold CalmAt zHash.lockAt
  constructor
  · rintro ⟨e, he, hl⟩
    rw [he]; simp [hl]
  · intro h
    cases he : s.pBucket[s.pos k]? with
    | none => rw [he] at h; simp at h
    | some e =>
      rw [he] at h
      simp only [Option.map_some', Option.some.injEq] at h
      exact ⟨e, rfl, h⟩

omit [LinearOrder K] in
theorem Inherit.config {s s' : zHash K V H} (h : Inherit s s') : Config s s' :=
  ⟨h.1, h.2.1, h.2.2.1, h.2.2.2.1, h.2.2.2.2.2⟩

/-- The end of `Insert`/`Upsert`: from the table `s2` that `insertKey` returned with the
entry `pT` locked, through steps that keep the geometry and the locks, to the unlocked
table `s'`. -/
theorem calm_transfer {s s1 s2 s' : zHash K V H} {pos pT : Nat} {k : K}
    (hw' : s'.WF) (hw2 : s2.WF) (hg01 : SameGeom s s1) (hl01 : ∀ j, j ≠ pos → s1.lockAt j = s.lockAt j)
    (hstep : LockStep s1 s2 pos pT) (hpT : pT = s2.pos k) (hg2 : SameGeom s2 s')
    (hun : s'.lockAt pT = some zRWLock.init) (hoth : ∀ j, j ≠ pT → s'.lockAt j = s2.lockAt j) :
    CalmAt s' k ∧ ∀ k', CalmAt s k' → CalmAt s' k' := by
  constructor
  · rw [calmAt_iff, hg2.gpos, ← hpT]
    exact hun
  · intro k' hc
    rw [calmAt_iff] at hc ⊢
    rcases hstep with ⟨g, hp, hlk⟩ | hB
    · have hpk : s'.pos k' = s.pos k' := by
        rw [hg2.gpos, g.gpos, hg01.gpos]
      rw [hpk]
      by_cases hj : s.pos k' = pos
      · rw [hj, ← hp]; exact hun
      · rw [hoth _ (by rw [hp]; exact hj), hlk _ hj, hl01 _ hj]
        exact hc
    · by_cases hj : s'.pos k' = pT
      · rw [hj]; exact hun
      · rw [hoth _ hj]
        have hlt := pos_lt hw' k'
        have hlen : s'.pBucket.length = s2.pBucket.length := by
          rw [hw'.1, hw2.1, hg2.2.1]
        unfold zHash.lockAt
        have hlt2 : s'.pos k' < s2.pBucket.length := by omega
        rw [List.getElem?_eq_getElem hlt2]
        simp only [Option.map_some', Option.some.injEq]
        exact hB _ _ (List.getElem?_eq_getElem hlt2) hj

theorem unlock_end {s2 : zHash K V H} {pT : Nat} (hw : s2.WF) (hh : Held s2 pT) :
    (s2.wUnlockAt pT).WF ∧ Frame s2 (s2.wUnlockAt pT) ∧
      (s2.wUnlockAt pT).allNodes = s2.allNodes ∧
      (s2.wUnlockAt pT).lockAt pT = some zRWLock.init ∧
      (∀ j, j ≠ pT → (s2.wUnlockAt pT).lockAt j = s2.lockAt j) := by
  obtain ⟨h1, h2, h3, ⟨e, h4, h4l⟩, -, -, h5⟩ := wUnlockAt_spec hw pT hh
  refine ⟨h1, h2, h3, ?_, ?_⟩
  · unfold zHash.lockAt
    rw [h4]; simp [h4l]
  · intro j hj
    unfold zHash.lockAt
    rw [h5 j hj]

theorem store_end {s2 : zHash K V H} {pT : Nat} {k : K} {d : DATA_NODE K V} (hw : s2.WF)
    (hh : Held s2 pT) (hpT : pT = s2.pos k) (hf : s2.find k = some d) (v : V) :
    ((s2.storeAt pT d.h d.key v).wUnlockAt pT).WF ∧
      Frame s2 ((s2.storeAt pT d.h d.key v).wUnlockAt pT) ∧
      (∃ L R, s2.allNodes = L ++ d :: R ∧
        ((s2.storeAt pT d.h d.key v).wUnlockAt pT).allNodes = L ++ { d with value := v } :: R) ∧
      ((s2.storeAt pT d.h d.key v).wUnlockAt pT).lockAt pT = some zRWLock.init ∧
      (∀ j, j ≠ pT → ((s2.storeAt pT d.h d.key v).wUnlockAt pT).lockAt j = s2.lockAt j) := by
  subst hpT
  obtain ⟨a1, a2, ⟨L, R, hL, hR⟩, a4, -, -⟩ := storeAt_spec hw k d hf v
  have hh3 : Held (s2.storeAt (s2.pos k) d.h d.key v) (s2.pos k) := by
    obtain ⟨e, he, hl⟩ := hh
    have := a4 (s2.pos k)
    unfold zHash.lockAt at this
    rw [he] at this
    cases h3 : (s2.storeAt (s2.pos k) d.h d.key v).pBucket[s2.pos k]? with
    | none => rw [h3] at this; simp at this
    | some e3 =>
      rw [h3] at this
      simp only [Option.map_some', Option.some.injEq] at this
      exact ⟨e3, h3, by rw [this, hl]⟩
  obtain ⟨b1, b2, b3, b4, b5⟩ := unlock_end a1 hh3
  refine ⟨b1, a2.ftrans b2, ⟨L, R, hL, by rw [b3, hR]⟩, b4, fun j hj => ?_⟩
  rw [b5 j hj, a4 j]

omit [LinearOrder K] in
theorem records_replace {s2 s4 : zHash K V H} {L R : List (DATA_NODE K V)}
    {d d' : DATA_NODE K V} (h2 : s2.allNodes = L ++ d :: R) (h4 : s4.allNodes = L ++ d' :: R) :
    s2.records.Perm ((d.key, d.value) :: (recordsOf L ++ recordsOf R)) ∧
    s4.records.Perm ((d'.key, d'.value) :: (recordsOf L ++ recordsOf R)) := by
  unfold zHash.records
  rw [h2, h4]
  simp only [recordsOf, List.map_append, List.map_cons]
  exact ⟨List.perm_middle, List.perm_middle⟩

omit [LinearOrder K] in
theorem endAdd_facts (s : zHash K V H) :
    (s.endAdd).pBucket = s.pBucket ∧ SameGeom s s.endAdd ∧ Config s s.endAdd ∧
      s.endAdd.DataCount = (if s.Resizable ∨ s.Countable then s.DataCount + 1 else s.DataCount) ∧
      s.endAdd.pHeap = s.pHeap ∧ s.endAdd.pBTNodeHeap = s.pBTNodeHeap := by
  by_cases h : s.Resizable = true ∨ s.Countable = true
  · have e : s.endAdd = { s with DataCount := s.DataCount + 1 } := by
      unfold zHash.endAdd; rw [if_pos h]
    rw [e, if_pos h]
    exact ⟨rfl, ⟨rfl, rfl, rfl, rfl, rfl⟩, ⟨rfl, rfl, rfl, rfl, rfl⟩, rfl, rfl, rfl⟩
  · have e : s.endAdd = s := by
      unfold zHash.endAdd; rw [if_neg h]
    rw [e, if_neg h]
    exact ⟨rfl, ⟨rfl, rfl, rfl, rfl, rfl⟩, ⟨rfl, rfl, rfl, rfl, rfl⟩, rfl, rfl, rfl⟩

omit [LinearOrder K] in
theorem Config.ctrans {s s1 s2 : zHash K V H} (h1 : Config s s1) (h2 : Config s1 s2) :
    Config s s2 := by
  obtain ⟨a1, a2, a3, a4, a5⟩ := h1
  obtain ⟨b1, b2, b3, b4, b5⟩ := h2
  exact ⟨b1.trans a1, b2.trans a2, b3.trans a3, b4.trans a4, b5.trans a5⟩

theorem hInsert_spec (Hp : zMemHeap H) (fuel : Nat) (s : zHash K V H) (k : K) (v u : V)
    (hw : s.WF) (r : RETURN_CODE) (s' : zHash K V H)
    (h : zHash.Insert Hp fuel s k v u = .ok (r, s')) : InsertPost s k v u r s' := by
  unfold zHash.Insert at h
  simp only at h
  obtain ⟨s1, hl1, w1, w2, w3, w4, -, -, -, w6⟩ := wLockAt_spec hw (s.pos k) (pos_lt hw k)
  have hl1' : s.wLockAt (s.pHashFun k s.MaskBits &&& s.PosMask) = .ok s1 := hl1
  rw [hl1'] at h
  simp only at h
  have hlock01 : ∀ j, j ≠ s.pos k → s1.lockAt j = s.lockAt j := by
    intro j hj; unfold zHash.lockAt; rw [w6 j hj]
  have hrec1 : s1.records = s.records := by unfold zHash.records; rw [w3]
  cases hik : zHash.insertKey Hp fuel s1 (s.pHashFun k s.MaskBits &&& s.PosMask)
      (s.pHashFun k s.MaskBits) k u with
  | error x => rw [hik] at h; simp at h
  | ok res =>
    obtain ⟨r0, s2, pT, pRet⟩ := res
    rw [hik] at h
    obtain ⟨a1, a2, a3, a4, a5, a6, a7, a8⟩ := insertKey_spec Hp k u fuel s1 (s.pos k)
      (s.pHashFun k s.MaskBits) w1 (by rw [w2.fpos]) (by
        obtain ⟨g1, -, -, -, -, -, -, g8, -⟩ := w2.fields
        rw [g1, g8]) w4 r0 s2 pT pRet hik
    have hcfg : Config s s2 := Config.ctrans w2.inherit.config a2.config
    have hdc : s2.DataCount = s.DataCount := by rw [a2.2.2.2.2.1, w2.inherit.2.2.2.2.1]
    have plain : ∀ ret, ret ≠ .SUCCESS → r0 = ret →
        InsertPost s k v u ret (s2.wUnlockAt pT) := by
      intro ret hne hret
      obtain ⟨b1, b2, b3, b4, b5⟩ := unlock_end a1 a4
      obtain ⟨c1, c2⟩ := calm_transfer b1 a1 w2.geom hlock01 a5 a3 b2.geom b4 b5
      have hrec : (s2.wUnlockAt pT).records = s2.records := by unfold zHash.records; rw [b3]
      refine ⟨b1, Config.ctrans hcfg b2.inherit.config, c1, c2, fun h => absurd h hne, ?_, ?_⟩
      · intro hr
        obtain ⟨d, -, -, e3⟩ := a7 (hret.trans hr)
        exact ⟨by rw [hrec, ← hrec1]; exact e3, by rw [b2.inherit.2.2.2.2.1, hdc]⟩
      · intro hr
        obtain ⟨-, e2⟩ := a8 (hret.trans hr)
        refine ⟨?_, by rw [b2.inherit.2.2.2.2.1, hdc]⟩
        rw [hrec, ← hrec1]
        exact e2
    cases r0 with
    | HASH_KEY_EXIST =>
      simp only [Except.ok.injEq, Prod.mk.injEq] at h
      obtain ⟨rfl, rfl⟩ := h
      exact plain _ (by simp) rfl
    | ERR_MEMORY =>
      simp only [Except.ok.injEq, Prod.mk.injEq] at h
      obtain ⟨rfl, rfl⟩ := h
      exact plain _ (by simp) rfl
    | SUCCESS =>
      obtain ⟨d, rfl, e1, e2, e3⟩ := a6 rfl
      simp only [Except.ok.injEq, Prod.mk.injEq] at h
      obtain ⟨rfl, rfl⟩ := h
      obtain ⟨b1, b2, ⟨L, R, hL, hR⟩, b4, b5⟩ := store_end a1 a4 a3 e2 v
      obtain ⟨f1, f2, f3, f4, -, -⟩ :=
        endAdd_facts ((s2.storeAt pT d.h d.key v).wUnlockAt pT)
      have hwE : ((s2.storeAt pT d.h d.key v).wUnlockAt pT).endAdd.WF := (WF_geom f2 f1).2 b1
      have hlkE : ∀ j, ((s2.storeAt pT d.h d.key v).wUnlockAt pT).endAdd.lockAt j =
          ((s2.storeAt pT d.h d.key v).wUnlockAt pT).lockAt j := by
        intro j; unfold zHash.lockAt; rw [f1]
      obtain ⟨c1, c2⟩ := calm_transfer hwE a1 w2.geom hlock01 a5 a3 (b2.geom.gtrans f2)
        (by rw [hlkE]; exact b4) (fun j hj => by rw [hlkE]; exact b5 j hj)
      have hdk : d.key = k := ((find_iff_mem a1 k d).1 e2).2
      obtain ⟨p2, p4⟩ := records_replace hL hR
      rw [hdk, e1] at p2
      have hRr : (recordsOf L ++ recordsOf R).Perm s.records := by
        have := (p2.symm.trans e3)
        rw [hrec1] at this
        exact this.cons_inv
      refine ⟨hwE, Config.ctrans hcfg (Config.ctrans b2.inherit.config f3), c1, c2, ?_,
        fun h => by simp at h, fun h => by simp at h⟩
      intro _
      constructor
      · rw [records_of_bucket f1]
        refine p4.trans ?_
        simp only [hdk]
        exact List.Perm.cons _ hRr
      · rw [f4, b2.inherit.2.1, b2.inherit.2.2.1, b2.inherit.2.2.2.2.1, hcfg.2.1, hcfg.2.2.1, hdc]

theorem searchAndRLock_null {s : zHash K V H} (k : K) (e : ENTRY K V)
    (he : s.pBucket[s.pos k]? = some e) (hp : e.p = .null) :
    zHash.searchAndRLock s k = .ok (none, s.pos k, s) ∧ s.find k = none := by
  constructor
  · unfold zHash.searchAndRLock
    simp only
    have he' : s.pBucket[s.pHashFun k s.MaskBits &&& s.PosMask]? = some e := he
    rw [he']
    simp only [hp]
    rfl
  · rw [find_eq, he]
    simp [ENTRY.find, hp]

theorem searchAndRLock_ok {s : zHash K V H} (hw : s.WF) (k : K) (e : ENTRY K V)
    (he : s.pBucket[s.pos k]? = some e) (hp : e.p ≠ .null) (l : zRWLock)
    (hl : e.lock.RLock = .ok l) :
    zHash.searchAndRLock s k = .ok (s.find k, s.pos k,
      s.setEntry (s.pos k) { e with lock := lockAfterSearch (s.find k) l }) := by
  have hwe := hw.2.2.2 _ e he
  have hfind : s.find k = e.find (s.pHashFun k s.MaskBits) k := by rw [find_eq, he]; rfl
  rw [hfind]
  unfold zHash.searchAndRLock
  simp only
  have he' : s.pBucket[s.pHashFun k s.MaskBits &&& s.PosMask]? = some e := he
  rw [he']
  obtain ⟨-, hm⟩ := hwe
  unfold ENTRY.find
  cases hpp : e.p with
  | null => exact absurd hpp hp
  | list f r =>
    rw [hpp] at hm
    simp only [hpp] at hm ⊢
    rw [hl]
    have hpos : 0 < e.Size_Type := by rw [hm.1]; simp
    simp only [hpos, if_true]
    cases hf : listFind (s.pHashFun k s.MaskBits) k (f :: r) with
    | none => rfl
    | some d => rfl
  | tree t =>
    rw [hpp] at hm
    simp only [hpp] at hm ⊢
    rw [hl]
    simp only [hm.1, lt_irrefl, if_false]
    cases hf : t.FindData k (s.pHashFun k s.MaskBits) with
    | none => rfl
    | some d => rfl

theorem searchAndRLock_hang {s : zHash K V H} (k : K) (e : ENTRY K V)
    (he : s.pBucket[s.pos k]? = some e) (hp : e.p ≠ .null) (f : Fault)
    (hl : e.lock.RLock = .error f) : zHash.searchAndRLock s k = .error f := by
  unfold zHash.searchAndRLock
  simp only
  have he' : s.pBucket[s.pHashFun k s.MaskBits &&& s.PosMask]? = some e := he
  rw [he']
  cases hpp : e.p with
  | null => exact absurd hpp hp
  | list f r => simp only [hpp]; rw [hl]
  | tree t => simp only [hpp]; rw [hl]

omit [LinearOrder K] in
theorem rUnlock_setEntry (s : zHash K V H) (pos : Nat) (e : ENTRY K V) (l : zRWLock)
    (he : s.pBucket[pos]? = some e) :
    (s.setEntry pos { e with lock := l }).rUnlockAt pos =
      s.setEntry pos { e with lock := l.RUnlock } := by
  have hlt : pos < s.pBucket.length := by
    by_contra hc
    rw [List.getElem?_eq_none (by omega)] at he
    simp at he
  unfold zHash.rUnlockAt
  rw [setEntry_same _ _ _ hlt]
  simp only
  rw [setEntry_twice]

omit [LinearOrder K] in
theorem rUnlock_plain (s : zHash K V H) (pos : Nat) (e : ENTRY K V)
    (he : s.pBucket[pos]? = some e) :
    s.rUnlockAt pos = s.setEntry pos { e with lock := e.lock.RUnlock } := by
  unfold zHash.rUnlockAt
  rw [he]

theorem LockOnly.facts {s s' : zHash K V H} {pos : Nat} (hw : s.WF) (h : LockOnly s s' pos) :
    s'.WF ∧ Frame s s' ∧ s'.allNodes = s.allNodes ∧
      (∀ j, j ≠ pos → s'.lockAt j = s.lockAt j) ∧ (∀ k, s'.lookup k = s.lookup k) := by
  obtain ⟨e, l, he, rfl⟩ := h
  obtain ⟨h1, h2, h3, -, h5⟩ := setLock_spec hw pos e he l
  refine ⟨h1, h2, h3, ?_, ?_⟩
  · intro j hj
    unfold zHash.lockAt
    rw [h5 j hj]
  · intro k
    exact lookup_perm hw h1 (by unfold zHash.records; rw [h3]) k

theorem Value_spec {s : zHash K V H} (hw : s.WF) (k : K) (r : Option V) (s' : zHash K V H)
    (h : zHash.Value s k = .ok (r, s')) : r = s.lookup k ∧ LockOnly s s' (s.pos k) := by
  obtain ⟨e, he, -⟩ := entry_at hw k
  unfold zHash.Value at h
  by_cases hp : e.p = .null
  · obtain ⟨h1, h2⟩ := searchAndRLock_null k e he hp
    rw [h1] at h
    simp only [Except.ok.injEq, Prod.mk.injEq] at h
    obtain ⟨rfl, rfl⟩ := h
    exact ⟨by simp [zHash.lookup, h2], e, _, he, rUnlock_plain s _ e he⟩
  · cases hl : e.lock.RLock with
    | error f =>
      rw [searchAndRLock_hang k e he hp f hl] at h
      simp at h
    | ok l =>
      rw [searchAndRLock_ok hw k e he hp l hl] at h
      cases hf : s.find k with
      | none =>
        rw [hf] at h
        simp only [Except.ok.injEq, Prod.mk.injEq] at h
        obtain ⟨rfl, rfl⟩ := h
        exact ⟨by simp [zHash.lookup, hf], e, _, he, rUnlock_setEntry s _ e _ he⟩
      | some d =>
        rw [hf] at h
        simp only [Except.ok.injEq, Prod.mk.injEq] at h
        obtain ⟨rfl, rfl⟩ := h
        exact ⟨by simp [zHash.lookup, hf], e, _, he, rUnlock_setEntry s _ e _ he⟩

theorem rlock_init : zRWLock.init.RLock = .ok { Flag := 1, WriteFlag := false } := by
  unfold zRWLock.RLock zRWLock.init
  rw [if_neg (by decide)]
  rfl

theorem Value_calm {s : zHash K V H} (hw : s.WF) (k : K) (hc : CalmAt s k) :
    ∃ s', zHash.Value s k = .ok (s.lookup k, s') := by
  obtain ⟨e, he, hl⟩ := hc
  unfold zHash.Value
  by_cases hp : e.p = .null
  · obtain ⟨h1, h2⟩ := searchAndRLock_null k e he hp
    have hlk : s.lookup k = none := by simp [zHash.lookup, h2]
    rw [h1, hlk]
    exact ⟨_, rfl⟩
  · rw [searchAndRLock_ok hw k e he hp _ (by rw [hl]; exact rlock_init)]
    cases hf : s.find k with
    | none =>
      have hlk : s.lookup k = none := by simp [zHash.lookup, hf]
      rw [hlk]
      exact ⟨_, rfl⟩
    | some d =>
      have hlk : s.lookup k = some d.value := by simp [zHash.lookup, hf]
      rw [hlk]
      exact ⟨_, rfl⟩

theorem Value_null {s : zHash K V H} (k : K) (e : ENTRY K V)
    (he : s.pBucket[s.pos k]? = some e) (hp : e.p = .null) :
    ∃ s', zHash.Value s k = .ok (none, s') := by
  unfold zHash.Value
  rw [(searchAndRLock_null k e he hp).1]
  exact ⟨_, rfl⟩

theorem update_found {s : zHash K V H} (hw : s.WF) (k : K) (v : V) (e : ENTRY K V)
    (he : s.pBucket[s.pos k]? = some e) (d : DATA_NODE K V) (hf : s.find k = some d)
    (l : zRWLock) :
    UpdatePost s k v true
      (((s.setEntry (s.pos k) { e with lock := l }).storeAt (s.pos k) d.h d.key v).rUnlockAt
        (s.pos k)) ∧
    (((s.setEntry (s.pos k) { e with lock := l }).storeAt (s.pos k) d.h d.key v).rUnlockAt
        (s.pos k)).lockAt (s.pos k) = some l.RUnlock := by
  obtain ⟨h1, h2, h3, h4, h5⟩ := setLock_spec hw (s.pos k) e he l
  have hf1 : (s.setEntry (s.pos k) { e with lock := l }).find k = some d := by
    rw [find_congr hw h1 (fun x => by rw [h3]) k]; exact hf
  have hpos1 : (s.setEntry (s.pos k) { e with lock := l }).pos k = s.pos k := h2.fpos k
  have hst := storeAt_spec h1 k d hf1 v
  rw [hpos1] at hst
  obtain ⟨a1, a2, ⟨L, R, hL, hR⟩, a4, -, -⟩ := hst
  have hlk3 := a4 (s.pos k)
  unfold zHash.lockAt at hlk3
  rw [h4] at hlk3
  cases h3e : ((s.setEntry (s.pos k) { e with lock := l }).storeAt (s.pos k) d.h d.key v).pBucket[s.pos k]? with
  | none => rw [h3e] at hlk3; simp at hlk3
  | some e3 =>
    rw [h3e] at hlk3
    simp only [Option.map_some', Option.some.injEq] at hlk3
    obtain ⟨b1, b2, b3, b4, b5⟩ := setLock_spec a1 (s.pos k) e3 h3e e3.lock.RUnlock
    have hru := rUnlock_plain _ (s.pos k) e3 h3e
    rw [hru]
    have hdk : d.key = k := ((find_iff_mem hw k d).1 hf).2
    have hall : (((s.setEntry (s.pos k) { e with lock := l }).storeAt (s.pos k) d.h d.key v).setEntry
        (s.pos k) { e3 with lock := e3.lock.RUnlock }).allNodes = L ++ { d with value := v } :: R := by
      rw [b3, hR]
    obtain ⟨p2, p4⟩ := @records_replace K V H (s) _ _ _ _ _ (by rw [← h3]; exact hL) hall
    rw [hdk] at p2
    have p4 := p4.trans (List.Perm.of_eq (show _ = (k, v) :: (recordsOf L ++ recordsOf R) by
      simp only [hdk]))
    obtain ⟨q1, q2⟩ := lookup_perm_replace hw b1 k d.value v _ p2 p4
    refine ⟨⟨b1, (h2.ftrans a2).ftrans b2, by simp [zHash.lookup, hf], ?_, fun h => by simp at h,
      fun _ => ⟨q1, q2, ?_⟩⟩, ?_⟩
    · intro j hj
      unfold zHash.lockAt
      rw [b5 j hj]
      have := a4 j
      unfold zHash.lockAt at this
      rw [this, h5 j hj]
    · rw [hall, ← h3, hL]; simp
    · unfold zHash.lockAt
      rw [b4]
      simp [hlk3]

theorem Update_spec {s : zHash K V H} (hw : s.WF) (k : K) (v : V) (b : Bool) (s' : zHash K V H)
    (h : zHash.Update s k v = .ok (b, s')) : UpdatePost s k v b s' := by
  obtain ⟨e, he, -⟩ := entry_at hw k
  unfold zHash.Update at h
  have lockonly : ∀ s1 : zHash K V H, LockOnly s s1 (s.pos k) → s.find k = none →
      UpdatePost s k v false s1 := by
    intro s1 hlo hf
    obtain ⟨c1, c2, c3, c4, -⟩ := hlo.facts hw
    exact ⟨c1, c2, by simp [zHash.lookup, hf], c4, fun _ => c3, fun h => by simp at h⟩
  by_cases hp : e.p = .null
  · obtain ⟨h1, h2⟩ := searchAndRLock_null k e he hp
    rw [h1] at h
    simp only [Except.ok.injEq, Prod.mk.injEq] at h
    obtain ⟨rfl, rfl⟩ := h
    exact lockonly _ ⟨e, _, he, rUnlock_plain s _ e he⟩ h2
  · cases hl : e.lock.RLock with
    | error f =>
      rw [searchAndRLock_hang k e he hp f hl] at h
      simp at h
    | ok l =>
      rw [searchAndRLock_ok hw k e he hp l hl] at h
      cases hf : s.find k with
      | none =>
        rw [hf] at h
        simp only [Except.ok.injEq, Prod.mk.injEq] at h
        obtain ⟨rfl, rfl⟩ := h
        exact lockonly _ ⟨e, _, he, rUnlock_setEntry s _ e _ he⟩ hf
      | some d =>
        rw [hf] at h
        simp only [Except.ok.injEq, Prod.mk.injEq] at h
        obtain ⟨rfl, rfl⟩ := h
        exact (update_found hw k v e he d hf _).1

theorem Update_calm {s : zHash K V H} (hw : s.WF) (k : K) (v v0 : V) (hc : CalmAt s k)
    (hlook : s.lookup k = some v0) :
    ∃ s', zHash.Update s k v = .ok (true, s') ∧ UpdatePost s k v true s' ∧ CalmAt s' k := by
  obtain ⟨e, he, hl⟩ := hc
  have hfs : ∃ d, s.find k = some d := by
    unfold zHash.lookup at hlook
    cases hf : s.find k with
    | none => rw [hf] at hlook; simp at hlook
    | some d => exact ⟨d, rfl⟩
  obtain ⟨d, hf⟩ := hfs
  have hp : e.p ≠ .null := by
    intro hp
    rw [(searchAndRLock_null k e he hp).2] at hf
    simp at hf
  obtain ⟨u1, u2⟩ := update_found hw k v e he d hf { Flag := 1, WriteFlag := false }
  refine ⟨_, ?_, u1, ?_⟩
  · unfold zHash.Update
    rw [searchAndRLock_ok hw k e he hp _ (by rw [hl]; exact rlock_init), hf]
    rfl
  · rw [calmAt_iff, u1.2.1.fpos, u2]
    rfl

theorem wunlock_wlock (l : zRWLock) : l.WLock.WUnlock = zRWLock.init := by
  unfold zRWLock.WLock zRWLock.WUnlock zRWLock.init
  simp only [zRWLock.mk.injEq, and_true]
  decide

omit [LinearOrder K] in
theorem endDel_facts (s : zHash K V H) :
    (s.endDel).pBucket = s.pBucket ∧ SameGeom s s.endDel ∧ Config s s.endDel ∧
      s.endDel.DataCount = (if s.Resizable ∨ s.Countable then (s.DataCount + (2 ^ 64 - 1)) % 2 ^ 64
        else s.DataCount) := by
  by_cases h : s.Resizable = true ∨ s.Countable = true
  · have e : s.endDel = { s with DataCount := (s.DataCount + (2 ^ 64 - 1)) % 2 ^ 64 } := by
      unfold zHash.endDel; rw [if_pos h]
    rw [e, if_pos h]
    exact ⟨rfl, ⟨rfl, rfl, rfl, rfl, rfl⟩, ⟨rfl, rfl, rfl, rfl, rfl⟩, rfl⟩
  · have e : s.endDel = s := by
      unfold zHash.endDel; rw [if_neg h]
    rw [e, if_neg h]
    exact ⟨rfl, ⟨rfl, rfl, rfl, rfl, rfl⟩, ⟨rfl, rfl, rfl, rfl, rfl⟩, rfl⟩

/-- The table after `Del` did not find the key in a non-empty bucket. -/
theorem del_absent {s : zHash K V H} (hw : s.WF) (k : K) (e : ENTRY K V)
    (he : s.pBucket[s.pos k]? = some e) (hf : s.find k = none) :
    DelPost s k none (s.setEntry (s.pos k) { e with lock := e.lock.WLock.WUnlock }) := by
  obtain ⟨h1, h2, h3, h4, h5⟩ := setLock_spec hw (s.pos k) e he e.lock.WLock.WUnlock
  refine ⟨h1, h2.inherit.config, h2.geom, by simp [zHash.lookup, hf], ?_, ?_,
    fun _ => ⟨h3, h2.inherit.2.2.2.2.1⟩, fun v h => by simp at h⟩
  · exact h5
  · refine ⟨_, by rw [h2.fpos]; exact h4, Or.inl ?_⟩
    exact wunlock_wlock _

/-- The table after `Del` removed the node `d` from the bucket: `e'` is the new entry. -/
theorem del_found {s s0 : zHash K V H} (hw : s.WF) (k : K) (e e' : ENTRY K V)
    (he : s.pBucket[s.pos k]? = some e) (hfr : Frame s s0) (hb : s0.pBucket = s.pBucket)
    (d : DATA_NODE K V) (hf : s.find k = some d)
    (hwf : e'.WF s.pHashFun s.MaskBits s.PosMask (s.pos k))
    (hl : e'.lock = zRWLock.init ∨ e'.p = .null)
    (hn : e.nodes.Perm (d :: e'.nodes)) :
    DelPost s k (some d.value) ((s0.setEntry (s.pos k) e').endDel) := by
  obtain ⟨h1, h2, ⟨L, R, hL, hR⟩, h4, h5⟩ := update_entry hw hfr hb (s.pos k) e e' he hwf
  obtain ⟨f1, f2, f3, f4⟩ := endDel_facts (s0.setEntry (s.pos k) e')
  have hwE : ((s0.setEntry (s.pos k) e').endDel).WF := (WF_geom f2 f1).2 h1
  have hdk : d.key = k := ((find_iff_mem hw k d).1 hf).2
  refine ⟨hwE, Config.ctrans h2.inherit.config f3, h2.geom.gtrans f2, by simp [zHash.lookup, hf],
    ?_, ?_, fun h => by simp at h, ?_⟩
  · intro j hj
    rw [f1, h5 j hj]
  · refine ⟨e', ?_, hl⟩
    rw [(h2.geom.gtrans f2).gpos, f1]
    exact h4
  · intro v hv
    simp only [Option.some.injEq] at hv
    subst hv
    constructor
    · rw [records_of_bucket f1]
      unfold zHash.records
      rw [hL, hR, ← hdk]
      have : (L ++ e.nodes ++ R).Perm (d :: (L ++ e'.nodes ++ R)) := perm_ins hn
      simpa [recordsOf] using recordsOf_perm this
    · rw [f4, h2.inherit.2.1, h2.inherit.2.2.1, h2.inherit.2.2.2.2.1]

omit [LinearOrder K] in
theorem wUnlock_setEntry (s : zHash K V H) (pos : Nat) (e : ENTRY K V)
    (hlt : pos < s.pBucket.length) :
    (s.setEntry pos e).wUnlockAt pos = s.setEntry pos { e with lock := e.lock.WUnlock } := by
  unfold zHash.wUnlockAt
  rw [setEntry_same _ _ _ hlt]
  simp only
  rw [setEntry_twice]

/-- The removal of a key from a table with its invariant: it returns with the outcome
`DelPost`, or the buffer of `treeToList` is refused and `std::bad_alloc` leaves the call. -/
theorem removal_spec (Hp : zMemHeap H) (s : zHash K V H) (k : K) (hw : s.WF) :
    (∃ r s', zHash.removal Hp s k = .ok (r, s') ∧ DelPost s k r s') ∨
      zHash.removal Hp s k = .error .badAlloc := by
  obtain ⟨e, he, hwe⟩ := entry_at hw k
  have hlt := pos_lt hw k
  have hfind : s.find k = e.find (s.pHashFun k s.MaskBits) k := by rw [find_eq, he]; rfl
  have he' : s.pBucket[s.pHashFun k s.MaskBits &&& s.PosMask]? = some e := he
  unfold zHash.removal zHash.DelFrom
  simp only
  rw [he']
  simp only
  obtain ⟨hh, hm⟩ := hwe
  unfold ENTRY.find at hfind
  cases hp : e.p with
  | null =>
    rw [hp] at hfind
    simp only at hfind ⊢
    refine Or.inl ⟨none, s, rfl, hw, ⟨rfl, rfl, rfl, rfl, rfl⟩, SameGeom.grefl _,
      by simp [zHash.lookup, hfind], fun _ _ => rfl, ⟨e, he, Or.inr hp⟩,
      fun _ => ⟨rfl, rfl⟩, fun v h => by simp at h⟩
  | list f r =>
    rw [hp] at hfind hm
    simp only [hp] at hfind hm ⊢
    have hnodes : e.nodes = f :: r := by simp [ENTRY.nodes, hp]
    rw [hnodes] at hh
    obtain ⟨hsz, hdist⟩ := hm
    have hpos0 : 0 < e.Size_Type := by rw [hsz]; simp
    simp only [hpos0, if_true]
    cases hfd : listFind (s.pHashFun k s.MaskBits) k (f :: r) with
    | none =>
      rw [hfd] at hfind
      simp only
      have := del_absent hw k e he hfind
      rw [hp] at this
      exact Or.inl ⟨none, _, rfl, this⟩
    | some d =>
      rw [hfd] at hfind
      simp only
      obtain ⟨A, B, hA, -, hB⟩ := listFind_split hfd d.value
      rw [hB]
      have hlen : e.Size_Type - 1 = (A ++ B).length := by
        rw [hsz, hA]; simp
      have hptr : (if e.Size_Type - 1 = 0 then ChainPtr.null else ChainPtr.ofList (A ++ B)) =
          (ChainPtr.ofList (A ++ B) : ChainPtr K V) := by
        by_cases hz : e.Size_Type - 1 = 0
        · rw [if_pos hz]
          rw [hz] at hlen
          have : A ++ B = [] := List.length_eq_zero.1 hlen.symm
          rw [this]; rfl
        · rw [if_neg hz]
      rw [hptr, hlen, wunlock_wlock]
      refine Or.inl ⟨some d.value, _, rfl, ?_⟩
      have hsub : (A ++ B).Sublist (f :: r) := by
        rw [hA]
        exact List.Sublist.append (List.Sublist.refl A) (List.sublist_cons_self d B)
      exact @del_found K V H _ _ ({ s with pHeap := Hp.LockFree s.pHeap d.slot }) hw k e
        ⟨ChainPtr.ofList (A ++ B), zRWLock.init, (A ++ B).length⟩ he rfl rfl d hfind
        (wf_ofList (fun x hx => hh x (hsub.subset hx)) (hdist.sublist hsub) _)
        (Or.inl rfl)
        (by rw [hnodes, nodes_ofList, hA]; exact List.perm_middle)
  | tree t =>
    rw [hp] at hfind hm
    simp only [hp] at hfind hm ⊢
    have hnodes : e.nodes = t.toList := by simp [ENTRY.nodes, hp]
    rw [hnodes] at hh
    obtain ⟨hsz, htv, hts⟩ := hm
    simp only [hsz, lt_irrefl, if_false]
    obtain ⟨hnone, hsome⟩ := Remove_spec Hp t k (s.pHashFun k s.MaskBits) s.pBTNodeHeap htv
    cases hfd : t.FindData k (s.pHashFun k s.MaskBits) with
    | none =>
      rw [hfd] at hfind
      rw [hnone hfd]
      simp only
      have := del_absent hw k e he hfind
      rw [hp] at this
      simp only [hsz] at this
      exact Or.inl ⟨none, _, rfl, this⟩
    | some d =>
      rw [hfd] at hfind
      obtain ⟨t1, hp1, hrem, hv1, ⟨A, B, hA, hB⟩, hsize⟩ := hsome d hfd
      rw [hrem]
      simp only
      have hsub : t1.toList.Sublist t.toList := by
        rw [hA, hB]
        exact List.Sublist.append (List.Sublist.refl A) (List.sublist_cons_self d B)
      have hh1 : Hashed s.pHashFun s.MaskBits s.PosMask (s.pos k) t1.toList :=
        fun x hx => hh x (hsub.subset hx)
      by_cases hsmall : t1.Count < MIN_BTREE_SIZE
      · simp only [hsmall, if_true]
        have hget1 : (({ s with pHeap := Hp.LockFree s.pHeap d.slot, pBTNodeHeap := hp1 } :
            zHash K V H).setEntry (s.pHashFun k s.MaskBits &&& s.PosMask)
            { p := .tree t1, lock := e.lock.WLock, Size_Type := 0 }).pBucket[s.pos k]? =
            some { p := .tree t1, lock := e.lock.WLock, Size_Type := 0 } :=
          setEntry_same _ _ _ hlt
        rcases treeToList_spec Hp _ (s.pos k) _ t1 hget1 rfl hv1
          (by simp only [MIN_BTREE_SIZE] at hts; omega) with hbad | hgood
        · right
          have hbad' : zHash.treeToList Hp
              (({ s with pHeap := Hp.LockFree s.pHeap d.slot, pBTNodeHeap := hp1 } :
              zHash K V H).setEntry (s.pHashFun k s.MaskBits &&& s.PosMask)
              { p := .tree t1, lock := e.lock.WLock, Size_Type := 0 })
              (s.pHashFun k s.MaskBits &&& s.PosMask) = _ := hbad
          rw [hbad']
        obtain ⟨s0, hfr0, hb0, -, htl, hperm, hlen⟩ := hgood
        have htl' : zHash.treeToList Hp
            (({ s with pHeap := Hp.LockFree s.pHeap d.slot, pBTNodeHeap := hp1 } :
            zHash K V H).setEntry (s.pHashFun k s.MaskBits &&& s.PosMask)
            { p := .tree t1, lock := e.lock.WLock, Size_Type := 0 })
            (s.pHashFun k s.MaskBits &&& s.PosMask) = _ := htl
        rw [htl']
        simp only
        have hs0 : s0.pBucket = s.pBucket.set (s.pos k)
            { p := .tree t1, lock := e.lock.WLock, Size_Type := 0 } := hb0
        have hlt0 : s.pos k < s0.pBucket.length := by rw [hs0]; simpa using hlt
        have hun := wUnlock_setEntry s0 (s.pos k)
          { p := ChainPtr.ofList t1.FindAllData, lock := e.lock.WLock, Size_Type := t1.FindAllData.length } hlt0
        have hun' : (s0.setEntry (s.pos k) { p := ChainPtr.ofList t1.FindAllData, lock := e.lock.WLock, Size_Type := t1.FindAllData.length }).wUnlockAt
            (s.pHashFun k s.MaskBits &&& s.PosMask) = _ := hun
        rw [hun']
        simp only [wunlock_wlock]
        have heq : s0.setEntry (s.pos k)
            { p := ChainPtr.ofList t1.FindAllData, lock := zRWLock.init, Size_Type := t1.FindAllData.length } =
            ({ s0 with pBucket := s.pBucket } : zHash K V H).setEntry (s.pos k)
              { p := ChainPtr.ofList t1.FindAllData, lock := zRWLock.init, Size_Type := t1.FindAllData.length } := by
          simp [zHash.setEntry, hs0]
        rw [heq]
        refine Or.inl ⟨some d.value, _, rfl, ?_⟩
        have hfrs : Frame s ({ s0 with pBucket := s.pBucket } : zHash K V H) := by
          have h0 : Frame s (({ s with pHeap := Hp.LockFree s.pHeap d.slot, pBTNodeHeap := hp1 } :
            zHash K V H).setEntry (s.pHashFun k s.MaskBits &&& s.PosMask)
            { p := .tree t1, lock := e.lock.WLock, Size_Type := 0 }) := rfl
          exact (h0.ftrans hfr0).ftrans rfl
        have hdistinct : DistinctKeys t1.toList := by
          obtain ⟨root, n, hroot, -, ho, -⟩ := hv1
          simp only [zBTree.toList, hroot] at hh1 ⊢
          exact ordered_distinct hh1 ho
        exact del_found hw k e _ he hfrs rfl d hfind
          (wf_ofList (hashed_perm hperm hh1) (distinct_perm hperm hdistinct) _)
          (Or.inl rfl)
          (by rw [hnodes, nodes_ofList, hA]
              exact List.perm_middle.trans (List.Perm.cons _ (by rw [← hB]; exact hperm.symm)))
      · simp only [hsmall, if_false]
        have hun := wUnlock_setEntry
          ({ s with pHeap := Hp.LockFree s.pHeap d.slot, pBTNodeHeap := hp1 } : zHash K V H)
          (s.pos k) { p := .tree t1, lock := e.lock.WLock, Size_Type := 0 } hlt
        have hun' : ((({ s with pHeap := Hp.LockFree s.pHeap d.slot, pBTNodeHeap := hp1 } :
            zHash K V H).setEntry (s.pHashFun k s.MaskBits &&& s.PosMask)
            { p := .tree t1, lock := e.lock.WLock, Size_Type := 0 })).wUnlockAt
            (s.pHashFun k s.MaskBits &&& s.PosMask) = _ := hun
        rw [hun']
        simp only [wunlock_wlock]
        refine Or.inl ⟨some d.value, _, rfl, ?_⟩
        exact @del_found K V H _ _ ({ s with pHeap := Hp.LockFree s.pHeap d.slot, pBTNodeHeap := hp1 })
          hw k e _ he rfl rfl d hfind
          (wf_tree hh1 hv1 (by unfold zBTree.Count at hsmall; omega) _)
          (Or.inl rfl)
          (by rw [hnodes, hA]
              show (A ++ d :: B).Perm (d :: t1.toList)
              rw [hB]; exact List.perm_middle)

theorem WF_new (Hp : zMemHeap H) (hf : K → Nat → Nat) (sys : List Bool) :
    (zHash.new Hp hf sys : zHash K V H).WF :=
  (WF_replicate (zHash.new Hp hf sys) rfl (show 0 < 256 by decide) rfl).1

theorem reachable_WF (Hp : zMemHeap H) {s : zHash K V H} (h : zHash.Reachable Hp s) : s.WF := by
  induction h with
  | new hf sys => exact WF_new Hp hf sys
  | setResizable b _ ih => exact ih
  | setCountable b _ ih =>
    unfold zHash.SetCountable
    split
    · exact ih
    · exact ih
  | setMaxBuckets m _ ih => exact ih
  | insert fuel k v u r _ hi ih => exact (hInsert_spec Hp fuel _ k v u ih r _ hi).1
  | upsert fuel k v u r _ hi ih => exact absurd hi (by simp [zHash.Upsert, zHash.hashCall])
  | update k v r _ hi ih => exact (Update_spec ih k v r _ hi).1
  | del k r _ hi ih => exact absurd hi (by simp [zHash.Del, zHash.hashCall])
  | remove k r _ hi ih =>
    rcases removal_spec Hp _ k ih with ⟨r', s', h1, h2⟩ | hbad
    · rw [h1] at hi
      simp only [Except.ok.injEq, Prod.mk.injEq] at hi
      rw [← hi.2]
      exact h2.1
    · rw [hbad] at hi
      simp at hi
  | value k r _ hi ih => exact ((Value_spec ih k r _ hi).2.facts ih).1

theorem Value_of_entry {s : zHash K V H} (hw : s.WF) (k : K) (e : ENTRY K V)
    (he : s.pBucket[s.pos k]? = some e) (h : e.p = .null ∨ ∃ l, e.lock.RLock = .ok l) :
    ∃ s1, zHash.Value s k = .ok (s.lookup k, s1) := by
  unfold zHash.Value
  by_cases hp : e.p = .null
  · obtain ⟨h1, h2⟩ := searchAndRLock_null k e he hp
    have hlk : s.lookup k = none := by simp [zHash.lookup, h2]
    rw [h1, hlk]
    exact ⟨_, rfl⟩
  · rcases h with h | ⟨l, hl⟩
    · exact absurd h hp
    · rw [searchAndRLock_ok hw k e he hp l hl]
      cases hf : s.find k with
      | none =>
        have hlk : s.lookup k = none := by simp [zHash.lookup, hf]
        rw [hlk]
        exact ⟨_, rfl⟩
      | some d =>
        have hlk : s.lookup k = some d.value := by simp [zHash.lookup, hf]
        rw [hlk]
        exact ⟨_, rfl⟩

theorem Value_ok_entry {s : zHash K V H} (hw : s.WF) (k : K) (r : Option V) (s1 : zHash K V H)
    (h : zHash.Value s k = .ok (r, s1)) :
    ∃ e, s.pBucket[s.pos k]? = some e ∧ (e.p = .null ∨ ∃ l, e.lock.RLock = .ok l) := by
  obtain ⟨e, he, -⟩ := entry_at hw k
  refine ⟨e, he, ?_⟩
  by_cases hp : e.p = .null
  · exact Or.inl hp
  · right
    cases hl : e.lock.RLock with
    | ok l => exact ⟨l, rfl⟩
    | error f =>
      unfold zHash.Value at h
      rw [searchAndRLock_hang k e he hp f hl] at h
      simp at h

theorem Value_readable {s : zHash K V H} (hw : s.WF) (k : K) (h : Readable s k) :
    ∃ s1, zHash.Value s k = .ok (s.lookup k, s1) := by
  obtain ⟨e, he, hl⟩ := h
  apply Value_of_entry hw k e he
  rcases hl with hl | hl
  · exact Or.inr ⟨_, by rw [hl]; exact rlock_init⟩
  · exact Or.inl hl

theorem Settled.value {s : zHash K V H} {k : K} {v : V} (h : Settled s k v) :
    ∃ s1, zHash.Value s k = .ok (some v, s1) := by
  obtain ⟨hw, hc, hl⟩ := h
  obtain ⟨s1, h1⟩ := Value_calm hw k hc
  rw [hl] at h1
  exact ⟨s1, h1⟩

theorem settled_insert (Hp : zMemHeap H) {s s1 : zHash K V H} {fuel : Nat} {k : K} {v u : V}
    (hw : s.WF) (hi : zHash.Insert Hp fuel s k v u = .ok (.SUCCESS, s1)) :
    Settled s1 k v ∧ s.lookup k = none ∧ ∀ k', k' ≠ k → s1.lookup k' = s.lookup k' := by
  obtain ⟨a1, -, a3, -, a5, -, -⟩ := hInsert_spec Hp fuel s k v u hw _ _ hi
  obtain ⟨q1, q2, q3⟩ := lookup_perm_cons hw a1 k v (a5 rfl).1
  exact ⟨⟨a1, a3, q2⟩, q1, q3⟩

theorem settled_update {s s1 : zHash K V H} {k : K} {v v0 : V} {b : Bool}
    (hs : Settled s k v0) (hi : zHash.Update s k v = .ok (b, s1)) :
    b = true ∧ Settled s1 k v := by
  obtain ⟨hw, hc, hl⟩ := hs
  obtain ⟨s', h1, h2, h3⟩ := Update_calm hw k v v0 hc hl
  rw [h1] at hi
  simp only [Except.ok.injEq, Prod.mk.injEq] at hi
  obtain ⟨rfl, rfl⟩ := hi
  exact ⟨rfl, h2.1, h3, (h2.2.2.2.2.2 rfl).1⟩

theorem settled_runUpdates (k : K) :
    ∀ (vs : List V) (s s2 : zHash K V H) (cur w : V), Settled s k cur →
      zHash.runUpdates k s cur vs = .ok (s2, w) → Settled s2 k w := by
  intro vs
  induction vs with
  | nil =>
    intro s s2 cur w hs h
    simp only [zHash.runUpdates, Except.ok.injEq, Prod.mk.injEq] at h
    obtain ⟨rfl, rfl⟩ := h
    exact hs
  | cons v vs ih =>
    intro s s2 cur w hs h
    rw [zHash.runUpdates] at h
    cases hu : zHash.Update s k v with
    | error f => rw [hu] at h; simp at h
    | ok res =>
      obtain ⟨b, s1⟩ := res
      rw [hu] at h
      simp only at h
      obtain ⟨rfl, hs1⟩ := settled_update hs hu
      exact ih s1 s2 _ w (by simpa using hs1) h

theorem settled_frame_insert (Hp : zMemHeap H) {s s1 : zHash K V H} {fuel : Nat} {k k0 : K}
    {v u v0 : V} (hs : Settled s k0 v0)
    (hi : zHash.Insert Hp fuel s k v u = .ok (.SUCCESS, s1)) : Settled s1 k0 v0 := by
  obtain ⟨hw, hc, hl⟩ := hs
  obtain ⟨a1, -, -, a4, -⟩ := hInsert_spec Hp fuel s k v u hw _ _ hi
  obtain ⟨-, q1, q3⟩ := settled_insert Hp hw hi
  have hne : k0 ≠ k := by
    intro h
    rw [h, q1] at hl
    simp at hl
  exact ⟨a1, a4 k0 hc, by rw [q3 k0 hne]; exact hl⟩

theorem settled_frame_fail (Hp : zMemHeap H) {s s1 : zHash K V H} {fuel : Nat} {k k0 : K}
    {v u v0 : V} {r : RETURN_CODE} (hs : Settled s k0 v0) (hr : r ≠ .SUCCESS)
    (hi : zHash.Insert Hp fuel s k v u = .ok (r, s1)) :
    Settled s1 k0 v0 ∧ s1.DataCount = s.DataCount := by
  obtain ⟨hw, hc, hl⟩ := hs
  obtain ⟨a1, -, -, a4, -, a6, a7⟩ := hInsert_spec Hp fuel s k v u hw _ _ hi
  have hcases : (s1.records.Perm s.records ∨ s1.records.Perm ((k, u) :: s.records)) ∧
      s1.DataCount = s.DataCount := by
    cases r with
    | SUCCESS => exact absurd rfl hr
    | HASH_KEY_EXIST => exact ⟨Or.inl (a6 rfl).1, (a6 rfl).2⟩
    | ERR_MEMORY => exact a7 rfl
  refine ⟨⟨a1, a4 k0 hc, ?_⟩, hcases.2⟩
  rcases hcases.1 with hp | hp
  · rw [lookup_perm hw a1 hp]; exact hl
  · obtain ⟨q1, -, q3⟩ := lookup_perm_cons hw a1 k u hp
    have hne : k0 ≠ k := by
      intro h
      rw [h, q1] at hl
      simp at hl
    rw [q3 k0 hne]; exact hl

theorem insertAll_settled (Hp : zMemHeap H) (fuel : Nat) (u : V) :
    ∀ (kvs : List (K × V)) (s0 s : zHash K V H), s0.WF →
      zHash.insertAll Hp fuel u s0 kvs = some s →
      s.WF ∧ Config s0 s ∧ (∀ kv ∈ kvs, Settled s kv.1 kv.2) ∧
        ∀ k0 v0, Settled s0 k0 v0 → Settled s k0 v0 := by
  intro kvs
  induction kvs with
  | nil =>
    intro s0 s hw h
    simp only [zHash.insertAll, Option.some.injEq] at h
    subst h
    exact ⟨hw, ⟨rfl, rfl, rfl, rfl, rfl⟩, by simp, fun _ _ h => h⟩
  | cons kv kvs ih =>
    intro s0 s hw h
    obtain ⟨k, v⟩ := kv
    rw [zHash.insertAll] at h
    cases hi : zHash.Insert Hp fuel s0 k v u with
    | error f => rw [hi] at h; simp at h
    | ok res =>
      obtain ⟨r, s1⟩ := res
      rw [hi] at h
      cases r with
      | HASH_KEY_EXIST => simp at h
      | ERR_MEMORY => simp at h
      | SUCCESS =>
        simp only at h
        obtain ⟨hs1, -, -⟩ := settled_insert Hp hw hi
        obtain ⟨b1, b2, b3, b4⟩ := ih s1 s hs1.1 h
        have hcfg := (hInsert_spec Hp fuel s0 k v u hw _ _ hi).2.1
        refine ⟨b1, Config.ctrans hcfg b2, ?_, fun k0 v0 h0 => b4 k0 v0 (settled_frame_insert Hp h0 hi)⟩
        intro kv hkv
        rcases List.mem_cons.1 hkv with rfl | hm
        · exact b4 _ _ hs1
        · exact b3 kv hm

/-- In a table with its invariant, after `Insert(k, v)` has returned `SUCCESS` and any
`Update` calls on `k` have run, `Value(k)` returns `true` with the value written last. -/
theorem value_after_insert (Hp : zMemHeap H) (s s1 s2 : zHash K V H) (fuel : Nat) (k : K)
    (v u w : V) (vs : List V) (hw : s.WF)
    (hi : zHash.Insert Hp fuel s k v u = .ok (.SUCCESS, s1))
    (hws : zHash.runUpdates k s1 v vs = .ok (s2, w)) :
    ∃ s3, zHash.Value s2 k = .ok (some w, s3) :=
  (settled_runUpdates k vs s1 s2 v w (settled_insert Hp hw hi).1 hws).value

/-- In a table that is not resizable `Insert` of a key that is stored returns, whatever the
heaps do. -/
theorem insert_existing_returns (Hp : zMemHeap H) (s : zHash K V H) (fuel : Nat) (k : K)
    (v u v0 : V) (hw : s.WF) (hres : s.Resizable = false) (hk : s.lookup k = some v0) :
    ∃ r s1, zHash.Insert Hp (fuel + 1) s k v u = .ok (r, s1) := by
  obtain ⟨s1, hl1, w1, w2, w3, w4, w5, w6, w7, -⟩ := wLockAt_spec hw (s.pos k) (pos_lt hw k)
  have hl1' : s.wLockAt (s.pHashFun k s.MaskBits &&& s.PosMask) = .ok s1 := hl1
  obtain ⟨e, he, hwe⟩ := entry_at hw k
  have he1 := w7 e he
  obtain ⟨d, hfind⟩ : ∃ d, s.find k = some d := by
    unfold zHash.lookup at hk
    cases hf : s.find k with
    | none => rw [hf] at hk; simp at hk
    | some d => exact ⟨d, rfl⟩
  have hfe : e.find (s.pHashFun k s.MaskBits) k = some d := by
    rw [find_eq, he] at hfind; exact hfind
  obtain ⟨g1, g2, -, -, -, g6, g7, g8, -⟩ := w2.fields
  have hretry : ∀ sx : zHash K V H, sx.Resizable = false → ∀ again,
      zHash.insertRetry Hp again sx (s.pHashFun k s.MaskBits &&& s.PosMask) k =
        .ok (.ERR_MEMORY, sx, s.pHashFun k s.MaskBits &&& s.PosMask, none) := by
    intro sx hx again
    unfold zHash.insertRetry zHash.pauseAndUpsize
    simp [hx]
  have hkey : ∃ r s2 pT o, zHash.insertKey Hp (fuel + 1) s1
      (s.pHashFun k s.MaskBits &&& s.PosMask) (s.pHashFun k s.MaskBits) k u =
        .ok (r, s2, pT, o) ∧ (r = .SUCCESS → ∃ pRet, o = some pRet) := by
    rw [zHash.insertKey]
    simp only
    have he1' : s1.pBucket[s.pHashFun k s.MaskBits &&& s.PosMask]? =
        some { e with lock := wlocked } := he1
    rw [he1']
    simp only
    obtain ⟨-, hm⟩ := hwe
    unfold ENTRY.find at hfe
    cases hpp : e.p with
    | null => rw [hpp] at hfe; simp at hfe
    | list f r =>
      rw [hpp] at hm hfe
      simp only at hm hfe ⊢
      have hpos0 : 0 < e.Size_Type := by rw [hm.1]; simp
      simp only [hpos0, if_true, hfe]
      exact ⟨_, _, _, _, rfl, by simp⟩
    | tree t =>
      rw [hpp] at hm hfe
      simp only at hm hfe ⊢
      simp only [hm.1, lt_irrefl, if_false]
      cases hal : Hp.LockAlloc s1.pHeap with
      | mk o hp =>
        cases o with
        | none =>
          simp only [hfe]
          exact ⟨_, _, _, _, rfl, by simp⟩
        | some slot =>
          simp only
          cases hti : t.Insert Hp { slot := slot, h := s.pHashFun k s.MaskBits, key := k, value := u } s1.pBTNodeHeap with
          | mk st rest =>
            obtain ⟨t1, hp1⟩ := rest
            have hsp := (Insert_spec Hp t _ _ (Or.inr hm.2.1) st t1 hp1 hti).2.1
            cases st with
            | inserted => exact ⟨_, _, _, _, rfl, fun _ => ⟨_, rfl⟩⟩
            | found pD => exact ⟨_, _, _, _, rfl, by simp⟩
            | memError =>
              simp only
              exact ⟨_, _, _, _, hretry _ (by
                show (zHash.setEntry _ _ _).Resizable = false
                unfold zHash.setEntry
                simp only
                rw [g2, hres]) _, by simp⟩
            | noFuel => exact absurd hsp (by simp [InsSpec])
  obtain ⟨r, s2, pT, o, hkey, hsome⟩ := hkey
  unfold zHash.Insert
  simp only
  rw [hl1']
  simp only
  rw [hkey]
  cases r with
  | SUCCESS =>
    obtain ⟨pRet, rfl⟩ := hsome rfl
    exact ⟨_, _, rfl⟩
  | HASH_KEY_EXIST => cases o <;> exact ⟨_, _, rfl⟩
  | ERR_MEMORY => cases o <;> exact ⟨_, _, rfl⟩

/-- `Insert` of a key that is stored in a bucket holding a list returns `HASH_KEY_EXIST`. -/
theorem insert_existing_list (Hp : zMemHeap H) (s : zHash K V H) (fuel : Nat) (k : K)
    (v u v0 : V) (hw : s.WF) (hk : s.lookup k = some v0)
    (hl : ∃ e f r, s.pBucket[s.pos k]? = some e ∧ e.p = .list f r) :
    ∃ s1, zHash.Insert Hp (fuel + 1) s k v u = .ok (.HASH_KEY_EXIST, s1) := by
  obtain ⟨s1, hl1, -, -, -, -, -, -, w7, -⟩ := wLockAt_spec hw (s.pos k) (pos_lt hw k)
  have hl1' : s.wLockAt (s.pHashFun k s.MaskBits &&& s.PosMask) = .ok s1 := hl1
  obtain ⟨e, f, r, he, hpp⟩ := hl
  have hwe := hw.2.2.2 _ _ he
  have he1 := w7 e he
  obtain ⟨d, hfind⟩ : ∃ d, s.find k = some d := by
    unfold zHash.lookup at hk
    cases hf : s.find k with
    | none => rw [hf] at hk; simp at hk
    | some d => exact ⟨d, rfl⟩
  have hfe : e.find (s.pHashFun k s.MaskBits) k = some d := by
    rw [find_eq, he] at hfind; exact hfind
  have hkey : zHash.insertKey Hp (fuel + 1) s1
      (s.pHashFun k s.MaskBits &&& s.PosMask) (s.pHashFun k s.MaskBits) k u =
        .ok (.HASH_KEY_EXIST, s1, s.pHashFun k s.MaskBits &&& s.PosMask, some d) := by
    rw [zHash.insertKey]
    simp only
    have he1' : s1.pBucket[s.pHashFun k s.MaskBits &&& s.PosMask]? =
        some { e with lock := wlocked } := he1
    rw [he1']
    simp only
    obtain ⟨-, hm⟩ := hwe
    unfold ENTRY.find at hfe
    rw [hpp] at hm hfe
    simp only at hm hfe
    have hpos0 : 0 < e.Size_Type := by rw [hm.1]; simp
    simp only [hpp, hpos0, if_true, hfe]
  unfold zHash.Insert
  simp only
  rw [hl1']
  simp only
  rw [hkey]
  exact ⟨_, rfl⟩

/-- C8: when `upSize()` returns `false`, the bucket count, `PosMask`, `MaskBits`, the record
count and the bucket array are as before the call, but `Threshold` is left at the value
computed for twice the buckets. -/
theorem C8_upSize_failed (Hp : zMemHeap H) (s s1 : zHash K V H)
    (hr : zHash.Reachable Hp s) (h : zHash.upSize Hp s = .ok (false, s1)) :
    s1.Buckets = s.Buckets ∧ s1.PosMask = s.PosMask ∧ s1.MaskBits = s.MaskBits ∧
      s1.DataCount = s.DataCount ∧ s1.pBucket = s.pBucket ∧
      s1.Threshold = zHash.threshold s.LoadFactor (s.Buckets * 2) := by
  have hw := reachable_WF Hp hr
  have hf := (upSize_spec Hp s hw false s1 h).1 rfl
  unfold upSizeFailed at hf
  rw [hf]
  exact ⟨rfl, rfl, rfl, rfl, rfl, rfl⟩

theorem insert_full (Hp : zMemHeap H) (s : zHash K V H) (fuel : Nat) (k : K) (v u : V)
    (hw : s.WF) (hres : s.Resizable = false) (hfull : (Hp.LockAlloc s.pHeap).1 = none)
    (hnew : s.lookup k = none) :
    ∃ s1, zHash.Insert Hp (fuel + 1) s k v u = .ok (.ERR_MEMORY, s1) ∧
      s1.Buckets = s.Buckets := by
  obtain ⟨s1, hl1, w1, w2, w3, w4, w5, -, w7, -⟩ := wLockAt_spec hw (s.pos k) (pos_lt hw k)
  have hl1' : s.wLockAt (s.pHashFun k s.MaskBits &&& s.PosMask) = .ok s1 := hl1
  obtain ⟨e, he, hwe⟩ := entry_at hw k
  have he1 := w7 e he
  have hfind : s.find k = none := by
    unfold zHash.lookup at hnew
    cases hf : s.find k with
    | none => rfl
    | some d => rw [hf] at hnew; simp at hnew
  have hfe : e.find (s.pHashFun k s.MaskBits) k = none := by
    rw [find_eq, he] at hfind; exact hfind
  obtain ⟨g1, g2, -, -, -, g6, g7, g8, -⟩ := w2.fields
  have hal : ∃ hp, Hp.LockAlloc s1.pHeap = (none, hp) := by
    rw [w5]
    cases h : Hp.LockAlloc s.pHeap with
    | mk a b =>
      rw [h] at hfull
      simp only at hfull
      subst hfull
      exact ⟨b, rfl⟩
  obtain ⟨hp, hal⟩ := hal
  have hretry : ∀ sx : zHash K V H, sx.Resizable = false → ∀ again,
      zHash.insertRetry Hp again sx (s.pHashFun k s.MaskBits &&& s.PosMask) k =
        .ok (.ERR_MEMORY, sx, s.pHashFun k s.MaskBits &&& s.PosMask, none) := by
    intro sx hx again
    unfold zHash.insertRetry zHash.pauseAndUpsize
    simp [hx]
  have hkey : zHash.insertKey Hp (fuel + 1) s1 (s.pHashFun k s.MaskBits &&& s.PosMask)
      (s.pHashFun k s.MaskBits) k u =
      .ok (.ERR_MEMORY, { s1 with pHeap := hp }, s.pHashFun k s.MaskBits &&& s.PosMask, none) := by
    rw [zHash.insertKey]
    simp only
    have he1' : s1.pBucket[s.pHashFun k s.MaskBits &&& s.PosMask]? =
        some { e with lock := wlocked } := he1
    rw [he1']
    simp only
    obtain ⟨-, hm⟩ := hwe
    unfold ENTRY.find at hfe
    cases hpp : e.p with
    | null =>
      simp only [hal]
      exact hretry _ (by simp only; rw [g2, hres]) _
    | list f r =>
      rw [hpp] at hm hfe
      simp only at hm hfe ⊢
      have hpos0 : 0 < e.Size_Type := by rw [hm.1]; simp
      simp only [hpos0, if_true, hfe, hal]
      exact hretry _ (by simp only; rw [g2, hres]) _
    | tree t =>
      rw [hpp] at hm hfe
      simp only at hm hfe ⊢
      simp only [hm.1, lt_irrefl, if_false, hal, hfe]
      exact hretry _ (by simp only; rw [g2, hres]) _
  refine ⟨({ s1 with pHeap := hp } : zHash K V H).wUnlockAt
    (s.pHashFun k s.MaskBits &&& s.PosMask), ?_, ?_⟩
  · unfold zHash.Insert
    simp only
    rw [hl1']
    simp only
    rw [hkey]
  · have hh : Held ({ s1 with pHeap := hp } : zHash K V H)
        (s.pHashFun k s.MaskBits &&& s.PosMask) := w4
    obtain ⟨-, b2, -⟩ := wUnlockAt_spec (s := ({ s1 with pHeap := hp } : zHash K V H))
      ((WF_frame (show Frame s1 ({ s1 with pHeap := hp } : zHash K V H) from rfl) rfl).2 w1) _ hh
    rw [b2.fields.2.2.2.2.2.1]
    exact g6

/-- C10: in a table that is not resizable, after `N` inserts that returned `SUCCESS`, when
the data-node heap has no unit left, the insert of a further key returns `ERR_MEMORY`, the
bucket count stays, and `Value` returns each of the `N` keys with its inserted value. -/
theorem C10_full_slab (Hp : zMemHeap H) (s0 s : zHash K V H) (fuel fuel2 : Nat) (u u2 : V)
    (kvs : List (K × V)) (k : K) (v : V) (hr : zHash.Reachable Hp s0)
    (hres : s0.Resizable = false) (hins : zHash.insertAll Hp fuel u s0 kvs = some s)
    (hfull : (Hp.LockAlloc s.pHeap).1 = none) (hnew : s.lookup k = none) :
    ∃ s1, zHash.Insert Hp (fuel2 + 1) s k v u2 = .ok (.ERR_MEMORY, s1) ∧
      s1.Buckets = s.Buckets ∧
      ∀ kv ∈ kvs, ∃ s2, zHash.Value s1 kv.1 = .ok (some kv.2, s2) := by
  obtain ⟨hw, hcfg, hall, -⟩ := insertAll_settled Hp fuel u kvs s0 s (reachable_WF Hp hr) hins
  obtain ⟨s1, h1, h2⟩ := insert_full Hp s fuel2 k v u2 hw (by rw [hcfg.2.1, hres]) hfull hnew
  refine ⟨s1, h1, h2, ?_⟩
  intro kv hkv
  exact (settled_frame_fail Hp (hall kv hkv) (by simp) h1).1.value

/-- `zBitCount` counts the bits of the masks `2 ^ j - 1` of a 64-bit word. -/
theorem zBitCount_mask : ∀ j, j ≤ 64 → zBitCount (2 ^ j - 1) = j := by
  decide

theorem roundUpLoop_spec : ∀ (fuel X ret a : Nat), X < 2 ^ fuel → 1 ≤ X → ret = 2 ^ a →
    a + Nat.log2 X < 64 → zHash.roundUpLoop fuel X ret = 2 ^ (a + Nat.log2 X) := by
  intro fuel
  induction fuel with
  | zero => intro X ret a h1 h2; omega
  | succ fuel ih =>
    intro X ret a h1 h2 h3 h4
    rw [zHash.roundUpLoop]
    have hX : X ≠ 0 := by omega
    by_cases hz : X >>> 1 = 0
    · rw [if_pos hz]
      have : X = 1 := by
        rw [Nat.shiftRight_eq_div_pow] at hz
        have := (Nat.div_eq_zero_iff (show 0 < 2 ^ 1 by norm_num)).1 hz
        omega
      subst this
      simp [h3, Nat.log2]
    · rw [if_neg hz]
      have hlog : Nat.log2 X = Nat.log2 (X >>> 1) + 1 := by
        rw [Nat.shiftRight_eq_div_pow, pow_one]
        have h2' : 2 ≤ X := by
          by_contra hlt
          have : X = 1 := by omega
          subst this
          simp at hz
        conv_lhs => rw [Nat.log2]
        rw [if_pos h2']
      have hX1 : X >>> 1 < 2 ^ fuel := by
        rw [Nat.shiftRight_eq_div_pow, pow_one]
        rw [pow_succ] at h1
        omega
      have hX2 : 1 ≤ X >>> 1 := Nat.one_le_iff_ne_zero.2 hz
      have hret : (ret <<< 1) % 2 ^ 64 = 2 ^ (a + 1) := by
        rw [h3, Nat.shiftLeft_eq, pow_one, ← pow_succ]
        apply Nat.mod_eq_of_lt
        apply Nat.pow_lt_pow_right (by norm_num)
        omega
      rw [ih (X >>> 1) _ (a + 1) hX1 hX2 hret (by omega), hlog]
      congr 1
      omega

/-- On a number `n` from 1 to `2 ^ 63` member `roundUp` returns the least power of two that is
not below `n`. -/
theorem roundUp_spec (n : Nat) (h1 : 1 ≤ n) (h2 : n ≤ 2 ^ 63) :
    ∃ j, j ≤ 63 ∧ zHash.roundUp n = 2 ^ j ∧ n ≤ 2 ^ j ∧ 2 ^ j < 2 * n := by
  have hn : n ≠ 0 := by omega
  have hlog : Nat.log2 n < 64 := (Nat.log2_lt hn).2 (by omega)
  have hloop : zHash.roundUpLoop 64 n 1 = 2 ^ Nat.log2 n := by
    have := roundUpLoop_spec 64 n 1 0 (by omega) h1 (by norm_num) (by omega)
    rw [this, Nat.zero_add]
  have hle : 2 ^ Nat.log2 n ≤ n := Nat.log2_self_le hn
  have hlt : n < 2 ^ (Nat.log2 n + 1) := Nat.lt_log2_self
  unfold zHash.roundUp
  rw [hloop]
  by_cases hc : 2 ^ Nat.log2 n < n
  · rw [if_pos hc]
    have h63 : Nat.log2 n < 63 := by
      by_contra hge
      have : 2 ^ 63 ≤ 2 ^ Nat.log2 n := Nat.pow_le_pow_right (by norm_num) (by omega)
      omega
    refine ⟨Nat.log2 n + 1, by omega, ?_, by omega, ?_⟩
    · rw [Nat.shiftLeft_eq, pow_one, ← pow_succ]
      apply Nat.mod_eq_of_lt
      exact Nat.pow_lt_pow_right (by norm_num) (by omega)
    · rw [pow_succ]
      omega
  · rw [if_neg hc]
    refine ⟨Nat.log2 n, by omega, rfl, by omega, by omega⟩

omit [LinearOrder K] in
/-- The table of the constructor obeys the laws of the parameters. -/
theorem new_geometry (Hp : zMemHeap H) (hf : K → Nat → Nat) (sys : List Bool) :
    (zHash.new Hp hf sys : zHash K V H).Geometry ∧
      (zHash.new Hp hf sys : zHash K V H).ThresholdLaw :=
  ⟨⟨8, rfl, rfl, rfl, show zBitCount 255 = 8 by decide⟩,
    show 192 = zHash.threshold (3, 4) 256 by decide⟩

omit [LinearOrder K] in
/-- The parameters after a successful `SetInitBuckets(n)` with `n` from 1 to `2 ^ 63`. -/
theorem SetInitBuckets_geometry (Hp : zMemHeap H) (s s1 : zHash K V H) (n : Nat)
    (uninit : List (ENTRY K V)) (h1 : 1 ≤ n) (h2 : n ≤ 2 ^ 63)
    (h : zHash.SetInitBuckets Hp s n uninit = (true, s1)) :
    s1.Geometry ∧ s1.ThresholdLaw ∧ n ≤ s1.Buckets ∧ s1.Buckets < 2 * n := by
  obtain ⟨j, hj, hr, hle, hlt⟩ := roundUp_spec n h1 h2
  unfold zHash.SetInitBuckets at h
  simp only at h
  cases hsa1 : zHash.sysAlloc s with
  | mk b1 sa =>
    obtain ⟨hf1, -⟩ := frame_sysAlloc s
    rw [hsa1] at hf1 h
    simp only at hf1 h
    cases b1 with
    | false => simp at h
    | true =>
      simp only at h
      cases hsa2 : zHash.sysAlloc sa with
      | mk b2 sb =>
        obtain ⟨hf2, -⟩ := frame_sysAlloc sa
        rw [hsa2] at hf2 h
        simp only at hf2 h
        cases b2 with
        | false => simp at h
        | true =>
          simp only at h
          cases hsa3 : zHash.sysAlloc sb with
          | mk b3 sc =>
            obtain ⟨hf3, -⟩ := frame_sysAlloc sb
            rw [hsa3] at hf3 h
            simp only at hf3 h
            cases b3 with
            | false => simp at h
            | true =>
              simp only [Prod.mk.injEq, true_and] at h
              have hlf : sc.LoadFactor = s.LoadFactor :=
                ((hf1.ftrans hf2).ftrans hf3).fields.2.2.2.2.2.2.2.2.2.1
              have hmask : (2 ^ j + (2 ^ 64 - 1)) % 2 ^ 64 = 2 ^ j - 1 := by
                have hpos : 0 < 2 ^ j := Nat.pow_pos (by norm_num)
                have hlt64 : 2 ^ j < 2 ^ 64 := Nat.pow_lt_pow_right (by norm_num) (by omega)
                have : 2 ^ j + (2 ^ 64 - 1) = (2 ^ j - 1) + 2 ^ 64 := by omega
                rw [this, Nat.add_mod_right]
                exact Nat.mod_eq_of_lt (by omega)
              subst h
              refine ⟨⟨j, hr, ?_, rfl, ?_⟩, ?_, ?_, ?_⟩
              · show (zHash.roundUp n + (2 ^ 64 - 1)) % 2 ^ 64 = zHash.roundUp n - 1
                rw [hr, hmask]
              · show zBitCount ((zHash.roundUp n + (2 ^ 64 - 1)) % 2 ^ 64) = j
                rw [hr, hmask]
                exact zBitCount_mask j (by omega)
              · show zHash.threshold s.LoadFactor (zHash.roundUp n) =
                  zHash.threshold sc.LoadFactor (zHash.roundUp n)
                rw [hlf]
              · show n ≤ zHash.roundUp n
                rw [hr]; exact hle
              · show zHash.roundUp n < 2 * n
                rw [hr]; exact hlt

/-- The parameters that a successful `upSize()` leaves. -/
theorem upSize_fields (Hp : zMemHeap H) (s s1 : zHash K V H)
    (h : zHash.upSize Hp s = .ok (true, s1)) :
    s1.Buckets = s.Buckets * 2 ∧ s1.PosMask = s.Buckets * 2 - 1 ∧
      s1.MaskBits = zBitCount (s.Buckets * 2 - 1) ∧
      s1.Threshold = zHash.threshold s.LoadFactor (s.Buckets * 2) ∧
      s1.LoadFactor = s.LoadFactor := by
  unfold zHash.upSize at h
  simp only at h
  cases hsa1 : zHash.sysAlloc ({ s with Buckets := s.Buckets * 2, Threshold := zHash.threshold s.LoadFactor (s.Buckets * 2) } : zHash K V H) with
  | mk b1 sa =>
    obtain ⟨hf1, -⟩ := frame_sysAlloc ({ s with Buckets := s.Buckets * 2, Threshold := zHash.threshold s.LoadFactor (s.Buckets * 2) } : zHash K V H)
    rw [hsa1] at hf1 h
    simp only at hf1 h
    cases b1 with
    | false => simp at h
    | true =>
      simp only at h
      cases hsa2 : zHash.sysAlloc ({ sa with pHeap := Hp.create sa.Threshold } : zHash K V H) with
      | mk b2 sb =>
        obtain ⟨hf2, -⟩ := frame_sysAlloc
          ({ sa with pHeap := Hp.create sa.Threshold } : zHash K V H)
        rw [hsa2] at hf2 h
        simp only at hf2 h
        have hf2x : Frame sa sb := @Frame.ftrans K V H _ (({ sa with pHeap := Hp.create sa.Threshold } : zHash K V H)) _ (show Frame _ _ from rfl) hf2
        cases b2 with
        | false => simp at h
        | true =>
          simp only at h
          cases hsa3 : zHash.sysAlloc ({ sb with pBTNodeHeap := Hp.create ((sb.Threshold + 1) >>> 1) } : zHash K V H) with
          | mk b3 sc =>
            obtain ⟨hf3, -⟩ := frame_sysAlloc ({ sb with pBTNodeHeap := Hp.create ((sb.Threshold + 1) >>> 1) } : zHash K V H)
            rw [hsa3] at hf3 h
            simp only at hf3 h
            have hf3x : Frame sb sc := @Frame.ftrans K V H _ (({ sb with pBTNodeHeap := Hp.create ((sb.Threshold + 1) >>> 1) } : zHash K V H)) _ (show Frame _ _ from rfl) hf3
            have hfr : Frame ({ s with Buckets := s.Buckets * 2, Threshold := zHash.threshold s.LoadFactor (s.Buckets * 2) } : zHash K V H) sc :=
              (hf1.ftrans hf2x).ftrans hf3x
            obtain ⟨g1, g2, g3, g4, g5, g6, g7, g8, g9, g10, g11⟩ := hfr.fields
            simp only at g1 g2 g3 g4 g5 g6 g7 g8 g9 g10 g11
            cases b3 with
            | false => simp at h
            | true =>
              simp only at h
              cases hce : zHash.copyEntries Hp s.pBucket ({ sc with pBucket := List.replicate sc.Buckets zHash.freshEntry, PosMask := sc.Buckets - 1, MaskBits := zBitCount (sc.Buckets - 1) } : zHash K V H) with
              | error x => rw [hce] at h; simp at h
              | ok res =>
                obtain ⟨b5, s5⟩ := res
                rw [hce] at h
                have hf5 := copyEntries_frame Hp _ _ _ _ hce
                obtain ⟨k1, k2, k3, k4, k5, k6, k7, k8, k9, k10, k11⟩ := hf5.fields
                simp only at k1 k2 k3 k4 k5 k6 k7 k8 k9 k10 k11
                cases b5 with
                | false => simp at h
                | true =>
                  simp only [Except.ok.injEq, Prod.mk.injEq, true_and] at h
                  subst h
                  refine ⟨?_, ?_, ?_, ?_, ?_⟩
                  · simp only; rw [k6]; exact g6
                  · simp only; rw [k7, g6]
                  · simp only; rw [k8, g6]
                  · simp only; rw [k11]; exact g11
                  · simp only; rw [k10]; exact g10

omit [LinearOrder K] in
theorem isList_ofList (l : List (DATA_NODE K V)) (lk : zRWLock) (st : Nat) (h : 0 < l.length) :
    (⟨ChainPtr.ofList l, lk, st⟩ : ENTRY K V).isList = true := by
  cases l with
  | nil => simp at h
  | cons a r => rfl

/-- An entry of a table that obeys `WF` obeys the chain-variant law. -/
theorem variant_of_WF {hf : K → Nat → Nat} {m mask i : Nat} {e : ENTRY K V}
    (hw : e.WF hf m mask i) : e.Variant := by
  obtain ⟨-, hm⟩ := hw
  unfold ENTRY.Variant
  cases hp : e.p with
  | null => exact Or.inl rfl
  | list f r =>
    rw [hp] at hm
    simp only at hm
    refine Or.inr (Or.inl ⟨f, r, rfl, hm.1, ?_⟩)
    rw [hm.1]
    simp
  | tree t =>
    rw [hp] at hm
    simp only at hm
    exact Or.inr (Or.inr ⟨t, rfl, hm.1, hm.2.1, hm.2.2⟩)

/-- The table that `upSize()` returns obeys `WF`, with either result. -/
theorem upSize_WF (Hp : zMemHeap H) (s : zHash K V H) (hw : s.WF) (b : Bool)
    (s1 : zHash K V H) (h : zHash.upSize Hp s = .ok (b, s1)) : s1.WF := by
  obtain ⟨hf, hd⟩ := upSize_spec Hp s hw b s1 h
  cases b with
  | true => exact (hd rfl).1
  | false =>
    have := hf rfl
    unfold upSizeFailed at this
    rw [this]
    exact hw

/-- C13 (without the bound on the length of a list): in a table reached by public operations,
and in the table that `upSize()` returns from it, every entry is empty, or a list of `Size_Type`
nodes with `Size_Type` at least 1, or a valid tree of at least `MIN_BTREE_SIZE` records with
`Size_Type = 0`. -/
theorem C13_chain_variant (Hp : zMemHeap H) (s : zHash K V H) (hr : zHash.Reachable Hp s) :
    (∀ (i : Nat) (e : ENTRY K V), s.pBucket[i]? = some e → e.Variant) ∧
    (∀ (b : Bool) (s1 : zHash K V H), zHash.upSize Hp s = .ok (b, s1) →
      ∀ (i : Nat) (e : ENTRY K V), s1.pBucket[i]? = some e → e.Variant) := by
  have hw := reachable_WF Hp hr
  refine ⟨fun i e he => variant_of_WF (hw.2.2.2 i e he), ?_⟩
  intro b s1 h i e he
  exact variant_of_WF ((upSize_WF Hp s hw b s1 h).2.2.2 i e he)

/-- C15: the table of the constructor has 256 buckets, the threshold 192 and obeys the laws of
the parameters; so does the table after a successful `SetInitBuckets(n)` with `n` from 1 to
`2 ^ 63`, whose bucket count is the least power of two not below `n`; a successful `upSize()`
of a table that obeys the laws, with fewer than `2 ^ 63` buckets, doubles the bucket count and
keeps the laws; a failed `upSize()` keeps the bucket count, `PosMask` and `MaskBits` and leaves
`Threshold` at the value for twice the bucket count. -/
theorem C15_geometry (Hp : zMemHeap H) :
    (∀ (hf : K → Nat → Nat) (sys : List Bool),
      (zHash.new Hp hf sys : zHash K V H).Geometry ∧
      (zHash.new Hp hf sys : zHash K V H).ThresholdLaw ∧
      (zHash.new Hp hf sys : zHash K V H).Buckets = 256 ∧
      (zHash.new Hp hf sys : zHash K V H).Threshold = 192) ∧
    (∀ (s s1 : zHash K V H) (n : Nat) (uninit : List (ENTRY K V)), 1 ≤ n → n ≤ 2 ^ 63 →
      zHash.SetInitBuckets Hp s n uninit = (true, s1) →
      s1.Geometry ∧ s1.ThresholdLaw ∧ n ≤ s1.Buckets ∧ s1.Buckets < 2 * n) ∧
    (∀ (s s1 : zHash K V H), s.Geometry → s.Buckets < 2 ^ 63 →
      zHash.upSize Hp s = .ok (true, s1) →
      s1.Geometry ∧ s1.ThresholdLaw ∧ s1.Buckets = 2 * s.Buckets) ∧
    (∀ (s s1 : zHash K V H), s.WF → s.Geometry → zHash.upSize Hp s = .ok (false, s1) →
      s1.Geometry ∧ s1.Buckets = s.Buckets ∧
      s1.Threshold = zHash.threshold s1.LoadFactor (2 * s1.Buckets)) := by
  refine ⟨fun hf sys => ⟨(new_geometry Hp hf sys).1, (new_geometry Hp hf sys).2, rfl, rfl⟩,
    fun s s1 n uninit h1 h2 h => SetInitBuckets_geometry Hp s s1 n uninit h1 h2 h, ?_, ?_⟩
  · intro s s1 hg hB h
    obtain ⟨j, g1, g2, g3, g4⟩ := hg
    obtain ⟨f1, f2, f3, f4, f5⟩ := upSize_fields Hp s s1 h
    have hj : j < 63 := by
      rw [g1] at hB
      exact (Nat.pow_lt_pow_iff_right (by norm_num)).1 hB
    have hpow : s.Buckets * 2 = 2 ^ (j + 1) := by rw [g1, pow_succ]
    refine ⟨⟨j + 1, by rw [f1, hpow], by rw [f2, f1], by rw [f3, f2], ?_⟩, ?_, by rw [f1]; ring⟩
    · rw [f3, hpow]
      exact zBitCount_mask (j + 1) (by omega)
    · unfold zHash.ThresholdLaw
      rw [f4, f5, f1]
  · intro s s1 hw hg h
    have hf := (upSize_spec Hp s hw false s1 h).1 rfl
    unfold upSizeFailed at hf
    obtain ⟨j, g1, g2, g3, g4⟩ := hg
    rw [hf]
    refine ⟨⟨j, g1, g2, g3, g4⟩, rfl, ?_⟩
    show zHash.threshold s.LoadFactor (s.Buckets * 2) = zHash.threshold s.LoadFactor (2 * s.Buckets)
    rw [Nat.mul_comm]

end Proofs

/-! ## The allocation tree: theorems -/

/-! ### The bit functions -/

theorem shr5 (k : Nat) : k >>> 5 = k / 32 := by
  rw [Nat.shiftRight_eq_div_pow]

theorem and31 (k : Nat) : k &&& 31 = k % 32 := by
  exact Nat.and_pow_two_sub_one_eq_mod k 5

theorem shl5 (k : Nat) : k <<< 5 = k * 32 := by
  rw [Nat.shiftLeft_eq]

theorem shl1 (k : Nat) : k <<< 1 = k * 2 := by
  rw [Nat.shiftLeft_eq]

theorem zBSF_some {x i : Nat} (h : zBSF x = some i) : i < 32 ∧ x.testBit i = true := by
  unfold zBSF at h
  have h1 := List.find?_some h
  have h2 := List.mem_of_find?_eq_some h
  simp only [List.mem_range] at h2
  exact ⟨h2, h1⟩

theorem zBSF_none {x : Nat} (h : zBSF x = none) : ∀ i, i < 32 → x.testBit i = false := by
  unfold zBSF at h
  rw [List.find?_eq_none] at h
  intro i hi
  have := h i (List.mem_range.2 hi)
  simpa using this

theorem one_shl_mod {i : Nat} (hi : i < 32) : (1 <<< i) % 2 ^ 32 = 2 ^ i := by
  rw [Nat.shiftLeft_eq, Nat.one_mul]
  exact Nat.mod_eq_of_lt (Nat.pow_lt_pow_right (by norm_num) hi)

theorem testBit_zBitReset (x : Nat) {i : Nat} (j : Nat) (hi : i < 32) :
    (zBitReset x i).testBit j = (x.testBit j && (decide (j < 32) && decide (j ≠ i))) := by
  unfold zBitReset
  rw [one_shl_mod hi, Nat.testBit_and, Nat.testBit_xor, Nat.testBit_two_pow_sub_one,
    Nat.testBit_two_pow]
  congr 1
  by_cases h2 : i = j
  · subst h2
    simp [hi]
  · have h3 : j ≠ i := fun h => h2 h.symm
    by_cases h1 : j < 32 <;> simp [h1, h2, h3]

theorem testBit_zBitSet (x : Nat) {i : Nat} (j : Nat) (hi : i < 32) :
    (zBitSet x i).testBit j = (x.testBit j || decide (j = i)) := by
  unfold zBitSet
  rw [one_shl_mod hi, Nat.testBit_or, Nat.testBit_two_pow]
  congr 1
  by_cases h2 : i = j
  · subst h2
    simp
  · have h3 : j ≠ i := fun h => h2 h.symm
    simp [h2, h3]

theorem zBitTest_ne_zero (x i : Nat) : zBitTest x i ≠ 0 ↔ x.testBit i = true := by
  unfold zBitTest Nat.testBit
  rw [Nat.and_comm]
  simp

theorem zBitReset_le (x i : Nat) : zBitReset x i ≤ x := Nat.and_le_left

theorem zBitReset_lt {x i : Nat} (hi : i < 32) (h : x.testBit i = true) : zBitReset x i < x := by
  apply lt_of_le_of_ne (zBitReset_le x i)
  intro he
  have := testBit_zBitReset x i hi
  rw [he, h] at this
  simp at this

theorem zBitReset_bound (x i : Nat) : zBitReset x i < 2 ^ 32 := by
  unfold zBitReset
  apply lt_of_le_of_lt Nat.and_le_right
  apply Nat.xor_lt_two_pow
  · norm_num
  · exact Nat.mod_lt _ (by norm_num)

theorem zBitSet_bound {x i : Nat} (hx : x < 2 ^ 32) : zBitSet x i < 2 ^ 32 := by
  unfold zBitSet
  apply Nat.or_lt_two_pow hx
  exact Nat.mod_lt _ (by norm_num)

theorem eq_zero_of_bits {x : Nat} (hx : x < 2 ^ 32) (h : ∀ i, i < 32 → x.testBit i = false) :
    x = 0 := by
  apply Nat.eq_of_testBit_eq
  intro i
  rw [Nat.zero_testBit]
  by_cases hi : i < 32
  · exact h i hi
  · apply Nat.testBit_eq_false_of_lt
    exact lt_of_lt_of_le hx (Nat.pow_le_pow_right (by norm_num) (by omega))

theorem zBSF_zero : zBSF 0 = none := by decide

theorem zBSF_ne_zero {x : Nat} (hx : x < 2 ^ 32) (h : x ≠ 0) : ∃ i, zBSF x = some i := by
  cases hz : zBSF x with
  | some i => exact ⟨i, rfl⟩
  | none => exact absurd (eq_zero_of_bits hx (zBSF_none hz)) h

namespace z__AT

/-! ### Words and stores -/

theorem word_store (a : z__AT) (i k w i' k' : Nat) :
    (a.store i k w).word i' k' =
      if i' = i ∧ k' = k ∧ (a.word i k).isSome = true then some w else a.word i' k' := by
  unfold store word
  cases h : a.pT[i]? with
  | none => simp
  | some layer =>
    simp only
    have hi : i < a.pT.length := by
      by_contra hc
      rw [List.getElem?_eq_none (by omega)] at h
      exact absurd h (by simp)
    by_cases h1 : i' = i
    · subst h1
      rw [List.getElem?_set_self hi, h]
      simp only [true_and]
      by_cases h2 : k' = k
      · subst h2
        by_cases h3 : k' < layer.length
        · rw [List.getElem?_set_self h3]
          simp [List.getElem?_eq_getElem h3]
        · rw [List.getElem?_eq_none (by simpa using h3), List.getElem?_eq_none (by omega)]
          simp
      · rw [List.getElem?_set_ne (fun h => h2 h.symm)]
        simp [h2]
    · rw [List.getElem?_set_ne (fun h => h1 h.symm)]
      simp [h1]

theorem store_MaxLayer (a : z__AT) (i k w : Nat) : (a.store i k w).MaxLayer = a.MaxLayer := by
  unfold store
  cases a.pT[i]? <;> rfl

theorem store_length (a : z__AT) (i k w : Nat) : (a.store i k w).pT.length = a.pT.length := by
  unfold store
  cases a.pT[i]? with
  | none => rfl
  | some l => simp

theorem store_isSome (a : z__AT) (i k w i' k' : Nat) :
    ((a.store i k w).word i' k').isSome = (a.word i' k').isSome := by
  rw [word_store]
  split
  · next h =>
    obtain ⟨rfl, rfl, h3⟩ := h
    simp [h3]
  · rfl

theorem sameShape_store (a : z__AT) (i k w : Nat) : SameShape a (a.store i k w) :=
  ⟨store_MaxLayer a i k w, store_length a i k w, store_isSome a i k w⟩

theorem SameShape.srefl (a : z__AT) : SameShape a a := ⟨rfl, rfl, fun _ _ => rfl⟩

theorem SameShape.strans {a b c : z__AT} (h1 : SameShape a b) (h2 : SameShape b c) :
    SameShape a c :=
  ⟨h2.1.trans h1.1, h2.2.1.trans h1.2.1, fun i k => (h2.2.2 i k).trans (h1.2.2 i k)⟩

theorem bit_store (a : z__AT) (i k w i' k' b : Nat) :
    (a.store i k w).bit i' k' b =
      if i' = i ∧ k' = k ∧ (a.word i k).isSome = true then w.testBit b else a.bit i' k' b := by
  unfold bit
  rw [word_store]
  by_cases hc : i' = i ∧ k' = k ∧ (a.word i k).isSome = true
  · rw [if_pos hc, if_pos hc]
  · rw [if_neg hc, if_neg hc]

theorem bit_store_other (a : z__AT) (i k w i' k' b : Nat) (h : i' ≠ i ∨ k' ≠ k) :
    (a.store i k w).bit i' k' b = a.bit i' k' b := by
  rw [bit_store, if_neg]
  rintro ⟨h1, h2, -⟩
  rcases h with h | h
  · exact h h1
  · exact h h2

theorem bit_store_same (a : z__AT) (i k w b : Nat) (h : (a.word i k).isSome = true) :
    (a.store i k w).bit i k b = w.testBit b := by
  rw [bit_store, if_pos ⟨rfl, rfl, h⟩]

theorem bit_word {a : z__AT} {i k b : Nat} (h : a.bit i k b = true) :
    ∃ w, a.word i k = some w ∧ w.testBit b = true := by
  unfold bit at h
  cases hw : a.word i k with
  | none => rw [hw] at h; simp at h
  | some w => rw [hw] at h; exact ⟨w, rfl, h⟩

theorem bit_of_word {a : z__AT} {i k w : Nat} (h : a.word i k = some w) (b : Nat) :
    a.bit i k b = w.testBit b := by
  unfold bit
  rw [h]

theorem sum_set (l : List Nat) (k w w' : Nat) (h : l[k]? = some w) :
    (l.set k w').sum + w = l.sum + w' := by
  induction l generalizing k with
  | nil => simp at h
  | cons x xs ih =>
    cases k with
    | zero =>
      simp only [List.getElem?_cons_zero, Option.some.injEq] at h
      subst h
      simp only [List.set_cons_zero, List.sum_cons]
      omega
    | succ k =>
      simp only [List.getElem?_cons_succ] at h
      simp only [List.set_cons_succ, List.sum_cons]
      have := ih k h
      omega

theorem weight_store (a : z__AT) (i k w w' : Nat) (h : a.word i k = some w) :
    (a.store i k w').weight + w = a.weight + w' := by
  unfold word at h
  unfold store weight
  cases hl : a.pT[i]? with
  | none => rw [hl] at h; simp at h
  | some layer =>
    rw [hl] at h
    simp only at h ⊢
    rw [List.map_set]
    have h1 : (a.pT.map List.sum)[i]? = some layer.sum := by
      rw [List.getElem?_map, hl]
      rfl
    have h2 := sum_set (a.pT.map List.sum) i layer.sum (layer.set k w').sum h1
    have h3 := sum_set layer k w w' h
    omega

/-! ### The invariants under a store -/

theorem shaped_store {a : z__AT} (h : a.Shaped) (i k w : Nat) (hw : w < 2 ^ 32) :
    (a.store i k w).Shaped := by
  obtain ⟨h1, h2, h3, h0, h4, h5⟩ := h
  refine ⟨by rw [store_length, store_MaxLayer]; exact h1, by rw [store_MaxLayer]; exact h2,
    by rw [store_isSome]; exact h3, ?_, ?_, ?_⟩
  · intro k' hs
    rw [store_isSome] at hs
    exact h0 k' hs
  · intro i' k' hs
    rw [store_isSome] at hs ⊢
    exact h4 i' k' hs
  · intro i' k' w' hs
    rw [word_store] at hs
    split at hs
    · simp only [Option.some.injEq] at hs
      rw [← hs]; exact hw
    · exact h5 i' k' w' hs

/-- A store that only clears bits keeps `Valid`. -/
theorem valid_store_clear {a : z__AT} (h : a.Valid) (i k w w' : Nat) (hk : a.word i k = some w)
    (hb : ∀ b, w'.testBit b = true → w.testBit b = true) (hw : w' < 2 ^ 32) :
    (a.store i k w').Valid := by
  refine ⟨shaped_store h.1 i k w' hw, ?_⟩
  intro i' k' b hi hb32 hbit
  rw [store_MaxLayer] at hi
  rw [store_isSome]
  apply h.2 i' k' b hi hb32
  rw [bit_store] at hbit
  split at hbit
  · next hc =>
    obtain ⟨rfl, rfl, -⟩ := hc
    rw [bit_of_word hk]
    exact hb b hbit
  · exact hbit

theorem valid_reset {a : z__AT} (h : a.Valid) (i k w j : Nat) (hk : a.word i k = some w)
    (hj : j < 32) : (a.store i k (zBitReset w j)).Valid := by
  apply valid_store_clear h i k w _ hk _ (zBitReset_bound w j)
  intro b hb
  rw [testBit_zBitReset w b hj] at hb
  simp only [Bool.and_eq_true] at hb
  exact hb.1

theorem word_lt {a : z__AT} {i k : Nat} (h : (a.word i k).isSome = true) : i < a.pT.length := by
  unfold word at h
  by_contra hc
  rw [List.getElem?_eq_none (by omega)] at h
  simp at h

theorem bit_lt {a : z__AT} {i k b : Nat} (hs : a.Shaped) (h : a.bit i k b = true) :
    i < a.MaxLayer := by
  obtain ⟨w, hw, -⟩ := bit_word h
  rw [← hs.1]
  exact word_lt (by rw [hw]; rfl)

/-- The bits after a bit of a word has been cleared. -/
theorem bit_reset (a : z__AT) (i k p j i' k' b : Nat) (hp : a.word i k = some p) (hj : j < 32)
    (hb : b < 32) :
    (a.store i k (zBitReset p j)).bit i' k' b =
      (a.bit i' k' b && !(decide (i' = i) && decide (k' = k) && decide (b = j))) := by
  by_cases hc : i' = i ∧ k' = k
  · obtain ⟨rfl, rfl⟩ := hc
    rw [bit_store_same _ _ _ _ _ (by rw [hp]; rfl), testBit_zBitReset p b hj, bit_of_word hp]
    by_cases hbj : b = j <;> simp [hb, hbj]
  · rw [bit_store_other]
    · have : (decide (i' = i) && decide (k' = k)) = false := by
        simp only [Bool.and_eq_false_imp, decide_eq_true_eq, decide_eq_false_iff_not]
        intro h1 h2
        exact hc ⟨h1, h2⟩
      rw [this]
      simp
    · by_contra hn
      push_neg at hn
      exact hc hn

theorem free_store_upper (a : z__AT) (i k w u : Nat) (hi : i ≠ a.MaxLayer - 1) :
    (a.store i k w).free u = a.free u := by
  unfold free
  rw [store_MaxLayer, bit_store_other]
  exact Or.inl (fun h => hi h.symm)

theorem onPath_congr {a a1 : z__AT} : ∀ (i k : Nat),
    (∀ j k b, j < i → a1.bit j k b = a.bit j k b) → a.OnPath i k → a1.OnPath i k := by
  intro i
  induction i with
  | zero => intro k _ _; trivial
  | succ i ih =>
    intro k hc hp
    obtain ⟨h1, h2⟩ := hp
    refine ⟨by rw [hc i _ _ (by omega)]; exact h1, ih _ (fun j k b hj => hc j k b (by omega)) h2⟩

theorem allocPost_step {a a1 a2 : z__AT} {r : Option Nat} (h1 : SameShape a a1)
    (h2 : a.Tight → a1.Tight) (h3 : ∀ u, a1.free u = a.free u) (h : AllocPost a1 a2 r) :
    AllocPost a a2 r := by
  obtain ⟨p1, p2, p3, p4⟩ := h
  refine ⟨p1, h1.strans p2, fun ht => p3 (h2 ht), ?_⟩
  cases r with
  | none =>
    simp only at p4 ⊢
    exact ⟨fun u => (p4.1 u).trans (h3 u), p4.2⟩
  | some u =>
    simp only at p4 ⊢
    exact ⟨by rw [← h3]; exact p4.1, p4.2.1, fun v hv => (p4.2.2 v hv).trans (h3 v)⟩

/-- The tree after a bit above the leaves has been cleared for a word without a bit at 1. -/
theorem tight_reset_parent {a : z__AT} (ht : a.Tight) (i k p : Nat)
    (hp : a.word i (k / 32) = some p) (hz : ∀ b, b < 32 → a.bit (i + 1) k b = false) :
    (a.store i (k / 32) (zBitReset p (k % 32))).Tight := by
  intro i' k' b hb hbit
  have hlt : k % 32 < 32 := Nat.mod_lt _ (by norm_num)
  rw [bit_reset a i (k / 32) p (k % 32) _ _ _ hp hlt hb] at hbit
  simp only [Bool.and_eq_true] at hbit
  have hc := ht i' k' b hb hbit.1
  rw [bit_reset a i (k / 32) p (k % 32) _ _ _ hp hlt (Nat.mod_lt _ (by norm_num)), hc]
  simp only [Bool.true_and, Bool.not_eq_true', Bool.and_eq_false_imp, Bool.and_eq_true,
    decide_eq_true_eq, decide_eq_false_iff_not, and_imp]
  intro e1 e2 e3
  subst e1
  have hk : k' = k := by
    have := Nat.div_add_mod k' 32
    have := Nat.div_add_mod k 32
    omega
  subst hk
  rw [hz b hb] at hbit
  simp at hbit

/-- The tree after a bit of a leaf has been cleared. -/
theorem tight_reset_leaf {a : z__AT} (hs : a.Shaped) (ht : a.Tight) (k w j : Nat)
    (hw : a.word (a.MaxLayer - 1) k = some w) (hj : j < 32) :
    (a.store (a.MaxLayer - 1) k (zBitReset w j)).Tight := by
  intro i' k' b hb hbit
  rw [bit_reset a _ k w j _ _ _ hw hj hb] at hbit
  simp only [Bool.and_eq_true] at hbit
  have hlt := bit_lt hs hbit.1
  have hc := ht i' k' b hb hbit.1
  rw [bit_store_other _ _ _ _ _ _ _ (Or.inl (by omega))]
  exact hc

theorem AllocLoop_spec : ∀ (fuel : Nat) (a : z__AT) (i k : Nat), a.Valid → i < a.MaxLayer →
    (a.word i k).isSome = true → a.OnPath i k → 2 * a.weight + (a.MaxLayer - i) ≤ fuel →
    ∃ r a1, AllocLoop fuel a i k = .ok (r, a1) ∧ AllocPost a a1 r := by
  intro fuel
  induction fuel with
  | zero => intro a i k _ hi _ _ hm; omega
  | succ fuel ih =>
    intro a i k hv hi hw hp hm
    rw [AllocLoop]
    cases hwk : a.word i k with
    | none => rw [hwk] at hw; simp at hw
    | some w =>
      simp only
      cases hz : zBSF w with
      | none =>
        simp only
        cases i with
        | zero =>
          simp only [if_true]
          have hk0 : k = 0 := hv.1.2.2.2.1 k hw
          subst hk0
          refine ⟨none, a, rfl, hv, SameShape.srefl a, fun h => h, fun _ => rfl, ?_⟩
          intro b hb
          rw [bit_of_word hwk]
          exact zBSF_none hz b hb
        | succ i =>
          simp only [Nat.add_one_ne_zero, if_false, Nat.add_sub_cancel, shr5, and31]
          obtain ⟨hpb, hpp⟩ := hp
          obtain ⟨p, hpw, hpt⟩ := bit_word hpb
          rw [hpw]
          simp only
          have hlt : k % 32 < 32 := Nat.mod_lt _ (by norm_num)
          have hdec : zBitReset p (k % 32) < p := zBitReset_lt hlt hpt
          have hwt := weight_store a i (k / 32) p (zBitReset p (k % 32)) hpw
          have hzb : ∀ b, b < 32 → a.bit (i + 1) k b = false := by
            intro b hb
            rw [bit_of_word hwk]
            exact zBSF_none hz b hb
          obtain ⟨r, a1, hr, hpost⟩ := ih (a.store i (k / 32) (zBitReset p (k % 32))) i (k / 32)
            (valid_reset hv i (k / 32) p (k % 32) hpw hlt)
            (by rw [store_MaxLayer]; omega)
            (by rw [store_isSome, hpw]; rfl)
            (onPath_congr i (k / 32)
              (fun j k' b hj => bit_store_other _ _ _ _ _ _ _ (Or.inl (by omega))) hpp)
            (by rw [store_MaxLayer]; omega)
          refine ⟨r, a1, hr, allocPost_step (sameShape_store _ _ _ _)
            (fun ht => tight_reset_parent ht i k p hpw hzb) ?_ hpost⟩
          intro u
          exact free_store_upper a i _ _ u (by omega)
      | some index =>
        simp only [shl5]
        obtain ⟨hix, hit⟩ := zBSF_some hz
        by_cases hl : i = a.MaxLayer - 1
        · rw [if_pos hl]
          subst hl
          refine ⟨_, _, rfl, valid_reset hv _ k w index hwk hix, sameShape_store _ _ _ _,
            fun ht => tight_reset_leaf hv.1 ht k w index hwk hix, ?_⟩
          have hd : (k * 32 + index) / 32 = k := by omega
          have hm' : (k * 32 + index) % 32 = index := by omega
          simp only
          refine ⟨?_, ?_, ?_⟩
          · unfold free
            rw [hd, hm', bit_of_word hwk]
            exact hit
          · unfold free
            rw [store_MaxLayer, hd, hm', bit_store_same _ _ _ _ _ (by rw [hwk]; rfl),
              testBit_zBitReset w index hix]
            simp
          · intro v hv'
            unfold free
            rw [store_MaxLayer, bit_reset a _ k w index _ _ _ hwk hix (Nat.mod_lt _ (by norm_num))]
            have : (decide (v / 32 = k) && decide (v % 32 = index)) = false := by
              simp only [Bool.and_eq_false_imp, decide_eq_true_eq, decide_eq_false_iff_not]
              intro h1 h2
              apply hv'
              have := Nat.div_add_mod v 32
              omega
            simp only [decide_True, Bool.true_and, this, Bool.not_false, Bool.and_true]
        · rw [if_neg hl]
          have hchild := hv.2 i k index (by omega) hix (by rw [bit_of_word hwk]; exact hit)
          have hd : (k * 32 + index) / 32 = k := by omega
          have hm' : (k * 32 + index) % 32 = index := by omega
          exact ih a (i + 1) (k * 32 + index) hv (by omega) hchild
            ⟨by rw [hd, hm', bit_of_word hwk]; exact hit, by rw [hd]; exact hp⟩ (by omega)

/-- In a `Valid` tree `Alloc()` returns: a unit that was free, whose bit it clears, or
`RET_MEM_FULL`, and then the root word is 0 and no leaf has changed. -/
theorem Alloc_spec (a : z__AT) (hv : a.Valid) :
    ∃ r a1, a.Alloc = .ok (r, a1) ∧ AllocPost a a1 r := by
  unfold Alloc
  apply AllocLoop_spec _ a 0 0 hv hv.1.2.1 hv.1.2.2.1 trivial
  unfold budget weight
  omega

end z__AT

namespace z__AT

/-! ### `Free` and `PreSet` on one tree -/

/-- A store that sets the bit of a word that the next layer has keeps `Valid`. -/
theorem valid_set {a : z__AT} (h : a.Valid) (i k w j : Nat) (hk : a.word i k = some w)
    (hj : j < 32) (hc : i + 1 < a.MaxLayer → (a.word (i + 1) (k * 32 + j)).isSome = true) :
    (a.store i k (zBitSet w j)).Valid := by
  refine ⟨shaped_store h.1 i k _ (zBitSet_bound (h.1.2.2.2.2.2 i k w hk)), ?_⟩
  intro i' k' b hi hb32 hbit
  rw [store_MaxLayer] at hi
  rw [store_isSome]
  rw [bit_store] at hbit
  split at hbit
  · next hcnd =>
    obtain ⟨rfl, rfl, -⟩ := hcnd
    rw [testBit_zBitSet w b hj] at hbit
    simp only [Bool.or_eq_true, decide_eq_true_eq] at hbit
    rcases hbit with hbit | rfl
    · exact h.2 i' k' b hi hb32 (by rw [bit_of_word hk]; exact hbit)
    · exact hc hi
  · exact h.2 i' k' b hi hb32 hbit

theorem FreeUp_spec : ∀ (i : Nat) (a : z__AT) (U : Nat), a.Valid → i < a.MaxLayer →
    (a.word i U).isSome = true →
    ∃ a1, FreeUp i a U = .ok a1 ∧ a1.Valid ∧ SameShape a a1 ∧ ∀ u, a1.free u = a.free u := by
  intro i
  induction i with
  | zero => intro a U hv _ _; exact ⟨a, rfl, hv, SameShape.srefl a, fun _ => rfl⟩
  | succ i ih =>
    intro a U hv hi hw
    rw [FreeUp]
    simp only [shr5, and31]
    have hpar := hv.1.2.2.2.2.1 i U hw
    cases hp : a.word i (U / 32) with
    | none => rw [hp] at hpar; simp at hpar
    | some w =>
      simp only
      by_cases hb : zBitTest w (U % 32) ≠ 0
      · rw [if_pos hb]
        exact ⟨a, rfl, hv, SameShape.srefl a, fun _ => rfl⟩
      · rw [if_neg hb]
        have hlt : U % 32 < 32 := Nat.mod_lt _ (by norm_num)
        have hU : U / 32 * 32 + U % 32 = U := by omega
        have hv1 := valid_set hv i (U / 32) w (U % 32) hp hlt (fun _ => by rw [hU]; exact hw)
        obtain ⟨a1, h1, h2, h3, h4⟩ := ih (a.store i (U / 32) (zBitSet w (U % 32))) (U / 32) hv1
          (by rw [store_MaxLayer]; omega) (by rw [store_isSome, hp]; rfl)
        refine ⟨a1, h1, h2, (sameShape_store _ _ _ _).strans h3, fun u => ?_⟩
        rw [h4, free_store_upper a i _ _ u (by omega)]

/-- In a `Valid` tree `Free(u)` of a unit of the tree returns and sets the bit of `u`. -/
theorem Free_spec (a : z__AT) (u : Nat) (hv : a.Valid)
    (hu : (a.word (a.MaxLayer - 1) (u / 32)).isSome = true) :
    ∃ a1, a.Free u = .ok a1 ∧ a1.Valid ∧ SameShape a a1 ∧ a1.free u = true ∧
      ∀ v, v ≠ u → a1.free v = a.free v := by
  unfold Free
  simp only [shr5, and31]
  cases hw : a.word (a.MaxLayer - 1) (u / 32) with
  | none => rw [hw] at hu; simp at hu
  | some w =>
    simp only
    have hlt : u % 32 < 32 := Nat.mod_lt _ (by norm_num)
    have hL := hv.1.2.1
    have hv1 := valid_set hv (a.MaxLayer - 1) (u / 32) w (u % 32) hw hlt (fun h => by omega)
    have hfree : (a.store (a.MaxLayer - 1) (u / 32) (zBitSet w (u % 32))).free u = true := by
      unfold free
      rw [store_MaxLayer, bit_store_same _ _ _ _ _ (by rw [hw]; rfl), testBit_zBitSet w _ hlt]
      simp
    have hother : ∀ v, v ≠ u →
        (a.store (a.MaxLayer - 1) (u / 32) (zBitSet w (u % 32))).free v = a.free v := by
      intro v hvu
      unfold free
      rw [store_MaxLayer]
      by_cases hk : v / 32 = u / 32
      · rw [hk, bit_store_same _ _ _ _ _ (by rw [hw]; rfl), testBit_zBitSet w _ hlt,
          bit_of_word hw]
        have : v % 32 ≠ u % 32 := by
          intro he
          apply hvu
          have := Nat.div_add_mod v 32
          have := Nat.div_add_mod u 32
          omega
        simp [this]
      · rw [bit_store_other _ _ _ _ _ _ _ (Or.inr hk)]
    by_cases hc : zBitCount32 (zBitSet w (u % 32)) = FREE_THRESH_HOLD
    · rw [if_pos hc]
      obtain ⟨a1, h1, h2, h3, h4⟩ := FreeUp_spec (a.MaxLayer - 1)
        (a.store (a.MaxLayer - 1) (u / 32) (zBitSet w (u % 32))) (u / 32) hv1
        (by rw [store_MaxLayer]; omega) (by rw [store_isSome, hw]; rfl)
      refine ⟨a1, h1, h2, (sameShape_store _ _ _ _).strans h3, by rw [h4]; exact hfree, ?_⟩
      intro v hvu
      rw [h4, hother v hvu]
    · rw [if_neg hc]
      exact ⟨_, rfl, hv1, sameShape_store _ _ _ _, hfree, hother⟩

theorem PreSetUp_spec : ∀ (i : Nat) (a : z__AT) (U : Nat), a.Valid → a.Tight →
    i < a.MaxLayer → (a.word i U).isSome = true → (∀ b, b < 32 → a.bit i U b = false) →
    ∃ a1, PreSetUp i a U = .ok a1 ∧ a1.Valid ∧ a1.Tight ∧ SameShape a a1 ∧
      ∀ u, a1.free u = a.free u := by
  intro i
  induction i with
  | zero => intro a U hv ht _ _ _; exact ⟨a, rfl, hv, ht, SameShape.srefl a, fun _ => rfl⟩
  | succ i ih =>
    intro a U hv ht hi hw hz
    rw [PreSetUp]
    simp only [shr5, and31]
    have hpar := hv.1.2.2.2.2.1 i U hw
    cases hp : a.word i (U / 32) with
    | none => rw [hp] at hpar; simp at hpar
    | some w =>
      simp only
      have hlt : U % 32 < 32 := Nat.mod_lt _ (by norm_num)
      have hv1 := valid_reset hv i (U / 32) w (U % 32) hp hlt
      have ht1 := tight_reset_parent ht i U w hp hz
      have hf1 : ∀ u, (a.store i (U / 32) (zBitReset w (U % 32))).free u = a.free u :=
        fun u => free_store_upper a i _ _ u (by omega)
      by_cases hb : zBitReset w (U % 32) ≠ 0
      · rw [if_pos hb]
        exact ⟨_, rfl, hv1, ht1, sameShape_store _ _ _ _, hf1⟩
      · rw [if_neg hb]
        have hzero : zBitReset w (U % 32) = 0 := by
          by_contra hne
          exact hb hne
        obtain ⟨a1, h1, h2, h3, h4, h5⟩ := ih (a.store i (U / 32) (zBitReset w (U % 32)))
          (U / 32) hv1 ht1 (by rw [store_MaxLayer]; omega) (by rw [store_isSome, hp]; rfl)
          (by
            intro b _
            rw [bit_store_same _ _ _ _ _ (by rw [hp]; rfl), hzero]
            exact Nat.zero_testBit b)
        exact ⟨a1, h1, h2, h3, (sameShape_store _ _ _ _).strans h4,
          fun u => (h5 u).trans (hf1 u)⟩

/-- In a `Valid` and `Tight` tree `PreSet(u)` of a unit of the tree returns, clears the bit
of `u` and keeps the tree `Valid` and `Tight`. -/
theorem PreSet_spec (a : z__AT) (u : Nat) (hv : a.Valid) (ht : a.Tight)
    (hu : (a.word (a.MaxLayer - 1) (u / 32)).isSome = true) :
    ∃ a1, a.PreSet u = .ok a1 ∧ a1.Valid ∧ a1.Tight ∧ SameShape a a1 ∧ a1.free u = false ∧
      ∀ v, v ≠ u → a1.free v = a.free v := by
  unfold PreSet
  simp only [shr5, and31]
  cases hw : a.word (a.MaxLayer - 1) (u / 32) with
  | none => rw [hw] at hu; simp at hu
  | some w =>
    simp only
    have hlt : u % 32 < 32 := Nat.mod_lt _ (by norm_num)
    have hL := hv.1.2.1
    have hv1 := valid_reset hv (a.MaxLayer - 1) (u / 32) w (u % 32) hw hlt
    have ht1 := tight_reset_leaf hv.1 ht (u / 32) w (u % 32) hw hlt
    have hfree : (a.store (a.MaxLayer - 1) (u / 32) (zBitReset w (u % 32))).free u = false := by
      unfold free
      rw [store_MaxLayer, bit_store_same _ _ _ _ _ (by rw [hw]; rfl),
        testBit_zBitReset w _ hlt]
      simp
    have hother : ∀ v, v ≠ u →
        (a.store (a.MaxLayer - 1) (u / 32) (zBitReset w (u % 32))).free v = a.free v := by
      intro v hvu
      unfold free
      rw [store_MaxLayer, bit_reset a _ (u / 32) w (u % 32) _ _ _ hw hlt
        (Nat.mod_lt _ (by norm_num))]
      have : (decide (v / 32 = u / 32) && decide (v % 32 = u % 32)) = false := by
        simp only [Bool.and_eq_false_imp, decide_eq_true_eq, decide_eq_false_iff_not]
        intro h1 h2
        apply hvu
        have := Nat.div_add_mod v 32
        have := Nat.div_add_mod u 32
        omega
      simp only [decide_True, Bool.true_and, this, Bool.not_false, Bool.and_true]
    by_cases hc : zBitReset w (u % 32) ≠ 0
    · rw [if_pos hc]
      exact ⟨_, rfl, hv1, ht1, sameShape_store _ _ _ _, hfree, hother⟩
    · rw [if_neg hc]
      have hzero : zBitReset w (u % 32) = 0 := by
        by_contra hne
        exact hc hne
      obtain ⟨a1, h1, h2, h3, h4, h5⟩ := PreSetUp_spec (a.MaxLayer - 1)
        (a.store (a.MaxLayer - 1) (u / 32) (zBitReset w (u % 32))) (u / 32) hv1 ht1
        (by rw [store_MaxLayer]; omega) (by rw [store_isSome, hw]; rfl)
        (by
          intro b _
          rw [bit_store_same _ _ _ _ _ (by rw [hw]; rfl), hzero]
          exact Nat.zero_testBit b)
      refine ⟨a1, h1, h2, h3, (sameShape_store _ _ _ _).strans h4, by rw [h5]; exact hfree, ?_⟩
      intro v hvu
      rw [h5, hother v hvu]

/-- With a root word without a bit at 1 `Alloc()` returns `RET_MEM_FULL` and changes
nothing. -/
theorem Alloc_root_zero (a : z__AT) (hs : (a.word 0 0).isSome = true)
    (hz : ∀ b, b < 32 → a.bit 0 0 b = false) : a.Alloc = .ok (none, a) := by
  unfold Alloc budget
  rw [show 2 * (a.pT.map List.sum).sum + a.MaxLayer + 1 =
    (2 * (a.pT.map List.sum).sum + a.MaxLayer) + 1 from rfl, AllocLoop]
  cases hw : a.word 0 0 with
  | none => rw [hw] at hs; simp at hs
  | some w =>
    simp only
    have : zBSF w = none := by
      cases hb : zBSF w with
      | none => rfl
      | some i =>
        obtain ⟨h1, h2⟩ := zBSF_some hb
        have := hz i h1
        rw [bit_of_word hw, h2] at this
        simp at this
    rw [this]
    simp

/-- In a `Tight` tree whose root word has no bit at 1 no unit is free. -/
theorem no_free_of_root_zero {a : z__AT} (hs : a.Shaped) (ht : a.Tight)
    (hz : ∀ b, b < 32 → a.bit 0 0 b = false) : ∀ u, a.free u = false := by
  have hall : ∀ i k b, b < 32 → a.bit i k b = false := by
    intro i
    induction i with
    | zero =>
      intro k b hb
      by_cases hk : k = 0
      · subst hk; exact hz b hb
      · unfold bit
        cases hw : a.word 0 k with
        | none => rfl
        | some w => exact absurd (hs.2.2.2.1 k (by rw [hw]; rfl)) hk
    | succ i ih =>
      intro k b hb
      by_contra hc
      have hc' : a.bit (i + 1) k b = true := by
        cases h : a.bit (i + 1) k b with
        | true => rfl
        | false => exact absurd h hc
      have := ht i k b hb hc'
      rw [ih (k / 32) (k % 32) (Nat.mod_lt _ (by norm_num))] at this
      simp at this
  intro u
  exact hall _ _ _ (Nat.mod_lt _ (by norm_num))

end z__AT

/-! ### The allocator of two trees -/

namespace z__AT

theorem Kept.krefl {a : z__AT} (h : a.Valid) : Kept a a :=
  ⟨h, SameShape.srefl a, fun h => h, fun _ => rfl⟩

theorem kept_of_none {a a1 : z__AT} (h : AllocPost a a1 none) : Kept a a1 :=
  ⟨h.1, h.2.1, h.2.2.1, h.2.2.2.1⟩

theorem free_word {a : z__AT} {u : Nat} (h : a.free u = true) :
    (a.word (a.MaxLayer - 1) (u / 32)).isSome = true := by
  obtain ⟨w, hw, -⟩ := bit_word h
  rw [hw]; rfl

theorem free_false_of_none {a : z__AT} {u : Nat}
    (h : (a.word (a.MaxLayer - 1) (u / 32)).isSome = false) : a.free u = false := by
  unfold free bit
  cases hw : a.word (a.MaxLayer - 1) (u / 32) with
  | none => rfl
  | some w => rw [hw] at h; simp at h

end z__AT

namespace zAT

theorem leaf_iff_sameShape {a a1 : z__AT} {Size : Nat} (hs : z__AT.SameShape a a1)
    (h : ∀ k, (a.word (a.MaxLayer - 1) k).isSome = true ↔ k * 32 < Size) :
    ∀ k, (a1.word (a1.MaxLayer - 1) k).isSome = true ↔ k * 32 < Size := by
  intro k
  rw [hs.1, hs.2.2]
  exact h k

theorem inv_replace {s : zAT} (h : s.Inv) (c : Nat) (a1 a2 : z__AT) (h1 : a1.Valid)
    (s1 : z__AT.SameShape s.pAT1 a1) (h2 : a2.Valid) (s2 : z__AT.SameShape s.pAT2 a2) :
    ({ s with Count := c, pAT1 := a1, pAT2 := a2 } : zAT).Inv :=
  ⟨h1, h2, h.2.2.1, leaf_iff_sameShape s1 h.2.2.2.1, leaf_iff_sameShape s2 h.2.2.2.2⟩

theorem free1_lt {s : zAT} (h : s.Inv) {u : Nat} (hf : s.pAT1.free u = true) : u < s.Size := by
  have h1 := (h.2.2.2.1 (u / 32)).1 (z__AT.free_word hf)
  have h2 := h.2.2.1
  omega

theorem free2_lt {s : zAT} (h : s.Inv) {u : Nat} (hf : s.pAT2.free u = true) : u < s.Size := by
  have h1 := (h.2.2.2.2 (u / 32)).1 (z__AT.free_word hf)
  have h2 := h.2.2.1
  omega

theorem free_lt {s : zAT} (h : s.Inv) {u : Nat} (hf : s.free u = true) : u < 2 * s.Size := by
  unfold free at hf
  split at hf
  · omega
  · have := free2_lt h hf
    omega

/-- The first tree has handed out the unit `u`, the second tree is kept. -/
theorem out_first {s : zAT} (h : s.Inv) (c u : Nat) (a1 a2 : z__AT)
    (p1 : z__AT.AllocPost s.pAT1 a1 (some u)) (p2 : z__AT.Kept s.pAT2 a2) :
    AllocOut s { s with Count := c, pAT1 := a1, pAT2 := a2 } (some u) := by
  obtain ⟨v1, s1, t1, f1, f2, f3⟩ := p1
  obtain ⟨v2, s2, t2, g⟩ := p2
  have hu : u < s.Size := free1_lt h f1
  refine ⟨inv_replace h c a1 a2 v1 s1 v2 s2, rfl, fun ht => ⟨t1 ht.1, t2 ht.2⟩, by omega, ?_, ?_, ?_⟩
  · unfold free; rw [if_pos hu]; exact f1
  · unfold free; simp only; rw [if_pos hu]; exact f2
  · intro v hv
    unfold free
    simp only
    by_cases hc : v < s.Size
    · rw [if_pos hc, if_pos hc]; exact f3 v hv
    · rw [if_neg hc, if_neg hc]; exact g _

/-- The second tree has handed out its unit `u`, the first tree is kept. -/
theorem out_second {s : zAT} (h : s.Inv) (c u : Nat) (a1 a2 : z__AT)
    (p1 : z__AT.Kept s.pAT1 a1) (p2 : z__AT.AllocPost s.pAT2 a2 (some u)) :
    AllocOut s { s with Count := c, pAT1 := a1, pAT2 := a2 } (some (s.Size + u)) := by
  obtain ⟨v2, s2, t2, f1, f2, f3⟩ := p2
  obtain ⟨v1, s1, t1, g⟩ := p1
  have hu : u < s.Size := free2_lt h f1
  have hn : ¬ s.Size + u < s.Size := by omega
  have hsub : s.Size + u - s.Size = u := by omega
  refine ⟨inv_replace h c a1 a2 v1 s1 v2 s2, rfl, fun ht => ⟨t1 ht.1, t2 ht.2⟩, by omega, ?_, ?_, ?_⟩
  · unfold free; rw [if_neg hn, hsub]; exact f1
  · unfold free; simp only; rw [if_neg hn, hsub]; exact f2
  · intro v hv
    unfold free
    simp only
    by_cases hc : v < s.Size
    · rw [if_pos hc, if_pos hc]; exact g _
    · rw [if_neg hc, if_neg hc]
      apply f3
      omega

/-- Both trees have returned `RET_MEM_FULL`. -/
theorem out_none {s : zAT} (h : s.Inv) (c : Nat) (a1 a2 : z__AT)
    (p1 : z__AT.AllocPost s.pAT1 a1 none) (p2 : z__AT.AllocPost s.pAT2 a2 none) :
    AllocOut s { s with Count := c, pAT1 := a1, pAT2 := a2 } none := by
  obtain ⟨v1, s1, t1, f1, z1⟩ := p1
  obtain ⟨v2, s2, t2, f2, z2⟩ := p2
  refine ⟨inv_replace h c a1 a2 v1 s1 v2 s2, rfl, fun ht => ⟨t1 ht.1, t2 ht.2⟩, ?_, z1, z2⟩
  intro v
  unfold free
  simp only
  by_cases hc : v < s.Size
  · rw [if_pos hc, if_pos hc]; exact f1 v
  · rw [if_neg hc, if_neg hc]; exact f2 _

/-- In an allocator that obeys `Inv`, `Alloc()` returns: a unit that was free, which is then
in use, or `RET_MEM_FULL`, and then the root words of both trees are 0. -/
theorem Alloc_out (s : zAT) (h : s.Inv) : ∃ r s1, s.Alloc = .ok (r, s1) ∧ AllocOut s s1 r := by
  obtain ⟨r1, a1, e1, p1⟩ := z__AT.Alloc_spec s.pAT1 h.1
  obtain ⟨r2, a2, e2, p2⟩ := z__AT.Alloc_spec s.pAT2 h.2.1
  unfold Alloc
  by_cases hpar : ((s.Count + 1) % 2 ^ 32) &&& 0x1 ≠ 0
  · rw [if_pos hpar, e1]
    cases r1 with
    | some u =>
      exact ⟨_, _, rfl, out_first h _ u a1 s.pAT2 p1 (z__AT.Kept.krefl h.2.1)⟩
    | none =>
      simp only
      rw [e2]
      cases r2 with
      | some u => exact ⟨_, _, rfl, out_second h _ u a1 a2 (z__AT.kept_of_none p1) p2⟩
      | none => exact ⟨_, _, rfl, out_none h _ a1 a2 p1 p2⟩
  · rw [if_neg hpar, e2]
    cases r2 with
    | some u =>
      exact ⟨_, _, rfl, out_second h _ u s.pAT1 a2 (z__AT.Kept.krefl h.1) p2⟩
    | none =>
      simp only
      rw [e1]
      cases r1 with
      | some u => exact ⟨_, _, rfl, out_first h _ u a1 a2 p1 (z__AT.kept_of_none p2)⟩
      | none => exact ⟨_, _, rfl, out_none h _ a1 a2 p1 p2⟩

/-- With the root words of both trees at 0, `Alloc()` returns `RET_MEM_FULL`. -/
theorem Alloc_roots_zero (s : zAT) (h : s.Inv) (hz : s.RootsZero) :
    ∃ s1, s.Alloc = .ok (none, s1) := by
  have e1 := z__AT.Alloc_root_zero s.pAT1 h.1.1.2.2.1 hz.1
  have e2 := z__AT.Alloc_root_zero s.pAT2 h.2.1.1.2.2.1 hz.2
  unfold Alloc
  by_cases hpar : ((s.Count + 1) % 2 ^ 32) &&& 0x1 ≠ 0
  · rw [if_pos hpar, e1]
    simp only
    rw [e2]
    exact ⟨_, rfl⟩
  · rw [if_neg hpar, e2]
    simp only
    rw [e1]
    exact ⟨_, rfl⟩

/-- In an allocator that obeys `Inv`, `Free(u)` of a unit returns and makes `u` free. -/
theorem Free_out (s : zAT) (u : Nat) (h : s.Inv) (hu : u < 2 * s.Size) :
    ∃ s1, s.Free u = .ok s1 ∧ s1.Inv ∧ s1.Size = s.Size ∧ s1.free u = true ∧
      ∀ v, v ≠ u → s1.free v = s.free v := by
  unfold Free
  have h32 := h.2.2.1
  by_cases hc : u < s.Size
  · rw [if_pos hc]
    obtain ⟨a1, e, v1, s1, f1, f2⟩ := z__AT.Free_spec s.pAT1 u h.1
      ((h.2.2.2.1 (u / 32)).2 (by omega))
    rw [e]
    refine ⟨_, rfl, inv_replace h s.Count a1 s.pAT2 v1 s1 h.2.1 (z__AT.SameShape.srefl _), rfl,
      ?_, ?_⟩
    · unfold free; simp only; rw [if_pos hc]; exact f1
    · intro v hv
      unfold free
      simp only
      by_cases hd : v < s.Size
      · rw [if_pos hd, if_pos hd]; exact f2 v hv
      · rw [if_neg hd, if_neg hd]
  · rw [if_neg hc]
    obtain ⟨a2, e, v2, s2, f1, f2⟩ := z__AT.Free_spec s.pAT2 (u - s.Size) h.2.1
      ((h.2.2.2.2 ((u - s.Size) / 32)).2 (by omega))
    rw [e]
    refine ⟨_, rfl, inv_replace h s.Count s.pAT1 a2 h.1 (z__AT.SameShape.srefl _) v2 s2, rfl,
      ?_, ?_⟩
    · unfold free; simp only; rw [if_neg hc]; exact f1
    · intro v hv
      unfold free
      simp only
      by_cases hd : v < s.Size
      · rw [if_pos hd, if_pos hd]
      · rw [if_neg hd, if_neg hd]
        apply f2
        omega

/-- In an allocator that obeys `Inv` and is `Tight`, `PreSet(u)` of a unit returns, puts `u`
in use and keeps the allocator `Tight`. -/
theorem PreSet_out (s : zAT) (u : Nat) (h : s.Inv) (ht : s.Tight) (hu : u < 2 * s.Size) :
    ∃ s1, s.PreSet u = .ok s1 ∧ s1.Inv ∧ s1.Tight ∧ s1.Size = s.Size ∧ s1.Count = s.Count ∧
      s1.free u = false ∧ ∀ v, v ≠ u → s1.free v = s.free v := by
  unfold PreSet
  have h32 := h.2.2.1
  by_cases hc : u < s.Size
  · rw [if_pos hc]
    obtain ⟨a1, e, v1, t1, s1, f1, f2⟩ := z__AT.PreSet_spec s.pAT1 u h.1 ht.1
      ((h.2.2.2.1 (u / 32)).2 (by omega))
    rw [e]
    refine ⟨_, rfl, inv_replace h s.Count a1 s.pAT2 v1 s1 h.2.1 (z__AT.SameShape.srefl _),
      ⟨t1, ht.2⟩, rfl, rfl, ?_, ?_⟩
    · unfold free; simp only; rw [if_pos hc]; exact f1
    · intro v hv
      unfold free
      simp only
      by_cases hd : v < s.Size
      · rw [if_pos hd, if_pos hd]; exact f2 v hv
      · rw [if_neg hd, if_neg hd]
  · rw [if_neg hc]
    obtain ⟨a2, e, v2, t2, s2, f1, f2⟩ := z__AT.PreSet_spec s.pAT2 (u - s.Size) h.2.1 ht.2
      ((h.2.2.2.2 ((u - s.Size) / 32)).2 (by omega))
    rw [e]
    refine ⟨_, rfl, inv_replace h s.Count s.pAT1 a2 h.1 (z__AT.SameShape.srefl _) v2 s2,
      ⟨ht.1, t2⟩, rfl, rfl, ?_, ?_⟩
    · unfold free; simp only; rw [if_neg hc]; exact f1
    · intro v hv
      unfold free
      simp only
      by_cases hd : v < s.Size
      · rw [if_pos hd, if_pos hd]
      · rw [if_neg hd, if_neg hd]
        apply f2
        omega

/-- On a unit of the allocator `GetUnitStatus` returns whether the unit is free. -/
theorem GetUnitStatus_eq (s : zAT) (u : Nat) (h : s.Inv) (hu : u < 2 * s.Size) :
    s.GetUnitStatus u = .ok (s.free u) := by
  unfold GetUnitStatus free z__AT.free z__AT.bit
  simp only [shr5, and31]
  have h32 := h.2.2.1
  have key : ∀ w : Nat, decide (zBitTest w (u % 32) ≠ 0) = w.testBit (u % 32) := by
    intro w
    rw [Bool.eq_iff_iff, decide_eq_true_iff]
    exact zBitTest_ne_zero w (u % 32)
  by_cases hc : u < s.Size
  · rw [if_pos hc, if_pos hc]
    have hs := (h.2.2.2.1 (u / 32)).2 (by omega)
    cases hw : s.pAT1.word (s.pAT1.MaxLayer - 1) (u / 32) with
    | none => rw [hw] at hs; simp at hs
    | some w => simp only; rw [key]
  · rw [if_neg hc, if_neg hc]
    have hs := (h.2.2.2.2 ((u - s.Size) / 32)).2 (by omega)
    have hm : (u - s.Size) % 32 = u % 32 := by omega
    cases hw : s.pAT2.word (s.pAT2.MaxLayer - 1) ((u - s.Size) / 32) with
    | none => rw [hw] at hs; simp at hs
    | some w => simp only; rw [key, hm]

/-! ### Sequences of calls -/

theorem call_spec (C : Nat) (t : Trace) (c : Call) (h : TInv C t) :
    ∃ ot, call t c = .ok ot ∧ ∀ t1, ot = some t1 → TInv C t1 := by
  obtain ⟨hinv, hC, hnd, hmem, htail, hcount⟩ := h
  cases c with
  | alloc =>
    obtain ⟨r, s1, e, o1, o2, -, o4⟩ := Alloc_out t.s hinv
    simp only [call]
    rw [e]
    cases r with
    | none =>
      simp only at o4 ⊢
      refine ⟨_, rfl, ?_⟩
      intro t1 ht1
      simp only [Option.some.injEq] at ht1
      subst ht1
      refine ⟨o1, by rw [o2]; exact hC, hnd, ?_, ?_, hcount⟩
      · intro u; simp only; rw [o4.1 u]; exact hmem u
      · intro u hu; simp only; rw [o4.1 u]; exact htail u hu
    | some u =>
      simp only at o4 ⊢
      obtain ⟨-, f1, f2, f3⟩ := o4
      have huC : u < C := by
        by_contra hge
        have := htail u (by omega)
        rw [f1] at this
        simp at this
      have hnot : u ∉ t.live := by
        intro hin
        have := ((hmem u).1 hin).2
        rw [f1] at this
        simp at this
      refine ⟨_, rfl, ?_⟩
      intro t1 ht1
      simp only [Option.some.injEq] at ht1
      subst ht1
      refine ⟨o1, by rw [o2]; exact hC, List.nodup_cons.2 ⟨hnot, hnd⟩, ?_, ?_, ?_⟩
      · intro v
        simp only [List.mem_cons]
        by_cases hv : v = u
        · subst hv
          exact ⟨fun _ => ⟨huC, f2⟩, fun _ => Or.inl rfl⟩
        · rw [f3 v hv, ← hmem v]
          exact ⟨fun h => h.resolve_left hv, fun h => Or.inr h⟩
      · intro v hv
        simp only
        rw [f3 v (by omega)]
        exact htail v hv
      · simp only [List.length_cons]
        omega
  | free u =>
    simp only [call]
    by_cases hin : u ∈ t.live
    · rw [if_pos hin]
      have huC := ((hmem u).1 hin).1
      obtain ⟨s1, e, i1, i2, f1, f2⟩ := Free_out t.s u hinv (by omega)
      rw [e]
      refine ⟨_, rfl, ?_⟩
      intro t1 ht1
      simp only [Option.some.injEq] at ht1
      subst ht1
      refine ⟨i1, by rw [i2]; exact hC, hnd.erase u, ?_, ?_, ?_⟩
      · intro v
        simp only
        rw [hnd.mem_erase_iff]
        by_cases hv : v = u
        · subst hv
          rw [f1]
          simp
        · rw [f2 v hv, ← hmem v]
          exact ⟨fun h => h.2, fun h => ⟨hv, h⟩⟩
      · intro v hv
        simp only
        rw [f2 v (by omega)]
        exact htail v hv
      · simp only
        rw [List.length_erase_of_mem hin]
        have : 0 < t.live.length := List.length_pos_of_mem hin
        omega
    · rw [if_neg hin]
      exact ⟨none, rfl, fun t1 h => by simp at h⟩

theorem calls_spec (C : Nat) : ∀ (cs : List Call) (t : Trace), TInv C t →
    ∃ ot, calls t cs = .ok ot ∧ ∀ t1, ot = some t1 → TInv C t1 := by
  intro cs
  induction cs with
  | nil =>
    intro t h
    exact ⟨some t, rfl, fun t1 ht1 => by simp only [Option.some.injEq] at ht1; subst ht1; exact h⟩
  | cons c cs ih =>
    intro t h
    obtain ⟨ot, e, hot⟩ := call_spec C t c h
    rw [calls, e]
    cases ot with
    | none => exact ⟨none, rfl, fun t1 h => by simp at h⟩
    | some t1 => exact ih t1 (hot t1 rfl)

/-- The units of `0` to `C - 1` in use are the live units. -/
theorem usedCount_eq (C : Nat) (t : Trace) (h : TInv C t) :
    t.s.usedCount C = t.live.length := by
  obtain ⟨hinv, hC, hnd, hmem, -, -⟩ := h
  unfold usedCount
  apply List.Perm.length_eq
  rw [List.perm_ext_iff_of_nodup ((List.nodup_range C).filter _) hnd]
  intro u
  rw [List.mem_filter, List.mem_range, hmem u]
  constructor
  · rintro ⟨h1, h2⟩
    refine ⟨h1, ?_⟩
    unfold used at h2
    rw [GetUnitStatus_eq t.s u hinv (by omega)] at h2
    cases hf : t.s.free u with
    | false => rfl
    | true => rw [hf] at h2; simp at h2
  · rintro ⟨h1, h2⟩
    refine ⟨h1, ?_⟩
    unfold used
    rw [GetUnitStatus_eq t.s u hinv (by omega), h2]

end zAT

namespace zAT

/-! ### The allocator after `Init` -/

theorem testBit_lowOnes : ∀ (m b : Nat), m < 32 → b < 32 →
    (lowOnes m).testBit b = decide (b ≤ m) := by
  intro m
  induction m with
  | zero =>
    intro b _ _
    rw [lowOnes]
    by_cases hb : b = 0
    · subst hb; rfl
    · have h1 : Nat.testBit 1 b = false := by
        rw [Bool.eq_false_iff]
        exact Nat.testBit_one_eq_true_iff_self_eq_zero.not.2 hb
      rw [h1]
      simp [hb]
  | succ m ih =>
    intro b hm hb
    rw [lowOnes, Nat.testBit_or, Nat.testBit_mod_two_pow, Nat.testBit_shiftLeft]
    by_cases hb0 : b = 0
    · subst hb0
      simp
    · have h1 : Nat.testBit 1 b = false := by
        rw [Bool.eq_false_iff]
        exact Nat.testBit_one_eq_true_iff_self_eq_zero.not.2 hb0
      rw [h1, ih (b - 1) (by omega) (by omega)]
      simp only [hb, decide_True, Bool.true_and, Bool.or_false]
      by_cases hc : b ≤ m + 1
      · have : b - 1 ≤ m := by omega
        simp [hc, this]
        omega
      · have : ¬ b - 1 ≤ m := by omega
        simp [hc, this]

theorem lowOnes_bound : ∀ m, lowOnes m < 2 ^ 32 := by
  intro m
  cases m with
  | zero => rw [lowOnes]; norm_num
  | succ m =>
    rw [lowOnes]
    exact Nat.or_lt_two_pow (Nat.mod_lt _ (by norm_num)) (by norm_num)

/-- The counts of `Nodes`: every entry but the last is above 1 and the next entry is that
entry divided by 32, rounded up. -/
theorem nodeCounts_spec : ∀ (fuel n j : Nat), j + 1 < (n :: nodeCounts fuel n).length →
    1 < (n :: nodeCounts fuel n).getD j 0 ∧
      (n :: nodeCounts fuel n).getD (j + 1) 0 = ((n :: nodeCounts fuel n).getD j 0 + 31) / 32 := by
  intro fuel
  induction fuel with
  | zero => intro n j h; simp [nodeCounts] at h
  | succ fuel ih =>
    intro n j h
    rw [nodeCounts] at h ⊢
    by_cases hn : 1 < n
    · rw [if_pos hn] at h ⊢
      cases j with
      | zero =>
        simp only [List.getD_cons_zero, List.getD_cons_succ, shr5]
        exact ⟨hn, trivial⟩
      | succ j =>
        simp only [List.getD_cons_succ, shr5] at h ⊢
        exact ih ((n + 31) / 32) j (by simpa using h)
    · rw [if_neg hn] at h
      simp at h

theorem nodeCounts_pos : ∀ (fuel n j : Nat), 1 ≤ n → j < (n :: nodeCounts fuel n).length →
    1 ≤ (n :: nodeCounts fuel n).getD j 0 := by
  intro fuel
  induction fuel with
  | zero =>
    intro n j hn h
    simp only [nodeCounts, List.length_singleton, Nat.lt_one_iff] at h
    subst h
    simpa using hn
  | succ fuel ih =>
    intro n j hn h
    rw [nodeCounts] at h ⊢
    by_cases hc : 1 < n
    · rw [if_pos hc] at h ⊢
      cases j with
      | zero => simpa using hn
      | succ j =>
        simp only [List.getD_cons_succ]
        exact ih _ j (by rw [shr5]; omega) (by simpa using h)
    · rw [if_neg hc] at h ⊢
      simp only [List.length_singleton, Nat.lt_one_iff] at h
      subst h
      simpa using hn

theorem nodeCounts_sum : ∀ (fuel n : Nat), (nodeCounts fuel n).sum ≤ n := by
  intro fuel
  induction fuel with
  | zero => intro n; simp [nodeCounts]
  | succ fuel ih =>
    intro n
    rw [nodeCounts]
    by_cases hc : 1 < n
    · rw [if_pos hc, List.sum_cons, shr5]
      have := ih ((n + 31) / 32)
      omega
    · rw [if_neg hc]
      simp

theorem nodeCounts_last : ∀ (fuel n : Nat), n ≤ 32 ^ fuel →
    (n :: nodeCounts fuel n).getLastD 0 ≤ 1 := by
  intro fuel
  induction fuel with
  | zero => intro n h; simpa [nodeCounts] using h
  | succ fuel ih =>
    intro n h
    rw [nodeCounts]
    by_cases hc : 1 < n
    · rw [if_pos hc, shr5]
      have h2 : (n + 31) / 32 ≤ 32 ^ fuel := by
        rw [pow_succ] at h
        omega
      have := ih _ h2
      simpa using this
    · rw [if_neg hc]
      simp only [List.getLastD_cons, List.getLastD_nil]
      omega

end zAT

namespace zAT

theorem blank_word (Nodes : List Nat) (i k : Nat) :
    (blank Nodes).word i k =
      if i < Nodes.length ∧ k < Nodes.getD (Nodes.length - 1 - i) 0 then some 0xFFFFFFFF
      else none := by
  unfold blank z__AT.word
  simp only [List.getElem?_map]
  by_cases hi : i < Nodes.length
  · rw [List.getElem?_reverse hi]
    have hj : Nodes.length - 1 - i < Nodes.length := by omega
    rw [List.getElem?_eq_getElem hj, List.getD_eq_getElem _ _ hj]
    simp only [Option.map_some', hi, true_and]
    by_cases hk : k < Nodes[Nodes.length - 1 - i]
    · rw [if_pos hk, List.getElem?_eq_getElem (by simpa using hk)]
      simp
    · rw [if_neg hk, List.getElem?_eq_none (by simpa using hk)]
  · rw [List.getElem?_eq_none (by simpa using hi)]
    simp [hi]

theorem setLast_shape (Nodes : List Nat) (L : Nat) : ∀ (j : Nat) (a : z__AT),
    z__AT.SameShape a (setLast Nodes L j a) := by
  intro j
  induction j with
  | zero => intro a; exact z__AT.SameShape.srefl a
  | succ j ih =>
    intro a
    rw [setLast]
    split
    · exact (z__AT.sameShape_store _ _ _ _).strans (ih _)
    · exact ih a

theorem setLast_word (Nodes : List Nat) (L : Nat) : ∀ (j : Nat) (a : z__AT) (i k : Nat),
    (setLast Nodes L j a).word i k =
      if i < j ∧ Nodes.getD (L - i - 2) 0 % 32 ≠ 0 ∧ k = Nodes.getD (L - 1 - i) 0 - 1 ∧
          (a.word i k).isSome = true then
        some (lowOnes (Nodes.getD (L - i - 2) 0 % 32 - 1))
      else a.word i k := by
  intro j
  induction j with
  | zero =>
    intro a i k
    rw [setLast, if_neg]
    rintro ⟨h, -⟩
    omega
  | succ j ih =>
    intro a i k
    rw [setLast, ih]
    simp only [and31]
    by_cases hlt : i < j
    · have h1 : i < j + 1 := by omega
      have h2 : i ≠ j := by omega
      have hw : (if Nodes.getD (L - j - 2) 0 % 32 ≠ 0 then
          a.store j (Nodes.getD (L - 1 - j) 0 - 1) (lowOnes (Nodes.getD (L - j - 2) 0 % 32 - 1))
          else a).word i k = a.word i k := by
        split
        · rw [z__AT.word_store, if_neg (fun h => h2 h.1)]
        · rfl
      rw [hw]
      simp only [hlt, h1, true_and]
    · have hn : ¬ (i < j ∧ Nodes.getD (L - i - 2) 0 % 32 ≠ 0 ∧
          k = Nodes.getD (L - 1 - i) 0 - 1 ∧
          ((if Nodes.getD (L - j - 2) 0 % 32 ≠ 0 then
          a.store j (Nodes.getD (L - 1 - j) 0 - 1) (lowOnes (Nodes.getD (L - j - 2) 0 % 32 - 1))
          else a).word i k).isSome = true) := fun h => hlt h.1
      rw [if_neg hn]
      by_cases hij : i = j
      · subst hij
        by_cases hc : Nodes.getD (L - i - 2) 0 % 32 ≠ 0
        · rw [if_pos hc, z__AT.word_store]
          by_cases hk : k = Nodes.getD (L - 1 - i) 0 - 1
          · subst hk
            by_cases hs : (a.word i (Nodes.getD (L - 1 - i) 0 - 1)).isSome = true
            · rw [if_pos ⟨rfl, rfl, hs⟩, if_pos ⟨by omega, hc, rfl, hs⟩]
            · rw [if_neg (fun h => hs h.2.2), if_neg (fun h => hs h.2.2.2)]
          · rw [if_neg (fun h => hk h.2.1), if_neg (fun h => hk h.2.2.1)]
        · rw [if_neg hc, if_neg (fun h => hc h.2.1)]
      · have h1 : ¬ i < j + 1 := by omega
        have hw : (if Nodes.getD (L - j - 2) 0 % 32 ≠ 0 then
            a.store j (Nodes.getD (L - 1 - j) 0 - 1) (lowOnes (Nodes.getD (L - j - 2) 0 % 32 - 1))
            else a).word i k = a.word i k := by
          split
          · rw [z__AT.word_store, if_neg (fun h => hij h.1)]
          · rfl
        rw [hw, if_neg (fun h => h1 h.1)]

end zAT

namespace zAT

theorem first_word {Nodes : List Nat} (i k : Nat) :
    (setLast Nodes Nodes.length (Nodes.length - 1) (blank Nodes)).word i k =
      if i < Nodes.length ∧ k < Nodes.getD (Nodes.length - 1 - i) 0 then
        some (if i + 1 < Nodes.length ∧ Nodes.getD (Nodes.length - i - 2) 0 % 32 ≠ 0 ∧
            k = Nodes.getD (Nodes.length - 1 - i) 0 - 1 then
          lowOnes (Nodes.getD (Nodes.length - i - 2) 0 % 32 - 1) else 0xFFFFFFFF)
      else none := by
  rw [setLast_word, blank_word]
  by_cases h1 : i < Nodes.length ∧ k < Nodes.getD (Nodes.length - 1 - i) 0
  · rw [if_pos h1, if_pos h1]
    by_cases h2 : i + 1 < Nodes.length ∧ Nodes.getD (Nodes.length - i - 2) 0 % 32 ≠ 0 ∧
        k = Nodes.getD (Nodes.length - 1 - i) 0 - 1
    · rw [if_pos h2, if_pos ⟨by omega, h2.2.1, h2.2.2, rfl⟩]
    · rw [if_neg h2, if_neg]
      rintro ⟨a1, a2, a3, -⟩
      exact h2 ⟨by omega, a2, a3⟩
  · rw [if_neg h1, if_neg h1, if_neg]
    rintro ⟨-, -, -, a4⟩
    simp at a4

theorem first_bit {Nodes : List Nat} (hN : Layers Nodes) (i k b : Nat) (hi : i < Nodes.length)
    (hk : k < Nodes.getD (Nodes.length - 1 - i) 0) (hb : b < 32) :
    (setLast Nodes Nodes.length (Nodes.length - 1) (blank Nodes)).bit i k b =
      if i + 1 < Nodes.length then decide (k * 32 + b < Nodes.getD (Nodes.length - i - 2) 0)
      else true := by
  unfold z__AT.bit
  rw [first_word, if_pos ⟨hi, hk⟩]
  simp only
  by_cases h1 : i + 1 < Nodes.length
  · rw [if_pos h1]
    obtain ⟨c1, c2⟩ := hN.2.1 (Nodes.length - i - 2) (by omega)
    have he : Nodes.length - i - 2 + 1 = Nodes.length - 1 - i := by omega
    rw [he] at c2
    by_cases h2 : Nodes.getD (Nodes.length - i - 2) 0 % 32 ≠ 0 ∧
        k = Nodes.getD (Nodes.length - 1 - i) 0 - 1
    · rw [if_pos ⟨h1, h2.1, h2.2⟩, testBit_lowOnes _ _ (by omega) hb]
      congr 1
      apply propext
      omega
    · rw [if_neg (fun h => h2 ⟨h.2.1, h.2.2⟩)]
      have : (4294967295 : Nat) = 2 ^ 32 - 1 := by norm_num
      rw [this, Nat.testBit_two_pow_sub_one]
      simp only [hb, decide_True]
      symm
      rw [decide_eq_true_iff]
      by_cases h3 : Nodes.getD (Nodes.length - i - 2) 0 % 32 = 0
      · omega
      · have : k ≠ Nodes.getD (Nodes.length - 1 - i) 0 - 1 := fun h => h2 ⟨h3, h⟩
        omega
  · rw [if_neg h1, if_neg (fun h => h1 h.1)]
    have : (4294967295 : Nat) = 2 ^ 32 - 1 := by norm_num
    rw [this, Nat.testBit_two_pow_sub_one]
    simp [hb]

theorem first_some {Nodes : List Nat} (i k : Nat) :
    ((setLast Nodes Nodes.length (Nodes.length - 1) (blank Nodes)).word i k).isSome = true ↔
      i < Nodes.length ∧ k < Nodes.getD (Nodes.length - 1 - i) 0 := by
  rw [first_word]
  split <;> simp_all

theorem first_valid {Nodes : List Nat} (hN : Layers Nodes) :
    (setLast Nodes Nodes.length (Nodes.length - 1) (blank Nodes)).Valid := by
  obtain ⟨hL, hch, hlast⟩ := hN
  have hshape := setLast_shape Nodes Nodes.length (Nodes.length - 1) (blank Nodes)
  have hML : (setLast Nodes Nodes.length (Nodes.length - 1) (blank Nodes)).MaxLayer =
      Nodes.length := hshape.1
  refine ⟨⟨?_, ?_, ?_, ?_, ?_, ?_⟩, ?_⟩
  · rw [hshape.2.1, hML]
    simp [blank]
  · rw [hML]; exact hL
  · rw [first_some]
    refine ⟨hL, ?_⟩
    rw [Nat.sub_zero, hlast]
    norm_num
  · intro k hk
    rw [first_some, Nat.sub_zero, hlast] at hk
    omega
  · intro i k hk
    rw [first_some] at hk ⊢
    obtain ⟨c1, c2⟩ := hch (Nodes.length - (i + 1) - 1) (by omega)
    have he : Nodes.length - (i + 1) - 1 + 1 = Nodes.length - 1 - i := by omega
    have he2 : Nodes.length - 1 - (i + 1) = Nodes.length - (i + 1) - 1 := by omega
    rw [he] at c2
    rw [he2] at hk
    refine ⟨by omega, ?_⟩
    omega
  · intro i k w hw
    rw [first_word] at hw
    split at hw
    · simp only [Option.some.injEq] at hw
      rw [← hw]
      split
      · exact lowOnes_bound _
      · norm_num
    · simp at hw
  · intro i k b hi hb hbit
    rw [hML] at hi
    obtain ⟨w, hw, -⟩ := z__AT.bit_word hbit
    have hs := (first_some i k).1 (by rw [hw]; rfl)
    rw [first_bit ⟨hL, hch, hlast⟩ i k b hs.1 hs.2 hb, if_pos hi, decide_eq_true_iff] at hbit
    rw [first_some]
    refine ⟨hi, ?_⟩
    have he2 : Nodes.length - 1 - (i + 1) = Nodes.length - i - 2 := by omega
    rw [he2]
    exact hbit

theorem first_tight {Nodes : List Nat} (hN : Layers Nodes) :
    (setLast Nodes Nodes.length (Nodes.length - 1) (blank Nodes)).Tight := by
  intro i k b hb hbit
  obtain ⟨w, hw, -⟩ := z__AT.bit_word hbit
  have hs := (first_some (i + 1) k).1 (by rw [hw]; rfl)
  obtain ⟨c1, c2⟩ := hN.2.1 (Nodes.length - (i + 1) - 1) (by omega)
  have he : Nodes.length - (i + 1) - 1 + 1 = Nodes.length - 1 - i := by omega
  have he2 : Nodes.length - 1 - (i + 1) = Nodes.length - (i + 1) - 1 := by omega
  have he3 : Nodes.length - i - 2 = Nodes.length - (i + 1) - 1 := by omega
  rw [he] at c2
  rw [he2] at hs
  rw [first_bit hN i (k / 32) (k % 32) (by omega) (by omega) (Nat.mod_lt _ (by norm_num)),
    if_pos hs.1, decide_eq_true_iff, he3]
  omega

theorem first_free {Nodes : List Nat} (hN : Layers Nodes) (u : Nat) :
    (setLast Nodes Nodes.length (Nodes.length - 1) (blank Nodes)).free u =
      decide (u < Nodes.getD 0 0 * 32) := by
  have hshape := setLast_shape Nodes Nodes.length (Nodes.length - 1) (blank Nodes)
  have hML : (setLast Nodes Nodes.length (Nodes.length - 1) (blank Nodes)).MaxLayer =
      Nodes.length := hshape.1
  have hL := hN.1
  unfold z__AT.free
  rw [hML]
  have he : Nodes.length - 1 - (Nodes.length - 1) = 0 := by omega
  by_cases hu : u < Nodes.getD 0 0 * 32
  · rw [first_bit hN _ _ _ (by omega) (by rw [he]; omega) (Nat.mod_lt _ (by norm_num)),
      if_neg (by omega)]
    exact (decide_eq_true hu).symm
  · have : ((setLast Nodes Nodes.length (Nodes.length - 1) (blank Nodes)).word
        (Nodes.length - 1) (u / 32)).isSome = false := by
      rw [Bool.eq_false_iff, Ne, first_some, he]
      rintro ⟨-, h⟩
      omega
    unfold z__AT.bit
    cases hw : (setLast Nodes Nodes.length (Nodes.length - 1) (blank Nodes)).word
        (Nodes.length - 1) (u / 32) with
    | none => exact (decide_eq_false hu).symm
    | some w => rw [hw] at this; simp at this

theorem first_leaf {Nodes : List Nat} (hN : Layers Nodes) (k : Nat) :
    ((setLast Nodes Nodes.length (Nodes.length - 1) (blank Nodes)).word
      ((setLast Nodes Nodes.length (Nodes.length - 1) (blank Nodes)).MaxLayer - 1) k).isSome =
        true ↔ k * 32 < Nodes.getD 0 0 * 32 := by
  have hshape := setLast_shape Nodes Nodes.length (Nodes.length - 1) (blank Nodes)
  rw [hshape.1]
  have hL := hN.1
  have he : Nodes.length - 1 - (Nodes.length - 1) = 0 := by omega
  have hb : (blank Nodes).MaxLayer = Nodes.length := rfl
  rw [hb, first_some, he]
  constructor
  · rintro ⟨-, h⟩; omega
  · intro h; exact ⟨by omega, by omega⟩

end zAT

namespace zAT

theorem presetLoop_spec (Len : Nat) : ∀ (i : Nat) (s : zAT), s.Inv → s.Tight →
    Len = 2 * s.Size → i ≤ Len →
    ∃ s1, presetLoop Len i s = .ok s1 ∧ s1.Inv ∧ s1.Tight ∧ s1.Size = s.Size ∧
      s1.Count = s.Count ∧ (∀ u, Len - i ≤ u → u < Len → s1.free u = false) ∧
      (∀ u, (u < Len - i ∨ Len ≤ u) → s1.free u = s.free u) := by
  intro i
  induction i with
  | zero =>
    intro s h ht _ _
    exact ⟨s, rfl, h, ht, rfl, rfl, fun u h1 h2 => by omega, fun _ _ => rfl⟩
  | succ i ih =>
    intro s h ht hLen hi
    obtain ⟨s1, e, i1, t1, z1, c1, f1, f2⟩ := PreSet_out s (Len - (i + 1)) h ht (by omega)
    rw [presetLoop, e]
    simp only
    obtain ⟨s2, e2, i2, t2, z2, c2, g1, g2⟩ := ih s1 i1 t1 (by rw [z1]; exact hLen) (by omega)
    refine ⟨s2, e2, i2, t2, z2.trans z1, c2.trans c1, ?_, ?_⟩
    · intro u hu1 hu2
      by_cases hc : Len - i ≤ u
      · exact g1 u hc hu2
      · have : u = Len - (i + 1) := by omega
        rw [g2 u (Or.inl (by omega)), this]
        exact f1
    · intro u hu
      rw [g2 u (by omega), f2 u (by omega)]

theorem getLastD_eq (l : List Nat) : l.getLastD 0 = l.getD (l.length - 1) 0 := by
  rw [List.getLastD_eq_getLast?, List.getLast?_eq_getElem?, List.getD_eq_getElem?_getD]

/-- The entries of `Nodes` that `Init` computes obey `Layers` when the last one is not above
1: the array has not overflowed. -/
theorem layers_init (n : Nat) (hn : 1 ≤ n)
    (h1 : ¬ 1 < (n :: nodeCounts (MAX_LAYER - 1) n).getLastD 0) :
    Layers (n :: nodeCounts (MAX_LAYER - 1) n) := by
  have hpos : 0 < (n :: nodeCounts (MAX_LAYER - 1) n).length := by simp
  refine ⟨hpos, nodeCounts_spec _ n, ?_⟩
  rw [getLastD_eq] at h1
  have := nodeCounts_pos (MAX_LAYER - 1) n ((n :: nodeCounts (MAX_LAYER - 1) n).length - 1) hn
    (by omega)
  omega

/-- When `Init(C)` passes its checks it returns an allocator that obeys `Inv`, is `Tight`,
and in which the units `0` to `C - 1` are free and no other. -/
theorem Init_core (C : Nat) (hC : 1 ≤ C)
    (h1 : ¬ 1 < ((((C - (C >>> 1)) + 31) >>> 5) ::
      nodeCounts (MAX_LAYER - 1) (((C - (C >>> 1)) + 31) >>> 5)).getLastD 0)
    (h2 : ((((C - (C >>> 1)) + 31) >>> 5) ::
      nodeCounts (MAX_LAYER - 1) (((C - (C >>> 1)) + 31) >>> 5)).sum < 2 ^ 32) :
    ∃ s0, Init C true = .ok (some s0) ∧ s0.Inv ∧ s0.Tight ∧ C ≤ 2 * s0.Size ∧ s0.Count = 0 ∧
      ∀ u, s0.free u = decide (u < C) := by
  have hn : 1 ≤ ((C - (C >>> 1)) + 31) >>> 5 := by
    rw [shr5, Nat.shiftRight_eq_div_pow]
    omega
  have hN := layers_init _ hn h1
  have hv := first_valid hN
  have ht := first_tight hN
  have hf := first_free hN
  have hl := first_leaf hN
  simp only [List.getD_cons_zero] at hf hl
  unfold Init
  rw [if_neg (by omega)]
  simp only
  rw [if_neg h1, if_neg (by simp), if_neg (by omega)]
  have hinv : ({ Count := 0
                 pAT1 := setLast ((((C - (C >>> 1)) + 31) >>> 5) :: nodeCounts (MAX_LAYER - 1) (((C - (C >>> 1)) + 31) >>> 5)) ((((C - (C >>> 1)) + 31) >>> 5) :: nodeCounts (MAX_LAYER - 1) (((C - (C >>> 1)) + 31) >>> 5)).length (((((C - (C >>> 1)) + 31) >>> 5) :: nodeCounts (MAX_LAYER - 1) (((C - (C >>> 1)) + 31) >>> 5)).length - 1) (blank ((((C - (C >>> 1)) + 31) >>> 5) :: nodeCounts (MAX_LAYER - 1) (((C - (C >>> 1)) + 31) >>> 5)))
                 pAT2 := setLast ((((C - (C >>> 1)) + 31) >>> 5) :: nodeCounts (MAX_LAYER - 1) (((C - (C >>> 1)) + 31) >>> 5)) ((((C - (C >>> 1)) + 31) >>> 5) :: nodeCounts (MAX_LAYER - 1) (((C - (C >>> 1)) + 31) >>> 5)).length (((((C - (C >>> 1)) + 31) >>> 5) :: nodeCounts (MAX_LAYER - 1) (((C - (C >>> 1)) + 31) >>> 5)).length - 1) (blank ((((C - (C >>> 1)) + 31) >>> 5) :: nodeCounts (MAX_LAYER - 1) (((C - (C >>> 1)) + 31) >>> 5)))
                 Size := ((((C - (C >>> 1)) + 31) >>> 5)) <<< 5
                 NodeNum := ((((C - (C >>> 1)) + 31) >>> 5) :: nodeCounts (MAX_LAYER - 1) (((C - (C >>> 1)) + 31) >>> 5)).sum
                 MaxLayer := ((((C - (C >>> 1)) + 31) >>> 5) :: nodeCounts (MAX_LAYER - 1) (((C - (C >>> 1)) + 31) >>> 5)).length
                 Nodes := ((((C - (C >>> 1)) + 31) >>> 5) :: nodeCounts (MAX_LAYER - 1) (((C - (C >>> 1)) + 31) >>> 5)) } : zAT).Inv := by
    refine ⟨hv, hv, ?_, ?_, ?_⟩
    · simp only [shl5]; omega
    · intro k; simp only [shl5]; exact hl k
    · intro k; simp only [shl5]; exact hl k
  have hLenEq : ((((C - (C >>> 1)) + 31) >>> 5) <<< 5) <<< 1 =
      2 * ((((C - (C >>> 1)) + 31) >>> 5) <<< 5) := by rw [shl1]; omega
  obtain ⟨s1, e, i1, t1, z1, c1, f1, f2⟩ := presetLoop_spec
    (((((C - (C >>> 1)) + 31) >>> 5) <<< 5) <<< 1)
    ((((((C - (C >>> 1)) + 31) >>> 5) <<< 5) <<< 1) - C) _ hinv ⟨ht, ht⟩ hLenEq
    (Nat.sub_le _ _)
  rw [e]
  simp only [shl5, shl1, shr5, Nat.shiftRight_eq_div_pow] at z1 c1 f1 f2 hf ⊢
  have hLen : C ≤ (C - C / 2 ^ 1 + 31) / 32 * 32 * 2 := by omega
  refine ⟨s1, rfl, i1, t1, by rw [z1]; omega, c1, ?_⟩
  intro u
  by_cases hu : u < C
  · rw [f2 u (Or.inl (by omega))]
    unfold free
    simp only
    rw [hf, hf]
    split
    · simp [hu]
      omega
    · simp [hu]
      omega
  · by_cases hu2 : u < (C - C / 2 ^ 1 + 31) / 32 * 32 * 2
    · rw [f1 u (by omega) hu2]
      simp [hu]
    · rw [f2 u (Or.inr (by omega))]
      unfold free
      simp only
      rw [hf, hf]
      split
      · omega
      · simp [hu]
        omega

end zAT

namespace zAT

/-- When `Init(C)` returns true, the allocator obeys `Inv`, is `Tight`, and the units `0` to
`C - 1` are free and no other. -/
theorem Init_spec (C : Nat) (mem : Bool) (s0 : zAT) (h0 : Init C mem = .ok (some s0)) :
    s0.Inv ∧ s0.Tight ∧ C ≤ 2 * s0.Size ∧ s0.Count = 0 ∧ ∀ u, s0.free u = decide (u < C) := by
  by_cases hC : 1 ≤ C
  · by_cases h1 : 1 < ((((C - (C >>> 1)) + 31) >>> 5) ::
        nodeCounts (MAX_LAYER - 1) (((C - (C >>> 1)) + 31) >>> 5)).getLastD 0
    · unfold Init at h0
      rw [if_neg (by omega)] at h0
      simp only at h0
      rw [if_pos h1] at h0
      simp at h0
    · cases mem with
      | false =>
        unfold Init at h0
        rw [if_neg (by omega)] at h0
        simp only at h0
        rw [if_neg h1] at h0
        simp at h0
      | true =>
        by_cases h2 : ((((C - (C >>> 1)) + 31) >>> 5) ::
            nodeCounts (MAX_LAYER - 1) (((C - (C >>> 1)) + 31) >>> 5)).sum < 2 ^ 32
        · obtain ⟨s, e, p⟩ := Init_core C hC h1 h2
          rw [e] at h0
          simp only [Except.ok.injEq, Option.some.injEq] at h0
          subst h0
          exact p
        · unfold Init at h0
          rw [if_neg (by omega)] at h0
          simp only at h0
          rw [if_neg h1, if_neg (by simp), if_pos (by omega)] at h0
          simp at h0
  · unfold Init at h0
    rw [if_pos (by omega)] at h0
    simp at h0

theorem tinv_start (C : Nat) (mem : Bool) (s0 : zAT) (h0 : Init C mem = .ok (some s0)) :
    TInv C (start s0) := by
  obtain ⟨i1, -, i3, -, i5⟩ := Init_spec C mem s0 h0
  refine ⟨i1, i3, List.nodup_nil, ?_, ?_, rfl⟩
  · intro u
    simp only [start, List.not_mem_nil, false_iff, not_and]
    intro hu
    rw [i5 u]
    simp [hu]
  · intro u hu
    simp only [start]
    rw [i5 u]
    simp
    omega

/-- In a `Tight` allocator in which a unit is free, `Alloc()` does not return
`RET_MEM_FULL`. -/
theorem Alloc_some_of_free (s : zAT) (h : s.Inv) (ht : s.Tight) (u : Nat)
    (hu : s.free u = true) :
    ∃ v s1, s.Alloc = .ok (some v, s1) ∧ AllocOut s s1 (some v) := by
  obtain ⟨r, s1, e, o⟩ := Alloc_out s h
  cases r with
  | some v => exact ⟨v, s1, e, o⟩
  | none =>
    obtain ⟨o1, -, o3, o4, o5⟩ := o
    have t1 := o3 ht
    have hno : s1.free u = false := by
      unfold free
      split
      · exact z__AT.no_free_of_root_zero o1.1.1 t1.1 o5.1 _
      · exact z__AT.no_free_of_root_zero o1.2.1.1 t1.2 o5.2 _
    rw [o4 u, hu] at hno
    simp at hno

theorem exists_not_live (C : Nat) (l : List Nat) (hlen : l.length < C) :
    ∃ u, u < C ∧ u ∉ l := by
  by_contra hc
  push_neg at hc
  have hsub : List.range C ⊆ l := fun u hu => hc u (List.mem_range.1 hu)
  have := ((List.nodup_range C).subperm hsub).length_le
  rw [List.length_range] at this
  omega

theorem allocs_run (C : Nat) : ∀ (n : Nat) (t : Trace), TInv C t → t.s.Tight → t.frees = 0 →
    t.allocs + n ≤ C →
    ∃ t1, calls t (List.replicate n Call.alloc) = .ok (some t1) ∧ TInv C t1 ∧ t1.s.Tight ∧
      t1.frees = 0 ∧ t1.allocs = t.allocs + n := by
  intro n
  induction n with
  | zero => intro t h ht hf _; exact ⟨t, rfl, h, ht, hf, rfl⟩
  | succ n ih =>
    intro t h ht hf hle
    have hlive : t.live.length < C := by
      have := h.2.2.2.2.2
      omega
    obtain ⟨u, hu1, hu2⟩ := exists_not_live C t.live hlive
    have hfree : t.s.free u = true := by
      cases hc : t.s.free u with
      | true => rfl
      | false => exact absurd ((h.2.2.2.1 u).2 ⟨hu1, hc⟩) hu2
    obtain ⟨v, s1, e, o⟩ := Alloc_some_of_free t.s h.1 ht u hfree
    obtain ⟨ot, ec, hot⟩ := call_spec C t Call.alloc h
    have ec' : call t Call.alloc = .ok (some
        { s := s1, live := v :: t.live, allocs := t.allocs + 1, frees := t.frees }) := by
      simp only [call]
      rw [e]
    rw [ec'] at ec
    simp only [Except.ok.injEq] at ec
    obtain ⟨t2, e2, p1, p2, p3, p4⟩ := ih
      { s := s1, live := v :: t.live, allocs := t.allocs + 1, frees := t.frees }
      (hot _ ec.symm) (o.2.2.1 ht) hf (by simp only; omega)
    refine ⟨t2, ?_, p1, p2, p3, by rw [p4]; simp only; omega⟩
    rw [List.replicate_succ, calls, ec']
    exact e2

theorem rootsZero_true {s : zAT} (h : s.rootsZero = true) : s.RootsZero := by
  unfold rootsZero at h
  simp only [Bool.and_eq_true, decide_eq_true_eq] at h
  constructor
  · intro b _
    rw [z__AT.bit_of_word h.1]
    exact Nat.zero_testBit b
  · intro b _
    rw [z__AT.bit_of_word h.2]
    exact Nat.zero_testBit b

theorem rootsZero_of {s : zAT} (h : s.Inv) (hz : s.RootsZero) : s.rootsZero = true := by
  unfold rootsZero
  simp only [Bool.and_eq_true, decide_eq_true_eq]
  have key : ∀ a : z__AT, a.Valid → (∀ b, b < 32 → a.bit 0 0 b = false) →
      a.word 0 0 = some 0 := by
    intro a hv hb
    cases hw : a.word 0 0 with
    | none =>
      have := hv.1.2.2.1
      rw [hw] at this
      simp at this
    | some w =>
      have hw0 : w = 0 := by
        apply eq_zero_of_bits (hv.1.2.2.2.2.2 0 0 w hw)
        intro i hi
        have := hb i hi
        rw [z__AT.bit_of_word hw] at this
        exact this
      rw [hw0]
  exact ⟨key _ h.1 hz.1, key _ h.2.1 hz.2⟩

end zAT

/-- C16: from the allocator that `Init(C)` returns, every sequence of calls of `Alloc` and of
`Free` in which `Free` is applied to live units only runs through, and afterwards the number
of the units `0` to `C - 1` for which `GetUnitStatus` returns false is the number of
successful calls of `Alloc` less the number of calls of `Free`. -/
theorem C16_accounting (C : Nat) (mem : Bool) (s0 : zAT) (h0 : zAT.Init C mem = .ok (some s0))
    (cs : List zAT.Call) :
    ∃ ot, zAT.calls (zAT.start s0) cs = .ok ot ∧
      ∀ t, ot = some t → t.frees ≤ t.allocs ∧ t.s.usedCount C = t.allocs - t.frees := by
  obtain ⟨ot, e, hot⟩ := zAT.calls_spec C cs (zAT.start s0) (zAT.tinv_start C mem s0 h0)
  refine ⟨ot, e, ?_⟩
  intro t ht
  have hinv := hot t ht
  have hcount := hinv.2.2.2.2.2
  rw [zAT.usedCount_eq C t hinv]
  omega

/-- C18 (amended): in an allocator reached from `Init` by calls of `Alloc` and of `Free` of
live units, `Alloc()` returns; when the root words of both trees are 0 it returns
`RET_MEM_FULL`; and when it returns `RET_MEM_FULL` the root words of both trees are 0
afterwards. -/
theorem C18_full_and_roots (C : Nat) (mem : Bool) (s0 : zAT) (h0 : zAT.Init C mem = .ok (some s0))
    (cs : List zAT.Call) (t : zAT.Trace) (ht : zAT.calls (zAT.start s0) cs = .ok (some t)) :
    (t.s.rootsZero = true → ∃ s1, t.s.Alloc = .ok (none, s1)) ∧
    (∃ r s1, t.s.Alloc = .ok (r, s1) ∧ (r = none → s1.rootsZero = true)) := by
  obtain ⟨ot, e, hot⟩ := zAT.calls_spec C cs (zAT.start s0) (zAT.tinv_start C mem s0 h0)
  rw [ht] at e
  simp only [Except.ok.injEq] at e
  have hinv := (hot t e.symm).1
  refine ⟨fun hz => zAT.Alloc_roots_zero t.s hinv (zAT.rootsZero_true hz), ?_⟩
  obtain ⟨r, s1, ea, o⟩ := zAT.Alloc_out t.s hinv
  refine ⟨r, s1, ea, ?_⟩
  intro hr
  subst hr
  exact zAT.rootsZero_of o.1 o.2.2.2.2

/-! ## Concrete runs -/

theorem keep_some {α : Type} {x : Except Fault (α × Table)} {s1 : Table}
    (h : keep x = some s1) : ∃ r, x = .ok (r, s1) := by
  cases x with
  | error f => simp [keep] at h
  | ok res =>
    obtain ⟨r, s2⟩ := res
    simp only [keep, Option.some.injEq] at h
    exact ⟨r, by rw [h]⟩

theorem reachable_stepOp {s s1 : Table} (op : Op) (hr : zHash.Reachable slabHeap s)
    (h : stepOp s op = some s1) : zHash.Reachable slabHeap s1 := by
  cases op with
  | insert k v =>
    obtain ⟨r, hx⟩ := keep_some (show keep (zHash.Insert slabHeap 2 s k v 0) = some s1 from h)
    exact zHash.Reachable.insert 2 k v 0 r hr hx
  | update k v =>
    obtain ⟨r, hx⟩ := keep_some (show keep (zHash.Update s k v) = some s1 from h)
    exact zHash.Reachable.update k v r hr hx
  | del k =>
    obtain ⟨r, hx⟩ := keep_some (show keep (zHash.removal slabHeap s k) = some s1 from h)
    exact zHash.Reachable.remove k r hr hx
  | value k =>
    obtain ⟨r, hx⟩ := keep_some (show keep (zHash.Value s k) = some s1 from h)
    exact zHash.Reachable.value k r hr hx

theorem reachable_runOps : ∀ (ops : List Op) (s s1 : Table), zHash.Reachable slabHeap s →
    runOps s ops = some s1 → zHash.Reachable slabHeap s1 := by
  intro ops
  induction ops with
  | nil =>
    intro s s1 hr h
    simp only [runOps, Option.some.injEq] at h
    subst h
    exact hr
  | cons op ops ih =>
    intro s s1 hr h
    rw [runOps] at h
    cases hx : stepOp s op with
    | none => rw [hx] at h; simp at h
    | some s2 =>
      rw [hx] at h
      exact ih s2 s1 (reachable_stepOp op hr hx) h

theorem reachable_insertAll {K V H : Type} [LinearOrder K] (Hp : zMemHeap H) (fuel : Nat)
    (u : V) : ∀ (kvs : List (K × V)) (s s1 : zHash K V H), zHash.Reachable Hp s →
    zHash.insertAll Hp fuel u s kvs = some s1 → zHash.Reachable Hp s1 := by
  intro kvs
  induction kvs with
  | nil =>
    intro s s1 hr h
    simp only [zHash.insertAll, Option.some.injEq] at h
    subst h
    exact hr
  | cons kv kvs ih =>
    intro s s1 hr h
    obtain ⟨k, v⟩ := kv
    rw [zHash.insertAll] at h
    cases hx : zHash.Insert Hp fuel s k v u with
    | error f => rw [hx] at h; simp at h
    | ok res =>
      obtain ⟨r, s2⟩ := res
      rw [hx] at h
      cases r with
      | HASH_KEY_EXIST => simp at h
      | ERR_MEMORY => simp at h
      | SUCCESS => exact ih s2 s1 (zHash.Reachable.insert fuel k v u _ hr hx) h

/-- The outcome `a` of a call and the table it returns, from a check that evaluates. -/
theorem ok_of_check {α σ : Type} [DecidableEq α] (x : Except Fault (α × σ)) (a : α)
    (h : (match x with | .ok (b, _) => decide (b = a) | .error _ => false) = true) :
    ∃ s, x = .ok (a, s) := by
  cases x with
  | error f => simp at h
  | ok res =>
    obtain ⟨b, s⟩ := res
    simp only [decide_eq_true_eq] at h
    exact ⟨s, by rw [h]⟩

/-- The result of a run and a property of it, from a check that evaluates. -/
theorem some_of_check {σ : Type} (x : Option σ) (p : σ → Bool)
    (h : (match x with | some s => p s | none => false) = true) :
    ∃ s, x = some s ∧ p s = true := by
  cases x with
  | none => simp at h
  | some s => exact ⟨s, rfl, h⟩

theorem onSome_true {σ : Type} {x : Option σ} {p : σ → Bool} (h : onSome x p = true) :
    ∃ s, x = some s ∧ p s = true := by
  cases x with
  | none => simp [onSome] at h
  | some s => exact ⟨s, rfl, h⟩

theorem onOk_true {α σ : Type} [DecidableEq α] {x : Except Fault (α × σ)} {a : α}
    {p : σ → Bool} (h : onOk x a p = true) : ∃ s, x = .ok (a, s) ∧ p s = true := by
  cases x with
  | error f => simp [onOk] at h
  | ok res =>
    obtain ⟨b, s⟩ := res
    simp only [onOk, Bool.and_eq_true, decide_eq_true_eq] at h
    exact ⟨s, by rw [h.1], h.2⟩

theorem onWritten_true {α σ : Type} [DecidableEq α] {x : Except Fault (σ × α)} {a : α}
    {p : σ → Bool} (h : onWritten x a p = true) : ∃ s, x = .ok (s, a) ∧ p s = true := by
  cases x with
  | error f => simp [onWritten] at h
  | ok res =>
    obtain ⟨s, b⟩ := res
    simp only [onWritten, Bool.and_eq_true, decide_eq_true_eq] at h
    exact ⟨s, by rw [h.1], h.2⟩

theorem onHang_true {β : Type} {x : Except Fault β} (h : onHang x = true) :
    x = .error .hang := by
  cases x with
  | ok b => simp [onHang] at h
  | error f => cases f <;> first | rfl | simp [onHang] at h

theorem reachable_fixedTable : zHash.Reachable slabHeap fixedTable :=
  zHash.Reachable.setResizable false (zHash.Reachable.new keyHash [])

set_option maxRecDepth 1000000 in
/-- C5, failing run: on a fresh table, after `Insert(1, 10)` and two calls `Value(257)` (a key
that is absent from the bucket of 1, so that each call unlocks the entry once more than it
locked it), the key 1 is present with the value 10 and neither `Update(1, 20)` nor `Value(1)`
returns: `RLock` spins on the lock word 0xFFFFFFFE. -/
theorem C5_update_never_returns :
    ∃ s : Table, zHash.Reachable slabHeap s ∧ s.lookup 1 = some 10 ∧
      zHash.Update s 1 20 = .error .hang ∧ zHash.Value s 1 = .error .hang := by
  have h : onSome (runOps (freshTable []) [.insert 1 10, .value 257, .value 257])
      (fun s => decide (s.lookup 1 = some 10) && (onHang (zHash.Update s 1 20) &&
        onHang (zHash.Value s 1))) = true := by decide!
  obtain ⟨s, hs, hp⟩ := onSome_true h
  simp only [Bool.and_eq_true, decide_eq_true_eq] at hp
  exact ⟨s, reachable_runOps _ _ s (zHash.Reachable.new keyHash []) hs, hp.1,
    onHang_true hp.2.1, onHang_true hp.2.2⟩

set_option maxRecDepth 1000000 in
/-- C6, failing run: with a process heap that refuses its first request, after the inserts of
1, 257, 513, 769 and 1025 into one bucket, `Insert(1281, 7)` returns ERR_MEMORY because
`listToBTree` fails; yet the new data node stays linked in the bucket with an unwritten value
field, `Size_Type` is 6 instead of 5, and `DataCount` is still 5. -/
theorem C6_insert_failure_leaves_node :
    ∃ s s1 : Table, zHash.Reachable slabHeap s ∧ s.lookup 1281 = none ∧
      zHash.Insert slabHeap 3 s 1281 7 0 = .ok (.ERR_MEMORY, s1) ∧
      s1.lookup 1281 = some 0 ∧ (∃ s2, zHash.Value s1 1281 = .ok (some 0, s2)) ∧
      s.allNodes.length = 5 ∧ s1.allNodes.length = 6 ∧
      s.pBucket[1]?.map ENTRY.Size_Type = some 5 ∧
      s1.pBucket[1]?.map ENTRY.Size_Type = some 6 ∧
      s.DataCount = 5 ∧ s1.DataCount = 5 := by
  have h : onSome (runOps (freshTable [false])
      [.insert 1 1, .insert 257 2, .insert 513 3, .insert 769 4, .insert 1025 5])
      (fun s => decide (s.lookup 1281 = none) &&
        (onOk (zHash.Insert slabHeap 3 s 1281 7 0) .ERR_MEMORY (fun s1 =>
          decide (s1.lookup 1281 = some 0) &&
          (onOk (zHash.Value s1 1281) (some 0) (fun _ => true) &&
          (decide (s.allNodes.length = 5) && (decide (s1.allNodes.length = 6) &&
          (decide (s.pBucket[1]?.map ENTRY.Size_Type = some 5) &&
          (decide (s1.pBucket[1]?.map ENTRY.Size_Type = some 6) &&
          (decide (s.DataCount = 5) && decide (s1.DataCount = 5))))))))))
      = true := by decide!
  obtain ⟨s, hs, hp⟩ := onSome_true h
  simp only [Bool.and_eq_true, decide_eq_true_eq] at hp
  obtain ⟨s1, h1, hq⟩ := onOk_true hp.2
  simp only [Bool.and_eq_true, decide_eq_true_eq] at hq
  obtain ⟨s2, h2, -⟩ := onOk_true hq.2.1
  exact ⟨s, s1, reachable_runOps _ _ s (zHash.Reachable.new keyHash [false]) hs, hp.1, h1, hq.1,
    ⟨s2, h2⟩, hq.2.2.1, hq.2.2.2.1, hq.2.2.2.2.1, hq.2.2.2.2.2.1, hq.2.2.2.2.2.2.1,
    hq.2.2.2.2.2.2.2⟩

set_option maxRecDepth 1000000 in
/-- Instance of C8: on a fresh table whose process heap refuses the first request `upSize()`
returns false and leaves `Threshold` at 384, where it was 192 with the 256 buckets that are
still in place. -/
theorem C8_upSize_failed_witness :
    ∃ s1 : Table, zHash.upSize slabHeap (freshTable [false]) = .ok (false, s1) ∧
      (freshTable [false]).Threshold = 192 ∧ s1.Threshold = 384 ∧ s1.Buckets = 256 ∧
      s1.PosMask = 255 ∧ s1.DataCount = 0 ∧ s1.pBucket = (freshTable [false]).pBucket := by
  have h : onOk (zHash.upSize slabHeap (freshTable [false])) false (fun _ => true) = true := by
    decide!
  obtain ⟨s1, h1, -⟩ := onOk_true h
  have hc := C8_upSize_failed slabHeap (freshTable [false]) s1 (zHash.Reachable.new keyHash [false])
    h1
  exact ⟨s1, h1, rfl, hc.2.2.2.2.2, hc.1, hc.2.1, hc.2.2.2.1, hc.2.2.2.2.1⟩

set_option maxHeartbeats 4000000 in
set_option maxRecDepth 1000000 in
/-- Instance of C10: after `SetResizable(false)` on a fresh table the 205 inserts of `fullKeys`
succeed and use up the data-node slab; `Insert(2085, 7)` then returns ERR_MEMORY, the table
still has its 256 buckets, and `Value` returns every one of the 205 keys with its value. -/
theorem C10_full_slab_witness :
    ∃ s s1 : Table, zHash.insertAll slabHeap 3 0 fixedTable fullKeys = some s ∧
      (slabHeap.LockAlloc s.pHeap).1 = none ∧ s.lookup 2085 = none ∧
      zHash.Insert slabHeap (2 + 1) s 2085 7 0 = .ok (.ERR_MEMORY, s1) ∧ s1.Buckets = s.Buckets ∧
      ∀ kv ∈ fullKeys, ∃ s2, zHash.Value s1 kv.1 = .ok (some kv.2, s2) := by
  have h : onSome (zHash.insertAll slabHeap 3 0 fixedTable fullKeys)
      (fun s => decide ((slabHeap.LockAlloc s.pHeap).1 = none) &&
        decide (s.lookup 2085 = none)) = true := by decide!
  obtain ⟨s, hs, hp⟩ := onSome_true h
  simp only [Bool.and_eq_true, decide_eq_true_eq] at hp
  obtain ⟨s1, h1, h2, h3⟩ := C10_full_slab slabHeap fixedTable s 3 2 0 0 fullKeys 2085 7
    reachable_fixedTable rfl hs hp.1 hp.2
  exact ⟨s, s1, hs, hp.1, hp.2, h1, h2, h3⟩

theorem isTree_true {K V : Type} {e : ENTRY K V} (h : e.isTree = true) : ∃ t, e.p = .tree t := by
  unfold ENTRY.isTree at h
  cases hp : e.p with
  | null => rw [hp] at h; simp at h
  | list f r => rw [hp] at h; simp at h
  | tree t => exact ⟨t, rfl⟩

set_option maxHeartbeats 4000000 in
set_option maxRecDepth 1000000 in
/-- C11, failing run: on a fresh table with the key as hash, after the inserts of 1, 257, 513,
769 and 1025 the bucket 1 is a list with `Size_Type = 5`; the sixth insert, of 1281, returns
`SUCCESS` and leaves the bucket as a tree (`Size_Type = 0`) of the six records, not as a list
of length 6; the key 1 keeps its value 10. -/
theorem C11_sixth_insert_promotes :
    ∃ (s5 s6 : Table) (e5 e6 : ENTRY Nat Nat),
      runOps (freshTable []) fiveInserts = some s5 ∧
      zHash.Insert slabHeap 2 s5 1281 60 0 = .ok (.SUCCESS, s6) ∧
      s5.pBucket[1]? = some e5 ∧ e5.isList = true ∧ e5.Size_Type = 5 ∧
      s6.pBucket[1]? = some e6 ∧ e6.isTree = true ∧ e6.isList = false ∧ e6.Size_Type = 0 ∧
      e6.nodes.map (fun d => d.key) = [1, 257, 513, 769, 1025, 1281] ∧
      s5.lookup 1 = some 10 ∧ s6.lookup 1 = some 10 := by
  have h : onSome (runOps (freshTable []) fiveInserts) (fun s5 =>
      onSome (s5.pBucket[1]?) (fun e5 => e5.isList && decide (e5.Size_Type = 5)) &&
      decide (s5.lookup 1 = some 10) &&
      onOk (zHash.Insert slabHeap 2 s5 1281 60 0) RETURN_CODE.SUCCESS (fun s6 =>
        onSome (s6.pBucket[1]?) (fun e6 => e6.isTree && !e6.isList &&
          decide (e6.Size_Type = 0) &&
          decide (e6.nodes.map (fun d => d.key) = [1, 257, 513, 769, 1025, 1281])) &&
        decide (s6.lookup 1 = some 10))) = true := by
    decide!
  obtain ⟨s5, hs5, hp⟩ := onSome_true h
  simp only [Bool.and_eq_true, decide_eq_true_eq] at hp
  obtain ⟨⟨he5, hl5⟩, hins⟩ := hp
  obtain ⟨e5, h5, hq5⟩ := onSome_true he5
  simp only [Bool.and_eq_true, decide_eq_true_eq] at hq5
  obtain ⟨s6, h6, hq6⟩ := onOk_true hins
  simp only [Bool.and_eq_true, decide_eq_true_eq] at hq6
  obtain ⟨e6, h6e, hq6e⟩ := onSome_true hq6.1
  simp only [Bool.and_eq_true, decide_eq_true_eq, Bool.not_eq_true'] at hq6e
  exact ⟨s5, s6, e5, e6, hs5, h6, h5, hq5.1, hq5.2, h6e, hq6e.1.1.1, hq6e.1.1.2, hq6e.1.2,
    hq6e.2, hl5, hq6.2⟩

set_option maxHeartbeats 4000000 in
set_option maxRecDepth 1000000 in
/-- Instance of C13, and the run in which a list grows beyond `MAX_LINKEDLIST_SIZE`: with a
process heap that refuses its first two requests, after the inserts of 1, 257, 513, 769 and
1025 the inserts of 1281 and of 1537 return `ERR_MEMORY` and leave the bucket 1 as a list of
seven nodes with `Size_Type = 7`. -/
theorem C13_chain_variant_witness :
    ∃ (s5 s6 s7 : Table) (e : ENTRY Nat Nat),
      runOps (freshTable [false, false]) fiveInserts = some s5 ∧
      zHash.Insert slabHeap 2 s5 1281 60 0 = .ok (.ERR_MEMORY, s6) ∧
      zHash.Insert slabHeap 2 s6 1537 70 0 = .ok (.ERR_MEMORY, s7) ∧
      s7.pBucket[1]? = some e ∧ e.isList = true ∧ e.Size_Type = 7 ∧ e.nodes.length = 7 ∧
      MAX_LINKEDLIST_SIZE < e.Size_Type ∧ e.Variant ∧
      (∀ (i : Nat) (e1 : ENTRY Nat Nat), s7.pBucket[i]? = some e1 → e1.Variant) := by
  have h : onSome (runOps (freshTable [false, false]) fiveInserts) (fun s5 =>
      onOk (zHash.Insert slabHeap 2 s5 1281 60 0) RETURN_CODE.ERR_MEMORY (fun s6 =>
        onOk (zHash.Insert slabHeap 2 s6 1537 70 0) RETURN_CODE.ERR_MEMORY (fun s7 =>
          onSome (s7.pBucket[1]?) (fun e => e.isList && decide (e.Size_Type = 7) &&
            decide (e.nodes.length = 7))))) = true := by
    decide!
  obtain ⟨s5, hs5, hp⟩ := onSome_true h
  obtain ⟨s6, h6, hq6⟩ := onOk_true hp
  obtain ⟨s7, h7, hq7⟩ := onOk_true hq6
  obtain ⟨e, he, hq⟩ := onSome_true hq7
  simp only [Bool.and_eq_true, decide_eq_true_eq] at hq
  have hr5 := reachable_runOps _ _ s5 (zHash.Reachable.new keyHash [false, false]) hs5
  have hr7 : zHash.Reachable slabHeap s7 :=
    zHash.Reachable.insert 2 1537 70 0 _ (zHash.Reachable.insert 2 1281 60 0 _ hr5 h6) h7
  have hc := (C13_chain_variant slabHeap s7 hr7).1
  exact ⟨s5, s6, s7, e, hs5, h6, h7, he, hq.1.1, hq.1.2, hq.2, by rw [hq.1.2]; decide,
    hc 1 e he, hc⟩

set_option maxHeartbeats 4000000 in
set_option maxRecDepth 1000000 in
/-- Instance of C15, and the run that leaves the threshold off its law: on a fresh table whose
process heap refuses the first request `upSize()` returns false; the table keeps 256 buckets,
`PosMask = 255` and `MaskBits = 8`, but `Threshold` is 384, not 192.  `SetInitBuckets` with
`2 ^ 63 + 1` leaves 0 buckets. -/
theorem C15_geometry_witness :
    ∃ s1 : Table, zHash.upSize slabHeap (freshTable [false]) = .ok (false, s1) ∧
      s1.Geometry ∧ s1.Buckets = 256 ∧ s1.Threshold = 384 ∧
      zHash.threshold s1.LoadFactor s1.Buckets = 192 ∧ ¬ s1.ThresholdLaw ∧
      (zHash.SetInitBuckets slabHeap (freshTable []) (2 ^ 63 + 1) []).1 = true ∧
      (zHash.SetInitBuckets slabHeap (freshTable []) (2 ^ 63 + 1) []).2.Buckets = 0 := by
  have h : onOk (zHash.upSize slabHeap (freshTable [false])) false
      (fun s1 => decide (s1.Threshold = 384) &&
        decide (zHash.threshold s1.LoadFactor s1.Buckets = 192)) = true := by
    decide!
  obtain ⟨s1, h1, hq⟩ := onOk_true h
  simp only [Bool.and_eq_true, decide_eq_true_eq] at hq
  have hc := (@C15_geometry Nat Nat (Nat × List Nat × Nat) _ slabHeap).2.2.2
    (freshTable [false]) s1 (reachable_WF slabHeap (zHash.Reachable.new keyHash [false]))
    (new_geometry slabHeap keyHash [false]).1 h1
  refine ⟨s1, h1, hc.1, hc.2.1, hq.1, hq.2, ?_, by decide!, by decide!⟩
  unfold zHash.ThresholdLaw
  rw [hq.1, hq.2]
  decide

theorem onDone_true {σ : Type} {x : Except Fault (Option σ)} {p : σ → Bool}
    (h : onDone x p = true) : ∃ s, x = .ok (some s) ∧ p s = true := by
  unfold onDone at h
  split at h
  · next s => exact ⟨s, rfl, h⟩
  · simp at h

theorem onValue_true {α : Type} [DecidableEq α] {x : Except Fault α} {a : α}
    (h : onValue x a = true) : x = .ok a := by
  unfold onValue at h
  split at h
  · next b =>
    simp only [decide_eq_true_eq] at h
    rw [h]
  · simp at h

theorem onUndefined_true {β : Type} {x : Except Fault β} (h : onUndefined x = true) :
    x = .error .undefinedBehaviour := by
  unfold onUndefined at h
  split at h
  · rfl
  · simp at h

set_option maxHeartbeats 4000000 in
set_option maxRecDepth 1000000 in
/-- Instance of C16: after `Init(66)`, three calls of `Alloc` return 0, 64 and 1; after
`Free(64)`, another `Alloc` and `Free(0)` there are four successful calls of `Alloc`, two
calls of `Free`, and two of the units 0 to 65 are in use. -/
theorem C16_accounting_witness :
    ∃ (s0 : zAT) (t : zAT.Trace), zAT.Init 66 true = .ok (some s0) ∧
      zAT.calls (zAT.start s0)
        [.alloc, .alloc, .alloc, .free 64, .alloc, .free 0] = .ok (some t) ∧
      t.allocs = 4 ∧ t.frees = 2 ∧ t.s.usedCount 66 = 2 := by
  have h : onDone (zAT.Init 66 true) (fun s0 =>
      onDone (zAT.calls (zAT.start s0) [.alloc, .alloc, .alloc, .free 64, .alloc, .free 0])
        (fun t => decide (t.allocs = 4) && decide (t.frees = 2))) = true := by
    decide!
  obtain ⟨s0, e0, hp⟩ := onDone_true h
  obtain ⟨t, et, hq⟩ := onDone_true hp
  simp only [Bool.and_eq_true, decide_eq_true_eq] at hq
  obtain ⟨ot, e, hot⟩ := C16_accounting 66 true s0 e0
    [.alloc, .alloc, .alloc, .free 64, .alloc, .free 0]
  rw [et] at e
  simp only [Except.ok.injEq] at e
  have := (hot t e.symm).2
  rw [hq.1, hq.2] at this
  exact ⟨s0, t, e0, et, hq.1, hq.2, this⟩

set_option maxHeartbeats 4000000 in
set_option maxRecDepth 1000000 in
/-- Instance of C18: after `Init(66)` and 67 calls of `Alloc`, of which the last returns
`RET_MEM_FULL`, the root words of both trees are 0 and `Alloc` returns `RET_MEM_FULL`. -/
theorem C18_full_and_roots_witness :
    ∃ (s0 : zAT) (t : zAT.Trace), zAT.Init 66 true = .ok (some s0) ∧
      zAT.calls (zAT.start s0) (List.replicate 67 zAT.Call.alloc) = .ok (some t) ∧
      t.allocs = 66 ∧ t.s.rootsZero = true ∧
      (t.s.rootsZero = true → ∃ s1, t.s.Alloc = .ok (none, s1)) ∧
      (∃ r s1, t.s.Alloc = .ok (r, s1) ∧ (r = none → s1.rootsZero = true)) := by
  have h : onDone (zAT.Init 66 true) (fun s0 =>
      onDone (zAT.calls (zAT.start s0) (List.replicate 67 zAT.Call.alloc))
        (fun t => decide (t.allocs = 66) && t.s.rootsZero)) = true := by
    decide!
  obtain ⟨s0, e0, hp⟩ := onDone_true h
  obtain ⟨t, et, hq⟩ := onDone_true hp
  simp only [Bool.and_eq_true, decide_eq_true_eq] at hq
  have hc := C18_full_and_roots 66 true s0 e0 (List.replicate 67 zAT.Call.alloc) t et
  exact ⟨s0, t, e0, et, hq.1, hq.2, hc.1, hc.2⟩

set_option maxHeartbeats 4000000 in
set_option maxRecDepth 1000000 in
/-- Counterexample to C18 as stated: after `Init(66)` and 66 successful calls of `Alloc` the
root word of the first tree is 2, not 0, and `Alloc` returns `RET_MEM_FULL`. -/
theorem C18_full_and_roots_counterexample :
    ∃ (s0 : zAT) (t : zAT.Trace) (s1 : zAT), zAT.Init 66 true = .ok (some s0) ∧
      zAT.calls (zAT.start s0) (List.replicate 66 zAT.Call.alloc) = .ok (some t) ∧
      t.allocs = 66 ∧ t.s.pAT1.word 0 0 = some 2 ∧ t.s.pAT2.word 0 0 = some 0 ∧
      t.s.rootsZero = false ∧ t.s.Alloc = .ok (none, s1) := by
  have h : onDone (zAT.Init 66 true) (fun s0 =>
      onDone (zAT.calls (zAT.start s0) (List.replicate 66 zAT.Call.alloc))
        (fun t => decide (t.allocs = 66) && decide (t.s.pAT1.word 0 0 = some 2) &&
          decide (t.s.pAT2.word 0 0 = some 0) && !t.s.rootsZero &&
          onOk t.s.Alloc none (fun _ => true))) = true := by
    decide!
  obtain ⟨s0, e0, hp⟩ := onDone_true h
  obtain ⟨t, et, hq⟩ := onDone_true hp
  simp only [Bool.and_eq_true, decide_eq_true_eq, Bool.not_eq_true'] at hq
  obtain ⟨s1, e1, -⟩ := onOk_true hq.2
  exact ⟨s0, t, s1, e0, et, hq.1.1.1.1, hq.1.1.1.2, hq.1.1.2, hq.1.2, e1⟩

set_option maxHeartbeats 4000000 in
set_option maxRecDepth 1000000 in
/-- C19, failing run: the allocator of `zMemHeap(61)` has 66 units.  After 67 calls of
`Alloc`, of which 66 succeed and the last returns `RET_MEM_FULL`, and `Free` of the units
0, 1, 32, 33, 64 and 65, there are 60 live units, fewer than 61, and `Alloc` returns
`RET_MEM_FULL`: no leaf has reached `FREE_THRESH_HOLD` free units, so the root words have
stayed 0. -/
theorem C19_alloc_fails_below_MaxMum :
    ∃ (s0 : zAT) (t : zAT.Trace) (s1 : zAT), zMemHeap.Count 61 = 66 ∧
      zMemHeap.pAT 61 true = .ok (some s0) ∧
      zAT.calls (zAT.start s0) drain = .ok (some t) ∧
      t.allocs = 66 ∧ t.frees = 6 ∧ t.live.length = 60 ∧ t.live.length < 61 ∧
      t.s.usedCount 66 = 60 ∧ t.s.Alloc = .ok (none, s1) := by
  have h : onDone (zMemHeap.pAT 61 true) (fun s0 =>
      onDone (zAT.calls (zAT.start s0) drain)
        (fun t => decide (t.allocs = 66) && decide (t.frees = 6) &&
          decide (t.live.length = 60) && decide (t.s.usedCount 66 = 60) &&
          onOk t.s.Alloc none (fun _ => true))) = true := by
    decide!
  obtain ⟨s0, e0, hp⟩ := onDone_true h
  obtain ⟨t, et, hq⟩ := onDone_true hp
  simp only [Bool.and_eq_true, decide_eq_true_eq] at hq
  obtain ⟨s1, e1, -⟩ := onOk_true hq.2
  exact ⟨s0, t, s1, by decide, e0, et, hq.1.1.1.1, hq.1.1.1.2, hq.1.1.2,
    by rw [hq.1.1.2]; decide, hq.1.2, e1⟩

set_option maxHeartbeats 4000000 in
set_option maxRecDepth 1000000 in
/-- C20, failing run: after `Init(1)` the unit 0 is free and the units 1 to 63 are in use.
`Reset()` leaves another state, in which the units 1 to 63 are free; two calls of `Alloc`
then return the units 0 and 32, the second of them not below the capacity 1. -/
theorem C20_reset_frees_the_tail :
    ∃ (s0 s1 s2 : zAT), zAT.Init 1 true = .ok (some s0) ∧
      s0.GetUnitStatus 1 = .ok false ∧ s0.GetUnitStatus 32 = .ok false ∧
      s0.Reset ≠ s0 ∧ s0.Reset.GetUnitStatus 1 = .ok true ∧
      s0.Reset.GetUnitStatus 32 = .ok true ∧
      s0.Reset.Alloc = .ok (some 0, s1) ∧ s1.Alloc = .ok (some 32, s2) ∧ ¬ 32 < 1 := by
  have h : onDone (zAT.Init 1 true) (fun s0 =>
      onValue (s0.GetUnitStatus 1) false && onValue (s0.GetUnitStatus 32) false &&
      decide (s0.Reset ≠ s0) && onValue (s0.Reset.GetUnitStatus 1) true &&
      onValue (s0.Reset.GetUnitStatus 32) true &&
      onOk s0.Reset.Alloc (some 0) (fun s1 => onOk s1.Alloc (some 32) (fun _ => true))) =
      true := by
    decide!
  obtain ⟨s0, e0, hp⟩ := onDone_true h
  simp only [Bool.and_eq_true, decide_eq_true_eq] at hp
  obtain ⟨s1, e1, hq⟩ := onOk_true hp.2
  obtain ⟨s2, e2, -⟩ := onOk_true hq
  exact ⟨s0, s1, s2, e0, onValue_true hp.1.1.1.1.1, onValue_true hp.1.1.1.1.2, hp.1.1.1.2,
    onValue_true hp.1.1.2, onValue_true hp.1.2, e1, e2, by decide⟩

/-! ## Rounding, configuration, the sequence lock and the string hash -/

theorem roundUp_least (X : Nat) (h1 : 1 ≤ X) (h2 : X ≤ 2 ^ 63) (i : Nat) (hi : X ≤ 2 ^ i) :
    zHash.roundUp X ≤ 2 ^ i := by
  obtain ⟨j, _, hj, _, hlt⟩ := roundUp_spec X h1 h2
  rw [hj]
  have h : 2 ^ j < 2 ^ (i + 1) := by
    calc 2 ^ j < 2 * X := hlt
      _ ≤ 2 * 2 ^ i := Nat.mul_le_mul_left 2 hi
      _ = 2 ^ (i + 1) := by rw [Nat.pow_succ, Nat.mul_comm]
  have hji : j < i + 1 := (Nat.pow_lt_pow_iff_right (by norm_num)).1 h
  exact Nat.pow_le_pow_right (by norm_num) (by omega)

theorem roundUp_fixed (X : Nat) (h1 : 1 ≤ X) (h2 : X ≤ 2 ^ 63) (i : Nat) (hi : X = 2 ^ i) :
    zHash.roundUp X = X := by
  obtain ⟨j, _, hj, hle, _⟩ := roundUp_spec X h1 h2
  have := roundUp_least X h1 h2 i (le_of_eq hi)
  rw [hj] at this ⊢
  omega

/-- Claim C29: for `1 ≤ X ≤ 2^63`, `roundUp X` is a power of two, at least `X`, and at most
every power of two that is at least `X`; it returns a power of two as it is, and rounding the
result again changes nothing. -/
theorem C29_roundUp_least_power (X : Nat) (h1 : 1 ≤ X) (h2 : X ≤ 2 ^ 63) :
    (∃ j, zHash.roundUp X = 2 ^ j) ∧ X ≤ zHash.roundUp X ∧
    (∀ i, X ≤ 2 ^ i → zHash.roundUp X ≤ 2 ^ i) ∧
    (∀ i, X = 2 ^ i → zHash.roundUp X = X) ∧
    zHash.roundUp (zHash.roundUp X) = zHash.roundUp X := by
  obtain ⟨j, hj63, hj, hle, _⟩ := roundUp_spec X h1 h2
  refine ⟨⟨j, hj⟩, by omega, roundUp_least X h1 h2, roundUp_fixed X h1 h2, ?_⟩
  rw [hj]
  exact roundUp_fixed (2 ^ j) Nat.one_le_two_pow
    (Nat.pow_le_pow_right (by norm_num) hj63) j rfl

theorem configure_flags {K V H : Type} (calls : List zHash.Setting) :
    ∀ s : zHash K V H, (s.Resizable = true → s.Countable = true) →
      ((s.configure calls).Resizable = true → (s.configure calls).Countable = true) := by
  induction calls with
  | nil => intro s h; exact h
  | cons c rest ih =>
    intro s h
    cases c with
    | resizable b =>
      exact ih (s.SetResizable b) (fun _ => rfl)
    | countable b =>
      refine ih (s.SetCountable b) ?_
      unfold zHash.SetCountable
      by_cases hr : s.Resizable = true
      · rw [if_pos hr]; exact h
      · rw [if_neg hr]; intro h'; exact absurd h' hr

/-- Claim C30: after every sequence of `SetResizable` and `SetCountable` calls on a fresh
table, a resizable table is countable; and on every table a `SetCountable` call that changes
`Countable` finds `Resizable` false, while on a table that is not resizable it stores its
argument. -/
theorem C30_resizable_is_countable {K V H : Type} (Hp : zMemHeap H) (hf : K → Nat → Nat)
    (sys : List Bool) (calls : List zHash.Setting) :
    (((zHash.new Hp hf sys : zHash K V H).configure calls).Resizable = true →
      ((zHash.new Hp hf sys : zHash K V H).configure calls).Countable = true) ∧
    (∀ (s : zHash K V H) (b : Bool),
      ((s.SetCountable b).Countable ≠ s.Countable → s.Resizable = false) ∧
      (s.Resizable = false → (s.SetCountable b).Countable = b) ∧
      (s.SetCountable b).Resizable = s.Resizable) ∧
    (∀ (s : zHash K V H) (b : Bool),
      (s.SetResizable b).Resizable = b ∧ (s.SetResizable b).Countable = true) := by
  refine ⟨configure_flags calls _ (fun _ => rfl), ?_, fun s b => ⟨rfl, rfl⟩⟩
  intro s b
  unfold zHash.SetCountable
  by_cases hr : s.Resizable = true
  · simp [hr]
  · have hf : s.Resizable = false := by simpa using hr
    simp [hf]

theorem version_back (v : Nat) (hv : v < 2 ^ 32) :
    ((v + 1) % 2 ^ 32 + (2 ^ 32 - 1)) % 2 ^ 32 = v := by
  have h : (2 : Nat) ^ 32 = 4294967296 := by norm_num
  rw [h] at hv ⊢
  omega

theorem pair_back (l : zSeqLock) (h0 : l.lock.aFlag = false) (hv : l.Version < 2 ^ 32) :
    (zSeqLock.WUnlock
        { lock := { aFlag := true }, Version := (l.Version + 1) % 2 ^ 32 }) = l := by
  obtain ⟨⟨f⟩, v⟩ := l
  have h0' : f = false := h0
  have hv' : v < 2 ^ 32 := hv
  subst h0'
  unfold zSeqLock.WUnlock zLock.Unlock
  show zSeqLock.mk _ (((v + 1) % 2 ^ 32 + (2 ^ 32 - 1)) % 2 ^ 32) = _
  rw [version_back v hv']

theorem lock_then_unlock (l : zSeqLock) (h0 : l.lock.aFlag = false) :
    l.WLock = .ok { lock := { aFlag := true }, Version := (l.Version + 1) % 2 ^ 32 } := by
  unfold zSeqLock.WLock zLock.Lock
  rw [if_neg (by rw [h0]; exact Bool.false_ne_true)]

theorem writes_keep (n : Nat) :
    ∀ l : zSeqLock, l.lock.aFlag = false → l.Version < 2 ^ 32 →
      zSeqLock.writes n l = .ok l := by
  induction n with
  | zero => intro l _ _; rfl
  | succ n ih =>
    intro l h0 hv
    unfold zSeqLock.writes
    rw [lock_then_unlock l h0]
    show zSeqLock.writes n (zSeqLock.WUnlock _) = _
    rw [pair_back l h0 hv]
    exact ih l h0 hv

/-- Claim C25 (what the code does): on a sequence lock that no writer holds, `WLock` adds one
to the version and `WUnlock` takes the one away again, so after the pair, and after any number
of pairs, the lock is as it was before: the version has not moved and `ReadRetry`, given the
version a reader saw before the writes, returns 0. -/
theorem C25_version_restored (l : zSeqLock) (h0 : l.lock.aFlag = false)
    (hv : l.Version < 2 ^ 32) :
    (∃ l1, l.WLock = .ok l1 ∧ l1.Version = (l.Version + 1) % 2 ^ 32 ∧
      l1.WUnlock = l) ∧
    (∀ n, ∃ l2, zSeqLock.writes n l = .ok l2 ∧ l2.Version = l.Version ∧
      l2.ReadRetry l.Version = 0) :=
  ⟨⟨_, lock_then_unlock l h0, rfl, pair_back l h0 hv⟩,
    fun n => ⟨l, writes_keep n l h0 hv, rfl, Nat.xor_self _⟩⟩

/-- A fresh sequence lock: the reader samples version 0, a writer runs `WLock` (version 1, odd)
and `WUnlock` (version 0 again, not 2), and the reader's `ReadRetry(0)` returns 0. -/
theorem C25_version_restored_witness :
    zSeqLock.init.ReadBegin = .ok 0 ∧
    (∃ l1, zSeqLock.init.WLock = .ok l1 ∧ l1.Version = (0 + 1) % 2 ^ 32 ∧
      l1.WUnlock = zSeqLock.init) ∧
    (∀ n, ∃ l2, zSeqLock.writes n zSeqLock.init = .ok l2 ∧ l2.Version = 0 ∧
      l2.ReadRetry 0 = 0) :=
  ⟨rfl, C25_version_restored zSeqLock.init rfl (by decide)⟩

theorem strLoop_fold (rest : List Nat) :
    ∀ (c h : Nat), c ≠ 0 → (∀ x ∈ rest, x ≠ 0 ∧ x < 128) →
      zHashFun.strLoop (c :: (rest ++ [0])) h =
        (rest ++ [0]).foldl (fun h c => (9 * h + c) % 2 ^ 64) h := by
  induction rest with
  | nil =>
    intro c h hc _
    simp only [List.nil_append, zHashFun.strLoop, if_neg hc, List.headD_cons, int8ToSize,
      List.foldl_cons, List.foldl_nil]
    simp [Nat.mul_comm]
  | cons d r ih =>
    intro c h hc hr
    have hd := hr d (List.mem_cons_self d r)
    have hlt : d < 128 := hd.2
    rw [List.cons_append]
    conv_lhs => unfold zHashFun.strLoop
    rw [if_neg hc, List.headD_cons, ih d _ hd.1 (fun x hx => hr x (List.mem_cons_of_mem d hx))]
    simp only [List.foldl_cons, int8ToSize, if_pos hlt]
    rw [Nat.add_comm d, Nat.mul_comm h]

theorem strLoop_first (c c' : Nat) (rest : List Nat) (h : Nat) (hc : c ≠ 0) (hc' : c' ≠ 0) :
    zHashFun.strLoop (c :: rest) h = zHashFun.strLoop (c' :: rest) h := by
  conv_lhs => unfold zHashFun.strLoop
  conv_rhs => unfold zHashFun.strLoop
  rw [if_neg hc, if_neg hc']

/-- Claim C28 (what the code does): the loop tests the character under `pc` and adds the one
after it, so on a string `c :: rest` of characters below 128 without NUL the result is the
`g XOR (g >> m)` of the description taken for `rest` followed by the terminator 0, and the
first character `c` has no part in it: every other first character gives the same result. -/
theorem C28_first_character_skipped (c : Nat) (rest : List Nat) (m : Nat) (hc : c ≠ 0)
    (hr : ∀ x ∈ rest, x ≠ 0 ∧ x < 128) (hm : m < 64) :
    zHashFunString (c :: rest) m = .ok (strHashSpec (rest ++ [0]) m) ∧
    ∀ c', c' ≠ 0 → zHashFunString (c' :: rest) m = zHashFunString (c :: rest) m := by
  have hm' : ¬ 64 ≤ m := by omega
  refine ⟨?_, fun c' hc' => ?_⟩
  · unfold zHashFunString strHashSpec strFold
    rw [if_neg hm', List.cons_append, strLoop_fold rest c 0 hc hr]
  · unfold zHashFunString
    rw [if_neg hm', if_neg hm', List.cons_append, List.cons_append,
      strLoop_first c' c (rest ++ [0]) 0 hc' hc]

/-- The strings "ab" and "bb" with 8 mask bits: both hash to 881, the value the description
gives for "b" followed by NUL; the description gives 968 for "ab" and 983 for "bb"; and the
one-character string "a" hashes to 0, where the description gives 97. -/
theorem C28_first_character_skipped_witness :
    (zHashFunString [97, 98] 8 = .ok (strHashSpec ([98] ++ [0]) 8) ∧
      ∀ c', c' ≠ 0 → zHashFunString [c', 98] 8 = zHashFunString [97, 98] 8) ∧
    zHashFunString [97, 98] 8 = .ok 881 ∧ zHashFunString [98, 98] 8 = .ok 881 ∧
    strHashSpec [97, 98] 8 = 968 ∧ strHashSpec [98, 98] 8 = 983 ∧
    zHashFunString [97] 8 = .ok 0 ∧ strHashSpec [97] 8 = 97 :=
  ⟨C28_first_character_skipped 97 [98] 8 (by decide) (by decide) (by decide),
    rfl, rfl, by decide, by decide, rfl, by decide⟩

/-! ## The integer hash -/

theorem shr_xor (a b i : Nat) : (a ^^^ b) >>> i = a >>> i ^^^ b >>> i := by
  apply Nat.eq_of_testBit_eq
  intro j
  simp only [Nat.testBit_shiftRight, Nat.testBit_xor]

theorem xor_mod_pow (a b m : Nat) : (a ^^^ b) % 2 ^ m = a % 2 ^ m ^^^ b % 2 ^ m := by
  apply Nat.eq_of_testBit_eq
  intro j
  simp only [Nat.testBit_mod_two_pow, Nat.testBit_xor]
  by_cases h : j < m <;> simp [h]

theorem xorShifts_xor (a b m : Nat) :
    ∀ n, xorShifts (a ^^^ b) m n = xorShifts a m n ^^^ xorShifts b m n := by
  intro n
  induction n with
  | zero => simp [xorShifts]
  | succ n ih =>
    simp only [xorShifts, ih, shr_xor]
    apply Nat.eq_of_testBit_eq
    intro j
    simp only [Nat.testBit_xor]
    cases (xorShifts a m n).testBit j <;> cases (xorShifts b m n).testBit j <;>
      cases (a >>> (n * m)).testBit j <;> cases (b >>> (n * m)).testBit j <;> rfl

theorem xorShifts_mod (k m : Nat) :
    ∀ n, xorShifts k m n % 2 ^ m = chunkXor k m n := by
  intro n
  induction n with
  | zero => simp [xorShifts, chunkXor]
  | succ n ih => simp only [xorShifts, chunkXor, xor_mod_pow, ih]

theorem shr_zero_of_le (k m : Nat) (i j : Nat) (hij : i ≤ j) (h : k >>> (i * m) = 0) :
    k >>> (j * m) = 0 := by
  obtain ⟨d, rfl⟩ := Nat.exists_eq_add_of_le hij
  rw [Nat.add_mul, Nat.shiftRight_add, h, Nat.zero_shiftRight]

theorem xorShifts_stable (k m i : Nat) (h : k >>> (i * m) = 0) :
    ∀ N, i ≤ N → xorShifts k m N = xorShifts k m i := by
  intro N hN
  induction N with
  | zero =>
    have : i = 0 := by omega
    subst this; rfl
  | succ N ih =>
    by_cases hi : i = N + 1
    · subst hi; rfl
    · have hle : i ≤ N := by omega
      simp only [xorShifts, ih hle, shr_zero_of_le k m i N hle h, Nat.xor_zero]

theorem shr_lt (t m f : Nat) (hm : 1 ≤ m) (ht : t < 2 ^ (f + 1)) : t >>> m < 2 ^ f := by
  rw [Nat.shiftRight_eq_div_pow]
  have h1 : t / 2 ^ m ≤ t / 2 ^ 1 :=
    Nat.div_le_div_left (Nat.pow_le_pow_right (by norm_num) hm) (by norm_num)
  have h2 : t / 2 ^ 1 < 2 ^ f := by
    rw [Nat.div_lt_iff_lt_mul (by norm_num)]
    rw [Nat.pow_succ] at ht
    exact ht
  omega

theorem fold_spec (k m : Nat) (hm : 1 ≤ m) :
    ∀ (f i : Nat), k >>> (i * m) < 2 ^ f → ∀ N, i + f + 1 ≤ N →
      zHashFun.fold (f + 1) (k >>> (i * m)) (xorShifts k m (i + 1)) m =
        .ok (xorShifts k m N) := by
  intro f
  induction f with
  | zero =>
    intro i hlt N hN
    have h0 : k >>> (i * m) = 0 := Nat.lt_one_iff.1 (by simpa using hlt)
    unfold zHashFun.fold
    rw [h0, Nat.zero_shiftRight, if_pos rfl]
    have hs : k >>> ((i + 1) * m) = 0 := shr_zero_of_le k m i (i + 1) (by omega) h0
    rw [xorShifts_stable k m (i + 1) hs N (by omega)]
  | succ f ih =>
    intro i hlt N hN
    have hnext : (k >>> (i * m)) >>> m = k >>> ((i + 1) * m) := by
      rw [Nat.add_mul, Nat.one_mul, Nat.shiftRight_add]
    unfold zHashFun.fold
    by_cases hz : (k >>> (i * m)) >>> m = 0
    · rw [if_pos hz]
      rw [hnext] at hz
      rw [xorShifts_stable k m (i + 1) hz N (by omega)]
    · rw [if_neg hz, hnext]
      have := ih (i + 1) (by rw [← hnext]; exact shr_lt _ m f hm hlt) N (by omega)
      rw [← this]
      rfl

theorem fold_total (k m w : Nat) (hm : 1 ≤ m) (hk : k < 2 ^ w) :
    zHashFun.fold (w + 1) k k m = .ok (xorShifts k m (w + 1)) := by
  have := fold_spec k m hm w 0 (by simpa using hk) (w + 1) (by omega)
  simpa [xorShifts] using this

theorem pow_shr_mod (b m i : Nat) (hm : 1 ≤ m) :
    ((2 ^ b) >>> (i * m)) % 2 ^ m = if i = b / m then 2 ^ (b % m) else 0 := by
  have hmpos : 0 < m := hm
  rw [Nat.shiftRight_eq_div_pow]
  by_cases hle : i * m ≤ b
  · rw [Nat.pow_div hle (by norm_num)]
    by_cases hi : i = b / m
    · rw [if_pos hi]
      have hb : b - i * m = b % m := by
        have := Nat.div_add_mod b m
        subst hi
        have h2 : m * (b / m) = b / m * m := Nat.mul_comm _ _
        omega
      rw [hb]
      exact Nat.mod_eq_of_lt (Nat.pow_lt_pow_right (by norm_num) (Nat.mod_lt _ hmpos))
    · rw [if_neg hi]
      have hlt : i < b / m := by
        have : i ≤ b / m := (Nat.le_div_iff_mul_le hmpos).2 hle
        omega
      have hge : m ≤ b - i * m := by
        have h1 : (i + 1) * m ≤ b := (Nat.le_div_iff_mul_le hmpos).1 hlt
        rw [Nat.add_mul, Nat.one_mul] at h1
        omega
      exact Nat.mod_eq_zero_of_dvd (Nat.pow_dvd_pow 2 hge)
  · have hlt : b < i * m := by omega
    have hi : i ≠ b / m := by
      intro h
      subst h
      have := Nat.div_mul_le_self b m
      omega
    rw [if_neg hi, Nat.div_eq_of_lt (Nat.pow_lt_pow_right (by norm_num) hlt)]
    exact Nat.zero_mod _

theorem chunkXor_pow (b m : Nat) (hm : 1 ≤ m) :
    ∀ n, chunkXor (2 ^ b) m n = if b / m < n then 2 ^ (b % m) else 0 := by
  intro n
  induction n with
  | zero => simp [chunkXor]
  | succ n ih =>
    simp only [chunkXor, ih, pow_shr_mod b m n hm]
    by_cases h1 : b / m < n
    · have h2 : n ≠ b / m := by omega
      have h3 : b / m < n + 1 := by omega
      simp [h1, h2, h3]
    · by_cases h2 : n = b / m
      · have h3 : b / m < n + 1 := by omega
        simp [h1, h2]
      · have h3 : ¬ b / m < n + 1 := by omega
        simp [h1, h2, h3]

/-- The fold on keys of `w` bits: the result, its low `m` bits, and the change of the low `m`
bits under the flip of one bit of the key. -/
theorem fold_flip (k m w : Nat) (hm : 1 ≤ m) (hk : k < 2 ^ w) :
    ∃ h, zHashFun.fold (w + 1) k k m = .ok h ∧ h % 2 ^ m = chunkXor k m w ∧
      h &&& (2 ^ m - 1) = chunkXor k m w ∧
      ∀ b, b < w → ∃ h', zHashFun.fold (w + 1) (k ^^^ 2 ^ b) (k ^^^ 2 ^ b) m = .ok h' ∧
        h' % 2 ^ m = h % 2 ^ m ^^^ 2 ^ (b % m) ∧
        h' &&& (2 ^ m - 1) ≠ h &&& (2 ^ m - 1) := by
  have hw : k >>> (w * m) = 0 := by
    rw [Nat.shiftRight_eq_div_pow]
    apply Nat.div_eq_of_lt
    have h1 : w ≤ w * m := Nat.le_mul_of_pos_right w hm
    exact lt_of_lt_of_le hk (Nat.pow_le_pow_right (by norm_num) h1)
  have hst : xorShifts k m (w + 1) = xorShifts k m w :=
    xorShifts_stable k m w hw (w + 1) (by omega)
  refine ⟨_, fold_total k m w hm hk, ?_, ?_, ?_⟩
  · rw [hst]; exact xorShifts_mod k m w
  · rw [Nat.and_pow_two_sub_one_eq_mod, hst]; exact xorShifts_mod k m w
  · intro b hb
    have hk' : k ^^^ 2 ^ b < 2 ^ w :=
      Nat.xor_lt_two_pow hk (Nat.pow_lt_pow_right (by norm_num) hb)
    have hdiv : b / m < w + 1 := by
      have := Nat.div_le_self b m
      omega
    have hmod : xorShifts (k ^^^ 2 ^ b) m (w + 1) % 2 ^ m =
        xorShifts k m (w + 1) % 2 ^ m ^^^ 2 ^ (b % m) := by
      rw [xorShifts_xor, xor_mod_pow, xorShifts_mod (2 ^ b), chunkXor_pow b m hm, if_pos hdiv]
    refine ⟨_, fold_total (k ^^^ 2 ^ b) m w hm hk', hmod, ?_⟩
    rw [Nat.and_pow_two_sub_one_eq_mod, Nat.and_pow_two_sub_one_eq_mod, hmod]
    intro heq
    have h0 : xorShifts k m (w + 1) % 2 ^ m ^^^ 2 ^ (b % m) =
        xorShifts k m (w + 1) % 2 ^ m ^^^ 0 := by rw [heq, Nat.xor_zero]
    have := Nat.xor_right_inj.1 h0
    exact absurd this (Nat.pos_iff_ne_zero.1 (Nat.pow_pos (by norm_num)))

/-- Claim C27 (amended): for a key of 2, 4 or 8 bytes and a shift count `m` with `1 ≤ m` that
is below the width of the shifted type (64 for 8 bytes, 32 for 4 and for 2 bytes), `zHashFun`
returns a value whose low `m` bits are the XOR of the `m`-bit chunks of the key, and the flip
of any one bit of the key changes the bucket index `zHashFun(k, m) & (2^m - 1)`. -/
theorem C27_fold_mixes_every_bit (size k m : Nat) (hs : size = 2 ∨ size = 4 ∨ size = 8)
    (hk : k < 2 ^ (8 * size)) (h1 : 1 ≤ m) (h2 : m < (if size = 8 then 64 else 32)) :
    ∃ h, zHashFun size k m = .ok h ∧ h % 2 ^ m = chunkXor k m (8 * size) ∧
      h &&& (2 ^ m - 1) = chunkXor k m (8 * size) ∧
      ∀ b, b < 8 * size → ∃ h', zHashFun size (k ^^^ 2 ^ b) m = .ok h' ∧
        h' % 2 ^ m = h % 2 ^ m ^^^ 2 ^ (b % m) ∧
        h' &&& (2 ^ m - 1) ≠ h &&& (2 ^ m - 1) := by
  rcases hs with rfl | rfl | rfl
  · have hm : ¬ 32 ≤ m := by simpa using h2
    have := fold_flip k m 16 h1 hk
    simpa [zHashFun, hm] using this
  · have hm : ¬ 32 ≤ m := by simpa using h2
    have := fold_flip k m 32 h1 hk
    simpa [zHashFun, hm] using this
  · have hm : ¬ 64 ≤ m := by simpa using h2
    have := fold_flip k m 64 h1 hk
    simpa [zHashFun, hm] using this

/-- The 4-byte key `0x12345678` with 8 mask bits: the hash is `0x12266008`, its low byte 8 is
`0x78 ^ 0x56 ^ 0x34 ^ 0x12`, and the flip of bit 20 of the key moves the bucket index from 8
to 24. -/
theorem C27_fold_mixes_every_bit_witness :
    zHashFun 4 305419896 8 = .ok 304508936 ∧ chunkXor 305419896 8 (8 * 4) = 8 ∧
    zHashFun 4 (305419896 ^^^ 2 ^ 20) 8 = .ok 305553432 ∧ 305553432 % 2 ^ 8 = 24 ∧
    ∃ h, zHashFun 4 305419896 8 = .ok h ∧ h % 2 ^ 8 = chunkXor 305419896 8 (8 * 4) ∧
      h &&& (2 ^ 8 - 1) = chunkXor 305419896 8 (8 * 4) ∧
      ∀ b, b < 8 * 4 → ∃ h', zHashFun 4 (305419896 ^^^ 2 ^ b) 8 = .ok h' ∧
        h' % 2 ^ 8 = h % 2 ^ 8 ^^^ 2 ^ (b % 8) ∧
        h' &&& (2 ^ 8 - 1) ≠ h &&& (2 ^ 8 - 1) :=
  ⟨rfl, by decide, rfl, by decide,
    C27_fold_mixes_every_bit 4 305419896 8 (by decide) (by norm_num) (by decide) (by decide)⟩

/-- A shift count that is not below the width of the shifted type: 32 for a key of 4 or 2
bytes and 64 for a key of 8 bytes have `1 ≤ m`, and the shift `Tmp >>= MaskBits` is
undefined. -/
theorem C27_fold_mixes_every_bit_counterexample :
    1 ≤ 32 ∧ zHashFun 4 1 32 = .error .undefinedBehaviour ∧
    zHashFun 2 1 32 = .error .undefinedBehaviour ∧
    1 ≤ 64 ∧ zHashFun 8 1 64 = .error .undefinedBehaviour :=
  ⟨by decide, rfl, rfl, by decide, rfl⟩

/-- The request for 1000 buckets: `roundUp` gives 1024. -/
theorem C29_roundUp_least_power_witness :
    zHash.roundUp 1000 = 1024 ∧
    ((∃ j, zHash.roundUp 1000 = 2 ^ j) ∧ 1000 ≤ zHash.roundUp 1000 ∧
      (∀ i, 1000 ≤ 2 ^ i → zHash.roundUp 1000 ≤ 2 ^ i) ∧
      (∀ i, 1000 = 2 ^ i → zHash.roundUp 1000 = 1000) ∧
      zHash.roundUp (zHash.roundUp 1000) = zHash.roundUp 1000) :=
  ⟨by decide, C29_roundUp_least_power 1000 (by decide) (by norm_num)⟩

/-! ## The read/write lock under two threads -/

/-- Claim C26 (what the code does): `temp` is set to 0 once, before the loop of `WLock`, and a
failed exchange leaves the word it found in `temp`; the next exchange then succeeds from that
word.  With two threads on a fresh lock: thread 0 takes a read lock (`Flag = 1`); thread 1
enters `WLock`, fails the exchange against 0, and succeeds against 1, so it holds the write
lock while thread 0 holds its read lock.  In the same way a second writer gets the write lock
while the first holds it.  Both states are reachable and in neither does the exclusion hold. -/
theorem C26_writer_joins_reader :
    (zRWLock.Shared.start 2).run
        [(0, .callRLock), (0, .next), (0, .next),
         (1, .callWLock), (1, .next), (1, .next), (1, .next)] =
      some { lock := { Flag := WRITELOCKMASK, WriteFlag := true },
             threads := [.reading, .writing] } ∧
    (zRWLock.Shared.start 2).run
        [(0, .callRLock), (0, .next), (0, .next), (1, .callWLock), (1, .next)] =
      some { lock := { Flag := 1, WriteFlag := true },
             threads := [.reading, .wReset 1] } ∧
    (zRWLock.Shared.start 2).run
        [(0, .callWLock), (0, .next), (1, .callWLock), (1, .next), (1, .next), (1, .next)] =
      some { lock := { Flag := WRITELOCKMASK, WriteFlag := true },
             threads := [.writing, .writing] } ∧
    (∃ s, zRWLock.Shared.Reachable 2 s ∧ s.writes 1 ∧ s.reads 0 ∧ ¬ s.Exclusive) ∧
    (∃ s, zRWLock.Shared.Reachable 2 s ∧ s.writes 1 ∧ s.writes 0 ∧ ¬ s.Exclusive) := by
  have h1 : (zRWLock.Shared.start 2).run
        [(0, .callRLock), (0, .next), (0, .next),
         (1, .callWLock), (1, .next), (1, .next), (1, .next)] =
      some { lock := { Flag := WRITELOCKMASK, WriteFlag := true },
             threads := [.reading, .writing] } := by decide
  have h2 : (zRWLock.Shared.start 2).run
        [(0, .callWLock), (0, .next), (1, .callWLock), (1, .next), (1, .next), (1, .next)] =
      some { lock := { Flag := WRITELOCKMASK, WriteFlag := true },
             threads := [.writing, .writing] } := by decide
  refine ⟨h1, by decide, h2, ⟨_, ⟨_, h1⟩, rfl, rfl, ?_⟩, ⟨_, ⟨_, h2⟩, rfl, rfl, ?_⟩⟩
  · intro hex
    exact (hex 1 0 (by decide) rfl).1 rfl
  · intro hex
    exact (hex 1 0 (by decide) rfl).2 rfl

section TreeContracts

variable {K V H : Type} [LinearOrder K]

/-! ## The contracts of `Insert` and `Remove` -/

theorem good_size {t : zBTree K V} (hg : t.Good) : t.Size = t.toList.length := by
  rcases hg with ⟨hr, hs⟩ | hv
  · simp [zBTree.toList, hr, hs]
  · exact valid_size hv

theorem good_find {t : zBTree K V} (hg : t.Good) (key : K) (h : Nat) (e : DATA_NODE K V) :
    t.FindData key h = some e ↔ e ∈ t.toList ∧ e.h = h ∧ e.key = key := by
  rcases hg with ⟨hr, -⟩ | hv
  · simp [zBTree.FindData, zBTree.toList, hr]
  · exact FindData_iff hv key h e

omit [LinearOrder K] in
theorem kh_eq {a b : DATA_NODE K V} : a.kh = b.kh ↔ a.h = b.h ∧ a.key = b.key := by
  unfold DATA_NODE.kh
  constructor
  · intro h
    have := toLex.injective h
    simpa using this
  · rintro ⟨h1, h2⟩
    rw [h1, h2]

theorem valid_sorted {t : zBTree K V} (hv : t.Valid) :
    t.toList.Pairwise (fun a b => a.kh < b.kh) := by
  obtain ⟨root, n, hroot, -, ho, -⟩ := hv
  simpa [zBTree.toList, hroot] using ho

theorem Remove_good (Hp : zMemHeap H) (t : zBTree K V) (key : K) (h : Nat) (hp : H)
    (hg : t.Good) : (t.Remove Hp key h hp).2.1.Good := by
  rcases hg with ⟨hr, hs⟩ | hv
  · have : t.Remove Hp key h hp = (none, t, hp) := by
      unfold zBTree.Remove; rw [hr]
    rw [this]; exact Or.inl ⟨hr, hs⟩
  · obtain ⟨h1, h2⟩ := Remove_spec Hp t key h hp hv
    cases hf : t.FindData key h with
    | none => rw [h1 hf]; exact Or.inr hv
    | some e =>
      obtain ⟨t1, hp1, hr, hv1, -⟩ := h2 e hf
      rw [hr]; exact Or.inr hv1

theorem Insert_good (Hp : zMemHeap H) (t : zBTree K V) (d : DATA_NODE K V) (hp : H)
    (hg : t.Good) : (t.Insert Hp d hp).2.1.Good :=
  (Insert_spec Hp t d hp hg _ _ _ rfl).1

theorem steps_good (Hp : zMemHeap H) (l : List (zBTree.Step K V)) :
    ∀ s : zBTree K V × H, s.1.Good → (zBTree.steps Hp s l).1.Good := by
  induction l with
  | nil => intro s hs; exact hs
  | cons c rest ih =>
    intro s hs
    unfold zBTree.steps
    rw [List.foldl_cons]
    apply ih
    cases c with
    | insert d => exact Insert_good Hp s.1 d s.2 hs
    | remove key h => exact Remove_good Hp s.1 key h s.2 hs

theorem empty_good : (zBTree.empty : zBTree K V).Good := Or.inl ⟨rfl, rfl⟩

/-- Claim C22: when `Insert` on a valid (or empty) tree returns -1, the data nodes of the
tree in key order and `Count()` are as before, the tree is valid again, and `FindData`
answers every search as before, so every node stored is still found. -/
theorem C22_memError_keeps_tree (Hp : zMemHeap H) (t : zBTree K V) (d : DATA_NODE K V)
    (hp : H) (hg : t.Good) (t1 : zBTree K V) (hp1 : H)
    (hr : t.Insert Hp d hp = (.memError, t1, hp1)) :
    t1.toList = t.toList ∧ t1.Count = t.Count ∧ t1.Good ∧ (t.Valid → t1.Valid) ∧
    (∀ key h, t1.FindData key h = t.FindData key h) ∧
    (∀ e ∈ t.toList, t1.FindData e.key e.h = some e) := by
  obtain ⟨hg1, hins, hval⟩ := Insert_spec Hp t d hp hg _ t1 hp1 hr
  have hl : t1.toList = t.toList := hins
  have hfind : ∀ key h, t1.FindData key h = t.FindData key h := by
    intro key h
    apply Option.ext
    intro e
    rw [Option.mem_def, Option.mem_def, good_find hg1, good_find hg, hl]
  refine ⟨hl, ?_, hg1, fun hv => hval (Or.inl hv), hfind, ?_⟩
  · show t1.Size = t.Size
    rw [good_size hg1, good_size hg, hl]
  · intro e he
    rw [hfind]
    exact (good_find hg _ _ _).2 ⟨he, rfl, rfl⟩

/-- Claim C23: `Remove` on a valid (or empty) tree.  For a pair that is absent it returns
null and the tree and the heap are as before.  For a pair that is present it returns the data
node stored for it; afterwards the tree is valid, the pair is not found, `Count()` is one
less, every other node is found and nothing else is stored. -/
theorem C23_remove_contract (Hp : zMemHeap H) (t : zBTree K V) (key : K) (h : Nat) (hp : H)
    (hg : t.Good) :
    (t.FindData key h = none → t.Remove Hp key h hp = (none, t, hp)) ∧
    (∀ e, t.FindData key h = some e → ∃ t1 hp1, t.Remove Hp key h hp = (some e, t1, hp1) ∧
      t1.Valid ∧ t1.FindData key h = none ∧ t1.Count + 1 = t.Count ∧
      (∀ e' ∈ t.toList, e' ≠ e → t1.FindData e'.key e'.h = some e') ∧
      (∀ e' ∈ t1.toList, e' ∈ t.toList ∧ e' ≠ e)) := by
  rcases hg with ⟨hroot, -⟩ | hv
  · constructor
    · intro _
      unfold zBTree.Remove; rw [hroot]
    · intro e he
      simp [zBTree.FindData, hroot] at he
  · obtain ⟨h1, h2⟩ := Remove_spec Hp t key h hp hv
    refine ⟨h1, ?_⟩
    intro e he
    obtain ⟨t1, hp1, hr, hv1, ⟨A, B, hl, hl1⟩, hsz⟩ := h2 e he
    have hsorted := valid_sorted hv
    rw [hl, List.pairwise_append] at hsorted
    obtain ⟨-, hB, hAB⟩ := hsorted
    rw [List.pairwise_cons] at hB
    have hne : ∀ e' ∈ t1.toList, e'.kh ≠ e.kh := by
      intro e' he'
      rw [hl1] at he'
      rcases List.mem_append.1 he' with ha | hb
      · exact ne_of_lt (hAB e' ha e (List.mem_cons_self _ _))
      · exact ne_of_gt (hB.1 e' hb)
    obtain ⟨-, heh, hek⟩ := (FindData_iff hv _ _ _).1 he
    refine ⟨t1, hp1, hr, hv1, ?_, hsz, ?_, ?_⟩
    · cases hf : t1.FindData key h with
      | none => rfl
      | some e' =>
        obtain ⟨hmem, hh, hk⟩ := (FindData_iff hv1 _ _ _).1 hf
        exact absurd (kh_eq.2 ⟨hh.trans heh.symm, hk.trans hek.symm⟩) (hne e' hmem)
    · intro e' he' hdiff
      refine (FindData_iff hv1 _ _ _).2 ⟨?_, rfl, rfl⟩
      rw [hl] at he'
      rw [hl1]
      rcases List.mem_append.1 he' with ha | hb
      · exact List.mem_append_left _ ha
      · rcases List.mem_cons.1 hb with rfl | hb'
        · exact absurd rfl hdiff
        · exact List.mem_append_right _ hb'
    · intro e' he'
      refine ⟨?_, fun heq => hne e' he' (by rw [heq])⟩
      rw [hl1] at he'
      rw [hl]
      rcases List.mem_append.1 he' with ha | hb
      · exact List.mem_append_left _ ha
      · exact List.mem_append_right _ (List.mem_cons_of_mem _ hb)

end TreeContracts

/-! ## Runs of the tree over the concrete heap -/

theorem code_memError {K V : Type} {st : InsertStatus K V} (h : st.code = -1) :
    st = .memError := by
  cases st <;> simp [InsertStatus.code] at h ⊢

theorem grown_good (units : Nat) (keys : List Nat) : (grown units keys).1.Good :=
  steps_good slabHeap _ _ empty_good

theorem twoLevels_good : twoLevels.1.Good :=
  steps_good slabHeap _ _ (grown_good 3 [1, 2, 3, 4, 5, 6])

/-- A full root over a full first leaf with two units left: `Insert` of the key 14 splits the
root with the two units, finds no unit for the split of the leaf and returns -1.  The tree
is one level higher, and its data nodes, its count and every search are as before. -/
theorem C22_memError_keeps_tree_witness :
    crowded.1.layout = [[30, 60, 90, 120, 150], [10, 11, 12, 13, 20], [40, 50], [70, 80],
      [100, 110], [130, 140], [160, 170, 180]] ∧
    (crowded.1.Insert slabHeap (dnode 14) crowded.2).1.code = -1 ∧
    (crowded.1.Insert slabHeap (dnode 14) crowded.2).2.1.layout =
      [[90], [30, 60], [10, 11, 12, 13, 20], [40, 50], [70, 80], [120, 150], [100, 110],
        [130, 140], [160, 170, 180]] ∧
    ((crowded.1.Insert slabHeap (dnode 14) crowded.2).2.1.toList = crowded.1.toList ∧
      (crowded.1.Insert slabHeap (dnode 14) crowded.2).2.1.Count = crowded.1.Count ∧
      (crowded.1.Insert slabHeap (dnode 14) crowded.2).2.1.Good ∧
      (crowded.1.Valid → (crowded.1.Insert slabHeap (dnode 14) crowded.2).2.1.Valid) ∧
      (∀ key h, (crowded.1.Insert slabHeap (dnode 14) crowded.2).2.1.FindData key h =
        crowded.1.FindData key h) ∧
      (∀ e ∈ crowded.1.toList,
        (crowded.1.Insert slabHeap (dnode 14) crowded.2).2.1.FindData e.key e.h = some e)) := by
  have hc : (crowded.1.Insert slabHeap (dnode 14) crowded.2).1.code = -1 := by decide!
  refine ⟨by decide!, hc, by decide!, ?_⟩
  exact C22_memError_keeps_tree slabHeap crowded.1 (dnode 14) crowded.2 (grown_good _ _) _ _
    (Prod.ext (code_memError hc) rfl)

/-- The key 3 stands in the root over the leaves 1 2 and 4 5: `Remove` swaps it with its
successor 4, removes it from the right leaf, merges the leaf into its left sibling and
replaces the emptied root by the merged node. -/
theorem C23_remove_contract_witness :
    twoLevels.1.layout = [[3], [1, 2], [4, 5]] ∧
    (twoLevels.1.Remove slabHeap 3 3 twoLevels.2).1 = some (dnode 3) ∧
    (twoLevels.1.Remove slabHeap 3 3 twoLevels.2).2.1.layout = [[1, 2, 4, 5]] ∧
    (twoLevels.1.Remove slabHeap 3 3 twoLevels.2).2.1.Count = 4 ∧
    (twoLevels.1.Remove slabHeap 7 7 twoLevels.2).1 = none ∧
    ((twoLevels.1.FindData 3 3 = none →
        twoLevels.1.Remove slabHeap 3 3 twoLevels.2 = (none, twoLevels.1, twoLevels.2)) ∧
      (∀ e, twoLevels.1.FindData 3 3 = some e → ∃ t1 hp1,
        twoLevels.1.Remove slabHeap 3 3 twoLevels.2 = (some e, t1, hp1) ∧
        t1.Valid ∧ t1.FindData 3 3 = none ∧ t1.Count + 1 = twoLevels.1.Count ∧
        (∀ e' ∈ twoLevels.1.toList, e' ≠ e → t1.FindData e'.key e'.h = some e') ∧
        (∀ e' ∈ t1.toList, e' ∈ twoLevels.1.toList ∧ e' ≠ e))) :=
  ⟨by decide!, by decide!, by decide!, by decide!, by decide!,
    C23_remove_contract slabHeap twoLevels.1 3 3 twoLevels.2 twoLevels_good⟩

section ParentPointers

variable {K V H : Type}

/-! ## The `parent` pointers -/

theorem annotateList_eq_map (cs : List (zBTreeNode K V)) (par : Option Nat) :
    zBTreeNode.annotateList cs par = cs.map (fun c => c.annotate par) := by
  induction cs with
  | nil => rfl
  | cons c cs ih => rw [zBTreeNode.annotateList, ih]; rfl

theorem eraseList_eq_map (cs : List (zBTreeNodeP K V)) :
    zBTreeNodeP.eraseList cs = cs.map zBTreeNodeP.erase := by
  induction cs with
  | nil => rfl
  | cons c cs ih => rw [zBTreeNodeP.eraseList, ih]; rfl

theorem annotate_mk (s : Nat) (ks : List (DATA_NODE K V)) (cs : List (zBTreeNode K V))
    (par : Option Nat) :
    (zBTreeNode.mk s ks cs).annotate par =
      .mk s par ks (cs.map (fun c => c.annotate (some s))) := by
  rw [zBTreeNode.annotate, annotateList_eq_map]

theorem annotate_slot (p : zBTreeNode K V) (par : Option Nat) :
    (p.annotate par).slot = p.slot := by
  obtain ⟨s, ks, cs⟩ := p
  rw [annotate_mk]; rfl

theorem annotate_parent (p : zBTreeNode K V) (par : Option Nat) :
    (p.annotate par).parent = par := by
  obtain ⟨s, ks, cs⟩ := p
  rw [annotate_mk]; rfl

theorem annotate_Key (p : zBTreeNode K V) (par : Option Nat) :
    (p.annotate par).Key = p.Key := by
  obtain ⟨s, ks, cs⟩ := p
  rw [annotate_mk]; rfl

theorem annotate_KeyNum (p : zBTreeNode K V) (par : Option Nat) :
    (p.annotate par).KeyNum = p.KeyNum := by
  unfold zBTreeNodeP.KeyNum zBTreeNode.KeyNum
  rw [annotate_Key]

theorem annotate_pChild (p : zBTreeNode K V) (par : Option Nat) :
    (p.annotate par).pChild = p.pChild.map (fun c => c.annotate (some p.slot)) := by
  obtain ⟨s, ks, cs⟩ := p
  rw [annotate_mk]; rfl

theorem setParent_annotate (p : zBTreeNode K V) (par x : Option Nat) :
    (p.annotate par).setParent x = p.annotate x := by
  obtain ⟨s, ks, cs⟩ := p
  rw [annotate_mk, annotate_mk]; rfl

theorem map_setParent_annotate (cs : List (zBTreeNode K V)) (par x : Option Nat) :
    (cs.map (fun c => c.annotate par)).map (zBTreeNodeP.setParent x) =
      cs.map (fun c => c.annotate x) := by
  rw [List.map_map]
  apply List.map_congr_left
  intro c _
  exact setParent_annotate c par x

theorem annotate_depth (p : zBTreeNode K V) : ∀ par, (p.annotate par).depth = p.depth := by
  apply @zBTreeNode.rec K V
    (fun p => ∀ par, (p.annotate par).depth = p.depth)
    (fun cs => ∀ c ∈ cs, ∀ par, (zBTreeNode.annotate c par).depth = c.depth)
  · intro s ks cs ih par
    rw [annotate_mk]
    cases cs with
    | nil => rfl
    | cons c cs =>
      simp only [List.map_cons, zBTreeNodeP.depth, zBTreeNode.depth]
      rw [ih c (List.mem_cons_self _ _)]
  · intro c hc; simp at hc
  · intro c cs ihc ihcs c' hc'
    rcases List.mem_cons.1 hc' with rfl | hm
    · exact ihc
    · exact ihcs c' hm

theorem erase_annotate (p : zBTreeNode K V) : ∀ par, (p.annotate par).erase = p := by
  apply @zBTreeNode.rec K V
    (fun p => ∀ par, (p.annotate par).erase = p)
    (fun cs => ∀ par, (cs.map (fun c => zBTreeNode.annotate c par)).map zBTreeNodeP.erase = cs)
  · intro s ks cs ih par
    rw [annotate_mk, zBTreeNodeP.erase, eraseList_eq_map, ih]
  · intro par; rfl
  · intro c cs ihc ihcs par
    simp only [List.map_cons, ihc, ihcs]

theorem linkedTo_iff (s : Nat) (cs : List (zBTreeNodeP K V)) :
    zBTreeNodeP.LinkedTo s cs ↔ ∀ c ∈ cs, c.parent = some s ∧ c.Linked := by
  induction cs with
  | nil => simp [zBTreeNodeP.LinkedTo]
  | cons c cs ih =>
    rw [zBTreeNodeP.LinkedTo, ih]
    simp only [List.mem_cons, forall_eq_or_imp]
    tauto

theorem linked_iff (p : zBTreeNodeP K V) :
    p.Linked ↔ ∀ c ∈ p.pChild, c.parent = some p.slot ∧ c.Linked := by
  obtain ⟨s, par, ks, cs⟩ := p
  rw [zBTreeNodeP.Linked, linkedTo_iff]
  rfl

theorem linked_annotate (p : zBTreeNode K V) : ∀ par, (p.annotate par).Linked := by
  apply @zBTreeNode.rec K V
    (fun p => ∀ par, (p.annotate par).Linked)
    (fun cs => ∀ c ∈ cs, ∀ par, (zBTreeNode.annotate c par).Linked)
  · intro s ks cs ih par
    rw [linked_iff, annotate_pChild]
    intro c hc
    obtain ⟨c0, hc0, rfl⟩ := List.mem_map.1 hc
    exact ⟨by rw [annotate_parent, annotate_slot], ih c0 hc0 _⟩
  · intro c hc; simp at hc
  · intro c cs ihc ihcs c' hc'
    rcases List.mem_cons.1 hc' with rfl | hm
    · exact ihc
    · exact ihcs c' hm

/-- A linked node is the annotation of its erasure. -/
theorem annotate_erase (p : zBTreeNodeP K V) :
    p.Linked → p.erase.annotate p.parent = p := by
  apply @zBTreeNodeP.rec K V
    (fun p => p.Linked → p.erase.annotate p.parent = p)
    (fun cs => ∀ c ∈ cs, zBTreeNodeP.Linked c → c.erase.annotate c.parent = c)
  · intro s par ks cs ih hl
    rw [linked_iff] at hl
    rw [zBTreeNodeP.erase, eraseList_eq_map, annotate_mk, List.map_map]
    simp only [zBTreeNodeP.parent]
    congr 1
    conv_rhs => rw [← List.map_id cs]
    apply List.map_congr_left
    intro c hc
    have := hl c hc
    simp only [Function.comp, id]
    have h2 := ih c hc this.2
    rw [this.1] at h2
    exact h2
  · intro c hc; simp at hc
  · intro c cs ihc ihcs c' hc'
    rcases List.mem_cons.1 hc' with rfl | hm
    · exact ihc
    · exact ihcs c' hm

theorem map_insertChild (f : zBTreeNode K V → zBTreeNodeP K V) (cs : List (zBTreeNode K V))
    (i : Nat) (x : zBTreeNode K V) :
    zBTreeNodeP.insertChild (cs.map f) i (f x) = (zBTreeNode.insertChild cs i x).map f := by
  simp [zBTreeNodeP.insertChild, zBTreeNode.insertChild, List.map_take, List.map_drop]

theorem map_setChild (f : zBTreeNode K V → zBTreeNodeP K V) (cs : List (zBTreeNode K V))
    (i : Nat) (x : zBTreeNode K V) :
    zBTreeNodeP.setChild (cs.map f) i (f x) = (zBTreeNode.setChild cs i x).map f := by
  simp [zBTreeNodeP.setChild, zBTreeNode.setChild, List.map_take, List.map_drop]

theorem map_removeChild (f : zBTreeNode K V → zBTreeNodeP K V) (cs : List (zBTreeNode K V))
    (i : Nat) :
    zBTreeNodeP.removeChild (cs.map f) i = (zBTreeNode.removeChild cs i).map f := by
  simp [zBTreeNodeP.removeChild, zBTreeNode.removeChild, List.map_take, List.map_drop]

theorem splitLeft_annotate (c : zBTreeNode K V) (par : Option Nat) :
    (c.annotate par).splitLeft = c.splitLeft.annotate par := by
  obtain ⟨s, ks, cs⟩ := c
  simp only [zBTreeNodeP.splitLeft, zBTreeNode.splitLeft, annotate_mk, zBTreeNodeP.slot,
    zBTreeNodeP.parent, zBTreeNodeP.Key, zBTreeNodeP.pChild, zBTreeNode.slot, zBTreeNode.Key,
    zBTreeNode.pChild, List.map_take]

theorem splitRight_annotate (r : Nat) (c : zBTreeNode K V) (par x : Option Nat) :
    (c.annotate par).splitRight r x = (c.splitRight r).annotate x := by
  obtain ⟨s, ks, cs⟩ := c
  simp only [zBTreeNodeP.splitRight, zBTreeNode.splitRight, annotate_mk, zBTreeNodeP.Key,
    zBTreeNodeP.pChild, zBTreeNode.Key, zBTreeNode.pChild, ← List.map_take, ← List.map_drop,
    map_setParent_annotate]

section Ops

variable [LinearOrder K]

theorem sfiP_unfold (Hp : zMemHeap H) (fuel : Nat) (s : Nat) (par : Option Nat)
    (ks : List (DATA_NODE K V)) (cs : List (zBTreeNodeP K V)) (d : DATA_NODE K V) (hp : H) :
    zBTreeNodeP.searchForInsert Hp (fuel + 1) (.mk s par ks cs) d hp =
    match zBTreeNode.foundAt ks (zBTreeNode.searchKey d.key d.h ks) d.key d.h with
    | some e => (.found e, .mk s par ks cs, hp)
    | none =>
      match cs[zBTreeNode.searchKey d.key d.h ks]? with
      | none => (.inserted,
          .mk s par (zBTreeNode.insertKey ks (zBTreeNode.searchKey d.key d.h ks) d) cs, hp)
      | some c =>
        if KEY_MAX ≤ c.KeyNum then
          match Hp.LockAlloc hp with
          | (none, hp1) => (.memError, .mk s par ks cs, hp1)
          | (some r, hp1) =>
            match c.Key[KEY_MIN]? with
            | none => (.noFuel, .mk s par ks cs, hp1)
            | some med =>
              if med.h < d.h ∨ (d.h = med.h ∧ med.key < d.key) then
                match zBTreeNodeP.searchForInsert Hp fuel (c.splitRight r (some s)) d hp1 with
                | (st, cR, hp2) =>
                  (st, .mk s par
                    (zBTreeNode.insertKey ks (zBTreeNode.searchKey d.key d.h ks) med)
                    (zBTreeNodeP.insertChild
                      (zBTreeNodeP.setChild cs (zBTreeNode.searchKey d.key d.h ks) c.splitLeft)
                      (zBTreeNode.searchKey d.key d.h ks + 1) cR), hp2)
              else if d.h = med.h ∧ d.key = med.key then
                (.found med, .mk s par
                  (zBTreeNode.insertKey ks (zBTreeNode.searchKey d.key d.h ks) med)
                  (zBTreeNodeP.insertChild
                    (zBTreeNodeP.setChild cs (zBTreeNode.searchKey d.key d.h ks) c.splitLeft)
                    (zBTreeNode.searchKey d.key d.h ks + 1) (c.splitRight r (some s))), hp1)
              else
                match zBTreeNodeP.searchForInsert Hp fuel c.splitLeft d hp1 with
                | (st, cL, hp2) =>
                  (st, .mk s par
                    (zBTreeNode.insertKey ks (zBTreeNode.searchKey d.key d.h ks) med)
                    (zBTreeNodeP.insertChild
                      (zBTreeNodeP.setChild cs (zBTreeNode.searchKey d.key d.h ks) cL)
                      (zBTreeNode.searchKey d.key d.h ks + 1) (c.splitRight r (some s))),
                    hp2)
        else
          match zBTreeNodeP.searchForInsert Hp fuel c d hp with
          | (st, c1, hp1) =>
            (st, .mk s par ks
              (zBTreeNodeP.setChild cs (zBTreeNode.searchKey d.key d.h ks) c1), hp1) := by
  rw [zBTreeNodeP.searchForInsert]
  rfl

/-- The descent of `Insert` on a tree with its parent pointers in order: it is the descent of
the tree without them, and the parent pointers are in order again. -/
theorem sfi_annotate (Hp : zMemHeap H) (d : DATA_NODE K V) :
    ∀ (fuel : Nat) (p : zBTreeNode K V) (par : Option Nat) (hp : H),
      zBTreeNodeP.searchForInsert Hp fuel (p.annotate par) d hp =
        ((zBTreeNode.searchForInsert Hp fuel p d hp).1,
         (zBTreeNode.searchForInsert Hp fuel p d hp).2.1.annotate par,
         (zBTreeNode.searchForInsert Hp fuel p d hp).2.2) := by
  intro fuel
  induction fuel with
  | zero =>
    intro p par hp
    simp [zBTreeNodeP.searchForInsert, zBTreeNode.searchForInsert]
  | succ f ih =>
    intro p par hp
    obtain ⟨s, ks, cs⟩ := p
    rw [annotate_mk, sfiP_unfold, sfi_unfold]
    cases hf : zBTreeNode.foundAt ks (zBTreeNode.searchKey d.key d.h ks) d.key d.h with
    | some e => simp only [annotate_mk]
    | none =>
      simp only [List.getElem?_map]
      cases hc : cs[zBTreeNode.searchKey d.key d.h ks]? with
      | none => simp only [Option.map_none', annotate_mk]
      | some c =>
        simp only [Option.map_some', annotate_KeyNum, annotate_Key]
        by_cases hfull : KEY_MAX ≤ c.KeyNum
        · simp only [if_pos hfull]
          cases ha : Hp.LockAlloc hp with
          | mk o hp1 =>
            cases o with
            | none => simp only [annotate_mk]
            | some r =>
              simp only
              cases hm : c.Key[KEY_MIN]? with
              | none => simp only [annotate_mk]
              | some med =>
                simp only [splitLeft_annotate, splitRight_annotate]
                by_cases h1 : med.h < d.h ∨ (d.h = med.h ∧ med.key < d.key)
                · simp only [if_pos h1, ih, annotate_mk, map_setChild, map_insertChild]
                · simp only [if_neg h1]
                  by_cases h2 : d.h = med.h ∧ d.key = med.key
                  · simp only [if_pos h2, annotate_mk, map_setChild, map_insertChild]
                  · simp only [if_neg h2, ih, annotate_mk, map_setChild, map_insertChild]
        · simp only [if_neg hfull, ih, annotate_mk, map_setChild]

end Ops

end ParentPointers

section ParentPointers2

variable {K V H : Type} [LinearOrder K]

omit [LinearOrder K] in
theorem borrowLeft_annotate (p q lc : zBTreeNode K V) (n : Nat) (par : Option Nat) :
    zBTreeNodeP.borrowLeft (p.annotate par) n (q.annotate (some p.slot))
        (lc.annotate (some p.slot)) =
      (zBTreeNode.borrowLeft p n q lc).annotate par := by
  obtain ⟨s, ks, cs⟩ := p
  obtain ⟨qs, qks, qcs⟩ := q
  obtain ⟨ls, lks, lcs⟩ := lc
  unfold zBTreeNodeP.borrowLeft zBTreeNode.borrowLeft
  simp only [annotate_Key, annotate_KeyNum, annotate_slot, annotate_parent, annotate_pChild,
    zBTreeNode.slot, zBTreeNode.Key, zBTreeNode.pChild, zBTreeNode.KeyNum]
  cases h1 : ks[n - 1]? with
  | none => simp only [annotate_mk]
  | some sep =>
    cases h2 : lks[lks.length - 1]? with
    | none => simp only [annotate_mk]
    | some up =>
      cases qcs with
      | nil => simp only [annotate_mk, ← map_setChild, List.getElem?_map, List.map_take,
          List.map_nil]
      | cons c cs' =>
        cases h3 : lcs[lks.length]? with
        | none => simp only [annotate_mk, ← map_setChild, List.getElem?_map, List.map_take,
            List.map_cons, h3, Option.map_none']
        | some moved =>
          simp only [annotate_mk, ← map_setChild, List.getElem?_map, List.map_take,
            List.map_cons, h3, Option.map_some', setParent_annotate, ← map_insertChild]

omit [LinearOrder K] in
theorem borrowRight_annotate (p q rc : zBTreeNode K V) (n : Nat) (par : Option Nat) :
    zBTreeNodeP.borrowRight (p.annotate par) n (q.annotate (some p.slot))
        (rc.annotate (some p.slot)) =
      (zBTreeNode.borrowRight p n q rc).annotate par := by
  obtain ⟨s, ks, cs⟩ := p
  obtain ⟨qs, qks, qcs⟩ := q
  obtain ⟨rs, rks, rcs⟩ := rc
  unfold zBTreeNodeP.borrowRight zBTreeNode.borrowRight
  simp only [annotate_Key, annotate_KeyNum, annotate_slot, annotate_parent, annotate_pChild,
    zBTreeNode.slot, zBTreeNode.Key, zBTreeNode.pChild, zBTreeNode.KeyNum]
  cases h1 : ks[n]? with
  | none => simp only [annotate_mk]
  | some sep =>
    cases rks with
    | nil => simp only [annotate_mk]
    | cons up rest =>
      cases rcs with
      | nil => simp only [annotate_mk, ← map_setChild, ← map_removeChild, List.map_nil]
      | cons moved rcs' =>
        simp only [annotate_mk, ← map_setChild, ← map_removeChild, List.map_cons,
          List.map_append, List.map_nil, setParent_annotate]

omit [LinearOrder K] in
theorem mergeLeft_annotate (p q lc : zBTreeNode K V) (n : Nat) (par : Option Nat) :
    zBTreeNodeP.mergeLeft (p.annotate par) n (q.annotate (some p.slot))
        (lc.annotate (some p.slot)) =
      (zBTreeNode.mergeLeft p n q lc).annotate par := by
  obtain ⟨s, ks, cs⟩ := p
  obtain ⟨qs, qks, qcs⟩ := q
  obtain ⟨ls, lks, lcs⟩ := lc
  unfold zBTreeNodeP.mergeLeft zBTreeNode.mergeLeft
  simp only [annotate_Key, annotate_KeyNum, annotate_slot, annotate_parent, annotate_pChild,
    zBTreeNode.slot, zBTreeNode.Key, zBTreeNode.pChild, zBTreeNode.KeyNum]
  cases h1 : ks[n - 1]? with
  | none => simp only [annotate_mk]
  | some sep =>
    simp only [annotate_mk, ← map_setChild, ← map_removeChild, List.map_append,
      map_setParent_annotate]

omit [LinearOrder K] in
theorem mergeRight_annotate (p q rc : zBTreeNode K V) (n : Nat) (par : Option Nat) :
    zBTreeNodeP.mergeRight (p.annotate par) n (q.annotate (some p.slot))
        (rc.annotate (some p.slot)) =
      (zBTreeNode.mergeRight p n q rc).annotate par := by
  obtain ⟨s, ks, cs⟩ := p
  obtain ⟨qs, qks, qcs⟩ := q
  obtain ⟨rs, rks, rcs⟩ := rc
  unfold zBTreeNodeP.mergeRight zBTreeNode.mergeRight
  simp only [annotate_Key, annotate_KeyNum, annotate_slot, annotate_parent, annotate_pChild,
    zBTreeNode.slot, zBTreeNode.Key, zBTreeNode.pChild, zBTreeNode.KeyNum]
  cases h1 : ks[n]? with
  | none => simp only [annotate_mk]
  | some sep =>
    simp only [annotate_mk, ← map_setChild, ← map_removeChild, List.map_append,
      map_setParent_annotate]

omit [LinearOrder K] in
theorem solveUnderflow_annotate (Hp : zMemHeap H) (hp : H) (p : zBTreeNode K V) (n : Nat)
    (par : Option Nat) :
    zBTreeNodeP.solveUnderflow Hp hp (p.annotate par) n =
      ((zBTreeNode.solveUnderflow Hp hp p n).1.annotate par,
       (zBTreeNode.solveUnderflow Hp hp p n).2.1, (zBTreeNode.solveUnderflow Hp hp p n).2.2) := by
  unfold zBTreeNodeP.solveUnderflow zBTreeNode.solveUnderflow
  simp only [annotate_pChild, annotate_KeyNum, List.getElem?_map]
  cases hq : p.pChild[n]? with
  | none => rfl
  | some q =>
    simp only [Option.map_some', annotate_KeyNum, annotate_slot]
    by_cases hmin : KEY_MIN ≤ q.KeyNum
    · simp only [if_pos hmin]
    · simp only [if_neg hmin]
      cases hl : (if 0 < n then p.pChild[n - 1]? else none) with
      | none =>
        have hl' : (if 0 < n then
            Option.map (fun c => zBTreeNode.annotate c (some p.slot)) p.pChild[n - 1]?
            else none) = none := by
          split at hl
          · rw [if_pos (by assumption), hl]; rfl
          · rw [if_neg (by assumption)]
        rw [hl']
        cases hr : (if n < p.KeyNum then p.pChild[n + 1]? else none) with
        | none =>
          have hr' : (if n < p.KeyNum then
              Option.map (fun c => zBTreeNode.annotate c (some p.slot)) p.pChild[n + 1]?
              else none) = none := by
            split at hr
            · rw [if_pos (by assumption), hr]; rfl
            · rw [if_neg (by assumption)]
          rw [hr']
        | some rc =>
          have hr' : (if n < p.KeyNum then
              Option.map (fun c => zBTreeNode.annotate c (some p.slot)) p.pChild[n + 1]?
              else none) = some (rc.annotate (some p.slot)) := by
            split at hr
            · rw [if_pos (by assumption), hr]; rfl
            · exact absurd hr (by simp)
          rw [hr']
          simp only [annotate_KeyNum, annotate_slot, borrowRight_annotate,
            mergeRight_annotate]
          split <;> rfl
      | some lc =>
        have hl' : (if 0 < n then
            Option.map (fun c => zBTreeNode.annotate c (some p.slot)) p.pChild[n - 1]?
            else none) = some (lc.annotate (some p.slot)) := by
          split at hl
          · rw [if_pos (by assumption), hl]; rfl
          · exact absurd hl (by simp)
        rw [hl']
        cases hr : (if n < p.KeyNum then p.pChild[n + 1]? else none) with
        | none =>
          have hr' : (if n < p.KeyNum then
              Option.map (fun c => zBTreeNode.annotate c (some p.slot)) p.pChild[n + 1]?
              else none) = none := by
            split at hr
            · rw [if_pos (by assumption), hr]; rfl
            · rw [if_neg (by assumption)]
          rw [hr']
          simp only [annotate_KeyNum, annotate_slot, borrowLeft_annotate, mergeLeft_annotate]
          split <;> rfl
        | some rc =>
          have hr' : (if n < p.KeyNum then
              Option.map (fun c => zBTreeNode.annotate c (some p.slot)) p.pChild[n + 1]?
              else none) = some (rc.annotate (some p.slot)) := by
            split at hr
            · rw [if_pos (by assumption), hr]; rfl
            · exact absurd hr (by simp)
          rw [hr']
          simp only [annotate_KeyNum, annotate_slot, borrowLeft_annotate,
            borrowRight_annotate, mergeLeft_annotate]
          split
          · rfl
          · split <;> rfl

omit [LinearOrder K] in
theorem afterChild_annotate (Hp : zMemHeap H) (hp : H) (p : zBTreeNode K V) (n : Nat)
    (called : Bool) (par : Option Nat) :
    zBTreeNodeP.afterChild Hp hp (p.annotate par) n called =
      ((zBTreeNode.afterChild Hp hp p n called).1.annotate par,
       (zBTreeNode.afterChild Hp hp p n called).2.1,
       (zBTreeNode.afterChild Hp hp p n called).2.2) := by
  unfold zBTreeNodeP.afterChild zBTreeNode.afterChild
  cases called with
  | false => rfl
  | true => simp only [if_true, solveUnderflow_annotate]

end ParentPointers2

section ParentPointers3

variable {K V H : Type} [LinearOrder K]

omit [LinearOrder K] in
theorem removeMinAt_annotate (Hp : zMemHeap H) (hp : H) (par : Option Nat)
    (cs : List (zBTreeNode K V))
    (ih : ∀ c ∈ cs, zBTreeNodeP.removeMin Hp hp (c.annotate par) =
      (zBTreeNode.removeMin Hp hp c).map (annotateRemoved par)) :
    ∀ i, zBTreeNodeP.removeMinAt Hp hp (cs.map (fun c => c.annotate par)) i =
      (zBTreeNode.removeMinAt Hp hp cs i).map (annotateRemoved par) := by
  induction cs with
  | nil => intro i; simp [zBTreeNodeP.removeMinAt, zBTreeNode.removeMinAt]
  | cons c cs ihl =>
    intro i
    cases i with
    | zero =>
      simp only [List.map_cons, zBTreeNodeP.removeMinAt, zBTreeNode.removeMinAt]
      exact ih c (List.mem_cons_self _ _)
    | succ i =>
      simp only [List.map_cons, zBTreeNodeP.removeMinAt, zBTreeNode.removeMinAt]
      exact ihl (fun c' hc' => ih c' (List.mem_cons_of_mem _ hc')) i

omit [LinearOrder K] in
theorem removeMin_annotate (Hp : zMemHeap H) (hp : H) (p : zBTreeNode K V) :
    ∀ par, zBTreeNodeP.removeMin Hp hp (p.annotate par) =
      (zBTreeNode.removeMin Hp hp p).map (annotateRemoved par) := by
  apply @zBTreeNode.rec K V
    (fun p => ∀ par, zBTreeNodeP.removeMin Hp hp (p.annotate par) =
      (zBTreeNode.removeMin Hp hp p).map (annotateRemoved par))
    (fun cs => ∀ c ∈ cs, ∀ par, zBTreeNodeP.removeMin Hp hp (zBTreeNode.annotate c par) =
      (zBTreeNode.removeMin Hp hp c).map (annotateRemoved par))
  · intro s ks cs ih par
    rw [annotate_mk]
    cases cs with
    | nil =>
      cases ks with
      | nil => simp [zBTreeNodeP.removeMin, zBTreeNode.removeMin]
      | cons k rest =>
        simp [zBTreeNodeP.removeMin, zBTreeNode.removeMin, annotateRemoved, annotate_mk]
    | cons c cs =>
      simp only [List.map_cons, zBTreeNodeP.removeMin, zBTreeNode.removeMin]
      rw [ih c (List.mem_cons_self _ _)]
      cases hr : zBTreeNode.removeMin Hp hp c with
      | none => rfl
      | some x =>
        obtain ⟨k, c1, called, hp1⟩ := x
        simp only [Option.map_some', annotateRemoved]
        have h := afterChild_annotate Hp hp1 (.mk s ks (c1 :: cs)) 0 called par
        rw [annotate_mk, List.map_cons] at h
        rw [h]
  · intro c hc; simp at hc
  · intro c cs ihc ihcs c' hc'
    rcases List.mem_cons.1 hc' with rfl | hm
    · exact ihc
    · exact ihcs c' hm

theorem removeAt_annotate (Hp : zMemHeap H) (key : K) (h : Nat) (hp : H) (par : Option Nat)
    (cs : List (zBTreeNode K V))
    (ih : ∀ c ∈ cs, zBTreeNodeP.removeRec Hp key h hp (c.annotate par) =
      annotateRec par (zBTreeNode.removeRec Hp key h hp c)) :
    ∀ i, zBTreeNodeP.removeAt Hp key h hp (cs.map (fun c => c.annotate par)) i =
      (zBTreeNode.removeAt Hp key h hp cs i).map (annotateRemoved par) := by
  induction cs with
  | nil => intro i; simp [zBTreeNodeP.removeAt, zBTreeNode.removeAt]
  | cons c cs ihl =>
    intro i
    cases i with
    | zero =>
      simp only [List.map_cons, zBTreeNodeP.removeAt, zBTreeNode.removeAt]
      rw [ih c (List.mem_cons_self _ _)]
      cases hr : zBTreeNode.removeRec Hp key h hp c with
      | mk o rest =>
        obtain ⟨c1, called, hp1⟩ := rest
        cases o <;> simp [annotateRec, annotateRemoved]
    | succ i =>
      simp only [List.map_cons, zBTreeNodeP.removeAt, zBTreeNode.removeAt]
      exact ihl (fun c' hc' => ih c' (List.mem_cons_of_mem _ hc')) i

theorem removeRec_annotate (Hp : zMemHeap H) (key : K) (h : Nat) (hp : H)
    (p : zBTreeNode K V) :
    ∀ par, zBTreeNodeP.removeRec Hp key h hp (p.annotate par) =
      annotateRec par (zBTreeNode.removeRec Hp key h hp p) := by
  apply @zBTreeNode.rec K V
    (fun p => ∀ par, zBTreeNodeP.removeRec Hp key h hp (p.annotate par) =
      annotateRec par (zBTreeNode.removeRec Hp key h hp p))
    (fun cs => ∀ c ∈ cs, ∀ par,
      zBTreeNodeP.removeRec Hp key h hp (zBTreeNode.annotate c par) =
        annotateRec par (zBTreeNode.removeRec Hp key h hp c))
  · intro s ks cs ih par
    rw [annotate_mk]
    rw [zBTreeNodeP.removeRec, zBTreeNode.removeRec]
    simp only
    cases hf : zBTreeNode.foundAt ks (zBTreeNode.searchKey key h ks) key h with
    | some e =>
      simp only
      cases cs with
      | nil => simp [annotateRec, annotate_mk]
      | cons c cs' =>
        simp only [List.map_cons]
        have hmin := removeMinAt_annotate Hp hp (some s) (c :: cs')
          (fun c' hc' => removeMin_annotate Hp hp c' (some s)) (zBTreeNode.searchKey key h ks)
        rw [List.map_cons] at hmin
        rw [hmin]
        cases hr : zBTreeNode.removeMinAt Hp hp (c :: cs') (zBTreeNode.searchKey key h ks) with
        | none => simp [annotateRec, annotate_mk]
        | some x =>
          obtain ⟨succ, c1, called, hp1⟩ := x
          simp only [Option.map_some', annotateRemoved]
          have hset := map_setChild (fun c => zBTreeNode.annotate c (some s)) (c :: cs')
            (zBTreeNode.searchKey key h ks) c1
          rw [List.map_cons] at hset
          rw [hset]
          have ha := afterChild_annotate Hp hp1
            (.mk s (zBTreeNode.setKey ks (zBTreeNode.searchKey key h ks - 1) succ)
              (zBTreeNode.setChild (c :: cs') (zBTreeNode.searchKey key h ks) c1))
            (zBTreeNode.searchKey key h ks) called par
          rw [annotate_mk] at ha
          rw [ha]
          rfl
    | none =>
      simp only
      have hat := removeAt_annotate Hp key h hp (some s) cs
        (fun c hc => ih c hc (some s)) (zBTreeNode.searchKey key h ks)
      rw [hat]
      cases hr : zBTreeNode.removeAt Hp key h hp cs (zBTreeNode.searchKey key h ks) with
      | none => simp [annotateRec, annotate_mk]
      | some x =>
        obtain ⟨e, c1, called, hp1⟩ := x
        simp only [Option.map_some', annotateRemoved, map_setChild]
        have ha := afterChild_annotate Hp hp1
          (.mk s ks (zBTreeNode.setChild cs (zBTreeNode.searchKey key h ks) c1))
          (zBTreeNode.searchKey key h ks) called par
        rw [annotate_mk] at ha
        rw [ha]
        rfl
  · intro c hc; simp at hc
  · intro c cs ihc ihcs c' hc'
    rcases List.mem_cons.1 hc' with rfl | hm
    · exact ihc
    · exact ihcs c' hm

end ParentPointers3

section ParentPointers4

variable {K V H : Type} [LinearOrder K]

theorem insertFrom_annotate (Hp : zMemHeap H) (t : zBTree K V) (tP : zBTreeP K V)
    (hs : tP.Size = t.Size) (root : zBTreeNode K V) (d : DATA_NODE K V) (hp : H) :
    tP.insertFrom Hp (root.annotate none) d hp =
      ((t.insertFrom Hp root d hp).1, (t.insertFrom Hp root d hp).2.1.annotate,
       (t.insertFrom Hp root d hp).2.2) := by
  unfold zBTreeP.insertFrom zBTree.insertFrom
  rw [annotate_depth, sfi_annotate]
  cases hr : zBTreeNode.searchForInsert Hp root.depth root d hp with
  | mk st rest =>
    obtain ⟨r, hp1⟩ := rest
    cases st <;> simp [zBTree.annotate, hs]

theorem Insert_annotate (Hp : zMemHeap H) (t : zBTree K V) (d : DATA_NODE K V) (hp : H) :
    t.annotate.Insert Hp d hp =
      ((t.Insert Hp d hp).1, (t.Insert Hp d hp).2.1.annotate, (t.Insert Hp d hp).2.2) := by
  obtain ⟨sz, root⟩ := t
  cases root with
  | none =>
    simp only [zBTreeP.Insert, zBTree.Insert, zBTree.annotate, Option.map_none']
    cases ha : Hp.LockAlloc hp with
    | mk o hp1 =>
      cases o with
      | none => simp [zBTree.annotate]
      | some r => simp [zBTree.annotate, annotate_mk]
  | some root =>
    simp only [zBTreeP.Insert, zBTree.Insert, zBTree.annotate, Option.map_some',
      annotate_KeyNum, annotate_Key]
    by_cases hfull : root.KeyNum = KEY_MAX
    · simp only [if_pos hfull]
      cases ha : Hp.LockAlloc hp with
      | mk o hp1 =>
        cases o with
        | none => simp [zBTree.annotate]
        | some pNode =>
          simp only
          cases hb : Hp.LockAlloc hp1 with
          | mk o2 hp2 =>
            cases o2 with
            | none => simp [zBTree.annotate]
            | some pRight =>
              simp only
              cases hm : root.Key[KEY_MIN]? with
              | none => simp [zBTree.annotate]
              | some med =>
                simp only [splitLeft_annotate, splitRight_annotate, setParent_annotate]
                have hroot : (zBTreeNodeP.mk pNode none [med]
                    [root.splitLeft.annotate (some pNode),
                     (zBTreeNode.splitRight pRight root).annotate (some pNode)] :
                      zBTreeNodeP K V) =
                    (zBTreeNode.mk pNode [med]
                      [root.splitLeft, zBTreeNode.splitRight pRight root]).annotate none := by
                  rw [annotate_mk]; rfl
                rw [hroot]
                exact insertFrom_annotate Hp ⟨sz, some root⟩ _ rfl _ d hp2
    · simp only [if_neg hfull]
      exact insertFrom_annotate Hp ⟨sz, some root⟩ _ rfl _ d hp

theorem Remove_annotate (Hp : zMemHeap H) (t : zBTree K V) (key : K) (h : Nat) (hp : H) :
    t.annotate.Remove Hp key h hp =
      ((t.Remove Hp key h hp).1, (t.Remove Hp key h hp).2.1.annotate,
       (t.Remove Hp key h hp).2.2) := by
  obtain ⟨sz, root⟩ := t
  cases root with
  | none => simp [zBTreeP.Remove, zBTree.Remove, zBTree.annotate]
  | some root =>
    simp only [zBTreeP.Remove, zBTree.Remove, zBTree.annotate, Option.map_some',
      removeRec_annotate, annotateRec]
    cases hr : zBTreeNode.removeRec Hp key h hp root with
    | mk o rest =>
      obtain ⟨root1, called, hp1⟩ := rest
      cases o with
      | none => simp [zBTree.annotate]
      | some e =>
        simp only [annotate_pChild, annotate_KeyNum, annotate_slot]
        cases hc : root.pChild with
        | nil => simp [zBTree.annotate]
        | cons c0 cs0 =>
          cases hc1 : root1.pChild with
          | nil => simp [zBTree.annotate]
          | cons c cs =>
            simp only [List.map_cons, setParent_annotate]
            by_cases hcond : called = true ∧ root1.KeyNum = 0
            · simp [if_pos hcond, zBTree.annotate]
            · simp [if_neg hcond, zBTree.annotate]

theorem steps_annotate (Hp : zMemHeap H) (l : List (zBTree.Step K V)) :
    ∀ (t : zBTree K V) (hp : H),
      zBTreeP.steps Hp (t.annotate, hp) l =
        ((zBTree.steps Hp (t, hp) l).1.annotate, (zBTree.steps Hp (t, hp) l).2) := by
  induction l with
  | nil => intro t hp; rfl
  | cons c rest ih =>
    intro t hp
    unfold zBTreeP.steps zBTree.steps
    rw [List.foldl_cons, List.foldl_cons]
    have hstep : zBTreeP.step Hp (t.annotate, hp) c =
        ((zBTree.step Hp (t, hp) c).1.annotate, (zBTree.step Hp (t, hp) c).2) := by
      cases c with
      | insert d => simp only [zBTreeP.step, zBTree.step, Insert_annotate]
      | remove key h => simp only [zBTreeP.step, zBTree.step, Remove_annotate]
    rw [hstep]
    exact ih _ _

omit [LinearOrder K] in
theorem annotate_empty : (zBTree.empty : zBTree K V).annotate = zBTreeP.empty := rfl

omit [LinearOrder K] in
theorem erase_annotate_tree (t : zBTree K V) : t.annotate.erase = t := by
  obtain ⟨sz, root⟩ := t
  cases root with
  | none => rfl
  | some r => simp [zBTree.annotate, zBTreeP.erase, erase_annotate]

theorem invariant_annotate (t : zBTree K V) (hg : t.Good) : t.annotate.Invariant := by
  obtain ⟨sz, root⟩ := t
  constructor
  · cases root with
    | none => trivial
    | some r => exact ⟨annotate_parent r none, linked_annotate r none⟩
  · rcases hg with ⟨hr, hs⟩ | ⟨r, n, hr, hsh, ho, hsz⟩
    · left
      simp only at hr hs
      subst hr
      exact ⟨rfl, hs⟩
    · right
      simp only at hr hsz
      subst hr
      refine ⟨r.annotate none, n, rfl, ?_, ?_, ?_⟩
      · rw [erase_annotate]; exact hsh
      · rw [erase_annotate]; exact ho
      · rw [erase_annotate]; exact hsz

/-- Claim C24: every tree that `Insert` (with the slot filled) and `Remove` make of the empty
tree, for every behaviour of the node heap, satisfies the invariant: keys strictly increasing
in `(cached hash, key)`, at most 5 keys in every node and at least 2 in every node but the
root, `k + 1` children under `k` keys, all leaves on one level, `Count()` equal to the number
of keys, a null `parent` in the root and every other `parent` on the node that holds the
child.  Without its `parent` fields the tree is the tree the functions on `zBTreeNode` make of
the same calls. -/
theorem C24_reachable_invariant (Hp : zMemHeap H) (hp : H) (l : List (zBTree.Step K V)) :
    (zBTreeP.steps Hp (zBTreeP.empty, hp) l).1.Invariant ∧
    (zBTreeP.steps Hp (zBTreeP.empty, hp) l).1.erase = (zBTree.steps Hp (zBTree.empty, hp) l).1 ∧
    (zBTreeP.steps Hp (zBTreeP.empty, hp) l).2 = (zBTree.steps Hp (zBTree.empty, hp) l).2 := by
  rw [← annotate_empty, steps_annotate]
  exact ⟨invariant_annotate _ (steps_good Hp l _ empty_good), erase_annotate_tree _, rfl⟩

end ParentPointers4

set_option maxRecDepth 1000000 in
/-- The parent pointers after the split of a leaf root (slot 0) into the new root 1 over the
nodes 0 and 2, after the splits that fill the root and the split of the full root, and after
a removal that merges two leaves and takes the root away. -/
theorem parents_in_runs :
    (grownP 20 ((List.range 6).map (fun k => .insert (dnode k)))).links =
      [(1, none), (0, some 1), (2, some 1)] ∧
    (grownP 20 ((List.range 19).map (fun k => .insert (dnode k)))).links =
      [(7, none), (1, some 7), (0, some 1), (2, some 1), (3, some 1), (8, some 7),
        (4, some 8), (5, some 8), (6, some 8)] ∧
    (grownP 20 ((List.range 6).map (fun k => .insert (dnode k)) ++
      [.remove 5 5, .remove 2 2])).links = [(0, none)] := by
  decide!

/-! ## Bit counts, the hysteresis of the allocator, the locked operations and the reports -/

theorem and_split (k a b x y : Nat) (ha : a < 2 ^ k) (hb : b < 2 ^ k) :
    (a + 2 ^ k * x) &&& (b + 2 ^ k * y) = (a &&& b) + 2 ^ k * (x &&& y) := by
  have hab : a &&& b < 2 ^ k := Nat.and_lt_two_pow a hb
  apply Nat.eq_of_testBit_eq
  intro j
  rw [Nat.testBit_and, Nat.add_comm a, Nat.add_comm b, Nat.add_comm (a &&& b),
    Nat.testBit_mul_pow_two_add x ha, Nat.testBit_mul_pow_two_add y hb,
    Nat.testBit_mul_pow_two_add (x &&& y) hab]
  by_cases hj : j < k
  · simp [hj, Nat.testBit_and]
  · simp [hj, Nat.testBit_and]

theorem and_mod_left (k x m : Nat) (hm : m < 2 ^ k) : (x % 2 ^ k) &&& m = x &&& m := by
  apply Nat.eq_of_testBit_eq
  intro j
  rw [Nat.testBit_and, Nat.testBit_and, Nat.testBit_mod_two_pow]
  by_cases hj : j < k
  · simp [hj]
  · have : m.testBit j = false :=
      Nat.testBit_lt_two_pow (lt_of_lt_of_le hm (Nat.pow_le_pow_right (by norm_num) (by omega)))
    simp [this]

theorem and_mod_right (k x m : Nat) : x &&& (m % 2 ^ k) = (x &&& m) % 2 ^ k := by
  apply Nat.eq_of_testBit_eq
  intro j
  rw [Nat.testBit_and, Nat.testBit_mod_two_pow, Nat.testBit_mod_two_pow, Nat.testBit_and]
  by_cases hj : j < k <;> simp [hj]

theorem bitSum_zero (w : Nat) : bitSum w 0 = 0 := by
  induction w with
  | zero => rfl
  | succ w ih => simp [bitSum, ih]

theorem bitSum_le (w n : Nat) : bitSum w n ≤ w := by
  induction w generalizing n with
  | zero => simp [bitSum]
  | succ w ih =>
    have := ih (n / 2)
    have h2 : n % 2 < 2 := Nat.mod_lt _ (by norm_num)
    simp only [bitSum]; omega

theorem bitSum_add (a b n : Nat) :
    bitSum (a + b) n = bitSum a n + bitSum b (n / 2 ^ a) := by
  induction a generalizing n with
  | zero => simp [bitSum]
  | succ a ih =>
    rw [show a + 1 + b = (a + b) + 1 by omega]
    simp only [bitSum]
    rw [ih, Nat.div_div_eq_div_mul, pow_succ', Nat.add_assoc]

theorem bitSum_mod (a n : Nat) : bitSum a (n % 2 ^ a) = bitSum a n := by
  induction a generalizing n with
  | zero => simp [bitSum]
  | succ a ih =>
    simp only [bitSum]
    have h1 : n % 2 ^ (a + 1) % 2 = n % 2 := by
      rw [pow_succ']
      exact Nat.mod_mul_right_mod n 2 (2 ^ a)
    have h2 : n % 2 ^ (a + 1) / 2 = (n / 2) % 2 ^ a := by
      rw [pow_succ', Nat.mod_mul_right_div_self]
    rw [h1, h2, ih]

theorem bitSum_lt (w v n : Nat) (h : n < 2 ^ w) : bitSum (w + v) n = bitSum w n := by
  rw [bitSum_add, Nat.div_eq_of_lt h, bitSum_zero, Nat.add_zero]

theorem digitMap_add (P : Nat) (f g : Nat → Nat) (len n : Nat) :
    digitMap P f len n + digitMap P g len n = digitMap P (fun d => f d + g d) len n := by
  induction len generalizing n with
  | zero => rfl
  | succ len ih =>
    simp only [digitMap]
    rw [← ih]
    ring

theorem digitMap_congr (P : Nat) (f g : Nat → Nat) (h : ∀ d, d < 2 ^ P → f d = g d)
    (len n : Nat) : digitMap P f len n = digitMap P g len n := by
  induction len generalizing n with
  | zero => rfl
  | succ len ih =>
    simp only [digitMap]
    rw [ih, h _ (Nat.mod_lt _ (by positivity))]

theorem digitSum_congr (P : Nat) (f g : Nat → Nat) (h : ∀ d, d < 2 ^ P → f d = g d)
    (len n : Nat) : digitSum P f len n = digitSum P g len n := by
  induction len generalizing n with
  | zero => rfl
  | succ len ih =>
    simp only [digitSum]
    rw [ih, h _ (Nat.mod_lt _ (by positivity))]

theorem digitMap_id (P len n : Nat) (h : n < 2 ^ (P * len)) :
    digitMap P (fun d => d) len n = n := by
  induction len generalizing n with
  | zero =>
    simp at h
    simp [digitMap, h]
  | succ len ih =>
    simp only [digitMap]
    have h1 : n / 2 ^ P < 2 ^ (P * len) := by
      rw [Nat.div_lt_iff_lt_mul (by positivity), ← pow_add]
      rwa [show P * len + P = P * (len + 1) by ring]
    rw [ih _ h1]
    exact Nat.mod_add_div n (2 ^ P)

theorem digitMap_le (P : Nat) (f : Nat → Nat) (h : ∀ d, d < 2 ^ P → f d ≤ d) (len n : Nat) :
    digitMap P f len n ≤ n := by
  induction len generalizing n with
  | zero => simp [digitMap]
  | succ len ih =>
    simp only [digitMap]
    have h1 := ih (n / 2 ^ P)
    have h2 := h _ (Nat.mod_lt n (show 0 < 2 ^ P by positivity))
    have h3 := Nat.mod_add_div n (2 ^ P)
    have h4 := Nat.mul_le_mul_left (2 ^ P) h1
    omega

theorem digitMap_mod (P : Nat) (f : Nat → Nat) (len n : Nat) :
    digitMap P f len n % (2 ^ P - 1) = digitSum P f len n % (2 ^ P - 1) := by
  induction len generalizing n with
  | zero => rfl
  | succ len ih =>
    simp only [digitMap, digitSum]
    have hB : 2 ^ P % (2 ^ P - 1) = 1 % (2 ^ P - 1) := by
      have : 1 ≤ 2 ^ P := Nat.one_le_two_pow
      conv_lhs => rw [show 2 ^ P = (2 ^ P - 1) + 1 by omega]
      simp
    rw [Nat.add_mod, Nat.mul_mod, hB, ih, ← Nat.mul_mod, Nat.one_mul, ← Nat.add_mod]

theorem digitSum_bitSum (P len n : Nat) :
    digitSum P (bitSum P) len n = bitSum (P * len) n := by
  induction len generalizing n with
  | zero => simp [digitSum, bitSum]
  | succ len ih =>
    simp only [digitSum]
    rw [show P * (len + 1) = P + P * len by ring, bitSum_add, ih, bitSum_mod]

/-- Shifting right by j and masking every digit with m acts on each digit alone when the
mask leaves the top j bits of every digit out. -/
theorem shift_and (P j m : Nat) (hj : j ≤ P) (hm : m < 2 ^ (P - j)) (len n : Nat) :
    (n >>> j) &&& maskOf P m len = digitMap P (fun d => (d >>> j) &&& m) len n := by
  induction len generalizing n with
  | zero => simp [maskOf, digitMap]
  | succ len ih =>
    simp only [maskOf, digitMap]
    have hP : (2:Nat) ^ P = 2 ^ j * 2 ^ (P - j) := by rw [← pow_add]; congr 1; omega
    have hq : (2:Nat) ^ (P - j) ≤ 2 ^ P := Nat.pow_le_pow_right (by norm_num) (by omega)
    have hd : n % 2 ^ P < 2 ^ P := Nat.mod_lt _ (by positivity)
    have hdj : (n % 2 ^ P) >>> j < 2 ^ (P - j) := by
      rw [Nat.shiftRight_eq_div_pow, Nat.div_lt_iff_lt_mul (by positivity), Nat.mul_comm, ← hP]
      exact hd
    have hx : n / 2 ^ P % 2 ^ j < 2 ^ j := Nat.mod_lt _ (by positivity)
    have hsh : n >>> j = ((n % 2 ^ P) >>> j + 2 ^ (P - j) * (n / 2 ^ P % 2 ^ j))
        + 2 ^ P * ((n / 2 ^ P) >>> j) := by
      simp only [Nat.shiftRight_eq_div_pow]
      conv_lhs => rw [← Nat.mod_add_div n (2 ^ P)]
      rw [hP, Nat.mul_assoc, Nat.add_mul_div_left _ _ (show 0 < 2 ^ j by positivity)]
      rw [← hP]
      have := Nat.mod_add_div (n / 2 ^ P) (2 ^ j)
      calc n % 2 ^ P / 2 ^ j + 2 ^ (P - j) * (n / 2 ^ P)
          = n % 2 ^ P / 2 ^ j + 2 ^ (P - j) * (n / 2 ^ P % 2 ^ j + 2 ^ j * (n / 2 ^ P / 2 ^ j)) := by
            rw [this]
        _ = _ := by rw [hP]; ring
    have hlow : (n % 2 ^ P) >>> j + 2 ^ (P - j) * (n / 2 ^ P % 2 ^ j) < 2 ^ P := by
      have : 2 ^ (P - j) * (n / 2 ^ P % 2 ^ j) ≤ 2 ^ (P - j) * (2 ^ j - 1) :=
        Nat.mul_le_mul_left _ (by omega)
      have h1 : 2 ^ (P - j) * (2 ^ j - 1) + 2 ^ (P - j) = 2 ^ P := by
        rw [hP, Nat.mul_comm (2 ^ j)]
        have : 1 ≤ 2 ^ j := Nat.one_le_two_pow
        rw [← Nat.mul_succ]; congr 1; omega
      omega
    rw [hsh, and_split P _ _ _ _ hlow (lt_of_lt_of_le hm hq), ih]
    congr 1
    have := and_split (P - j) ((n % 2 ^ P) >>> j) m (n / 2 ^ P % 2 ^ j) 0 hdj hm
    simpa using this

theorem digitMap_mod8 (P : Nat) (hP : 3 ≤ P) (s : Nat → Nat) (len n : Nat)
    (hs : ∀ d, d < 2 ^ P → s d % 8 ≤ 3) : digitMap P s len n % 8 ≤ 3 := by
  cases len with
  | zero => simp [digitMap]
  | succ len =>
    simp only [digitMap]
    have h8 : (2:Nat) ^ P = 8 * 2 ^ (P - 3) := by
      rw [show (8:Nat) = 2 ^ 3 by norm_num, ← pow_add]; congr 1; omega
    rw [h8, Nat.mul_assoc, Nat.add_mul_mod_self_left, ← h8]
    exact hs _ (Nat.mod_lt _ (by positivity))

/-- Adding a number to itself shifted by three bits and masking the low three bits of
every digit acts on each digit alone when no digit overflows. -/
theorem fold_and (P : Nat) (hP : 6 ≤ P) (s : Nat → Nat)
    (hs : ∀ d, d < 2 ^ P → s d % 8 ≤ 3 ∧ s d + s d / 8 + 2 ^ (P - 3) * 3 < 2 ^ P)
    (len n : Nat) :
    (digitMap P s len n + (digitMap P s len n) >>> 3) &&& maskOf P 7 len
      = digitMap P (fun d => (s d + s d / 8) % 8) len n := by
  induction len generalizing n with
  | zero => simp [maskOf, digitMap]
  | succ len ih =>
    simp only [maskOf, digitMap]
    have h8 : (2:Nat) ^ P = 8 * 2 ^ (P - 3) := by
      rw [show (8:Nat) = 2 ^ 3 by norm_num, ← pow_add]; congr 1; omega
    have h88 : (2:Nat) ^ (P - 3) = 8 * 2 ^ (P - 6) := by
      rw [show (8:Nat) = 2 ^ 3 by norm_num, ← pow_add]; congr 1; omega
    have hd : n % 2 ^ P < 2 ^ P := Nat.mod_lt _ (by positivity)
    obtain ⟨-, hb⟩ := hs _ hd
    have hY := digitMap_mod8 P (by omega) s len (n / 2 ^ P) (fun d hd => (hs d hd).1)
    have ih1 := ih (n / 2 ^ P)
    generalize digitMap P s len (n / 2 ^ P) = Y at hY ih1
    generalize s (n % 2 ^ P) = sd at hb
    have h7 : (7:Nat) < 2 ^ P := by
      have : (2:Nat) ^ 6 ≤ 2 ^ P := Nat.pow_le_pow_right (by norm_num) hP
      norm_num at this; omega
    have hsh : (sd + 2 ^ P * Y) >>> 3 = sd / 8 + 2 ^ (P - 3) * Y := by
      rw [Nat.shiftRight_eq_div_pow, show (2:Nat) ^ 3 = 8 by norm_num, h8, Nat.mul_assoc,
        Nat.add_mul_div_left _ _ (by norm_num : 0 < 8)]
    have hsplit : sd + 2 ^ P * Y + (sd + 2 ^ P * Y) >>> 3
        = (sd + sd / 8 + 2 ^ (P - 3) * (Y % 8)) + 2 ^ P * (Y + Y >>> 3) := by
      rw [hsh, Nat.shiftRight_eq_div_pow, show (2:Nat) ^ 3 = 8 by norm_num]
      have := Nat.mod_add_div Y 8
      calc sd + 2 ^ P * Y + (sd / 8 + 2 ^ (P - 3) * Y)
          = sd + 2 ^ P * Y + (sd / 8 + 2 ^ (P - 3) * (Y % 8 + 8 * (Y / 8))) := by rw [this]
        _ = _ := by rw [h8]; ring
    have hlow : sd + sd / 8 + 2 ^ (P - 3) * (Y % 8) < 2 ^ P := by
      have : 2 ^ (P - 3) * (Y % 8) ≤ 2 ^ (P - 3) * 3 := Nat.mul_le_mul_left _ hY
      omega
    rw [hsplit, and_split P _ _ _ _ hlow h7, ih1]
    congr 1
    rw [show (7:Nat) = 2 ^ 3 - 1 by norm_num, Nat.and_pow_two_sub_one_eq_mod,
      show (2:Nat) ^ 3 = 8 by norm_num, h88, Nat.mul_assoc, Nat.add_mul_mod_self_left]

theorem count_step1 (P len w m1 m2 m3 : Nat) (hP : 3 ≤ P) (hw : w ≤ P * len)
    (hm1 : m1 < 2 ^ (P - 1)) (hm2 : m2 < 2 ^ (P - 2)) (hm3 : m3 < 2 ^ (P - 3))
    (hdig : ∀ d, d < 2 ^ P →
      ((d >>> 1) &&& m1) + ((d >>> 2) &&& m2) + ((d >>> 3) &&& m3) ≤ d)
    (n : Nat) (hn : n < 2 ^ w) :
    ((n >>> 1) &&& (maskOf P m1 len % 2 ^ w)) + ((n >>> 2) &&& (maskOf P m2 len % 2 ^ w))
      + ((n >>> 3) &&& (maskOf P m3 len % 2 ^ w)) + digitMap P (countDigit m1 m2 m3) len n
      = n := by
  have hsr : ∀ j, n >>> j < 2 ^ w := fun j =>
    lt_of_le_of_lt (by rw [Nat.shiftRight_eq_div_pow]; exact Nat.div_le_self _ _) hn
  have hA : ∀ j m, j ≤ P → m < 2 ^ (P - j) →
      (n >>> j) &&& (maskOf P m len % 2 ^ w)
        = digitMap P (fun d => (d >>> j) &&& m) len n := by
    intro j m hj hm
    rw [and_mod_right, shift_and P j m hj hm]
    rw [← shift_and P j m hj hm]
    exact Nat.mod_eq_of_lt (lt_of_le_of_lt Nat.and_le_left (hsr j))
  rw [hA 1 m1 (by omega) hm1, hA 2 m2 (by omega) hm2, hA 3 m3 (by omega) hm3,
    digitMap_add, digitMap_add, digitMap_add]
  rw [digitMap_congr P _ (fun d => d) _ len n]
  · exact digitMap_id P len n (lt_of_lt_of_le hn (Nat.pow_le_pow_right (by norm_num) hw))
  · intro d hd
    have := hdig d hd
    simp only [countDigit]
    omega

theorem count_step2 (P len w m1 m2 m3 : Nat) (hP : 6 ≤ P) (hw : w ≤ P * len)
    (hw2 : w < 2 ^ P - 1)
    (hdig : ∀ d, d < 2 ^ P →
      ((d >>> 1) &&& m1) + ((d >>> 2) &&& m2) + ((d >>> 3) &&& m3) ≤ d
      ∧ countDigit m1 m2 m3 d % 8 ≤ 3
      ∧ countDigit m1 m2 m3 d + countDigit m1 m2 m3 d / 8 + 2 ^ (P - 3) * 3 < 2 ^ P
      ∧ (countDigit m1 m2 m3 d + countDigit m1 m2 m3 d / 8) % 8 = bitSum P d)
    (n : Nat) (hn : n < 2 ^ w) (tmp : Nat)
    (htmp : tmp = digitMap P (countDigit m1 m2 m3) len n) :
    ((tmp + tmp >>> 3) &&& maskOf P 7 len) % 2 ^ w % (2 ^ P - 1) = bitSum w n := by
  subst htmp
  rw [fold_and P hP _ (fun d hd => ⟨(hdig d hd).2.1, (hdig d hd).2.2.1⟩),
    digitMap_congr P _ (bitSum P) (fun d hd => (hdig d hd).2.2.2)]
  have hle : digitMap P (bitSum P) len n ≤ n := by
    apply digitMap_le
    intro d hd
    have h := hdig d hd
    rw [← h.2.2.2]
    have h1 : (countDigit m1 m2 m3 d + countDigit m1 m2 m3 d / 8) % 8
        ≤ countDigit m1 m2 m3 d + countDigit m1 m2 m3 d / 8 := Nat.mod_le _ _
    have h2 : countDigit m1 m2 m3 d ≤ d := by simp only [countDigit]; omega
    have h3 := h.2.1
    by_cases h0 : countDigit m1 m2 m3 d < 8
    · rw [Nat.div_eq_of_lt h0, Nat.add_zero]
      exact le_trans (Nat.mod_le _ _) h2
    · have h7 : (countDigit m1 m2 m3 d + countDigit m1 m2 m3 d / 8) % 8 < 8 :=
        Nat.mod_lt _ (by norm_num)
      omega
  rw [Nat.mod_eq_of_lt (lt_of_le_of_lt hle hn), digitMap_mod, digitSum_bitSum]
  have hb : bitSum (P * len) n = bitSum w n := by
    rw [show P * len = w + (P * len - w) by omega]
    exact bitSum_lt _ _ _ hn
  rw [hb]
  exact Nat.mod_eq_of_lt (lt_of_le_of_lt (bitSum_le w n) hw2)

theorem digits7 : ∀ d, d < 2 ^ 7 →
    ((d >>> 1) &&& 59) + ((d >>> 2) &&& 25) + ((d >>> 3) &&& 8) ≤ d
    ∧ countDigit 59 25 8 d % 8 ≤ 3
    ∧ countDigit 59 25 8 d + countDigit 59 25 8 d / 8 + 2 ^ (7 - 3) * 3 < 2 ^ 7
    ∧ (countDigit 59 25 8 d + countDigit 59 25 8 d / 8) % 8 = bitSum 7 d := by
  decide

theorem digits6 : ∀ d, d < 2 ^ 6 →
    ((d >>> 1) &&& 27) + ((d >>> 2) &&& 9) + ((d >>> 3) &&& 0) ≤ d
    ∧ countDigit 27 9 0 d % 8 ≤ 3
    ∧ countDigit 27 9 0 d + countDigit 27 9 0 d / 8 + 2 ^ (6 - 3) * 3 < 2 ^ 6
    ∧ (countDigit 27 9 0 d + countDigit 27 9 0 d / 8) % 8 = bitSum 6 d := by
  decide

theorem zBitCount_spec (n : Nat) (hn : n < 2 ^ 64) : zBitCount n = bitSum 64 n := by
  have h1 := count_step1 7 10 64 59 25 8 (by norm_num) (by norm_num) (by norm_num)
    (by norm_num) (by norm_num) (fun d hd => (digits7 d hd).1) n hn
  have e1 : maskOf 7 59 10 % 2 ^ 64 = 0xBB76EDDBB76EDDBB := by decide
  have e2 : maskOf 7 25 10 % 2 ^ 64 = 0x993264C993264C99 := by decide
  have e3 : maskOf 7 8 10 % 2 ^ 64 = 0x810204081020408 := by decide
  have e7 : maskOf 7 7 10 % 2 ^ 64 = 0x870E1C3870E1C387 := by decide
  rw [e1, e2, e3] at h1
  have hlt : digitMap 7 (countDigit 59 25 8) 10 n < 2 ^ 64 := by omega
  have h2 := count_step2 7 10 64 59 25 8 (by norm_num) (by norm_num) (by norm_num)
    digits7 n hn _ rfl
  rw [← and_mod_right, e7] at h2
  unfold zBitCount
  have p64 : (2:Nat) ^ 64 = 18446744073709551616 := by norm_num
  have htmp : (n + 3 * 2 ^ 64 - ((n >>> 1) &&& 0xBB76EDDBB76EDDBB)
      - ((n >>> 2) &&& 0x993264C993264C99) - ((n >>> 3) &&& 0x810204081020408)) % 2 ^ 64
      = digitMap 7 (countDigit 59 25 8) 10 n := by
    rw [p64] at hlt hn ⊢
    omega
  simp only [htmp]
  rw [and_mod_left 64 _ _ (by norm_num)]
  exact h2

theorem zBitCount32_spec (n : Nat) (hn : n < 2 ^ 32) : zBitCount32 n = bitSum 32 n := by
  have h1 := count_step1 6 6 32 27 9 0 (by norm_num) (by norm_num) (by norm_num)
    (by norm_num) (by norm_num) (fun d hd => (digits6 d hd).1) n hn
  have e1 : maskOf 6 27 6 % 2 ^ 32 = 0o33333333333 := by decide
  have e2 : maskOf 6 9 6 % 2 ^ 32 = 0o11111111111 := by decide
  have e3 : maskOf 6 0 6 % 2 ^ 32 = 0 := by decide
  have e7 : maskOf 6 7 6 % 2 ^ 32 = 0o30707070707 := by decide
  rw [e1, e2, e3, Nat.and_zero, Nat.add_zero] at h1
  have hlt : digitMap 6 (countDigit 27 9 0) 6 n < 2 ^ 32 := by omega
  have h2 := count_step2 6 6 32 27 9 0 (by norm_num) (by norm_num) (by norm_num)
    digits6 n hn _ rfl
  rw [← and_mod_right, e7] at h2
  unfold zBitCount32
  have p32 : (2:Nat) ^ 32 = 4294967296 := by norm_num
  have htmp : (n + 2 * 2 ^ 32 - ((n >>> 1) &&& 0o33333333333)
      - ((n >>> 2) &&& 0o11111111111)) % 2 ^ 32
      = digitMap 6 (countDigit 27 9 0) 6 n := by
    rw [p32] at hlt hn ⊢
    omega
  simp only [htmp]
  rw [and_mod_left 32 _ _ (by norm_num)]
  exact h2

theorem zBitCount16_spec (n : Nat) (hn : n < 2 ^ 16) : zBitCount16 n = bitSum 16 n := by
  have h1 := count_step1 6 3 16 27 9 0 (by norm_num) (by norm_num) (by norm_num)
    (by norm_num) (by norm_num) (fun d hd => (digits6 d hd).1) n hn
  have e1 : maskOf 6 27 3 % 2 ^ 16 = 0o133333 := by decide
  have e2 : maskOf 6 9 3 % 2 ^ 16 = 0o111111 := by decide
  have e3 : maskOf 6 0 3 % 2 ^ 16 = 0 := by decide
  have e7 : maskOf 6 7 3 % 2 ^ 16 = 0o70707 := by decide
  rw [e1, e2, e3, Nat.and_zero, Nat.add_zero] at h1
  have hlt : digitMap 6 (countDigit 27 9 0) 3 n < 2 ^ 16 := by omega
  have h2 := count_step2 6 3 16 27 9 0 (by norm_num) (by norm_num) (by norm_num)
    digits6 n hn _ rfl
  rw [← and_mod_right, e7] at h2
  unfold zBitCount16
  have p16 : (2:Nat) ^ 16 = 65536 := by norm_num
  have htmp : (n + 2 * 2 ^ 16 - ((n >>> 1) &&& 0o133333)
      - ((n >>> 2) &&& 0o111111)) % 2 ^ 16
      = digitMap 6 (countDigit 27 9 0) 3 n := by
    rw [p16] at hlt hn ⊢
    omega
  simp only [htmp]
  rw [Nat.mod_eq_of_lt (lt_of_le_of_lt Nat.and_le_right (by norm_num))]
  exact h2

set_option maxRecDepth 100000 in
theorem zBitCount8_spec : ∀ n, n < 2 ^ 8 → zBitCount8 n = bitSum 8 n := by
  decide

/-- C35: for every unsigned integer n of 1, 2, 4 or 8 bytes, zBitCount returns the number of
1 bits of the binary representation of n. -/
theorem C35_zBitCount_counts_ones (size n : Nat)
    (hsize : size = 1 ∨ size = 2 ∨ size = 4 ∨ size = 8) (hn : n < 2 ^ (8 * size)) :
    zBitCountOf size n = bitSum (8 * size) n := by
  rcases hsize with h | h | h | h <;> subst h
  · exact zBitCount8_spec n hn
  · exact zBitCount16_spec n hn
  · exact zBitCount32_spec n hn
  · exact zBitCount_spec n hn

/-- C35 at the 64-bit pattern 0xF0F0F0F0F0F0F0F1, which has 33 bits set. -/
theorem C35_zBitCount_counts_ones_witness :
    (8 = 1 ∨ 8 = 2 ∨ 8 = 4 ∨ 8 = 8) ∧ 0xF0F0F0F0F0F0F0F1 < 2 ^ (8 * 8)
      ∧ zBitCountOf 8 0xF0F0F0F0F0F0F0F1 = 33 :=
  ⟨by decide, by decide,
    (C35_zBitCount_counts_ones 8 0xF0F0F0F0F0F0F0F1 (by decide) (by decide)).trans (by decide)⟩

theorem bitSum_mono (n x y : Nat)
    (h : ∀ b, b < n → x.testBit b = true → y.testBit b = true) : bitSum n x ≤ bitSum n y := by
  induction n generalizing x y with
  | zero => simp [bitSum]
  | succ n ih =>
    simp only [bitSum]
    have h0 := h 0 (by omega)
    rw [Nat.testBit_zero, Nat.testBit_zero] at h0
    simp only [decide_eq_true_eq] at h0
    have hr := ih (x / 2) (y / 2) (fun b hb hx => by
      rw [← Nat.testBit_succ] at hx ⊢
      exact h (b + 1) (by omega) hx)
    have := Nat.mod_two_eq_zero_or_one x
    omega

theorem bitSum_one_more (n j x y : Nat)
    (h : ∀ b, b < n → b ≠ j → x.testBit b = true → y.testBit b = true) :
    bitSum n x ≤ bitSum n y + 1 := by
  induction n generalizing x y j with
  | zero => simp [bitSum]
  | succ n ih =>
    simp only [bitSum]
    have hx2 := Nat.mod_two_eq_zero_or_one x
    cases j with
    | zero =>
      have hr := bitSum_mono n (x / 2) (y / 2) (fun b hb hx => by
        rw [← Nat.testBit_succ] at hx ⊢
        exact h (b + 1) (by omega) (by omega) hx)
      omega
    | succ j =>
      have h0 := h 0 (by omega) (by omega)
      rw [Nat.testBit_zero, Nat.testBit_zero] at h0
      simp only [decide_eq_true_eq] at h0
      have hr := ih j (x / 2) (y / 2) (fun b hb hbj hx => by
        rw [← Nat.testBit_succ] at hx ⊢
        exact h (b + 1) (by omega) (by omega) hx)
      omega

theorem bitSum_no_bits (n x : Nat) (h : ∀ b, b < n → x.testBit b = false) : bitSum n x = 0 := by
  have := bitSum_mono n x 0 (fun b hb hx => by rw [h b hb] at hx; exact absurd hx (by simp))
  rw [bitSum_zero] at this
  omega

theorem bitSum_pos_bit (n x : Nat) (h : 0 < bitSum n x) : ∃ b, b < n ∧ x.testBit b = true := by
  by_contra hc
  push_neg at hc
  have := bitSum_no_bits n x (fun b hb => by
    cases hx : x.testBit b with
    | false => rfl
    | true => exact absurd hx (hc b hb))
  omega

namespace z__AT

theorem hyst_of_tight {a : z__AT} (ht : a.Tight) : a.Hyst := by
  intro i k hw
  rcases hw with ⟨-, b, hb, hbit⟩ | ⟨-, w, hw, hc⟩
  · exact ht i k b hb hbit
  · obtain ⟨b, hb, hbit⟩ := bitSum_pos_bit 32 w (by unfold FREE_THRESH_HOLD at hc; omega)
    exact ht i k b hb (by rw [bit_of_word hw]; exact hbit)

theorem hyst_of_but {a : z__AT} {U : Nat} (h : a.HystBut 0 U) : a.Hyst :=
  fun i k hw => h i k (by omega) hw

theorem AllocLoop_hyst : ∀ (fuel : Nat) (a : z__AT) (i k : Nat) (r : Option Nat) (a1 : z__AT),
    i < a.MaxLayer → AllocLoop fuel a i k = .ok (r, a1) → a.Hyst → a1.Hyst := by
  intro fuel
  induction fuel with
  | zero => intro a i k r a1 _ h; simp [AllocLoop] at h
  | succ fuel ih =>
    intro a i k r a1 hi h hy
    rw [AllocLoop] at h
    cases hwk : a.word i k with
    | none => rw [hwk] at h; simp at h
    | some w =>
      rw [hwk] at h
      simp only at h
      cases hz : zBSF w with
      | none =>
        rw [hz] at h
        simp only at h
        cases i with
        | zero =>
          simp only [if_true, Except.ok.injEq, Prod.mk.injEq] at h
          rw [← h.2]; exact hy
        | succ i =>
          simp only [Nat.add_one_ne_zero, if_false, Nat.add_sub_cancel, shr5, and31] at h
          cases hp : a.word i (k / 32) with
          | none => rw [hp] at h; simp at h
          | some p =>
            rw [hp] at h
            simp only at h
            have hlt : k % 32 < 32 := Nat.mod_lt _ (by norm_num)
            refine ih _ i (k / 32) r a1 (by rw [store_MaxLayer]; omega) h ?_
            intro i' k' hw
            have hzb : ∀ b, b < 32 → w.testBit b = false := zBSF_none hz
            have hw' : a.Wants i' k' := by
              rcases hw with ⟨h1, b, hb, hbit⟩ | ⟨h1, w', hw', hc⟩
              · rw [store_MaxLayer] at h1
                rw [bit_reset a i (k / 32) p (k % 32) _ _ _ hp hlt hb] at hbit
                simp only [Bool.and_eq_true] at hbit
                exact Or.inl ⟨h1, b, hb, hbit.1⟩
              · rw [store_MaxLayer] at h1
                rw [word_store] at hw'
                rw [if_neg (by intro hc'; omega)] at hw'
                exact Or.inr ⟨h1, w', hw', hc⟩
            have hb := hy i' k' hw'
            rw [bit_reset a i (k / 32) p (k % 32) _ _ _ hp hlt (Nat.mod_lt _ (by norm_num)), hb]
            simp only [Bool.true_and, Bool.not_eq_true', Bool.and_eq_false_imp, Bool.and_eq_true,
              decide_eq_true_eq, decide_eq_false_iff_not, and_imp]
            intro e1 e2 e3
            subst e1
            have hk : k' = k := by
              have := Nat.div_add_mod k' 32
              have := Nat.div_add_mod k 32
              omega
            subst hk
            rcases hw' with ⟨-, b, hb1, hbit⟩ | ⟨-, w', hw1, hc⟩
            · rw [bit_of_word hwk, hzb b hb1] at hbit
              simp at hbit
            · rw [hwk] at hw1
              simp only [Option.some.injEq] at hw1
              subst hw1
              rw [bitSum_no_bits 32 w hzb] at hc
              unfold FREE_THRESH_HOLD at hc
              omega
      | some index =>
        rw [hz] at h
        simp only [shl5] at h
        obtain ⟨hix, hit⟩ := zBSF_some hz
        by_cases hl : i = a.MaxLayer - 1
        · rw [if_pos hl] at h
          simp only [Except.ok.injEq, Prod.mk.injEq] at h
          rw [← h.2]
          subst hl
          intro i' k' hw
          have hw' : a.Wants i' k' := by
            rcases hw with ⟨h1, b, hb, hbit⟩ | ⟨h1, w', hw', hc⟩
            · rw [store_MaxLayer] at h1
              rw [bit_store_other _ _ _ _ _ _ _ (Or.inl (by omega))] at hbit
              exact Or.inl ⟨h1, b, hb, hbit⟩
            · rw [store_MaxLayer] at h1
              rw [word_store] at hw'
              by_cases hc' : i' + 1 = a.MaxLayer - 1 ∧ k' = k ∧ (a.word (a.MaxLayer - 1) k).isSome = true
              · rw [if_pos hc'] at hw'
                simp only [Option.some.injEq] at hw'
                subst hw'
                obtain ⟨e1, e2, -⟩ := hc'
                subst e2
                refine Or.inr ⟨h1, w, by rw [e1]; exact hwk, le_trans hc ?_⟩
                apply bitSum_mono
                intro b hb hbt
                rw [testBit_zBitReset w b hix] at hbt
                simp only [Bool.and_eq_true] at hbt
                exact hbt.1
              · rw [if_neg hc'] at hw'
                exact Or.inr ⟨h1, w', hw', hc⟩
          have hb := hy i' k' hw'
          have hlay : i' ≠ a.MaxLayer - 1 := by
            rcases hw' with ⟨h1, -⟩ | ⟨h1, -⟩ <;> omega
          rw [bit_store_other _ _ _ _ _ _ _ (Or.inl hlay)]
          exact hb
        · rw [if_neg hl] at h
          exact ih a (i + 1) _ r a1 (by omega) h hy

theorem Alloc_hyst (a : z__AT) (hv : a.Valid) (r : Option Nat) (a1 : z__AT)
    (h : a.Alloc = .ok (r, a1)) (hy : a.Hyst) : a1.Hyst :=
  AllocLoop_hyst _ a 0 0 r a1 hv.1.2.1 h hy

theorem FreeUp_hyst : ∀ (n : Nat) (a : z__AT) (U : Nat) (a1 : z__AT), n < a.MaxLayer →
    FreeUp n a U = .ok a1 → a.HystBut n U → a1.Hyst := by
  intro n
  induction n with
  | zero =>
    intro a U a1 _ h hy
    simp only [FreeUp, Except.ok.injEq] at h
    rw [← h]; exact hyst_of_but hy
  | succ i ih =>
    intro a U a1 hn h hy
    rw [FreeUp] at h
    simp only [shr5, and31] at h
    cases hp : a.word i (U / 32) with
    | none => rw [hp] at h; simp at h
    | some w =>
      rw [hp] at h
      simp only at h
      have hlt : U % 32 < 32 := Nat.mod_lt _ (by norm_num)
      by_cases hb : zBitTest w (U % 32) ≠ 0
      · rw [if_pos hb] at h
        simp only [Except.ok.injEq] at h
        rw [← h]
        intro i' k' hw
        by_cases hc : i' + 1 = i + 1 ∧ k' = U
        · obtain ⟨e1, e2⟩ := hc
          have e1' : i' = i := by omega
          subst e1' e2
          rw [bit_of_word hp]
          exact (zBitTest_ne_zero w _).1 hb
        · exact hy i' k' hc hw
      · rw [if_neg hb] at h
        refine ih _ (U / 32) a1 (by rw [store_MaxLayer]; omega) h ?_
        intro i' k' hne hw
        have hsome : (a.word i (U / 32)).isSome = true := by rw [hp]; rfl
        by_cases hc : i' + 1 = i + 1 ∧ k' = U
        · obtain ⟨e1, e2⟩ := hc
          have e1' : i' = i := by omega
          subst e1' e2
          rw [bit_store_same _ _ _ _ _ hsome, testBit_zBitSet w _ hlt]
          simp
        · have hw' : a.Wants i' k' := by
            rcases hw with ⟨h1, b, hb1, hbit⟩ | ⟨h1, w', hw', hc'⟩
            · rw [store_MaxLayer] at h1
              rw [bit_store_other _ _ _ _ _ _ _ (by
                by_contra hcc
                push_neg at hcc
                exact hne ⟨hcc.1, hcc.2⟩)] at hbit
              exact Or.inl ⟨h1, b, hb1, hbit⟩
            · rw [store_MaxLayer] at h1
              rw [word_store, if_neg (by intro hcc; omega)] at hw'
              exact Or.inr ⟨h1, w', hw', hc'⟩
          have hbit := hy i' k' hc hw'
          rw [bit_store]
          split
          · next hcnd =>
            obtain ⟨e1, e2, -⟩ := hcnd
            rw [testBit_zBitSet w _ hlt]
            rw [e1, e2, bit_of_word hp] at hbit
            rw [hbit]; rfl
          · exact hbit

theorem Free_hyst (a : z__AT) (u : Nat) (hv : a.Valid) (a1 : z__AT)
    (h : a.Free u = .ok a1) (hy : a.Hyst) : a1.Hyst := by
  unfold Free at h
  simp only [shr5, and31] at h
  cases hw : a.word (a.MaxLayer - 1) (u / 32) with
  | none => rw [hw] at h; simp at h
  | some w =>
    rw [hw] at h
    simp only at h
    have hlt : u % 32 < 32 := Nat.mod_lt _ (by norm_num)
    have hL := hv.1.2.1
    have hwlt : w < 2 ^ 32 := hv.1.2.2.2.2.2 _ _ w hw
    have hsome : (a.word (a.MaxLayer - 1) (u / 32)).isSome = true := by rw [hw]; rfl
    -- the constraints of the other words are those of the tree before the store
    have hother : ∀ i' k', ¬ (i' + 1 = a.MaxLayer - 1 ∧ k' = u / 32) →
        (a.store (a.MaxLayer - 1) (u / 32) (zBitSet w (u % 32))).Wants i' k' →
        (a.store (a.MaxLayer - 1) (u / 32) (zBitSet w (u % 32))).bit i' (k' / 32) (k' % 32)
          = true := by
      intro i' k' hne hwn
      have hw' : a.Wants i' k' := by
        rcases hwn with ⟨h1, b, hb1, hbit⟩ | ⟨h1, w', hw', hc'⟩
        · rw [store_MaxLayer] at h1
          rw [bit_store_other _ _ _ _ _ _ _ (Or.inl (by omega))] at hbit
          exact Or.inl ⟨h1, b, hb1, hbit⟩
        · rw [store_MaxLayer] at h1
          rw [word_store, if_neg (by intro hcc; exact hne ⟨hcc.1, hcc.2.1⟩)] at hw'
          exact Or.inr ⟨h1, w', hw', hc'⟩
      have hlay : i' ≠ a.MaxLayer - 1 := by
        rcases hw' with ⟨h1, -⟩ | ⟨h1, -⟩ <;> omega
      rw [bit_store_other _ _ _ _ _ _ _ (Or.inl hlay)]
      exact hy i' k' hw'
    by_cases hc : zBitCount32 (zBitSet w (u % 32)) = FREE_THRESH_HOLD
    · rw [if_pos hc] at h
      exact FreeUp_hyst _ _ _ a1 (by rw [store_MaxLayer]; omega) h hother
    · rw [if_neg hc] at h
      simp only [Except.ok.injEq] at h
      rw [← h]
      intro i' k' hwn
      by_cases hne : i' + 1 = a.MaxLayer - 1 ∧ k' = u / 32
      · obtain ⟨e1, e2⟩ := hne
        subst e2
        have hlay : i' ≠ a.MaxLayer - 1 := by omega
        rw [bit_store_other _ _ _ _ _ _ _ (Or.inl hlay)]
        apply hy
        rcases hwn with ⟨h1, -⟩ | ⟨h1, w', hw', hc'⟩
        · rw [store_MaxLayer] at h1; omega
        · rw [store_MaxLayer] at h1
          rw [word_store, if_pos ⟨e1, rfl, hsome⟩] at hw'
          simp only [Option.some.injEq] at hw'
          subst hw'
          rw [zBitCount32_spec _ (zBitSet_bound hwlt)] at hc
          have h1m := bitSum_one_more 32 (u % 32) (zBitSet w (u % 32)) w (by
            intro b hb hbj hbt
            rw [testBit_zBitSet w b hlt] at hbt
            simpa [hbj] using hbt)
          refine Or.inr ⟨h1, w, by rw [e1]; exact hw, ?_⟩
          omega
      · exact hother i' k' hne hwn

/-- In a tree with the invariant and a root word without a bit at 1, every leaf has fewer
than FREE_THRESH_HOLD free units. -/
theorem leavesLow_of_root_zero {a : z__AT} (hs : a.Shaped) (hy : a.Hyst)
    (hz : ∀ b, b < 32 → a.bit 0 0 b = false) : a.LeavesLow := by
  have hall : ∀ i k, i + 1 < a.MaxLayer → (a.word i k).isSome = true →
      ∀ b, b < 32 → a.bit i k b = false := by
    intro i
    induction i with
    | zero =>
      intro k _ hk b hb
      rw [hs.2.2.2.1 k hk]
      exact hz b hb
    | succ i ih =>
      intro k hi hk b hb
      by_contra hc
      have hc' : a.bit (i + 1) k b = true := by
        cases h : a.bit (i + 1) k b with
        | true => rfl
        | false => exact absurd h hc
      have h1 := hy i k (Or.inl ⟨by omega, b, hb, hc'⟩)
      have h2 := ih (k / 32) (by omega) (hs.2.2.2.2.1 i k hk) (k % 32)
        (Nat.mod_lt _ (by norm_num))
      rw [h1] at h2
      simp at h2
  intro k w hw
  by_contra hc
  have hge : FREE_THRESH_HOLD ≤ bitSum 32 w := by omega
  obtain ⟨b, hb, hbit⟩ := bitSum_pos_bit 32 w (by unfold FREE_THRESH_HOLD at hge; omega)
  have hsome : (a.word (a.MaxLayer - 1) k).isSome = true := by rw [hw]; rfl
  by_cases h1 : a.MaxLayer = 1
  · rw [h1] at hw hsome
    have hk := hs.2.2.2.1 k hsome
    subst hk
    have := hz b hb
    rw [bit_of_word hw, hbit] at this
    simp at this
  · have hL := hs.2.1
    obtain ⟨j, hj⟩ : ∃ j, a.MaxLayer = j + 2 := ⟨a.MaxLayer - 2, by omega⟩
    rw [hj] at hw hsome
    simp only [Nat.add_sub_cancel, show j + 2 - 1 = j + 1 by omega] at hw hsome
    have h2 := hy j k (Or.inr ⟨by omega, w, hw, hge⟩)
    have h3 := hall j (k / 32) (by omega) (hs.2.2.2.2.1 j k hsome) (k % 32)
      (Nat.mod_lt _ (by norm_num))
    rw [h2] at h3
    simp at h3

/-- In a tree with the invariant, below a bit that is 0 above the leaves every leaf has fewer
than FREE_THRESH_HOLD free units. -/
theorem low_below_zero {a : z__AT} (hy : a.Hyst) : ∀ (d i c : Nat), i + 1 + d + 1 = a.MaxLayer →
    a.bit i (c / 32) (c % 32) = false →
    ∀ kl w, kl / 32 ^ d = c → a.word (a.MaxLayer - 1) kl = some w →
      bitSum 32 w < FREE_THRESH_HOLD := by
  intro d
  induction d with
  | zero =>
    intro i c hi hbit kl w hkl hw
    simp only [pow_zero, Nat.div_one] at hkl
    subst hkl
    by_contra hc
    have := hy i kl (Or.inr ⟨by omega, w, by
      rw [show i + 1 = a.MaxLayer - 1 by omega]; exact hw, by omega⟩)
    rw [this] at hbit
    simp at hbit
  | succ d ih =>
    intro i c hi hbit kl w hkl hw
    have hzero : ∀ b, b < 32 → a.bit (i + 1) c b = false := by
      intro b hb
      cases hbb : a.bit (i + 1) c b with
      | false => rfl
      | true =>
        have := hy i c (Or.inl ⟨by omega, b, hb, hbb⟩)
        rw [this] at hbit
        simp at hbit
    refine ih (i + 1) (kl / 32 ^ d) (by omega) ?_ kl w rfl hw
    have : kl / 32 ^ d / 32 = c := by
      rw [Nat.div_div_eq_div_mul, ← pow_succ]; exact hkl
    rw [this]
    exact hzero _ (Nat.mod_lt _ (by norm_num))

end z__AT

namespace zAT

theorem Alloc_keeps_hyst (s : zAT) (h : s.Inv) (r : Option Nat) (s1 : zAT)
    (e : s.Alloc = .ok (r, s1)) (hy : s.Hyst) : s1.Hyst := by
  unfold Alloc at e
  by_cases hpar : ((s.Count + 1) % 2 ^ 32) &&& 0x1 ≠ 0
  · rw [if_pos hpar] at e
    cases e1 : s.pAT1.Alloc with
    | error f => rw [e1] at e; simp at e
    | ok res1 =>
      obtain ⟨r1, a1⟩ := res1
      have y1 := z__AT.Alloc_hyst s.pAT1 h.1 r1 a1 e1 hy.1
      rw [e1] at e
      cases r1 with
      | some u =>
        simp only [Except.ok.injEq, Prod.mk.injEq] at e
        rw [← e.2]
        exact ⟨y1, hy.2⟩
      | none =>
        simp only at e
        cases e2 : s.pAT2.Alloc with
        | error f => rw [e2] at e; simp at e
        | ok res2 =>
          obtain ⟨r2, a2⟩ := res2
          have y2 := z__AT.Alloc_hyst s.pAT2 h.2.1 r2 a2 e2 hy.2
          rw [e2] at e
          cases r2 with
          | some u =>
            simp only [Except.ok.injEq, Prod.mk.injEq] at e
            rw [← e.2]
            exact ⟨y1, y2⟩
          | none =>
            simp only [Except.ok.injEq, Prod.mk.injEq] at e
            rw [← e.2]
            exact ⟨y1, y2⟩
  · rw [if_neg hpar] at e
    cases e2 : s.pAT2.Alloc with
    | error f => rw [e2] at e; simp at e
    | ok res2 =>
      obtain ⟨r2, a2⟩ := res2
      have y2 := z__AT.Alloc_hyst s.pAT2 h.2.1 r2 a2 e2 hy.2
      rw [e2] at e
      cases r2 with
      | some u =>
        simp only [Except.ok.injEq, Prod.mk.injEq] at e
        rw [← e.2]
        exact ⟨hy.1, y2⟩
      | none =>
        simp only at e
        cases e1 : s.pAT1.Alloc with
        | error f => rw [e1] at e; simp at e
        | ok res1 =>
          obtain ⟨r1, a1⟩ := res1
          have y1 := z__AT.Alloc_hyst s.pAT1 h.1 r1 a1 e1 hy.1
          rw [e1] at e
          simp only [Except.ok.injEq, Prod.mk.injEq] at e
          rw [← e.2]
          exact ⟨y1, y2⟩

theorem Free_keeps_hyst (s : zAT) (u : Nat) (h : s.Inv) (s1 : zAT)
    (e : s.Free u = .ok s1) (hy : s.Hyst) : s1.Hyst := by
  unfold Free at e
  by_cases hc : u < s.Size
  · rw [if_pos hc] at e
    cases e1 : s.pAT1.Free u with
    | error f => rw [e1] at e; simp at e
    | ok a1 =>
      rw [e1] at e
      simp only [Except.ok.injEq] at e
      rw [← e]
      exact ⟨z__AT.Free_hyst s.pAT1 u h.1 a1 e1 hy.1, hy.2⟩
  · rw [if_neg hc] at e
    cases e1 : s.pAT2.Free (u - s.Size) with
    | error f => rw [e1] at e; simp at e
    | ok a1 =>
      rw [e1] at e
      simp only [Except.ok.injEq] at e
      rw [← e]
      exact ⟨hy.1, z__AT.Free_hyst s.pAT2 _ h.2.1 a1 e1 hy.2⟩

theorem call_hyst (C : Nat) (t : Trace) (c : Call) (h : TInv C t) (hy : t.s.Hyst) (t1 : Trace)
    (e : call t c = .ok (some t1)) : t1.s.Hyst := by
  cases c with
  | alloc =>
    simp only [call] at e
    cases ea : t.s.Alloc with
    | error f => rw [ea] at e; simp at e
    | ok res =>
      obtain ⟨r, s1⟩ := res
      have y := Alloc_keeps_hyst t.s h.1 r s1 ea hy
      rw [ea] at e
      cases r with
      | none =>
        simp only [Except.ok.injEq, Option.some.injEq] at e
        rw [← e]; exact y
      | some u =>
        simp only [Except.ok.injEq, Option.some.injEq] at e
        rw [← e]; exact y
  | free u =>
    simp only [call] at e
    by_cases hu : u ∈ t.live
    · rw [if_pos hu] at e
      cases ef : t.s.Free u with
      | error f => rw [ef] at e; simp at e
      | ok s1 =>
        rw [ef] at e
        simp only [Except.ok.injEq, Option.some.injEq] at e
        rw [← e]
        exact Free_keeps_hyst t.s u h.1 s1 ef hy
    · rw [if_neg hu] at e
      simp at e

theorem calls_hyst (C : Nat) : ∀ (cs : List Call) (t : Trace), TInv C t → t.s.Hyst →
    ∀ t1, calls t cs = .ok (some t1) → t1.s.Hyst := by
  intro cs
  induction cs with
  | nil =>
    intro t _ hy t1 e
    simp only [calls, Except.ok.injEq, Option.some.injEq] at e
    rw [← e]; exact hy
  | cons c cs ih =>
    intro t h hy t1 e
    obtain ⟨ot, e1, hot⟩ := call_spec C t c h
    simp only [calls] at e
    rw [e1] at e
    cases ot with
    | none => simp at e
    | some t2 =>
      simp only at e
      exact ih t2 (hot t2 rfl) (call_hyst C t c h hy t2 e1) t1 e

end zAT

/-- C32, as amended: in every allocator state reached from Init by calls of Alloc and by
calls of Free on live units, in both trees every word above the leaves and below the root
that has a bit at 1, and every leaf with FREE_THRESH_HOLD = 3 free bits or more, has its
bit in the parent word at 1; below a bit that is 0 above the leaves every leaf has fewer than
3 free bits; and Alloc returns, and when it returns RET_MEM_FULL every leaf of both trees has
fewer than 3 free bits. -/
theorem C32_hysteresis_invariant (C : Nat) (mem : Bool) (s0 : zAT)
    (h0 : zAT.Init C mem = .ok (some s0)) (cs : List zAT.Call) (t : zAT.Trace)
    (ht : zAT.calls (zAT.start s0) cs = .ok (some t)) :
    t.s.Hyst ∧
    (∀ a, a = t.s.pAT1 ∨ a = t.s.pAT2 → ∀ d i c, i + 1 + d + 1 = a.MaxLayer →
      a.bit i (c / 32) (c % 32) = false →
      ∀ kl w, kl / 32 ^ d = c → a.word (a.MaxLayer - 1) kl = some w →
        bitSum 32 w < FREE_THRESH_HOLD) ∧
    ∃ r s1, t.s.Alloc = .ok (r, s1) ∧ (r = none → s1.pAT1.LeavesLow ∧ s1.pAT2.LeavesLow) := by
  have hi := zAT.Init_spec C mem s0 h0
  have hT := zAT.tinv_start C mem s0 h0
  have hy0 : (zAT.start s0).s.Hyst :=
    ⟨z__AT.hyst_of_tight hi.2.1.1, z__AT.hyst_of_tight hi.2.1.2⟩
  have hy := zAT.calls_hyst C cs _ hT hy0 t ht
  obtain ⟨ot, e, hot⟩ := zAT.calls_spec C cs _ hT
  rw [ht] at e
  simp only [Except.ok.injEq] at e
  have hinv := (hot t e.symm).1
  refine ⟨hy, ?_, ?_⟩
  · intro a ha
    rcases ha with rfl | rfl
    · exact z__AT.low_below_zero hy.1
    · exact z__AT.low_below_zero hy.2
  · obtain ⟨r, s1, ea, o1, -, -, o4⟩ := zAT.Alloc_out t.s hinv
    refine ⟨r, s1, ea, ?_⟩
    intro hr
    subst hr
    simp only at o4
    have y1 := zAT.Alloc_keeps_hyst t.s hinv none s1 ea hy
    exact ⟨z__AT.leavesLow_of_root_zero o1.1.1 y1.1 o4.2.1,
      z__AT.leavesLow_of_root_zero o1.2.1.1 y1.2 o4.2.2⟩

set_option maxHeartbeats 4000000 in
set_option maxRecDepth 1000000 in
/-- Instance of C32: the allocator of 66 units after 67 calls of Alloc and Free of the units
0, 1, 32, 33, 64 and 65. -/
theorem C32_hysteresis_invariant_witness :
    ∃ (s0 : zAT) (t : zAT.Trace), zAT.Init 66 true = .ok (some s0) ∧
      zAT.calls (zAT.start s0) drain = .ok (some t) ∧
      t.s.pAT1.word 1 0 = some 3 ∧ t.s.Hyst ∧
      ∃ r s1, t.s.Alloc = .ok (r, s1) ∧ (r = none → s1.pAT1.LeavesLow ∧ s1.pAT2.LeavesLow) := by
  have h : onDone (zAT.Init 66 true) (fun s0 =>
      onDone (zAT.calls (zAT.start s0) drain)
        (fun t => decide (t.s.pAT1.word 1 0 = some 3))) = true := by
    decide!
  obtain ⟨s0, e0, hp⟩ := onDone_true h
  obtain ⟨t, et, hq⟩ := onDone_true hp
  simp only [decide_eq_true_eq] at hq
  have hc := C32_hysteresis_invariant 66 true s0 e0 drain t et
  exact ⟨s0, t, e0, et, hq, hc.1, hc.2.2⟩

set_option maxHeartbeats 4000000 in
set_option maxRecDepth 1000000 in
/-- Counterexample to C32 as stated: after Init(66), 67 calls of Alloc and Free(0), the leaf
word 0 of the first tree is 1, not zero, and its bit in the root word, which is 0, is not
set. -/
theorem C32_hysteresis_invariant_counterexample :
    ∃ (s0 : zAT) (t : zAT.Trace), zAT.Init 66 true = .ok (some s0) ∧
      zAT.calls (zAT.start s0) (List.replicate 67 zAT.Call.alloc ++ [.free 0]) = .ok (some t) ∧
      t.s.pAT1.MaxLayer = 2 ∧ t.s.pAT1.word 1 0 = some 1 ∧ t.s.pAT1.word 0 0 = some 0 ∧
      t.s.pAT1.bit 1 0 0 = true ∧ t.s.pAT1.bit 0 (0 / 32) (0 % 32) = false ∧
      ¬ t.s.pAT1.Tight := by
  have h : onDone (zAT.Init 66 true) (fun s0 =>
      onDone (zAT.calls (zAT.start s0) (List.replicate 67 zAT.Call.alloc ++ [.free 0]))
        (fun t => decide (t.s.pAT1.MaxLayer = 2) && decide (t.s.pAT1.word 1 0 = some 1) &&
          decide (t.s.pAT1.word 0 0 = some 0) && t.s.pAT1.bit 1 0 0 &&
          !t.s.pAT1.bit 0 (0 / 32) (0 % 32))) = true := by
    decide!
  obtain ⟨s0, e0, hp⟩ := onDone_true h
  obtain ⟨t, et, hq⟩ := onDone_true hp
  simp only [Bool.and_eq_true, decide_eq_true_eq, Bool.not_eq_true'] at hq
  refine ⟨s0, t, e0, et, hq.1.1.1.1, hq.1.1.1.2, hq.1.1.2, hq.1.2, hq.2, ?_⟩
  intro hT
  have := hT 0 0 0 (by norm_num) hq.1.2
  rw [hq.2] at this
  exact absurd this (by simp)

namespace z__AT

theorem lockAt_setLock (L : List (List LOCKFLAG)) (i k : Nat) (f g : LOCKFLAG)
    (h : lockAt L i k = some f) : lockAt (setLock L i k g) i k = some g := by
  unfold lockAt at h ⊢
  unfold setLock
  cases hl : L[i]? with
  | none => rw [hl] at h; simp at h
  | some layer =>
    rw [hl] at h
    simp only at h ⊢
    have hi : i < L.length := by
      by_contra hc
      rw [List.getElem?_eq_none (by omega)] at hl
      simp at hl
    have hk : k < layer.length := by
      by_contra hc
      rw [List.getElem?_eq_none (by omega)] at h
      simp at h
    rw [List.getElem?_set_self hi]
    simp only
    rw [List.getElem?_set_self hk]

theorem setLock_back (L : List (List LOCKFLAG)) (i k : Nat) (f g : LOCKFLAG)
    (h : lockAt L i k = some f) : setLock (setLock L i k g) i k f = L := by
  unfold lockAt at h
  unfold setLock
  cases hl : L[i]? with
  | none => rw [hl] at h; simp at h
  | some layer =>
    rw [hl] at h
    simp only at h ⊢
    have hi : i < L.length := by
      by_contra hc
      rw [List.getElem?_eq_none (by omega)] at hl
      simp at hl
    rw [List.getElem?_set_self hi]
    simp only
    rw [List.set_set, List.set_set]
    have h1 : layer.set k f = layer := by
      apply List.ext_getElem?
      intro j
      by_cases hj : j = k
      · subst hj
        by_cases hk : j < layer.length
        · rw [List.getElem?_set_self hk, h]
        · rw [List.getElem?_eq_none (by simp; omega), List.getElem?_eq_none (by omega)]
      · rw [List.getElem?_set_ne (fun e => hj e.symm)]
    rw [h1]
    apply List.ext_getElem?
    intro j
    by_cases hj : j = i
    · subst hj
      rw [List.getElem?_set_self hi, hl]
    · rw [List.getElem?_set_ne (fun e => hj e.symm)]

theorem lock_rest {L : List (List LOCKFLAG)} (hr : AtRest L) {i k : Nat}
    (h : (lockAt L i k).isSome = true) :
    Lock L i k = .ok (setLock L i k { LockFlag := true, SearchCount := 0 }) ∧
      Unlock (setLock L i k { LockFlag := true, SearchCount := 0 }) i k = L := by
  cases hf : lockAt L i k with
  | none => rw [hf] at h; simp at h
  | some f =>
    have e := hr i k f hf
    subst e
    constructor
    · unfold Lock
      rw [hf]
      rfl
    · unfold Unlock
      rw [lockAt_setLock L i k _ _ hf]
      exact setLock_back L i k _ _ hf

theorem read_rest {L : List (List LOCKFLAG)} (hr : AtRest L) {i k : Nat}
    (h : (lockAt L i k).isSome = true) :
    Read L i k = some (setLock L i k { LockFlag := false, SearchCount := 1 }) ∧
      lockAt (setLock L i k { LockFlag := false, SearchCount := 1 }) i k
        = some { LockFlag := false, SearchCount := 1 } ∧
      UnRead (setLock L i k { LockFlag := false, SearchCount := 1 }) i k = L := by
  cases hf : lockAt L i k with
  | none => rw [hf] at h; simp at h
  | some f =>
    have e := hr i k f hf
    subst e
    refine ⟨?_, lockAt_setLock L i k _ _ hf, ?_⟩
    · unfold Read
      rw [hf]
      rfl
    · unfold UnRead
      rw [lockAt_setLock L i k _ _ hf]
      exact setLock_back L i k _ _ hf

theorem store_same (a : z__AT) (i k p : Nat) (h : a.word i k = some p) : a.store i k p = a := by
  unfold word at h
  unfold store
  cases hl : a.pT[i]? with
  | none => rw [hl] at h
  | some layer =>
    rw [hl] at h
    simp only at h ⊢
    have h1 : layer.set k p = layer := by
      apply List.ext_getElem?
      intro j
      by_cases hj : j = k
      · subst hj
        by_cases hk : j < layer.length
        · rw [List.getElem?_set_self hk, h]
        · rw [List.getElem?_eq_none (by simp; omega), List.getElem?_eq_none (by omega)]
      · rw [List.getElem?_set_ne (fun e => hj e.symm)]
    rw [h1]
    have h2 : a.pT.set i layer = a.pT := by
      apply List.ext_getElem?
      intro j
      by_cases hj : j = i
      · subst hj
        by_cases hk : j < a.pT.length
        · rw [List.getElem?_set_self hk, hl]
        · rw [List.getElem?_eq_none (by simp; omega), List.getElem?_eq_none (by omega)]
      · rw [List.getElem?_set_ne (fun e => hj e.symm)]
    rw [h2]

theorem zBitReset_same {p b : Nat} (hp : p < 2 ^ 32) (hb : p.testBit b = false) (hlt : b < 32) :
    zBitReset p b = p := by
  apply Nat.eq_of_testBit_eq
  intro j
  rw [testBit_zBitReset p j hlt]
  by_cases hj : j < 32
  · by_cases hjb : j = b
    · subst hjb; simp [hb]
    · simp [hj, hjb]
  · have : p.testBit j = false :=
      Nat.testBit_lt_two_pow (lt_of_lt_of_le hp (Nat.pow_le_pow_right (by norm_num) (by omega)))
    simp [this]

theorem covers_store {a : z__AT} {L : List (List LOCKFLAG)} (h : Covers a L) (i k w : Nat) :
    Covers (a.store i k w) L := by
  intro i' k' hs
  rw [store_isSome] at hs
  exact h i' k' hs

theorem LockedLeaf_eq {a : z__AT} {L : List (List LOCKFLAG)} (hr : AtRest L) (hc : Covers a L)
    {i k w : Nat} (hw : a.word i k = some w) :
    LockedLeaf a L i k = .ok
      (match zBSF w with
        | none => none
        | some index => some ((k <<< 5) + index, a.store i k (zBitReset w index)), L) := by
  unfold LockedLeaf
  rw [hw]
  simp only
  cases hz : zBSF w with
  | none => rfl
  | some index =>
    simp only
    obtain ⟨h1, h2⟩ := lock_rest hr (hc i k (by rw [hw]; rfl))
    rw [h1]
    simp only
    rw [h2]

theorem LockedScan_eq {a : z__AT} {L : List (List LOCKFLAG)} (hr : AtRest L) (hc : Covers a L)
    {i k w : Nat} (hw : a.word i k = some w) : LockedScan a L i k = .ok (zBSF w, L) := by
  unfold LockedScan
  obtain ⟨h1, h2, h3⟩ := read_rest hr (hc i k (by rw [hw]; rfl))
  rw [h1]
  simp only
  rw [h2, hw]
  simp only
  rw [h3]
  rfl

theorem LockedUp_eq {a : z__AT} {L : List (List LOCKFLAG)} (hv : a.Valid) (hr : AtRest L)
    (hc : Covers a L) {i k w p : Nat} (hw : a.word i k = some w) (hz : zBSF w = none)
    (hp : a.word (i - 1) (k >>> 5) = some p) :
    LockedUp a L i k = .ok (a.store (i - 1) (k >>> 5) (zBitReset p (k &&& 0x1f)), L) := by
  unfold LockedUp
  rw [hp]
  simp only
  have hlt : k &&& 0x1f < 32 := by rw [and31]; exact Nat.mod_lt _ (by norm_num)
  by_cases hb : zBitTest p (k &&& 0x1f) ≠ 0
  · rw [if_pos hb]
    obtain ⟨h1, h2⟩ := lock_rest hr (hc (i - 1) (k >>> 5) (by rw [hp]; rfl))
    rw [h1]
    simp only
    rw [hw]
    simp only
    rw [h2, if_pos hz]
  · rw [if_neg hb]
    have hbit : p.testBit (k &&& 0x1f) = false := by
      cases h : p.testBit (k &&& 0x1f) with
      | false => rfl
      | true => exact absurd ((zBitTest_ne_zero p _).2 h) hb
    rw [zBitReset_same (hv.1.2.2.2.2.2 _ _ p hp) hbit hlt, store_same a _ _ p hp]

theorem LockedAllocLoop_eq : ∀ (fuel : Nat) (a : z__AT) (L : List (List LOCKFLAG)) (i k : Nat)
    (r : Option Nat) (a1 : z__AT), a.Valid → AtRest L → Covers a L →
    AllocLoop fuel a i k = .ok (r, a1) → LockedAllocLoop fuel a L i k = .ok (r, a1, L) := by
  intro fuel
  induction fuel with
  | zero => intro a L i k r a1 _ _ _ h; simp [AllocLoop] at h
  | succ fuel ih =>
    intro a L i k r a1 hv hr hc h
    rw [AllocLoop] at h
    rw [LockedAllocLoop]
    cases hwk : a.word i k with
    | none => rw [hwk] at h; simp at h
    | some w =>
      rw [hwk] at h
      simp only at h
      rw [LockedLeaf_eq hr hc hwk, LockedScan_eq hr hc hwk]
      cases hz : zBSF w with
      | none =>
        rw [hz] at h
        simp only at h ⊢
        by_cases hi0 : i = 0
        · rw [if_pos hi0] at h
          simp only [Except.ok.injEq, Prod.mk.injEq] at h
          simp only [if_pos hi0, ite_self]
          rw [h.1, h.2]
        · rw [if_neg hi0] at h
          simp only [if_neg hi0]
          cases hp : a.word (i - 1) (k >>> 5) with
          | none => rw [hp] at h; simp at h
          | some p =>
            rw [hp] at h
            simp only at h
            rw [LockedUp_eq hv hr hc hwk hz hp]
            simp only [ite_self]
            have hlt : k &&& 0x1f < 32 := by rw [and31]; exact Nat.mod_lt _ (by norm_num)
            exact ih _ L (i - 1) (k >>> 5) r a1 (valid_reset hv _ _ p _ hp hlt) hr
              (covers_store hc _ _ _) h
      | some index =>
        rw [hz] at h
        simp only at h ⊢
        by_cases hl : i = a.MaxLayer - 1
        · rw [if_pos hl] at h
          simp only [Except.ok.injEq, Prod.mk.injEq] at h
          rw [if_pos hl, ← h.1, ← h.2]
        · rw [if_neg hl] at h
          rw [if_neg hl]
          exact ih a L (i + 1) _ r a1 hv hr hc h

theorem LockedAlloc_eq (a : z__AT) (L : List (List LOCKFLAG)) (r : Option Nat) (a1 : z__AT)
    (hv : a.Valid) (hr : AtRest L) (hc : Covers a L) (h : a.Alloc = .ok (r, a1)) :
    a.LockedAlloc L = .ok (r, a1, L) :=
  LockedAllocLoop_eq _ a L 0 0 r a1 hv hr hc h

theorem LockedFreeUp_eq : ∀ (n : Nat) (a : z__AT) (L : List (List LOCKFLAG)) (U lower lw : Nat)
    (a1 : z__AT), AtRest L → Covers a L → n + 1 ≤ a.MaxLayer →
    a.word (a.MaxLayer - 1) lower = some lw → zBitCount32 lw = FREE_THRESH_HOLD →
    FreeUp n a U = .ok a1 → LockedFreeUp n a L U lower = .ok (a1, L) := by
  intro n
  induction n with
  | zero =>
    intro a L U lower lw a1 _ _ _ _ _ h
    simp only [FreeUp, Except.ok.injEq] at h
    rw [LockedFreeUp, h]
  | succ i ih =>
    intro a L U lower lw a1 hr hc hn hlw hcount h
    rw [FreeUp] at h
    rw [LockedFreeUp]
    cases hp : a.word i (U >>> 5) with
    | none => rw [hp] at h; simp at h
    | some w =>
      rw [hp] at h
      simp only at h ⊢
      by_cases hb : zBitTest w (U &&& 0x1f) ≠ 0
      · rw [if_pos hb] at h
        simp only [Except.ok.injEq] at h
        rw [if_pos hb, h]
      · rw [if_neg hb] at h
        rw [if_neg hb]
        obtain ⟨h1, h2⟩ := lock_rest hr (hc i (U >>> 5) (by rw [hp]; rfl))
        rw [h1]
        simp only
        rw [hlw]
        simp only
        rw [h2, if_pos hcount]
        refine ih _ L (U >>> 5) lower lw a1 hr (covers_store hc _ _ _)
          (by rw [store_MaxLayer]; omega) ?_ hcount h
        rw [store_MaxLayer, word_store, if_neg (by intro hcc; omega)]
        exact hlw

theorem LockedFree_eq (a : z__AT) (L : List (List LOCKFLAG)) (u : Nat) (a1 : z__AT)
    (hv : a.Valid) (hr : AtRest L) (hc : Covers a L) (h : a.Free u = .ok a1) :
    a.LockedFree L u = .ok (a1, L) := by
  unfold Free at h
  unfold LockedFree
  cases hw : a.word (a.MaxLayer - 1) (u >>> 5) with
  | none => rw [hw] at h; simp at h
  | some w =>
    rw [hw] at h
    simp only at h
    have hsome : (a.word (a.MaxLayer - 1) (u >>> 5)).isSome = true := by rw [hw]; rfl
    obtain ⟨h1, h2⟩ := lock_rest hr (hc _ _ hsome)
    rw [h1]
    simp only
    rw [h2]
    by_cases hcnt : zBitCount32 (zBitSet w (u &&& 0x1f)) = FREE_THRESH_HOLD
    · rw [if_pos hcnt] at h
      rw [if_neg (by intro hne; exact hne hcnt)]
      refine LockedFreeUp_eq _ _ L _ _ (zBitSet w (u &&& 0x1f)) a1 hr (covers_store hc _ _ _)
        (by rw [store_MaxLayer]; have := hv.1.2.1; omega) ?_ hcnt h
      rw [store_MaxLayer, word_store, if_pos ⟨rfl, rfl, hsome⟩]
    · rw [if_neg hcnt] at h
      simp only [Except.ok.injEq] at h
      rw [if_pos hcnt, h]

theorem atRest_lockTable (a : z__AT) : AtRest a.lockTable := by
  intro i k f h
  unfold lockAt lockTable at h
  simp only [List.getElem?_map] at h
  cases hl : a.pT[i]? with
  | none => rw [hl] at h; simp at h
  | some layer =>
    rw [hl] at h
    simp only [Option.map_some', List.getElem?_map] at h
    cases hk : layer[k]? with
    | none => rw [hk] at h; simp at h
    | some w =>
      rw [hk] at h
      simp only [Option.map_some', Option.some.injEq] at h
      exact h.symm

theorem covers_lockTable (a a1 : z__AT) (h : SameShape a a1) : Covers a1 a.lockTable := by
  intro i k hs
  rw [h.2.2 i k] at hs
  unfold word at hs
  unfold lockAt lockTable
  simp only [List.getElem?_map]
  cases hl : a.pT[i]? with
  | none => rw [hl] at hs; simp at hs
  | some layer =>
    rw [hl] at hs
    simp only at hs
    simp only [Option.map_some', List.getElem?_map]
    cases hk : layer[k]? with
    | none => rw [hk] at hs; simp at hs
    | some w => rfl

theorem Alloc_same (a : z__AT) (hv : a.Valid) (r : Option Nat) (a1 : z__AT)
    (h : a.Alloc = .ok (r, a1)) : SameShape a a1 := by
  obtain ⟨r', a1', e, p⟩ := Alloc_spec a hv
  rw [h] at e
  simp only [Except.ok.injEq, Prod.mk.injEq] at e
  rw [e.2]
  exact p.2.1

theorem Free_same (a : z__AT) (hv : a.Valid) (u : Nat) (a1 : z__AT)
    (h : a.Free u = .ok a1) : SameShape a a1 := by
  have hu : (a.word (a.MaxLayer - 1) (u / 32)).isSome = true := by
    unfold Free at h
    simp only [shr5] at h
    cases hw : a.word (a.MaxLayer - 1) (u / 32) with
    | none => rw [hw] at h; simp at h
    | some w => rfl
  obtain ⟨a1', e, p⟩ := Free_spec a u hv hu
  rw [h] at e
  simp only [Except.ok.injEq] at e
  rw [e]
  exact p.2.1

end z__AT

namespace zAT

theorem LockedAlloc_refines (s : zAT) (L1 L2 : List (List LOCKFLAG)) (h : s.Inv)
    (r1 : z__AT.AtRest L1) (r2 : z__AT.AtRest L2) (c1 : z__AT.Covers s.pAT1 L1)
    (c2 : z__AT.Covers s.pAT2 L2) (r : Option Nat) (s1 : zAT) (e : s.Alloc = .ok (r, s1)) :
    s.LockedAlloc L1 L2 = .ok (r, s1, L1, L2) := by
  unfold Alloc at e
  unfold LockedAlloc
  by_cases hpar : ((s.Count + 1) % 2 ^ 32) &&& 0x1 ≠ 0
  · rw [if_pos hpar] at e
    rw [if_pos hpar]
    cases e1 : s.pAT1.Alloc with
    | error f => rw [e1] at e; simp at e
    | ok res1 =>
      obtain ⟨q1, a1⟩ := res1
      rw [z__AT.LockedAlloc_eq s.pAT1 L1 q1 a1 h.1 r1 c1 e1]
      rw [e1] at e
      cases q1 with
      | some u =>
        simp only [Except.ok.injEq, Prod.mk.injEq] at e
        simp only
        rw [← e.1, ← e.2]
      | none =>
        simp only at e ⊢
        cases e2 : s.pAT2.Alloc with
        | error f => rw [e2] at e; simp at e
        | ok res2 =>
          obtain ⟨q2, a2⟩ := res2
          rw [z__AT.LockedAlloc_eq s.pAT2 L2 q2 a2 h.2.1 r2 c2 e2]
          rw [e2] at e
          cases q2 with
          | some u =>
            simp only [Except.ok.injEq, Prod.mk.injEq] at e
            simp only
            rw [← e.1, ← e.2]
          | none =>
            simp only [Except.ok.injEq, Prod.mk.injEq] at e
            simp only
            rw [← e.1, ← e.2]
  · rw [if_neg hpar] at e
    rw [if_neg hpar]
    cases e2 : s.pAT2.Alloc with
    | error f => rw [e2] at e; simp at e
    | ok res2 =>
      obtain ⟨q2, a2⟩ := res2
      rw [z__AT.LockedAlloc_eq s.pAT2 L2 q2 a2 h.2.1 r2 c2 e2]
      rw [e2] at e
      cases q2 with
      | some u =>
        simp only [Except.ok.injEq, Prod.mk.injEq] at e
        simp only
        rw [← e.1, ← e.2]
      | none =>
        simp only at e ⊢
        cases e1 : s.pAT1.Alloc with
        | error f => rw [e1] at e; simp at e
        | ok res1 =>
          obtain ⟨q1, a1⟩ := res1
          rw [z__AT.LockedAlloc_eq s.pAT1 L1 q1 a1 h.1 r1 c1 e1]
          rw [e1] at e
          simp only [Except.ok.injEq, Prod.mk.injEq] at e
          simp only
          rw [← e.1, ← e.2]

theorem LockedFree_refines (s : zAT) (L1 L2 : List (List LOCKFLAG)) (u : Nat) (h : s.Inv)
    (r1 : z__AT.AtRest L1) (r2 : z__AT.AtRest L2) (c1 : z__AT.Covers s.pAT1 L1)
    (c2 : z__AT.Covers s.pAT2 L2) (s1 : zAT) (e : s.Free u = .ok s1) :
    s.LockedFree L1 L2 u = .ok (s1, L1, L2) := by
  unfold Free at e
  unfold LockedFree
  by_cases hc : u < s.Size
  · rw [if_pos hc] at e
    rw [if_pos hc]
    cases e1 : s.pAT1.Free u with
    | error f => rw [e1] at e; simp at e
    | ok a1 =>
      rw [z__AT.LockedFree_eq s.pAT1 L1 u a1 h.1 r1 c1 e1]
      rw [e1] at e
      simp only [Except.ok.injEq] at e
      simp only
      rw [e]
  · rw [if_neg hc] at e
    rw [if_neg hc]
    cases e1 : s.pAT2.Free (u - s.Size) with
    | error f => rw [e1] at e; simp at e
    | ok a1 =>
      rw [z__AT.LockedFree_eq s.pAT2 L2 _ a1 h.2.1 r2 c2 e1]
      rw [e1] at e
      simp only [Except.ok.injEq] at e
      simp only
      rw [e]

theorem Alloc_shape (s : zAT) (h : s.Inv) (r : Option Nat) (s1 : zAT)
    (e : s.Alloc = .ok (r, s1)) :
    z__AT.SameShape s.pAT1 s1.pAT1 ∧ z__AT.SameShape s.pAT2 s1.pAT2 := by
  unfold Alloc at e
  by_cases hpar : ((s.Count + 1) % 2 ^ 32) &&& 0x1 ≠ 0
  · rw [if_pos hpar] at e
    cases e1 : s.pAT1.Alloc with
    | error f => rw [e1] at e; simp at e
    | ok res1 =>
      obtain ⟨q1, a1⟩ := res1
      have y1 := z__AT.Alloc_same s.pAT1 h.1 q1 a1 e1
      rw [e1] at e
      cases q1 with
      | some u =>
        simp only [Except.ok.injEq, Prod.mk.injEq] at e
        rw [← e.2]
        exact ⟨y1, z__AT.SameShape.srefl _⟩
      | none =>
        simp only at e
        cases e2 : s.pAT2.Alloc with
        | error f => rw [e2] at e; simp at e
        | ok res2 =>
          obtain ⟨q2, a2⟩ := res2
          have y2 := z__AT.Alloc_same s.pAT2 h.2.1 q2 a2 e2
          rw [e2] at e
          cases q2 with
          | some u =>
            simp only [Except.ok.injEq, Prod.mk.injEq] at e
            rw [← e.2]
            exact ⟨y1, y2⟩
          | none =>
            simp only [Except.ok.injEq, Prod.mk.injEq] at e
            rw [← e.2]
            exact ⟨y1, y2⟩
  · rw [if_neg hpar] at e
    cases e2 : s.pAT2.Alloc with
    | error f => rw [e2] at e; simp at e
    | ok res2 =>
      obtain ⟨q2, a2⟩ := res2
      have y2 := z__AT.Alloc_same s.pAT2 h.2.1 q2 a2 e2
      rw [e2] at e
      cases q2 with
      | some u =>
        simp only [Except.ok.injEq, Prod.mk.injEq] at e
        rw [← e.2]
        exact ⟨z__AT.SameShape.srefl _, y2⟩
      | none =>
        simp only at e
        cases e1 : s.pAT1.Alloc with
        | error f => rw [e1] at e; simp at e
        | ok res1 =>
          obtain ⟨q1, a1⟩ := res1
          have y1 := z__AT.Alloc_same s.pAT1 h.1 q1 a1 e1
          rw [e1] at e
          simp only [Except.ok.injEq, Prod.mk.injEq] at e
          rw [← e.2]
          exact ⟨y1, y2⟩

theorem Free_shape (s : zAT) (u : Nat) (h : s.Inv) (s1 : zAT) (e : s.Free u = .ok s1) :
    z__AT.SameShape s.pAT1 s1.pAT1 ∧ z__AT.SameShape s.pAT2 s1.pAT2 := by
  unfold Free at e
  by_cases hc : u < s.Size
  · rw [if_pos hc] at e
    cases e1 : s.pAT1.Free u with
    | error f => rw [e1] at e; simp at e
    | ok a1 =>
      rw [e1] at e
      simp only [Except.ok.injEq] at e
      rw [← e]
      exact ⟨z__AT.Free_same s.pAT1 h.1 u a1 e1, z__AT.SameShape.srefl _⟩
  · rw [if_neg hc] at e
    cases e1 : s.pAT2.Free (u - s.Size) with
    | error f => rw [e1] at e; simp at e
    | ok a1 =>
      rw [e1] at e
      simp only [Except.ok.injEq] at e
      rw [← e]
      exact ⟨z__AT.SameShape.srefl _, z__AT.Free_same s.pAT2 h.2.1 _ a1 e1⟩

theorem call_shape (C : Nat) (t : Trace) (c : Call) (h : TInv C t) (t1 : Trace)
    (e : call t c = .ok (some t1)) :
    z__AT.SameShape t.s.pAT1 t1.s.pAT1 ∧ z__AT.SameShape t.s.pAT2 t1.s.pAT2 := by
  cases c with
  | alloc =>
    simp only [call] at e
    cases ea : t.s.Alloc with
    | error f => rw [ea] at e; simp at e
    | ok res =>
      obtain ⟨r, s1⟩ := res
      have y := Alloc_shape t.s h.1 r s1 ea
      rw [ea] at e
      cases r with
      | none =>
        simp only [Except.ok.injEq, Option.some.injEq] at e
        rw [← e]; exact y
      | some u =>
        simp only [Except.ok.injEq, Option.some.injEq] at e
        rw [← e]; exact y
  | free u =>
    simp only [call] at e
    by_cases hu : u ∈ t.live
    · rw [if_pos hu] at e
      cases ef : t.s.Free u with
      | error f => rw [ef] at e; simp at e
      | ok s1 =>
        rw [ef] at e
        simp only [Except.ok.injEq, Option.some.injEq] at e
        rw [← e]
        exact Free_shape t.s u h.1 s1 ef
    · rw [if_neg hu] at e
      simp at e

theorem calls_shape (C : Nat) : ∀ (cs : List Call) (t : Trace), TInv C t →
    ∀ t1, calls t cs = .ok (some t1) →
      z__AT.SameShape t.s.pAT1 t1.s.pAT1 ∧ z__AT.SameShape t.s.pAT2 t1.s.pAT2 := by
  intro cs
  induction cs with
  | nil =>
    intro t _ t1 e
    simp only [calls, Except.ok.injEq, Option.some.injEq] at e
    rw [← e]; exact ⟨z__AT.SameShape.srefl _, z__AT.SameShape.srefl _⟩
  | cons c cs ih =>
    intro t h t1 e
    obtain ⟨ot, e1, hot⟩ := call_spec C t c h
    simp only [calls] at e
    rw [e1] at e
    cases ot with
    | none => simp at e
    | some t2 =>
      simp only at e
      have y := call_shape C t c h t2 e1
      have z := ih t2 (hot t2 rfl) t1 e
      exact ⟨y.1.strans z.1, y.2.strans z.2⟩

end zAT

/-- C34: run by one thread, the locked operations do what the unlocked ones do.  In every
allocator state reached from Init by calls of Alloc and by calls of Free on live units, with
the lock tables as Init has cleared them, LockedAlloc returns the unit (or RET_MEM_FULL) that
Alloc returns and leaves the words of both trees that Alloc leaves, LockedFree of a unit of
the trees leaves the words that Free leaves, and both leave the lock tables as they were: all
flags clear, all counters 0.  The states after the locked calls being those after the
unlocked calls, the same holds along runs of locked calls. -/
theorem C34_locked_refines_unlocked (C : Nat) (mem : Bool) (s0 : zAT)
    (h0 : zAT.Init C mem = .ok (some s0)) (cs : List zAT.Call) (t : zAT.Trace)
    (ht : zAT.calls (zAT.start s0) cs = .ok (some t)) :
    (∃ r s1, t.s.Alloc = .ok (r, s1) ∧
      t.s.LockedAlloc s0.pAT1.lockTable s0.pAT2.lockTable
        = .ok (r, s1, s0.pAT1.lockTable, s0.pAT2.lockTable)) ∧
    ∀ u, u < 2 * t.s.Size → ∃ s1, t.s.Free u = .ok s1 ∧
      t.s.LockedFree s0.pAT1.lockTable s0.pAT2.lockTable u
        = .ok (s1, s0.pAT1.lockTable, s0.pAT2.lockTable) := by
  have hT := zAT.tinv_start C mem s0 h0
  obtain ⟨ot, e, hot⟩ := zAT.calls_spec C cs _ hT
  rw [ht] at e
  simp only [Except.ok.injEq] at e
  have hinv := (hot t e.symm).1
  have hs := zAT.calls_shape C cs _ hT t ht
  have c1 := z__AT.covers_lockTable s0.pAT1 t.s.pAT1 hs.1
  have c2 := z__AT.covers_lockTable s0.pAT2 t.s.pAT2 hs.2
  have r1 := z__AT.atRest_lockTable s0.pAT1
  have r2 := z__AT.atRest_lockTable s0.pAT2
  constructor
  · obtain ⟨r, s1, ea, -⟩ := zAT.Alloc_out t.s hinv
    exact ⟨r, s1, ea, zAT.LockedAlloc_refines t.s _ _ hinv r1 r2 c1 c2 r s1 ea⟩
  · intro u hu
    obtain ⟨s1, ef, -⟩ := zAT.Free_out t.s u hinv hu
    exact ⟨s1, ef, zAT.LockedFree_refines t.s _ _ u hinv r1 r2 c1 c2 s1 ef⟩

set_option maxHeartbeats 4000000 in
set_option maxRecDepth 1000000 in
/-- Instance of C34: the allocator of 66 units after three calls of Alloc, Free(64), another
Alloc and Free(0); there LockedAlloc returns the unit 0, as Alloc does. -/
theorem C34_locked_refines_unlocked_witness :
    ∃ (s0 : zAT) (t : zAT.Trace) (s1 : zAT), zAT.Init 66 true = .ok (some s0) ∧
      zAT.calls (zAT.start s0) [.alloc, .alloc, .alloc, .free 64, .alloc, .free 0]
        = .ok (some t) ∧
      t.s.Alloc = .ok (some 0, s1) ∧
      (∃ r s1, t.s.Alloc = .ok (r, s1) ∧
        t.s.LockedAlloc s0.pAT1.lockTable s0.pAT2.lockTable
          = .ok (r, s1, s0.pAT1.lockTable, s0.pAT2.lockTable)) := by
  have h : onDone (zAT.Init 66 true) (fun s0 =>
      onDone (zAT.calls (zAT.start s0) [.alloc, .alloc, .alloc, .free 64, .alloc, .free 0])
        (fun t => onOk t.s.Alloc (some 0) (fun _ => true))) = true := by
    decide!
  obtain ⟨s0, e0, hp⟩ := onDone_true h
  obtain ⟨t, et, hq⟩ := onDone_true hp
  obtain ⟨s1, e1, -⟩ := onOk_true hq
  exact ⟨s0, t, s1, e0, et, e1, (C34_locked_refines_unlocked 66 true s0 e0 _ t et).1⟩

theorem fold_zero_hangs : ∀ (fuel Key h : Nat), Key ≠ 0 →
    zHashFun.fold fuel Key h 0 = .error .hang := by
  intro fuel
  induction fuel with
  | zero => intro Key h _; rfl
  | succ fuel ih =>
    intro Key h hk
    unfold zHashFun.fold
    rw [Nat.shiftRight_zero, if_neg hk]
    exact ih Key _ hk

set_option maxRecDepth 1000000 in
/-- C38, failing case: SetInitBuckets(1) on the table of the constructor returns true and
leaves Buckets = 1, PosMask = 0 and MaskBits = zBitCount(0) = 0.  With MaskBits = 0 the loop
while (Tmp >>= MaskBits) of the integer zHashFun shifts by nothing: for every key other
than 0 of 2, 4 or 8 bytes Tmp stays the key, the condition stays true and the loop does not
end, whatever bound the rounds are given.  (The key 0 and the keys of 1 byte return.) -/
theorem C38_zero_mask_bits_never_returns :
    (zHash.SetInitBuckets slabHeap (freshTable []) 1 [zHash.freshEntry]).1 = true ∧
    (zHash.SetInitBuckets slabHeap (freshTable []) 1 [zHash.freshEntry]).2.Buckets = 1 ∧
    (zHash.SetInitBuckets slabHeap (freshTable []) 1 [zHash.freshEntry]).2.PosMask = 0 ∧
    (zHash.SetInitBuckets slabHeap (freshTable []) 1 [zHash.freshEntry]).2.MaskBits = 0 ∧
    (∀ fuel Key h, Key ≠ 0 → zHashFun.fold fuel Key h 0 = .error .hang) ∧
    (∀ size Key, size = 2 ∨ size = 4 ∨ size = 8 → Key ≠ 0 →
      zHashFun size Key 0 = .error .hang) ∧
    zHashFun 8 5
      (zHash.SetInitBuckets slabHeap (freshTable []) 1 [zHash.freshEntry]).2.MaskBits
      = .error .hang := by
  have hm : (zHash.SetInitBuckets slabHeap (freshTable []) 1 [zHash.freshEntry]).2.MaskBits = 0 := by
    decide!
  refine ⟨by decide!, by decide!, by decide!, hm, fold_zero_hangs, ?_, ?_⟩
  · intro size Key hs hk
    unfold zHashFun
    rcases hs with h | h | h <;> subst h <;> simp [fold_zero_hangs _ _ _ hk]
  · rw [hm]
    unfold zHashFun
    simp [fold_zero_hangs]

theorem filledOf_cons (c : Nat) (cs : List Nat) :
    filledOf (c :: cs) = (if 0 < c then 1 else 0) + filledOf cs := by
  unfold filledOf
  by_cases h : 0 < c
  · simp [List.filter_cons, h]; omega
  · simp [List.filter_cons, h]

theorem collidedOf_cons (c : Nat) (cs : List Nat) :
    collidedOf (c :: cs) = (if 2 ≤ c then 1 else 0) + collidedOf cs := by
  unfold collidedOf
  by_cases h : 2 ≤ c
  · simp [List.filter_cons, h]; omega
  · simp [List.filter_cons, h]

theorem worstOf_cons (c : Nat) (cs : List Nat) :
    worstOf (c :: cs) = if 2 ≤ c then max c (worstOf cs) else worstOf cs := by
  unfold worstOf
  by_cases h : 2 ≤ c
  · simp [List.filter_cons, h]
  · simp [List.filter_cons, h]

/-- The largest count among the buckets with two records or more bounds them all, and is the
count of one of them unless there is none. -/
theorem worstOf_spec (cs : List Nat) :
    (∀ c ∈ cs, 2 ≤ c → c ≤ worstOf cs) ∧
    ((worstOf cs = 0 ∧ ∀ c ∈ cs, c < 2) ∨ (worstOf cs ∈ cs ∧ 2 ≤ worstOf cs)) := by
  induction cs with
  | nil => simp [worstOf]
  | cons c cs ih =>
    rw [worstOf_cons]
    obtain ⟨ih1, ih2⟩ := ih
    by_cases h : 2 ≤ c
    · rw [if_pos h]
      constructor
      · intro x hx hx2
        rcases List.mem_cons.1 hx with rfl | hx'
        · exact le_max_left _ _
        · exact le_trans (ih1 x hx' hx2) (le_max_right _ _)
      · right
        rcases ih2 with ⟨h0, -⟩ | ⟨hm, h2⟩
        · rw [h0]
          simp [h]
        · rcases le_total c (worstOf cs) with hle | hle
          · rw [max_eq_right hle]
            exact ⟨List.mem_cons_of_mem _ hm, h2⟩
          · rw [max_eq_left hle]
            exact ⟨List.mem_cons_self _ _, h⟩
    · rw [if_neg h]
      constructor
      · intro x hx hx2
        rcases List.mem_cons.1 hx with rfl | hx'
        · exact absurd hx2 h
        · exact ih1 x hx' hx2
      · rcases ih2 with ⟨h0, hall⟩ | ⟨hm, h2⟩
        · left
          refine ⟨h0, ?_⟩
          intro x hx
          rcases List.mem_cons.1 hx with rfl | hx'
          · omega
          · exact hall x hx'
        · right
          exact ⟨List.mem_cons_of_mem _ hm, h2⟩

theorem segment_cons {α : Type} (l : List α) (i n : Nat) (c : α) (h : l[i]? = some c) :
    (l.drop i).take (n + 1) = c :: (l.drop (i + 1)).take n := by
  have hi : i < l.length := by
    by_contra hc
    rw [List.getElem?_eq_none (by omega)] at h
    simp at h
  rw [List.drop_eq_getElem_cons hi, List.take_succ_cons]
  rw [List.getElem?_eq_getElem hi] at h
  simp only [Option.some.injEq] at h
  rw [h]

section ReportProofs

variable {K V H : Type} [LinearOrder K]

theorem scan_spec (pB : List Nat) : ∀ (n i : Nat) (r : Nat × Nat × Nat), i + n ≤ pB.length →
    zHash.TestHash.scan pB n i r = .ok
      (r.1 + filledOf ((pB.drop i).take n), r.2.1 + collidedOf ((pB.drop i).take n),
        max r.2.2 (worstOf ((pB.drop i).take n))) := by
  intro n
  induction n with
  | zero =>
    intro i r _
    simp [zHash.TestHash.scan, filledOf, collidedOf, worstOf]
  | succ n ih =>
    intro i r h
    have hi : i < pB.length := by omega
    have hc : pB[i]? = some pB[i] := List.getElem?_eq_getElem hi
    rw [zHash.TestHash.scan, hc]
    simp only
    rw [ih (i + 1) _ (by omega), segment_cons pB i n _ hc, filledOf_cons, collidedOf_cons,
      worstOf_cons]
    generalize pB[i] = c
    by_cases h0 : c = 0
    · subst h0
      simp
    · by_cases h2 : 2 ≤ c
      · have hpos : 0 < c := by omega
        simp only [ne_eq, h0, not_false_eq_true, if_true, h2, hpos]
        refine congrArg _ (Prod.ext (by simp only []; omega)
          (Prod.ext (by simp only []; omega) ?_))
        simp only []
        by_cases hlt : r.2.2 < c
        · rw [if_pos hlt, ← max_assoc, max_eq_right (show r.2.2 ≤ c from le_of_lt hlt)]
        · rw [if_neg hlt, ← max_assoc, max_eq_left (show c ≤ r.2.2 by omega)]
      · have hpos : 0 < c := by omega
        simp only [ne_eq, h0, not_false_eq_true, if_true, h2, if_false, hpos]
        refine congrArg _ (Prod.ext (by simp only []; omega)
          (Prod.ext (by simp only []; omega) ?_))
        simp only []

theorem scan_overrun (pB : List Nat) : ∀ (n i : Nat) (r : Nat × Nat × Nat), pB.length < i + n →
    0 < n → zHash.TestHash.scan pB n i r = .error .undefinedBehaviour := by
  intro n
  induction n with
  | zero => intro i r _ h; omega
  | succ n ih =>
    intro i r h _
    rw [zHash.TestHash.scan]
    cases hc : pB[i]? with
    | none => rfl
    | some c =>
      simp only
      have hi : i < pB.length := by
        by_contra hcc
        rw [List.getElem?_eq_none (by omega)] at hc
        simp at hc
      exact ih (i + 1) _ (by omega) (by omega)

end ReportProofs

section ReportProofs2

variable {K V H : Type} [LinearOrder K]

omit [LinearOrder K] in
theorem count_total (pFun : K → Nat) (Buckets : Nat) : ∀ (keys : List K) (pB : List Nat),
    zHash.TestHash.count pFun Buckets keys pB = .error .undefinedBehaviour ∨
    ∃ pB', zHash.TestHash.count pFun Buckets keys pB = .ok pB' ∧ pB'.length = pB.length := by
  intro keys
  induction keys with
  | nil => intro pB; exact Or.inr ⟨pB, rfl, rfl⟩
  | cons k rest ih =>
    intro pB
    rw [zHash.TestHash.count]
    by_cases hB : Buckets = 0
    · rw [if_pos hB]; exact Or.inl rfl
    · rw [if_neg hB]
      cases hc : pB[pFun k % 2 ^ 64 % Buckets]? with
      | none => exact Or.inl rfl
      | some c =>
        simp only
        rcases ih (pB.set (pFun k % 2 ^ 64 % Buckets) ((c + 1) % 2 ^ 64)) with h | ⟨pB', h1, h2⟩
        · exact Or.inl h
        · exact Or.inr ⟨pB', h1, by rw [h2, List.length_set]⟩

omit [LinearOrder K] in
theorem count_spec (pFun : K → Nat) (Buckets : Nat) (hB : 0 < Buckets) :
    ∀ (keys : List K) (pB : List Nat), Buckets ≤ pB.length → (∀ c ∈ pB, c < 2 ^ 64) →
    ∃ pB', zHash.TestHash.count pFun Buckets keys pB = .ok pB' ∧ pB'.length = pB.length ∧
      ∀ b, pB'[b]? = (pB[b]?).map (fun c =>
        (c + keys.countP (fun k => decide (pFun k % 2 ^ 64 % Buckets = b))) % 2 ^ 64) := by
  intro keys
  induction keys with
  | nil =>
    intro pB _ hlt
    refine ⟨pB, rfl, rfl, ?_⟩
    intro b
    cases hb : pB[b]? with
    | none => rfl
    | some c =>
      simp only [List.countP_nil, Nat.add_zero, Option.map_some', Option.some.injEq]
      exact (Nat.mod_eq_of_lt (hlt c (List.mem_iff_getElem?.2 ⟨b, hb⟩))).symm
  | cons k rest ih =>
    intro pB hlen hlt
    rw [zHash.TestHash.count, if_neg (by omega)]
    have hidx : pFun k % 2 ^ 64 % Buckets < pB.length :=
      lt_of_lt_of_le (Nat.mod_lt _ hB) hlen
    rw [List.getElem?_eq_getElem hidx]
    simp only
    obtain ⟨pB', h1, h2, h3⟩ := ih (pB.set (pFun k % 2 ^ 64 % Buckets)
      ((pB[pFun k % 2 ^ 64 % Buckets] + 1) % 2 ^ 64)) (by rw [List.length_set]; exact hlen)
      (by
        intro c hc
        rcases List.mem_or_eq_of_mem_set hc with h | h
        · exact hlt c h
        · rw [h]; exact Nat.mod_lt _ (by norm_num))
    refine ⟨pB', h1, by rw [h2, List.length_set], ?_⟩
    intro b
    rw [h3 b, List.countP_cons]
    by_cases hb : pFun k % 2 ^ 64 % Buckets = b
    · subst hb
      rw [List.getElem?_set_self hidx, List.getElem?_eq_getElem hidx]
      simp only [Option.map_some', decide_True, if_true, Option.some.injEq]
      omega
    · rw [List.getElem?_set_ne hb]
      simp only [hb, decide_False]
      rfl

omit [LinearOrder K] in
/-- TestHash with at least as many keys as buckets reports the distribution of the keys;
with more buckets than keys it leaves its buffer. -/
theorem TestHash_spec (pFun : K → Nat) (Key : List K) (Buckets : Nat)
    (hk : Key.length < 2 ^ 61) (h2 : 1 ≤ Buckets) :
    (Buckets ≤ Key.length → zHash.TestHash pFun Key Buckets true = .ok (some
      (filledOf (spread pFun Key Buckets), collidedOf (spread pFun Key Buckets),
        worstOf (spread pFun Key Buckets)))) ∧
    (Key.length < Buckets →
      zHash.TestHash pFun Key Buckets true = .error .undefinedBehaviour) := by
  have hn : (Key.length * 8) % 2 ^ 64 / 8 = Key.length := by
    have p61 : (2:Nat) ^ 61 = 2305843009213693952 := by norm_num
    have p64 : (2:Nat) ^ 64 = 18446744073709551616 := by norm_num
    rw [p61] at hk
    rw [p64]
    omega
  unfold zHash.TestHash
  rw [hn]
  simp only [Bool.true_eq_false, if_false]
  constructor
  · intro hle
    obtain ⟨pB, e, hlen, hval⟩ := count_spec pFun Buckets (by omega) Key
      (List.replicate Key.length 0) (by rw [List.length_replicate]; exact hle)
      (by intro c hc; rw [List.eq_of_mem_replicate hc]; norm_num)
    rw [List.length_replicate] at hlen
    rw [e]
    simp only
    rw [scan_spec pB Buckets 0 (0, 0, 0) (by omega)]
    have hseg : (pB.drop 0).take Buckets = spread pFun Key Buckets := by
      apply List.ext_getElem?
      intro b
      unfold spread
      rw [List.drop_zero, List.getElem?_take, List.getElem?_map]
      by_cases hb : b < Buckets
      · rw [if_pos hb, hval b, List.getElem?_replicate, if_pos (by omega),
          List.getElem?_range hb]
        simp only [Option.map_some', Nat.zero_add, Option.some.injEq]
        apply Nat.mod_eq_of_lt
        have hcnt : List.countP (fun k => decide (pFun k % 2 ^ 64 % Buckets = b)) Key
            ≤ Key.length := List.countP_le_length _
        generalize List.countP (fun k => decide (pFun k % 2 ^ 64 % Buckets = b)) Key = cnt
          at hcnt ⊢
        have p61 : (2:Nat) ^ 61 = 2305843009213693952 := by norm_num
        have p64 : (2:Nat) ^ 64 = 18446744073709551616 := by norm_num
        rw [p61] at hk
        rw [p64]
        omega
      · rw [if_neg hb, List.getElem?_eq_none (by rw [List.length_range]; omega)]
        rfl
    rw [hseg]
    simp
  · intro hlt
    rcases count_total pFun Buckets Key (List.replicate Key.length 0) with h | ⟨pB, h, hlen⟩
    · rw [h]
    · rw [h]
      simp only
      rw [List.length_replicate] at hlen
      rw [scan_overrun pB Buckets 0 (0, 0, 0) (by omega) (by omega)]

end ReportProofs2

/-- C40, as the code behaves: TestHash allocates KeyNum counters but indexes them by
hash % Buckets and scans the counters 0 to Buckets - 1.  With Buckets not above KeyNum all
indices are inside the buffer and the report is that of the distribution of the keys over the
buckets; with Buckets above KeyNum the second loop reads pB[KeyNum], outside the buffer,
if the first loop has not left it already. -/
theorem C40_TestHash_buffer {K : Type} (pFun : K → Nat) (Key : List K) (Buckets : Nat)
    (h1 : 1 ≤ Key.length) (hk : Key.length < 2 ^ 61) (h2 : 1 ≤ Buckets) :
    (Buckets ≤ Key.length → zHash.TestHash pFun Key Buckets true = .ok (some
      (filledOf (spread pFun Key Buckets), collidedOf (spread pFun Key Buckets),
        worstOf (spread pFun Key Buckets)))) ∧
    (Key.length < Buckets →
      zHash.TestHash pFun Key Buckets true = .error .undefinedBehaviour) := by
  have _ := h1
  exact TestHash_spec pFun Key Buckets hk h2

/-- Instance of C40, the failing input: one key and two buckets. -/
theorem C40_TestHash_buffer_witness :
    1 ≤ [7].length ∧ [7].length < 2 ^ 61 ∧ 1 ≤ 2 ∧ [7].length < 2 ∧
    zHash.TestHash (fun k : Nat => k) [7] 2 true = .error .undefinedBehaviour :=
  ⟨by decide, by norm_num, by decide, by decide,
    (C40_TestHash_buffer (fun k : Nat => k) [7] 2 (by decide) (by norm_num) (by decide)).2
      (by decide)⟩

section CheckProofs

variable {K V H : Type} [LinearOrder K]

theorem checkEntry_spec (hf : K → Nat → Nat) (m mask i : Nat) (e : ENTRY K V)
    (hwf : e.WF hf m mask i) (r : Nat × Nat × Nat × Nat) (hr : r.2.1 < 2 ^ 64) :
    zHash.checkEntry e r = .ok
      (r.1 + (if 0 < e.nodes.length then 1 else 0), (r.2.1 + e.nodes.length) % 2 ^ 64,
        r.2.2.1 + (if 2 ≤ e.nodes.length then 1 else 0),
        if 2 ≤ e.nodes.length then max r.2.2.2 e.nodes.length else r.2.2.2) := by
  obtain ⟨-, hm⟩ := hwf
  unfold zHash.checkEntry ENTRY.nodes
  cases hp : e.p with
  | null =>
    simp only [List.length_nil, lt_self_iff_false, if_false, Nat.add_zero, Nat.reduceLeDiff]
    rw [Nat.mod_eq_of_lt hr]
  | list first rest =>
    rw [hp] at hm
    simp only at hm
    obtain ⟨hsz, -⟩ := hm
    simp only
    rw [hsz]
    simp only [List.length_cons] at hsz ⊢
    by_cases h1 : rest.length = 0
    · simp [h1]
    · have h2 : 2 ≤ rest.length + 1 := by omega
      have h3 : ¬ rest.length + 1 = 1 := by omega
      simp only [h3, if_false, h2, if_true, Nat.zero_lt_succ]
      refine congrArg _ (Prod.ext rfl (Prod.ext rfl (Prod.ext rfl ?_)))
      simp only []
      by_cases hlt : r.2.2.2 < rest.length + 1
      · rw [if_pos hlt, max_eq_right (le_of_lt hlt)]
      · rw [if_neg hlt, max_eq_left (by omega)]
  | tree t =>
    rw [hp] at hm
    simp only at hm
    obtain ⟨hsz, hv, hmin⟩ := hm
    have hlen := valid_size hv
    simp only
    rw [hsz]
    simp only [Nat.zero_ne_one, if_false, Nat.reduceLeDiff, zBTree.Count]
    rw [← hlen]
    unfold MIN_BTREE_SIZE at hmin
    have h2 : 2 ≤ t.Size := by omega
    have h0 : 0 < t.Size := by omega
    simp only [h2, h0, if_true]
    refine congrArg _ (Prod.ext rfl (Prod.ext rfl (Prod.ext rfl ?_)))
    simp only []
    by_cases hlt : r.2.2.2 < t.Size
    · rw [if_pos hlt, max_eq_right (le_of_lt hlt)]
    · rw [if_neg hlt, max_eq_left (by omega)]

theorem checkLoop_spec (hf : K → Nat → Nat) (m mask : Nat) (pBucket : List (ENTRY K V))
    (hwf : ∀ (i : Nat) (e : ENTRY K V), pBucket[i]? = some e → e.WF hf m mask i) :
    ∀ (n i : Nat) (r : Nat × Nat × Nat × Nat), i + n ≤ pBucket.length → r.2.1 < 2 ^ 64 →
    zHash.checkLoop pBucket n i r = .ok
      (r.1 + filledOf (((pBucket.map (fun e => e.nodes.length)).drop i).take n),
        (r.2.1 + (((pBucket.map (fun e => e.nodes.length)).drop i).take n).sum) % 2 ^ 64,
        r.2.2.1 + collidedOf (((pBucket.map (fun e => e.nodes.length)).drop i).take n),
        max r.2.2.2 (worstOf (((pBucket.map (fun e => e.nodes.length)).drop i).take n))) := by
  intro n
  induction n with
  | zero =>
    intro i r _ hr
    have hr' : r.2.1 % 18446744073709551616 = r.2.1 := Nat.mod_eq_of_lt (by norm_num at hr ⊢; exact hr)
    simp [zHash.checkLoop, filledOf, collidedOf, worstOf, hr']
  | succ n ih =>
    intro i r h hr
    have hi : i < pBucket.length := by omega
    have hc : pBucket[i]? = some pBucket[i] := List.getElem?_eq_getElem hi
    rw [zHash.checkLoop, hc]
    simp only
    rw [checkEntry_spec hf m mask i _ (hwf i _ hc) r hr]
    simp only
    rw [ih (i + 1) _ (by omega) (Nat.mod_lt _ (by norm_num))]
    have hcm : (pBucket.map (fun e => e.nodes.length))[i]? = some (pBucket[i].nodes.length) := by
      rw [List.getElem?_map, hc]; rfl
    rw [segment_cons _ i n _ hcm, filledOf_cons, collidedOf_cons, worstOf_cons, List.sum_cons]
    generalize pBucket[i].nodes.length = c
    refine congrArg _ (Prod.ext (by simp only []; omega) (Prod.ext ?_
      (Prod.ext (by simp only []; omega) ?_)))
    · simp only []
      rw [Nat.mod_add_mod, Nat.add_assoc]
    · simp only []
      by_cases h2 : 2 ≤ c
      · rw [if_pos h2, if_pos h2, max_assoc]
      · rw [if_neg h2, if_neg h2]

omit [LinearOrder K] in
theorem checkLoop_null (N : Nat) : ∀ (n i : Nat) (r : Nat × Nat × Nat × Nat), i + n ≤ N →
    zHash.checkLoop (List.replicate N (zHash.freshEntry : ENTRY K V)) n i r = .ok r := by
  intro n
  induction n with
  | zero => intro i r _; rfl
  | succ n ih =>
    intro i r h
    rw [zHash.checkLoop, List.getElem?_replicate, if_pos (by omega)]
    simp only
    rw [show zHash.checkEntry (zHash.freshEntry : ENTRY K V) r = .ok r from rfl]
    exact ih (i + 1) r (by omega)

omit [LinearOrder K] in
theorem sizes_sum (s : zHash K V H) : s.sizes.sum = s.records.length := by
  unfold zHash.sizes zHash.records recordsOf zHash.allNodes
  rw [List.length_map, List.length_flatten, List.map_map]
  rfl

/-- CheckHash on a table with the invariant and fewer than 2 ^ 32 buckets. -/
theorem CheckHash_spec (s : zHash K V H) (hwf : s.WF) (hB : s.Buckets < 2 ^ 32) :
    s.CheckHash = .ok ((s.Buckets, filledOf s.sizes, s.records.length % 2 ^ 64,
      collidedOf s.sizes, worstOf s.sizes), s) := by
  unfold zHash.CheckHash
  rw [if_neg (by omega)]
  obtain ⟨hlen, -, -, hent⟩ := hwf
  rw [checkLoop_spec s.pHashFun s.MaskBits s.PosMask s.pBucket hent s.Buckets 0 (0, 0, 0, 0)
    (by omega) (by norm_num)]
  have hseg : ((s.pBucket.map (fun e => e.nodes.length)).drop 0).take s.Buckets = s.sizes := by
    rw [List.drop_zero, ← hlen]
    unfold zHash.sizes
    rw [List.take_of_length_le (by rw [List.length_map])]
  rw [hseg]
  simp only [Nat.zero_add, sizes_sum]
  rw [Nat.max_eq_right (Nat.zero_le _)]

end CheckProofs

set_option maxHeartbeats 4000000 in
set_option maxRecDepth 1000000 in
/-- C33, failing case: in a fresh table with the key as hash, with n of the keys 1, 257, 513,
769 and 1025 in bucket 1, Insert of 1281 and inserCopyData of 1281 both leave a list of
n + 1 nodes for n below 5, and both leave a tree when the bucket is a tree already; but on the
list of 5 nodes Insert leaves a tree (Size_Type 0) of the six records, while inserCopyData
leaves a list with Size_Type 6: insertKey converts as soon as the list has
MAX_LINKEDLIST_SIZE nodes, inserCopyData only when it has that many before the insert. -/
theorem C33_chain_rules_differ :
    (∀ n, n < 5 → ∃ s, runOps (freshTable []) (fiveInserts.take n) = some s ∧
      chainAfterInsert s 1281 60 = some (false, n + 1) ∧
      chainAfterCopy s 1281 60 = some (false, n + 1)) ∧
    (∃ s, runOps (freshTable []) fiveInserts = some s ∧
      chainAfterInsert s 1281 60 = some (true, 0) ∧
      chainAfterCopy s 1281 60 = some (false, 6)) ∧
    (∃ s, runOps (freshTable []) (fiveInserts ++ [.insert 1281 60]) = some s ∧
      chainAfterInsert s 1537 70 = some (true, 0) ∧
      chainAfterCopy s 1537 70 = some (true, 0)) := by
  have h : ((List.range 5).all (fun n =>
      onSome (runOps (freshTable []) (fiveInserts.take n)) (fun s =>
        decide (chainAfterInsert s 1281 60 = some (false, n + 1)) &&
        decide (chainAfterCopy s 1281 60 = some (false, n + 1)))) &&
      onSome (runOps (freshTable []) fiveInserts) (fun s =>
        decide (chainAfterInsert s 1281 60 = some (true, 0)) &&
        decide (chainAfterCopy s 1281 60 = some (false, 6))) &&
      onSome (runOps (freshTable []) (fiveInserts ++ [.insert 1281 60])) (fun s =>
        decide (chainAfterInsert s 1537 70 = some (true, 0)) &&
        decide (chainAfterCopy s 1537 70 = some (true, 0)))) = true := by
    decide!
  simp only [Bool.and_eq_true, List.all_eq_true, List.mem_range] at h
  obtain ⟨⟨h1, h2⟩, h3⟩ := h
  refine ⟨?_, ?_, ?_⟩
  · intro n hn
    obtain ⟨s, hs, hp⟩ := onSome_true (h1 n hn)
    simp only [Bool.and_eq_true, decide_eq_true_eq] at hp
    exact ⟨s, hs, hp.1, hp.2⟩
  · obtain ⟨s, hs, hp⟩ := onSome_true h2
    simp only [Bool.and_eq_true, decide_eq_true_eq] at hp
    exact ⟨s, hs, hp.1, hp.2⟩
  · obtain ⟨s, hs, hp⟩ := onSome_true h3
    simp only [Bool.and_eq_true, decide_eq_true_eq] at hp
    exact ⟨s, hs, hp.1, hp.2⟩

section LockBalance

variable {K V H : Type} [LinearOrder K]

/-- The lock of a bucket after one RUnlock too many: the word is 0xFFFFFFFF. -/
theorem rUnlock_init :
    zRWLock.init.RUnlock = { Flag := 2 ^ 32 - 1, WriteFlag := false } := by
  unfold zRWLock.RUnlock zRWLock.init
  norm_num

theorem rUnlock_one :
    ({ Flag := 1, WriteFlag := false } : zRWLock).RUnlock = zRWLock.init := by
  unfold zRWLock.RUnlock zRWLock.init
  norm_num

/-- On a key that is not in the table, searchAndRLock hands the bucket back with its lock
as it was. -/
theorem search_miss {s : zHash K V H} (hw : s.WF) (k : K) (e : ENTRY K V)
    (he : s.pBucket[s.pos k]? = some e) (hl : e.lock = zRWLock.init)
    (hmiss : s.lookup k = none) :
    zHash.searchAndRLock s k = .ok (none, s.pos k, s) := by
  have hf : s.find k = none := by
    cases h : s.find k with
    | none => rfl
    | some d => simp [zHash.lookup, h] at hmiss
  by_cases hp : e.p = .null
  · exact (searchAndRLock_null k e he hp).1
  · rw [searchAndRLock_ok hw k e he hp _ (by rw [hl]; exact rlock_init), hf]
    have h1 : lockAfterSearch (none : Option (DATA_NODE K V)) { Flag := 1, WriteFlag := false }
        = e.lock := by
      rw [hl]
      exact rUnlock_one
    rw [h1]
    have h2 : s.setEntry (s.pos k) { e with lock := e.lock } = s := by
      unfold zHash.setEntry
      have : s.pBucket.set (s.pos k) e = s.pBucket := by
        apply List.ext_getElem?
        intro j
        by_cases hj : j = s.pos k
        · subst hj
          rw [List.getElem?_set_self (pos_lt hw k), he]
        · rw [List.getElem?_set_ne (fun e => hj e.symm)]
      rw [this]
    rw [h2]

theorem miss_lock {s : zHash K V H} (hw : s.WF) (k : K) (e : ENTRY K V)
    (he : s.pBucket[s.pos k]? = some e) (hl : e.lock = zRWLock.init) :
    (s.rUnlockAt (s.pos k)).lockAt (s.pos k)
      = some { Flag := 2 ^ 32 - 1, WriteFlag := false } := by
  rw [rUnlock_plain s _ e he]
  unfold zHash.lockAt
  rw [setEntry_same _ _ _ (pos_lt hw k)]
  simp only [Option.map_some']
  rw [hl, rUnlock_init]

end LockBalance

/-- C31, failing case: in a table with its invariant and the lock of every bucket at rest
(Flag 0), Value and Update of a key that is not in the table return false and leave the
word Flag of the bucket of the key at 0xFFFFFFFF, not at 0: searchAndRLock has released
the read lock itself, or has not taken it because the bucket is empty, and Value and
Update call RUnlock once more. -/
theorem C31_miss_unlocks_twice {K V H : Type} [LinearOrder K] (s : zHash K V H)
    (hw : s.WF) (hc : Calm s) (k : K) (v : V) (hmiss : s.lookup k = none) :
    (∃ s', zHash.Value s k = .ok (none, s') ∧
      s'.lockAt (s.pos k) = some { Flag := 2 ^ 32 - 1, WriteFlag := false } ∧ ¬ Calm s') ∧
    (∃ s', zHash.Update s k v = .ok (false, s') ∧
      s'.lockAt (s.pos k) = some { Flag := 2 ^ 32 - 1, WriteFlag := false } ∧ ¬ Calm s') := by
  obtain ⟨e, he, -⟩ := entry_at hw k
  have hl := hc _ e he
  have hs := search_miss hw k e he hl hmiss
  have hm := miss_lock hw k e he hl
  have hnc : ¬ Calm (s.rUnlockAt (s.pos k)) := by
    intro hcalm
    unfold zHash.lockAt at hm
    cases hx : (s.rUnlockAt (s.pos k)).pBucket[s.pos k]? with
    | none => rw [hx] at hm; simp at hm
    | some x =>
      rw [hx] at hm
      simp only [Option.map_some', Option.some.injEq] at hm
      have := hcalm _ x hx
      rw [this] at hm
      unfold zRWLock.init at hm
      simp only [zRWLock.mk.injEq, and_true] at hm
      norm_num at hm
  constructor
  · refine ⟨s.rUnlockAt (s.pos k), ?_, hm, hnc⟩
    unfold zHash.Value
    rw [hs]
  · refine ⟨s.rUnlockAt (s.pos k), ?_, hm, hnc⟩
    unfold zHash.Update
    rw [hs]

set_option maxRecDepth 1000000 in
/-- Instance of C31: Value(257) and Update(257, 20) on the table of the constructor, which
holds no record. -/
theorem C31_miss_unlocks_twice_witness :
    (freshTable []).WF ∧ Calm (freshTable []) ∧ (freshTable []).lookup 257 = none ∧
    (∃ s', zHash.Value (freshTable []) 257 = .ok (none, s') ∧
      s'.lockAt ((freshTable []).pos 257) = some { Flag := 2 ^ 32 - 1, WriteFlag := false } ∧
      ¬ Calm s') :=
  have hw : (freshTable []).WF := reachable_WF slabHeap (zHash.Reachable.new keyHash [])
  have hc : Calm (freshTable []) := by
    intro j e he
    have : (freshTable []).pBucket = List.replicate 256 zHash.freshEntry := rfl
    rw [this, List.getElem?_replicate] at he
    split at he
    · simp only [Option.some.injEq] at he
      rw [← he]; rfl
    · simp at he
  have hl : (freshTable []).lookup 257 = none := by decide!
  ⟨hw, hc, hl, (C31_miss_unlocks_twice (freshTable []) hw hc 257 20 hl).1⟩

section Stuck

variable {K V H : Type} [LinearOrder K]

omit [LinearOrder K] in
theorem setEntry_self (s : zHash K V H) (pos : Nat) (e : ENTRY K V)
    (he : s.pBucket[pos]? = some e) : s.setEntry pos e = s := by
  unfold zHash.setEntry
  have : s.pBucket.set pos e = s.pBucket := by
    apply List.ext_getElem?
    intro j
    by_cases hj : j = pos
    · subst hj
      by_cases hk : j < s.pBucket.length
      · rw [List.getElem?_set_self hk, he]
      · rw [List.getElem?_eq_none (by simp; omega), List.getElem?_eq_none (by omega)]
    · rw [List.getElem?_set_ne (fun e => hj e.symm)]
  rw [this]

omit [LinearOrder K] in
/-- The unlock and the new lock of the same entry on the way back to INSERT_BEGIN leave a
table with that entry write-locked as it was. -/
theorem relock_same (s : zHash K V H) (pos : Nat) (key : K) (e : ENTRY K V)
    (he : s.pBucket[pos]? = some e) (hl : e.lock = wlocked)
    (hpos : s.pHashFun key s.MaskBits &&& s.PosMask = pos) :
    zHash.relock s s pos key = .ok (s, s.pHashFun key s.MaskBits, pos) := by
  have hlt : pos < s.pBucket.length := by
    by_contra hc
    rw [List.getElem?_eq_none (by omega)] at he
    simp at he
  unfold zHash.relock
  simp only [if_true, hpos]
  unfold zHash.wUnlockAt
  rw [he]
  simp only
  unfold zHash.wLockAt
  rw [setEntry_same _ _ _ hlt]
  simp only
  rw [setEntry_twice]
  have : ({ p := e.p, lock := zRWLock.WLock (zRWLock.WUnlock e.lock), Size_Type := e.Size_Type }
      : ENTRY K V) = e := by
    cases e with
    | mk p lk st =>
      simp only at hl
      subst hl
      rfl
  rw [this, setEntry_self s pos e he]

end Stuck

mutual
theorem same_sound : ∀ (a b : zBTreeNode Nat Nat), a.same b = true → a = b
  | .mk s1 k1 c1, .mk s2 k2 c2, h => by
    simp only [zBTreeNode.same, Bool.and_eq_true, decide_eq_true_eq] at h
    obtain ⟨⟨h1, h2⟩, h3⟩ := h
    rw [h1, h2, sameList_sound c1 c2 h3]
theorem sameList_sound : ∀ (as bs : List (zBTreeNode Nat Nat)),
    zBTreeNode.sameList as bs = true → as = bs
  | [], [], _ => rfl
  | a :: as, b :: bs, h => by
    simp only [zBTreeNode.sameList, Bool.and_eq_true] at h
    rw [same_sound a b h.1, sameList_sound as bs h.2]
  | [], _ :: _, h => by simp [zBTreeNode.sameList] at h
  | _ :: _, [], h => by simp [zBTreeNode.sameList] at h
end

theorem tree_same_sound (a b : zBTree Nat Nat) (h : a.same b = true) : a = b := by
  unfold zBTree.same at h
  simp only [Bool.and_eq_true, decide_eq_true_eq] at h
  obtain ⟨h1, h2⟩ := h
  cases a with
  | mk sa ra =>
    cases b with
    | mk sb rb =>
      simp only at h1 h2
      subst h1
      cases ra with
      | none =>
        cases rb with
        | none => rfl
        | some y => simp at h2
      | some x =>
        cases rb with
        | none => simp at h2
        | some y =>
          simp only at h2
          rw [same_sound x y h2]

theorem onTable_true {σ : Type} {x : Except Fault σ} {p : σ → Bool} (h : onTable x p = true) :
    ∃ s, x = .ok s ∧ p s = true := by
  cases x with
  | error f => simp [onTable] at h
  | ok s => exact ⟨s, rfl, h⟩

/-- One pass of insertKey that comes back to INSERT_BEGIN with the table as it was: the
tree of the bucket cannot get a node, and pauseAndUpsize returns true without a rebuild
because DataCount is below Threshold. -/
theorem insertKey_stuck_tree (fuel : Nat) (s : Table) (pos key u : Nat)
    (hs : stuckAtTree s pos (s.pHashFun key s.MaskBits) key u = true)
    (hr : s.Resizable = true) (hb : ¬ s.Buckets > s.MaxSize) (hd : ¬ s.DataCount ≥ s.Threshold)
    (hpos : s.pHashFun key s.MaskBits &&& s.PosMask = pos) :
    zHash.insertKey slabHeap (fuel + 1) s pos (s.pHashFun key s.MaskBits) key u
      = zHash.insertKey slabHeap fuel s pos (s.pHashFun key s.MaskBits) key u := by
  unfold stuckAtTree at hs
  cases he : s.pBucket[pos]? with
  | none => rw [he] at hs; simp at hs
  | some e =>
    rw [he] at hs
    simp only at hs
    cases hp : e.p with
    | null => rw [hp] at hs; simp at hs
    | list f r => rw [hp] at hs; simp at hs
    | tree t =>
      rw [hp] at hs
      simp only [Bool.and_eq_true, decide_eq_true_eq] at hs
      obtain ⟨⟨hst, hl⟩, hrest⟩ := hs
      cases ha : slabHeap.LockAlloc s.pHeap with
      | mk oslot hp1 =>
        rw [ha] at hrest
        cases oslot with
        | none => simp at hrest
        | some slot =>
          simp only [Bool.and_eq_true, decide_eq_true_eq] at hrest
          obtain ⟨hfree, hins⟩ := hrest
          cases hi : t.Insert slabHeap
              { slot := slot, h := s.pHashFun key s.MaskBits, key := key, value := u }
              s.pBTNodeHeap with
          | mk st rest =>
            obtain ⟨t1, hb1⟩ := rest
            rw [hi] at hins
            cases st with
            | inserted => simp at hins
            | found d => simp at hins
            | noFuel => simp at hins
            | memError =>
              simp only [Bool.and_eq_true, decide_eq_true_eq] at hins
              obtain ⟨hsame, hheap⟩ := hins
              have ht := tree_same_sound t1 t hsame
              subst ht
              subst hheap
              rw [zHash.insertKey]
              simp only
              rw [he]
              simp only [hp]
              rw [if_neg (by omega), ha]
              simp only
              rw [hi]
              simp only
              rw [hfree]
              have hent : ({ p := ChainPtr.tree t1, lock := e.lock, Size_Type := e.Size_Type }
                  : ENTRY Nat Nat) = e := by
                cases e with
                | mk p lk sz =>
                  simp only at hp
                  subst hp
                  rfl
              rw [hent]
              have hstate : zHash.setEntry
                  ({ s with pHeap := s.pHeap, pBTNodeHeap := s.pBTNodeHeap } : Table) pos e
                  = s := setEntry_self s pos e he
              rw [hstate]
              have hpu : zHash.pauseAndUpsize slabHeap s = .ok (true, s) := by
                unfold zHash.pauseAndUpsize
                simp only [hr, if_true, hb, if_false, hd]
              unfold zHash.insertRetry
              rw [hpu]
              simp only
              rw [relock_same s pos key e he hl hpos]

theorem Insert_never_tree (s P : Table) (key v u : Nat)
    (hP : s.wLockAt (s.pos key) = .ok P)
    (hs : stuckAtTree P (s.pos key) (s.pHashFun key s.MaskBits) key u = true)
    (hr : P.Resizable = true) (hb : ¬ P.Buckets > P.MaxSize) (hd : ¬ P.DataCount ≥ P.Threshold) :
    ∀ fuel, zHash.Insert slabHeap fuel s key v u = .error .outOfFuel := by
  have hf : P.pHashFun key P.MaskBits = s.pHashFun key s.MaskBits ∧ P.PosMask = s.PosMask := by
    unfold zHash.wLockAt at hP
    cases he : s.pBucket[s.pos key]? with
    | none => rw [he] at hP; simp at hP
    | some e =>
      rw [he] at hP
      simp only [Except.ok.injEq] at hP
      rw [← hP]
      exact ⟨rfl, rfl⟩
  have hpos : P.pHashFun key P.MaskBits &&& P.PosMask = s.pos key := by
    rw [hf.1, hf.2]; rfl
  have hall : ∀ fuel, zHash.insertKey slabHeap fuel P (s.pos key) (P.pHashFun key P.MaskBits)
      key u = .error .outOfFuel := by
    intro fuel
    induction fuel with
    | zero => rfl
    | succ fuel ih =>
      rw [insertKey_stuck_tree fuel P (s.pos key) key u (by rw [hf.1]; exact hs) hr hb hd hpos]
      exact ih
  intro fuel
  unfold zHash.Insert
  simp only
  have hpk : s.pHashFun key s.MaskBits &&& s.PosMask = s.pos key := rfl
  rw [hpk, hP]
  simp only
  have := hall fuel
  rw [hf.1] at this
  rw [this]

set_option maxRecDepth 1000000 in
/-- The run crowdThenFree on the table of the constructor: 177 records, fewer than the
Threshold of 192, in trees of 103 nodes, which are all the units of the tree-node heap; a
pass of insertKey for the key 3112 comes back to INSERT_BEGIN with the table as it was; and
after five more inserts into bucket 50 the insert of a sixth key there ends in undefined
behaviour. -/
theorem crowd_run :
    onSome (runOps (freshTable []) crowdThenFree) (fun s =>
      s.Resizable && decide (s.Buckets = 256) && decide (s.DataCount = 177) &&
      decide (s.Threshold = 192) && decide (s.records.length = 177) &&
      decide (s.treeNodes = 103) &&
      decide (slabHeap.LockAlloc s.pBTNodeHeap = (none, s.pBTNodeHeap)) &&
      decide (s.lookup 3112 = none) &&
      onTable (s.wLockAt (s.pos 3112)) (fun P =>
        stuckAtTree P (s.pos 3112) (s.pHashFun 3112 s.MaskBits) 3112 0 &&
        P.Resizable && decide (¬ P.Buckets > P.MaxSize) &&
        decide (¬ P.DataCount ≥ P.Threshold)) &&
      onSome (runOps s fiveInBucket50) (fun s2 =>
        decide (s2.records.length = 182) && decide (s2.Threshold = 192) &&
        decide (s2.treeNodes = 103) &&
        decide (slabHeap.LockAlloc s2.pBTNodeHeap = (none, s2.pBTNodeHeap)) &&
        onUndefined (zHash.Insert slabHeap 2 s2 1330 9 0))) = true := by
  decide!

section IllFormed

variable {K V H : Type} [LinearOrder K]

/-- C3, failing case: the member Upsert has no run.  Its call
pHashFun(Key, PosMask, MaskBits) passes three arguments to a pointer of the type
ZHASH_FUNCTION, which takes the key and MaskBits, so for every table, key and value the
call is ill-formed and Upsert returns nothing; the call of Insert, with MaskBits alone, is
the hash of the key.  Hence no sequence of Upsert calls returns true even once, and no value
is written by it. -/
theorem C3_upsert_has_no_run (Hp : zMemHeap H) (fuel : Nat) (s : zHash K V H) (k : K)
    (v u : V) :
    s.hashCall k [s.PosMask, s.MaskBits] = .error .illFormed ∧
    s.hashCall k [s.MaskBits] = .ok (s.pHashFun k s.MaskBits) ∧
    zHash.Upsert Hp fuel s k v u = .error .illFormed ∧
    ∀ ws : List (Nat × V × V), zHash.runUpserts Hp k s ((fuel, v, u) :: ws) = none := by
  have h : zHash.Upsert Hp fuel s k v u = .error .illFormed := by
    unfold zHash.Upsert zHash.hashCall
    rfl
  refine ⟨rfl, rfl, h, ?_⟩
  intro ws
  rw [zHash.runUpserts, h]

/-- C4, failing case: the member Del has no run.  Its first statement is the call
pHashFun(Key, PosMask, MaskBits) with three arguments for the two parameters of the type
ZHASH_FUNCTION, so for every table and key the call is ill-formed and Del returns nothing,
whether the key is present or not; the sibling members Insert, Value and Update call the
pointer with MaskBits alone. -/
theorem C4_del_has_no_run (Hp : zMemHeap H) (s : zHash K V H) (k : K) :
    s.hashCall k [s.PosMask, s.MaskBits] = .error .illFormed ∧
    s.hashCall k [s.MaskBits] = .ok (s.pHashFun k s.MaskBits) ∧
    zHash.Del Hp s k = .error .illFormed ∧
    ∀ r s1, zHash.Del Hp s k ≠ .ok (r, s1) := by
  have h : zHash.Del Hp s k = .error .illFormed := by
    unfold zHash.Del zHash.hashCall
    rfl
  refine ⟨rfl, rfl, h, ?_⟩
  intro r s1 hd
  rw [h] at hd
  cases hd

end IllFormed

/-- C1, failing case.  In a table with its invariant, after Insert(k, v) has returned
SUCCESS and any Update calls on k have run, Value(k) returns true with the value written
last; but a call Upsert(k, v2) that follows has no run, because its call
pHashFun(Key, PosMask, MaskBits) is ill-formed: v2 is never written and no later Value(k)
yields it. -/
theorem C1_upsert_after_insert {K V H : Type} [LinearOrder K] (Hp : zMemHeap H)
    (s s1 s2 : zHash K V H) (fuel : Nat) (k : K) (v u w : V) (vs : List V) (hw : s.WF)
    (hi : zHash.Insert Hp fuel s k v u = .ok (.SUCCESS, s1))
    (hws : zHash.runUpdates k s1 v vs = .ok (s2, w)) :
    (∃ s3, zHash.Value s2 k = .ok (some w, s3)) ∧
    ∀ (fuel2 : Nat) (v2 u2 : V),
      zHash.Upsert Hp fuel2 s2 k v2 u2 = .error .illFormed ∧
      ∀ b s3, zHash.Upsert Hp fuel2 s2 k v2 u2 ≠ .ok (b, s3) := by
  refine ⟨value_after_insert Hp s s1 s2 fuel k v u w vs hw hi hws, ?_⟩
  intro fuel2 v2 u2
  have h : zHash.Upsert Hp fuel2 s2 k v2 u2 = .error .illFormed := by
    unfold zHash.Upsert zHash.hashCall
    rfl
  refine ⟨h, ?_⟩
  intro b s3 hd
  rw [h] at hd
  cases hd

set_option maxRecDepth 1000000 in
/-- Instance of C1: on the table of the constructor Insert(1, 10) returns SUCCESS and
Update(1, 20) returns true; Value(1) then returns true with 20, and Upsert(1, 30) has no
run. -/
theorem C1_upsert_after_insert_witness :
    (freshTable []).WF ∧
    ∃ s1 s2 : Table, zHash.Insert slabHeap 3 (freshTable []) 1 10 0 = .ok (.SUCCESS, s1) ∧
      zHash.runUpdates 1 s1 10 [20] = .ok (s2, 20) ∧
      (∃ s3, zHash.Value s2 1 = .ok (some 20, s3)) ∧
      zHash.Upsert slabHeap 3 s2 1 30 0 = .error .illFormed := by
  have h : onOk (zHash.Insert slabHeap 3 (freshTable []) 1 10 0) .SUCCESS (fun s1 =>
      onWritten (zHash.runUpdates 1 s1 10 [20]) 20 (fun _ => true)) = true := by decide!
  obtain ⟨s1, h1, h2⟩ := onOk_true h
  obtain ⟨s2, h2, -⟩ := onWritten_true h2
  have hw : (freshTable []).WF := reachable_WF slabHeap (zHash.Reachable.new keyHash [])
  have hc := C1_upsert_after_insert slabHeap (freshTable []) s1 s2 3 1 10 0 20 [20] hw h1 h2
  exact ⟨hw, s1, s2, h1, h2, hc.1, (hc.2 3 30 0).1⟩

theorem onFault_true {β : Type} {x : Except Fault β} {f : Fault} (h : onFault x f = true) :
    x = .error f := by
  cases x with
  | ok b => simp [onFault] at h
  | error g =>
    simp only [onFault, decide_eq_true_eq] at h
    rw [h]

set_option maxHeartbeats 4000000 in
set_option maxRecDepth 1000000 in
/-- C12, failing case.  After the six inserts of 1, 257, 513, 769, 1025 and 1281 the bucket
1 holds a tree.  The member Del has no run on it, for no key: its call
pHashFun(Key, PosMask, MaskBits) is ill-formed.  The statements that follow the call, run
with the hash of the key, remove 1281 and leave the tree with five records, then remove 769
and leave the list of the four other nodes with Size_Type 4; but when the process heap
refuses the buffer of treeToList, the exception std::bad_alloc leaves them uncaught and
nothing is returned. -/
theorem C12_del_never_demotes :
    ∃ (s6 s5 s4 : Table),
      runOps (freshTable []) sixInserts = some s6 ∧
      onSome (s6.pBucket[1]?) (fun e => e.isTree && decide (e.nodes.length = 6)) = true ∧
      zHash.Del slabHeap s6 1281 = .error .illFormed ∧
      zHash.removal slabHeap s6 1281 = .ok (some 60, s5) ∧
      onSome (s5.pBucket[1]?) (fun e => e.isTree && decide (e.Size_Type = 0) &&
        decide (e.nodes.map (fun d => d.key) = [1, 257, 513, 769, 1025])) = true ∧
      zHash.Del slabHeap s5 769 = .error .illFormed ∧
      zHash.removal slabHeap s5 769 = .ok (some 40, s4) ∧
      onSome (s4.pBucket[1]?) (fun e => e.isList && decide (e.Size_Type = 4) &&
        decide (e.nodes.map (fun d => d.key) = [1, 257, 513, 1025])) = true ∧
      zHash.removal slabHeap { s5 with sysHeap := [false] } 769 = .error .badAlloc := by
  have h : onSome (runOps (freshTable []) sixInserts) (fun s6 =>
      onSome (s6.pBucket[1]?) (fun e => e.isTree && decide (e.nodes.length = 6)) &&
      onOk (zHash.removal slabHeap s6 1281) (some 60) (fun s5 =>
        onSome (s5.pBucket[1]?) (fun e => e.isTree && decide (e.Size_Type = 0) &&
          decide (e.nodes.map (fun d => d.key) = [1, 257, 513, 769, 1025])) &&
        onOk (zHash.removal slabHeap s5 769) (some 40) (fun s4 =>
          onSome (s4.pBucket[1]?) (fun e => e.isList && decide (e.Size_Type = 4) &&
            decide (e.nodes.map (fun d => d.key) = [1, 257, 513, 1025]))) &&
        onFault (zHash.removal slabHeap { s5 with sysHeap := [false] } 769) .badAlloc)) =
      true := by
    decide!
  obtain ⟨s6, hs6, hp⟩ := onSome_true h
  simp only [Bool.and_eq_true] at hp
  obtain ⟨s5, h5, hq⟩ := onOk_true hp.2
  simp only [Bool.and_eq_true] at hq
  obtain ⟨s4, h4, hr⟩ := onOk_true hq.1.2
  have hill : ∀ (s : Table) (k : Nat), zHash.Del slabHeap s k = .error .illFormed := by
    intro s k
    unfold zHash.Del zHash.hashCall
    rfl
  exact ⟨s6, s5, s4, hs6, hp.1, hill s6 1281, h5, hq.1.1, hill s5 769, h4, hr,
    onFault_true hq.2⟩

set_option maxHeartbeats 4000000 in
set_option maxRecDepth 1000000 in
/-- C9, failing run: after SetMaxBuckets(256) on the table of the constructor, whose 256
buckets do not exceed the maximum, the inserts of 205 keys (at most five to a bucket) use up
the data-node slab.  In that table pauseAndUpsize rebuilds, although the bucket count has
reached MaxSize: it returns true with 512 buckets and all 205 records.  The insert of a
206th key runs into this rebuild and then unlocks the entry it holds in the released
array, so it does not return. -/
theorem C9_buckets_exceed_max :
    ((freshTable []).SetMaxBuckets 256).Buckets ≤ ((freshTable []).SetMaxBuckets 256).MaxSize ∧
      ∃ s s1 : Table, zHash.Reachable slabHeap s ∧
        runOps ((freshTable []).SetMaxBuckets 256) (insertRange 205) = some s ∧
        s.Resizable = true ∧ s.MaxSize = 256 ∧ s.Buckets = 256 ∧ s.DataCount = 205 ∧
        slabHeap.LockAlloc s.pHeap = (none, s.pHeap) ∧
        zHash.pauseAndUpsize slabHeap s = .ok (true, s1) ∧
        s1.Resizable = true ∧ s1.MaxSize = 256 ∧ s1.Buckets = 512 ∧
        s1.records.length = 205 ∧
        zHash.Insert slabHeap 2 s (lowKey 205) 205 0 = .error .undefinedBehaviour := by
  have h : onSome (runOps ((freshTable []).SetMaxBuckets 256) (insertRange 205))
      (fun s => s.Resizable && decide (s.MaxSize = 256) && decide (s.Buckets = 256) &&
        decide (s.DataCount = 205) &&
        decide (slabHeap.LockAlloc s.pHeap = (none, s.pHeap)) &&
        onOk (zHash.pauseAndUpsize slabHeap s) true (fun s1 =>
          s1.Resizable && decide (s1.MaxSize = 256) && decide (s1.Buckets = 512) &&
          decide (s1.records.length = 205)) &&
        onUndefined (zHash.Insert slabHeap 2 s (lowKey 205) 205 0)) = true := by decide!
  obtain ⟨s, hs, hp⟩ := onSome_true h
  simp only [Bool.and_eq_true, decide_eq_true_eq] at hp
  obtain ⟨⟨⟨⟨⟨⟨p1, p2⟩, p3⟩, p4⟩, p5⟩, p6⟩, p7⟩ := hp
  obtain ⟨s1, h1, hq⟩ := onOk_true p6
  simp only [Bool.and_eq_true, decide_eq_true_eq] at hq
  obtain ⟨⟨⟨q1, q2⟩, q3⟩, q4⟩ := hq
  exact ⟨by decide, s, s1, reachable_runOps _ _ s
    (zHash.Reachable.setMaxBuckets 256 (zHash.Reachable.new keyHash [])) hs, hs, p1, p2, p3,
    p4, p5, h1, q1, q2, q3, q4, onUndefined_true p7⟩

section HashLawProofs

variable {K V H : Type} [LinearOrder K]

/-- In a table that the constructor and the data operations have produced, and in the table
that upSize() returns from it, every data node in the bucket i carries the hash of its key
for the current MaskBits, and that hash, masked with PosMask, is i. -/
theorem hash_law_reachable (Hp : zMemHeap H) (s : zHash K V H) (hr : zHash.Reachable Hp s) :
    s.HashLaw ∧
    (∀ (b : Bool) (s1 : zHash K V H), zHash.upSize Hp s = .ok (b, s1) → s1.HashLaw) := by
  have hw := reachable_WF Hp hr
  refine ⟨fun i e he => (hw.2.2.2 i e he).1, ?_⟩
  intro b s1 h i e he
  exact ((upSize_WF Hp s hw b s1 h).2.2.2 i e he).1

end HashLawProofs

set_option maxHeartbeats 4000000 in
set_option maxRecDepth 1000000 in
/-- C14, failing case.  The hash law holds in every table that the constructor and the data
operations produce, also after a rebuild: under foldHash the node of the key 700 carries
the hash 702 with 256 buckets and 701 after upSize().  It fails after SetInitBuckets: the
new bucket array is used as malloc returns it, without the initBucketList() of the
constructor and of upSize.  Over the memory staleBuckets the call SetInitBuckets(4) returns
true and leaves a table of 4 buckets whose bucket 1 holds a node of the key 2 with the
cached hash 5, while the hash of 2 is 2 and selects bucket 2; Value(2) returns false
although the array holds a node of that key. -/
theorem C14_hash_law_after_SetInitBuckets :
    (∀ (K V H : Type) [LinearOrder K] (Hp : zMemHeap H) (s : zHash K V H),
      zHash.Reachable Hp s → s.HashLaw ∧
        ∀ (b : Bool) (s1 : zHash K V H), zHash.upSize Hp s = .ok (b, s1) → s1.HashLaw) ∧
    (∃ (s s1 : Table),
      runOps (zHash.new slabHeap foldHash []) [.insert 300 1, .insert 700 2, .insert 1000 3] =
        some s ∧
      zHash.upSize slabHeap s = .ok (true, s1) ∧ s.MaskBits = 8 ∧ s1.MaskBits = 9 ∧
      (s.find 700).map (fun d => d.h) = some 702 ∧
      (s1.find 700).map (fun d => d.h) = some 701 ∧ s.HashLaw ∧ s1.HashLaw) ∧
    (zHash.SetInitBuckets slabHeap (freshTable []) 4 staleBuckets).1 = true ∧
    staleTable.Buckets = 4 ∧ staleTable.PosMask = 3 ∧ staleTable.MaskBits = 2 ∧
    staleTable.pBucket = staleBuckets ∧
    staleTable.pBucket[1]?.map ENTRY.nodes = some [staleNode] ∧
    staleNode.key = 2 ∧ staleNode.h = 5 ∧
    staleTable.pHashFun 2 staleTable.MaskBits = 2 ∧ staleTable.pos 2 = 2 ∧
    ¬ staleTable.HashLaw ∧
    (∃ s2, zHash.Value staleTable 2 = .ok (none, s2)) := by
  have h : onSome (runOps (zHash.new slabHeap foldHash [])
      [.insert 300 1, .insert 700 2, .insert 1000 3]) (fun s =>
      decide (s.MaskBits = 8) && decide ((s.find 700).map (fun d => d.h) = some 702) &&
      onOk (zHash.upSize slabHeap s) true (fun s1 => decide (s1.MaskBits = 9) &&
        decide ((s1.find 700).map (fun d => d.h) = some 701))) = true := by
    decide!
  obtain ⟨s, hs, hp⟩ := onSome_true h
  simp only [Bool.and_eq_true, decide_eq_true_eq] at hp
  obtain ⟨s1, h1, hq⟩ := onOk_true hp.2
  simp only [Bool.and_eq_true, decide_eq_true_eq] at hq
  have hc := hash_law_reachable slabHeap s
    (reachable_runOps _ _ s (zHash.Reachable.new foldHash []) hs)
  have hv : onOk (zHash.Value staleTable 2) none (fun _ => true) = true := by decide!
  obtain ⟨s2, hv2, -⟩ := onOk_true hv
  have hb : staleTable.pBucket = staleBuckets := rfl
  have he : staleTable.pBucket[1]?.map ENTRY.nodes = some [staleNode] := by decide!
  refine ⟨fun K V H _ Hp s hr => hash_law_reachable Hp s hr,
    ⟨s, s1, hs, h1, hp.1.1, hq.1, hp.1.2, hq.2, hc.1, hc.2 true s1 h1⟩,
    by decide!, by decide!, by decide!, by decide!, hb, he, rfl, rfl, by decide!, by decide!,
    ?_, ⟨s2, hv2⟩⟩
  intro hlaw
  have h1 := hlaw 1 { p := .list staleNode [], lock := zRWLock.init, Size_Type := 3 }
    (by rw [hb]; rfl) staleNode (by simp [ENTRY.nodes])
  have h2 : staleTable.pHashFun 2 staleTable.MaskBits = 2 := by decide!
  have h3 : staleNode.h = staleTable.pHashFun 2 staleTable.MaskBits := h1.1
  rw [h2] at h3
  exact absurd h3 (by decide)

namespace zAT

/-- For a capacity from 1 to 2 ^ 37 for which malloc returns a buffer, Init returns true:
the trees have at most 2 ^ 31 leaf words each, at most 8 layers, and fewer than 2 ^ 32
words in all. -/
theorem Init_returns (C : Nat) (h1 : 1 ≤ C) (h2 : C ≤ 2 ^ 37) :
    ∃ s0, Init C true = .ok (some s0) := by
  have hn : ((C - (C >>> 1)) + 31) >>> 5 ≤ 2 ^ 31 := by
    rw [shr5, Nat.shiftRight_eq_div_pow]
    omega
  have hlast := nodeCounts_last 7 (((C - (C >>> 1)) + 31) >>> 5)
    (le_trans hn (by norm_num))
  have hsum : (nodeCounts 7 (((C - (C >>> 1)) + 31) >>> 5)).sum ≤
      2 * (((((C - (C >>> 1)) + 31) >>> 5) + 31) / 32) := by
    generalize ((C - (C >>> 1)) + 31) >>> 5 = n
    rw [nodeCounts]
    by_cases hc : 1 < n
    · rw [if_pos hc, List.sum_cons, shr5]
      have := nodeCounts_sum 6 ((n + 31) / 32)
      omega
    · rw [if_neg hc]
      simp
  obtain ⟨s0, e, -⟩ := Init_core C h1 (by
      show ¬ 1 < ((((C - (C >>> 1)) + 31) >>> 5) ::
        nodeCounts 7 (((C - (C >>> 1)) + 31) >>> 5)).getLastD 0
      omega) (by
      show ((((C - (C >>> 1)) + 31) >>> 5) ::
        nodeCounts 7 (((C - (C >>> 1)) + 31) >>> 5)).sum < 2 ^ 32
      rw [List.sum_cons]
      omega)
  exact ⟨s0, e⟩

/-- After an Init(C) that has returned true, GetUnitStatus returns true for the units 0 to
C - 1 and false for the units C to 2 * Size - 1; C calls of Alloc then all succeed and
return units below C, no unit twice, and the next call returns RET_MEM_FULL. -/
theorem init_then_allocs (C : Nat) (s0 : zAT) (e0 : Init C true = .ok (some s0)) :
    C ≤ 2 * s0.Size ∧
      (∀ u, u < 2 * s0.Size → s0.GetUnitStatus u = .ok (decide (u < C))) ∧
      ∃ t, calls (start s0) (List.replicate C Call.alloc) = .ok (some t) ∧
        t.allocs = C ∧ t.live.length = C ∧ t.live.Nodup ∧ (∀ u ∈ t.live, u < C) ∧
        ∃ s1, t.s.Alloc = .ok (none, s1) := by
  obtain ⟨i1, i2, i3, -, i5⟩ := Init_spec C true s0 e0
  obtain ⟨t, et, p1, p2, p3, p4⟩ := allocs_run C C (start s0) (tinv_start C true s0 e0) i2 rfl
    (by simp [start])
  have hall : t.allocs = C := by rw [p4]; simp [start]
  have hlen : t.live.length = C := by
    have := p1.2.2.2.2.2
    omega
  have hlt : ∀ u ∈ t.live, u < C := fun u hu => ((p1.2.2.2.1 u).1 hu).1
  refine ⟨i3, ?_, t, et, hall, hlen, p1.2.2.1, hlt, ?_⟩
  · intro u hu
    rw [GetUnitStatus_eq s0 u i1 hu, i5 u]
  · obtain ⟨r, s1, e, o⟩ := Alloc_out t.s p1.1
    cases r with
    | none => exact ⟨s1, e⟩
    | some v =>
      exfalso
      obtain ⟨-, -, -, -, f1, -⟩ := o
      have hvC : v < C := by
        by_contra hge
        have := p1.2.2.2.2.1 v (by omega)
        rw [f1] at this
        simp at this
      have hsub : t.live ⊆ List.range C := fun u hu => List.mem_range.2 (hlt u hu)
      have hperm : t.live.Perm (List.range C) :=
        (p1.2.2.1.subperm hsub).perm_of_length_le (by rw [List.length_range, hlen])
      have hin : v ∈ t.live := hperm.mem_iff.2 (List.mem_range.2 hvC)
      have := ((p1.2.2.2.1 v).1 hin).2
      rw [f1] at this
      simp at this

end zAT

set_option maxRecDepth 1000000 in
/-- C17, failing case.  Whenever Init(C) returns true, the state and the allocations are as
the claim says: the units 0 to C - 1 are free and the units C to 2 * Size - 1 in use, C
calls of Alloc succeed with pairwise different units below C, and the next call returns
RET_MEM_FULL.  Init(C) does return true for every capacity from 1 to 2 ^ 37 (when malloc
returns the buffer).  With the capacity 2 ^ 38 it does not: the trees have 2 ^ 32 leaf words
each, NodeNum is not below 2 ^ 32, and the loop that sets all bits of the buffer, whose
counter is an unsigned int compared with the size_t NodeNum, does not end inside the
buffer. -/
theorem C17_init_then_allocs :
    (∀ (C : Nat) (s0 : zAT), zAT.Init C true = .ok (some s0) →
      C ≤ 2 * s0.Size ∧
      (∀ u, u < 2 * s0.Size → s0.GetUnitStatus u = .ok (decide (u < C))) ∧
      ∃ t, zAT.calls (zAT.start s0) (List.replicate C zAT.Call.alloc) = .ok (some t) ∧
        t.allocs = C ∧ t.live.length = C ∧ t.live.Nodup ∧ (∀ u ∈ t.live, u < C) ∧
        ∃ s1, t.s.Alloc = .ok (none, s1)) ∧
    (∀ C : Nat, 1 ≤ C → C ≤ 2 ^ 37 → ∃ s0, zAT.Init C true = .ok (some s0)) ∧
    zAT.Init (2 ^ 38) true = .error .undefinedBehaviour := by
  refine ⟨zAT.init_then_allocs, zAT.Init_returns, ?_⟩
  apply onUndefined_true
  decide!

/-- Instance of C17 with the capacity 66. -/
theorem C17_init_then_allocs_witness :
    ∃ s0, zAT.Init 66 true = .ok (some s0) ∧ 66 ≤ 2 * s0.Size ∧
      (∀ u, u < 2 * s0.Size → s0.GetUnitStatus u = .ok (decide (u < 66))) ∧
      ∃ t, zAT.calls (zAT.start s0) (List.replicate 66 zAT.Call.alloc) = .ok (some t) ∧
        t.allocs = 66 ∧ t.live.length = 66 ∧ t.live.Nodup ∧ (∀ u ∈ t.live, u < 66) ∧
        ∃ s1, t.s.Alloc = .ok (none, s1) := by
  obtain ⟨s0, e0⟩ := C17_init_then_allocs.2.1 66 (by decide) (by norm_num)
  exact ⟨s0, e0, C17_init_then_allocs.1 66 s0 e0⟩

theorem onReport_true {x : Except Fault ((Nat × Nat × Nat × Nat × Nat) × Table)}
    {r : Nat × Nat × Nat × Nat × Nat} (h : onReport x r = true) : ∃ s, x = .ok (r, s) := by
  cases x with
  | error f => simp [onReport] at h
  | ok res =>
    obtain ⟨r1, s⟩ := res
    simp only [onReport, decide_eq_true_eq] at h
    exact ⟨s, by rw [h]⟩

/-- With 2 ^ 32 buckets or more CheckHash returns no report. -/
theorem CheckHash_wide {K V H : Type} [LinearOrder K] (s : zHash K V H)
    (hB : 2 ^ 32 ≤ s.Buckets) (r : (Nat × Nat × Nat × Nat × Nat) × zHash K V H) :
    s.CheckHash ≠ .ok r := by
  unfold zHash.CheckHash
  rw [if_pos hB]
  cases zHash.checkLoop s.pBucket (2 ^ 32) 0 (0, 0, 0, 0) with
  | error f => simp
  | ok x => simp

set_option maxHeartbeats 4000000 in
set_option maxRecDepth 1000000 in
/-- C37, failing cases.  On a table with its invariant, fewer than 2 ^ 32 buckets and fewer
than 2 ^ 64 records CheckHash returns, reports Buckets, the number of buckets that are not
empty, the number of records, the number of buckets with two records or more and the
largest number of records among those buckets, 0 when there is none, and leaves the table
as it was; so it does after the inserts threeBuckets.  But the counter of its loop is an
unsigned int compared with the size_t Buckets: with 2 ^ 32 buckets or more it never reaches
Buckets and CheckHash returns no report, as after SetInitBuckets(2 ^ 32) on the table of the
constructor, even when the new array holds empty entries only.  And after a SetInitBuckets
that has left the array as malloc returned it, CheckHash reports what that memory holds:
over staleBuckets it reports 3 elements and a collision of 3 for a table of one node. -/
theorem C37_CheckHash_report :
    (∀ (K V H : Type) [LinearOrder K] (s : zHash K V H), s.WF → s.Buckets < 2 ^ 32 →
      s.records.length < 2 ^ 64 →
      s.CheckHash = .ok ((s.Buckets, filledOf s.sizes, s.records.length,
        collidedOf s.sizes, worstOf s.sizes), s) ∧
      (∀ c ∈ s.sizes, 2 ≤ c → c ≤ worstOf s.sizes) ∧
      ((worstOf s.sizes = 0 ∧ ∀ c ∈ s.sizes, c < 2) ∨
        (worstOf s.sizes ∈ s.sizes ∧ 2 ≤ worstOf s.sizes))) ∧
    (∃ s : Table, runOps (freshTable []) threeBuckets = some s ∧
      s.CheckHash = .ok ((256, 3, 9, 2, 6), s)) ∧
    (∀ (K V H : Type) [LinearOrder K] (s : zHash K V H), 2 ^ 32 ≤ s.Buckets →
      ∀ r, s.CheckHash ≠ .ok r) ∧
    ((zHash.SetInitBuckets slabHeap (freshTable []) (2 ^ 32)
      (List.replicate (2 ^ 32) zHash.freshEntry)).1 = true ∧
      wideTable.Buckets = 2 ^ 32 ∧ wideTable.records = [] ∧
      wideTable.CheckHash = .error .hang) ∧
    ((zHash.SetInitBuckets slabHeap (freshTable []) 4 staleBuckets).1 = true ∧
      staleTable.Buckets = 4 ∧ staleTable.records.length = 1 ∧
      filledOf staleTable.sizes = 1 ∧ collidedOf staleTable.sizes = 0 ∧
      worstOf staleTable.sizes = 0 ∧
      ∃ s1, staleTable.CheckHash = .ok ((4, 1, 3, 1, 3), s1)) := by
  have hpos : ∀ (K V H : Type) [LinearOrder K] (s : zHash K V H), s.WF → s.Buckets < 2 ^ 32 →
      s.records.length < 2 ^ 64 →
      s.CheckHash = .ok ((s.Buckets, filledOf s.sizes, s.records.length,
        collidedOf s.sizes, worstOf s.sizes), s) ∧
      (∀ c ∈ s.sizes, 2 ≤ c → c ≤ worstOf s.sizes) ∧
      ((worstOf s.sizes = 0 ∧ ∀ c ∈ s.sizes, c < 2) ∨
        (worstOf s.sizes ∈ s.sizes ∧ 2 ≤ worstOf s.sizes)) := by
    intro K V H _ s hwf hB hE
    have h := CheckHash_spec s hwf hB
    rw [Nat.mod_eq_of_lt hE] at h
    exact ⟨h, worstOf_spec s.sizes⟩
  have hrun : onSome (runOps (freshTable []) threeBuckets) (fun s =>
      decide (s.Buckets = 256) && decide (filledOf s.sizes = 3) &&
      decide (s.records.length = 9) && decide (collidedOf s.sizes = 2) &&
      decide (worstOf s.sizes = 6)) = true := by
    decide!
  obtain ⟨s, hs, hp⟩ := onSome_true hrun
  simp only [Bool.and_eq_true, decide_eq_true_eq] at hp
  obtain ⟨⟨⟨⟨p1, p2⟩, p3⟩, p4⟩, p5⟩ := hp
  have hr := reachable_runOps _ _ s (zHash.Reachable.new keyHash []) hs
  have hc := (hpos _ _ _ s (reachable_WF slabHeap hr) (by rw [p1]; norm_num)
    (by rw [p3]; norm_num)).1
  rw [p1, p2, p3, p4, p5] at hc
  have hB : wideTable.Buckets = 2 ^ 32 := by decide!
  have hP : wideTable.pBucket = List.replicate (2 ^ 32) zHash.freshEntry := rfl
  have hwrec : wideTable.records = [] := by
    unfold zHash.records recordsOf zHash.allNodes
    rw [hP, List.map_replicate]
    have : ENTRY.nodes (zHash.freshEntry : ENTRY Nat Nat) = [] := rfl
    rw [this]
    have hflat : ∀ n : Nat, (List.replicate n ([] : List (DATA_NODE Nat Nat))).flatten = [] := by
      intro n
      induction n with
      | zero => rfl
      | succ n ih => rw [List.replicate_succ, List.flatten_cons, ih]; rfl
    rw [hflat]
    rfl
  have hhang : wideTable.CheckHash = .error .hang := by
    unfold zHash.CheckHash
    rw [if_pos (by rw [hB]), hP, checkLoop_null (2 ^ 32) (2 ^ 32) 0 _ (by omega)]
  have hst : onReport staleTable.CheckHash (4, 1, 3, 1, 3) = true := by decide!
  exact ⟨hpos, ⟨s, hs, hc⟩, fun K V H _ s hB r => CheckHash_wide s hB r,
    ⟨by decide!, hB, hwrec, hhang⟩,
    ⟨by decide!, by decide!, by decide!, by decide!, by decide!, by decide!,
      onReport_true hst⟩⟩

theorem isNull_true {K V : Type} {e : ENTRY K V} (h : e.isNull = true) : e.p = .null := by
  unfold ENTRY.isNull at h
  cases hp : e.p with
  | null => rfl
  | list f r => rw [hp] at h; simp at h
  | tree t => rw [hp] at h; simp at h

section StuckEmpty

variable {K V H : Type} [LinearOrder K]

/-- One pass of insertKey that comes back to INSERT_BEGIN with the table as it was: the
bucket is empty, the data-node heap has no unit, and pauseAndUpsize returns true without a
rebuild because DataCount is below Threshold. -/
theorem insertKey_stuck (Hp : zMemHeap H) (fuel : Nat) (s : zHash K V H) (pos : Nat) (key : K)
    (u : V) (e : ENTRY K V) (he : s.pBucket[pos]? = some e) (hp : e.p = .null)
    (hl : e.lock = wlocked) (ha : Hp.LockAlloc s.pHeap = (none, s.pHeap))
    (hr : s.Resizable = true) (hb : ¬ s.Buckets > s.MaxSize) (hd : ¬ s.DataCount ≥ s.Threshold)
    (hpos : s.pHashFun key s.MaskBits &&& s.PosMask = pos) :
    zHash.insertKey Hp (fuel + 1) s pos (s.pHashFun key s.MaskBits) key u
      = zHash.insertKey Hp fuel s pos (s.pHashFun key s.MaskBits) key u := by
  rw [zHash.insertKey]
  simp only
  rw [he]
  simp only [hp]
  rw [ha]
  show zHash.insertRetry Hp
    (fun s3 pos1 h1 => zHash.insertKey Hp fuel s3 pos1 h1 key u) s pos key = _
  have hpu : zHash.pauseAndUpsize Hp s = .ok (true, s) := by
    unfold zHash.pauseAndUpsize
    simp only [hr, if_true, hb, if_false, hd]
  unfold zHash.insertRetry
  rw [hpu]
  simp only
  rw [relock_same s pos key e he hl hpos]

theorem insertKey_never (Hp : zMemHeap H) (s : zHash K V H) (pos : Nat) (key : K)
    (u : V) (e : ENTRY K V) (he : s.pBucket[pos]? = some e) (hp : e.p = .null)
    (hl : e.lock = wlocked) (ha : Hp.LockAlloc s.pHeap = (none, s.pHeap))
    (hr : s.Resizable = true) (hb : ¬ s.Buckets > s.MaxSize) (hd : ¬ s.DataCount ≥ s.Threshold)
    (hpos : s.pHashFun key s.MaskBits &&& s.PosMask = pos) :
    ∀ fuel, zHash.insertKey Hp fuel s pos (s.pHashFun key s.MaskBits) key u
      = .error .outOfFuel := by
  intro fuel
  induction fuel with
  | zero => rfl
  | succ fuel ih =>
    rw [insertKey_stuck Hp fuel s pos key u e he hp hl ha hr hb hd hpos]
    exact ih

/-- Insert of a key whose bucket is empty never returns when the data-node heap has no unit
left while DataCount is below Threshold in a resizable table: every pass through
INSERT_BEGIN ends in the jump back to it. -/
theorem Insert_never (Hp : zMemHeap H) (s : zHash K V H) (key : K) (v u : V) (e : ENTRY K V)
    (he : s.pBucket[s.pos key]? = some e) (hp : e.p = .null)
    (ha : Hp.LockAlloc s.pHeap = (none, s.pHeap))
    (hr : s.Resizable = true) (hb : ¬ s.Buckets > s.MaxSize) (hd : ¬ s.DataCount ≥ s.Threshold) :
    ∀ fuel, zHash.Insert Hp fuel s key v u = .error .outOfFuel := by
  intro fuel
  have hlt : s.pos key < s.pBucket.length := by
    by_contra hc
    rw [List.getElem?_eq_none (by omega)] at he
    simp at he
  unfold zHash.Insert
  simp only
  have hpk : s.pHashFun key s.MaskBits &&& s.PosMask = s.pos key := rfl
  rw [hpk]
  unfold zHash.wLockAt
  rw [he]
  simp only
  have h := insertKey_never Hp (s.setEntry (s.pos key) { e with lock := e.lock.WLock })
    (s.pos key) key u { e with lock := e.lock.WLock } (setEntry_same _ _ _ hlt) hp rfl ha hr hb hd
    hpk fuel
  have hh : (s.setEntry (s.pos key) { e with lock := e.lock.WLock }).pHashFun key
      (s.setEntry (s.pos key) { e with lock := e.lock.WLock }).MaskBits
      = s.pHashFun key s.MaskBits := rfl
  rw [hh] at h
  rw [h]

end StuckEmpty

set_option maxHeartbeats 4000000 in
set_option maxRecDepth 1000000 in
/-- C39, failing runs.  First run, on the table of the constructor, by inserts and removals
only: after crowdThenFree the table holds 177 records, fewer than its Threshold of 192,
and its tree-node heap has no node left.  Insert of the key 3112 into the tree of bucket 40
gets a data node, the Insert of the tree returns -1 because the split of a full node cannot
get a node, the data node is given back, pauseAndUpsize returns true without a rebuild
because DataCount is below Threshold, and insertKey jumps back to INSERT_BEGIN with the
table as it was: Insert does not return, whatever the number of passes.  Second run, by
inserts only, on a table whose process heap refuses one request: the inserts of 205 keys
fill the data-node heap, the insert of one more key makes pauseAndUpsize rebuild, the
rebuild fails and leaves Threshold at 384 with 205 records; from then on Insert of a new
key (here 100, whose bucket is empty) finds no data node, the rebuild is skipped, and the
same allocation is tried again for ever. -/
theorem C39_insert_retries_for_ever :
    (∃ s : Table, zHash.Reachable slabHeap s ∧
      runOps (freshTable []) crowdThenFree = some s ∧
      s.Resizable = true ∧ s.Buckets = 256 ∧ s.DataCount = 177 ∧ s.Threshold = 192 ∧
      slabHeap.LockAlloc s.pBTNodeHeap = (none, s.pBTNodeHeap) ∧ s.lookup 3112 = none ∧
      ∀ fuel, zHash.Insert slabHeap fuel s 3112 7 0 = .error .outOfFuel) ∧
    (∃ s : Table, zHash.Reachable slabHeap s ∧
      runOps (freshTable [false]) (insertRange 206) = some s ∧
      s.Resizable = true ∧ s.Buckets = 256 ∧ s.DataCount = 205 ∧ s.Threshold = 384 ∧
      slabHeap.LockAlloc s.pHeap = (none, s.pHeap) ∧ s.lookup 100 = none ∧
      ∀ fuel, zHash.Insert slabHeap fuel s 100 7 0 = .error .outOfFuel) := by
  constructor
  · obtain ⟨s, hs, hp⟩ := onSome_true crowd_run
    simp only [Bool.and_eq_true, decide_eq_true_eq] at hp
    obtain ⟨⟨⟨⟨⟨⟨⟨⟨⟨p1, p2⟩, p3⟩, p4⟩, -⟩, -⟩, p5⟩, p6⟩, p7⟩, -⟩ := hp
    obtain ⟨P, hP, hq⟩ := onTable_true p7
    simp only [Bool.and_eq_true, decide_eq_true_eq] at hq
    obtain ⟨⟨⟨q1, q2⟩, q3⟩, q4⟩ := hq
    exact ⟨s, reachable_runOps _ _ s (zHash.Reachable.new keyHash []) hs, hs, p1, p2, p3, p4,
      p5, p6, Insert_never_tree s P 3112 7 0 hP q1 q2 q3 q4⟩
  · have h : onSome (runOps (freshTable [false]) (insertRange 206)) (fun s =>
        s.Resizable && decide (s.Buckets = 256) && decide (s.DataCount = 205) &&
        decide (s.Threshold = 384) && decide (slabHeap.LockAlloc s.pHeap = (none, s.pHeap)) &&
        decide (s.lookup 100 = none) && decide (¬ s.Buckets > s.MaxSize) &&
        onSome (s.pBucket[s.pos 100]?) (fun e => e.isNull)) = true := by
      decide!
    obtain ⟨s, hs, hp⟩ := onSome_true h
    simp only [Bool.and_eq_true, decide_eq_true_eq] at hp
    obtain ⟨⟨⟨⟨⟨⟨⟨p1, p2⟩, p3⟩, p4⟩, p5⟩, p6⟩, p7⟩, p8⟩ := hp
    obtain ⟨e, he, hn⟩ := onSome_true p8
    refine ⟨s, reachable_runOps _ _ s (zHash.Reachable.new keyHash [false]) hs, hs, p1, p2, p3,
      p4, p5, p6, ?_⟩
    exact Insert_never slabHeap s 100 7 0 e he (isNull_true hn) p5 p1 p7
      (by rw [p3, p4]; decide)

section Rebuild
variable {K V H : Type} [LinearOrder K]

theorem treesValid_setEntry {s s0 : zHash K V H} (hs : s.TreesValid)
    (hb : s0.pBucket = s.pBucket) (pos : Nat) (e' : ENTRY K V)
    (he' : ∀ t : zBTree K V, e'.p = .tree t → t.Valid) : (s0.setEntry pos e').TreesValid := by
  intro e hm t ht
  simp only [zHash.setEntry] at hm
  rcases List.mem_or_eq_of_mem_set hm with h1 | h1
  · rw [hb] at h1
    exact hs e h1 t ht
  · subst h1
    exact he' t ht

omit [LinearOrder K] in
theorem perm_setEntry {s s0 : zHash K V H} (hb : s0.pBucket = s.pBucket) (pos : Nat)
    (e e' : ENTRY K V) (he : s.pBucket[pos]? = some e) (x : DATA_NODE K V)
    (hp : e'.nodes.Perm (x :: e.nodes)) :
    (s0.setEntry pos e').allNodes.Perm (x :: s.allNodes) := by
  obtain ⟨L, R, hL, hR⟩ := allNodes_setEntry s0 pos e (by rw [hb]; exact he)
  rw [← allNodes_of_bucket hb, hL, hR]
  exact perm_ins hp

/-- The copy of one record into a bucket array whose trees are valid: when `inserCopyData`
returns `true` the array holds one more data node, with the key and the value of the
source. -/
theorem inserCopyData_adds (Hp : zMemHeap H) (s : zHash K V H) (d : DATA_NODE K V)
    (hs : s.TreesValid) (s1 : zHash K V H)
    (h : zHash.inserCopyData Hp s d = .ok (true, s1)) :
    s1.TreesValid ∧ ∃ d' : DATA_NODE K V, d'.key = d.key ∧ d'.value = d.value ∧
      s1.allNodes.Perm (d' :: s.allNodes) := by
  unfold zHash.inserCopyData at h
  cases hal : Hp.LockAlloc s.pHeap with
  | mk so hp =>
    rw [hal] at h
    cases so with
    | none => simp at h
    | some slot =>
      simp only at h
      cases he : s.pBucket[s.pHashFun d.key s.MaskBits &&& s.PosMask]? with
      | none => rw [he] at h; simp at h
      | some e =>
        rw [he] at h
        simp only at h
        cases hp' : e.p with
        | null =>
          rw [hp'] at h
          simp only [Except.ok.injEq, Prod.mk.injEq, true_and] at h
          subst h
          have hnodes : e.nodes = [] := by simp [ENTRY.nodes, hp']
          refine ⟨treesValid_setEntry hs rfl _ _ (by intro t ht; simp at ht),
            ⟨{ slot := slot, h := s.pHashFun d.key s.MaskBits, key := d.key, value := d.value },
              rfl, rfl, ?_⟩⟩
          exact perm_setEntry rfl _ e _ he _
            (show List.Perm [_] (_ :: e.nodes) by rw [hnodes])
        | list f r =>
          rw [hp'] at h
          have hnodes : e.nodes = f :: r := by simp [ENTRY.nodes, hp']
          by_cases hpos : 0 < e.Size_Type
          · simp only [hpos, if_true] at h
            by_cases hlt : e.Size_Type < MAX_LINKEDLIST_SIZE
            · simp only [hlt, if_true, Except.ok.injEq, Prod.mk.injEq, true_and] at h
              subst h
              refine ⟨treesValid_setEntry hs rfl _ _ (by intro t ht; simp at ht),
                ⟨{ slot := slot, h := s.pHashFun d.key s.MaskBits, key := d.key,
                   value := d.value }, rfl, rfl, ?_⟩⟩
              exact perm_setEntry rfl _ e _ he _
                (show List.Perm (_ :: f :: r) (_ :: e.nodes) by rw [hnodes])
            · simp only [hlt, if_false] at h
              cases hl : zHash.listToBTree Hp { s with pHeap := hp }
                  (s.pHashFun d.key s.MaskBits &&& s.PosMask) with
              | error x => rw [hl] at h; simp at h
              | ok res =>
                obtain ⟨b, s2⟩ := res
                rw [hl] at h
                cases b with
                | false => simp at h
                | true =>
                  obtain ⟨-, htrue⟩ := listToBTree_spec Hp _ _ e f r (by exact he) hp' _ _ hl
                  obtain ⟨s0, t, hfr1, hb1, rfl, htv, htp⟩ := htrue rfl
                  have hlt0 : (s.pHashFun d.key s.MaskBits &&& s.PosMask) <
                      s0.pBucket.length := by
                    rw [hb1]
                    by_contra hc
                    rw [List.getElem?_eq_none (by simpa using hc)] at he
                    simp at he
                  simp only [setEntry_same _ _ _ hlt0] at h
                  cases hi : t.Insert Hp
                      { slot := slot, h := s.pHashFun d.key s.MaskBits, key := d.key,
                        value := d.value } s0.pBTNodeHeap with
                  | mk st rest =>
                    obtain ⟨t1, hp1⟩ := rest
                    have hi' : t.Insert Hp
                      { slot := slot, h := s.pHashFun d.key s.MaskBits, key := d.key,
                        value := d.value }
                      (s0.setEntry (s.pHashFun d.key s.MaskBits &&& s.PosMask)
                        { e with p := .tree t, Size_Type := 0 }).pBTNodeHeap =
                        (st, t1, hp1) := hi
                    rw [hi'] at h
                    obtain ⟨-, hspec, hv1⟩ := Insert_spec Hp t _ _ (Or.inr htv) st t1 hp1 hi
                    cases st with
                    | found x => simp at h
                    | memError => simp at h
                    | noFuel => simp at h
                    | inserted =>
                      simp only [Except.ok.injEq, Prod.mk.injEq, true_and] at h
                      subst h
                      have hperm : t1.toList.Perm (_ :: f :: r) :=
                        (insSpec_perm hspec).trans (List.Perm.cons _ htp)
                      have heq : ({ (s0.setEntry (s.pHashFun d.key s.MaskBits &&& s.PosMask)
                          { e with p := .tree t, Size_Type := 0 }) with pBTNodeHeap := hp1 } :
                          zHash K V H).setEntry (s.pHashFun d.key s.MaskBits &&& s.PosMask)
                          { p := .tree t1, lock := e.lock, Size_Type := 0 } =
                          ({ s0 with pBTNodeHeap := hp1 } : zHash K V H).setEntry
                            (s.pHashFun d.key s.MaskBits &&& s.PosMask)
                            { p := .tree t1, lock := e.lock, Size_Type := 0 } := by
                        simp [zHash.setEntry]
                      rw [heq]
                      have hv1' := hv1 (Or.inr rfl)
                      refine ⟨treesValid_setEntry hs (show ({ s0 with pBTNodeHeap := hp1 } :
                          zHash K V H).pBucket = s.pBucket from hb1) _ _
                          (by intro t2 ht2
                              simp only [ChainPtr.tree.injEq] at ht2
                              subst ht2
                              exact hv1'),
                        ⟨{ slot := slot, h := s.pHashFun d.key s.MaskBits, key := d.key,
                           value := d.value }, rfl, rfl, ?_⟩⟩
                      exact perm_setEntry (show ({ s0 with pBTNodeHeap := hp1 } :
                          zHash K V H).pBucket = s.pBucket from hb1) _ e _ he _
                        (show t1.toList.Perm (_ :: e.nodes) by rw [hnodes]; exact hperm)
          · simp only [hpos, if_false] at h
            simp at h
        | tree t =>
          rw [hp'] at h
          have hnodes : e.nodes = t.toList := by simp [ENTRY.nodes, hp']
          have htv : t.Valid := hs e (List.getElem?_mem he) t hp'
          by_cases hpos : 0 < e.Size_Type
          · simp only [hpos, if_true] at h
            simp at h
          · simp only [hpos, if_false] at h
            cases hi : t.Insert Hp
                { slot := slot, h := s.pHashFun d.key s.MaskBits, key := d.key,
                  value := d.value } s.pBTNodeHeap with
            | mk st rest =>
              obtain ⟨t1, hp1⟩ := rest
              rw [hi] at h
              obtain ⟨-, hspec, hv1⟩ := Insert_spec Hp t _ _ (Or.inr htv) st t1 hp1 hi
              cases st with
              | found x => simp at h
              | memError => simp at h
              | noFuel => simp at h
              | inserted =>
                simp only [Except.ok.injEq, Prod.mk.injEq, true_and] at h
                subst h
                have hperm := insSpec_perm hspec
                have hv1' := hv1 (Or.inr rfl)
                refine ⟨treesValid_setEntry hs (show ({ s with pHeap := hp, pBTNodeHeap := hp1 } :
                    zHash K V H).pBucket = s.pBucket from rfl) _ _
                    (by intro t2 ht2
                        simp only [ChainPtr.tree.injEq] at ht2
                        subst ht2
                        exact hv1'),
                  ⟨{ slot := slot, h := s.pHashFun d.key s.MaskBits, key := d.key,
                     value := d.value }, rfl, rfl, ?_⟩⟩
                exact perm_setEntry (show ({ s with pHeap := hp, pBTNodeHeap := hp1 } :
                    zHash K V H).pBucket = s.pBucket from rfl) _ e _ he _
                  (show t1.toList.Perm (_ :: e.nodes) by rw [hnodes]; exact hperm)

theorem copyNodes_adds (Hp : zMemHeap H) :
    ∀ (ds : List (DATA_NODE K V)) (s : zHash K V H), s.TreesValid → ∀ s1 : zHash K V H,
      zHash.copyNodes Hp ds s = .ok (true, s1) →
      s1.TreesValid ∧ s1.records.Perm (recordsOf ds ++ s.records) := by
  intro ds
  induction ds with
  | nil =>
    intro s hs s1 h
    simp only [zHash.copyNodes, Except.ok.injEq, Prod.mk.injEq, true_and] at h
    subst h
    exact ⟨hs, by simp [recordsOf]⟩
  | cons d ds ih =>
    intro s hs s1 h
    rw [zHash.copyNodes] at h
    cases hi : zHash.inserCopyData Hp s d with
    | error x => rw [hi] at h; simp at h
    | ok res =>
      obtain ⟨b2, s2⟩ := res
      rw [hi] at h
      cases b2 with
      | false => simp at h
      | true =>
        simp only at h
        obtain ⟨hs2, d', hk, hv, hperm⟩ := inserCopyData_adds Hp s d hs s2 hi
        obtain ⟨hs1, hp1⟩ := ih s2 hs2 s1 h
        refine ⟨hs1, hp1.trans ?_⟩
        have h2 : s2.records.Perm ((d.key, d.value) :: s.records) := by
          have := recordsOf_perm hperm
          simpa [zHash.records, recordsOf, hk, hv] using this
        refine (List.Perm.append_left _ h2).trans ?_
        simp only [recordsOf, List.map_cons, List.cons_append]
        exact List.perm_middle

theorem copyEntry_adds (Hp : zMemHeap H) (old : ENTRY K V) (s : zHash K V H)
    (hs : s.TreesValid) (s1 : zHash K V H)
    (h : zHash.copyEntry Hp old s = .ok (true, s1)) :
    s1.TreesValid ∧ s1.records.Perm (recordsOf old.nodes ++ s.records) := by
  unfold zHash.copyEntry at h
  unfold ENTRY.nodes
  cases hp : old.p with
  | null =>
    simp only [hp, Except.ok.injEq, Prod.mk.injEq, true_and] at h
    subst h
    exact ⟨hs, by simp [recordsOf]⟩
  | list f r =>
    simp only [hp] at h ⊢
    split at h
    · exact copyNodes_adds Hp _ s hs s1 h
    · simp at h
  | tree t =>
    simp only [hp] at h ⊢
    split at h
    · simp at h
    · obtain ⟨-, hb, -⟩ := frame_sysAlloc s
      cases hsa : s.sysAlloc with
      | mk ok s0 =>
        rw [hsa] at h hb
        simp only at hb
        cases ok with
        | false => simp at h
        | true =>
          simp only at h
          split at h
          · simp at h
          · have hperm := FindAllData_perm t
            obtain ⟨h1, h2⟩ := copyNodes_adds Hp _ s0
              (by intro e hm; rw [hb] at hm; exact hs e hm) s1 h
            refine ⟨h1, ?_⟩
            rw [records_of_bucket hb] at h2
            exact h2.trans (List.Perm.append_right _ (recordsOf_perm hperm))

theorem copyEntries_adds (Hp : zMemHeap H) :
    ∀ (es : List (ENTRY K V)) (s : zHash K V H), s.TreesValid →
      ∀ s1 : zHash K V H, zHash.copyEntries Hp es s = .ok (true, s1) →
      s1.TreesValid ∧ s1.records.Perm (recordsOf (es.map ENTRY.nodes).flatten ++ s.records) := by
  intro es
  induction es with
  | nil =>
    intro s hs s1 h
    simp only [zHash.copyEntries, Except.ok.injEq, Prod.mk.injEq, true_and] at h
    subst h
    exact ⟨hs, by simp [recordsOf]⟩
  | cons e es ih =>
    intro s hs s1 h
    rw [zHash.copyEntries] at h
    cases hi : zHash.copyEntry Hp e s with
    | error x => rw [hi] at h; simp at h
    | ok res =>
      obtain ⟨b2, s2⟩ := res
      rw [hi] at h
      cases b2 with
      | false => simp at h
      | true =>
        simp only at h
        obtain ⟨hs2, hp2⟩ := copyEntry_adds Hp e s hs s2 hi
        obtain ⟨hs1, hp1⟩ := ih s2 hs2 s1 h
        refine ⟨hs1, hp1.trans ?_⟩
        refine (List.Perm.append_left _ hp2).trans ?_
        simp only [recordsOf, List.map_cons, List.flatten_cons, List.map_append,
          List.append_assoc]
        rw [← List.append_assoc, ← List.append_assoc]
        exact List.Perm.append_right _ List.perm_append_comm

/-- A rebuild that returns `true` keeps the records and the record count, whatever the
table it starts from. -/
theorem upSize_records (Hp : zMemHeap H) (s s1 : zHash K V H)
    (h : zHash.upSize Hp s = .ok (true, s1)) :
    s1.records.Perm s.records ∧ s1.DataCount = s.DataCount := by
  unfold zHash.upSize at h
  simp only at h
  cases hsa1 : zHash.sysAlloc ({ s with Buckets := s.Buckets * 2, Threshold := zHash.threshold s.LoadFactor (s.Buckets * 2) } : zHash K V H) with
  | mk b1 sa =>
    obtain ⟨hf1, -, -⟩ := frame_sysAlloc ({ s with Buckets := s.Buckets * 2, Threshold := zHash.threshold s.LoadFactor (s.Buckets * 2) } : zHash K V H)
    rw [hsa1] at hf1 h
    simp only at hf1 h
    cases b1 with
    | false => simp at h
    | true =>
      simp only at h
      cases hsa2 : zHash.sysAlloc ({ sa with pHeap := Hp.create sa.Threshold } : zHash K V H) with
      | mk b2 sb =>
        obtain ⟨hf2, -, -⟩ := frame_sysAlloc
          ({ sa with pHeap := Hp.create sa.Threshold } : zHash K V H)
        rw [hsa2] at hf2 h
        simp only at hf2 h
        have hf2x : Frame sa sb := @Frame.ftrans K V H _ (({ sa with pHeap := Hp.create sa.Threshold } : zHash K V H)) _ (show Frame _ _ from rfl) hf2
        cases b2 with
        | false => simp at h
        | true =>
          simp only at h
          cases hsa3 : zHash.sysAlloc ({ sb with pBTNodeHeap := Hp.create ((sb.Threshold + 1) >>> 1) } : zHash K V H) with
          | mk b3 sc =>
            obtain ⟨hf3, -, -⟩ := frame_sysAlloc ({ sb with pBTNodeHeap := Hp.create ((sb.Threshold + 1) >>> 1) } : zHash K V H)
            rw [hsa3] at hf3 h
            simp only at hf3 h
            have hf3x : Frame sb sc := @Frame.ftrans K V H _ (({ sb with pBTNodeHeap := Hp.create ((sb.Threshold + 1) >>> 1) } : zHash K V H)) _ (show Frame _ _ from rfl) hf3
            have hfr : Frame ({ s with Buckets := s.Buckets * 2, Threshold := zHash.threshold s.LoadFactor (s.Buckets * 2) } : zHash K V H) sc :=
              (hf1.ftrans hf2x).ftrans hf3x
            obtain ⟨g1, g2, g3, g4, g5, g6, g7, g8, g9, g10, g11⟩ := hfr.fields
            simp only at g1 g2 g3 g4 g5 g6 g7 g8 g9 g10 g11
            cases b3 with
            | false => simp at h
            | true =>
              simp only at h
              cases hce : zHash.copyEntries Hp s.pBucket ({ sc with pBucket := List.replicate sc.Buckets zHash.freshEntry, PosMask := sc.Buckets - 1, MaskBits := zBitCount (sc.Buckets - 1) } : zHash K V H) with
              | error x => rw [hce] at h; simp at h
              | ok res =>
                obtain ⟨b5, s5⟩ := res
                rw [hce] at h
                have hf5 := copyEntries_frame Hp _ _ _ _ hce
                obtain ⟨k1, k2, k3, k4, k5, k6, k7, k8, k9, k10, k11⟩ := hf5.fields
                simp only at k1 k2 k3 k4 k5 k6 k7 k8 k9 k10 k11
                cases b5 with
                | false => simp at h
                | true =>
                  simp only [Except.ok.injEq, Prod.mk.injEq, true_and] at h
                  subst h
                  have hempty := allNodes_replicate ({ sc with pBucket := List.replicate sc.Buckets zHash.freshEntry, PosMask := sc.Buckets - 1, MaskBits := zBitCount (sc.Buckets - 1) } : zHash K V H) _ rfl
                  obtain ⟨-, hp5⟩ := copyEntries_adds Hp s.pBucket _ (by
                    intro e hm t ht
                    simp only [List.mem_replicate] at hm
                    rw [hm.2] at ht
                    simp [zHash.freshEntry] at ht) s5 hce
                  refine ⟨?_, ?_⟩
                  · have : ({ s5 with pBucketId := s.pBucketId + 1 } : zHash K V H).records =
                        s5.records := rfl
                    rw [this]
                    refine hp5.trans ?_
                    simp only [zHash.records, hempty, recordsOf, List.map_nil, List.append_nil]
                    exact List.Perm.refl _
                  · simp only; rw [k9]; exact g9

/-- C7: when `upSize()` returns `true`, from whatever table state, the records
`(key, value)` of the new table are a rearrangement of those of the old one, none lost and
none twice, and the record count is unchanged; when the old table satisfies the invariant
of the table, the keys of the new table are pairwise different and every key has the value
it had. -/
theorem C7_upSize_keeps_records (Hp : zMemHeap H) (s s1 : zHash K V H)
    (h : zHash.upSize Hp s = .ok (true, s1)) :
    s1.records.Perm s.records ∧ s1.DataCount = s.DataCount ∧
      (s.WF → (s1.records.map Prod.fst).Nodup ∧ ∀ k, s1.lookup k = s.lookup k) := by
  obtain ⟨hp, hd⟩ := upSize_records Hp s s1 h
  refine ⟨hp, hd, fun hw => ?_⟩
  obtain ⟨d1, -, d3, -⟩ := (upSize_spec Hp s hw true s1 h).2 rfl
  exact ⟨records_nodup d1, fun k => lookup_perm hw d1 d3 k⟩

end Rebuild

set_option maxRecDepth 1000000 in
/-- Instance of C7: the table with the records (1, 10), (257, 20), (513, 30) in one bucket and
(2, 40) in another is rebuilt by `upSize()` into 512 buckets with the same records, every
key with the value it had; and the table that `SetInitBuckets(4)` leaves over memory that
holds one stale data node is rebuilt into 8 buckets with that one record. -/
theorem C7_upSize_keeps_records_witness :
    (∃ s s1 : Table, s.lookup 257 = some 20 ∧ zHash.upSize slabHeap s = .ok (true, s1) ∧
      s1.Buckets = 512 ∧ s1.records.Perm s.records ∧ s1.DataCount = s.DataCount ∧
      (s1.records.map Prod.fst).Nodup ∧ ∀ k, s1.lookup k = s.lookup k) ∧
    ∃ s1 : Table, zHash.upSize slabHeap staleTable = .ok (true, s1) ∧ s1.Buckets = 8 ∧
      s1.records = [(2, 9)] ∧ s1.records.Perm staleTable.records ∧
      s1.DataCount = staleTable.DataCount := by
  have h : onSome (runOps (freshTable [])
      [.insert 1 10, .insert 257 20, .insert 513 30, .insert 2 40])
      (fun s => decide (s.lookup 257 = some 20) &&
        onOk (zHash.upSize slabHeap s) true (fun s1 => decide (s1.Buckets = 512))) = true := by
    decide!
  have h2 : onOk (zHash.upSize slabHeap staleTable) true
      (fun s1 => decide (s1.Buckets = 8 ∧ s1.records = [(2, 9)])) = true := by
    decide!
  obtain ⟨s, hs, hp⟩ := onSome_true h
  simp only [Bool.and_eq_true, decide_eq_true_eq] at hp
  obtain ⟨s1, h1, hq⟩ := onOk_true hp.2
  simp only [decide_eq_true_eq] at hq
  obtain ⟨s3, h3, hq3⟩ := onOk_true h2
  simp only [decide_eq_true_eq] at hq3
  have hw : s.WF := reachable_WF slabHeap
    (reachable_runOps _ _ s (zHash.Reachable.new keyHash []) hs)
  have a := C7_upSize_keeps_records slabHeap s s1 h1
  have b := C7_upSize_keeps_records slabHeap staleTable s3 h3
  exact ⟨⟨s, s1, hp.1, h1, hq, a.1, a.2.1, (a.2.2 hw).1, (a.2.2 hw).2⟩,
    ⟨s3, h3, hq3.1, hq3.2, b.1, b.2.1⟩⟩

section SecondInsert
variable {K V H : Type} [LinearOrder K]

theorem second_insert (Hp : zMemHeap H) (s s1 : zHash K V H) (fuel : Nat) (k : K)
    (v1 u : V) (hw : s.WF)
    (h1 : zHash.Insert Hp fuel s k v1 u = .ok (.SUCCESS, s1)) :
    (∀ (fuel2 : Nat) (v2 u2 : V) (r : RETURN_CODE) (s2 : zHash K V H),
      zHash.Insert Hp fuel2 s1 k v2 u2 = .ok (r, s2) →
      (r = .HASH_KEY_EXIST ∨ r = .ERR_MEMORY) ∧ s2.countKey k = 1 ∧
      s2.DataCount = s1.DataCount ∧ s2.records.Perm s1.records ∧
      ∃ s3, zHash.Value s2 k = .ok (some v1, s3)) ∧
    (∀ (fuel2 : Nat) (v2 u2 : V),
      (∃ e f l, s1.pBucket[s1.pos k]? = some e ∧ e.p = .list f l) →
      ∃ s2, zHash.Insert Hp (fuel2 + 1) s1 k v2 u2 = .ok (.HASH_KEY_EXIST, s2)) ∧
    (∀ (fuel2 : Nat) (v2 u2 : V), s1.Resizable = false →
      ∃ r s2, zHash.Insert Hp (fuel2 + 1) s1 k v2 u2 = .ok (r, s2)) := by
  have hs1 := (settled_insert Hp hw h1).1
  refine ⟨?_, fun fuel2 v2 u2 hl => insert_existing_list Hp s1 fuel2 k v2 u2 v1 hs1.1 hs1.2.2 hl,
    fun fuel2 v2 u2 hres => insert_existing_returns Hp s1 fuel2 k v2 u2 v1 hs1.1 hres hs1.2.2⟩
  intro fuel2 v2 u2 r s2 h2
  have hne : r ≠ .SUCCESS := by
    rintro rfl
    have := (settled_insert Hp hs1.1 h2).2.1
    rw [hs1.2.2] at this
    simp at this
  obtain ⟨hs2, hdc⟩ := settled_frame_fail Hp hs1 hne h2
  obtain ⟨-, -, -, -, -, a6, a7⟩ := hInsert_spec Hp fuel2 s1 k v2 u2 hs1.1 _ _ h2
  refine ⟨?_, countKey_of_lookup hs2.1 k v1 hs2.2.2, hdc, ?_, hs2.value⟩
  · cases r with
    | SUCCESS => exact absurd rfl hne
    | HASH_KEY_EXIST => exact Or.inl rfl
    | ERR_MEMORY => exact Or.inr rfl
  · cases r with
    | SUCCESS => exact absurd rfl hne
    | HASH_KEY_EXIST => exact (a6 rfl).1
    | ERR_MEMORY =>
      rcases (a7 rfl).1 with hp | hp
      · exact hp
      · have := (lookup_perm_cons hs1.1 hs2.1 k u2 hp).1
        rw [hs1.2.2] at this
        simp at this

end SecondInsert

set_option maxHeartbeats 4000000 in
set_option maxRecDepth 1000000 in
/-- C2, failing case.  In every table that satisfies the invariant of the table, after
`Insert(k, v1)` has returned SUCCESS a second `Insert(k, v2)` that returns does not return
SUCCESS, the table holds one record for `k`, the record count and the records are as
before, and `Value(k)` yields `v1`; the call returns HASH_KEY_EXIST when the bucket of `k`
holds a list.  When the bucket holds a tree the call can return ERR_MEMORY for the stored
key: in the table that is not resizable, after the inserts `packed` (197 records, all 103
tree nodes of the reserve in use, no removal), `Insert(2571, 77)` returns SUCCESS into the
leaf with the keys 1547 to 2315 of bucket 11, which is then full; the second
`Insert(2571, 78)` returns ERR_MEMORY, because the split of the full leaf on the way down
asks for a tree node before the key is compared; `Insert(11, 5)` for the stored key 11 of
the same tree, whose leaf is not full, returns HASH_KEY_EXIST. -/
theorem C2_second_insert_of_stored_key :
    (∀ (K V H : Type) [LinearOrder K] (Hp : zMemHeap H) (s s1 : zHash K V H) (fuel : Nat)
      (k : K) (v1 u : V), s.WF → zHash.Insert Hp fuel s k v1 u = .ok (.SUCCESS, s1) →
      (∀ (fuel2 : Nat) (v2 u2 : V) (r : RETURN_CODE) (s2 : zHash K V H),
        zHash.Insert Hp fuel2 s1 k v2 u2 = .ok (r, s2) →
        (r = .HASH_KEY_EXIST ∨ r = .ERR_MEMORY) ∧ s2.countKey k = 1 ∧
        s2.DataCount = s1.DataCount ∧ s2.records.Perm s1.records ∧
        ∃ s3, zHash.Value s2 k = .ok (some v1, s3)) ∧
      (∀ (fuel2 : Nat) (v2 u2 : V),
        (∃ e f l, s1.pBucket[s1.pos k]? = some e ∧ e.p = .list f l) →
        ∃ s2, zHash.Insert Hp (fuel2 + 1) s1 k v2 u2 = .ok (.HASH_KEY_EXIST, s2)) ∧
      (∀ (fuel2 : Nat) (v2 u2 : V), s1.Resizable = false →
        ∃ r s2, zHash.Insert Hp (fuel2 + 1) s1 k v2 u2 = .ok (r, s2))) ∧
    ∃ s s1 s2 s3 : Table, runOps fixedTable packed = some s ∧ s.WF ∧
      s.records.length = 197 ∧ s.treeNodes = 103 ∧
      slabHeap.LockAlloc s.pBTNodeHeap = (none, s.pBTNodeHeap) ∧
      zHash.Insert slabHeap 3 s 2571 77 0 = .ok (.SUCCESS, s1) ∧
      zHash.Insert slabHeap 3 s1 2571 78 0 = .ok (.ERR_MEMORY, s2) ∧
      s2.lookup 2571 = some 77 ∧ s2.records.length = 198 ∧
      s1.lookup 11 = some 0 ∧
      zHash.Insert slabHeap 3 s1 11 5 0 = .ok (.HASH_KEY_EXIST, s3) := by
  have h : onSome (runOps fixedTable packed) (fun s =>
      decide (s.records.length = 197) && decide (s.treeNodes = 103) &&
      decide (slabHeap.LockAlloc s.pBTNodeHeap = (none, s.pBTNodeHeap)) &&
      onOk (zHash.Insert slabHeap 3 s 2571 77 0) .SUCCESS (fun s1 =>
        decide (s1.lookup 11 = some 0) &&
        onOk (zHash.Insert slabHeap 3 s1 2571 78 0) .ERR_MEMORY (fun s2 =>
          decide (s2.lookup 2571 = some 77) && decide (s2.records.length = 198)) &&
        onOk (zHash.Insert slabHeap 3 s1 11 5 0) .HASH_KEY_EXIST (fun _ => true))) = true := by
    decide!
  obtain ⟨s, hs, h1⟩ := onSome_true h
  simp only [Bool.and_eq_true, decide_eq_true_eq] at h1
  obtain ⟨⟨⟨ha, hb⟩, hc⟩, h1⟩ := h1
  obtain ⟨s1, h1, h2⟩ := onOk_true h1
  simp only [Bool.and_eq_true, decide_eq_true_eq] at h2
  obtain ⟨⟨hd, h2⟩, h3⟩ := h2
  obtain ⟨s2, h2, he⟩ := onOk_true h2
  simp only [Bool.and_eq_true, decide_eq_true_eq] at he
  obtain ⟨s3, h3, -⟩ := onOk_true h3
  exact ⟨fun K V H _ Hp s s1 fuel k v1 u hw hi => second_insert Hp s s1 fuel k v1 u hw hi,
    s, s1, s2, s3, hs,
    reachable_WF slabHeap (reachable_runOps packed fixedTable s reachable_fixedTable hs),
    ha, hb, hc, h1, h2, he.1, he.2, hd, h3⟩

end ZZG
